import Mathlib

/-!
# Domain decomposition (`src/mdlib/domdec.c`): a shallow embedding

The C functions of the domain decomposition engine are translated into Lean
functions.  Conventions of the embedding:

* the C type `real` is idealised as exact rational arithmetic (`ℚ`);
* a C array is a total function from indices to values, a write is
  `Function.update`; counters and indices are natural numbers;
* a `while` loop is run with an explicit amount of fuel and returns `none`
  when the fuel does not suffice;
* `gmx_fatal` is the value `none` (or an `Except.error`) of the function.
-/

namespace Domdec

/-! ## Basic types -/

/-- The floating point type of the source, idealised as the rationals. -/
abbrev real := ℚ

/-- A Cartesian vector, `rvec` in the source. -/
abbrev rvec := Fin 3 → real

/-- Three box vectors, `matrix` in the source; `box d` is box vector `d`. -/
abbrev matrix := Fin 3 → rvec

/-- Three cell counts or cell coordinates, `ivec` in the source. -/
abbrev ivec := Fin 3 → Nat

/-- Number of Cartesian dimensions. -/
abbrev DIM : Nat := 3

/-- Cartesian index of x. -/
abbrev XX : Fin 3 := 0

/-- Cartesian index of y. -/
abbrev YY : Fin 3 := 1

/-- Cartesian index of z. -/
abbrev ZZ : Fin 3 := 2

/-- A `while (cond) body` loop run with fuel: `none` when the fuel runs out
before the condition turns false. -/
def while_loop {σ : Type} (cond : σ → Bool) (body : σ → σ) : Nat → σ → Option σ
  | 0, s => if cond s then none else some s
  | fuel + 1, s => if cond s then while_loop cond body fuel (body s) else some s

/-- The charge group block `t_block`: `nr` groups, group `c` holds the atoms
`index c ≤ a < index (c+1)`. -/
structure t_block where
  nr : Nat
  index : Nat → Nat

/-- The master's view of the decomposition, `gmx_domdec_master_t`. -/
structure gmx_domdec_master where
  /-- The cell boundaries, per Cartesian dimension. -/
  cell_x : Fin 3 → Nat → real
  /-- Number of home charge groups for each node. -/
  ncg : Nat → Nat
  /-- Index of nnodes+1 into cg. -/
  index : Nat → Nat
  /-- Global charge group index. -/
  cg : Nat → Nat
  /-- Number of home atoms for each node. -/
  nat : Nat → Int

/-- The macro `dd_index(n,i)`: x-major index of grid coordinate `i`. -/
def dd_index (n i : ivec) : Nat := ((i XX * n YY + i YY) * n ZZ) + i ZZ

/-! ## `distribute_cg` -/

/-- The function `make_tric_corr_matrix`; entries the source leaves unset are 0. -/
def make_tric_corr_matrix (box : matrix) : matrix :=
  let tyx : real := -(box YY XX) / box YY YY
  fun j d =>
    if j = YY ∧ d = XX then tyx
    else if j = ZZ ∧ d = XX then
      (if box ZZ ZZ > 0 then -(box ZZ YY * tyx + box ZZ XX) / box ZZ ZZ else 0)
    else if j = ZZ ∧ d = YY then
      (if box ZZ ZZ > 0 then -(box ZZ YY) / box ZZ ZZ else 0)
    else 0

/-- The centre of geometry of the atoms `k0 ≤ k < k1` (lines 2147-2161). -/
def cg_center (pos : Nat → rvec) (k0 k1 : Nat) : rvec :=
  let nrcg : real := (k1 : real) - (k0 : real)
  if nrcg = 1 then pos k0
  else
    let inv_ncg : real := 1 / nrcg
    let sum : rvec := (List.range' k0 (k1 - k0)).foldl (fun acc k => acc + pos k) 0
    fun d => inv_ncg * sum d

/-- The lattice coordinate `pos_d` of a centre along dimension `d`
(lines 2164-2169): triclinic coordinates are used when `tric` holds. -/
def lattice_pos (tric : Bool) (tcm : matrix) (cg_cm : rvec) (d : Fin 3) : real :=
  if tric then
    ((List.finRange 3).filter (fun j => d < j)).foldl
      (fun acc j => acc + cg_cm j * tcm j d) (cg_cm d)
  else cg_cm d

/-- The variables changed by the two wrapping loops of `distribute_cg`. -/
structure wrap_state where
  pos_d : real
  cg_cm : rvec
  pos : Nat → rvec

/-- The loop `for(k=k0; (k<k1); k++) rvec_dec(pos[k],b)`. -/
def rvec_dec_atoms (pos : Nat → rvec) (k0 k1 : Nat) (b : rvec) : Nat → rvec :=
  fun k => if k0 ≤ k ∧ k < k1 then pos k - b else pos k

/-- The loop `for(k=k0; (k<k1); k++) rvec_inc(pos[k],b)`. -/
def rvec_inc_atoms (pos : Nat → rvec) (k0 k1 : Nat) (b : rvec) : Nat → rvec :=
  fun k => if k0 ≤ k ∧ k < k1 then pos k + b else pos k

/-- Body of `while(pos_d >= box[d][d])` (lines 2171-2174). -/
def wrap_dec (box : matrix) (d : Fin 3) (k0 k1 : Nat) (s : wrap_state) : wrap_state :=
  { pos_d := s.pos_d - box d d
    cg_cm := s.cg_cm - box d
    pos := rvec_dec_atoms s.pos k0 k1 (box d) }

/-- Body of `while(pos_d < 0)` (lines 2177-2180). -/
def wrap_inc (box : matrix) (d : Fin 3) (k0 k1 : Nat) (s : wrap_state) : wrap_state :=
  { pos_d := s.pos_d + box d d
    cg_cm := s.cg_cm + box d
    pos := rvec_inc_atoms s.pos k0 k1 (box d) }

/-- The cell search `while(ind[d]+1 < dd->nc[d] && pos_d >= cell_x[d][ind[d]+1])`
(lines 2183-2185). -/
def find_ind (nc : Nat) (cell_x : Nat → real) (pos_d : real) : Option Nat :=
  while_loop (fun ind => decide (ind + 1 < nc) && decide (pos_d ≥ cell_x (ind + 1)))
    (fun ind => ind + 1) nc 0

/-- One pass of the loop over `d` in `distribute_cg` (lines 2164-2185) for the
charge group with atoms `k0 ≤ k < k1`: the wrapped state and `ind[d]`. -/
def distribute_cg_dim (fuel : Nat) (nc : ivec) (tric_dir : Fin 3 → Bool)
    (box tcm : matrix) (cell_x : Fin 3 → Nat → real) (k0 k1 : Nat) (d : Fin 3)
    (cg_cm : rvec) (pos : Nat → rvec) : Option (wrap_state × Nat) := do
  let s0 : wrap_state :=
    { pos_d := lattice_pos (tric_dir d && decide (nc d > 1)) tcm cg_cm d
      cg_cm := cg_cm
      pos := pos }
  let s1 ← while_loop (fun s => decide (s.pos_d ≥ box d d)) (wrap_dec box d k0 k1) fuel s0
  let s2 ← while_loop (fun s => decide (s.pos_d < 0)) (wrap_inc box d k0 k1) fuel s1
  let ind ← find_ind (nc d) (cell_x d) s2.pos_d
  pure (s2, ind)

/-- What the loop over `d = DIM-1 .. 0` leaves for one charge group. -/
structure cg_placed where
  cg_cm : rvec
  pos : Nat → rvec
  ind : ivec
  /-- The value of `pos_d` at the end of each pass. -/
  pos_d : rvec

/-- The loop `for(d=DIM-1; d>=0; d--)` of `distribute_cg` (lines 2163-2186). -/
def distribute_cg_place (fuel : Nat) (nc : ivec) (tric_dir : Fin 3 → Bool)
    (box tcm : matrix) (cell_x : Fin 3 → Nat → real) (k0 k1 : Nat)
    (cg_cm : rvec) (pos : Nat → rvec) : Option cg_placed := do
  let (s2, i2) ← distribute_cg_dim fuel nc tric_dir box tcm cell_x k0 k1 ZZ cg_cm pos
  let (s1, i1) ← distribute_cg_dim fuel nc tric_dir box tcm cell_x k0 k1 YY s2.cg_cm s2.pos
  let (s0, i0) ← distribute_cg_dim fuel nc tric_dir box tcm cell_x k0 k1 XX s1.cg_cm s1.pos
  pure { cg_cm := s0.cg_cm
         pos := s0.pos
         ind := fun d => if d = XX then i0 else if d = YY then i1 else i2
         pos_d := fun d => if d = XX then s0.pos_d else if d = YY then s1.pos_d else s2.pos_d }

/-- The variables of the loop over the charge groups in `distribute_cg`. -/
structure distribute_state where
  pos : Nat → rvec
  ma : gmx_domdec_master
  tmp_ind : Nat → Nat → Nat

/-- Body of the loop over `icg` in `distribute_cg` (lines 2147-2194). -/
def distribute_cg_icg (fuel : Nat) (nc : ivec) (tric_dir : Fin 3 → Bool)
    (box : matrix) (cgs : t_block) (s : distribute_state) (icg : Nat) :
    Option distribute_state := do
  let k0 := cgs.index icg
  let k1 := cgs.index (icg + 1)
  let tcm := make_tric_corr_matrix box
  let cg_cm := cg_center s.pos k0 k1
  let r ← distribute_cg_place fuel nc tric_dir box tcm s.ma.cell_x k0 k1 cg_cm s.pos
  let i := dd_index nc r.ind
  pure { pos := r.pos
         tmp_ind := Function.update s.tmp_ind i (Function.update (s.tmp_ind i) (s.ma.ncg i) icg)
         ma := { s.ma with
                 ncg := Function.update s.ma.ncg i (s.ma.ncg i + 1)
                 nat := Function.update s.ma.nat i
                   (s.ma.nat i + ((cgs.index (icg + 1) : Int) - (cgs.index icg : Int))) } }

/-- The loop `for(icg=0; icg<cgs->nr; icg++)` of `distribute_cg`, run on the
charge groups of the list `l`. -/
def distribute_cg_loop (fuel : Nat) (nc : ivec) (tric_dir : Fin 3 → Bool)
    (box : matrix) (cgs : t_block) : List Nat → distribute_state → Option distribute_state
  | [], s => some s
  | icg :: l, s =>
    match distribute_cg_icg fuel nc tric_dir box cgs s icg with
    | none => none
    | some s1 => distribute_cg_loop fuel nc tric_dir box cgs l s1

/-- The inner copy loop `for(k=0; k<ma->ncg[i]; k++) ma->cg[k1++] = tmp_ind[i][k]`. -/
def copy_tmp_ind (tmp : Nat → Nat) : List Nat → Nat × (Nat → Nat) → Nat × (Nat → Nat)
  | [], s => s
  | k :: l, (k1, cg) => copy_tmp_ind tmp l (k1 + 1, Function.update cg k1 (tmp k))

/-- The loop over the nodes that fills `ma->index` and `ma->cg` (lines 2197-2202). -/
def fill_master (ncg : Nat → Nat) (tmp_ind : Nat → Nat → Nat) :
    List Nat → Nat × (Nat → Nat) × (Nat → Nat) → Nat × (Nat → Nat) × (Nat → Nat)
  | [], s => s
  | i :: l, (k1, index, cg) =>
    let r := copy_tmp_ind (tmp_ind i) (List.range (ncg i)) (k1, cg)
    fill_master ncg tmp_ind l (r.1, Function.update index i k1, r.2)

/-- The function `distribute_cg` after the cell boundaries `ma->cell_x` have
been set: the wrapped coordinates and the master's division (lines 2135-2203).
The node count is `nnodes`; `tric_dir` is the flag array set by `set_tric_dir`. -/
def distribute_cg (fuel : Nat) (nnodes : Nat) (nc : ivec) (tric_dir : Fin 3 → Bool)
    (box : matrix) (cgs : t_block) (pos : Nat → rvec) (ma : gmx_domdec_master)
    (tmp_ind : Nat → Nat → Nat) : Option ((Nat → rvec) × gmx_domdec_master) := do
  let cleared : gmx_domdec_master :=
    { ma with
      ncg := fun i => if i < nnodes then 0 else ma.ncg i
      nat := fun i => if i < nnodes then 0 else ma.nat i }
  let s ← distribute_cg_loop fuel nc tric_dir box cgs (List.range cgs.nr)
            { pos := pos, ma := cleared, tmp_ind := tmp_ind }
  let r := fill_master s.ma.ncg s.tmp_ind (List.range nnodes) (0, s.ma.index, s.ma.cg)
  pure (s.pos, { s.ma with index := Function.update r.2.1 nnodes r.1, cg := r.2.2 })

/-! ## Auxiliary notions for the statements about `distribute_cg` -/

/-- The combination `n 0 * box 0 + n 1 * box 1 + n 2 * box 2` of the box vectors. -/
def box_comb (box : matrix) (n : Fin 3 → ℤ) : rvec :=
  fun j => (n 0 : real) * box 0 j + (n 1 : real) * box 1 j + (n 2 : real) * box 2 j

/-- Invariant of the two wrapping loops. -/
def wrap_inv (box : matrix) (d : Fin 3) (k0 k1 : Nat) (s0 s : wrap_state) : Prop :=
  ∃ n : ℤ, s.pos_d = s0.pos_d + (n : real) * box d d ∧
    s.cg_cm = s0.cg_cm + (n : real) • box d ∧
    s.pos = rvec_inc_atoms s0.pos k0 k1 ((n : real) • box d)

/-- A fuel-indexed computation keeps its result when given more fuel. -/
def FuelMono {α : Type} (f : Nat → Option α) : Prop :=
  ∀ fuel r, f fuel = some r → ∀ k, f (fuel + k) = some r

/-- The charge groups that `tmp_ind` lists for node `i`. -/
def node_list (ncg : Nat → Nat) (tmp_ind : Nat → Nat → Nat) (i : Nat) : List Nat :=
  (List.range (ncg i)).map (tmp_ind i)

/-- The number of atoms of global charge group `c`, as the source computes it. -/
def cg_size (cgs : t_block) (c : Nat) : Int := (cgs.index (c + 1) : Int) - (cgs.index c : Int)

/-- Invariant of the loop over the charge groups: the node lists hold exactly
the groups `done`, and `ma->nat` counts their atoms. -/
def distribute_inv (nnodes : Nat) (cgs : t_block) (s : distribute_state) (done : List Nat) :
    Prop :=
  (∑ i ∈ Finset.range nnodes, (↑(node_list s.ma.ncg s.tmp_ind i) : Multiset Nat)) = ↑done ∧
  ∀ i, i < nnodes → s.ma.nat i = ((node_list s.ma.ncg s.tmp_ind i).map (cg_size cgs)).sum

/-! ## A small concrete system: two cells along x in a cubic box -/

/-- A cubic box of length 10. -/
def ex_box : matrix := fun i j => if i = j then 10 else 0

/-- The grid `nc = (2,1,1)`. -/
def ex_nc : ivec := fun d => if d = XX then 2 else 1

/-- Two charge groups of one atom each. -/
def ex_cgs : t_block := { nr := 2, index := fun c => c }

/-- Atom 0 at (1,1,1) and the other atoms at (6,6,6). -/
def ex_pos : Nat → rvec := fun k _ => if k = 0 then 1 else 6

/-- A master record with the uniform cell boundaries of `ex_nc` in `ex_box`. -/
def ex_ma : gmx_domdec_master :=
  { cell_x := fun d j => if d = XX then 5 * (j : real) else 10 * (j : real)
    ncg := fun _ => 0
    index := fun _ => 0
    cg := fun _ => 0
    nat := fun _ => 0 }

/-- The state of the loop over the charge groups before the first group. -/
def ex_distribute_state : distribute_state :=
  { pos := ex_pos, ma := ex_ma, tmp_ind := fun _ _ => 0 }

/-! ## `dd_collect_vec` and `dd_distribute_vec` -/

/-- The message of `MPI_Send(buf, count, ...)`: the first `count` elements. -/
def mpi_send {α : Type} (buf : Nat → α) (count : Int) : List α :=
  (List.range count.toNat).map buf

/-- The call `MPI_Recv(buf, count, ...)` when the message `msg` arrives: the
message is stored at the start of `buf`; a message longer than `count` is an
error. -/
def mpi_recv {α : Type} (count : Int) (msg : List α) (buf : Nat → α) : Option (Nat → α) :=
  if (msg.length : Int) ≤ count then some (fun a => msg.getD a (buf a)) else none

/-- The inner loop `for(c=...; c<...; c++) copy_rvec(buf[a++],v[c])` of
`dd_collect_vec`, over the atoms `c` of the list. -/
def collect_atoms {α : Type} (buf : Nat → α) :
    List Nat → Nat × (Nat → α) → Nat × (Nat → α)
  | [], s => s
  | c :: l, (a, v) => collect_atoms buf l (a + 1, Function.update v c (buf a))

/-- The atoms `cgs->index[cg] ≤ c < cgs->index[cg+1]` of global charge group `cg`. -/
def cg_atoms (cgs : t_block) (cg : Nat) : List Nat :=
  List.range' (cgs.index cg) (cgs.index (cg + 1) - cgs.index cg)

/-- The positions `ma->index[n] ≤ i < ma->index[n+1]` of node `n` in `ma->cg`. -/
def node_range (ma : gmx_domdec_master) (n : Nat) : List Nat :=
  List.range' (ma.index n) (ma.index (n + 1) - ma.index n)

/-- The loop `for(i=ma->index[n]; i<ma->index[n+1]; i++)` of `dd_collect_vec`
around `collect_atoms`, over the positions `i` of the list. -/
def collect_cgs {α : Type} (ma : gmx_domdec_master) (cgs : t_block) (buf : Nat → α) :
    List Nat → Nat × (Nat → α) → Nat × (Nat → α)
  | [], s => s
  | i :: l, s => collect_cgs ma cgs buf l (collect_atoms buf (cg_atoms cgs (ma.cg i)) s)

/-- Copying the local vector `buf` of node `n` into the global vector `v`
(lines 865-868 and 880-883). -/
def collect_node {α : Type} (ma : gmx_domdec_master) (cgs : t_block) (n : Nat)
    (buf v : Nat → α) : Nat → α :=
  (collect_cgs ma cgs buf (node_range ma n) (0, v)).2

/-- The loop `for(n=0; n<dd->nnodes; n++)` of `dd_collect_vec` on the master
`rank`: node `n` has sent the first `nat_home n` elements of its vector `lv n`. -/
def dd_collect_vec_loop {α : Type} (ma : gmx_domdec_master) (cgs : t_block) (rank : Nat)
    (nat_home : Nat → Nat) (lv : Nat → Nat → α) :
    List Nat → (Nat → α) × (Nat → α) → Option ((Nat → α) × (Nat → α))
  | [], s => some s
  | n :: l, (buf, v) =>
    if n ≠ rank then
      match mpi_recv (ma.nat n) (mpi_send (lv n) (nat_home n)) buf with
      | none => none
      | some buf1 =>
        dd_collect_vec_loop ma cgs rank nat_home lv l (buf1, collect_node ma cgs n buf1 v)
    else dd_collect_vec_loop ma cgs rank nat_home lv l (buf, v)

/-- The function `dd_collect_vec` as the master `rank` sees it, when the master
has the charge group distribution (`bMasterHasAllCG`): the global vector
after all local vectors have been received; `buf` is the receive buffer. -/
def dd_collect_vec {α : Type} (ma : gmx_domdec_master) (cgs : t_block) (nnodes rank : Nat)
    (nat_home : Nat → Nat) (lv : Nat → Nat → α) (buf v : Nat → α) : Option (Nat → α) :=
  (dd_collect_vec_loop ma cgs rank nat_home lv (List.range nnodes)
    (buf, collect_node ma cgs rank (lv rank) v)).map Prod.snd

/-- The inner loop `for(c=...; c<...; c++) copy_rvec(v[c],buf[a++])` of
`dd_distribute_vec`. -/
def distribute_atoms {α : Type} (v : Nat → α) :
    List Nat → Nat × (Nat → α) → Nat × (Nat → α)
  | [], s => s
  | c :: l, (a, buf) => distribute_atoms v l (a + 1, Function.update buf a (v c))

/-- The loop over the positions `i` of a node in `dd_distribute_vec`. -/
def distribute_cgs {α : Type} (ma : gmx_domdec_master) (cgs : t_block) (v : Nat → α) :
    List Nat → Nat × (Nat → α) → Nat × (Nat → α)
  | [], s => s
  | i :: l, s => distribute_cgs ma cgs v l (distribute_atoms v (cg_atoms cgs (ma.cg i)) s)

/-- Copying the part of node `n` of the global vector `v` into `buf`
(lines 956-959 and 971-974): the final counter `a` and the buffer. -/
def distribute_node {α : Type} (ma : gmx_domdec_master) (cgs : t_block) (n : Nat)
    (v buf : Nat → α) : Nat × (Nat → α) :=
  distribute_cgs ma cgs v (node_range ma n) (0, buf)

/-- The loop `for(n=0; n<dd->nnodes; n++)` of `dd_distribute_vec` on the master
`rank`; node `n` receives `nat_home n` elements into its local vector. The
state is the send buffer and the local vectors of all nodes. -/
def dd_distribute_vec_loop {α : Type} (ma : gmx_domdec_master) (cgs : t_block) (rank : Nat)
    (nat_home : Nat → Nat) (v : Nat → α) :
    List Nat → (Nat → α) × (Nat → Nat → α) → Option ((Nat → α) × (Nat → Nat → α))
  | [], s => some s
  | n :: l, (buf, lv) =>
    if n ≠ rank then
      if ((distribute_node ma cgs n v buf).1 : Int) ≠ ma.nat n then none
      else
        match mpi_recv (nat_home n) (mpi_send (distribute_node ma cgs n v buf).2 (ma.nat n))
            (lv n) with
        | none => none
        | some lvn =>
          dd_distribute_vec_loop ma cgs rank nat_home v l
            ((distribute_node ma cgs n v buf).2, Function.update lv n lvn)
    else dd_distribute_vec_loop ma cgs rank nat_home v l (buf, lv)

/-- The function `dd_distribute_vec` with the master `rank`: the local vectors
of all nodes after the global vector `v` has been sent out. -/
def dd_distribute_vec {α : Type} (ma : gmx_domdec_master) (cgs : t_block) (nnodes rank : Nat)
    (nat_home : Nat → Nat) (v : Nat → α) (buf : Nat → α) (lv : Nat → Nat → α) :
    Option (Nat → Nat → α) :=
  (dd_distribute_vec_loop ma cgs rank nat_home v (List.range nnodes) (buf, lv)).map
    (fun s => Function.update s.2 rank (distribute_node ma cgs rank v (s.2 rank)).2)

/-- All global atoms of node `n`, in the order of its local vector. -/
def node_atoms (ma : gmx_domdec_master) (cgs : t_block) (n : Nat) : List Nat :=
  (node_range ma n).flatMap (fun i => cg_atoms cgs (ma.cg i))

/-- The global vector `v` holds the local vector `lv n` of node `n`. -/
def holds_node {α : Type} (ma : gmx_domdec_master) (cgs : t_block) (lv : Nat → Nat → α)
    (v : Nat → α) (n : Nat) : Prop :=
  ∀ k (h : k < (node_atoms ma cgs n).length), v ((node_atoms ma cgs n).get ⟨k, h⟩) = lv n k

/-- An ownership map of two nodes: node 0 owns charge group 1, node 1 owns
charge group 0; each group has one atom. -/
def ex_ma_swapped : gmx_domdec_master :=
  { cell_x := fun _ _ => 0
    ncg := fun _ => 1
    index := fun n => n
    cg := fun i => 1 - i
    nat := fun _ => 1 }

/-- Local vectors of natural numbers: node `n` holds `10 * n + a` at place `a`. -/
def ex_lv : Nat → Nat → Nat := fun n a => 10 * n + a

/-! ## `setup_dd_communication` for a decomposition along one dimension -/

/-- The fields of `gmx_domdec_t` (and `fr->cg_cm`) of one rank that the halo
setup reads and writes. -/
structure dd_local where
  /-- Number of home charge groups. -/
  ncg_home : Nat
  /-- Number of home and halo charge groups, `ncg_cell[dd->ncell]`. -/
  ncg_tot : Nat
  /-- Global charge group index of each local charge group. -/
  index_gl : Nat → Nat
  /-- First local atom of each local charge group. -/
  cgindex : Nat → Nat
  /-- Centre of geometry of each local charge group. -/
  cg_cm : Nat → rvec
  /-- Lower cell boundaries. -/
  cell_x0 : rvec
  /-- Upper cell boundaries. -/
  cell_x1 : rvec

/-- What one pulse of the halo setup leaves in the send buffers of a rank. -/
structure halo_send where
  /-- The number of charge groups selected, `ind->nsend[ncell]`. -/
  nsend : Nat
  /-- The number of atoms selected, `ind->nsend[ncell+1]`. -/
  nat : Nat
  /-- The local indices `ind->index` of the selected charge groups. -/
  index : Nat → Nat
  /-- The global indices `comm->buf_int` of the selected charge groups. -/
  buf_int : Nat → Nat
  /-- The centres `comm->buf_vr` of the selected charge groups. -/
  buf_vr : Nat → rvec

/-- Body of the loop over `cg` in `setup_dd_communication` (lines 4730-4827)
in a rectangular direction (`tric_dist[dim_ind] == 0`) of the first
decomposition dimension (`dim_ind == 0`, no rounding terms) with one cut-off
(`bTwoCut` false); `ci_dim` is `dd->ci[dim]`. -/
def halo_select_cg (dim : Fin 3) (corner r_comm2 : real) (ci_dim : Nat) (box : matrix)
    (dd : dd_local) (s : halo_send) (cg : Nat) : halo_send :=
  let r : real := dd.cg_cm cg dim - corner
  let r2 : real := if r > 0 then 0 + r * r else 0
  if r2 < r_comm2 then
    { nsend := s.nsend + 1
      nat := s.nat + (dd.cgindex (cg + 1) - dd.cgindex cg)
      index := Function.update s.index s.nsend cg
      buf_int := Function.update s.buf_int s.nsend (dd.index_gl cg)
      buf_vr := Function.update s.buf_vr s.nsend
        (if ci_dim = 0 then dd.cg_cm cg + box dim else dd.cg_cm cg) }
  else s

/-- The loop `for(cg=cg0; cg<cg1; cg++)` of `setup_dd_communication`. -/
def halo_select (dim : Fin 3) (corner r_comm2 : real) (ci_dim : Nat) (box : matrix)
    (dd : dd_local) : List Nat → halo_send → halo_send
  | [], s => s
  | cg :: l, s =>
    halo_select dim corner r_comm2 ci_dim box dd l
      (halo_select_cg dim corner r_comm2 ci_dim box dd s cg)

/-- The send buffers of the rank with cell coordinate `ci_dim` in the single
pulse of a one-dimensional decomposition along `dim`: the home charge groups
`0 ≤ cg < ncg_home` are tested against the corner `cell_x0[dim]`
(lines 4608-4610, 4698-4830 with `ndim = 1`, `np = 1`, `ncell = 1`). -/
def halo_send_1d (dim : Fin 3) (cutoff : real) (box : matrix) (ci_dim : Nat) (dd : dd_local)
    (buf : halo_send) : halo_send :=
  halo_select dim (dd.cell_x0 dim) (cutoff * cutoff) ci_dim box dd (List.range dd.ncg_home)
    { nsend := 0, nat := 0, index := buf.index, buf_int := buf.buf_int, buf_vr := buf.buf_vr }

/-- Forward neighbour along a dimension with `nc` cells, as `setup_dd_grid`
computes it. -/
def neighbor_fw (nc ci : Nat) : Nat := (ci + 1) % nc

/-- Backward neighbour along a dimension with `nc` cells, as `setup_dd_grid`
computes it: `(tmp[dim] - 1 + dd->nc[dim]) % dd->nc[dim]` in `int` arithmetic,
where `%` truncates towards zero. -/
def neighbor_bw (nc ci : Nat) : Nat := (Int.tmod ((ci : Int) - 1 + (nc : Int)) (nc : Int)).toNat

/-- The loop that makes the charge group index of the `n` received groups
starting at `pos_cg` (lines 4892-4897). -/
def halo_make_cgindex (gcgs_index : Nat → Nat) (index_gl : Nat → Nat) :
    Nat → Nat → (Nat → Nat) → Nat → Nat
  | 0, _, cgindex => cgindex
  | n + 1, pos_cg, cgindex =>
    halo_make_cgindex gcgs_index index_gl n (pos_cg + 1)
      (Function.update cgindex (pos_cg + 1)
        (cgindex pos_cg + (gcgs_index (index_gl pos_cg + 1) - gcgs_index (index_gl pos_cg))))

/-- The function `setup_dd_communication` on rank `ci` of a decomposition into
`nc` cells along the one dimension `dim` with one pulse, in a rectangular box:
every rank selects with `halo_send_1d`, sends backward and receives in place
from its forward neighbour (lines 4833-4902, 4917-4921). The ranks are
numbered by their cell coordinate; `ranks` gives the state of each rank and
`bufs` the prior content of its send buffers. -/
def setup_dd_communication_1d (nc : Nat) (dim : Fin 3) (cutoff : real) (box : matrix)
    (gcgs_index : Nat → Nat) (ranks : Nat → dd_local) (bufs : Nat → halo_send) (ci : Nat) :
    dd_local :=
  let dd := ranks ci
  let fw := neighbor_fw nc ci
  let recv := halo_send_1d dim cutoff box fw (ranks fw) (bufs fw)
  let pos_cg := dd.ncg_home
  let index_gl : Nat → Nat := fun i =>
    if pos_cg ≤ i ∧ i < pos_cg + recv.nsend then recv.buf_int (i - pos_cg) else dd.index_gl i
  let cg_cm : Nat → rvec := fun i =>
    if pos_cg ≤ i ∧ i < pos_cg + recv.nsend then recv.buf_vr (i - pos_cg) else dd.cg_cm i
  { dd with
    index_gl := index_gl
    cg_cm := cg_cm
    cgindex := halo_make_cgindex gcgs_index index_gl recv.nsend pos_cg dd.cgindex
    ncg_tot := pos_cg + recv.nsend }

/-- The global charge group `g` is in the HOME or ZONE set of the rank state `dd`. -/
def in_home_or_zone (dd : dd_local) (g : Nat) : Prop :=
  ∃ i, i < dd.ncg_tot ∧ dd.index_gl i = g

/-- Two points are closer than `cutoff` under the periodic boundary conditions
of a rectangular box: some periodic image of `b` is closer than `cutoff` to `a`. -/
def pbc_closer (box : matrix) (a b : rvec) (cutoff : real) : Prop :=
  ∃ k : Fin 3 → ℤ,
    (a 0 - b 0 + (k 0 : real) * box 0 0) ^ 2 + (a 1 - b 1 + (k 1 : real) * box 1 1) ^ 2
      + (a 2 - b 2 + (k 2 : real) * box 2 2) ^ 2 < cutoff ^ 2

/-- A cubic box of length 30. -/
def ex_box30 : matrix := fun i j => if i = j then 30 else 0

/-- Three ranks along x with cells `[0,10)`, `[10,20)`, `[20,30)`: rank 0 owns
charge group 0 at x = 9, rank 1 owns charge group 1 at x = 11, rank 2 owns
nothing. -/
def ex_halo_ranks : Nat → dd_local := fun R =>
  { ncg_home := if R < 2 then 1 else 0
    ncg_tot := if R < 2 then 1 else 0
    index_gl := fun _ => R
    cgindex := fun i => i
    cg_cm := fun _ d => if d = XX then (if R = 0 then 9 else 11) else 0
    cell_x0 := fun d => if d = XX then 10 * (R : real) else 0
    cell_x1 := fun d => if d = XX then 10 * (R : real) + 10 else 30 }

/-- Empty send buffers. -/
def ex_halo_bufs : Nat → halo_send := fun _ =>
  { nsend := 0, nat := 0, index := fun _ => 0, buf_int := fun _ => 0, buf_vr := fun _ _ => 0 }

/-! ## `dd_move_x` and `dd_move_f` -/

/-- The index lists of one pulse, `gmx_domdec_ind_t`. -/
structure gmx_domdec_ind where
  /-- Charge groups to send per cell; entry `ncell` is their total and entry
  `ncell+1` the number of atoms. -/
  nsend : Nat → Nat
  /-- Charge groups to receive per cell; entry `ncell` is their total and entry
  `ncell+1` the number of atoms. -/
  nrecv : Nat → Nat
  /-- The charge groups to send. -/
  index : Nat → Nat
  /-- Start of the atom range per cell for non-in-place communication. -/
  cell2at0 : Nat → Nat
  /-- End of the atom range per cell for non-in-place communication. -/
  cell2at1 : Nat → Nat

/-- The communication setup of one decomposition dimension,
`gmx_domdec_comm_dim_t`. -/
structure gmx_domdec_comm_dim where
  /-- Number of grid pulses in this dimension. -/
  np : Nat
  /-- The indices to communicate, one entry per pulse. -/
  ind : Nat → gmx_domdec_ind
  /-- Can we communicate in place? -/
  bInPlace : Bool

/-- The fields of `gmx_domdec_t` and of its `comm` that `dd_move_x` and
`dd_move_f` read. -/
structure gmx_domdec where
  /-- Cell coordinate of this rank. -/
  ci : ivec
  /-- Number of decomposition dimensions. -/
  ndim : Nat
  /-- The Cartesian dimension of each decomposition dimension. -/
  dim : Nat → Fin 3
  /-- The ranks `neighbor[d][0]` (forward) and `neighbor[d][1]` (backward). -/
  neighbor : Nat → Nat → Nat
  /-- Number of home atoms. -/
  nat_home : Nat
  /-- Number of home and halo atoms. -/
  nat_tot : Nat
  /-- Number of cells, `dd->ncell`. -/
  ncell : Nat
  /-- First atom of each local charge group. -/
  cgindex : Nat → Nat
  /-- The communication setup per decomposition dimension, `comm->cd`. -/
  cd : Nat → gmx_domdec_comm_dim

/-- The atoms visited by the loops `for(i=0; i<ind->nsend[ncell]; i++)
for(j=cgindex[index[i]]; j<cgindex[index[i]+1]; j++)`, in loop order. -/
def ind_atoms (cgindex : Nat → Nat) (ind : gmx_domdec_ind) (ncell : Nat) : List Nat :=
  (List.range (ind.nsend ncell)).flatMap (fun i =>
    List.range' (cgindex (ind.index i)) (cgindex (ind.index i + 1) - cgindex (ind.index i)))

/-- The atoms visited by the loops `for(cell=0; cell<ncell; cell++)
for(i=ind->cell2at0[cell]; i<ind->cell2at1[cell]; i++)`, in loop order. -/
def cell2at_atoms (ind : gmx_domdec_ind) (ncell : Nat) : List Nat :=
  (List.range ncell).flatMap (fun cell =>
    List.range' (ind.cell2at0 cell) (ind.cell2at1 cell - ind.cell2at0 cell))

/-- The packing loop of `dd_move_x` (lines 548-563) over the atoms `j` of the
list: `buf[n++] = x[j] + shift` when the rank is at the lower box edge
(`at_edge`, that is `dd->ci[dd->dim[d]] == 0`), else `buf[n++] = x[j]`. -/
def move_x_pack (at_edge : Bool) (shift : rvec) (x : Nat → rvec) :
    List Nat → Nat × (Nat → rvec) → Nat × (Nat → rvec)
  | [], s => s
  | j :: l, (n, buf) =>
    move_x_pack at_edge shift x l
      (n + 1, Function.update buf n (if at_edge then x j + shift else x j))

/-- The call `MPI_Recv(x + off, count, ...)`: the message is stored in `x`
from place `off` on; a message longer than `count` is an error. -/
def mpi_recv_at {α : Type} (count : Int) (msg : List α) (x : Nat → α) (off : Nat) :
    Option (Nat → α) :=
  if (msg.length : Int) ≤ count then
    some (fun a => if off ≤ a then msg.getD (a - off) (x a) else x a)
  else none

/-- The variables of `dd_move_x` that change, and the messages sent so far. -/
structure move_x_state where
  x : Nat → rvec
  buf : Nat → rvec
  buf_vr2 : Nat → rvec
  nat_tot : Nat
  sent : List (List rvec)

/-- One pass of the loop over the pulses `p` of `dd_move_x` (lines 546-582) in
decomposition dimension `d`; `recv d p` is the message that arrives from the
forward neighbour in this pulse. -/
def dd_move_x_pulse (dd : gmx_domdec) (box : matrix) (recv : Nat → Nat → List rvec)
    (ncell d : Nat) (s : move_x_state) (p : Nat) : Option move_x_state :=
  let packed := move_x_pack (decide (dd.ci (dd.dim d) = 0)) (box (dd.dim d)) s.x
    (ind_atoms dd.cgindex ((dd.cd d).ind p) ncell) (0, s.buf)
  let msg := mpi_send packed.2 (((dd.cd d).ind p).nsend (ncell + 1))
  if (dd.cd d).bInPlace then
    match mpi_recv_at (((dd.cd d).ind p).nrecv (ncell + 1)) (recv d p) s.x s.nat_tot with
    | none => none
    | some x1 =>
      some { x := x1, buf := packed.2, buf_vr2 := s.buf_vr2
             nat_tot := s.nat_tot + ((dd.cd d).ind p).nrecv (ncell + 1)
             sent := s.sent ++ [msg] }
  else
    match mpi_recv (((dd.cd d).ind p).nrecv (ncell + 1)) (recv d p) s.buf_vr2 with
    | none => none
    | some rbuf =>
      some { x := (collect_atoms rbuf (cell2at_atoms ((dd.cd d).ind p) ncell) (0, s.x)).2
             buf := packed.2, buf_vr2 := rbuf
             nat_tot := s.nat_tot + ((dd.cd d).ind p).nrecv (ncell + 1)
             sent := s.sent ++ [msg] }

/-- The loop `for(p=0; p<cd->np; p++)` of `dd_move_x`. -/
def dd_move_x_pulses (dd : gmx_domdec) (box : matrix) (recv : Nat → Nat → List rvec)
    (ncell d : Nat) : List Nat → move_x_state → Option move_x_state
  | [], s => some s
  | p :: l, s =>
    match dd_move_x_pulse dd box recv ncell d s p with
    | none => none
    | some s1 => dd_move_x_pulses dd box recv ncell d l s1

/-- The loop `for(d=0; d<dd->ndim; d++)` of `dd_move_x`, with `ncell += ncell`
after each dimension. -/
def dd_move_x_dims (dd : gmx_domdec) (box : matrix) (recv : Nat → Nat → List rvec) :
    List Nat → Nat → move_x_state → Option move_x_state
  | [], _, s => some s
  | d :: l, ncell, s =>
    match dd_move_x_pulses dd box recv ncell d (List.range (dd.cd d).np) s with
    | none => none
    | some s1 => dd_move_x_dims dd box recv l (ncell + ncell) s1

/-- The function `dd_move_x` on one rank: `recv d p` is the message delivered
by the forward neighbour in pulse `p` of dimension `d`; the result holds the
new coordinates and the messages sent backward, in order. -/
def dd_move_x (dd : gmx_domdec) (box : matrix) (recv : Nat → Nat → List rvec)
    (x buf buf_vr2 : Nat → rvec) : Option move_x_state :=
  dd_move_x_dims dd box recv (List.range dd.ndim) 1
    { x := x, buf := buf, buf_vr2 := buf_vr2, nat_tot := dd.nat_home, sent := [] }

/-- The message a rank sends in the first pulse of the first dimension of
`dd_move_x`; it depends on the coordinates before the call only. -/
def dd_move_x_first_message (dd : gmx_domdec) (box : matrix) (x buf : Nat → rvec) : List rvec :=
  mpi_send (move_x_pack (decide (dd.ci (dd.dim 0) = 0)) (box (dd.dim 0)) x
    (ind_atoms dd.cgindex ((dd.cd 0).ind 0) 1) (0, buf)).2 (((dd.cd 0).ind 0).nsend 2)

/-- A cubic box of length `L`. -/
def cubic_box (L : real) : matrix := fun i j => if i = j then L else 0

/-- The vector `v` shifted by `L` along x. -/
def shift_x (L : real) (v : rvec) : rvec := fun d => if d = XX then v d + L else v d

/-- A rank of the decomposition `nc = (2,1,1)` with cell coordinate `cix` along
x: one home atom forming one home charge group, which is sent in the single
pulse, and one atom to receive. -/
def ex_dd (cix : Nat) : gmx_domdec :=
  { ci := fun d => if d = XX then cix else 0
    ndim := 1
    dim := fun _ => XX
    neighbor := fun _ _ => 1 - cix
    nat_home := 1
    nat_tot := 2
    ncell := 2
    cgindex := fun i => i
    cd := fun _ =>
      { np := 1
        bInPlace := true
        ind := fun _ =>
          { nsend := fun _ => 1, nrecv := fun _ => 1, index := fun _ => 0
            cell2at0 := fun _ => 0, cell2at1 := fun _ => 0 } } }

/-- Coordinates on rank 0: the home atom is at (1,1,1). -/
def ex_x0 : Nat → rvec := fun _ _ => 1

/-- Coordinates on rank 1: the home atom is at (6,6,6). -/
def ex_x1 : Nat → rvec := fun _ _ => 6

/-! ## Force communication: `dd_move_f` -/

/-- The loop `copy_rvec(f[i],sbuf[j]); j++` of `dd_move_f` (lines 617-622),
over the atoms `i` of the list. -/
def move_f_gather (f : Nat → rvec) : List Nat → Nat × (Nat → rvec) → Nat × (Nat → rvec)
  | [], s => s
  | i :: l, (j, sbuf) => move_f_gather f l (j + 1, Function.update sbuf j (f i))

/-- The variables of the loop of `dd_move_f` that adds the received forces. -/
structure move_f_acc where
  f : Nat → rvec
  fshift : Nat → rvec
  n : Nat

/-- The loop of `dd_move_f` that adds the received forces (lines 629-647), over
the atoms `j` of the list: `rvec_inc(f[j],buf[n]); n++`, and before the
increment `rvec_inc(fshift[is],buf[n])` when shift forces are asked for and
the rank is at the lower box edge (`bShift`). -/
def move_f_add (bShift : Bool) (is : Nat) (buf : Nat → rvec) :
    List Nat → move_f_acc → move_f_acc
  | [], s => s
  | j :: l, s =>
    move_f_add bShift is buf l
      ⟨Function.update s.f j (s.f j + buf s.n),
        if bShift then Function.update s.fshift is (s.fshift is + buf s.n) else s.fshift,
        s.n + 1⟩

/-- The variables of `dd_move_f` on one rank, and the arguments
`(d, p, ncell, nat_tot)` of its calls of `dd_sendrecv_rvec` so far. The counter
`nat_tot` is an `int` that is never negative for the counts left by
`setup_dd_communication`. -/
structure move_f_state where
  f : Nat → rvec
  fshift : Nat → rvec
  buf : Nat → rvec
  buf_vr2 : Nat → rvec
  ncell : Nat
  nat_tot : Nat
  calls : List (Nat × Nat × Nat × Nat)

/-- The first half of a pass of the loop over the pulses of `dd_move_f` (lines
610-624): the halo offset is lowered and the forces of the halo atoms of the
pulse are the message for the forward neighbour. -/
def dd_move_f_send (dd : gmx_domdec) (d p : Nat) (s : move_f_state) :
    move_f_state × List rvec :=
  let ind := (dd.cd d).ind p
  let nat_tot := s.nat_tot - ind.nrecv (s.ncell + 1)
  if (dd.cd d).bInPlace then
    ({ s with nat_tot := nat_tot },
      mpi_send (fun j => s.f (nat_tot + j)) (ind.nrecv (s.ncell + 1)))
  else
    let sbuf := (move_f_gather s.f (cell2at_atoms ind s.ncell) (0, s.buf_vr2)).2
    ({ s with nat_tot := nat_tot, buf_vr2 := sbuf }, mpi_send sbuf (ind.nrecv (s.ncell + 1)))

/-- The second half of a pass of the loop over the pulses of `dd_move_f` (lines
625-648): the message `msg` of the backward neighbour is received in `buf` and
its entries are added to the forces of the atoms that were sent in `dd_move_x`.
The macro `IVEC2IS` of the shift index is a parameter. -/
def dd_move_f_recv (dd : gmx_domdec) (bFshift : Bool) (IVEC2IS : ivec → Nat) (d p : Nat)
    (s : move_f_state) (msg : List rvec) : Option move_f_state :=
  let ind := (dd.cd d).ind p
  match mpi_recv (ind.nsend (s.ncell + 1)) msg s.buf with
  | none => none
  | some buf =>
    let acc := move_f_add (bFshift && decide (dd.ci (dd.dim d) = 0))
      (IVEC2IS (Function.update (fun _ => 0) (dd.dim d) 1)) buf
      (ind_atoms dd.cgindex ind s.ncell) ⟨s.f, s.fshift, 0⟩
    some { s with
      f := acc.f
      fshift := acc.fshift
      buf := buf
      calls := s.calls ++ [(d, p, s.ncell, s.nat_tot)] }

/-- One pass of the loop over the pulses of `dd_move_f` on all `nnodes` ranks:
every rank sends to its forward neighbour, and the message a rank receives is
the one that its backward neighbour `dd->neighbor[d][1]` sends in this pass.
The result is `none` when a message is longer than the receiver allows. -/
def dd_move_f_pulse (nnodes : Nat) (dd : Nat → gmx_domdec) (bFshift : Bool)
    (IVEC2IS : ivec → Nat) (d : Nat) (st : Nat → move_f_state) (p : Nat) :
    Option (Nat → move_f_state) :=
  let r : Nat → Option move_f_state := fun R =>
    dd_move_f_recv (dd R) bFshift IVEC2IS d p (dd_move_f_send (dd R) d p (st R)).1
      (dd_move_f_send (dd ((dd R).neighbor d 1)) d p (st ((dd R).neighbor d 1))).2
  if ∀ R, R < nnodes → (r R).isSome = true then some (fun R => (r R).getD (st R)) else none

/-- The loop `for(p=cd->np-1; p>=0; p--)` of `dd_move_f` on all ranks. -/
def dd_move_f_pulses (nnodes : Nat) (dd : Nat → gmx_domdec) (bFshift : Bool)
    (IVEC2IS : ivec → Nat) (d : Nat) :
    List Nat → (Nat → move_f_state) → Option (Nat → move_f_state)
  | [], st => some st
  | p :: l, st =>
    match dd_move_f_pulse nnodes dd bFshift IVEC2IS d st p with
    | none => none
    | some st1 => dd_move_f_pulses nnodes dd bFshift IVEC2IS d l st1

/-- The loop `for(d=dd->ndim-1; d>=0; d--)` of `dd_move_f` on all ranks, with
`ncell /= 2` after each dimension. The ranks run the same loops; the number of
pulses is read on rank 0. -/
def dd_move_f_dims (nnodes : Nat) (dd : Nat → gmx_domdec) (bFshift : Bool)
    (IVEC2IS : ivec → Nat) :
    List Nat → (Nat → move_f_state) → Option (Nat → move_f_state)
  | [], st => some st
  | d :: l, st =>
    match dd_move_f_pulses nnodes dd bFshift IVEC2IS d
        (List.range ((dd 0).cd d).np).reverse st with
    | none => none
    | some st1 =>
      dd_move_f_dims nnodes dd bFshift IVEC2IS l
        (fun R => { st1 R with ncell := (st1 R).ncell / 2 })

/-- The function `dd_move_f` on all `nnodes` ranks, rank `R` with the forces
`f R`, the shift forces `fshift R` and the buffers `buf R` and `buf_vr2 R`. The
ranks run the same loops; the number of dimensions is read on rank 0. -/
def dd_move_f (nnodes : Nat) (dd : Nat → gmx_domdec) (bFshift : Bool) (IVEC2IS : ivec → Nat)
    (f fshift buf buf_vr2 : Nat → Nat → rvec) : Option (Nat → move_f_state) :=
  dd_move_f_dims nnodes dd bFshift IVEC2IS (List.range (dd 0).ndim).reverse
    (fun R =>
      { f := f R, fshift := fshift R, buf := buf R, buf_vr2 := buf_vr2 R
        ncell := (dd R).ncell / 2, nat_tot := (dd R).nat_tot, calls := [] })

/-- The loop over the pulses of `dd_move_x` with its counters only: the
variable `nat_tot` and the arguments `(d, p, ncell, nat_tot)` of the calls of
`dd_sendrecv_rvec`. -/
def dd_move_x_calls_pulses (dd : gmx_domdec) (ncell d : Nat) :
    List Nat → Nat × List (Nat × Nat × Nat × Nat) → Nat × List (Nat × Nat × Nat × Nat)
  | [], s => s
  | p :: l, s =>
    dd_move_x_calls_pulses dd ncell d l
      (s.1 + ((dd.cd d).ind p).nrecv (ncell + 1), s.2 ++ [(d, p, ncell, s.1)])

/-- The loop over the dimensions of `dd_move_x` with its counters only. -/
def dd_move_x_calls_dims (dd : gmx_domdec) :
    List Nat → Nat → Nat × List (Nat × Nat × Nat × Nat) → Nat × List (Nat × Nat × Nat × Nat)
  | [], _, s => s
  | d :: l, ncell, s =>
    dd_move_x_calls_dims dd l (ncell + ncell)
      (dd_move_x_calls_pulses dd ncell d (List.range (dd.cd d).np) s)

/-- The arguments `(d, p, ncell, nat_tot)` of the calls of `dd_sendrecv_rvec`
in `dd_move_x`, in order. -/
def dd_move_x_calls (dd : gmx_domdec) : List (Nat × Nat × Nat × Nat) :=
  (dd_move_x_calls_dims dd (List.range dd.ndim) 1 (dd.nat_home, [])).2

/-- The number of atoms received in the first `p` pulses of dimension `d`. -/
def nrecv_pulses (dd : gmx_domdec) (d p : Nat) : Nat :=
  ∑ q ∈ Finset.range p, ((dd.cd d).ind q).nrecv (2 ^ d + 1)

/-- The halo offset of pulse `p` of dimension `d`: the home atoms and the
atoms received in the pulses before. -/
def move_x_offset (dd : gmx_domdec) (d p : Nat) : Nat :=
  dd.nat_home + (∑ e ∈ Finset.range d, nrecv_pulses dd e (dd.cd e).np) + nrecv_pulses dd d p

/-- The halo atoms of pulse `p` of dimension `d`, in the order of the message:
the atoms from the halo offset on when the dimension is communicated in place,
else the atoms of the blocks `cell2at0 .. cell2at1`. -/
def halo_atoms (dd : gmx_domdec) (d p : Nat) : List Nat :=
  if (dd.cd d).bInPlace then
    List.range' (move_x_offset dd d p) (((dd.cd d).ind p).nrecv (2 ^ d + 1))
  else cell2at_atoms ((dd.cd d).ind p) (2 ^ d)

/-- The halo atoms of the first `p` pulses of dimension `d`. -/
def halo_pulses (dd : gmx_domdec) (d p : Nat) : List Nat :=
  (List.range p).flatMap (fun q => halo_atoms dd d q)

/-- The home atoms and the halo atoms of the pulses before pulse `p` of
dimension `d`. -/
def local_atoms (dd : gmx_domdec) (d p : Nat) : List Nat :=
  List.range dd.nat_home ++
    (List.range d).flatMap (fun e => halo_pulses dd e (dd.cd e).np) ++ halo_pulses dd d p

/-- The arguments of the call of `dd_sendrecv_rvec` in pulse `p` of dimension
`d` of `dd_move_x`. -/
def move_x_call (dd : gmx_domdec) (d p : Nat) : Nat × Nat × Nat × Nat :=
  (d, p, 2 ^ d, move_x_offset dd d p)

/-- The calls of `dd_sendrecv_rvec` in `dd_move_x` before pulse `p` of
dimension `d`. -/
def calls_before (dd : gmx_domdec) (d p : Nat) : List (Nat × Nat × Nat × Nat) :=
  (List.range d).flatMap (fun e => (List.range (dd.cd e).np).map (move_x_call dd e)) ++
    (List.range p).map (move_x_call dd d)

/-- What `setup_dd_communication` leaves on the `nnodes` ranks, as far as
`dd_move_f` reads it: the ranks agree on the dimensions and pulses,
`dd->ncell` is `2^ndim` and `dd->nat_tot` counts the home atoms and all
received atoms; the forward and the backward neighbour are inverse to each
other; a rank sends as many atoms as its backward neighbour expects, and the
counts of atoms are those of the lists; the home atoms and the halo atoms of
all pulses are the local atoms, each once, and the atoms sent in a pulse are
home atoms or halo atoms of an earlier pulse. -/
def move_f_setup (nnodes : Nat) (dd : Nat → gmx_domdec) : Prop :=
  (∀ R, R < nnodes →
    (dd R).ndim = (dd 0).ndim ∧
    (∀ d, d < (dd 0).ndim → ((dd R).cd d).np = ((dd 0).cd d).np) ∧
    (dd R).ncell = 2 ^ (dd R).ndim ∧
    (dd R).nat_tot = move_x_offset (dd R) (dd R).ndim 0) ∧
  (∀ R, R < nnodes → ∀ d, d < (dd 0).ndim →
    (dd R).neighbor d 0 < nnodes ∧ (dd R).neighbor d 1 < nnodes ∧
    (dd ((dd R).neighbor d 1)).neighbor d 0 = R ∧
    (dd ((dd R).neighbor d 0)).neighbor d 1 = R) ∧
  (∀ R, R < nnodes → ∀ d, d < (dd 0).ndim → ∀ p, p < ((dd 0).cd d).np →
    (((dd R).cd d).ind p).nsend (2 ^ d + 1) =
      (((dd ((dd R).neighbor d 1)).cd d).ind p).nrecv (2 ^ d + 1) ∧
    (ind_atoms (dd R).cgindex (((dd R).cd d).ind p) (2 ^ d)).length =
      (((dd R).cd d).ind p).nsend (2 ^ d + 1) ∧
    (halo_atoms (dd R) d p).length = (((dd R).cd d).ind p).nrecv (2 ^ d + 1)) ∧
  (∀ R, R < nnodes →
    List.Perm (local_atoms (dd R) (dd R).ndim 0) (List.range (dd R).nat_tot) ∧
    ∀ d, d < (dd 0).ndim → ∀ p, p < ((dd 0).cd d).np →
      (local_atoms (dd R) d p).Nodup ∧
      ∀ a, a ∈ ind_atoms (dd R).cgindex (((dd R).cd d).ind p) (2 ^ d) →
        a ∈ local_atoms (dd R) d p)

/-- Invariant of the loops of `dd_move_f` on all ranks when the pulses from
pulse `p` of dimension `d` on are done: the counters are those of `dd_move_x`
at this pulse, the calls so far are the later calls of `dd_move_x` in reverse
order, and the forces of the home atoms and the halo atoms of the pulses
before add up to the sum of all forces at the start. -/
def move_f_inv (nnodes : Nat) (dd : Nat → gmx_domdec) (f0 : Nat → Nat → rvec) (d p : Nat)
    (st : Nat → move_f_state) : Prop :=
  (∀ R, R < nnodes →
    (st R).ncell = 2 ^ d ∧ (st R).nat_tot = move_x_offset (dd R) d p ∧
    calls_before (dd R) d p ++ (st R).calls.reverse = dd_move_x_calls (dd R)) ∧
  ∑ R ∈ Finset.range nnodes, ((local_atoms (dd R) d p).map (st R).f).sum =
    ∑ R ∈ Finset.range nnodes, ((local_atoms (dd R) (dd R).ndim 0).map (f0 R)).sum

/-- Invariant of the loop over the dimensions of `dd_move_f` on all ranks when
the dimensions from `m` on are done: as `move_f_inv` at the first pulse of
dimension `m`, with `ncell` halved once more. -/
def move_f_entry (nnodes : Nat) (dd : Nat → gmx_domdec) (f0 : Nat → Nat → rvec) (m : Nat)
    (st : Nat → move_f_state) : Prop :=
  (∀ R, R < nnodes →
    (1 ≤ m → (st R).ncell = 2 ^ (m - 1)) ∧ (st R).nat_tot = move_x_offset (dd R) m 0 ∧
    calls_before (dd R) m 0 ++ (st R).calls.reverse = dd_move_x_calls (dd R)) ∧
  ∑ R ∈ Finset.range nnodes, ((local_atoms (dd R) m 0).map (st R).f).sum =
    ∑ R ∈ Finset.range nnodes, ((local_atoms (dd R) (dd R).ndim 0).map (f0 R)).sum

/-- A rank of the decomposition `nc = (2,1,1)` with two pulses communicated in
place: two home atoms forming two home charge groups; the first pulse sends
the first home charge group, the second pulse the charge group received in
the first one. -/
def ex_move_dd (cix : Nat) : gmx_domdec :=
  { ci := fun d => if d = XX then cix else 0
    ndim := 1
    dim := fun _ => XX
    neighbor := fun _ _ => 1 - cix
    nat_home := 2
    nat_tot := 4
    ncell := 2
    cgindex := fun i => i
    cd := fun _ =>
      { np := 2
        bInPlace := true
        ind := fun p =>
          { nsend := fun _ => 1, nrecv := fun _ => 1
            index := fun _ => if p = 0 then 0 else 2
            cell2at0 := fun _ => 0, cell2at1 := fun _ => 0 } } }

/-- Forces on the two ranks: 1, 2, 3, 4 on rank 0 and 10, 20, 30, 40 on
rank 1. -/
def ex_move_f : Nat → Nat → rvec :=
  fun R j _ => if R = 0 then (j : real) + 1 else 10 * ((j : real) + 1)

/-! ## `dd_redistribute_cg`: displacement of a home charge group -/

/-- The variables that the loop over `d` of `dd_redistribute_cg` changes for
one charge group: the new centre, the coordinates and the displacement. -/
structure cg_move where
  cm_new : rvec
  x : Nat → rvec
  dev : Fin 3 → Int

/-- The limit `limit0[d] = comm->old_cell_x0[d] - limitd[d]` with
`limitd[d] = dd->comm->cellsize_min[d]` (lines 2511, 2517). -/
def redistribute_limit0 (old_cell_x0 cellsize_min : rvec) (d : Fin 3) : real :=
  old_cell_x0 d - cellsize_min d

/-- The limit `limit1[d] = comm->old_cell_x1[d] + limitd[d]` with
`limitd[d] = dd->comm->cellsize_min[d]` (lines 2511, 2521). -/
def redistribute_limit1 (old_cell_x1 cellsize_min : rvec) (d : Fin 3) : real :=
  old_cell_x1 d + cellsize_min d

/-- The branch `if (dd->nc[d] > 1)` of the loop over `d` in `dd_redistribute_cg`
(lines 2554-2583) for the charge group with atoms `k0 ≤ k < k1`; `none` is
the fatal error of `cg_move_error`. -/
def dd_redistribute_cg_dim (nc ci : ivec) (tric_dir : Fin 3 → Bool) (tcm box : matrix)
    (cell_x0 cell_x1 old_cell_x0 old_cell_x1 cellsize_min : rvec) (k0 k1 : Nat) (d : Fin 3)
    (s : cg_move) : Option cg_move :=
  let pos_d := lattice_pos (tric_dir d && decide (nc d > 1)) tcm s.cm_new d
  if pos_d ≥ cell_x1 d then
    if pos_d ≥ redistribute_limit1 old_cell_x1 cellsize_min d then none
    else if ci d + 1 = nc d then
      some { cm_new := s.cm_new - box d
             x := rvec_dec_atoms s.x k0 k1 (box d)
             dev := Function.update s.dev d 1 }
    else some { s with dev := Function.update s.dev d 1 }
  else if pos_d < cell_x0 d then
    if pos_d < redistribute_limit0 old_cell_x0 cellsize_min d then none
    else if ci d = 0 then
      some { cm_new := s.cm_new + box d
             x := rvec_inc_atoms s.x k0 k1 (box d)
             dev := Function.update s.dev d (-1) }
    else some { s with dev := Function.update s.dev d (-1) }
  else some { s with dev := Function.update s.dev d 0 }

/-- A centre at (2,0,0) of a charge group with the single atom 0. -/
def ex_cg_move : cg_move :=
  { cm_new := fun d => if d = XX then 2 else 0
    x := fun _ d => if d = XX then 2 else 0
    dev := fun _ => 0 }

/-- The unit vector along x times `c`, used as cell boundary or size vector. -/
def along_x (c : real) : rvec := fun d => if d = XX then c else 0

/-! ## Compaction of the home arrays for `dd_redistribute_cg` -/

/-- An entry of the global to local atom table, `gmx_ga2la_t`. -/
structure gmx_ga2la where
  cell : Int
  a : Int

/-- The variables of `compact_and_copy_vec_at` and `compact_and_copy_vec_cg`:
the home array `src`, the buffers `comm->cgcm_state[m]`, the buffer positions
`pos_vec[m]` and the counters `home_pos` and `i0`. -/
structure compact_vec where
  src : Nat → rvec
  cgcm_state : Int → Nat → rvec
  pos_vec : Int → Nat
  home_pos : Nat
  i0 : Nat

/-- The loop `for(i=i0; i<i1; i++) copy_rvec(src[i],src[home_pos++])`
(lines 2314-2315): the home array is compacted in place. -/
def compact_home_at (i0 i1 : Nat) (s : compact_vec) : compact_vec :=
  (List.range' i0 (i1 - i0)).foldl
    (fun s i =>
      ⟨Function.update s.src s.home_pos (s.src i), s.cgcm_state, s.pos_vec,
        s.home_pos + 1, s.i0⟩) s

/-- The loop `for(i=i0; i<i1; i++) copy_rvec(src[i],comm->cgcm_state[m][pos_vec[m]++])`
(lines 2321-2322). -/
def copy_comm_at (m : Int) (i0 i1 : Nat) (s : compact_vec) : compact_vec :=
  (List.range' i0 (i1 - i0)).foldl
    (fun s i =>
      ⟨s.src,
        Function.update s.cgcm_state m (Function.update (s.cgcm_state m) (s.pos_vec m) (s.src i)),
        Function.update s.pos_vec m (s.pos_vec m + 1), s.home_pos, s.i0⟩) s

/-- Body of the loop over the charge groups of `compact_and_copy_vec_at`
(lines 2309-2327). -/
def compact_and_copy_vec_at_icg (move : Nat → Int) (cgindex : Nat → Nat) (nvec vec : Nat)
    (bCompact : Bool) (s : compact_vec) (icg : Nat) : compact_vec :=
  let i1 := cgindex (icg + 1)
  let m := move icg
  let s1 : compact_vec :=
    if m = -1 then
      (if bCompact then compact_home_at s.i0 i1 s else s)
    else
      let nrcg := i1 - s.i0
      let s2 : compact_vec :=
        ⟨s.src, s.cgcm_state, Function.update s.pos_vec m (s.pos_vec m + (1 + vec * nrcg)),
          s.home_pos, s.i0⟩
      let s3 := copy_comm_at m s.i0 i1 s2
      ⟨s3.src, s3.cgcm_state,
        Function.update s3.pos_vec m (s3.pos_vec m + (nvec - vec - 1) * nrcg), s3.home_pos, s3.i0⟩
  let s4 : compact_vec :=
    if bCompact then s1
    else ⟨s1.src, s1.cgcm_state, s1.pos_vec, s1.home_pos + (i1 - s.i0), s1.i0⟩
  ⟨s4.src, s4.cgcm_state, s4.pos_vec, s4.home_pos, i1⟩

/-- The function `compact_and_copy_vec_at` (lines 2292-2331); the returned value
is the field `home_pos` of the result. -/
def compact_and_copy_vec_at (ncg : Nat) (move : Nat → Int) (cgindex : Nat → Nat)
    (nvec vec : Nat) (src : Nat → rvec) (cgcm_state : Int → Nat → rvec) (bCompact : Bool) :
    compact_vec :=
  (List.range ncg).foldl (compact_and_copy_vec_at_icg move cgindex nvec vec bCompact)
    ⟨src, cgcm_state, fun _ => 0, 0, 0⟩

/-- Body of the loop over the charge groups of `compact_and_copy_vec_cg`
(lines 2349-2362). -/
def compact_and_copy_vec_cg_icg (move : Nat → Int) (cgindex : Nat → Nat) (nvec : Nat)
    (bCompact : Bool) (s : compact_vec) (icg : Nat) : compact_vec :=
  let i1 := cgindex (icg + 1)
  let m := move icg
  let s1 : compact_vec :=
    if m = -1 then
      (if bCompact then
        ⟨Function.update s.src s.home_pos (s.src icg), s.cgcm_state, s.pos_vec,
          s.home_pos + 1, s.i0⟩
      else s)
    else
      let nrcg := i1 - s.i0
      ⟨s.src,
        Function.update s.cgcm_state m (Function.update (s.cgcm_state m) (s.pos_vec m) (s.src icg)),
        Function.update s.pos_vec m (s.pos_vec m + (1 + nrcg * nvec)), s.home_pos, s.i0⟩
  ⟨s1.src, s1.cgcm_state, s1.pos_vec, s1.home_pos, i1⟩

/-- The function `compact_and_copy_vec_cg` (lines 2333-2368); the returned value
is the field `home_pos` of the result. -/
def compact_and_copy_vec_cg (ncg : Nat) (move : Nat → Int) (cgindex : Nat → Nat)
    (nvec : Nat) (src : Nat → rvec) (cgcm_state : Int → Nat → rvec) (bCompact : Bool) :
    compact_vec :=
  let s := (List.range ncg).foldl (compact_and_copy_vec_cg_icg move cgindex nvec bCompact)
    ⟨src, cgcm_state, fun _ => 0, 0, 0⟩
  if bCompact then s else ⟨s.src, s.cgcm_state, s.pos_vec, ncg, s.i0⟩

/-- The arrays and counters of `compact_ind`. -/
structure compact_ind_state where
  index_gl : Nat → Nat
  cgindex : Nat → Nat
  gatindex : Nat → Nat
  ga2la : Nat → gmx_ga2la
  cginfo : Nat → Int
  home_pos : Nat
  nat : Nat

/-- The loop over the atoms of a charge group that stays (lines 2388-2394):
`a_gl = gatindex[a]; gatindex[nat] = a_gl; ga2la[a_gl].a = nat; nat++`. -/
def compact_ind_home_at (a0 a1 : Nat) (s : compact_ind_state) : compact_ind_state :=
  (List.range' a0 (a1 - a0)).foldl
    (fun s a =>
      let a_gl := s.gatindex a
      ⟨s.index_gl, s.cgindex, Function.update s.gatindex s.nat a_gl,
        Function.update s.ga2la a_gl ⟨(s.ga2la a_gl).cell, (s.nat : Int)⟩,
        s.cginfo, s.home_pos, s.nat + 1⟩) s

/-- The loop over the atoms of a charge group that leaves (lines 2400-2403):
`a_gl = gatindex[a]; ga2la[a_gl].cell = -1`. -/
def compact_ind_clear_at (a0 a1 : Nat) (s : compact_ind_state) : compact_ind_state :=
  (List.range' a0 (a1 - a0)).foldl
    (fun s a =>
      let a_gl := s.gatindex a
      ⟨s.index_gl, s.cgindex, s.gatindex,
        Function.update s.ga2la a_gl ⟨-1, (s.ga2la a_gl).a⟩,
        s.cginfo, s.home_pos, s.nat⟩) s

/-- Body of the loop over the charge groups of `compact_ind` (lines 2381-2404). -/
def compact_ind_cg (move : Nat → Int) (s : compact_ind_state) (cg : Nat) : compact_ind_state :=
  let a0 := s.cgindex cg
  let a1 := s.cgindex (cg + 1)
  if move cg = -1 then
    let s1 : compact_ind_state :=
      ⟨s.index_gl, Function.update s.cgindex s.home_pos s.nat, s.gatindex, s.ga2la, s.cginfo,
        s.home_pos, s.nat⟩
    let s2 := compact_ind_home_at a0 a1 s1
    ⟨Function.update s2.index_gl s2.home_pos (s2.index_gl cg), s2.cgindex, s2.gatindex, s2.ga2la,
      Function.update s2.cginfo s2.home_pos (s2.cginfo cg), s2.home_pos + 1, s2.nat⟩
  else compact_ind_clear_at a0 a1 s

/-- The function `compact_ind` (lines 2370-2409); the returned value is the
field `home_pos` of the result. -/
def compact_ind (ncg : Nat) (move : Nat → Int) (index_gl cgindex gatindex : Nat → Nat)
    (ga2la : Nat → gmx_ga2la) (cginfo : Nat → Int) : compact_ind_state :=
  let s := (List.range ncg).foldl (compact_ind_cg move)
    ⟨index_gl, cgindex, gatindex, ga2la, cginfo, 0, 0⟩
  ⟨s.index_gl, Function.update s.cgindex s.home_pos s.nat, s.gatindex, s.ga2la, s.cginfo,
    s.home_pos, s.nat⟩

/-- The charge groups that stay: the home groups with `move = -1`, in their
original order. -/
def kept_cgs (move : Nat → Int) (ncg : Nat) : List Nat :=
  (List.range ncg).filter (fun cg => move cg = -1)

/-- The old local indices of the atoms of the charge groups that stay, in
their original order. -/
def kept_atoms (move : Nat → Int) (cgindex : Nat → Nat) (ncg : Nat) : List Nat :=
  (kept_cgs move ncg).flatMap (fun cg => List.range' (cgindex cg) (cgindex (cg + 1) - cgindex cg))

/-- A small home state: three charge groups of sizes 2, 1 and 2. -/
def ex_compact_cgindex : Nat → Nat := fun c => [0, 2, 3, 5].getD c 5

/-- The middle group leaves in direction 0, the others stay. -/
def ex_compact_move : Nat → Int := fun c => if c = 1 then 0 else -1

/-- Invariant of the loop of `compact_ind` after the first `n` charge groups,
for the initial arrays `index_gl`, `cgindex`, `gatindex`, `ga2la`, `cginfo`. -/
def compact_ind_inv (ncg : Nat) (move : Nat → Int) (index_gl cgindex gatindex : Nat → Nat)
    (ga2la : Nat → gmx_ga2la) (cginfo : Nat → Int) (n : Nat) (s : compact_ind_state) : Prop :=
  s.home_pos = (kept_cgs move n).length ∧
  s.nat = (kept_atoms move cgindex n).length ∧
  (∀ j, n ≤ j → s.cgindex j = cgindex j ∧ s.index_gl j = index_gl j ∧ s.cginfo j = cginfo j) ∧
  (∀ j, cgindex n ≤ j → s.gatindex j = gatindex j) ∧
  (List.range s.home_pos).map s.index_gl = (kept_cgs move n).map index_gl ∧
  (List.range s.home_pos).map s.cginfo = (kept_cgs move n).map cginfo ∧
  (List.range s.nat).map s.gatindex = (kept_atoms move cgindex n).map gatindex ∧
  (∀ k, k < s.home_pos → s.cgindex k =
    (((kept_cgs move n).take k).map (fun c => cgindex (c + 1) - cgindex c)).sum) ∧
  (∀ p, p < s.nat → ∃ a, a < cgindex n ∧ s.gatindex p = gatindex a) ∧
  (∀ p, p < s.nat → (s.ga2la (s.gatindex p)).a = (p : Int) ∧
    (s.ga2la (s.gatindex p)).cell = (ga2la (s.gatindex p)).cell) ∧
  (∀ a, cgindex n ≤ a → a < cgindex ncg →
    (s.ga2la (gatindex a)).cell = (ga2la (gatindex a)).cell) ∧
  (∀ c, c < n → move c ≠ -1 → ∀ a, cgindex c ≤ a → a < cgindex (c + 1) →
    (s.ga2la (gatindex a)).cell = -1)

/-! ## The flag word of `dd_redistribute_cg` -/

/-- The mask `DD_FLAG_NRCG` of the charge group size. -/
def DD_FLAG_NRCG : Nat := 65535

/-- The flag `DD_FLAG_FW(d)`: forward move in decomposition dimension `d`. -/
def DD_FLAG_FW (d : Nat) : Nat := 1 <<< (16 + d * 2)

/-- The flag `DD_FLAG_BW(d)`: backward move in decomposition dimension `d`. -/
def DD_FLAG_BW (d : Nat) : Nat := 1 <<< (16 + d * 2 + 1)

/-- The variables `flag` and `mc` of `dd_redistribute_cg`. -/
structure move_code where
  flag : Nat
  mc : Int

/-- Body of the loop `for(d=0; d<dd->ndim; d++)` that determines where a
charge group should go (lines 2605-2618). -/
def dd_redistribute_cg_flag_dim (nc : ivec) (dim : Nat → Fin 3) (dev : Fin 3 → Int)
    (s : move_code) (d : Nat) : move_code :=
  if dev (dim d) = 1 then
    { flag := s.flag ||| DD_FLAG_FW d
      mc := if s.mc = -1 then (d : Int) * 2 else s.mc }
  else if dev (dim d) = -1 then
    { flag := s.flag ||| DD_FLAG_BW d
      mc := if s.mc = -1 then (if nc (dim d) > 2 then (d : Int) * 2 + 1 else (d : Int) * 2)
            else s.mc }
  else s

/-- The flag and move code of a charge group with displacement `dev`
(lines 2602-2619). -/
def dd_redistribute_cg_flag (ndim : Nat) (nc : ivec) (dim : Nat → Fin 3) (dev : Fin 3 → Int) :
    move_code :=
  (List.range ndim).foldl (dd_redistribute_cg_flag_dim nc dim dev) { flag := 0, mc := -1 }

/-- The word `nrcg | flag` stored in `comm->cggl_flag` (line 2631). -/
def cggl_flag_word (nrcg : Nat) (ndim : Nat) (nc : ivec) (dim : Nat → Fin 3)
    (dev : Fin 3 → Int) : Nat :=
  nrcg ||| (dd_redistribute_cg_flag ndim nc dim dev).flag

/-! ## `set_dd_cell_sizes_dlb`: the update of one row by its root -/

/-- The macro `DD_CELL_MARGIN`, 1.00001. -/
def DD_CELL_MARGIN : real := 100001 / 100000

/-- The macro `DD_CELL_MARGIN2`, 1.000005. -/
def DD_CELL_MARGIN2 : real := 1000005 / 1000000

/-- The macro `DD_PRES_SCALE_MARGIN`, 1.02. -/
def DD_PRES_SCALE_MARGIN : real := 102 / 100

/-- The row data kept by the root of a row, `gmx_domdec_root_t`. -/
structure gmx_domdec_root where
  cell_f : Nat → real
  old_cell_f : Nat → real
  cell_size : Nat → real
  bCellMin : Nat → Bool
  cell_f_max0 : Nat → real
  cell_f_min1 : Nat → real
  bound_min : Nat → real
  bound_max : Nat → real
  bLimited : Bool

/-- The function `grid_jump_limit` (lines 1473-1482). -/
def grid_jump_limit (cutoff_mbody cutoff : real) (np : Nat) : real :=
  max cutoff_mbody (cutoff / (np : real))

/-- Storing the original boundaries (lines 1789-1790). -/
def dlb_store_old (nc : Nat) (root : gmx_domdec_root) : gmx_domdec_root :=
  (List.range (nc + 1)).foldl
    (fun r i => { r with old_cell_f := Function.update r.old_cell_f i (r.cell_f i) }) root

/-- The uniform cell sizes (lines 1792-1793). -/
def dlb_uniform_sizes (nc : Nat) (root : gmx_domdec_root) : gmx_domdec_root :=
  (List.range nc).foldl
    (fun r i => { r with cell_size := Function.update r.cell_size i (1 / (nc : real)) }) root

/-- The relative change of the size of a cell with load `load_i`
(lines 1799-1806), with `relax = 0.5` and `change_max = 0.05`. -/
def dlb_change (load_aver load_i : real) : real :=
  let change_max : real := 5 / 100
  let relax : real := 1 / 2
  let imbalance := (load_i - load_aver) / load_aver
  let change := -relax * imbalance
  if change > change_max then change_max
  else if change < -change_max then -change_max
  else change

/-- Scaling the cell sizes with the measured load (lines 1795-1809). -/
def dlb_load_sizes (nc nload : Nat) (sum_m : real) (load : Nat → real)
    (root : gmx_domdec_root) : gmx_domdec_root :=
  let load_aver := sum_m / (nc : real)
  (List.range nc).foldl
    (fun r i =>
      { r with cell_size := (Function.update r.cell_size i
          (r.cell_size i * (1 + dlb_change load_aver (load (i * nload + 2))))) }) root

/-- The fractional minimum cell size `cellsize_limit_f` (lines 1812-1813, 1817). -/
def dlb_cellsize_limit_f (cellsize_min box_dd : real) (tric_dir : Bool) (skew_fac : real) :
    real :=
  let l := cellsize_min / box_dd * DD_CELL_MARGIN
  if tric_dir then l / skew_fac else l

/-- The fractional minimum distance `dist_min_f` between staggered boundaries
(lines 1814-1821). -/
def dlb_dist_min_f (grid_jump box_dd : real) (tric_dir : Bool) (skew_fac : real)
    (bDynamicBox : Bool) (d : Nat) : real :=
  let l := grid_jump / box_dd * DD_CELL_MARGIN
  let l2 := if tric_dir then l / skew_fac else l
  if bDynamicBox ∧ d > 0 then l2 * DD_PRES_SCALE_MARGIN else l2

/-- Body of the loop that sets `bound_min` and `bound_max` (lines 1826-1833). -/
def dlb_bounds_cell (dist_min_f : real) (r : gmx_domdec_root) (i : Nat) : gmx_domdec_root :=
  let bmin := r.cell_f_max0 (i - 1) + dist_min_f
  let space := r.cell_f i - (r.cell_f_max0 (i - 1) + dist_min_f)
  let bmin2 := if space > 0 then bmin + 1 / 2 * space else bmin
  let bmax := r.cell_f_min1 i - dist_min_f
  let space2 := r.cell_f i - (r.cell_f_min1 i - dist_min_f)
  let bmax2 := if space2 < 0 then bmax + 1 / 2 * space2 else bmax
  { r with bound_min := Function.update r.bound_min i bmin2,
           bound_max := Function.update r.bound_max i bmax2 }

/-- The loop `for(i=1; i<dd->nc[dim]; i++)` of lines 1825-1841. -/
def dlb_bounds (nc : Nat) (dist_min_f : real) (root : gmx_domdec_root) : gmx_domdec_root :=
  (List.range' 1 (nc - 1)).foldl (dlb_bounds_cell dist_min_f) root

/-- Clearing `bCellMin` (lines 1844-1845). -/
def dlb_clear_min (nc : Nat) (root : gmx_domdec_root) : gmx_domdec_root :=
  (List.range nc).foldl
    (fun r i => { r with bCellMin := Function.update r.bCellMin i false }) root

/-- Body of the loop that determines the cell boundaries (lines 1859-1867);
the state is the row data and the counter `nmin`. -/
def dlb_rescale_cell (fac cellsize_limit_f : real) (s : gmx_domdec_root × Nat) (i : Nat) :
    gmx_domdec_root × Nat :=
  let r := s.1
  let s1 : gmx_domdec_root × Nat :=
    if r.bCellMin i = false then
      (if r.cell_size i * fac < cellsize_limit_f then
        ({ r with bCellMin := Function.update r.bCellMin i true,
                  cell_size := Function.update r.cell_size i cellsize_limit_f }, s.2 + 1)
      else ({ r with cell_size := Function.update r.cell_size i (r.cell_size i * fac) }, s.2))
    else s
  let r1 := s1.1
  ({ r1 with cell_f := Function.update r1.cell_f (i + 1) (r1.cell_f i + r1.cell_size i) }, s1.2)

/-- The total of the sizes of the cells that are not at the minimum
(lines 1850-1854). -/
def dlb_free_total (nc : Nat) (r : gmx_domdec_root) : real :=
  (List.range nc).foldl (fun f i => if r.bCellMin i = false then f + r.cell_size i else f) 0

/-- One pass of the body of the `do ... while` loop (lines 1848-1868). -/
def dlb_rescale_pass (nc : Nat) (dist_min_f cellsize_limit_f : real)
    (s : gmx_domdec_root × Nat) : gmx_domdec_root × Nat :=
  let r := s.1
  let fac := (1 - (s.2 : real) * dist_min_f) / dlb_free_total nc r
  (List.range nc).foldl (dlb_rescale_cell fac cellsize_limit_f)
    ({ r with cell_f := Function.update r.cell_f 0 0 }, s.2)

/-- The loop `do ... while (nmin > nmin_old)` (lines 1847-1869), run with
fuel: `fuel` is the number of times the loop may be repeated, `none` when it
is used up. -/
def dlb_rescale (nc : Nat) (dist_min_f cellsize_limit_f : real) :
    Nat → gmx_domdec_root × Nat → Option (gmx_domdec_root × Nat)
  | 0, s =>
    if (dlb_rescale_pass nc dist_min_f cellsize_limit_f s).2 > s.2 then none
    else some (dlb_rescale_pass nc dist_min_f cellsize_limit_f s)
  | fuel + 1, s =>
    if (dlb_rescale_pass nc dist_min_f cellsize_limit_f s).2 > s.2 then
      dlb_rescale nc dist_min_f cellsize_limit_f fuel
        (dlb_rescale_pass nc dist_min_f cellsize_limit_f s)
    else some (dlb_rescale_pass nc dist_min_f cellsize_limit_f s)

/-- Setting the last boundary to exactly 1, the check of the last cell and
`bLimited` (lines 1871-1884); `none` is the `gmx_fatal`. -/
def dlb_last_boundary (nc : Nat) (cellsize_limit_f : real) (s : gmx_domdec_root × Nat) :
    Option gmx_domdec_root :=
  let i := nc - 1
  let r := s.1
  let r1 : gmx_domdec_root := { r with cell_f := Function.update r.cell_f (i + 1) 1 }
  let r2 : gmx_domdec_root :=
    { r1 with cell_size := Function.update r1.cell_size i (r1.cell_f (i + 1) - r1.cell_f i) }
  if r2.cell_size i < cellsize_limit_f * DD_CELL_MARGIN2 / DD_CELL_MARGIN then none
  else some { r2 with bLimited := decide (s.2 > 0) }

/-- The loop `for(j=i+1; j<dd->nc[dim]; j++)` of lines 1900-1903. -/
def dlb_push_up (nc : Nat) (cellsize_limit_f : real) (i : Nat) (root : gmx_domdec_root) :
    gmx_domdec_root :=
  (List.range' (i + 1) (nc - (i + 1))).foldl
    (fun r j =>
      if r.cell_f j < r.cell_f (j - 1) + cellsize_limit_f then
        { r with cell_f := Function.update r.cell_f j (r.cell_f (j - 1) + cellsize_limit_f) }
      else r) root

/-- The loop `for(j=i-1; j>=1; j--)` of lines 1909-1912. -/
def dlb_push_down (cellsize_limit_f : real) (i : Nat) (root : gmx_domdec_root) :
    gmx_domdec_root :=
  ((List.range' 1 (i - 1)).reverse).foldl
    (fun r j =>
      if r.cell_f j > r.cell_f (j + 1) - cellsize_limit_f then
        { r with cell_f := Function.update r.cell_f j (r.cell_f (j + 1) - cellsize_limit_f) }
      else r) root

/-- Body of the loop that keeps a boundary within halfway of the old cells it
bounds (lines 1896-1913). -/
def dlb_halfway_cell (nc : Nat) (cellsize_limit_f : real) (r : gmx_domdec_root) (i : Nat) :
    gmx_domdec_root :=
  let halfway := 1 / 2 * (r.old_cell_f i + r.old_cell_f (i - 1))
  let r1 : gmx_domdec_root :=
    if r.cell_f i < halfway then
      dlb_push_up nc cellsize_limit_f i { r with cell_f := Function.update r.cell_f i halfway }
    else r
  let halfway2 := 1 / 2 * (r1.old_cell_f i + r1.old_cell_f (i + 1))
  if r1.cell_f i > halfway2 then
    dlb_push_down cellsize_limit_f i { r1 with cell_f := Function.update r1.cell_f i halfway2 }
  else r1

/-- The loop `for(i=1; i<dd->nc[dim]; i++)` of lines 1895-1914. -/
def dlb_halfway (nc : Nat) (cellsize_limit_f : real) (root : gmx_domdec_root) :
    gmx_domdec_root :=
  (List.range' 1 (nc - 1)).foldl (dlb_halfway_cell nc cellsize_limit_f) root

/-- The staggering data of a uniform row (lines 1920-1923). -/
def dlb_stagger_uniform (nc : Nat) (root : gmx_domdec_root) : gmx_domdec_root :=
  (List.range nc).foldl
    (fun r i =>
      { r with cell_f_max0 := Function.update r.cell_f_max0 i (r.cell_f i),
               cell_f_min1 := Function.update r.cell_f_min1 i (r.cell_f (i + 1)) }) root

/-- Body of the loop that keeps a boundary between `bound_min` and
`bound_max` (lines 1926-1937). -/
def dlb_stagger_cell (r : gmx_domdec_root) (i : Nat) : gmx_domdec_root :=
  let bLimLo : Bool := decide (r.cell_f i < r.bound_min i)
  let bLimHi : Bool := decide (r.cell_f i > r.bound_max i)
  let r1 : gmx_domdec_root :=
    if bLimLo && bLimHi then
      { r with cell_f := Function.update r.cell_f i (1 / 2 * (r.bound_min i + r.bound_max i)) }
    else if bLimLo then
      { r with cell_f := Function.update r.cell_f i (r.bound_min i) }
    else if bLimHi then
      { r with cell_f := Function.update r.cell_f i (r.bound_max i) }
    else r
  if bLimLo || bLimHi then { r1 with bLimited := true } else r1

/-- The loop `for(i=1; i<dd->nc[dim]; i++)` of lines 1925-1938. -/
def dlb_stagger (nc : Nat) (root : gmx_domdec_root) : gmx_domdec_root :=
  (List.range' 1 (nc - 1)).foldl dlb_stagger_cell root

/-- The cells for which the final check prints `WARNING ... cell %d too small`
(lines 1944-1951); the check changes nothing. -/
def dlb_too_small (nc : Nat) (cellsize_limit_f : real) (r : gmx_domdec_root) : List Nat :=
  (List.range nc).filter
    (fun i => decide (r.cell_f (i + 1) - r.cell_f i < cellsize_limit_f / DD_CELL_MARGIN))

/-- The update of the boundaries of one row by its root in
`set_dd_cell_sizes_dlb` (lines 1786-1951), for decomposition index `d` with
`nc` cells.  `load_count` is `dd_load_count(comm)`, `sum_m`, `load` and `nload`
are the fields of `comm->load[d]`, `cellsize_min` is `comm->cellsize_min[dim]`,
`box_dd` is `box[dim][dim]`, `grid_jump` is `grid_jump_limit(comm,d)`.  The
outer `none` means that the fuel of the `do ... while` loop is used up, the
inner `none` is the `gmx_fatal` of line 1880. -/
def set_dd_cell_sizes_dlb_root (fuel nc d : Nat) (bUniform bDynamicBox : Bool)
    (load_count : Nat) (sum_m : real) (load : Nat → real) (nload : Nat)
    (cellsize_min box_dd grid_jump : real) (tric_dir : Bool) (skew_fac : real)
    (root : gmx_domdec_root) : Option (Option gmx_domdec_root) :=
  let r0 := dlb_store_old nc root
  let r1 :=
    if bUniform then dlb_uniform_sizes nc r0
    else if load_count ≠ 0 then dlb_load_sizes nc nload sum_m load r0
    else r0
  let cellsize_limit_f := dlb_cellsize_limit_f cellsize_min box_dd tric_dir skew_fac
  let dist_min_f := dlb_dist_min_f grid_jump box_dd tric_dir skew_fac bDynamicBox d
  let r2 := if d > 0 ∧ bUniform = false then dlb_bounds nc dist_min_f r1 else r1
  let r3 := dlb_clear_min nc r2
  match dlb_rescale nc dist_min_f cellsize_limit_f fuel (r3, 0) with
  | none => none
  | some s =>
    match dlb_last_boundary nc cellsize_limit_f s with
    | none => some none
    | some r4 =>
      let r5 := if bUniform then r4 else dlb_halfway nc cellsize_limit_f r4
      let r6 :=
        if d > 0 then (if bUniform then dlb_stagger_uniform nc r5 else dlb_stagger nc r5)
        else r5
      some (some r6)

/-- A row of four cells with boundaries 0, 0.3, 0.5, 0.7, 1; a neighbouring
row has its boundary 1 at 0.4, all other extremes are those of the row itself. -/
def ex_dlb_root : gmx_domdec_root where
  cell_f := fun i => [0, 3 / 10, 5 / 10, 7 / 10, 1].getD i 0
  old_cell_f := fun _ => 0
  cell_size := fun i => [3 / 10, 2 / 10, 2 / 10, 3 / 10].getD i 0
  bCellMin := fun _ => false
  cell_f_max0 := fun i => [0, 4 / 10, 5 / 10, 7 / 10].getD i 0
  cell_f_min1 := fun i => [3 / 10, 5 / 10, 7 / 10, 1].getD i 0
  bound_min := fun _ => 0
  bound_max := fun _ => 0
  bLimited := false

/-- The loads of the four cells: 110, 100, 100 and 90, at the positions
`i*nload+2` with `nload = 6`. -/
def ex_dlb_load : Nat → real := fun k => if k = 2 then 110 else if k = 20 then 90 else 100

/-- The number of cells among the first `k` that are not at the minimum. -/
def dlb_free_count (k : Nat) (r : gmx_domdec_root) : Nat :=
  (List.range k).countP (fun j => !(r.bCellMin j))

/-- A row of two cells whose boundary 1 at 0.1 lies below the extremes 0.25
and 0.4 of the neighbouring rows; the size of cell 0 is still the 0.25 of the
last rescaling. -/
def ex_dlb_root2 : gmx_domdec_root where
  cell_f := fun i => [0, 1 / 10, 1].getD i 0
  old_cell_f := fun _ => 0
  cell_size := fun i => [1 / 4, 3 / 4].getD i 0
  bCellMin := fun _ => false
  cell_f_max0 := fun i => [1 / 4, 1 / 4].getD i 0
  cell_f_min1 := fun i => [4 / 10, 4 / 10].getD i 0
  bound_min := fun _ => 0
  bound_max := fun _ => 0
  bLimited := false

/-- A row of four cells of size 1/4 each. -/
def ex_dlb_uniform_root : gmx_domdec_root where
  cell_f := fun i => (i : real) / 4
  old_cell_f := fun _ => 0
  cell_size := fun _ => 1 / 4
  bCellMin := fun _ => false
  cell_f_max0 := fun _ => 0
  cell_f_min1 := fun _ => 1
  bound_min := fun _ => 0
  bound_max := fun _ => 0
  bLimited := false

/-- The loads of four cells, 2 for cell 0 and 1 for the others, at the
positions `i*nload+2` with `nload = 6`. -/
def ex_dlb_load_double : Nat → real := fun k => if k = 2 then 2 else 1

/-- The loads of four cells: 90, 110, 100 and 100, at the positions
`i*nload+2` with `nload = 6`. -/
def ex_dlb_load2 : Nat → real := fun k => if k = 2 then 90 else if k = 8 then 110 else 100

/-- A row of four cells with boundaries 0, 0.201, 0.402, 0.652, 1 in a grid
whose rows all have these boundaries, so that the extremes of the neighbouring
rows are the boundaries of the row itself: `cell_f_max0[i] = cell_f[i]` and
`cell_f_min1[i] = cell_f[i+1]`. -/
def ex_dlb_rows : gmx_domdec_root where
  cell_f := fun i => [0, 201 / 1000, 402 / 1000, 652 / 1000, 1].getD i 0
  old_cell_f := fun _ => 0
  cell_size := fun i => [201 / 1000, 201 / 1000, 250 / 1000, 348 / 1000].getD i 0
  bCellMin := fun _ => false
  cell_f_max0 := fun i => [0, 201 / 1000, 402 / 1000, 652 / 1000].getD i 0
  cell_f_min1 := fun i => [201 / 1000, 402 / 1000, 652 / 1000, 1].getD i 0
  bound_min := fun _ => 0
  bound_max := fun _ => 0
  bLimited := false

/-- The loads of the four cells: 94, 100, 109 and 97, with the sum 400, at the
positions `i*nload+2` with `nload = 6`. -/
def ex_dlb_load3 : Nat → real :=
  fun k => if k = 2 then 94 else if k = 14 then 109 else if k = 20 then 97 else 100

/-! ## `check_grid_jump` and `set_dd_ns_cell_sizes` -/

/-- The two fatal errors of `set_dd_ns_cell_sizes` and `check_grid_jump`, each
with the axis and the cell coordinates that the message names. -/
inductive dd_fatal where
  | cell_too_small (dim : Fin 3) (ci : ivec)
  | grid_shifted (dim : Fin 3) (ci : ivec)

/-- The fields of `gmx_domdec_t` and of its `comm` that `set_dd_ns_cell_sizes`
and `check_grid_jump` read or write; `cd_np d` is `comm->cd[d].np`. -/
structure dd_cells where
  ndim : Nat
  dim : Nat → Fin 3
  ci : ivec
  bDynLoadBal : Bool
  bGridJump : Bool
  tric_dir : Fin 3 → Bool
  skew_fac : rvec
  cell_x0 : rvec
  cell_x1 : rvec
  old_cell_x0 : rvec
  old_cell_x1 : rvec
  cell_ns_x0 : rvec
  cell_ns_x1 : rvec
  cellsize_min : rvec
  cell_f0 : Nat → real
  cell_f1 : Nat → real
  cell_f_max0 : Nat → real
  cell_f_min1 : Nat → real
  cutoff_mbody : real
  cutoff : real
  cd_np : Nat → Nat

/-- Body of the loop of `check_grid_jump` (lines 1493-1502). -/
def check_grid_jump_d (dd : dd_cells) (box : matrix) (d : Nat) : Except dd_fatal Unit :=
  let dim := dd.dim d
  let limit := grid_jump_limit dd.cutoff_mbody dd.cutoff (dd.cd_np d)
  let bfac := if dd.tric_dir dim then box dim dim * dd.skew_fac dim else box dim dim
  if (dd.cell_f1 d - dd.cell_f_max0 d) * bfac < limit ∨
      (dd.cell_f0 d - dd.cell_f_min1 d) * bfac > -limit then
    Except.error (dd_fatal.grid_shifted dim dd.ci)
  else Except.ok ()

/-- The loop `for(d=1; d<dd->ndim; d++)` of `check_grid_jump` over the
decomposition dimension indices `ds`. -/
def check_grid_jump_loop (dd : dd_cells) (box : matrix) (ds : List Nat)
    (r : Except dd_fatal Unit) : Except dd_fatal Unit :=
  ds.foldl (fun r d => r.bind (fun _ => check_grid_jump_d dd box d)) r

/-- The function `check_grid_jump` (lines 1484-1503). -/
def check_grid_jump (dd : dd_cells) (box : matrix) : Except dd_fatal Unit :=
  check_grid_jump_loop dd box (List.range' 1 (dd.ndim - 1)) (Except.ok ())

/-- Body of the loop of `set_dd_ns_cell_sizes` (lines 2071-2082). -/
def set_dd_ns_cell_sizes_dim (dd : dd_cells) (dim_ind : Nat) : Except dd_fatal Unit :=
  let dim := dd.dim dim_ind
  if dd.bDynLoadBal = true ∧
      (dd.cell_x1 dim - dd.cell_x0 dim) * dd.skew_fac dim < dd.cellsize_min dim then
    Except.error (dd_fatal.cell_too_small dim dd.ci)
  else Except.ok ()

/-- The function `set_dd_ns_cell_sizes` (lines 2067-2094).  The exchange
`dd_move_cellx` (lines 655-742), whose result depends on the messages of the
other ranks, is a parameter. -/
def set_dd_ns_cell_sizes (dd : dd_cells) (box : matrix) (dd_move_cellx : dd_cells → dd_cells) :
    Except dd_fatal dd_cells :=
  ((List.range dd.ndim).foldl (fun r dim_ind => r.bind (fun _ => set_dd_ns_cell_sizes_dim dd dim_ind))
      (Except.ok ())).bind
    (fun _ =>
      let dd1 : dd_cells := { dd with cell_ns_x0 := dd.cell_x0, cell_ns_x1 := dd.cell_x1 }
      if dd1.bGridJump = true ∧ dd1.ndim > 1 then
        let dd2 := dd_move_cellx dd1
        (check_grid_jump dd2 box).bind (fun _ => Except.ok dd2)
      else Except.ok dd1)

/-- The condition under which iteration `d` of `check_grid_jump` calls
`gmx_fatal` (lines 1498-1499). -/
def grid_jump_test (dd : dd_cells) (box : matrix) (d : Nat) : Prop :=
  (dd.cell_f1 d - dd.cell_f_max0 d) *
      (if dd.tric_dir (dd.dim d) then box (dd.dim d) (dd.dim d) * dd.skew_fac (dd.dim d)
        else box (dd.dim d) (dd.dim d)) <
    max dd.cutoff_mbody (dd.cutoff / (dd.cd_np d : real)) ∨
  (dd.cell_f0 d - dd.cell_f_min1 d) *
      (if dd.tric_dir (dd.dim d) then box (dd.dim d) (dd.dim d) * dd.skew_fac (dd.dim d)
        else box (dd.dim d) (dd.dim d)) >
    -(max dd.cutoff_mbody (dd.cutoff / (dd.cd_np d : real)))

/-- A rectangular box with edges of length 2. -/
def ex_box2 : matrix := fun i j => if i = j then 2 else 0

/-- A rank of a one-dimensional decomposition along x with dynamic load
balancing, whose cell moved from [0, 1] to [3/5, 8/5]. -/
def ex_dd_cells_1d : dd_cells :=
  { ndim := 1, dim := fun _ => XX, ci := ![0, 0, 0], bDynLoadBal := true, bGridJump := true,
    tric_dir := fun _ => false, skew_fac := fun _ => 1,
    cell_x0 := ![3/5, 0, 0], cell_x1 := ![8/5, 2, 2],
    old_cell_x0 := ![0, 0, 0], old_cell_x1 := ![1, 2, 2],
    cell_ns_x0 := ![0, 0, 0], cell_ns_x1 := ![1, 2, 2],
    cellsize_min := fun _ => 1/2,
    cell_f0 := fun _ => 3/10, cell_f1 := fun _ => 8/10,
    cell_f_max0 := fun _ => 0, cell_f_min1 := fun _ => 1,
    cutoff_mbody := 0, cutoff := 1/2, cd_np := fun _ => 1 }

/-- A rank of a two-dimensional decomposition along x and y with dynamic load
balancing, whose cell moved from [0, 1] x [0, 1] to [3/5, 8/5] x [3/5, 8/5];
the rows next to it have the same y boundaries as the cell. -/
def ex_dd_cells_2d : dd_cells :=
  { ndim := 2, dim := fun d => if d = 0 then XX else YY, ci := ![0, 0, 0],
    bDynLoadBal := true, bGridJump := true,
    tric_dir := fun _ => false, skew_fac := fun _ => 1,
    cell_x0 := ![3/5, 3/5, 0], cell_x1 := ![8/5, 8/5, 2],
    old_cell_x0 := ![0, 0, 0], old_cell_x1 := ![1, 1, 2],
    cell_ns_x0 := ![3/5, 3/5, 0], cell_ns_x1 := ![8/5, 8/5, 2],
    cellsize_min := fun _ => 1/2,
    cell_f0 := fun _ => 3/10, cell_f1 := fun _ => 8/10,
    cell_f_max0 := fun _ => 3/10, cell_f_min1 := fun _ => 8/10,
    cutoff_mbody := 0, cutoff := 1/2, cd_np := fun _ => 1 }

/-! ## `set_dd_cell_sizes_slb` -/

/-- The variables that `set_dd_cell_sizes_slb` writes: the master's boundaries
`dd->ma->cell_x`, the local boundaries `dd->cell_x0` and `dd->cell_x1`, the
pulse counts `np`, the local `cellsize_min` and `comm->cellsize_min`. -/
structure slb_state where
  ma_cell_x : Fin 3 → Nat → real
  cell_x0 : rvec
  cell_x1 : rvec
  np : ivec
  cellsize_min : rvec
  comm_cellsize_min : rvec

/-- The loop `while (cellsize*np[d] < comm->cutoff) np[d]++` (lines 1717-1718
and 1735-1736). -/
def slb_np_loop (fuel : Nat) (cellsize cutoff : real) (np : Nat) : Option Nat :=
  while_loop (fun np => decide (cellsize * (np : real) < cutoff)) (fun np => np + 1) fuel np

/-- The loop `for(j=0; j<dd->nc[d]+1; j++) dd->ma->cell_x[d][j] = j*cell_dx`
(lines 1711-1712). -/
def slb_uniform_cell_x (nc_d : Nat) (cell_dx : real) (cell_x : Nat → real) : Nat → real :=
  (List.range (nc_d + 1)).foldl (fun cx j => Function.update cx j ((j : real) * cell_dx)) cell_x

/-- The variables of the loop over the cells of a statically load balanced
dimension: the boundaries `cell_x`, `np[d]` and `cellsize_min[d]`. -/
structure slb_row where
  cell_x : Nat → real
  np : Nat
  cellsize_min : real

/-- Body of the loop over the cells `j` of a statically load balanced
dimension (lines 1732-1738). -/
def slb_frac_cell (fuel : Nat) (box_dd skew_fac_d cutoff : real) (slb_frac_d : Nat → real)
    (r : slb_row) (j : Nat) : Option slb_row :=
  let cell_dx := box_dd * slb_frac_d j
  let cell_x := Function.update r.cell_x (j + 1) (r.cell_x j + cell_dx)
  let cellsize := cell_dx * skew_fac_d
  (slb_np_loop fuel cellsize cutoff r.np).map
    (fun np => ⟨cell_x, np, min r.cellsize_min cellsize⟩)

/-- The loop over the cells of a statically load balanced dimension
(lines 1731-1738). -/
def slb_frac_cells (fuel : Nat) (box_dd skew_fac_d cutoff : real) (slb_frac_d : Nat → real)
    (nc_d : Nat) (r : slb_row) : Option slb_row :=
  (List.range nc_d).foldl
    (fun o j => o.bind (fun r => slb_frac_cell fuel box_dd skew_fac_d cutoff slb_frac_d r j))
    (some r)

/-- Iteration `d` of the loop of `set_dd_cell_sizes_slb` up to the test for the
fatal error (lines 1704-1744).  `slb_frac d = none` stands for
`comm->slb_frac[d] == NULL`; `none` is returned when the fuel does not suffice
for the loops that increase `np[d]`. -/
def slb_dim_cells (fuel : Nat) (nc ci : ivec) (box : matrix) (skew_fac : rvec)
    (slb_frac : Fin 3 → Option (Nat → real)) (cutoff : real) (bMaster : Bool) (d : Fin 3)
    (s : slb_state) : Option slb_state :=
  match (if nc d = 1 then none else slb_frac d) with
  | none =>
    let cell_dx : real := box d d / (nc d : real)
    let ma_cell_x := if bMaster then
        Function.update s.ma_cell_x d (slb_uniform_cell_x (nc d) cell_dx (s.ma_cell_x d))
      else s.ma_cell_x
    let cell_x0 := if bMaster then s.cell_x0
      else Function.update s.cell_x0 d ((ci d : real) * cell_dx)
    let cell_x1 := if bMaster then s.cell_x1
      else Function.update s.cell_x1 d (((ci d : real) + 1) * cell_dx)
    let cellsize := cell_dx * skew_fac d
    (slb_np_loop fuel cellsize cutoff 1).map
      (fun np => ⟨ma_cell_x, cell_x0, cell_x1, Function.update s.np d np,
        Function.update s.cellsize_min d cellsize, s.comm_cellsize_min⟩)
  | some slb_frac_d =>
    let cell_x : Nat → real := if bMaster then s.ma_cell_x d else fun _ => 0
    (slb_frac_cells fuel (box d d) (skew_fac d) cutoff slb_frac_d (nc d)
        ⟨Function.update cell_x 0 0, 1, box d d * skew_fac d⟩).map
      (fun r =>
        ⟨if bMaster then Function.update s.ma_cell_x d r.cell_x else s.ma_cell_x,
          if bMaster then s.cell_x0 else Function.update s.cell_x0 d (r.cell_x (ci d)),
          if bMaster then s.cell_x1 else Function.update s.cell_x1 d (r.cell_x (ci d + 1)),
          Function.update s.np d r.np,
          Function.update s.cellsize_min d r.cellsize_min, s.comm_cellsize_min⟩)

/-- Iteration `d` of the loop of `set_dd_cell_sizes_slb` (lines 1704-1751).
The inner `none` is the `gmx_fatal` of lines 1746-1750; `ddmaster` is
`DDMASTER(dd)`. -/
def set_dd_cell_sizes_slb_dim (fuel : Nat) (nc ci : ivec) (box : matrix) (skew_fac : rvec)
    (slb_frac : Fin 3 → Option (Nat → real)) (cutoff : real) (bMaster ddmaster : Bool)
    (d : Fin 3) (s : slb_state) : Option (Option slb_state) :=
  (slb_dim_cells fuel nc ci box skew_fac slb_frac cutoff bMaster d s).map
    (fun s1 => if 1 < nc d ∧ nc d ≤ s1.np d ∧ ddmaster = true then none else some s1)

/-- The loop over the dimensions of `set_dd_cell_sizes_slb`, run over the
dimensions `ds`, from the outcome `o` of the earlier iterations. -/
def set_dd_cell_sizes_slb_dims (fuel : Nat) (nc ci : ivec) (box : matrix) (skew_fac : rvec)
    (slb_frac : Fin 3 → Option (Nat → real)) (cutoff : real) (bMaster ddmaster : Bool)
    (ds : List (Fin 3)) (o : Option (Option slb_state)) : Option (Option slb_state) :=
  ds.foldl
    (fun o d => o.bind (fun r =>
      match r with
      | none => some none
      | some s =>
        set_dd_cell_sizes_slb_dim fuel nc ci box skew_fac slb_frac cutoff bMaster ddmaster d s))
    o

/-- The function `set_dd_cell_sizes_slb` (lines 1689-1759) without the call of
`set_pme_maxshift`, which writes `comm->pme_maxshift` only.  The outer `none`
means that the fuel did not suffice, the inner `none` is a fatal error. -/
def set_dd_cell_sizes_slb (fuel : Nat) (nc ci : ivec) (box : matrix) (skew_fac : rvec)
    (slb_frac : Fin 3 → Option (Nat → real)) (cutoff : real)
    (bMaster ddmaster bDynLoadBal : Bool) (s : slb_state) : Option (Option slb_state) :=
  (set_dd_cell_sizes_slb_dims fuel nc ci box skew_fac slb_frac cutoff bMaster ddmaster
      [XX, YY, ZZ] (some (some s))).map
    (fun r => r.map (fun s1 =>
      if bDynLoadBal then s1
      else ⟨s1.ma_cell_x, s1.cell_x0, s1.cell_x1, s1.np, s1.cellsize_min, s1.cellsize_min⟩))

/-- A state with all entries zero. -/
def slb_state_zero : slb_state :=
  ⟨fun _ _ => 0, fun _ => 0, fun _ => 0, fun _ => 0, fun _ => 0, fun _ => 0⟩

/-- The pulse count `np[d]` that iteration `d` of `set_dd_cell_sizes_slb`
computes: it depends on the grid, the box and the cut-off only. -/
def slb_np (fuel : Nat) (nc ci : ivec) (box : matrix) (skew_fac : rvec)
    (slb_frac : Fin 3 → Option (Nat → real)) (cutoff : real) (bMaster : Bool) (d : Fin 3) :
    Option Nat :=
  (slb_dim_cells fuel nc ci box skew_fac slb_frac cutoff bMaster d slb_state_zero).map
    (fun s => s.np d)

/-- A rectangular box with edges of length 1. -/
def ex_unit_box : matrix := fun i j => if i = j then 1 else 0

/-! ## Sorting the home charge groups: `dd_sort_state` -/

/-- An entry `gmx_cgsort_t` of the sort arrays: the NS cell index `nsc`, the
global index `ind_gl` and the local index `ind` of a charge group. The three
are `int` in the source and never negative here. -/
structure gmx_cgsort where
  nsc : Nat
  ind_gl : Nat
  ind : Nat

/-- The comparison function `comp_cgsort` (lines 4945-5009): the difference of
the NS cell indices, and for equal cell indices the difference of the global
indices. -/
def comp_cgsort (a b : gmx_cgsort) : Int :=
  let comp := (a.nsc : Int) - (b.nsc : Int)
  if comp = 0 then (a.ind_gl : Int) - (b.ind_gl : Int) else comp

/-- The library function `qsort(base,n,size,comp)` of C on the first `n`
entries of an array: afterwards these entries are in an order in which `comp`
of an earlier and a later entry is never positive. The C standard leaves the
order of entries that compare equal open; the model keeps their order. -/
def qsort {α : Type} (base : Nat → α) (n : Nat) (comp : α → α → Int) : Nat → α :=
  let sorted := ((List.range n).map base).insertionSort (fun a b => comp a b ≤ 0)
  fun i => sorted.getD i (base i)

/-- The loop `for(i=0; i<n; i++) buf[i] = a[sort[i].ind]`, followed by the
loop `for(i=0; i<n; i++) a[i] = buf[i]`: the function `order_int_cg`. The
result is the array `a` and the buffer. -/
def order_int_cg (n : Nat) (sort : Nat → gmx_cgsort) (a buf : Nat → Nat) :
    (Nat → Nat) × (Nat → Nat) :=
  let buf := (List.range n).foldl (fun buf i => Function.update buf i (a (sort i).ind)) buf
  let a := (List.range n).foldl (fun a i => Function.update a i (buf i)) a
  (a, buf)

/-- The function `order_vec_cg`: as `order_int_cg` for an array of vectors. -/
def order_vec_cg (n : Nat) (sort : Nat → gmx_cgsort) (v buf : Nat → rvec) :
    (Nat → rvec) × (Nat → rvec) :=
  let buf := (List.range n).foldl (fun buf i => Function.update buf i (v (sort i).ind)) buf
  let v := (List.range n).foldl (fun v i => Function.update v i (buf i)) v
  (v, buf)

/-- The loop over the atoms `for(i=cg0; i<cg1; i++) { copy_rvec(v[i],buf[a]); a++; }`
of `order_vec_atom`; the state is the buffer and the counter `a`. -/
def order_vec_atom_cg (v : Nat → rvec) (cg0 cg1 : Nat) (s : (Nat → rvec) × Nat) :
    (Nat → rvec) × Nat :=
  (List.range' cg0 (cg1 - cg0)).foldl (fun s i => (Function.update s.1 s.2 (v i), s.2 + 1)) s

/-- The function `order_vec_atom`: the atoms of the charge groups are copied
to the buffer in the order of `sort` and then back to the start of `v`. The
result is the array `v` and the buffer. -/
def order_vec_atom (ncg : Nat) (cgindex : Nat → Nat) (sort : Nat → gmx_cgsort)
    (v buf : Nat → rvec) : (Nat → rvec) × (Nat → rvec) :=
  let s := (List.range ncg).foldl
    (fun s cg => order_vec_atom_cg v (cgindex (sort cg).ind) (cgindex ((sort cg).ind + 1)) s)
    (buf, 0)
  let atot := s.2
  let v := (List.range atot).foldl (fun v a => Function.update v a (s.1 a)) v
  (v, s.1)

/-- The variables of the merge loop of `ordered_sort`. -/
structure ordered_sort_state where
  sort1 : Nat → gmx_cgsort
  i1 : Nat
  i2 : Nat
  i_new : Nat

/-- Body of the loop `while(i2 < nsort2 || i_new < nsort_new)` of
`ordered_sort` (lines 5022-5035). -/
def ordered_sort_body (nsort2 : Nat) (sort2 : Nat → gmx_cgsort) (nsort_new : Nat)
    (sort_new : Nat → gmx_cgsort) (s : ordered_sort_state) : ordered_sort_state :=
  if s.i2 = nsort2 then
    ⟨Function.update s.sort1 s.i1 (sort_new s.i_new), s.i1 + 1, s.i2, s.i_new + 1⟩
  else if s.i_new = nsort_new then
    ⟨Function.update s.sort1 s.i1 (sort2 s.i2), s.i1 + 1, s.i2 + 1, s.i_new⟩
  else if (sort2 s.i2).nsc < (sort_new s.i_new).nsc ∨
      ((sort2 s.i2).nsc = (sort_new s.i_new).nsc ∧
        (sort2 s.i2).ind_gl < (sort_new s.i_new).ind_gl) then
    ⟨Function.update s.sort1 s.i1 (sort2 s.i2), s.i1 + 1, s.i2 + 1, s.i_new⟩
  else
    ⟨Function.update s.sort1 s.i1 (sort_new s.i_new), s.i1 + 1, s.i2, s.i_new + 1⟩

/-- The function `ordered_sort` (lines 5011-5037): the new entries are sorted
with `qsort` and merged with the ordered entries `sort2` into `sort1`. The
result is `none` when the fuel does not suffice for the merge loop. -/
def ordered_sort (fuel : Nat) (nsort2 : Nat) (sort2 : Nat → gmx_cgsort) (nsort_new : Nat)
    (sort_new : Nat → gmx_cgsort) (sort1 : Nat → gmx_cgsort) : Option (Nat → gmx_cgsort) :=
  let sort_new := qsort sort_new nsort_new comp_cgsort
  (while_loop (fun s => decide (s.i2 < nsort2) || decide (s.i_new < nsort_new))
    (ordered_sort_body nsort2 sort2 nsort_new sort_new) fuel ⟨sort1, 0, 0, 0⟩).map
    (fun s => s.sort1)

/-- The variables of the loop of `dd_sort_state` that divides the charge groups
into those that stayed in their NS cell and the others. -/
structure sort_classify where
  sort2 : Nat → gmx_cgsort
  sort_new : Nat → gmx_cgsort
  nsort2 : Nat
  nsort_new : Nat
  ncg_new : Nat

/-- Body of the loop `for(i=0; i<dd->ncg_home; i++)` of lines 5064-5085. -/
def dd_sort_state_classify (ncells : Nat) (cell_index index_gl : Nat → Nat)
    (ncg_home_old : Int) (sort1 : Nat → gmx_cgsort) (s : sort_classify) (i : Nat) :
    sort_classify :=
  let cell_index := cell_index i
  if cell_index ≠ 4 * ncells then
    if (i : Int) ≥ ncg_home_old ∨ cell_index ≠ (sort1 i).nsc then
      { s with
        sort_new := Function.update s.sort_new s.nsort_new ⟨cell_index, index_gl i, i⟩
        nsort_new := s.nsort_new + 1
        ncg_new := s.ncg_new + 1 }
    else
      { s with
        sort2 := Function.update s.sort2 s.nsort2 ⟨cell_index, index_gl i, i⟩
        nsort2 := s.nsort2 + 1
        ncg_new := s.ncg_new + 1 }
  else s

/-- Body of the loop `for(i=0; i<dd->ncg_home; i++)` of lines 5094-5101; the
state is the array `cgsort` and the count `ncg_new`. -/
def dd_sort_state_fill (ncells : Nat) (cell_index index_gl : Nat → Nat)
    (s : (Nat → gmx_cgsort) × Nat) (i : Nat) : (Nat → gmx_cgsort) × Nat :=
  let cgsort := Function.update s.1 i ⟨cell_index i, index_gl i, i⟩
  (cgsort, if (cgsort i).nsc ≠ 4 * ncells then s.2 + 1 else s.2)

/-- The data `dd_sort_state` works on: the counts and index arrays of the
home charge groups, the NS cell indices, the centres, the state vectors, and
the array `sort1` and the buffers of `dd->comm->sort`. The charge group sizes
are differences of the increasing array `cgindex`. The arrays `sort2` and
`sort_new` of `dd->comm->sort` are written before they are read and are kept
apart. -/
structure dd_sort where
  ncg_home : Nat
  nat_home : Nat
  index_gl : Nat → Nat
  cgindex : Nat → Nat
  cell_index : Nat → Nat
  cgcm : Nat → rvec
  x : Nat → rvec
  v : Nat → rvec
  sd_X : Nat → rvec
  cg_p : Nat → rvec
  sort1 : Nat → gmx_cgsort
  vbuf : Nat → rvec
  ibuf : Nat → Nat

/-- The first part of `dd_sort_state` (lines 5055-5106): the order `sort1` of
the charge groups and the new count `ncg_new`, incrementally for
`ncg_home_old >= 0` and with `qsort` otherwise. -/
def dd_sort_state_order (fuel ncells : Nat) (ncg_home_old : Int)
    (sort2 sort_new : Nat → gmx_cgsort) (s : dd_sort) : Option ((Nat → gmx_cgsort) × Nat) :=
  if ncg_home_old ≥ 0 then
    let c := (List.range s.ncg_home).foldl
      (dd_sort_state_classify ncells s.cell_index s.index_gl ncg_home_old s.sort1)
      ⟨sort2, sort_new, 0, 0, 0⟩
    (ordered_sort fuel c.nsort2 c.sort2 c.nsort_new c.sort_new s.sort1).map
      (fun sort1 => (sort1, c.ncg_new))
  else
    let c := (List.range s.ncg_home).foldl
      (dd_sort_state_fill ncells s.cell_index s.index_gl) (s.sort1, 0)
    some (qsort c.1 s.ncg_home comp_cgsort, c.2)

/-- The second part of `dd_sort_state` (lines 5107-5153): the state vectors,
the centres and the global indices are put in the order `cgsort`, and the
local index `cgindex`, the number of home atoms and the NS cell indices are
set. -/
def dd_sort_state_apply (bV bSDX bCGP : Bool) (cgsort : Nat → gmx_cgsort) (ncg_new : Nat)
    (s : dd_sort) : dd_sort :=
  let ncg_home := ncg_new
  let rx := order_vec_atom ncg_home s.cgindex cgsort s.x s.vbuf
  let rv := if bV then order_vec_atom ncg_home s.cgindex cgsort s.v rx.2 else (s.v, rx.2)
  let rs := if bSDX then order_vec_atom ncg_home s.cgindex cgsort s.sd_X rv.2
    else (s.sd_X, rv.2)
  let rp := if bCGP then order_vec_atom ncg_home s.cgindex cgsort s.cg_p rs.2
    else (s.cg_p, rs.2)
  let rc := order_vec_cg ncg_home cgsort s.cgcm rp.2
  let ri := order_int_cg ncg_home cgsort s.index_gl s.ibuf
  let ibuf := Function.update ri.2 0 0
  let ibuf := (List.range ncg_home).foldl
    (fun ibuf i =>
      let cgsize := s.cgindex ((cgsort i).ind + 1) - s.cgindex (cgsort i).ind
      Function.update ibuf (i + 1) (ibuf i + cgsize)) ibuf
  let cgindex := (List.range (ncg_home + 1)).foldl
    (fun cgindex i => Function.update cgindex i (ibuf i)) s.cgindex
  let cell_index := (List.range ncg_home).foldl
    (fun cell_index i => Function.update cell_index i (cgsort i).nsc) s.cell_index
  { s with
    ncg_home := ncg_home
    nat_home := cgindex ncg_home
    index_gl := ri.1
    cgindex := cgindex
    cell_index := cell_index
    cgcm := rc.1
    x := rx.1
    v := rv.1
    sd_X := rs.1
    cg_p := rp.1
    sort1 := cgsort
    vbuf := rc.2
    ibuf := ibuf }

/-- The function `dd_sort_state` (lines 5039-5153) for `4*ncells` the mark of
a charge group that moved away; `none` when the fuel does not suffice for the
merge loop of `ordered_sort`. -/
def dd_sort_state (fuel ncells : Nat) (bV bSDX bCGP : Bool) (ncg_home_old : Int)
    (sort2 sort_new : Nat → gmx_cgsort) (s : dd_sort) : Option dd_sort :=
  (dd_sort_state_order fuel ncells ncg_home_old sort2 sort_new s).map
    (fun r => dd_sort_state_apply bV bSDX bCGP r.1 r.2 s)

/-- The order of `comp_cgsort`: the comparison of `a` with `b` is not
positive. -/
def cgsort_le (a b : gmx_cgsort) : Prop := comp_cgsort a b ≤ 0

instance (a b : gmx_cgsort) : Decidable (cgsort_le a b) := by
  unfold cgsort_le
  infer_instance

/-- The entry of the sort arrays for the home charge group `i`. -/
def cgsort_entry (cell_index index_gl : Nat → Nat) (i : Nat) : gmx_cgsort :=
  ⟨cell_index i, index_gl i, i⟩

/-- The home charge group `i` has not moved away: its NS cell index is not
the mark `4*ncells`. -/
def cg_stays (ncells : Nat) (cell_index : Nat → Nat) (i : Nat) : Bool :=
  decide (cell_index i ≠ 4 * ncells)

/-- The home charge group `i` is put in the list of the charge groups that
stayed in their NS cell. -/
def cg_stationary (ncells : Nat) (cell_index : Nat → Nat) (ncg_home_old : Int)
    (sort1 : Nat → gmx_cgsort) (i : Nat) : Bool :=
  decide (cell_index i ≠ 4 * ncells) &&
    !(decide ((i : Int) ≥ ncg_home_old) || decide (cell_index i ≠ (sort1 i).nsc))

/-- Invariant of the merge loop of `ordered_sort`: the entries written to
`sort1` are the entries taken from `sort2` and `sort_new`, in the order of
`comp_cgsort`, and none of them comes after an entry that is still to be
taken. -/
def ordered_sort_inv (nsort2 : Nat) (sort2 : Nat → gmx_cgsort) (nsort_new : Nat)
    (sort_new : Nat → gmx_cgsort) (s : ordered_sort_state) : Prop :=
  s.i1 = s.i2 + s.i_new ∧ s.i2 ≤ nsort2 ∧ s.i_new ≤ nsort_new ∧
  (∀ p q, p < q → q < s.i1 → cgsort_le (s.sort1 p) (s.sort1 q)) ∧
  (∀ p, p < s.i1 → ∀ q, s.i2 ≤ q → q < nsort2 → cgsort_le (s.sort1 p) (sort2 q)) ∧
  (∀ p, p < s.i1 → ∀ q, s.i_new ≤ q → q < nsort_new → cgsort_le (s.sort1 p) (sort_new q)) ∧
  List.Perm ((List.range s.i1).map s.sort1)
    ((List.range s.i2).map sort2 ++ (List.range s.i_new).map sort_new)

/-- An old order `sort1` with the NS cell indices 1, 8, 2, 0 and 3. -/
def ex_sort1 : Nat → gmx_cgsort :=
  fun i => ⟨[1, 8, 2, 0, 3].getD i 0, 0, i⟩

/-- Five home charge groups in a grid of two NS cells: the second one has
moved away, the first and the last are in their old NS cells 1 and 3. -/
def ex_dd_sort : dd_sort :=
  { ncg_home := 5
    nat_home := 8
    index_gl := fun i => [5, 9, 7, 3, 4].getD i 0
    cgindex := fun i => [0, 2, 3, 5, 6, 8].getD i 8
    cell_index := fun i => [1, 8, 0, 1, 3].getD i 0
    cgcm := fun i _ => i
    x := fun a _ => 10 + a
    v := fun a _ => 20 + a
    sd_X := fun a _ => 30 + a
    cg_p := fun a _ => 40 + a
    sort1 := ex_sort1
    vbuf := fun _ _ => 0
    ibuf := fun _ => 0 }

/-! ## Grid coordinates and DD indices -/

/-- The function `ddindex2xyz` (lines 312-317). -/
def ddindex2xyz (nc : ivec) (ind : Nat) : ivec :=
  fun d =>
    if d = XX then ind / (nc YY * nc ZZ)
    else if d = YY then (ind / nc ZZ) % nc YY
    else ind % nc ZZ

/-! ## The neighbour table of `setup_dd_grid` -/

/-- The function `ddcoord2ddnodeid` (lines 319-336): the rank of the cell with
coordinate `c`.  `MPI_Cart_rank` stands for the library call of that name. -/
def ddcoord2ddnodeid (nc : ivec) (bCartesianPP_PME bCartesianPP : Bool)
    (ddindex2ddnodeid : Nat → Nat) (MPI_Cart_rank : ivec → Nat) (c : ivec) : Nat :=
  let ddindex := dd_index nc c
  if bCartesianPP_PME then ddindex2ddnodeid ddindex
  else if bCartesianPP then MPI_Cart_rank c
  else ddindex

/-- Body of the first loop of `setup_dd_grid` (lines 3280-3292): the entries
`neighbor[d][0]` and `neighbor[d][1]` are written. -/
def setup_dd_grid_d (nc ci : ivec) (dim : Nat → Fin 3) (bCartesianPP_PME bCartesianPP : Bool)
    (ddindex2ddnodeid : Nat → Nat) (MPI_Cart_rank : ivec → Nat)
    (neighbor : Nat → Nat → Nat) (d : Nat) : Nat → Nat → Nat :=
  let tmp0 : ivec := Function.update ci (dim d) (neighbor_fw (nc (dim d)) (ci (dim d)))
  let n1 := Function.update neighbor d
    (Function.update (neighbor d) 0
      (ddcoord2ddnodeid nc bCartesianPP_PME bCartesianPP ddindex2ddnodeid MPI_Cart_rank tmp0))
  let tmp1 : ivec := Function.update ci (dim d) (neighbor_bw (nc (dim d)) (ci (dim d)))
  Function.update n1 d
    (Function.update (n1 d) 1
      (ddcoord2ddnodeid nc bCartesianPP_PME bCartesianPP ddindex2ddnodeid MPI_Cart_rank tmp1))

/-- The first loop of `setup_dd_grid` (lines 3279-3292), which fills
`dd->neighbor` for the decomposition dimensions `0 ≤ d < ndim`. -/
def setup_dd_grid_neighbor (nc ci : ivec) (ndim : Nat) (dim : Nat → Fin 3)
    (bCartesianPP_PME bCartesianPP : Bool) (ddindex2ddnodeid : Nat → Nat)
    (MPI_Cart_rank : ivec → Nat) (neighbor : Nat → Nat → Nat) : Nat → Nat → Nat :=
  (List.range ndim).foldl
    (setup_dd_grid_d nc ci dim bCartesianPP_PME bCartesianPP ddindex2ddnodeid MPI_Cart_rank)
    neighbor

/-! ## The search for the grid: `factorize`, `assign_factors`, `optimize_ncells` -/

/-- The variables of `factorize`: the rest `n`, the trial divisor `d`, the
number `ndiv` of factors found and the arrays `*fac` and `*mfac`. -/
structure factorize_state where
  n : Nat
  d : Nat
  ndiv : Nat
  fac : Nat → Nat
  mfac : Nat → Nat

/-- Body of the inner loop of `factorize` (lines 3751-3756). -/
def factorize_step (s : factorize_state) : factorize_state :=
  let s1 : factorize_state :=
    if s.ndiv = 0 ∨ s.fac (s.ndiv - 1) ≠ s.d then
      ⟨s.n, s.d, s.ndiv + 1, Function.update s.fac (s.ndiv + 1 - 1) s.d, s.mfac⟩
    else s
  ⟨s1.n / s1.d, s1.d, s1.ndiv, s1.fac,
    Function.update s1.mfac (s1.ndiv - 1) (s1.mfac (s1.ndiv - 1) + 1)⟩

/-- The inner loop `while (n % d == 0)` of `factorize` (lines 3750-3757), with
fuel. -/
def factorize_inner : Nat → factorize_state → Option factorize_state
  | 0, s => if s.n % s.d = 0 then none else some s
  | fuel + 1, s =>
    if s.n % s.d = 0 then factorize_inner fuel (factorize_step s) else some s

/-- The outer loop `while (n > 1)` of `factorize` (lines 3749-3759), with
fuel. -/
def factorize_outer : Nat → factorize_state → Option factorize_state
  | 0, s => if s.n > 1 then none else some s
  | fuel + 1, s =>
    if s.n > 1 then
      (factorize_inner (fuel + 1) s).bind
        (fun s1 => factorize_outer fuel ⟨s1.n, s1.d + 1, s1.ndiv, s1.fac, s1.mfac⟩)
    else some s

/-- The function `factorize` (lines 3739-3762) on the arrays that `snew` has
filled with zeros: the returned `ndiv` and the arrays are the fields of the
result; `none` when the fuel does not suffice. -/
def factorize (fuel n : Nat) : Option factorize_state :=
  factorize_outer fuel ⟨n, 2, 0, fun _ => 0, fun _ => 0⟩

/-- The loop `for(i=0; i<n; i++) try[d] *= div`. -/
def try_mul (d : Fin 3) (n div : Nat) (try_ : ivec) : ivec :=
  (List.range n).foldl (fun t _ => Function.update t d (t d * div)) try_

/-- The loop `for(i=0; i<n; i++) try[d] /= div`. -/
def try_div (d : Fin 3) (n div : Nat) (try_ : ivec) : ivec :=
  (List.range n).foldl (fun t _ => Function.update t d (t d / div)) try_

/-- The vectors `try` and `opt` of `assign_factors`. -/
structure assign_state where
  try_ : ivec
  opt : ivec

/-- The function `assign_factors` (lines 3941-3981).  `cost` is the function
`comm_cost_est` with its other arguments fixed, `bNoZ` is the condition
`ir->ePBC == epbcXY && ir->nwall < 2`, and the pointers `div` and `mdiv` of
the call are the arrays `div` and `mdiv` from index `k` on. -/
def assign_factors (cost : ivec → real) (bNoZ : Bool) (div mdiv : Nat → Nat) :
    Nat → Nat → assign_state → assign_state
  | 0, _, s =>
    if cost s.try_ ≥ 0 ∧ (s.opt XX = 0 ∨ cost s.try_ < cost s.opt) then ⟨s.try_, s.try_⟩
    else s
  | ndiv + 1, k, s =>
    ((List.range (mdiv k + 1)).reverse).foldl
      (fun s x =>
        let s1 : assign_state := ⟨try_mul XX x (div k) s.try_, s.opt⟩
        let s2 : assign_state :=
          ((List.range (mdiv k - x + 1)).reverse).foldl
            (fun s y =>
              if bNoZ = true ∧ x + y ≠ mdiv k then s
              else
                let t1 := try_mul YY y (div k) s.try_
                let t2 := try_mul ZZ (mdiv k - x - y) (div k) t1
                let r := assign_factors cost bNoZ div mdiv ndiv (k + 1) ⟨t2, s.opt⟩
                let t3 := try_div ZZ (mdiv k - x - y) (div k) r.try_
                let t4 := try_div YY y (div k) t3
                ⟨t4, r.opt⟩) s1
        ⟨try_div XX x (div k) s2.try_, s2.opt⟩) s

/-- The end of `optimize_ncells` (lines 4067-4089): the factors of `npp`, the
search and the test of its result.  The outer `none` means that the fuel of
`factorize` did not suffice, the inner `none` is the `gmx_fatal`; the value is
`nc`. -/
def optimize_ncells (fuel npp : Nat) (cost : ivec → real) (bNoZ : Bool) : Option (Option ivec) :=
  (factorize fuel npp).map
    (fun f =>
      let s := assign_factors cost bNoZ f.fac f.mfac f.ndiv 0 ⟨fun _ => 1, fun _ => 0⟩
      if s.opt XX = 0 then none else some s.opt)

/-- The test of `assign_factors` for a grid without factors left
(lines 3948-3953): `opt` after `try_` has been examined. -/
def assign_select (cost : ivec → real) (opt try_ : ivec) : ivec :=
  if cost try_ ≥ 0 ∧ (opt XX = 0 ∨ cost try_ < cost opt) then try_ else opt

/-- The ways to distribute `m` equal factors over x, y and z, in the order of
the loops of `assign_factors`. -/
def factor_splits (m : Nat) : List (Nat × Nat) :=
  ((List.range (m + 1)).reverse).flatMap
    (fun x => ((List.range (m - x + 1)).reverse).map (fun y => (x, y)))

/-- The grids that `assign_factors` examines from the grid `t` with the
factors `div[k], ..., div[k+ndiv-1]`, in the order of the recursion. -/
def factor_grids (div mdiv : Nat → Nat) : Nat → Nat → ivec → List ivec
  | 0, _, t => [t]
  | ndiv + 1, k, t =>
    (factor_splits (mdiv k)).flatMap
      (fun xy => factor_grids div mdiv ndiv (k + 1)
        (fun d =>
          if d = XX then t XX * div k ^ xy.1
          else if d = YY then t YY * div k ^ xy.2
          else t ZZ * div k ^ (mdiv k - xy.1 - xy.2)))

/-- An example cost: the sum of the extents, with grids of more than four
cells along x rejected. -/
def ex_cost : ivec → real := fun nc => if nc XX > 4 then -1 else (nc XX + nc YY + nc ZZ : Nat)

/-- The product of the powers `div[k+i] ^ mdiv[k+i]` for `i < ndiv`. -/
def factor_prod (div mdiv : Nat → Nat) : Nat → Nat → Nat
  | 0, _ => 1
  | ndiv + 1, k => div k ^ mdiv k * factor_prod div mdiv ndiv (k + 1)

/-- Invariant of the loops of `factorize` for the number `n0`: the rest times
the powers found so far is `n0`, no number from 2 up to the trial divisor
divides the rest, and the factors found are increasing primes not above the
trial divisor. -/
def factorize_inv (n0 : Nat) (s : factorize_state) : Prop :=
  2 ≤ s.d ∧ 1 ≤ s.n ∧
  s.n * (∏ i ∈ Finset.range s.ndiv, s.fac i ^ s.mfac i) = n0 ∧
  (∀ k, 2 ≤ k → k < s.d → ¬ k ∣ s.n) ∧
  (∀ i, i < s.ndiv → Nat.Prime (s.fac i) ∧ 1 ≤ s.mfac i ∧ s.fac i ≤ s.d) ∧
  (∀ i j, i < j → j < s.ndiv → s.fac i < s.fac j) ∧
  (∀ i, s.ndiv ≤ i → s.mfac i = 0)

/-! ## PME ranks interleaved with the PP ranks -/

/-- The function `low_ddindex2pmeslab` (lines 1158-1162). -/
def low_ddindex2pmeslab (ndd npme ddindex : Nat) : Nat := (ddindex * npme + npme / 2) / ndd

/-- The array `pmenodes` of `dd_pmenodes` and its counter `n`. -/
structure pmenodes_state where
  pmenodes : Nat → Nat
  n : Nat

/-- Body of the loop of `dd_pmenodes` (lines 1182-1190); `nnodes` is
`cr->dd->nnodes` and `npmenodes` is `cr->npmenodes`. -/
def dd_pmenodes_i (nnodes npmenodes : Nat) (s : pmenodes_state) (i : Nat) : pmenodes_state :=
  let p0 := low_ddindex2pmeslab nnodes npmenodes i
  let p1 := low_ddindex2pmeslab nnodes npmenodes (i + 1)
  if i + 1 = nnodes ∨ p1 > p0 then
    ⟨Function.update s.pmenodes s.n (i + 1 + s.n), s.n + 1⟩
  else s

/-- The loop of `dd_pmenodes` (lines 1179-1190) on the array that `snew` has
filled with zeros. -/
def dd_pmenodes_loop (nnodes npmenodes : Nat) : pmenodes_state :=
  (List.range nnodes).foldl (dd_pmenodes_i nnodes npmenodes) ⟨fun _ => 0, 0⟩

/-- The function `dd_pmenodes` (lines 1174-1193): the array it returns. -/
def dd_pmenodes (nnodes npmenodes : Nat) : Nat → Nat :=
  (dd_pmenodes_loop nnodes npmenodes).pmenodes

/-- The simulation rank of the PP rank with DD index `ddindex` when
`comm->pmenodes` is set (`ddcoord2simnodeid`, line 1248). -/
def ddindex2simnodeid_interleaved (nnodes npmenodes ddindex : Nat) : Nat :=
  ddindex + low_ddindex2pmeslab nnodes npmenodes ddindex

/-- The loop `i = 0; while (sim_nodeid > dd->comm->pmenodes[i]) i++`
(lines 1278-1280) on an array of which `rem` entries are left from index `i`
on.  The value is the final `i`; `none` means that the loop reads an entry
past the end of the array. -/
def pmenodes_search (pmenodes : Nat → Nat) (sim_nodeid : Nat) : Nat → Nat → Option Nat
  | 0, _ => none
  | rem + 1, i =>
    if sim_nodeid > pmenodes i then pmenodes_search pmenodes sim_nodeid rem (i + 1)
    else some i

/-- The function `dd_simnode2pmenode` (lines 1251-1287).  `cart_pmenode` is the
result of the branch for `bCartesianPP_PME`, which consists of calls of the
MPI library; `pmenodes = none` stands for `comm->pmenodes == NULL`, and the
array has `npmenodes` entries.  `none` means a read past the end of
`pmenodes`. -/
def dd_simnode2pmenode (nnodes npmenodes : Nat) (bCartesianPP_PME bCartesianPP : Bool)
    (cart_pmenode : Nat → Int) (pmenodes : Option (Nat → Nat)) (sim_nodeid : Nat) :
    Option Int :=
  if bCartesianPP_PME then some (cart_pmenode sim_nodeid)
  else if bCartesianPP then
    (if sim_nodeid < nnodes then
      some ((nnodes + low_ddindex2pmeslab nnodes npmenodes sim_nodeid : Nat) : Int)
    else some (-1))
  else
    match pmenodes with
    | none =>
      if sim_nodeid < nnodes then
        some ((nnodes + low_ddindex2pmeslab nnodes npmenodes sim_nodeid : Nat) : Int)
      else some (-1)
    | some pme =>
      (pmenodes_search pme sim_nodeid npmenodes 0).map
        (fun i => if sim_nodeid < pme i then ((pme i : Nat) : Int) else -1)

/-! ## A row with strongly shifted boundaries -/

/-- A row of four cells with the old boundaries 0, 0.3, 0.5, 0.7, 1 and the
new boundaries 0, 0.1, 0.2, 0.9, 1. -/
def ex_dlb_root_shift : gmx_domdec_root where
  cell_f := fun i => [0, 1 / 10, 2 / 10, 9 / 10, 1].getD i 0
  old_cell_f := fun i => [0, 3 / 10, 5 / 10, 7 / 10, 1].getD i 0
  cell_size := fun i => [1 / 10, 1 / 10, 7 / 10, 1 / 10].getD i 0
  bCellMin := fun _ => false
  cell_f_max0 := fun _ => 0
  cell_f_min1 := fun _ => 1
  bound_min := fun _ => 0
  bound_max := fun _ => 0
  bLimited := false

/-! ## `setup_dd_communication`: the test that selects the charge groups to send -/

/-- The corners that the test of `setup_dd_communication` uses
(lines 4608-4681): `corner[dim_ind][cell]`, `bcorner[dim_ind][cell]`,
`corner_round_0`, `corner_round_1[cell]` and `bcorner_round_1[cell]`. -/
structure comm_corners where
  corner : Nat → Nat → real
  bcorner : Nat → Nat → real
  corner_round_0 : real
  corner_round_1 : Nat → real
  bcorner_round_1 : Nat → real

/-- What the test reads besides the centre of the charge group: the index
`dim_ind` of the current dimension `dim`, the first two decomposition
dimensions `dim0` and `dim1`, `tric_dist[dim_ind] != 0`, `bTwoCut`, the rows
`v_d`, `v_0`, `v_1` of `comm->v`, the squared skew factors, the squared
cut-offs `r_comm2` and `r_bcomm2`, and the corners. -/
structure comm_select_env where
  dim_ind : Nat
  dim : Fin 3
  dim0 : Fin 3
  dim1 : Fin 3
  tric_dist : Bool
  bTwoCut : Bool
  v_d : matrix
  v_0 : matrix
  v_1 : matrix
  skew_fac2_d : real
  skew_fac2_0 : real
  skew_fac2_1 : real
  r_comm2 : real
  r_bcomm2 : real
  corners : comm_corners

/-- The loop `for(i=d+1; i<DIM; i++) r -= cg_cm[cg][i]*v[i][d]` from the
value `r`. -/
def tric_sub (v : matrix) (d : Fin 3) (cm : rvec) (r : real) : real :=
  ((List.finRange 3).filter (fun i => d < i)).foldl (fun a i => a - cm i * v i d) r

/-- The statement `if (r > 0) r2 += t`. -/
def add_if_pos (r2 r t : real) : real := if r > 0 then r2 + t else r2

/-- The values of `r2` and `rb2` for a charge group with centre `cm` in the
rectangular case (lines 4732-4760); `rb2` changes only with `bTwoCut`. -/
def comm_dist2_rect (e : comm_select_env) (cell celli : Nat) (cm : rvec) : real × real :=
  let r := cm e.dim - e.corners.corner e.dim_ind cell
  let r2 := add_if_pos 0 r (r * r)
  let rb := cm e.dim - e.corners.bcorner e.dim_ind cell
  let rb2 := if e.bTwoCut then add_if_pos 0 rb (rb * rb) else 0
  let s1 : real × real :=
    if e.dim_ind ≥ 1 ∧ (celli = 1 ∨ celli = 2) then
      let r0 := cm e.dim0 - e.corners.corner_round_0
      (r2 + r0 * r0, if e.bTwoCut then rb2 + r0 * r0 else rb2)
    else (r2, rb2)
  if e.dim_ind = 2 ∧ (celli = 2 ∨ celli = 3) then
    let r1 := cm e.dim1 - e.corners.corner_round_1 cell
    let rb1 := cm e.dim1 - e.corners.bcorner_round_1 cell
    (add_if_pos s1.1 r1 (r1 * r1),
      if e.bTwoCut then add_if_pos s1.2 rb1 (rb1 * rb1) else s1.2)
  else s1

/-- The values of `r2` and `rb2` for a charge group with centre `cm` in the
triclinic case (lines 4761-4797). -/
def comm_dist2_tric (e : comm_select_env) (cell celli : Nat) (cm : rvec) : real × real :=
  let tric_sh := tric_sub e.v_d e.dim cm 0
  let r := cm e.dim - e.corners.corner e.dim_ind cell + tric_sh
  let r2 := add_if_pos 0 r (r * r * e.skew_fac2_d)
  let rb := cm e.dim - e.corners.bcorner e.dim_ind cell + tric_sh
  let rb2 := if e.bTwoCut then add_if_pos 0 rb (rb * rb * e.skew_fac2_d) else 0
  let s1 : real × real :=
    if e.dim_ind ≥ 1 ∧ (celli = 1 ∨ celli = 2) then
      let r0 := tric_sub e.v_0 e.dim0 cm (cm e.dim0 - e.corners.corner_round_0)
      (r2 + r0 * r0 * e.skew_fac2_0, if e.bTwoCut then rb2 + r0 * r0 * e.skew_fac2_0 else rb2)
    else (r2, rb2)
  if e.dim_ind = 2 ∧ (celli = 2 ∨ celli = 3) then
    let tric_sh1 := tric_sub e.v_1 e.dim1 cm 0
    let r1 := cm e.dim1 - e.corners.corner_round_1 cell + tric_sh1
    let rb1 := cm e.dim1 - e.corners.bcorner_round_1 cell + tric_sh1
    (add_if_pos s1.1 r1 (r1 * r1 * e.skew_fac2_1),
      if e.bTwoCut then add_if_pos s1.2 rb1 (rb1 * rb1 * e.skew_fac2_1) else s1.2)
  else s1

/-- The values of `r2` and `rb2` at the test of line 4798. -/
def comm_dist2 (e : comm_select_env) (cell celli : Nat) (cm : rvec) : real × real :=
  if e.tric_dist then comm_dist2_tric e cell celli cm else comm_dist2_rect e cell celli cm

/-- The test `r2 < r_comm2 || (bTwoCut && rb2 < r_bcomm2)` of line 4798. -/
def comm_selected (e : comm_select_env) (cell celli : Nat) (cm : rvec) : Bool :=
  decide ((comm_dist2 e cell celli cm).1 < e.r_comm2 ∨
    (e.bTwoCut = true ∧ (comm_dist2 e cell celli cm).2 < e.r_bcomm2))

/-- Body of the loop over `cg` in `setup_dd_communication` (lines 4730-4827);
`ci_dim` is `dd->ci[dim]`. -/
def comm_select_cg (e : comm_select_env) (cell celli ci_dim : Nat) (box : matrix)
    (dd : dd_local) (s : halo_send) (cg : Nat) : halo_send :=
  if comm_selected e cell celli (dd.cg_cm cg) = true then
    { nsend := s.nsend + 1
      nat := s.nat + (dd.cgindex (cg + 1) - dd.cgindex cg)
      index := Function.update s.index s.nsend cg
      buf_int := Function.update s.buf_int s.nsend (dd.index_gl cg)
      buf_vr := Function.update s.buf_vr s.nsend
        (if ci_dim = 0 then dd.cg_cm cg + box e.dim else dd.cg_cm cg) }
  else s

/-- The loop `for(cg=cg0; cg<cg1; cg++)` of `setup_dd_communication` for one
cell of the source range (lines 4729-4828). -/
def comm_select (e : comm_select_env) (cell celli ci_dim : Nat) (box : matrix)
    (dd : dd_local) (cg0 cg1 : Nat) (s : halo_send) : halo_send :=
  (List.range' cg0 (cg1 - cg0)).foldl (comm_select_cg e cell celli ci_dim box dd) s

/-- The square of a distance when it is positive, else 0. -/
def pos_sq (r : real) : real := if r > 0 then r * r else 0

/-- The second decomposition dimension `y` of a rectangular grid over `x` and
`y`, one cut-off of length 1, all corners at 0 and the upper corner of the
first dimension at 5. -/
def ex_comm_env : comm_select_env where
  dim_ind := 1
  dim := YY
  dim0 := XX
  dim1 := YY
  tric_dist := false
  bTwoCut := false
  v_d := fun _ _ => 0
  v_0 := fun _ _ => 0
  v_1 := fun _ _ => 0
  skew_fac2_d := 1
  skew_fac2_0 := 1
  skew_fac2_1 := 1
  r_comm2 := 1
  r_bcomm2 := 1
  corners := ⟨fun _ _ => 0, fun _ _ => 0, 5, fun _ => 0, fun _ => 0⟩

/-- A rank whose cell ends at 5 along `x`, with one home charge group at
(3,0,0) and two charge groups of zone 1, received from the forward neighbour
along `x`, at (21/4,1/4,0) and (11/2,9/10,0). -/
def ex_comm_zone_dd : dd_local where
  ncg_home := 1
  ncg_tot := 3
  index_gl := fun c => 10 + c
  cgindex := fun c => 2 * c
  cg_cm := fun c d =>
    if c = 0 then (if d = XX then 3 else 0)
    else if c = 1 then (if d = XX then 21 / 4 else if d = YY then 1 / 4 else 0)
    else (if d = XX then 11 / 2 else if d = YY then 9 / 10 else 0)
  cell_x0 := fun _ => 0
  cell_x1 := fun _ => 5

/-- Empty send buffers. -/
def ex_comm_buf : halo_send := ⟨0, 0, fun _ => 0, fun _ => 0, fun _ _ => 0⟩

/-! ## `dd_redistribute_cg`: the buffers of the charge groups that move -/

/-- The number `DD_CGIBS` of integers sent per charge group. -/
def DD_CGIBS : Nat := 2

/-- The centres `fr->cg_cm` and the state vectors `state->x`, `state->v`,
`state->sd_X` and `state->cg_p`. -/
structure redist_vecs where
  cg_cm : Nat → rvec
  x : Nat → rvec
  v : Nat → rvec
  sd_X : Nat → rvec
  cg_p : Nat → rvec

/-- The count `nvec` of lines 2643-2649. -/
def dd_redistribute_cg_nvec (bV bSDX bCGP : Bool) : Nat :=
  let nvec := 1
  let nvec := if bV then nvec + 1 else nvec
  let nvec := if bSDX then nvec + 1 else nvec
  if bCGP then nvec + 1 else nvec

/-- What lines 2663-2682 of `dd_redistribute_cg` leave: the home arrays, the
buffers `comm->cgcm_state` and the counts `home_pos_cg` and `home_pos_at`. -/
structure redist_packed where
  vecs : redist_vecs
  cgcm_state : Int → Nat → rvec
  home_pos_cg : Nat
  home_pos_at : Nat

/-- A call `if (flag) compact_and_copy_vec_at(...)` of lines 2672-2682: without
the flag the vector and the buffers are as before. -/
def compact_and_copy_vec_at_if (flag : Bool) (ncg : Nat) (move : Nat → Int)
    (cgindex : Nat → Nat) (nvec vec : Nat) (src : Nat → rvec) (cgcm_state : Int → Nat → rvec)
    (bCompact : Bool) : compact_vec :=
  if flag then compact_and_copy_vec_at ncg move cgindex nvec vec src cgcm_state bCompact
  else ⟨src, cgcm_state, fun _ => 0, 0, 0⟩

/-- Lines 2663-2682 of `dd_redistribute_cg`: the centres and the state
vectors of the charge groups that move are copied to the buffers, those of
the others are compacted. -/
def dd_redistribute_cg_pack (ncg_home : Nat) (move : Nat → Int) (cgindex : Nat → Nat)
    (bV bSDX bCGP bCompact : Bool) (vecs : redist_vecs) (cgcm_state : Int → Nat → rvec) :
    redist_packed :=
  let nvec := dd_redistribute_cg_nvec bV bSDX bCGP
  let r_cg := compact_and_copy_vec_cg ncg_home move cgindex nvec vecs.cg_cm cgcm_state bCompact
  let vec := 0
  let r_x := compact_and_copy_vec_at ncg_home move cgindex nvec vec vecs.x r_cg.cgcm_state
    bCompact
  let vec := vec + 1
  let r_v := compact_and_copy_vec_at_if bV ncg_home move cgindex nvec vec vecs.v
    r_x.cgcm_state bCompact
  let vec := if bV then vec + 1 else vec
  let r_sd := compact_and_copy_vec_at_if bSDX ncg_home move cgindex nvec vec vecs.sd_X
    r_v.cgcm_state bCompact
  let vec := if bSDX then vec + 1 else vec
  let r_cgp := compact_and_copy_vec_at_if bCGP ncg_home move cgindex nvec vec vecs.cg_p
    r_sd.cgcm_state bCompact
  ⟨⟨r_cg.src, r_x.src, r_v.src, r_sd.src, r_cgp.src⟩, r_cgp.cgcm_state, r_cg.home_pos,
    r_x.home_pos⟩

/-- What the loop over the received charge groups reads besides the
buffers: the decomposition, the flags `bGridJump` and `tric_dir`, the matrix
`tcm`, the cell boundaries and the state flags. -/
structure redist_recv_env where
  ndim : Nat
  dim : Nat → Fin 3
  nc : ivec
  ci : ivec
  bGridJump : Bool
  tric_dir : Fin 3 → Bool
  tcm : matrix
  cell_x0 : rvec
  cell_x1 : rvec
  bV : Bool
  bSDX : Bool
  bCGP : Bool

/-- Body of the loop `for(d2=d+1; (d2<dd->ndim && mc==-1); d2++)` of lines
2738-2776 for a charge group with the centre `centre`: with `bGridJump` the
flags of dimension `d2` are determined again from the centre, then `mc` is
set from the flags. -/
def redist_recv_dir (e : redist_recv_env) (centre : rvec) (s : move_code) (d2 : Nat) :
    move_code :=
  if s.mc = -1 then
    let dim2 := e.dim d2
    let flag : Nat :=
      if e.bGridJump = true ∧
          ¬ ((e.ci dim2 + 1 = e.nc dim2 ∧ s.flag &&& DD_FLAG_FW d2 ≠ 0) ∨
            (e.ci dim2 = 0 ∧ s.flag &&& DD_FLAG_BW d2 ≠ 0)) then
        let flag := Nat.ldiff s.flag (DD_FLAG_FW d2 ||| DD_FLAG_BW d2)
        let pos_d := lattice_pos (e.tric_dir dim2) e.tcm centre dim2
        if pos_d ≥ e.cell_x1 dim2 then flag ||| DD_FLAG_FW d2
        else if pos_d < e.cell_x0 dim2 then flag ||| DD_FLAG_BW d2
        else flag
      else s.flag
    let mc : Int :=
      if flag &&& DD_FLAG_FW d2 ≠ 0 then (d2 : Int) * 2
      else if flag &&& DD_FLAG_BW d2 ≠ 0 then
        (if e.nc (e.dim d2) > 2 then (d2 : Int) * 2 + 1 else (d2 : Int) * 2)
      else s.mc
    ⟨flag, mc⟩
  else s

/-- The flag word and the direction `mc` of a received charge group after the
loop over `d2` (lines 2734-2777), from the received word `flag` and the
received centre. -/
def redist_recv_code (e : redist_recv_env) (d : Nat) (flag : Nat) (centre : rvec) :
    move_code :=
  (List.range' (d + 1) (e.ndim - (d + 1))).foldl (redist_recv_dir e centre) ⟨flag, -1⟩

/-- The loop `for(i=0; i<n; i++) copy_rvec(buf[buf_pos++],dst[off+i])`. -/
def copy_from_buf (buf : Nat → rvec) (n buf_pos : Nat) (dst : Nat → rvec) (off : Nat) :
    Nat → rvec :=
  (List.range n).foldl (fun dst i => Function.update dst (off + i) (buf (buf_pos + i))) dst

/-- The variables of the loop over the received charge groups: the home
arrays and their counts, the position `buf_pos` in `comm->buf_vr`, the
received words `comm->buf_int`, and the counts and buffers of the charge
groups that are passed on. -/
structure redist_recv where
  index_gl : Nat → Nat
  cgindex : Nat → Nat
  vecs : redist_vecs
  home_pos_cg : Nat
  home_pos_at : Nat
  buf_pos : Nat
  buf_int : Nat → Nat
  ncg : Int → Nat
  nat : Int → Nat
  cggl_flag : Int → Nat → Nat
  cgcm_state : Int → Nat → rvec

/-- Body of the loop `for(cg=0; cg<ncg_recv; cg++)` of lines 2732-2837 for
the decomposition dimension index `d` and the receive buffer `buf_vr`. -/
def redist_recv_cg (e : redist_recv_env) (d nvec : Nat) (buf_vr : Nat → rvec)
    (st : redist_recv) (cg : Nat) : redist_recv :=
  let code := redist_recv_code e d (st.buf_int (cg * DD_CGIBS + 1)) (buf_vr st.buf_pos)
  let buf_int := Function.update st.buf_int (cg * DD_CGIBS + 1) code.flag
  let nrcg := code.flag &&& DD_FLAG_NRCG
  if code.mc = -1 then
    let index_gl := Function.update st.index_gl st.home_pos_cg (buf_int (cg * DD_CGIBS))
    let cgindex := Function.update st.cgindex (st.home_pos_cg + 1)
      (st.cgindex st.home_pos_cg + nrcg)
    let cg_cm := Function.update st.vecs.cg_cm st.home_pos_cg (buf_vr st.buf_pos)
    let buf_pos := st.buf_pos + 1
    let x := copy_from_buf buf_vr nrcg buf_pos st.vecs.x st.home_pos_at
    let buf_pos := buf_pos + nrcg
    let v := if e.bV then copy_from_buf buf_vr nrcg buf_pos st.vecs.v st.home_pos_at
      else st.vecs.v
    let buf_pos := if e.bV then buf_pos + nrcg else buf_pos
    let sd_X := if e.bSDX then copy_from_buf buf_vr nrcg buf_pos st.vecs.sd_X st.home_pos_at
      else st.vecs.sd_X
    let buf_pos := if e.bSDX then buf_pos + nrcg else buf_pos
    let cg_p := if e.bCGP then copy_from_buf buf_vr nrcg buf_pos st.vecs.cg_p st.home_pos_at
      else st.vecs.cg_p
    let buf_pos := if e.bCGP then buf_pos + nrcg else buf_pos
    { st with
      index_gl := index_gl
      cgindex := cgindex
      vecs := ⟨cg_cm, x, v, sd_X, cg_p⟩
      home_pos_cg := st.home_pos_cg + 1
      home_pos_at := st.home_pos_at + nrcg
      buf_pos := buf_pos
      buf_int := buf_int }
  else
    let mc := code.mc
    let nvr := st.ncg mc + st.nat mc * nvec
    let flags := Function.update
      (Function.update (st.cggl_flag mc) (st.ncg mc * DD_CGIBS) (buf_int (cg * DD_CGIBS)))
      (st.ncg mc * DD_CGIBS + 1) (buf_int (cg * DD_CGIBS + 1))
    { st with
      buf_pos := st.buf_pos + (1 + nrcg * nvec)
      buf_int := buf_int
      ncg := Function.update st.ncg mc (st.ncg mc + 1)
      nat := Function.update st.nat mc (st.nat mc + nrcg)
      cggl_flag := Function.update st.cggl_flag mc flags
      cgcm_state := Function.update st.cgcm_state mc
        (copy_from_buf buf_vr (1 + nrcg * nvec) st.buf_pos (st.cgcm_state mc) nvr) }

/-- The loop over the received charge groups of lines 2731-2837. -/
def dd_redistribute_cg_recv (e : redist_recv_env) (d ncg_recv : Nat) (buf_vr : Nat → rvec)
    (st : redist_recv) : redist_recv :=
  (List.range ncg_recv).foldl
    (redist_recv_cg e d (dd_redistribute_cg_nvec e.bV e.bSDX e.bCGP) buf_vr) st

/-- The number of charge groups before `n` that are sent to the bucket `m`. -/
def sent_count (move : Nat → Int) (m : Int) (n : Nat) : Nat :=
  ∑ c ∈ Finset.range n, (if move c = m then 1 else 0)

/-- The length of the blocks of the charge groups before `n` that are sent to
the bucket `m`: one entry and `nvec` entries per atom for each of them. -/
def block_off (move : Nat → Int) (cgindex : Nat → Nat) (nvec : Nat) (m : Int) (n : Nat) : Nat :=
  ∑ c ∈ Finset.range n, (if move c = m then 1 + nvec * (cgindex (c + 1) - cgindex c) else 0)

/-- The size of the `k`-th received charge group according to its word. -/
def recv_nrcg (buf_int : Nat → Nat) (k : Nat) : Nat :=
  buf_int (k * DD_CGIBS + 1) &&& DD_FLAG_NRCG

/-- The position in the receive buffer of the block of the `k`-th received
charge group. -/
def recv_off (buf_int : Nat → Nat) (nvec : Nat) (k : Nat) : Nat :=
  ∑ j ∈ Finset.range k, (1 + nvec * recv_nrcg buf_int j)

/-- The `k`-th received charge group stays on this rank: its direction `mc`
is -1. -/
def recv_stays (e : redist_recv_env) (d : Nat) (buf_int : Nat → Nat) (buf_vr : Nat → rvec)
    (k : Nat) : Prop :=
  (redist_recv_code e d (buf_int (k * DD_CGIBS + 1))
    (buf_vr (recv_off buf_int (dd_redistribute_cg_nvec e.bV e.bSDX e.bCGP) k))).mc = -1

instance (e : redist_recv_env) (d : Nat) (buf_int : Nat → Nat) (buf_vr : Nat → rvec) (k : Nat) :
    Decidable (recv_stays e d buf_int buf_vr k) := by
  unfold recv_stays
  infer_instance

/-- The number of charge groups among the first `k` received that stay. -/
def recv_home_cg (e : redist_recv_env) (d : Nat) (buf_int : Nat → Nat) (buf_vr : Nat → rvec)
    (k : Nat) : Nat :=
  ∑ j ∈ Finset.range k, (if recv_stays e d buf_int buf_vr j then 1 else 0)

/-- The number of atoms of the charge groups among the first `k` received
that stay. -/
def recv_home_at (e : redist_recv_env) (d : Nat) (buf_int : Nat → Nat) (buf_vr : Nat → rvec)
    (k : Nat) : Nat :=
  ∑ j ∈ Finset.range k, (if recv_stays e d buf_int buf_vr j then recv_nrcg buf_int j else 0)

/-- The first and the last of three home charge groups move to the bucket 0,
the middle one stays. -/
def ex_redist_move : Nat → Int := fun c => if c = 1 then -1 else 0

/-- Centres and state vectors with a different value in every entry. -/
def ex_redist_vecs : redist_vecs :=
  ⟨fun c _ => c, fun a _ => 10 + a, fun a _ => 20 + a, fun a _ => 30 + a, fun a _ => 40 + a⟩

/-- A receiver in a decomposition along x and y with velocities and `cg_p`
but without `sd_X`. -/
def ex_redist_env : redist_recv_env :=
  { ndim := 2
    dim := fun d => if d = 0 then XX else YY
    nc := fun _ => 2
    ci := fun _ => 0
    bGridJump := false
    tric_dir := fun _ => false
    tcm := fun _ _ => 0
    cell_x0 := fun _ => 0
    cell_x1 := fun _ => 1
    bV := true
    bSDX := false
    bCGP := true }

/-- A receiver with one home charge group of three atoms and the received
words of two charge groups of two atoms; the second one carries the flag
`DD_FLAG_FW(1)`. -/
def ex_redist_recv : redist_recv :=
  { index_gl := fun _ => 0
    cgindex := fun c => if c = 0 then 0 else 3
    vecs := ⟨fun _ _ => 0, fun _ _ => 0, fun _ _ => 0, fun _ _ => 0, fun _ _ => 0⟩
    home_pos_cg := 1
    home_pos_at := 3
    buf_pos := 0
    buf_int := fun i => [7, 2, 9, 262146].getD i 0
    ncg := fun _ => 0
    nat := fun _ => 0
    cggl_flag := fun _ _ => 0
    cgcm_state := fun _ _ _ => 0 }

/-! ## `merge_cg_buffers` -/

/-- The arrays that `merge_cg_buffers` changes: `ncg_cell`, `index_gl`,
`cg_cm`, `cgindex` and the send indices `cd->ind[p].index`. -/
structure merge_state where
  ncg_cell : Nat → Nat
  index_gl : Nat → Nat
  cg_cm : Nat → rvec
  cgindex : Nat → Nat
  ind_index : Nat → Nat → Nat

/-- Body of the loop `for(cg=cg1-1; cg>=cg0; cg--)` of lines 4506-4510. -/
def merge_move_cg (shift : Nat) (s : merge_state) (cg : Nat) : merge_state :=
  { s with
    index_gl := Function.update s.index_gl (cg + shift) (s.index_gl cg)
    cg_cm := Function.update s.cg_cm (cg + shift) (s.cg_cm cg)
    cgindex := Function.update s.cgindex (cg + shift) (s.cgindex cg) }

/-- The sum `cg0` of line 4514-4516: `nsend[0] + ... + nsend[cell-1]`. -/
def nsend_before (nsend : Nat → Nat) (cell : Nat) : Nat :=
  (List.range cell).foldl (fun cg0 c => cg0 + nsend c) 0

/-- Body of the loop `for(p=1; p<=pulse; p++)` of lines 4512-4521: the send
indices of pulse `p` for the cell `cell` are increased by `shift`;
`nsend p` is `cd->ind[p].nsend`. -/
def merge_shift_index (nsend : Nat → Nat → Nat) (cell shift : Nat) (s : merge_state)
    (p : Nat) : merge_state :=
  let cg0 := nsend_before (nsend p) cell
  let cg1 := cg0 + nsend p cell
  (List.range' cg0 (cg1 - cg0)).foldl
    (fun s cg =>
      { s with
        ind_index := Function.update s.ind_index p
          (Function.update (s.ind_index p) cg (s.ind_index p cg + shift)) }) s

/-- Body of the loop `for(cell=ncell-1; cell>=0; cell--)` of lines 4499-4523;
the first component is the variable `shift`. -/
def merge_shift_cell (ncell pulse : Nat) (nrecv : Nat → Nat) (nsend : Nat → Nat → Nat)
    (st : Int × merge_state) (cell : Nat) : Int × merge_state :=
  let shift : Int := st.1 - (nrecv cell : Int)
  if shift > 0 then
    let cg0 := st.2.ncg_cell (ncell + cell)
    let cg1 := st.2.ncg_cell (ncell + cell + 1)
    let s1 : merge_state :=
      { st.2 with
        cgindex := Function.update st.2.cgindex (cg1 + shift.toNat) (st.2.cgindex cg1) }
    let s2 := ((List.range' cg0 (cg1 - cg0)).reverse).foldl (merge_move_cg shift.toNat) s1
    (shift, (List.range' 1 pulse).foldl (merge_shift_index nsend cell shift.toNat) s2)
  else (shift, st.2)

/-- The variables `shift`, `shift_at`, `cg0` and `cg1` of the second loop of
`merge_cg_buffers`. -/
structure merge_pos where
  shift : Nat
  shift_at : Nat
  cg0 : Nat
  cg1 : Nat

/-- Body of the loop `for(cg=0; cg<ind->nrecv[cell]; cg++)` of lines
4537-4548: one charge group is copied from the buffers. -/
def merge_recv_cg (recv_i : Nat → Nat) (recv_vr : Nat → rvec) (gcgs_index : Nat → Nat)
    (st : merge_pos × merge_state) : merge_pos × merge_state :=
  let index_gl := Function.update st.2.index_gl st.1.cg1 (recv_i st.1.cg0)
  let cg_gl := index_gl st.1.cg1
  let nat := gcgs_index (cg_gl + 1) - gcgs_index cg_gl
  (⟨st.1.shift, st.1.shift_at + nat, st.1.cg0 + 1, st.1.cg1 + 1⟩,
    { st.2 with
      index_gl := index_gl
      cg_cm := Function.update st.2.cg_cm st.1.cg1 (recv_vr st.1.cg0)
      cgindex := Function.update st.2.cgindex (st.1.cg1 + 1) (st.2.cgindex st.1.cg1 + nat) })

/-- Body of the loop `for(cell=0; cell<ncell; cell++)` of lines 4529-4551. -/
def merge_recv_cell (ncell : Nat) (nrecv : Nat → Nat) (recv_i : Nat → Nat)
    (recv_vr : Nat → rvec) (gcgs_index : Nat → Nat)
    (st : merge_pos × merge_state) (cell : Nat) : merge_pos × merge_state :=
  let cg1 := st.2.ncg_cell (ncell + cell + 1) + st.1.shift
  let s1 : merge_state :=
    if st.1.shift_at > 0 then
      (List.range' (st.2.ncg_cell (ncell + cell))
          (cg1 - st.2.ncg_cell (ncell + cell))).foldl
        (fun s cg =>
          { s with
            cgindex := Function.update s.cgindex (cg + 1) (s.cgindex (cg + 1) + st.1.shift_at) })
        st.2
    else st.2
  let r := (List.range (nrecv cell)).foldl
    (fun st _ => merge_recv_cg recv_i recv_vr gcgs_index st)
    (⟨st.1.shift, st.1.shift_at, st.1.cg0, cg1⟩, s1)
  (⟨r.1.shift + nrecv cell, r.1.shift_at, r.1.cg0, r.1.cg1⟩,
    { r.2 with ncg_cell := Function.update r.2.ncg_cell (ncell + cell + 1) r.1.cg1 })

/-- The function `merge_cg_buffers` (lines 4484-4551) for the pulse `pulse`;
`nrecv` is `cd->ind[pulse].nrecv` and `nsend p` is `cd->ind[p].nsend`. -/
def merge_cg_buffers (ncell pulse : Nat) (nrecv : Nat → Nat) (nsend : Nat → Nat → Nat)
    (recv_i : Nat → Nat) (recv_vr : Nat → rvec) (gcgs_index : Nat → Nat)
    (s : merge_state) : merge_state :=
  let s1 := ((List.range ncell).reverse).foldl (merge_shift_cell ncell pulse nrecv nsend)
    ((nrecv ncell : Int), s)
  ((List.range ncell).foldl (merge_recv_cell ncell nrecv recv_i recv_vr gcgs_index)
    (⟨0, 0, 0, 0⟩, s1.2)).2

/-- The number of charge groups received for the cells before `c`. -/
def recv_before (nrecv : Nat → Nat) (c : Nat) : Nat :=
  ∑ i ∈ Finset.range c, nrecv i

/-- The number of atoms of the charge group with global index `cg_gl`. -/
def gcgs_size (gcgs_index : Nat → Nat) (cg_gl : Nat) : Nat :=
  gcgs_index (cg_gl + 1) - gcgs_index cg_gl

/-- The state of the arrays after the first loop of `merge_cg_buffers` has
handled the cells `c, ..., ncell-1`, in terms of the state `s0` at the call:
the stored charge groups of these cells and their entries of `cgindex` have
moved up by the number of charge groups received for the cells before,
everything below is untouched, and the send indices of these cells have
grown by the same number. -/
def merge_shifted (ncell pulse : Nat) (nrecv : Nat → Nat) (nsend : Nat → Nat → Nat)
    (s0 s : merge_state) (c : Nat) : Prop :=
  s.ncg_cell = s0.ncg_cell ∧
  (∀ c', c ≤ c' → c' < ncell →
    ∀ cg, s0.ncg_cell (ncell + c') ≤ cg → cg < s0.ncg_cell (ncell + c' + 1) →
      s.index_gl (cg + recv_before nrecv c') = s0.index_gl cg ∧
      s.cg_cm (cg + recv_before nrecv c') = s0.cg_cm cg) ∧
  (∀ c', c ≤ c' → c' < ncell →
    ∀ cg, s0.ncg_cell (ncell + c') ≤ cg → cg ≤ s0.ncg_cell (ncell + c' + 1) →
      s.cgindex (cg + recv_before nrecv c') = s0.cgindex cg) ∧
  (∀ j, (∀ c', c ≤ c' → c' < ncell → 0 < recv_before nrecv c' →
      j < s0.ncg_cell (ncell + c') + recv_before nrecv c') →
    s.index_gl j = s0.index_gl j ∧ s.cg_cm j = s0.cg_cm j ∧ s.cgindex j = s0.cgindex j) ∧
  (∀ q, 1 ≤ q → q ≤ pulse → ∀ c' j, c' < ncell →
    nsend_before (nsend q) c' ≤ j → j < nsend_before (nsend q) c' + nsend q c' →
    s.ind_index q j = s0.ind_index q j + (if c ≤ c' then recv_before nrecv c' else 0))

/-- The state of the second loop of `merge_cg_buffers` after the cells before
`c`, in terms of the state `s0` at the call: the ends of these cells have
grown by the number of charge groups received up to them, every stored charge
group lies shifted by the number received for the cells before its own, the
received charge groups of the cells before `c` follow the stored ones of
their cell, `cgindex` is the running sum of the sizes up to the start of the
cell `c` and still holds the old values, shifted, for the later entries. -/
def merge_merged (ncell pulse : Nat) (nrecv : Nat → Nat) (nsend : Nat → Nat → Nat)
    (recv_i : Nat → Nat) (recv_vr : Nat → rvec) (gcgs_index : Nat → Nat)
    (s0 : merge_state) (st : merge_pos × merge_state) (c : Nat) : Prop :=
  (st.1.shift = recv_before nrecv c ∧ st.1.cg0 = recv_before nrecv c) ∧
  (∀ c', c' ≤ ncell → st.2.ncg_cell (ncell + c') =
    s0.ncg_cell (ncell + c') + (if c' ≤ c then recv_before nrecv c' else 0)) ∧
  (∀ c', c' < ncell →
    ∀ cg, s0.ncg_cell (ncell + c') ≤ cg → cg < s0.ncg_cell (ncell + c' + 1) →
      st.2.index_gl (cg + recv_before nrecv c') = s0.index_gl cg ∧
      st.2.cg_cm (cg + recv_before nrecv c') = s0.cg_cm cg) ∧
  (∀ c', c' < c → ∀ k, k < nrecv c' →
    st.2.index_gl (s0.ncg_cell (ncell + c' + 1) + recv_before nrecv c' + k) =
      recv_i (recv_before nrecv c' + k) ∧
    st.2.cg_cm (s0.ncg_cell (ncell + c' + 1) + recv_before nrecv c' + k) =
      recv_vr (recv_before nrecv c' + k)) ∧
  (∀ j, j < s0.ncg_cell (ncell + 0) →
    st.2.index_gl j = s0.index_gl j ∧ st.2.cg_cm j = s0.cg_cm j) ∧
  (∀ j, j ≤ s0.ncg_cell (ncell + 0) → st.2.cgindex j = s0.cgindex j) ∧
  (∀ j, s0.ncg_cell (ncell + 0) ≤ j → j < s0.ncg_cell (ncell + c) + recv_before nrecv c →
    st.2.cgindex (j + 1) = st.2.cgindex j + gcgs_size gcgs_index (st.2.index_gl j)) ∧
  st.2.cgindex (s0.ncg_cell (ncell + c) + recv_before nrecv c) =
    s0.cgindex (s0.ncg_cell (ncell + c)) + st.1.shift_at ∧
  (∀ c', c ≤ c' → c' < ncell →
    ∀ cg, s0.ncg_cell (ncell + c') < cg → cg ≤ s0.ncg_cell (ncell + c' + 1) →
      st.2.cgindex (cg + recv_before nrecv c') = s0.cgindex cg) ∧
  (∀ q, 1 ≤ q → q ≤ pulse → ∀ c' j, c' < ncell →
    nsend_before (nsend q) c' ≤ j → j < nsend_before (nsend q) c' + nsend q c' →
    st.2.ind_index q j = s0.ind_index q j + recv_before nrecv c')

/-- Zone arrays for two source cells: the cell 0 holds the charge groups 3
and 4, the cell 1 the charge group 5; every charge group has two atoms and
the local charge group `cg` is the global one `cg + 10`.  The send index of
pulse 1 names the charge groups 4 and 5. -/
def ex_merge_state : merge_state where
  ncg_cell := fun i => [0, 3, 3, 5, 6].getD i 6
  index_gl := fun cg => cg + 10
  cg_cm := fun cg _ => (cg : real)
  cgindex := fun cg => 2 * cg
  ind_index := fun _ j => [4, 5].getD j 0

/-- Receive counts of the example: one charge group for the cell 0, two for
the cell 1, three in total. -/
def ex_merge_nrecv : Nat → Nat := fun c => [1, 2, 3, 6].getD c 0

/-- Send counts of the example: one charge group per cell in every pulse. -/
def ex_merge_nsend : Nat → Nat → Nat := fun _ _ => 1

/-! ## A triclinic box -/

/-- A triclinic box with the rows (4,0,0), (1,3,0) and (1,1,2). -/
def ex_tric_box : matrix := fun i j =>
  if i = 0 then (if j = 0 then 4 else 0)
  else if i = 1 then (if j = 0 then 1 else if j = 1 then 3 else 0)
  else (if j = 2 then 2 else 1)

/-- The point (1,2,3). -/
def ex_point : rvec := fun d => if d = 0 then 1 else if d = 1 then 2 else 3

/-! ## A statically load balanced row -/

/-- User fractions 1/4 and 3/4 for the two cells along x, none along y and z. -/
def ex_slb_frac : Fin 3 → Option (Nat → real) := fun d =>
  if d = XX then some (fun j => if j = 0 then 1 / 4 else 3 / 4) else none

/-- A grid of 2 x 1 x 1 cells. -/
def ex_nc211 : ivec := fun d => if d = XX then 2 else 1

/-! ## `guess_npme` -/

/-- The value `(int)(pow(m,1.0/3.0) + 0.5)` of line 3801 for an integer
`m >= 0`, with the power taken exactly: the cube root of `m` rounded to the
nearest integer, which is the greatest `r` with `(r - 1/2)^3 <= m`. -/
def nint_cbrt (m : Nat) : Nat :=
  Nat.findGreatest (fun r => (2 * r - 1) ^ 3 ≤ 8 * m) m

/-- Following the words of the specification: `floor(m^(1/3))`, the greatest
`r` with `r^3 <= m`. -/
def spec_floor_cbrt (m : Nat) : Nat :=
  Nat.findGreatest (fun r => r ^ 3 ≤ m) m

/-- The condition on a candidate `npme` of lines 3792-3793: it divides both
sizes of the PME grid and its share of the ranks exceeds `0.95*ratio`. -/
def guess_npme_cond (nkx nky nnodes npme : Nat) (ratio : real) : Bool :=
  decide ((nkx % npme = 0 ∧ nky % npme = 0) ∧
    (npme : real) / (nnodes : real) > 95 / 100 * ratio)

/-- Lines 3794-3795: `ndiv = factorize(nnodes-npme,&div,&mdiv)` and the read
`ldiv = div[ndiv-1]` from the array `div` of `(nnodes-npme)/2` entries.  The
outer `none` means that the fuel of `factorize` did not suffice, the inner
`none` that the index `ndiv-1` is outside the array. -/
def guess_npme_ldiv (fuel nnodes npme : Nat) : Option (Option Nat) :=
  (factorize fuel (nnodes - npme)).map
    (fun f =>
      if 1 ≤ f.ndiv ∧ f.ndiv - 1 < (nnodes - npme) / 2 then some (f.fac (f.ndiv - 1))
      else none)

/-- The test of a candidate in the relaxed search (lines 3794-3803): the value
of `ldiv <= 3 + (int)(pow(nnodes-npme,1.0/3.0) + 0.5)`. -/
def guess_npme_test (fuel nnodes npme : Nat) : Option (Option Bool) :=
  (guess_npme_ldiv fuel nnodes npme).map
    (fun o => o.map (fun ldiv => decide (ldiv ≤ 3 + nint_cbrt (nnodes - npme))))

/-- The first loop of `guess_npme` (lines 3781-3787), from the value `npme`;
the result is the value of `npme` after the loop, `none` when the fuel does
not suffice. -/
def guess_npme_first (nkx nky nnodes : Nat) (ratio : real) : Nat → Nat → Option Nat
  | 0, npme => if npme ≤ nnodes / 3 then none else some npme
  | k + 1, npme =>
    if npme ≤ nnodes / 3 then
      if guess_npme_cond nkx nky nnodes npme ratio = true ∧ nnodes % npme = 0 then some npme
      else guess_npme_first nkx nky nnodes ratio k (npme + 1)
    else some npme

/-- The relaxed search of `guess_npme` (lines 3790-3806), from the value
`npme`.  The outer `none` means that the fuel does not suffice, the inner
`none` that `div` was read outside its bounds; otherwise the result is the
value of `npme` after the loop. -/
def guess_npme_relaxed (fuel nkx nky nnodes : Nat) (ratio : real) :
    Nat → Nat → Option (Option Nat)
  | 0, npme => if npme ≤ nnodes / 2 then none else some (some npme)
  | k + 1, npme =>
    if npme ≤ nnodes / 2 then
      if guess_npme_cond nkx nky nnodes npme ratio = true then
        match guess_npme_test fuel nnodes npme with
        | none => none
        | some none => some none
        | some (some true) => some (some npme)
        | some (some false) => guess_npme_relaxed fuel nkx nky nnodes ratio k (npme + 1)
      else guess_npme_relaxed fuel nkx nky nnodes ratio k (npme + 1)
    else some (some npme)

/-- The ways in which `guess_npme` ends: it returns `npme`, it stops with the
fatal error of lines 3809-3812, or it reads `div` outside its bounds. -/
inductive guess_npme_result where
  | npme (n : Nat)
  | fatal
  | read_outside
  deriving DecidableEq

/-- The function `guess_npme` (lines 3763-3825) for the load estimate `ratio`;
`none` when the fuel does not suffice. -/
def guess_npme (fuel nkx nky nnodes : Nat) (ratio : real) : Option guess_npme_result :=
  (guess_npme_first nkx nky nnodes ratio fuel 1).bind
    (fun npme1 =>
      let o : Option (Option Nat) :=
        if npme1 > nnodes / 3 then guess_npme_relaxed fuel nkx nky nnodes ratio fuel 1
        else some (some npme1)
      o.map (fun r =>
        match r with
        | none => guess_npme_result.read_outside
        | some npme =>
          if npme > nnodes / 2 then
            (if nkx % nnodes ≠ 0 ∨ nky % nnodes ≠ 0 then guess_npme_result.fatal
              else guess_npme_result.npme 0)
          else guess_npme_result.npme npme))

/-! ## `split_communicator`: the Cartesian layout of PP and PME ranks -/

/-- The variables that lines 3527-3549 of `split_communicator` write:
`comm->bCartesianPP_PME`, `comm->cartpmedim` and `comm->ntot`. -/
structure cart_layout where
  bCartesianPP_PME : Bool
  cartpmedim : Fin 3
  ntot : ivec

/-- The value `bDiv[i]` of line 3529; `nnodes` is `dd->nnodes`. -/
def split_bDiv (npmenodes nnodes : Nat) (nc : ivec) (i : Fin 3) : Bool :=
  decide ((npmenodes * nc i) % nnodes = 0)

/-- Lines 3527-3549 of `split_communicator`: the choice of the layout. -/
def split_communicator (bCartesianPP : Bool) (npmenodes nnodes : Nat) (nc : ivec)
    (s : cart_layout) : cart_layout :=
  if bCartesianPP then
    if split_bDiv npmenodes nnodes nc YY = true ∨ split_bDiv npmenodes nnodes nc ZZ = true then
      let cartpmedim : Fin 3 :=
        if split_bDiv npmenodes nnodes nc YY = true ∧
            (¬ split_bDiv npmenodes nnodes nc ZZ = true ∨ nc YY ≤ nc ZZ) then YY
        else ZZ
      ⟨true, cartpmedim,
        Function.update s.ntot cartpmedim (s.ntot cartpmedim + (npmenodes * nc cartpmedim) / nnodes)⟩
    else s
  else s

/-- The layout set up by `make_dd_communicators` (lines 3638-3648):
`comm->ntot` starts as `dd->nc`, `bCartesianPP` is `dd_node_order ==
ddnoCARTESIAN`, and `split_communicator` is called when there are PME ranks.
`dd->nnodes` is the product of `dd->nc` (line 4254) and `cartpmedim0` is the
value of `comm->cartpmedim` before. -/
def make_dd_communicators_layout (bCartesianPP : Bool) (npmenodes : Nat) (nc : ivec)
    (cartpmedim0 : Fin 3) : cart_layout :=
  let s0 : cart_layout := ⟨false, cartpmedim0, nc⟩
  if npmenodes > 0 then split_communicator bCartesianPP npmenodes (nc XX * nc YY * nc ZZ) nc s0
  else s0

/-- A grid of 2 x 2 x 1 cells. -/
def ex_nc221 : ivec := fun d => if d = ZZ then 1 else 2

/-! ## Cartesian indices -/

theorem fin3_one_eq_zero : ((1 : Fin 3) = 0) = False := by decide

theorem fin3_two_eq_zero : ((2 : Fin 3) = 0) = False := by decide

theorem fin3_two_eq_one : ((2 : Fin 3) = 1) = False := by decide

theorem fin3_zero_eq_one : ((0 : Fin 3) = 1) = False := by decide

theorem fin3_zero_eq_two : ((0 : Fin 3) = 2) = False := by decide

theorem fin3_one_eq_two : ((1 : Fin 3) = 2) = False := by decide

/-! ## Loops with fuel -/

theorem while_loop_cond_false {σ : Type} (cond : σ → Bool) (body : σ → σ) :
    ∀ (fuel : Nat) (s r : σ), while_loop cond body fuel s = some r → cond r = false := by
  intro fuel
  induction fuel with
  | zero =>
    intro s r h
    unfold while_loop at h
    by_cases hc : cond s = true
    · simp [hc] at h
    · simp [hc] at h
      subst h
      simpa using hc
  | succ n ih =>
    intro s r h
    unfold while_loop at h
    by_cases hc : cond s = true
    · simp [hc] at h
      exact ih _ _ h
    · simp [hc] at h
      subst h
      simpa using hc

theorem while_loop_inv {σ : Type} (cond : σ → Bool) (body : σ → σ) (P : σ → Prop)
    (hstep : ∀ s, P s → cond s = true → P (body s)) :
    ∀ (fuel : Nat) (s r : σ), P s → while_loop cond body fuel s = some r → P r := by
  intro fuel
  induction fuel with
  | zero =>
    intro s r hP h
    unfold while_loop at h
    by_cases hc : cond s = true
    · simp [hc] at h
    · simp [hc] at h
      subst h
      exact hP
  | succ n ih =>
    intro s r hP h
    unfold while_loop at h
    by_cases hc : cond s = true
    · simp [hc] at h
      exact ih _ _ (hstep s hP hc) h
    · simp [hc] at h
      subst h
      exact hP

theorem while_loop_mono {σ : Type} (cond : σ → Bool) (body : σ → σ) :
    ∀ (fuel : Nat) (s r : σ), while_loop cond body fuel s = some r →
      ∀ k, while_loop cond body (fuel + k) s = some r := by
  intro fuel
  induction fuel with
  | zero =>
    intro s r h k
    unfold while_loop at h
    by_cases hc : cond s = true
    · simp [hc] at h
    · simp [hc] at h
      subst h
      cases k <;> simp [while_loop, hc]
  | succ n ih =>
    intro s r h k
    unfold while_loop at h
    have e : n + 1 + k = (n + k) + 1 := by omega
    rw [e]
    by_cases hc : cond s = true
    · simp [hc] at h
      simp [while_loop, hc]
      exact ih _ _ h k
    · simp [hc] at h
      subst h
      simp [while_loop, hc]

theorem while_loop_terminates {σ : Type} (cond : σ → Bool) (body : σ → σ) (μ : σ → Nat)
    (hμ : ∀ s, cond s = true → μ (body s) < μ s) :
    ∀ (fuel : Nat) (s : σ), μ s ≤ fuel → ∃ r, while_loop cond body fuel s = some r := by
  intro fuel
  induction fuel with
  | zero =>
    intro s hs
    by_cases hc : cond s = true
    · have := hμ s hc
      omega
    · exact ⟨s, by simp [while_loop, hc]⟩
  | succ n ih =>
    intro s hs
    by_cases hc : cond s = true
    · have := hμ s hc
      obtain ⟨r, hr⟩ := ih (body s) (by omega)
      exact ⟨r, by simp [while_loop, hc, hr]⟩
    · exact ⟨s, by simp [while_loop, hc]⟩

theorem wrap_inv_refl (box : matrix) (d : Fin 3) (k0 k1 : Nat) (s0 : wrap_state) :
    wrap_inv box d k0 k1 s0 s0 := by
  refine ⟨0, by simp, by simp, ?_⟩
  funext k
  simp [rvec_inc_atoms]

theorem wrap_inv_dec (box : matrix) (d : Fin 3) (k0 k1 : Nat) (s0 s : wrap_state)
    (h : wrap_inv box d k0 k1 s0 s) : wrap_inv box d k0 k1 s0 (wrap_dec box d k0 k1 s) := by
  obtain ⟨n, h1, h2, h3⟩ := h
  refine ⟨n - 1, ?_, ?_, ?_⟩
  · simp only [wrap_dec, h1]; push_cast; ring
  · simp only [wrap_dec, h2]; push_cast
    funext j; simp only [Pi.add_apply, Pi.sub_apply, Pi.smul_apply, smul_eq_mul]; ring
  · simp only [wrap_dec, h3]
    funext k; funext j
    simp only [rvec_dec_atoms, rvec_inc_atoms]
    by_cases hk : k0 ≤ k ∧ k < k1
    · simp only [hk, and_self, if_true, Pi.add_apply, Pi.sub_apply, Pi.smul_apply, smul_eq_mul]
      push_cast; ring
    · simp only [hk, if_false]

theorem wrap_inv_inc (box : matrix) (d : Fin 3) (k0 k1 : Nat) (s0 s : wrap_state)
    (h : wrap_inv box d k0 k1 s0 s) : wrap_inv box d k0 k1 s0 (wrap_inc box d k0 k1 s) := by
  obtain ⟨n, h1, h2, h3⟩ := h
  refine ⟨n + 1, ?_, ?_, ?_⟩
  · simp only [wrap_inc, h1]; push_cast; ring
  · simp only [wrap_inc, h2]; push_cast
    funext j; simp only [Pi.add_apply, Pi.smul_apply, smul_eq_mul]; ring
  · simp only [wrap_inc, h3]
    funext k; funext j
    simp only [rvec_inc_atoms]
    by_cases hk : k0 ≤ k ∧ k < k1
    · simp only [hk, and_self, if_true, Pi.add_apply, Pi.smul_apply, smul_eq_mul]
      push_cast; ring
    · simp only [hk, if_false]

theorem find_ind_spec (nc : Nat) (cell_x : Nat → real) (pos_d : real) (ind : Nat)
    (hnc : 1 ≤ nc) (h : find_ind nc cell_x pos_d = some ind) :
    ind < nc ∧ (ind = 0 ∨ cell_x ind ≤ pos_d) ∧ (ind + 1 = nc ∨ pos_d < cell_x (ind + 1)) := by
  unfold find_ind at h
  have hc := while_loop_cond_false _ _ _ _ _ h
  have hi := while_loop_inv _ _ (fun i : Nat => i < nc ∧ (i = 0 ∨ cell_x i ≤ pos_d))
    (by
      intro s hs hcond
      simp only [Bool.and_eq_true, decide_eq_true_eq] at hcond
      exact ⟨hcond.1, Or.inr hcond.2⟩) _ _ _ ⟨by omega, Or.inl rfl⟩ h
  refine ⟨hi.1, hi.2, ?_⟩
  simp only [Bool.and_eq_false_iff, decide_eq_false_iff_not, not_lt, ge_iff_le, not_le] at hc
  rcases hc with hc | hc
  · left; omega
  · right; exact hc

theorem find_ind_terminates (nc : Nat) (cell_x : Nat → real) (pos_d : real) :
    ∃ ind, find_ind nc cell_x pos_d = some ind := by
  unfold find_ind
  apply while_loop_terminates _ _ (fun i => nc - i)
  · intro s hs
    simp only [Bool.and_eq_true, decide_eq_true_eq] at hs
    omega
  · simp

theorem distribute_cg_dim_spec (fuel : Nat) (nc : ivec) (tric_dir : Fin 3 → Bool)
    (box tcm : matrix) (cell_x : Fin 3 → Nat → real) (k0 k1 : Nat) (d : Fin 3)
    (cg_cm : rvec) (pos : Nat → rvec) (s : wrap_state) (ind : Nat)
    (hnc : 1 ≤ nc d) (hx0 : cell_x d 0 = 0) (hx1 : cell_x d (nc d) = box d d)
    (h : distribute_cg_dim fuel nc tric_dir box tcm cell_x k0 k1 d cg_cm pos = some (s, ind)) :
    (∃ n : ℤ,
      s.pos_d = lattice_pos (tric_dir d && decide (nc d > 1)) tcm cg_cm d + (n : real) * box d d ∧
      s.cg_cm = cg_cm + (n : real) • box d ∧
      s.pos = rvec_inc_atoms pos k0 k1 ((n : real) • box d)) ∧
    0 ≤ s.pos_d ∧ s.pos_d < box d d ∧ ind < nc d ∧
    cell_x d ind ≤ s.pos_d ∧ s.pos_d < cell_x d (ind + 1) := by
  simp only [distribute_cg_dim, Option.bind_eq_bind, Option.bind_eq_some, Option.pure_def,
    Option.some.injEq, Prod.mk.injEq] at h
  obtain ⟨s1, h1, s2, h2, i, h3, hs, hi⟩ := h
  subst hs; subst hi
  have c1 := while_loop_cond_false _ _ _ _ _ h1
  have c2 := while_loop_cond_false _ _ _ _ _ h2
  simp only [decide_eq_false_iff_not, ge_iff_le, not_le, not_lt] at c1 c2
  have i1 := while_loop_inv _ _ (wrap_inv box d k0 k1 _)
    (fun s hs _ => wrap_inv_dec box d k0 k1 _ s hs) _ _ _ (wrap_inv_refl box d k0 k1 _) h1
  have i2 := while_loop_inv _ _ (fun s => wrap_inv box d k0 k1 _ s ∧ s.pos_d < box d d)
    (fun s hs hc => ⟨wrap_inv_inc box d k0 k1 _ s hs.1, by
      simp only [decide_eq_true_eq] at hc
      simp only [wrap_inc]
      linarith⟩) _ _ _ ⟨i1, c1⟩ h2
  obtain ⟨i2a, i2b⟩ := i2
  obtain ⟨hf1, hf2, hf3⟩ := find_ind_spec _ _ _ _ hnc h3
  refine ⟨i2a, c2, i2b, hf1, ?_, ?_⟩
  · rcases hf2 with hf2 | hf2
    · rw [hf2, hx0]; exact c2
    · exact hf2
  · rcases hf3 with hf3 | hf3
    · rw [hf3, hx1]; exact i2b
    · exact hf3

theorem FuelMono.const {α : Type} (o : Option α) : FuelMono (fun _ => o) := by
  intro fuel r h k
  exact h

theorem FuelMono.bind {α β : Type} {f : Nat → Option α} {g : α → Nat → Option β}
    (hf : FuelMono f) (hg : ∀ a, FuelMono (g a)) :
    FuelMono (fun fuel => (f fuel).bind (fun a => g a fuel)) := by
  intro fuel r h k
  simp only [Option.bind_eq_some] at h ⊢
  obtain ⟨a, ha, hb⟩ := h
  exact ⟨a, hf _ _ ha k, hg a _ _ hb k⟩

theorem FuelMono.terminates_bind {α β : Type} {f : Nat → Option α} {g : α → Nat → Option β}
    (hf : FuelMono f) (hg : ∀ a, FuelMono (g a))
    (tf : ∃ fuel a, f fuel = some a) (tg : ∀ a, ∃ fuel b, g a fuel = some b) :
    ∃ fuel b, (f fuel).bind (fun a => g a fuel) = some b := by
  obtain ⟨n1, a, ha⟩ := tf
  obtain ⟨n2, b, hb⟩ := tg a
  refine ⟨n1 + n2, b, ?_⟩
  simp only [Option.bind_eq_some]
  refine ⟨a, hf _ _ ha n2, ?_⟩
  have := hg a _ _ hb n1
  rwa [Nat.add_comm] at this

theorem while_loop_fuelMono {σ : Type} (cond : σ → Bool) (body : σ → σ) (s : σ) :
    FuelMono (fun fuel => while_loop cond body fuel s) :=
  fun fuel r h k => while_loop_mono cond body fuel s r h k

theorem wrap_dec_terminates (box : matrix) (d : Fin 3) (k0 k1 : Nat) (hb : 0 < box d d)
    (s : wrap_state) :
    ∃ fuel r, while_loop (fun s => decide (s.pos_d ≥ box d d)) (wrap_dec box d k0 k1) fuel s
      = some r := by
  obtain ⟨r, hr⟩ := while_loop_terminates (fun s : wrap_state => decide (s.pos_d ≥ box d d))
    (wrap_dec box d k0 k1) (fun s => (⌊s.pos_d / box d d⌋).toNat)
    (by
      intro s hs
      simp only [decide_eq_true_eq, ge_iff_le] at hs
      have h1 : (1 : ℚ) ≤ s.pos_d / box d d := by
        rw [le_div_iff₀ hb]; linarith
      have h2 : (1 : ℤ) ≤ ⌊s.pos_d / box d d⌋ := Int.le_floor.mpr (by exact_mod_cast h1)
      have h3 : (s.pos_d - box d d) / box d d = s.pos_d / box d d - 1 := by
        field_simp
      simp only [wrap_dec, h3, Int.floor_sub_one]
      omega) _ s (le_refl _)
  exact ⟨_, r, hr⟩

theorem wrap_inc_terminates (box : matrix) (d : Fin 3) (k0 k1 : Nat) (hb : 0 < box d d)
    (s : wrap_state) :
    ∃ fuel r, while_loop (fun s => decide (s.pos_d < 0)) (wrap_inc box d k0 k1) fuel s
      = some r := by
  obtain ⟨r, hr⟩ := while_loop_terminates (fun s : wrap_state => decide (s.pos_d < 0))
    (wrap_inc box d k0 k1) (fun s => (-⌊s.pos_d / box d d⌋).toNat)
    (by
      intro s hs
      simp only [decide_eq_true_eq] at hs
      have h1 : s.pos_d / box d d < 0 := div_neg_of_neg_of_pos hs hb
      have h2 : ⌊s.pos_d / box d d⌋ < 0 := Int.floor_lt.mpr (by exact_mod_cast h1)
      have h3 : (s.pos_d + box d d) / box d d = s.pos_d / box d d + 1 := by
        field_simp
      simp only [wrap_inc, h3, Int.floor_add_one]
      omega) _ s (le_refl _)
  exact ⟨_, r, hr⟩

theorem distribute_cg_dim_eq (fuel : Nat) (nc : ivec) (tric_dir : Fin 3 → Bool)
    (box tcm : matrix) (cell_x : Fin 3 → Nat → real) (k0 k1 : Nat) (d : Fin 3)
    (cg_cm : rvec) (pos : Nat → rvec) :
    distribute_cg_dim fuel nc tric_dir box tcm cell_x k0 k1 d cg_cm pos =
      (while_loop (fun s => decide (s.pos_d ≥ box d d)) (wrap_dec box d k0 k1) fuel
        { pos_d := lattice_pos (tric_dir d && decide (nc d > 1)) tcm cg_cm d
          cg_cm := cg_cm, pos := pos }).bind (fun s1 =>
      (while_loop (fun s => decide (s.pos_d < 0)) (wrap_inc box d k0 k1) fuel s1).bind
        (fun s2 => (find_ind (nc d) (cell_x d) s2.pos_d).bind (fun ind => some (s2, ind)))) :=
  rfl

theorem distribute_cg_dim_fuelMono (nc : ivec) (tric_dir : Fin 3 → Bool)
    (box tcm : matrix) (cell_x : Fin 3 → Nat → real) (k0 k1 : Nat) (d : Fin 3)
    (cg_cm : rvec) (pos : Nat → rvec) :
    FuelMono (fun fuel => distribute_cg_dim fuel nc tric_dir box tcm cell_x k0 k1 d cg_cm pos) := by
  simp only [distribute_cg_dim_eq]
  exact FuelMono.bind (while_loop_fuelMono _ _ _)
    (fun s1 => FuelMono.bind (while_loop_fuelMono _ _ _) (fun s2 => FuelMono.const _))

theorem distribute_cg_dim_terminates (nc : ivec) (tric_dir : Fin 3 → Bool)
    (box tcm : matrix) (cell_x : Fin 3 → Nat → real) (k0 k1 : Nat) (d : Fin 3)
    (hb : 0 < box d d) (cg_cm : rvec) (pos : Nat → rvec) :
    ∃ fuel r, distribute_cg_dim fuel nc tric_dir box tcm cell_x k0 k1 d cg_cm pos = some r := by
  simp only [distribute_cg_dim_eq]
  refine FuelMono.terminates_bind (while_loop_fuelMono _ _ _)
    (fun s1 => FuelMono.bind (while_loop_fuelMono _ _ _) (fun s2 => FuelMono.const _))
    (wrap_dec_terminates box d k0 k1 hb _) (fun s1 => ?_)
  refine FuelMono.terminates_bind (while_loop_fuelMono _ _ _) (fun s2 => FuelMono.const _)
    (wrap_inc_terminates box d k0 k1 hb _) (fun s2 => ?_)
  obtain ⟨ind, hind⟩ := find_ind_terminates (nc d) (cell_x d) s2.pos_d
  exact ⟨0, (s2, ind), by simp [hind]⟩

theorem distribute_cg_place_eq (fuel : Nat) (nc : ivec) (tric_dir : Fin 3 → Bool)
    (box tcm : matrix) (cell_x : Fin 3 → Nat → real) (k0 k1 : Nat)
    (cg_cm : rvec) (pos : Nat → rvec) :
    distribute_cg_place fuel nc tric_dir box tcm cell_x k0 k1 cg_cm pos =
      (distribute_cg_dim fuel nc tric_dir box tcm cell_x k0 k1 ZZ cg_cm pos).bind (fun r2 =>
      (distribute_cg_dim fuel nc tric_dir box tcm cell_x k0 k1 YY r2.1.cg_cm r2.1.pos).bind
        (fun r1 =>
      (distribute_cg_dim fuel nc tric_dir box tcm cell_x k0 k1 XX r1.1.cg_cm r1.1.pos).bind
        (fun r0 => some
          { cg_cm := r0.1.cg_cm
            pos := r0.1.pos
            ind := fun d => if d = XX then r0.2 else if d = YY then r1.2 else r2.2
            pos_d := fun d => if d = XX then r0.1.pos_d else if d = YY then r1.1.pos_d
                              else r2.1.pos_d }))) := by
  rfl

theorem distribute_cg_place_fuelMono (nc : ivec) (tric_dir : Fin 3 → Bool)
    (box tcm : matrix) (cell_x : Fin 3 → Nat → real) (k0 k1 : Nat)
    (cg_cm : rvec) (pos : Nat → rvec) :
    FuelMono (fun fuel => distribute_cg_place fuel nc tric_dir box tcm cell_x k0 k1 cg_cm pos) := by
  simp only [distribute_cg_place_eq]
  exact FuelMono.bind (distribute_cg_dim_fuelMono _ _ _ _ _ _ _ _ _ _)
    (fun r2 => FuelMono.bind (distribute_cg_dim_fuelMono _ _ _ _ _ _ _ _ _ _)
      (fun r1 => FuelMono.bind (distribute_cg_dim_fuelMono _ _ _ _ _ _ _ _ _ _) (fun r0 => FuelMono.const _)))

theorem distribute_cg_place_terminates (nc : ivec) (tric_dir : Fin 3 → Bool)
    (box tcm : matrix) (cell_x : Fin 3 → Nat → real) (k0 k1 : Nat)
    (hb : ∀ d, 0 < box d d) (cg_cm : rvec) (pos : Nat → rvec) :
    ∃ fuel r, distribute_cg_place fuel nc tric_dir box tcm cell_x k0 k1 cg_cm pos = some r := by
  simp only [distribute_cg_place_eq]
  refine FuelMono.terminates_bind (distribute_cg_dim_fuelMono _ _ _ _ _ _ _ _ _ _)
    (fun r2 => FuelMono.bind (distribute_cg_dim_fuelMono _ _ _ _ _ _ _ _ _ _)
      (fun r1 => FuelMono.bind (distribute_cg_dim_fuelMono _ _ _ _ _ _ _ _ _ _) (fun r0 => FuelMono.const _)))
    (distribute_cg_dim_terminates _ _ _ _ _ _ _ _ (hb _) _ _) (fun r2 => ?_)
  refine FuelMono.terminates_bind (distribute_cg_dim_fuelMono _ _ _ _ _ _ _ _ _ _)
      (fun r1 => FuelMono.bind (distribute_cg_dim_fuelMono _ _ _ _ _ _ _ _ _ _) (fun r0 => FuelMono.const _))
    (distribute_cg_dim_terminates _ _ _ _ _ _ _ _ (hb _) _ _) (fun r1 => ?_)
  refine FuelMono.terminates_bind (distribute_cg_dim_fuelMono _ _ _ _ _ _ _ _ _ _) (fun r0 => FuelMono.const _)
    (distribute_cg_dim_terminates _ _ _ _ _ _ _ _ (hb _) _ _) (fun r0 => ?_)
  exact ⟨0, _, rfl⟩

theorem finRange_three : List.finRange 3 = [0, 1, 2] := by rfl

theorem lattice_pos_shift_self (t : Bool) (box tcm : matrix) (cm : rvec) (c : real) (d : Fin 3)
    (hlow : ∀ i j : Fin 3, i < j → box i j = 0) :
    lattice_pos t tcm (cm + c • box d) d = lattice_pos t tcm cm d + c * box d d := by
  cases t
  · simp [lattice_pos]
  · have h01 := hlow 0 1 (by decide)
    have h02 := hlow 0 2 (by decide)
    have h12 := hlow 1 2 (by decide)
    fin_cases d <;>
      simp [lattice_pos, finRange_three, List.filter, h01, h02, h12] <;> ring

theorem lattice_pos_shift_lower (t : Bool) (box tcm : matrix) (cm : rvec) (c : real)
    (d d' : Fin 3) (hd : d' < d) (hlow : ∀ i j : Fin 3, i < j → box i j = 0) :
    lattice_pos t tcm (cm + c • box d') d = lattice_pos t tcm cm d := by
  have h01 := hlow 0 1 (by decide)
  have h02 := hlow 0 2 (by decide)
  have h12 := hlow 1 2 (by decide)
  cases t
  · fin_cases d <;> fin_cases d' <;> simp [lattice_pos, h01, h02, h12] at hd ⊢
  · fin_cases d <;> fin_cases d' <;>
      simp [lattice_pos, finRange_three, List.filter, h01, h02, h12] at hd ⊢

theorem rvec_inc_atoms_add (pos : Nat → rvec) (k0 k1 : Nat) (a b : rvec) :
    rvec_inc_atoms (rvec_inc_atoms pos k0 k1 a) k0 k1 b = rvec_inc_atoms pos k0 k1 (a + b) := by
  funext k
  simp only [rvec_inc_atoms]
  by_cases hk : k0 ≤ k ∧ k < k1
  · simp only [hk, and_self, if_true]; rw [add_assoc]
  · simp only [hk, if_false]

theorem distribute_cg_place_spec (fuel : Nat) (nc : ivec) (tric_dir : Fin 3 → Bool)
    (box tcm : matrix) (cell_x : Fin 3 → Nat → real) (k0 k1 : Nat)
    (cg_cm : rvec) (pos : Nat → rvec) (r : cg_placed)
    (hlow : ∀ i j : Fin 3, i < j → box i j = 0)
    (hnc : ∀ d, 1 ≤ nc d) (hx0 : ∀ d, cell_x d 0 = 0) (hx1 : ∀ d, cell_x d (nc d) = box d d)
    (h : distribute_cg_place fuel nc tric_dir box tcm cell_x k0 k1 cg_cm pos = some r) :
    (∃ n : Fin 3 → ℤ, r.cg_cm = cg_cm + box_comb box n ∧
      r.pos = rvec_inc_atoms pos k0 k1 (box_comb box n)) ∧
    ∀ d, r.pos_d d = lattice_pos (tric_dir d && decide (nc d > 1)) tcm r.cg_cm d ∧
      0 ≤ r.pos_d d ∧ r.pos_d d < box d d ∧ r.ind d < nc d ∧
      cell_x d (r.ind d) ≤ r.pos_d d ∧ r.pos_d d < cell_x d (r.ind d + 1) := by
  rw [distribute_cg_place_eq] at h
  simp only [Option.bind_eq_some, Option.some.injEq] at h
  obtain ⟨⟨s2, i2⟩, h2, ⟨s1, i1⟩, h1, ⟨s0, i0⟩, h0, hr⟩ := h
  obtain ⟨⟨n2, a2, b2, c2⟩, p2⟩ :=
    distribute_cg_dim_spec _ _ _ _ _ _ _ _ _ _ _ _ _ (hnc _) (hx0 _) (hx1 _) h2
  obtain ⟨⟨n1, a1, b1, c1⟩, p1⟩ :=
    distribute_cg_dim_spec _ _ _ _ _ _ _ _ _ _ _ _ _ (hnc _) (hx0 _) (hx1 _) h1
  obtain ⟨⟨n0, a0, b0, c0⟩, p0⟩ :=
    distribute_cg_dim_spec _ _ _ _ _ _ _ _ _ _ _ _ _ (hnc _) (hx0 _) (hx1 _) h0
  simp only at a2 b2 c2 a1 b1 c1 a0 b0 c0 p2 p1 p0
  subst hr
  have e1 : s1.cg_cm = cg_cm + (n2 : real) • box ZZ + (n1 : real) • box YY := by
    rw [b1, b2]
  have e0 : s0.cg_cm = cg_cm + (n2 : real) • box ZZ + (n1 : real) • box YY
      + (n0 : real) • box XX := by
    rw [b0, e1]
  have q10 : ((1 : Fin 3) = 0) = False := by decide
  have q20 : ((2 : Fin 3) = 0) = False := by decide
  have q21 : ((2 : Fin 3) = 1) = False := by decide
  have hv : ((n2 : real) • box ZZ + (n1 : real) • box YY + (n0 : real) • box XX : rvec) =
      box_comb box (fun d => if d = XX then n0 else if d = YY then n1 else n2) := by
    funext j
    simp only [box_comb, Pi.add_apply, Pi.smul_apply, smul_eq_mul, q10, q20, q21, if_true,
      if_false]
    ring
  refine ⟨⟨fun d => if d = XX then n0 else if d = YY then n1 else n2, ?_, ?_⟩, ?_⟩
  · show s0.cg_cm = _
    rw [e0, ← hv, add_assoc, add_assoc, add_assoc]
  · show s0.pos = _
    rw [c0, c1, c2, rvec_inc_atoms_add, rvec_inc_atoms_add, ← add_assoc, hv]
  · have f0 : s0.pos_d = lattice_pos (tric_dir XX && decide (nc XX > 1)) tcm s0.cg_cm XX := by
      rw [a0, b0, lattice_pos_shift_self _ _ _ _ _ _ hlow]
    have f1 : s1.pos_d = lattice_pos (tric_dir YY && decide (nc YY > 1)) tcm s0.cg_cm YY := by
      rw [a1, b0, b1, lattice_pos_shift_lower _ _ _ _ _ _ _ (by decide) hlow,
        lattice_pos_shift_self _ _ _ _ _ _ hlow]
    have f2 : s2.pos_d = lattice_pos (tric_dir ZZ && decide (nc ZZ > 1)) tcm s0.cg_cm ZZ := by
      rw [a2, b0, b1, b2, lattice_pos_shift_lower _ _ _ _ _ _ _ (by decide) hlow,
        lattice_pos_shift_lower _ _ _ _ _ _ _ (by decide) hlow,
        lattice_pos_shift_self _ _ _ _ _ _ hlow]
    intro d
    have hd : d = XX ∨ d = YY ∨ d = ZZ := by fin_cases d <;> simp
    rcases hd with rfl | rfl | rfl
    · exact ⟨f0, p0⟩
    · exact ⟨f1, p1⟩
    · exact ⟨f2, p2⟩

theorem dd_index_lt (nc ind : ivec) (h : ∀ d, ind d < nc d) :
    dd_index nc ind < nc XX * nc YY * nc ZZ := by
  unfold dd_index
  have h0 := h XX
  have h1 := h YY
  have h2 := h ZZ
  have a : ind XX * nc YY + ind YY < nc XX * nc YY := by
    calc ind XX * nc YY + ind YY < ind XX * nc YY + nc YY := by omega
      _ = (ind XX + 1) * nc YY := by ring
      _ ≤ nc XX * nc YY := Nat.mul_le_mul_right _ h0
  calc (ind XX * nc YY + ind YY) * nc ZZ + ind ZZ
      < (ind XX * nc YY + ind YY) * nc ZZ + nc ZZ := by omega
    _ = (ind XX * nc YY + ind YY + 1) * nc ZZ := by ring
    _ ≤ nc XX * nc YY * nc ZZ := Nat.mul_le_mul_right _ a

theorem distribute_cg_dim_ind_lt (fuel : Nat) (nc : ivec) (tric_dir : Fin 3 → Bool)
    (box tcm : matrix) (cell_x : Fin 3 → Nat → real) (k0 k1 : Nat) (d : Fin 3)
    (cg_cm : rvec) (pos : Nat → rvec) (s : wrap_state) (ind : Nat)
    (hnc : 1 ≤ nc d)
    (h : distribute_cg_dim fuel nc tric_dir box tcm cell_x k0 k1 d cg_cm pos = some (s, ind)) :
    ind < nc d := by
  rw [distribute_cg_dim_eq] at h
  simp only [Option.bind_eq_some, Option.some.injEq, Prod.mk.injEq] at h
  obtain ⟨s1, _, s2, _, i, h3, _, hi⟩ := h
  subst hi
  exact (find_ind_spec _ _ _ _ hnc h3).1

theorem distribute_cg_place_ind_lt (fuel : Nat) (nc : ivec) (tric_dir : Fin 3 → Bool)
    (box tcm : matrix) (cell_x : Fin 3 → Nat → real) (k0 k1 : Nat)
    (cg_cm : rvec) (pos : Nat → rvec) (r : cg_placed) (hnc : ∀ d, 1 ≤ nc d)
    (h : distribute_cg_place fuel nc tric_dir box tcm cell_x k0 k1 cg_cm pos = some r) :
    ∀ d, r.ind d < nc d := by
  rw [distribute_cg_place_eq] at h
  simp only [Option.bind_eq_some, Option.some.injEq] at h
  obtain ⟨⟨s2, i2⟩, h2, ⟨s1, i1⟩, h1, ⟨s0, i0⟩, h0, hr⟩ := h
  have l2 := distribute_cg_dim_ind_lt _ _ _ _ _ _ _ _ _ _ _ _ _ (hnc _) h2
  have l1 := distribute_cg_dim_ind_lt _ _ _ _ _ _ _ _ _ _ _ _ _ (hnc _) h1
  have l0 := distribute_cg_dim_ind_lt _ _ _ _ _ _ _ _ _ _ _ _ _ (hnc _) h0
  subst hr
  intro d
  have hd : d = XX ∨ d = YY ∨ d = ZZ := by fin_cases d <;> simp
  rcases hd with rfl | rfl | rfl
  · exact l0
  · exact l1
  · exact l2

theorem coe_append_singleton (l : List Nat) (x : Nat) :
    (↑(l ++ [x]) : Multiset Nat) = ↑l + {x} := by
  rw [← Multiset.coe_singleton, Multiset.coe_add]

theorem node_list_update_self (ncg : Nat → Nat) (tmp_ind : Nat → Nat → Nat) (i icg : Nat) :
    node_list (Function.update ncg i (ncg i + 1))
      (Function.update tmp_ind i (Function.update (tmp_ind i) (ncg i) icg)) i
      = node_list ncg tmp_ind i ++ [icg] := by
  simp only [node_list, Function.update_same, List.range_succ, List.map_append, List.map_cons,
    List.map_nil]
  congr 1
  apply List.map_congr_left
  intro k hk
  have : k ≠ ncg i := by
    have := List.mem_range.mp hk
    omega
  simp [Function.update_noteq this]

theorem node_list_update_other (ncg : Nat → Nat) (tmp_ind : Nat → Nat → Nat) (i icg j : Nat)
    (h : j ≠ i) :
    node_list (Function.update ncg i (ncg i + 1))
      (Function.update tmp_ind i (Function.update (tmp_ind i) (ncg i) icg)) j
      = node_list ncg tmp_ind j := by
  simp only [node_list, Function.update_noteq h]

theorem distribute_cg_icg_inv (fuel : Nat) (nc : ivec) (tric_dir : Fin 3 → Bool)
    (box : matrix) (cgs : t_block) (s s' : distribute_state) (icg : Nat) (done : List Nat)
    (hnc : ∀ d, 1 ≤ nc d)
    (hinv : distribute_inv (nc XX * nc YY * nc ZZ) cgs s done)
    (h : distribute_cg_icg fuel nc tric_dir box cgs s icg = some s') :
    distribute_inv (nc XX * nc YY * nc ZZ) cgs s' (done ++ [icg]) ∧
      s'.ma.index = s.ma.index ∧ s'.ma.cg = s.ma.cg ∧ s'.ma.cell_x = s.ma.cell_x := by
  simp only [distribute_cg_icg, Option.bind_eq_bind, Option.bind_eq_some, Option.pure_def,
    Option.some.injEq] at h
  obtain ⟨r, hr, hs⟩ := h
  have hlt := dd_index_lt nc r.ind (distribute_cg_place_ind_lt _ _ _ _ _ _ _ _ _ _ _ hnc hr)
  subst hs
  refine ⟨⟨?_, ?_⟩, rfl, rfl, rfl⟩
  · obtain ⟨h1, _⟩ := hinv
    simp only
    have e : ∀ j, (↑(node_list (Function.update s.ma.ncg (dd_index nc r.ind)
          (s.ma.ncg (dd_index nc r.ind) + 1))
        (Function.update s.tmp_ind (dd_index nc r.ind)
          (Function.update (s.tmp_ind (dd_index nc r.ind)) (s.ma.ncg (dd_index nc r.ind)) icg))
        j) : Multiset Nat)
        = ↑(node_list s.ma.ncg s.tmp_ind j) + (if j = dd_index nc r.ind then {icg} else 0) := by
      intro j
      by_cases hj : j = dd_index nc r.ind
      · subst hj
        rw [node_list_update_self, coe_append_singleton]
        simp
      · rw [node_list_update_other _ _ _ _ _ hj]
        simp [hj]
    simp only [e, Finset.sum_add_distrib, h1]
    rw [Finset.sum_ite_eq' (Finset.range (nc XX * nc YY * nc ZZ)) (dd_index nc r.ind)]
    simp only [Finset.mem_range, hlt, if_true, coe_append_singleton]
  · obtain ⟨_, h2⟩ := hinv
    intro j hj
    simp only
    by_cases hji : j = dd_index nc r.ind
    · subst hji
      rw [node_list_update_self]
      simp only [Function.update_same, List.map_append, List.map_cons, List.map_nil,
        List.sum_append, List.sum_cons, List.sum_nil, add_zero]
      rw [h2 _ hj]
      rfl
    · rw [node_list_update_other _ _ _ _ _ hji, Function.update_noteq hji]
      exact h2 _ hj

theorem distribute_cg_loop_inv (fuel : Nat) (nc : ivec) (tric_dir : Fin 3 → Bool)
    (box : matrix) (cgs : t_block) (hnc : ∀ d, 1 ≤ nc d) :
    ∀ (l : List Nat) (s s' : distribute_state) (done : List Nat),
      distribute_inv (nc XX * nc YY * nc ZZ) cgs s done →
      distribute_cg_loop fuel nc tric_dir box cgs l s = some s' →
      distribute_inv (nc XX * nc YY * nc ZZ) cgs s' (done ++ l) ∧
        s'.ma.index = s.ma.index ∧ s'.ma.cg = s.ma.cg ∧ s'.ma.cell_x = s.ma.cell_x := by
  intro l
  induction l with
  | nil =>
    intro s s' done hinv h
    simp only [distribute_cg_loop, Option.some.injEq] at h
    subst h
    simpa using hinv
  | cons icg l ih =>
    intro s s' done hinv h
    simp only [distribute_cg_loop] at h
    cases h1 : distribute_cg_icg fuel nc tric_dir box cgs s icg with
    | none => simp [h1] at h
    | some s1 =>
      simp only [h1] at h
      obtain ⟨i1, e1, e2, e3⟩ := distribute_cg_icg_inv _ _ _ _ _ _ _ _ _ hnc hinv h1
      obtain ⟨i2, f1, f2, f3⟩ := ih s1 s' (done ++ [icg]) i1 h
      refine ⟨?_, f1.trans e1, f2.trans e2, f3.trans e3⟩
      simpa using i2

theorem copy_tmp_ind_spec (tmp : Nat → Nat) :
    ∀ (n a k1 : Nat) (cg : Nat → Nat),
      copy_tmp_ind tmp (List.range' a n) (k1, cg) =
        (k1 + n, fun j => if k1 ≤ j ∧ j < k1 + n then tmp (a + (j - k1)) else cg j) := by
  intro n
  induction n with
  | zero =>
    intro a k1 cg
    simp only [List.range'_zero, copy_tmp_ind, add_zero, Prod.mk.injEq, true_and]
    funext j
    have : ¬ (k1 ≤ j ∧ j < k1) := by omega
    simp [this]
  | succ n ih =>
    intro a k1 cg
    simp only [List.range'_succ, copy_tmp_ind, ih, Prod.mk.injEq]
    refine ⟨by omega, ?_⟩
    funext j
    by_cases h1 : k1 + 1 ≤ j ∧ j < k1 + 1 + n
    · have h2 : k1 ≤ j ∧ j < k1 + (n + 1) := by omega
      simp only [h1, h2, and_self, if_true]
      congr 1
      omega
    · simp only [h1, if_false]
      by_cases h3 : j = k1
      · subst h3
        simp
      · have h2 : ¬ (k1 ≤ j ∧ j < k1 + (n + 1)) := by omega
        simp [h2, Function.update_noteq h3]

theorem fill_master_spec (ncg : Nat → Nat) (tmp_ind : Nat → Nat → Nat) :
    ∀ (n a k1 : Nat) (index cg : Nat → Nat),
      (fill_master ncg tmp_ind (List.range' a n) (k1, index, cg)).1
          = k1 + ∑ x ∈ Finset.Ico a (a + n), ncg x ∧
      (∀ j, a ≤ j → j < a + n →
        (fill_master ncg tmp_ind (List.range' a n) (k1, index, cg)).2.1 j
          = k1 + ∑ x ∈ Finset.Ico a j, ncg x) ∧
      (∀ j, ¬ (a ≤ j ∧ j < a + n) →
        (fill_master ncg tmp_ind (List.range' a n) (k1, index, cg)).2.1 j = index j) ∧
      (∀ j k, a ≤ j → j < a + n → k < ncg j →
        (fill_master ncg tmp_ind (List.range' a n) (k1, index, cg)).2.2
          (k1 + ∑ x ∈ Finset.Ico a j, ncg x + k) = tmp_ind j k) ∧
      (∀ p, p < k1 →
        (fill_master ncg tmp_ind (List.range' a n) (k1, index, cg)).2.2 p = cg p) := by
  intro n
  induction n with
  | zero =>
    intro a k1 index cg
    refine ⟨by simp [fill_master], fun j h1 h2 => by omega, fun j _ => by simp [fill_master],
      fun j k h1 h2 => by omega, fun p _ => by simp [fill_master]⟩
  | succ n ih =>
    intro a k1 index cg
    have hc := copy_tmp_ind_spec (tmp_ind a) (ncg a) 0 k1 cg
    rw [← List.range_eq_range'] at hc
    simp only [List.range'_succ, fill_master, hc]
    obtain ⟨i1, i2, i3, i4, i5⟩ := ih (a + 1) (k1 + ncg a) (Function.update index a k1)
      (fun j => if k1 ≤ j ∧ j < k1 + ncg a then tmp_ind a (0 + (j - k1)) else cg j)
    have hsum : ∀ j, a < j → ∑ x ∈ Finset.Ico a j, ncg x
        = ncg a + ∑ x ∈ Finset.Ico (a + 1) j, ncg x :=
      fun j hj => Finset.sum_eq_sum_Ico_succ_bot hj _
    refine ⟨?_, ?_, ?_, ?_, ?_⟩
    · rw [i1, hsum (a + (n + 1)) (by omega)]
      have : a + 1 + n = a + (n + 1) := by omega
      rw [this]
      omega
    · intro j h1 h2
      by_cases hj : j = a
      · subst hj
        rw [i3 j (by omega)]
        simp
      · rw [i2 j (by omega) (by omega), hsum j (by omega)]
        omega
    · intro j hj
      rw [i3 j (by omega)]
      have : j ≠ a := by omega
      simp [Function.update_noteq this]
    · intro j k h1 h2 hk
      by_cases hj : j = a
      · subst hj
        rw [i5 _ (by simp; omega)]
        have h3 : k1 ≤ k1 + k ∧ k1 + k < k1 + ncg j := by omega
        simp [h3]
      · have := i4 j k (by omega) (by omega) hk
        rw [hsum j (by omega)]
        have e : k1 + (ncg a + ∑ x ∈ Finset.Ico (a + 1) j, ncg x) + k
            = k1 + ncg a + ∑ x ∈ Finset.Ico (a + 1) j, ncg x + k := by omega
        rw [e]
        exact this
    · intro p hp
      rw [i5 p (by omega)]
      have : ¬ (k1 ≤ p ∧ p < k1 + ncg a) := by omega
      simp [this]

theorem coe_flatMap_range {α : Type} (f : Nat → List α) (n : Nat) :
    (↑((List.range n).flatMap f) : Multiset α) = ∑ i ∈ Finset.range n, (↑(f i) : Multiset α) := by
  induction n with
  | zero => simp
  | succ n ih =>
    rw [List.range_succ, List.flatMap_append, ← Multiset.coe_add, ih, Finset.sum_range_succ]
    simp

theorem map_range_segments (ncg : Nat → Nat) (cg : Nat → Nat) (tmp_ind : Nat → Nat → Nat)
    (n : Nat)
    (h : ∀ j k, j < n → k < ncg j → cg (∑ x ∈ Finset.range j, ncg x + k) = tmp_ind j k) :
    (List.range (∑ x ∈ Finset.range n, ncg x)).map cg
      = (List.range n).flatMap (node_list ncg tmp_ind) := by
  induction n with
  | zero => simp
  | succ n ih =>
    have e : ∀ A B : Nat, List.range (A + B) = List.range A ++ List.range' A B := by
      intro A B
      rw [List.range_eq_range', List.range_eq_range', Nat.add_comm, ← List.range'_append_1]
      simp
    rw [Finset.sum_range_succ, List.range_succ, List.flatMap_append, e, List.map_append,
      ih (fun j k hj hk => h j k (by omega) hk)]
    congr 1
    simp only [List.flatMap_cons, List.flatMap_nil, List.append_nil, node_list]
    rw [List.range_eq_range' (n := ncg n)]
    apply List.ext_getElem
    · simp
    · intro i h1 h2
      simp only [List.length_map, List.length_range'] at h1
      simp [h n i (by omega) h1]

theorem distribute_cg_icg_eq (fuel : Nat) (nc : ivec) (tric_dir : Fin 3 → Bool)
    (box : matrix) (cgs : t_block) (s : distribute_state) (icg : Nat) :
    distribute_cg_icg fuel nc tric_dir box cgs s icg =
      (distribute_cg_place fuel nc tric_dir box (make_tric_corr_matrix box) s.ma.cell_x
        (cgs.index icg) (cgs.index (icg + 1))
        (cg_center s.pos (cgs.index icg) (cgs.index (icg + 1))) s.pos).bind (fun r =>
        some { pos := r.pos
               tmp_ind := Function.update s.tmp_ind (dd_index nc r.ind)
                 (Function.update (s.tmp_ind (dd_index nc r.ind))
                   (s.ma.ncg (dd_index nc r.ind)) icg)
               ma := { s.ma with
                 ncg := Function.update s.ma.ncg (dd_index nc r.ind)
                   (s.ma.ncg (dd_index nc r.ind) + 1)
                 nat := Function.update s.ma.nat (dd_index nc r.ind)
                   (s.ma.nat (dd_index nc r.ind)
                     + ((cgs.index (icg + 1) : Int) - (cgs.index icg : Int))) } }) := by
  rfl

theorem distribute_cg_icg_fuelMono (nc : ivec) (tric_dir : Fin 3 → Bool)
    (box : matrix) (cgs : t_block) (s : distribute_state) (icg : Nat) :
    FuelMono (fun fuel => distribute_cg_icg fuel nc tric_dir box cgs s icg) := by
  simp only [distribute_cg_icg_eq]
  exact FuelMono.bind (distribute_cg_place_fuelMono _ _ _ _ _ _ _ _ _) (fun r => FuelMono.const _)

theorem distribute_cg_icg_terminates (nc : ivec) (tric_dir : Fin 3 → Bool)
    (box : matrix) (cgs : t_block) (hb : ∀ d, 0 < box d d) (s : distribute_state) (icg : Nat) :
    ∃ fuel s', distribute_cg_icg fuel nc tric_dir box cgs s icg = some s' := by
  simp only [distribute_cg_icg_eq]
  exact FuelMono.terminates_bind (distribute_cg_place_fuelMono _ _ _ _ _ _ _ _ _)
    (fun r => FuelMono.const _)
    (distribute_cg_place_terminates _ _ _ _ _ _ _ hb _ _) (fun r => ⟨0, _, rfl⟩)

theorem distribute_cg_loop_eq (fuel : Nat) (nc : ivec) (tric_dir : Fin 3 → Bool)
    (box : matrix) (cgs : t_block) (icg : Nat) (l : List Nat) (s : distribute_state) :
    distribute_cg_loop fuel nc tric_dir box cgs (icg :: l) s =
      (distribute_cg_icg fuel nc tric_dir box cgs s icg).bind
        (fun s1 => distribute_cg_loop fuel nc tric_dir box cgs l s1) := by
  simp only [distribute_cg_loop]
  cases distribute_cg_icg fuel nc tric_dir box cgs s icg <;> rfl

theorem distribute_cg_loop_fuelMono (nc : ivec) (tric_dir : Fin 3 → Bool)
    (box : matrix) (cgs : t_block) :
    ∀ (l : List Nat) (s : distribute_state),
      FuelMono (fun fuel => distribute_cg_loop fuel nc tric_dir box cgs l s) := by
  intro l
  induction l with
  | nil =>
    intro s
    exact FuelMono.const _
  | cons icg l ih =>
    intro s
    simp only [distribute_cg_loop_eq]
    exact FuelMono.bind (distribute_cg_icg_fuelMono _ _ _ _ _ _) ih

theorem distribute_cg_loop_terminates (nc : ivec) (tric_dir : Fin 3 → Bool)
    (box : matrix) (cgs : t_block) (hb : ∀ d, 0 < box d d) :
    ∀ (l : List Nat) (s : distribute_state),
      ∃ fuel s', distribute_cg_loop fuel nc tric_dir box cgs l s = some s' := by
  intro l
  induction l with
  | nil =>
    intro s
    exact ⟨0, s, rfl⟩
  | cons icg l ih =>
    intro s
    simp only [distribute_cg_loop_eq]
    exact FuelMono.terminates_bind (distribute_cg_icg_fuelMono _ _ _ _ _ _)
      (distribute_cg_loop_fuelMono _ _ _ _ l)
      (distribute_cg_icg_terminates _ _ _ _ hb _ _) (ih)

theorem distribute_cg_terminates (nnodes : Nat) (nc : ivec) (tric_dir : Fin 3 → Bool)
    (box : matrix) (cgs : t_block) (pos : Nat → rvec) (ma : gmx_domdec_master)
    (tmp_ind : Nat → Nat → Nat) (hb : ∀ d, 0 < box d d) :
    ∃ fuel r, distribute_cg fuel nnodes nc tric_dir box cgs pos ma tmp_ind = some r := by
  obtain ⟨fuel, s', h⟩ := distribute_cg_loop_terminates nc tric_dir box cgs hb (List.range cgs.nr)
    { pos := pos
      ma := { ma with
        ncg := fun i => if i < nnodes then 0 else ma.ncg i
        nat := fun i => if i < nnodes then 0 else ma.nat i }
      tmp_ind := tmp_ind }
  refine ⟨fuel, ?_⟩
  simp only [distribute_cg, Option.bind_eq_bind, h, Option.some_bind, Option.pure_def]
  exact ⟨_, rfl⟩

theorem distribute_cg_result (fuel nnodes : Nat) (nc : ivec) (tric_dir : Fin 3 → Bool)
    (box : matrix) (cgs : t_block) (pos : Nat → rvec) (ma : gmx_domdec_master)
    (tmp_ind : Nat → Nat → Nat) (r : (Nat → rvec) × gmx_domdec_master)
    (h : distribute_cg fuel nnodes nc tric_dir box cgs pos ma tmp_ind = some r) :
    ∃ s, distribute_cg_loop fuel nc tric_dir box cgs (List.range cgs.nr)
        { pos := pos
          ma := { ma with
            ncg := fun i => if i < nnodes then 0 else ma.ncg i
            nat := fun i => if i < nnodes then 0 else ma.nat i }
          tmp_ind := tmp_ind } = some s ∧
      r.2.ncg = s.ma.ncg ∧ r.2.nat = s.ma.nat ∧
      r.2.index = Function.update
        (fill_master s.ma.ncg s.tmp_ind (List.range nnodes) (0, s.ma.index, s.ma.cg)).2.1 nnodes
        (fill_master s.ma.ncg s.tmp_ind (List.range nnodes) (0, s.ma.index, s.ma.cg)).1 ∧
      r.2.cg = (fill_master s.ma.ncg s.tmp_ind (List.range nnodes) (0, s.ma.index, s.ma.cg)).2.2 := by
  simp only [distribute_cg, Option.bind_eq_bind, Option.bind_eq_some, Option.pure_def,
    Option.some.injEq] at h
  obtain ⟨s, hs, hr⟩ := h
  subst hr
  exact ⟨s, hs, rfl, rfl, rfl, rfl⟩

theorem distribute_cg_spec (fuel : Nat) (nc : ivec) (tric_dir : Fin 3 → Bool)
    (box : matrix) (cgs : t_block) (pos : Nat → rvec) (ma : gmx_domdec_master)
    (tmp_ind : Nat → Nat → Nat) (r : (Nat → rvec) × gmx_domdec_master)
    (hnc : ∀ d, 1 ≤ nc d)
    (h : distribute_cg fuel (nc XX * nc YY * nc ZZ) nc tric_dir box cgs pos ma tmp_ind
      = some r) :
    List.Perm ((List.range cgs.nr).map r.2.cg) (List.range cgs.nr) ∧
    (∀ i, i ≤ nc XX * nc YY * nc ZZ → r.2.index i = ∑ j ∈ Finset.range i, r.2.ncg j) ∧
    ∑ i ∈ Finset.range (nc XX * nc YY * nc ZZ), r.2.ncg i = cgs.nr ∧
    ∀ i, i < nc XX * nc YY * nc ZZ →
      r.2.nat i = ((List.range' (r.2.index i) (r.2.ncg i)).map
        (fun k => cg_size cgs (r.2.cg k))).sum := by
  obtain ⟨s, hs, e1, e2, e3, e4⟩ := distribute_cg_result _ _ _ _ _ _ _ _ _ _ h
  have hinit : distribute_inv (nc XX * nc YY * nc ZZ) cgs
      { pos := pos
        ma := { ma with
          ncg := fun i => if i < nc XX * nc YY * nc ZZ then 0 else ma.ncg i
          nat := fun i => if i < nc XX * nc YY * nc ZZ then 0 else ma.nat i }
        tmp_ind := tmp_ind } [] := by
    refine ⟨?_, ?_⟩
    · apply Finset.sum_eq_zero
      intro i hi
      simp [node_list, Finset.mem_range.mp hi]
    · intro i hi
      simp [node_list, hi]
  obtain ⟨⟨inv1, inv2⟩, _, _, _⟩ := distribute_cg_loop_inv fuel nc tric_dir box cgs hnc _ _ _ _
    hinit hs
  simp only [List.nil_append] at inv1
  obtain ⟨f1, f2, _, f4, _⟩ := fill_master_spec s.ma.ncg s.tmp_ind (nc XX * nc YY * nc ZZ) 0 0
    s.ma.index s.ma.cg
  rw [← List.range_eq_range'] at f1 f2 f4
  simp only [zero_add, ← Finset.range_eq_Ico] at f1 f2 f4
  -- the total count
  have hcard : ∑ i ∈ Finset.range (nc XX * nc YY * nc ZZ), s.ma.ncg i = cgs.nr := by
    have := congrArg Multiset.card inv1
    simpa [node_list] using this
  have hidx : ∀ i, i ≤ nc XX * nc YY * nc ZZ → r.2.index i = ∑ j ∈ Finset.range i, s.ma.ncg j := by
    intro i hi
    rw [e3]
    by_cases hii : i = nc XX * nc YY * nc ZZ
    · subst hii
      rw [Function.update_same, f1]
    · rw [Function.update_noteq hii, f2 i (by omega) (by omega)]
  have hseg : ∀ j k, j < nc XX * nc YY * nc ZZ → k < s.ma.ncg j →
      r.2.cg (∑ x ∈ Finset.range j, s.ma.ncg x + k) = s.tmp_ind j k := by
    intro j k hj hk
    rw [e4]
    exact f4 j k (by omega) hj hk
  refine ⟨?_, ?_, ?_, ?_⟩
  · have hm := map_range_segments s.ma.ncg r.2.cg s.tmp_ind (nc XX * nc YY * nc ZZ) hseg
    rw [hcard] at hm
    rw [hm]
    apply Multiset.coe_eq_coe.mp
    rw [coe_flatMap_range]
    exact inv1
  · intro i hi
    rw [e1]
    exact hidx i hi
  · rw [e1]
    exact hcard
  · intro i hi
    rw [e2, inv2 i hi, hidx i (by omega), e1]
    simp only [node_list, List.map_map]
    rw [List.range'_eq_map_range, List.map_map]
    congr 1
    apply List.map_congr_left
    intro k hk
    simp only [Function.comp_apply]
    rw [hseg i k hi (List.mem_range.mp hk)]

/-! ## Claims about `distribute_cg` -/

/-- C1: for every box with positive diagonal (on a grid with at least one cell
per dimension) and every set of coordinates, `distribute_cg` returns, and in
what it returns `ma->cg` restricted to `0..ncg-1` is a permutation of
`0..ncg-1`, `ma->index` is the prefix sum of `ma->ncg`, the counts `ma->ncg`
of all ranks add up to `ncg`, and `ma->nat[i]` is the total atom count of the
groups listed for rank `i`. -/
theorem distribute_cg_assigns_each_group_once (nc : ivec) (tric_dir : Fin 3 → Bool)
    (box : matrix) (cgs : t_block) (pos : Nat → rvec) (ma : gmx_domdec_master)
    (tmp_ind : Nat → Nat → Nat)
    (hbox : ∀ d, 0 < box d d) (hnc : ∀ d, 1 ≤ nc d) :
    (∃ fuel r, distribute_cg fuel (nc XX * nc YY * nc ZZ) nc tric_dir box cgs pos ma tmp_ind
      = some r) ∧
    ∀ fuel r, distribute_cg fuel (nc XX * nc YY * nc ZZ) nc tric_dir box cgs pos ma tmp_ind
        = some r →
      List.Perm ((List.range cgs.nr).map r.2.cg) (List.range cgs.nr) ∧
      (∀ i, i ≤ nc XX * nc YY * nc ZZ → r.2.index i = ∑ j ∈ Finset.range i, r.2.ncg j) ∧
      ∑ i ∈ Finset.range (nc XX * nc YY * nc ZZ), r.2.ncg i = cgs.nr ∧
      ∀ i, i < nc XX * nc YY * nc ZZ →
        r.2.nat i = ((List.range' (r.2.index i) (r.2.ncg i)).map
          (fun k => cg_size cgs (r.2.cg k))).sum :=
  ⟨distribute_cg_terminates _ nc tric_dir box cgs pos ma tmp_ind hbox,
   fun fuel r h => distribute_cg_spec fuel nc tric_dir box cgs pos ma tmp_ind r hnc h⟩

/-- Witness of C1 on the two-cell system. -/
theorem distribute_cg_assigns_each_group_once_witness :
    ((0 : real) < ex_box XX XX ∧ (0 : real) < ex_box YY YY ∧ (0 : real) < ex_box ZZ ZZ) ∧
    (1 ≤ ex_nc XX ∧ 1 ≤ ex_nc YY ∧ 1 ≤ ex_nc ZZ) ∧
    ((∃ fuel r, distribute_cg fuel (ex_nc XX * ex_nc YY * ex_nc ZZ) ex_nc (fun _ => false)
        ex_box ex_cgs ex_pos ex_ma (fun _ _ => 0) = some r) ∧
     ∀ fuel r, distribute_cg fuel (ex_nc XX * ex_nc YY * ex_nc ZZ) ex_nc (fun _ => false)
        ex_box ex_cgs ex_pos ex_ma (fun _ _ => 0) = some r →
      List.Perm ((List.range ex_cgs.nr).map r.2.cg) (List.range ex_cgs.nr) ∧
      (∀ i, i ≤ ex_nc XX * ex_nc YY * ex_nc ZZ →
        r.2.index i = ∑ j ∈ Finset.range i, r.2.ncg j) ∧
      ∑ i ∈ Finset.range (ex_nc XX * ex_nc YY * ex_nc ZZ), r.2.ncg i = ex_cgs.nr ∧
      ∀ i, i < ex_nc XX * ex_nc YY * ex_nc ZZ →
        r.2.nat i = ((List.range' (r.2.index i) (r.2.ncg i)).map
          (fun k => cg_size ex_cgs (r.2.cg k))).sum) := by
  have hb : ∀ d, (0 : real) < ex_box d d := by
    intro d
    simp [ex_box]
  have hn : ∀ d, 1 ≤ ex_nc d := by
    intro d
    unfold ex_nc
    split <;> omega
  exact ⟨⟨hb _, hb _, hb _⟩, ⟨hn _, hn _, hn _⟩,
    distribute_cg_assigns_each_group_once ex_nc (fun _ => false) ex_box ex_cgs ex_pos ex_ma
      (fun _ _ => 0) hb hn⟩

/-- C2: when the box is lower triangular with positive diagonal and, in every
dimension, `cell_x[d][0] = 0` and `cell_x[d][nc[d]] = box[d][d]` (as for
boundaries that increase from 0 to the box length), the pass of `distribute_cg`
for charge group `icg` returns and gives the group to the rank with grid
coordinate `ind`, where in every dimension `ind[d] < nc[d]` and
`cell_x[d][ind[d]] <= pos_d < cell_x[d][ind[d]+1]` and `0 <= pos_d < box[d][d]`
for the lattice coordinate `pos_d` of the wrapped centre of geometry; the
wrapped centre and all atoms of the group are the original ones shifted by one
and the same integer combination of box vectors. -/
theorem distribute_cg_cell_contains_center (nc : ivec) (tric_dir : Fin 3 → Bool)
    (box : matrix) (cgs : t_block) (s : distribute_state) (icg : Nat)
    (hbox : ∀ d, 0 < box d d) (hlow : ∀ i j : Fin 3, i < j → box i j = 0)
    (hnc : ∀ d, 1 ≤ nc d)
    (hx0 : ∀ d, s.ma.cell_x d 0 = 0) (hx1 : ∀ d, s.ma.cell_x d (nc d) = box d d) :
    (∃ fuel s', distribute_cg_icg fuel nc tric_dir box cgs s icg = some s') ∧
    ∀ fuel s', distribute_cg_icg fuel nc tric_dir box cgs s icg = some s' →
      ∃ (ind : ivec) (n : Fin 3 → ℤ),
        s'.tmp_ind (dd_index nc ind) (s.ma.ncg (dd_index nc ind)) = icg ∧
        s'.ma.ncg (dd_index nc ind) = s.ma.ncg (dd_index nc ind) + 1 ∧
        s'.pos = rvec_inc_atoms s.pos (cgs.index icg) (cgs.index (icg + 1)) (box_comb box n) ∧
        ∀ d, ind d < nc d ∧
          0 ≤ lattice_pos (tric_dir d && decide (nc d > 1)) (make_tric_corr_matrix box)
            (cg_center s.pos (cgs.index icg) (cgs.index (icg + 1)) + box_comb box n) d ∧
          lattice_pos (tric_dir d && decide (nc d > 1)) (make_tric_corr_matrix box)
            (cg_center s.pos (cgs.index icg) (cgs.index (icg + 1)) + box_comb box n) d
            < box d d ∧
          s.ma.cell_x d (ind d) ≤
            lattice_pos (tric_dir d && decide (nc d > 1)) (make_tric_corr_matrix box)
            (cg_center s.pos (cgs.index icg) (cgs.index (icg + 1)) + box_comb box n) d ∧
          lattice_pos (tric_dir d && decide (nc d > 1)) (make_tric_corr_matrix box)
            (cg_center s.pos (cgs.index icg) (cgs.index (icg + 1)) + box_comb box n) d
            < s.ma.cell_x d (ind d + 1) := by
  refine ⟨distribute_cg_icg_terminates nc tric_dir box cgs hbox s icg, ?_⟩
  intro fuel s' h
  rw [distribute_cg_icg_eq] at h
  simp only [Option.bind_eq_some, Option.some.injEq] at h
  obtain ⟨r, hr, hs⟩ := h
  obtain ⟨⟨n, hcm, hpos⟩, hd⟩ :=
    distribute_cg_place_spec _ _ _ _ _ _ _ _ _ _ r hlow hnc hx0 hx1 hr
  subst hs
  refine ⟨r.ind, n, ?_, ?_, hpos, ?_⟩
  · simp
  · simp
  · intro d
    obtain ⟨e, h1, h2, h3, h4, h5⟩ := hd d
    rw [← hcm, ← e]
    exact ⟨h3, h1, h2, h4, h5⟩

/-- Witness of C2 on the two-cell system. -/
theorem distribute_cg_cell_contains_center_witness :
    ((0 : real) < ex_box XX XX ∧ (0 : real) < ex_box YY YY ∧ (0 : real) < ex_box ZZ ZZ) ∧
    (ex_box XX YY = 0 ∧ ex_box XX ZZ = 0 ∧ ex_box YY ZZ = 0) ∧
    (1 ≤ ex_nc XX ∧ 1 ≤ ex_nc YY ∧ 1 ≤ ex_nc ZZ) ∧
    (ex_ma.cell_x XX 0 = 0 ∧ ex_ma.cell_x YY 0 = 0 ∧ ex_ma.cell_x ZZ 0 = 0) ∧
    (ex_ma.cell_x XX (ex_nc XX) = ex_box XX XX ∧ ex_ma.cell_x YY (ex_nc YY) = ex_box YY YY ∧
      ex_ma.cell_x ZZ (ex_nc ZZ) = ex_box ZZ ZZ) ∧
    ((∃ fuel s', distribute_cg_icg fuel ex_nc (fun _ => false) ex_box ex_cgs
        ex_distribute_state 1 = some s') ∧
    ∀ fuel s', distribute_cg_icg fuel ex_nc (fun _ => false) ex_box ex_cgs
        ex_distribute_state 1 = some s' →
      ∃ (ind : ivec) (n : Fin 3 → ℤ),
        s'.tmp_ind (dd_index ex_nc ind) (ex_distribute_state.ma.ncg (dd_index ex_nc ind)) = 1 ∧
        s'.ma.ncg (dd_index ex_nc ind)
          = ex_distribute_state.ma.ncg (dd_index ex_nc ind) + 1 ∧
        s'.pos = rvec_inc_atoms ex_distribute_state.pos (ex_cgs.index 1) (ex_cgs.index (1 + 1))
          (box_comb ex_box n) ∧
        ∀ d, ind d < ex_nc d ∧
          0 ≤ lattice_pos ((fun _ => false) d && decide (ex_nc d > 1))
            (make_tric_corr_matrix ex_box)
            (cg_center ex_distribute_state.pos (ex_cgs.index 1) (ex_cgs.index (1 + 1))
              + box_comb ex_box n) d ∧
          lattice_pos ((fun _ => false) d && decide (ex_nc d > 1))
            (make_tric_corr_matrix ex_box)
            (cg_center ex_distribute_state.pos (ex_cgs.index 1) (ex_cgs.index (1 + 1))
              + box_comb ex_box n) d < ex_box d d ∧
          ex_distribute_state.ma.cell_x d (ind d) ≤
            lattice_pos ((fun _ => false) d && decide (ex_nc d > 1))
            (make_tric_corr_matrix ex_box)
            (cg_center ex_distribute_state.pos (ex_cgs.index 1) (ex_cgs.index (1 + 1))
              + box_comb ex_box n) d ∧
          lattice_pos ((fun _ => false) d && decide (ex_nc d > 1))
            (make_tric_corr_matrix ex_box)
            (cg_center ex_distribute_state.pos (ex_cgs.index 1) (ex_cgs.index (1 + 1))
              + box_comb ex_box n) d < ex_distribute_state.ma.cell_x d (ind d + 1)) := by
  have hb : ∀ d, (0 : real) < ex_box d d := by
    intro d
    simp [ex_box]
  have hl : ∀ i j : Fin 3, i < j → ex_box i j = 0 := by
    intro i j hij
    simp [ex_box, ne_of_lt hij]
  have hn : ∀ d, 1 ≤ ex_nc d := by
    intro d
    unfold ex_nc
    split <;> omega
  have h0 : ∀ d, ex_distribute_state.ma.cell_x d 0 = 0 := by
    intro d
    simp [ex_distribute_state, ex_ma]
  have h1 : ∀ d, ex_distribute_state.ma.cell_x d (ex_nc d) = ex_box d d := by
    intro d
    have hd : d = XX ∨ d = YY ∨ d = ZZ := by fin_cases d <;> simp
    have q1 : ((1 : Fin 3) = 0) = False := by decide
    have q2 : ((2 : Fin 3) = 0) = False := by decide
    rcases hd with rfl | rfl | rfl <;>
      norm_num [ex_distribute_state, ex_ma, ex_nc, ex_box, q1, q2]
  exact ⟨⟨hb _, hb _, hb _⟩, ⟨hl _ _ (by decide), hl _ _ (by decide), hl _ _ (by decide)⟩,
    ⟨hn _, hn _, hn _⟩, ⟨h0 _, h0 _, h0 _⟩, ⟨h1 _, h1 _, h1 _⟩,
    distribute_cg_cell_contains_center ex_nc (fun _ => false) ex_box ex_cgs
      ex_distribute_state 1 hb hl hn h0 h1⟩

/-! ## Collecting and distributing a vector -/

theorem collect_atoms_append {α : Type} (buf : Nat → α) :
    ∀ (l1 l2 : List Nat) (s : Nat × (Nat → α)),
      collect_atoms buf (l1 ++ l2) s = collect_atoms buf l2 (collect_atoms buf l1 s) := by
  intro l1
  induction l1 with
  | nil => intro l2 s; rfl
  | cons c l ih =>
    intro l2 s
    obtain ⟨a, v⟩ := s
    show collect_atoms buf (l ++ l2) _ = _
    rw [ih]
    rfl

theorem collect_cgs_eq {α : Type} (ma : gmx_domdec_master) (cgs : t_block) (buf : Nat → α) :
    ∀ (L : List Nat) (s : Nat × (Nat → α)),
      collect_cgs ma cgs buf L s
        = collect_atoms buf (L.flatMap (fun i => cg_atoms cgs (ma.cg i))) s := by
  intro L
  induction L with
  | nil => intro s; rfl
  | cons i l ih =>
    intro s
    simp only [collect_cgs, List.flatMap_cons, collect_atoms_append, ih]

theorem collect_atoms_spec {α : Type} (buf : Nat → α) :
    ∀ (l : List Nat) (a : Nat) (v : Nat → α),
      (collect_atoms buf l (a, v)).1 = a + l.length ∧
      (∀ c, c ∉ l → (collect_atoms buf l (a, v)).2 c = v c) ∧
      (l.Nodup → ∀ k (h : k < l.length),
        (collect_atoms buf l (a, v)).2 (l.get ⟨k, h⟩) = buf (a + k)) := by
  intro l
  induction l with
  | nil =>
    intro a v
    refine ⟨rfl, fun c _ => rfl, fun _ k h => ?_⟩
    simp at h
  | cons c l ih =>
    intro a v
    obtain ⟨i1, i2, i3⟩ := ih (a + 1) (Function.update v c (buf a))
    simp only [collect_atoms]
    refine ⟨?_, ?_, ?_⟩
    · rw [i1]; simp only [List.length_cons]; omega
    · intro c' hc'
      simp only [List.mem_cons, not_or] at hc'
      rw [i2 c' hc'.2, Function.update_noteq hc'.1]
    · intro hnd k hk
      have hnd' := List.nodup_cons.mp hnd
      cases k with
      | zero =>
        simp only [List.get_eq_getElem, List.getElem_cons_zero, add_zero]
        rw [i2 c hnd'.1, Function.update_same]
      | succ k =>
        simp only [List.length_cons, Nat.add_lt_add_iff_right] at hk
        have := i3 hnd'.2 k hk
        simp only [List.get_eq_getElem, List.getElem_cons_succ] at this ⊢
        rw [this]
        congr 1
        omega

theorem collect_node_spec {α : Type} (ma : gmx_domdec_master) (cgs : t_block) (n : Nat)
    (buf v : Nat → α) :
    (∀ c, c ∉ node_atoms ma cgs n → collect_node ma cgs n buf v c = v c) ∧
    ((node_atoms ma cgs n).Nodup → ∀ k (h : k < (node_atoms ma cgs n).length),
      collect_node ma cgs n buf v ((node_atoms ma cgs n).get ⟨k, h⟩) = buf k) := by
  unfold collect_node
  rw [collect_cgs_eq]
  obtain ⟨_, i2, i3⟩ := collect_atoms_spec buf (node_atoms ma cgs n) 0 v
  refine ⟨i2, fun hnd k h => ?_⟩
  have := i3 hnd k h
  simpa using this

theorem distribute_atoms_append {α : Type} (v : Nat → α) :
    ∀ (l1 l2 : List Nat) (s : Nat × (Nat → α)),
      distribute_atoms v (l1 ++ l2) s = distribute_atoms v l2 (distribute_atoms v l1 s) := by
  intro l1
  induction l1 with
  | nil => intro l2 s; rfl
  | cons c l ih =>
    intro l2 s
    obtain ⟨a, b⟩ := s
    show distribute_atoms v (l ++ l2) _ = _
    rw [ih]
    rfl

theorem distribute_cgs_eq {α : Type} (ma : gmx_domdec_master) (cgs : t_block) (v : Nat → α) :
    ∀ (L : List Nat) (s : Nat × (Nat → α)),
      distribute_cgs ma cgs v L s
        = distribute_atoms v (L.flatMap (fun i => cg_atoms cgs (ma.cg i))) s := by
  intro L
  induction L with
  | nil => intro s; rfl
  | cons i l ih =>
    intro s
    simp only [distribute_cgs, List.flatMap_cons, distribute_atoms_append, ih]

theorem distribute_atoms_spec {α : Type} (v : Nat → α) :
    ∀ (l : List Nat) (a : Nat) (buf : Nat → α),
      (distribute_atoms v l (a, buf)).1 = a + l.length ∧
      (∀ j, ¬ (a ≤ j ∧ j < a + l.length) → (distribute_atoms v l (a, buf)).2 j = buf j) ∧
      (∀ k (h : k < l.length), (distribute_atoms v l (a, buf)).2 (a + k) = v (l.get ⟨k, h⟩)) := by
  intro l
  induction l with
  | nil =>
    intro a buf
    refine ⟨rfl, fun c _ => rfl, fun k h => ?_⟩
    simp at h
  | cons c l ih =>
    intro a buf
    obtain ⟨i1, i2, i3⟩ := ih (a + 1) (Function.update buf a (v c))
    simp only [distribute_atoms]
    refine ⟨?_, ?_, ?_⟩
    · rw [i1]; simp only [List.length_cons]; omega
    · intro j hj
      simp only [List.length_cons] at hj
      rw [i2 j (by omega), Function.update_noteq (by omega)]
    · intro k hk
      cases k with
      | zero =>
        simp only [List.get_eq_getElem, List.getElem_cons_zero, add_zero]
        rw [i2 a (by omega), Function.update_same]
      | succ k =>
        simp only [List.length_cons, Nat.add_lt_add_iff_right] at hk
        have := i3 k hk
        simp only [List.get_eq_getElem, List.getElem_cons_succ] at this ⊢
        rw [show a + (k + 1) = a + 1 + k by omega]
        exact this

theorem distribute_node_spec {α : Type} (ma : gmx_domdec_master) (cgs : t_block) (n : Nat)
    (v buf : Nat → α) :
    (distribute_node ma cgs n v buf).1 = (node_atoms ma cgs n).length ∧
    (∀ j, (node_atoms ma cgs n).length ≤ j → (distribute_node ma cgs n v buf).2 j = buf j) ∧
    (∀ k (h : k < (node_atoms ma cgs n).length),
      (distribute_node ma cgs n v buf).2 k = v ((node_atoms ma cgs n).get ⟨k, h⟩)) := by
  unfold distribute_node
  rw [distribute_cgs_eq]
  obtain ⟨i1, i2, i3⟩ := distribute_atoms_spec v (node_atoms ma cgs n) 0 buf
  refine ⟨by simpa using i1, fun j hj => i2 j (by omega), fun k h => ?_⟩
  have := i3 k h
  simpa using this

theorem mem_cg_atoms (cgs : t_block) (g c : Nat) :
    c ∈ cg_atoms cgs g ↔ cgs.index g ≤ c ∧ c < cgs.index (g + 1) := by
  unfold cg_atoms
  rw [List.mem_range'_1]
  omega

theorem mem_node_range (ma : gmx_domdec_master) (n i : Nat) :
    i ∈ node_range ma n ↔ ma.index n ≤ i ∧ i < ma.index (n + 1) := by
  unfold node_range
  rw [List.mem_range'_1]
  omega

theorem cg_atoms_disjoint (cgs : t_block) (hcgs : ∀ c, cgs.index c ≤ cgs.index (c + 1))
    (g g' c : Nat) (h1 : c ∈ cg_atoms cgs g) (h2 : c ∈ cg_atoms cgs g') : g = g' := by
  have hm : Monotone cgs.index := monotone_nat_of_le_succ hcgs
  rw [mem_cg_atoms] at h1 h2
  by_contra hne
  rcases Nat.lt_or_gt_of_ne hne with h | h
  · have := hm (show g + 1 ≤ g' by omega)
    omega
  · have := hm (show g' + 1 ≤ g by omega)
    omega

theorem index_mono_le (ma : gmx_domdec_master) (nnodes : Nat)
    (hidx : ∀ n, n < nnodes → ma.index n ≤ ma.index (n + 1)) :
    ∀ m, m ≤ nnodes → ∀ n, n ≤ m → ma.index n ≤ ma.index m := by
  intro m
  induction m with
  | zero =>
    intro _ n hn
    have : n = 0 := by omega
    subst this
    exact le_refl _
  | succ m ih =>
    intro hm n hn
    by_cases h : n = m + 1
    · subst h
      exact le_refl _
    · exact le_trans (ih (by omega) n (by omega)) (hidx m (by omega))

theorem node_atoms_owner (ma : gmx_domdec_master) (cgs : t_block) (nnodes : Nat)
    (hidx : ∀ n, n < nnodes → ma.index n ≤ ma.index (n + 1))
    (hinj : ∀ i j, i < ma.index nnodes → j < ma.index nnodes → ma.cg i = ma.cg j → i = j)
    (hcgs : ∀ c, cgs.index c ≤ cgs.index (c + 1))
    (n m c : Nat) (hn : n < nnodes) (hm : m < nnodes)
    (h1 : c ∈ node_atoms ma cgs n) (h2 : c ∈ node_atoms ma cgs m) : n = m := by
  simp only [node_atoms, List.mem_flatMap, mem_node_range] at h1 h2
  obtain ⟨i, ⟨hi1, hi2⟩, hci⟩ := h1
  obtain ⟨j, ⟨hj1, hj2⟩, hcj⟩ := h2
  have hg := cg_atoms_disjoint cgs hcgs _ _ _ hci hcj
  have hmono := index_mono_le ma nnodes hidx
  have hij := hinj i j (lt_of_lt_of_le hi2 (hmono nnodes (le_refl _) (n + 1) (by omega)))
    (lt_of_lt_of_le hj2 (hmono nnodes (le_refl _) (m + 1) (by omega))) hg
  subst hij
  by_contra hne
  rcases Nat.lt_or_gt_of_ne hne with h | h
  · have := hmono m (by omega) (n + 1) (by omega)
    omega
  · have := hmono n (by omega) (m + 1) (by omega)
    omega

theorem node_atoms_nodup (ma : gmx_domdec_master) (cgs : t_block) (nnodes : Nat)
    (hidx : ∀ n, n < nnodes → ma.index n ≤ ma.index (n + 1))
    (hinj : ∀ i j, i < ma.index nnodes → j < ma.index nnodes → ma.cg i = ma.cg j → i = j)
    (hcgs : ∀ c, cgs.index c ≤ cgs.index (c + 1))
    (n : Nat) (hn : n < nnodes) : (node_atoms ma cgs n).Nodup := by
  unfold node_atoms
  rw [List.nodup_flatMap]
  refine ⟨fun i _ => List.nodup_range' _ _, ?_⟩
  have hmono := index_mono_le ma nnodes hidx
  have hp : (node_range ma n).Pairwise (fun a b => a ≠ b) := List.nodup_range' _ _
  refine List.Pairwise.imp_of_mem ?_ hp
  intro i j hi hj hij
  rw [mem_node_range] at hi hj
  intro c hci hcj
  have hg := cg_atoms_disjoint cgs hcgs _ _ _ hci hcj
  exact hij (hinj i j (lt_of_lt_of_le hi.2 (hmono nnodes (le_refl _) (n + 1) (by omega)))
    (lt_of_lt_of_le hj.2 (hmono nnodes (le_refl _) (n + 1) (by omega))) hg)

theorem node_atoms_length (ma : gmx_domdec_master) (cgs : t_block)
    (hcgs : ∀ c, cgs.index c ≤ cgs.index (c + 1)) (n : Nat) :
    ((node_atoms ma cgs n).length : Int)
      = ((node_range ma n).map (fun i => cg_size cgs (ma.cg i))).sum := by
  unfold node_atoms
  generalize node_range ma n = l
  induction l with
  | nil => simp
  | cons i l ih =>
    simp only [List.flatMap_cons, List.length_append, Nat.cast_add, ih, List.map_cons,
      List.sum_cons]
    congr 1
    simp only [cg_atoms, List.length_range', cg_size]
    have := hcgs (ma.cg i)
    omega

theorem mpi_roundtrip {α : Type} (src dst : Nat → α) (n : Nat) (count : Int)
    (h : (n : Int) = count) :
    mpi_recv count (mpi_send src n) dst = some (fun a => if a < n then src a else dst a) := by
  subst h
  unfold mpi_recv mpi_send
  simp only [Int.toNat_ofNat, List.length_map, List.length_range, le_refl, if_true,
    Option.some.injEq]
  funext a
  by_cases ha : a < n
  · simp only [ha, if_true]
    rw [List.getD_eq_getElem _ _ (by simpa using ha)]
    simp
  · simp only [ha, if_false]
    rw [List.getD_eq_default _ _ (by simpa using ha)]

theorem dd_collect_vec_loop_spec {α : Type} (ma : gmx_domdec_master) (cgs : t_block)
    (nnodes rank : Nat) (nat_home : Nat → Nat) (lv : Nat → Nat → α)
    (hidx : ∀ n, n < nnodes → ma.index n ≤ ma.index (n + 1))
    (hinj : ∀ i j, i < ma.index nnodes → j < ma.index nnodes → ma.cg i = ma.cg j → i = j)
    (hcgs : ∀ c, cgs.index c ≤ cgs.index (c + 1))
    (hnat : ∀ n, n < nnodes →
      ma.nat n = ((node_range ma n).map (fun i => cg_size cgs (ma.cg i))).sum)
    (hhome : ∀ n, n < nnodes → (nat_home n : Int) = ma.nat n) :
    ∀ (l : List Nat), (∀ n ∈ l, n < nnodes) → ∀ (buf v : Nat → α) (S : Nat → Prop),
      (∀ n, n < nnodes → S n → holds_node ma cgs lv v n) →
      ∃ buf' v', dd_collect_vec_loop ma cgs rank nat_home lv l (buf, v) = some (buf', v') ∧
        ∀ n, n < nnodes → (S n ∨ (n ∈ l ∧ n ≠ rank)) → holds_node ma cgs lv v' n := by
  intro l
  induction l with
  | nil =>
    intro _ buf v S hS
    refine ⟨buf, v, rfl, ?_⟩
    intro n hn h
    rcases h with h | h
    · exact hS n hn h
    · simp at h
  | cons m l ih =>
    intro hl buf v S hS
    have hm : m < nnodes := hl m (by simp)
    have hl' : ∀ n ∈ l, n < nnodes := fun n hn => hl n (by simp [hn])
    by_cases hmr : m = rank
    · obtain ⟨buf', v', e, h⟩ := ih hl' buf v S hS
      refine ⟨buf', v', ?_, ?_⟩
      · simp only [dd_collect_vec_loop, hmr, ne_eq, not_true_eq_false, if_false]
        exact e
      intro n hn hc
      apply h n hn
      rcases hc with hc | hc
      · exact Or.inl hc
      · right
        refine ⟨?_, hc.2⟩
        rcases List.mem_cons.mp hc.1 with h1 | h1
        · exact absurd (h1.trans hmr) hc.2
        · exact h1
    · have hlen : ((node_atoms ma cgs m).length : Int) = nat_home m := by
        rw [node_atoms_length ma cgs hcgs, ← hnat m hm, hhome m hm]
      have hrecv := mpi_roundtrip (lv m) buf (nat_home m) (ma.nat m) (hhome m hm)
      obtain ⟨c1, c2⟩ := collect_node_spec ma cgs m
        (fun a => if a < nat_home m then lv m a else buf a) v
      have hgood : ∀ n, n < nnodes → (S n ∨ n = m) → holds_node ma cgs lv
          (collect_node ma cgs m (fun a => if a < nat_home m then lv m a else buf a) v) n := by
        intro n hn hc k hk
        by_cases hnm : n = m
        · subst hnm
          rw [c2 (node_atoms_nodup ma cgs nnodes hidx hinj hcgs n hn) k hk]
          have : k < nat_home n := by
            have : ((node_atoms ma cgs n).length : Int) = nat_home n := hlen
            omega
          simp [this]
        · have hS' : S n := by
            rcases hc with hc | hc
            · exact hc
            · exact absurd hc hnm
          rw [c1]
          · exact hS n hn hS' k hk
          · intro hmem
            exact hnm (node_atoms_owner ma cgs nnodes hidx hinj hcgs n m _ hn hm
              (List.get_mem _ _ _) hmem)
      obtain ⟨buf', v', e, h⟩ := ih hl' _ _ (fun n => S n ∨ n = m) hgood
      refine ⟨buf', v', ?_, ?_⟩
      · simp only [dd_collect_vec_loop, ne_eq, hmr, not_false_eq_true, if_true, hrecv]
        exact e
      · intro n hn hc
        apply h n hn
        rcases hc with hc | hc
        · exact Or.inl (Or.inl hc)
        · rcases List.mem_cons.mp hc.1 with h1 | h1
          · exact Or.inl (Or.inr h1)
          · exact Or.inr ⟨h1, hc.2⟩

theorem dd_distribute_vec_loop_spec {α : Type} (ma : gmx_domdec_master) (cgs : t_block)
    (nnodes rank : Nat) (nat_home : Nat → Nat) (lv : Nat → Nat → α) (v : Nat → α)
    (hcgs : ∀ c, cgs.index c ≤ cgs.index (c + 1))
    (hnat : ∀ n, n < nnodes →
      ma.nat n = ((node_range ma n).map (fun i => cg_size cgs (ma.cg i))).sum)
    (hhome : ∀ n, n < nnodes → (nat_home n : Int) = ma.nat n)
    (hv : ∀ n, n < nnodes → holds_node ma cgs lv v n) :
    ∀ (l : List Nat), (∀ n ∈ l, n < nnodes) → ∀ (buf : Nat → α) (lv0 : Nat → Nat → α),
      ∃ buf' lv', dd_distribute_vec_loop ma cgs rank nat_home v l (buf, lv0) = some (buf', lv') ∧
        ∀ n a, (n ∈ l ∧ n ≠ rank ∧ a < nat_home n → lv' n a = lv n a) ∧
          (¬ (n ∈ l ∧ n ≠ rank ∧ a < nat_home n) → lv' n a = lv0 n a) := by
  intro l
  induction l with
  | nil =>
    intro _ buf lv0
    refine ⟨buf, lv0, rfl, fun n a => ⟨fun h => by simp at h, fun _ => rfl⟩⟩
  | cons m l ih =>
    intro hl buf lv0
    have hm : m < nnodes := hl m (by simp)
    have hl' : ∀ n ∈ l, n < nnodes := fun n hn => hl n (by simp [hn])
    by_cases hmr : m = rank
    · obtain ⟨buf', lv', e, h⟩ := ih hl' buf lv0
      refine ⟨buf', lv', ?_, ?_⟩
      · simp only [dd_distribute_vec_loop, hmr, ne_eq, not_true_eq_false, if_false]
        exact e
      intro n a
      refine ⟨fun hc => (h n a).1 ⟨?_, hc.2⟩, fun hc => (h n a).2 (fun hc' => hc ⟨?_, hc'.2⟩)⟩
      · rcases List.mem_cons.mp hc.1 with h1 | h1
        · exact absurd (h1.trans hmr) hc.2.1
        · exact h1
      · exact List.mem_cons_of_mem _ hc'.1
    · have hlen : ((node_atoms ma cgs m).length : Int) = nat_home m := by
        rw [node_atoms_length ma cgs hcgs, ← hnat m hm, hhome m hm]
      obtain ⟨d1, d2, d3⟩ := distribute_node_spec ma cgs m v buf
      have hcount : ((distribute_node ma cgs m v buf).1 : Int) = ma.nat m := by
        rw [d1, hlen, hhome m hm]
      have hsend : mpi_send (distribute_node ma cgs m v buf).2 (ma.nat m)
          = mpi_send (lv m) (nat_home m) := by
        unfold mpi_send
        rw [← hhome m hm]
        simp only [Int.toNat_ofNat]
        apply List.map_congr_left
        intro k hk
        have hk' : k < (node_atoms ma cgs m).length := by
          have := List.mem_range.mp hk
          omega
        rw [d3 k hk', hv m hm k hk']
      have hrecv := mpi_roundtrip (lv m) (lv0 m) (nat_home m) (nat_home m) rfl
      obtain ⟨buf', lv', e, h⟩ := ih hl' (distribute_node ma cgs m v buf).2
        (Function.update lv0 m (fun a => if a < nat_home m then lv m a else lv0 m a))
      refine ⟨buf', lv', ?_, ?_⟩
      · simp only [dd_distribute_vec_loop, ne_eq, hmr, not_false_eq_true, if_true, hcount,
          not_true_eq_false, if_false, hsend, hrecv]
        exact e
      · intro n a
        constructor
        · intro hc
          by_cases hnl : n ∈ l
          · exact (h n a).1 ⟨hnl, hc.2⟩
          · have hnm : n = m := by
              rcases List.mem_cons.mp hc.1 with h1 | h1
              · exact h1
              · exact absurd h1 hnl
            rw [(h n a).2 (fun hc' => hnl hc'.1), hnm, Function.update_same]
            simp [← hnm, hc.2.2]
        · intro hc
          have hnl : ¬ (n ∈ l ∧ n ≠ rank ∧ a < nat_home n) :=
            fun hc' => hc ⟨List.mem_cons_of_mem _ hc'.1, hc'.2⟩
          rw [(h n a).2 hnl]
          by_cases hnm : n = m
          · subst hnm
            rw [Function.update_same]
            have : ¬ a < nat_home n := fun ha => hc ⟨by simp, hmr, ha⟩
            simp [this]
          · rw [Function.update_noteq hnm]

/-- C3: for an ownership map on the master in which every charge group is
listed once (the per-rank lists are disjoint and repetition free), the lists
are delimited by a non-decreasing `ma->index`, and `ma->nat[n]` is the atom
count of the groups of rank `n` and the length of its local vector:
`dd_collect_vec` succeeds, `dd_distribute_vec` applied to the collected global
vector succeeds whatever the receiving arrays held, and afterwards every rank
has its original local vector element by element. -/
theorem collect_vec_then_distribute_vec_roundtrip {α : Type} (ma : gmx_domdec_master)
    (cgs : t_block) (nnodes rank : Nat) (nat_home : Nat → Nat) (lv lv0 : Nat → Nat → α)
    (buf v buf2 : Nat → α)
    (hrank : rank < nnodes)
    (hidx : ∀ n, n < nnodes → ma.index n ≤ ma.index (n + 1))
    (hinj : ∀ i j, i < ma.index nnodes → j < ma.index nnodes → ma.cg i = ma.cg j → i = j)
    (hcgs : ∀ c, cgs.index c ≤ cgs.index (c + 1))
    (hnat : ∀ n, n < nnodes →
      ma.nat n = ((node_range ma n).map (fun i => cg_size cgs (ma.cg i))).sum)
    (hhome : ∀ n, n < nnodes → (nat_home n : Int) = ma.nat n) :
    ∃ v', dd_collect_vec ma cgs nnodes rank nat_home lv buf v = some v' ∧
      ∃ lv', dd_distribute_vec ma cgs nnodes rank nat_home v' buf2 lv0 = some lv' ∧
        ∀ n, n < nnodes → ∀ a, a < nat_home n → lv' n a = lv n a := by
  have hlen : ∀ n, n < nnodes → (node_atoms ma cgs n).length = nat_home n := by
    intro n hn
    have : ((node_atoms ma cgs n).length : Int) = nat_home n := by
      rw [node_atoms_length ma cgs hcgs, ← hnat n hn, hhome n hn]
    omega
  -- the master's own vector goes in first
  obtain ⟨_, c2⟩ := collect_node_spec ma cgs rank (lv rank) v
  have h0 : ∀ n, n < nnodes → n = rank →
      holds_node ma cgs lv (collect_node ma cgs rank (lv rank) v) n := by
    intro n hn hnr k hk
    subst hnr
    exact c2 (node_atoms_nodup ma cgs nnodes hidx hinj hcgs n hn) k hk
  obtain ⟨buf', v', e1, hv'⟩ := dd_collect_vec_loop_spec ma cgs nnodes rank nat_home lv hidx hinj
    hcgs hnat hhome (List.range nnodes) (fun n hn => List.mem_range.mp hn) buf
    (collect_node ma cgs rank (lv rank) v) (fun n => n = rank) h0
  have hall : ∀ n, n < nnodes → holds_node ma cgs lv v' n := by
    intro n hn
    apply hv' n hn
    by_cases h : n = rank
    · exact Or.inl h
    · exact Or.inr ⟨List.mem_range.mpr hn, h⟩
  refine ⟨v', by simp [dd_collect_vec, e1], ?_⟩
  obtain ⟨buf'', lv', e2, hlv'⟩ := dd_distribute_vec_loop_spec ma cgs nnodes rank nat_home lv v'
    hcgs hnat hhome hall (List.range nnodes) (fun n hn => List.mem_range.mp hn) buf2 lv0
  refine ⟨Function.update lv' rank (distribute_node ma cgs rank v' (lv' rank)).2, ?_, ?_⟩
  · simp only [dd_distribute_vec, e2, Option.map_some']
  intro n hn a ha
  by_cases hnr : n = rank
  · subst hnr
    rw [Function.update_same]
    obtain ⟨_, _, d3⟩ := distribute_node_spec ma cgs n v' (lv' n)
    have hk : a < (node_atoms ma cgs n).length := by rw [hlen n hn]; exact ha
    rw [d3 a hk, hall n hn a hk]
  · rw [Function.update_noteq hnr]
    exact (hlv' n a).1 ⟨List.mem_range.mpr hn, hnr, ha⟩

/-- Witness of C3 on a two-node ownership map. -/
theorem collect_vec_then_distribute_vec_roundtrip_witness :
    (0 < 2) ∧
    (∀ n, n < 2 → ex_ma_swapped.index n ≤ ex_ma_swapped.index (n + 1)) ∧
    (∀ i j, i < ex_ma_swapped.index 2 → j < ex_ma_swapped.index 2 →
      ex_ma_swapped.cg i = ex_ma_swapped.cg j → i = j) ∧
    (∀ c, ex_cgs.index c ≤ ex_cgs.index (c + 1)) ∧
    (∀ n, n < 2 → ex_ma_swapped.nat n
      = ((node_range ex_ma_swapped n).map (fun i => cg_size ex_cgs (ex_ma_swapped.cg i))).sum) ∧
    (∀ n, n < 2 → (((fun _ => 1) n : Nat) : Int) = ex_ma_swapped.nat n) ∧
    ∃ v', dd_collect_vec ex_ma_swapped ex_cgs 2 0 (fun _ => 1) ex_lv (fun _ => 0) (fun _ => 0)
        = some v' ∧
      ∃ lv', dd_distribute_vec ex_ma_swapped ex_cgs 2 0 (fun _ => 1) v' (fun _ => 0)
          (fun _ _ => 0) = some lv' ∧
        ∀ n, n < 2 → ∀ a, a < (fun _ => 1) n → lv' n a = ex_lv n a := by
  have h1 : ∀ n, n < 2 → ex_ma_swapped.index n ≤ ex_ma_swapped.index (n + 1) := by
    intro n _
    simp [ex_ma_swapped]
  have h2 : ∀ i j, i < ex_ma_swapped.index 2 → j < ex_ma_swapped.index 2 →
      ex_ma_swapped.cg i = ex_ma_swapped.cg j → i = j := by
    intro i j hi hj h
    simp only [ex_ma_swapped] at hi hj h
    omega
  have h3 : ∀ c, ex_cgs.index c ≤ ex_cgs.index (c + 1) := by
    intro c
    simp [ex_cgs]
  have h4 : ∀ n, n < 2 → ex_ma_swapped.nat n
      = ((node_range ex_ma_swapped n).map
          (fun i => cg_size ex_cgs (ex_ma_swapped.cg i))).sum := by
    intro n _
    simp [ex_ma_swapped, node_range, cg_size, ex_cgs]
  have h5 : ∀ n, n < 2 → (((fun _ => 1) n : Nat) : Int) = ex_ma_swapped.nat n := by
    intro n _
    simp [ex_ma_swapped]
  exact ⟨by decide, h1, h2, h3, h4, h5,
    collect_vec_then_distribute_vec_roundtrip ex_ma_swapped ex_cgs 2 0 (fun _ => 1) ex_lv
      (fun _ _ => 0) (fun _ => 0) (fun _ => 0) (fun _ => 0) (by decide) h1 h2 h3 h4 h5⟩

/-! ## Halo completeness in one dimension -/

theorem halo_select_spec (dim : Fin 3) (corner r_comm2 : real) (ci_dim : Nat) (box : matrix)
    (dd : dd_local) :
    ∀ (l : List Nat) (s : halo_send),
      s.nsend ≤ (halo_select dim corner r_comm2 ci_dim box dd l s).nsend ∧
      (∀ k, k < s.nsend →
        (halo_select dim corner r_comm2 ci_dim box dd l s).buf_int k = s.buf_int k) ∧
      ∀ cg, cg ∈ l →
        (if dd.cg_cm cg dim - corner > 0
          then 0 + (dd.cg_cm cg dim - corner) * (dd.cg_cm cg dim - corner) else 0) < r_comm2 →
        ∃ k, k < (halo_select dim corner r_comm2 ci_dim box dd l s).nsend ∧
          (halo_select dim corner r_comm2 ci_dim box dd l s).buf_int k = dd.index_gl cg := by
  intro l
  induction l with
  | nil =>
    intro s
    exact ⟨le_refl _, fun _ _ => rfl, fun cg h => by simp at h⟩
  | cons c l ih =>
    intro s
    simp only [halo_select]
    obtain ⟨i1, i2, i3⟩ := ih (halo_select_cg dim corner r_comm2 ci_dim box dd s c)
    by_cases hsel : (if dd.cg_cm c dim - corner > 0
          then 0 + (dd.cg_cm c dim - corner) * (dd.cg_cm c dim - corner) else 0) < r_comm2
    · have e1 : (halo_select_cg dim corner r_comm2 ci_dim box dd s c).nsend = s.nsend + 1 := by
        simp only [halo_select_cg, hsel, if_true]
      have e2 : (halo_select_cg dim corner r_comm2 ci_dim box dd s c).buf_int
          = Function.update s.buf_int s.nsend (dd.index_gl c) := by
        simp only [halo_select_cg, hsel, if_true]
      refine ⟨by omega, ?_, ?_⟩
      · intro k hk
        rw [i2 k (by omega), e2, Function.update_noteq (by omega)]
      · intro cg hcg hs
        rcases List.mem_cons.mp hcg with h | h
        · subst h
          refine ⟨s.nsend, by omega, ?_⟩
          rw [i2 s.nsend (by omega), e2, Function.update_same]
        · exact i3 cg h hs
    · have e : halo_select_cg dim corner r_comm2 ci_dim box dd s c = s := by
        simp only [halo_select_cg, hsel, if_false]
      rw [e] at i1 i2 i3 ⊢
      refine ⟨i1, i2, ?_⟩
      intro cg hcg hs
      rcases List.mem_cons.mp hcg with h | h
      · subst h
        exact absurd hs hsel
      · exact i3 cg h hs

theorem home_in_home_or_zone (nc : Nat) (dim : Fin 3) (cutoff : real) (box : matrix)
    (gcgs_index : Nat → Nat) (ranks : Nat → dd_local) (bufs : Nat → halo_send) (ci i : Nat)
    (hi : i < (ranks ci).ncg_home) :
    in_home_or_zone (setup_dd_communication_1d nc dim cutoff box gcgs_index ranks bufs ci)
      ((ranks ci).index_gl i) := by
  refine ⟨i, ?_, ?_⟩
  · simp only [setup_dd_communication_1d]
    omega
  · simp only [setup_dd_communication_1d]
    have : ¬ ((ranks ci).ncg_home ≤ i ∧ i < (ranks ci).ncg_home +
        (halo_send_1d dim cutoff box (neighbor_fw nc ci) (ranks (neighbor_fw nc ci))
          (bufs (neighbor_fw nc ci))).nsend) := by omega
    simp only [this, if_false]

theorem selected_in_home_or_zone (nc : Nat) (dim : Fin 3) (cutoff : real) (box : matrix)
    (gcgs_index : Nat → Nat) (ranks : Nat → dd_local) (bufs : Nat → halo_send) (ci cg : Nat)
    (hcg : cg < (ranks (neighbor_fw nc ci)).ncg_home)
    (hsel : (if (ranks (neighbor_fw nc ci)).cg_cm cg dim
            - (ranks (neighbor_fw nc ci)).cell_x0 dim > 0
          then 0 + ((ranks (neighbor_fw nc ci)).cg_cm cg dim
              - (ranks (neighbor_fw nc ci)).cell_x0 dim)
            * ((ranks (neighbor_fw nc ci)).cg_cm cg dim
              - (ranks (neighbor_fw nc ci)).cell_x0 dim) else 0) < cutoff * cutoff) :
    in_home_or_zone (setup_dd_communication_1d nc dim cutoff box gcgs_index ranks bufs ci)
      ((ranks (neighbor_fw nc ci)).index_gl cg) := by
  obtain ⟨_, _, h3⟩ := halo_select_spec dim ((ranks (neighbor_fw nc ci)).cell_x0 dim)
    (cutoff * cutoff) (neighbor_fw nc ci) box (ranks (neighbor_fw nc ci))
    (List.range (ranks (neighbor_fw nc ci)).ncg_home)
    ⟨0, 0, (bufs (neighbor_fw nc ci)).index, (bufs (neighbor_fw nc ci)).buf_int,
      (bufs (neighbor_fw nc ci)).buf_vr⟩
  obtain ⟨k, hk1, hk2⟩ := h3 cg (List.mem_range.mpr hcg) hsel
  unfold in_home_or_zone
  simp only [setup_dd_communication_1d, halo_send_1d]
  refine ⟨(ranks ci).ncg_home + k, by omega, ?_⟩
  rw [if_pos ⟨by omega, by omega⟩, Nat.add_sub_cancel_left]
  exact hk2

theorem boundaries_spread (nc : Nat) (cutoff : real) (X : Nat → real)
    (hw : ∀ R, R < nc → cutoff ≤ X (R + 1) - X R) :
    ∀ m, m ≤ nc → ∀ n, n ≤ m → X n + ((m : real) - (n : real)) * cutoff ≤ X m := by
  intro m
  induction m with
  | zero =>
    intro _ n hn
    have : n = 0 := by omega
    subst this
    simp
  | succ m ih =>
    intro hm n hn
    by_cases h : n = m + 1
    · subst h
      simp
    · have h1 := ih (by omega) n (by omega)
      have h2 := hw m (by omega)
      push_cast
      linarith

theorem halo_selected_of_lt (r cutoff : real) (h : r < cutoff) (hc : 0 < cutoff) :
    (if r > 0 then 0 + r * r else 0) < cutoff * cutoff := by
  by_cases hr : r > 0
  · simp only [hr, if_true, zero_add]
    nlinarith
  · simp only [hr, if_false]
    nlinarith

theorem pbc_closer_dim (box : matrix) (a b : rvec) (cutoff : real) (dim : Fin 3)
    (hc : 0 < cutoff) (h : pbc_closer box a b cutoff) :
    ∃ k : ℤ, -cutoff < a dim - b dim + (k : real) * box dim dim ∧
      a dim - b dim + (k : real) * box dim dim < cutoff := by
  obtain ⟨k, hk⟩ := h
  refine ⟨k dim, ?_⟩
  have hd : (a dim - b dim + (k dim : real) * box dim dim) ^ 2 < cutoff ^ 2 := by
    have h0 := sq_nonneg (a 0 - b 0 + (k 0 : real) * box 0 0)
    have h1 := sq_nonneg (a 1 - b 1 + (k 1 : real) * box 1 1)
    have h2 := sq_nonneg (a 2 - b 2 + (k 2 : real) * box 2 2)
    have hdim : dim = 0 ∨ dim = 1 ∨ dim = 2 := by fin_cases dim <;> simp
    rcases hdim with rfl | rfl | rfl <;> linarith
  have := abs_lt_of_sq_lt_sq hd (le_of_lt hc)
  exact abs_lt.mp this

theorem boundaries_step (nc : Nat) (cutoff : real) (X : Nat → real) (hcut : 0 < cutoff)
    (hw : ∀ R, R < nc → cutoff ≤ X (R + 1) - X R) (n m : Nat) (hnm : n < m) (hm : m ≤ nc) :
    X n + cutoff ≤ X m := by
  have h := boundaries_spread nc cutoff X hw m hm n (le_of_lt hnm)
  have h1 : (1 : real) ≤ (m : real) - (n : real) := by
    have : ((n + 1 : Nat) : real) ≤ (m : real) := by exact_mod_cast (by omega : n + 1 ≤ m)
    push_cast at this
    linarith
  have h2 : cutoff ≤ ((m : real) - (n : real)) * cutoff := le_mul_of_one_le_left (le_of_lt hcut) h1
  linarith

theorem boundaries_mono (nc : Nat) (cutoff : real) (X : Nat → real) (hcut : 0 < cutoff)
    (hw : ∀ R, R < nc → cutoff ≤ X (R + 1) - X R) (n m : Nat) (hnm : n ≤ m) (hm : m ≤ nc) :
    X n ≤ X m := by
  rcases Nat.lt_or_ge n m with h | h
  · have := boundaries_step nc cutoff X hcut hw n m h hm
    linarith
  · have : n = m := by omega
    rw [this]

theorem image_index_cases (xa xb L c : real) (k : ℤ) (hc : 0 < c) (hL : 3 * c ≤ L)
    (ha0 : 0 ≤ xa) (ha1 : xa < L) (hb0 : 0 ≤ xb) (hb1 : xb < L)
    (hk1 : -c < xa - xb + (k : real) * L) (hk2 : xa - xb + (k : real) * L < c) :
    k = -1 ∨ k = 0 ∨ k = 1 := by
  have hLpos : 0 < L := by linarith
  have hk_lt : (k : real) < 2 := by
    by_contra hcon
    push_neg at hcon
    have : 2 * L ≤ (k : real) * L := mul_le_mul_of_nonneg_right hcon (le_of_lt hLpos)
    linarith
  have hk_gt : (-2 : real) < (k : real) := by
    by_contra hcon
    push_neg at hcon
    have : (k : real) * L ≤ -2 * L := mul_le_mul_of_nonneg_right hcon (le_of_lt hLpos)
    linarith
  have h1 : k < 2 := by exact_mod_cast hk_lt
  have h2 : -2 < k := by exact_mod_cast hk_gt
  omega

/-- C4 (amended): in a decomposition into `nc >= 3` cells along one dimension
of a rectangular box, every cell at least `cutoff` wide and every home centre
of geometry inside its cell, after the one-pulse halo setup on all ranks: for
every pair of home charge groups `a` (on rank `Ra`) and `b` (on rank `Rb`)
whose centres are closer than `cutoff` under periodic boundary conditions,
`b` is in the HOME or ZONE set of `Ra`, or `a` is in the HOME or ZONE set of
`Rb` (the halo is received from the forward neighbour only). -/
theorem halo_complete_for_one_owner (nc : Nat) (dim : Fin 3) (cutoff : real) (box : matrix)
    (gcgs_index : Nat → Nat) (ranks : Nat → dd_local) (bufs : Nat → halo_send)
    (X : Nat → real) (Ra Rb ia ib : Nat)
    (hnc : 3 ≤ nc) (hcut : 0 < cutoff)
    (hrect : ∀ i j : Fin 3, i ≠ j → box i j = 0)
    (hX0 : X 0 = 0) (hXn : X nc = box dim dim)
    (hw : ∀ R, R < nc → cutoff ≤ X (R + 1) - X R)
    (hx0 : ∀ R, R < nc → (ranks R).cell_x0 dim = X R ∧ (ranks R).cell_x1 dim = X (R + 1))
    (hin : ∀ R, R < nc → ∀ i, i < (ranks R).ncg_home →
      (ranks R).cell_x0 dim ≤ (ranks R).cg_cm i dim ∧
        (ranks R).cg_cm i dim < (ranks R).cell_x1 dim)
    (hRa : Ra < nc) (hRb : Rb < nc)
    (hia : ia < (ranks Ra).ncg_home) (hib : ib < (ranks Rb).ncg_home)
    (hclose : pbc_closer box ((ranks Ra).cg_cm ia) ((ranks Rb).cg_cm ib) cutoff) :
    in_home_or_zone (setup_dd_communication_1d nc dim cutoff box gcgs_index ranks bufs Ra)
        ((ranks Rb).index_gl ib) ∨
    in_home_or_zone (setup_dd_communication_1d nc dim cutoff box gcgs_index ranks bufs Rb)
        ((ranks Ra).index_gl ia) := by
  have _ := hrect
  obtain ⟨k, hk1, hk2⟩ := pbc_closer_dim box _ _ cutoff dim hcut hclose
  have hstep := boundaries_step nc cutoff X hcut hw
  have hmono := boundaries_mono nc cutoff X hcut hw
  obtain ⟨ha0, ha1⟩ := hin Ra hRa ia hia
  obtain ⟨hb0, hb1⟩ := hin Rb hRb ib hib
  rw [(hx0 Ra hRa).1] at ha0
  rw [(hx0 Ra hRa).2] at ha1
  rw [(hx0 Rb hRb).1] at hb0
  rw [(hx0 Rb hRb).2] at hb1
  -- the box is at least three cut-offs long and both centres are inside it
  have hL3 : 3 * cutoff ≤ box dim dim := by
    have h1 := hstep 0 1 (by omega) (by omega)
    have h2 := hstep 1 2 (by omega) (by omega)
    have h3 := hstep 2 3 (by omega) (by omega)
    have h4 := hmono 3 nc hnc (le_refl _)
    rw [hX0] at h1
    rw [hXn] at h4
    linarith
  have ha_lo : 0 ≤ (ranks Ra).cg_cm ia dim := by
    have := hmono 0 Ra (by omega) (by omega)
    rw [hX0] at this
    linarith
  have hb_lo : 0 ≤ (ranks Rb).cg_cm ib dim := by
    have := hmono 0 Rb (by omega) (by omega)
    rw [hX0] at this
    linarith
  have ha_hi : (ranks Ra).cg_cm ia dim < box dim dim := by
    have := hmono (Ra + 1) nc (by omega) (le_refl _)
    rw [hXn] at this
    linarith
  have hb_hi : (ranks Rb).cg_cm ib dim < box dim dim := by
    have := hmono (Rb + 1) nc (by omega) (le_refl _)
    rw [hXn] at this
    linarith
  -- a group of the forward neighbour less than a cut-off above the boundary is received
  have key : ∀ (R R' i' : Nat), neighbor_fw nc R = R' → i' < (ranks R').ncg_home →
      (ranks R').cg_cm i' dim - (ranks R').cell_x0 dim < cutoff →
      in_home_or_zone (setup_dd_communication_1d nc dim cutoff box gcgs_index ranks bufs R)
        ((ranks R').index_gl i') := by
    intro R R' i' hfw hi' hlt
    subst hfw
    exact selected_in_home_or_zone nc dim cutoff box gcgs_index ranks bufs R i' hi'
      (halo_selected_of_lt _ _ hlt hcut)
  have hk3 := image_index_cases _ _ _ _ k hcut hL3 ha_lo ha_hi hb_lo hb_hi hk1 hk2
  rcases hk3 with rfl | rfl | rfl
  · -- image -1: `a` is in the last cell and `b` in the first
    push_cast at hk1 hk2
    have hRb0 : Rb = 0 := by
      by_contra hne
      have := hstep 0 Rb (by omega) (by omega)
      rw [hX0] at this
      linarith
    have hRa1 : Ra + 1 = nc := by
      by_contra hne
      have := hstep (Ra + 1) nc (by omega) (le_refl _)
      rw [hXn] at this
      linarith
    left
    apply key Ra Rb ib _ hib
    · rw [(hx0 Rb hRb).1, hRb0, hX0]
      subst hRb0
      linarith
    · unfold neighbor_fw
      rw [hRa1, Nat.mod_self, hRb0]
  · -- image 0
    simp only [Int.cast_zero, zero_mul, add_zero] at hk1 hk2
    rcases Nat.lt_trichotomy Ra Rb with h | h | h
    · have hR : Ra + 1 = Rb := by
        by_contra hne
        have := hstep (Ra + 1) Rb (by omega) (by omega)
        linarith
      left
      apply key Ra Rb ib _ hib
      · rw [(hx0 Rb hRb).1]
        have e : X (Ra + 1) = X Rb := by rw [hR]
        linarith
      · unfold neighbor_fw
        rw [hR, Nat.mod_eq_of_lt hRb]
    · subst h
      left
      exact home_in_home_or_zone nc dim cutoff box gcgs_index ranks bufs Ra ib hib
    · have hR : Rb + 1 = Ra := by
        by_contra hne
        have := hstep (Rb + 1) Ra (by omega) (by omega)
        linarith
      right
      apply key Rb Ra ia _ hia
      · rw [(hx0 Ra hRa).1]
        have e : X (Rb + 1) = X Ra := by rw [hR]
        linarith
      · unfold neighbor_fw
        rw [hR, Nat.mod_eq_of_lt hRa]
  · -- image +1: `a` is in the first cell and `b` in the last
    push_cast at hk1 hk2
    have hRa0 : Ra = 0 := by
      by_contra hne
      have := hstep 0 Ra (by omega) (by omega)
      rw [hX0] at this
      linarith
    have hRb1 : Rb + 1 = nc := by
      by_contra hne
      have := hstep (Rb + 1) nc (by omega) (le_refl _)
      rw [hXn] at this
      linarith
    right
    apply key Rb Ra ia _ hia
    · rw [(hx0 Ra hRa).1, hRa0, hX0]
      subst hRa0
      linarith
    · unfold neighbor_fw
      rw [hRb1, Nat.mod_self, hRa0]

/-- C4, counterexample to the claim as stated: with three cells of width 10
along x and cut-off 10, charge group 1 (x = 11, on rank 1) and charge group 0
(x = 9, on rank 0) are closer than the cut-off, yet after the halo setup the
owner of group 1, rank 1, has group 0 neither in HOME nor in ZONE. -/
theorem halo_owner_misses_backward_neighbour :
    (ex_halo_ranks 1).index_gl 0 = 1 ∧ (ex_halo_ranks 0).index_gl 0 = 0 ∧
    0 < (ex_halo_ranks 1).ncg_home ∧ 0 < (ex_halo_ranks 0).ncg_home ∧
    pbc_closer ex_box30 ((ex_halo_ranks 1).cg_cm 0) ((ex_halo_ranks 0).cg_cm 0) 10 ∧
    ¬ in_home_or_zone
      (setup_dd_communication_1d 3 XX 10 ex_box30 (fun c => c) ex_halo_ranks ex_halo_bufs 1)
      ((ex_halo_ranks 0).index_gl 0) := by
  refine ⟨rfl, rfl, by simp [ex_halo_ranks], by simp [ex_halo_ranks], ?_, ?_⟩
  · refine ⟨fun _ => 0, ?_⟩
    norm_num [ex_halo_ranks, ex_box30, fin3_one_eq_zero, fin3_two_eq_zero]
  · rintro ⟨i, hi, hg⟩
    simp [setup_dd_communication_1d, halo_send_1d, neighbor_fw, ex_halo_ranks, halo_select,
      ex_halo_bufs] at hi hg
    omega

/-- Witness of C4 (amended) on the three-rank system: group 1 on rank 1 and
group 0 on rank 0. -/
theorem halo_complete_for_one_owner_witness :
    (3 ≤ 3) ∧ ((0 : real) < 10) ∧
    (∀ i j : Fin 3, i ≠ j → ex_box30 i j = 0) ∧
    ((fun R : Nat => 10 * (R : real)) 0 = 0) ∧
    ((fun R : Nat => 10 * (R : real)) 3 = ex_box30 XX XX) ∧
    (∀ R, R < 3 → (10 : real) ≤ (fun R : Nat => 10 * (R : real)) (R + 1)
      - (fun R : Nat => 10 * (R : real)) R) ∧
    (∀ R, R < 3 → (ex_halo_ranks R).cell_x0 XX = (fun R : Nat => 10 * (R : real)) R ∧
      (ex_halo_ranks R).cell_x1 XX = (fun R : Nat => 10 * (R : real)) (R + 1)) ∧
    (∀ R, R < 3 → ∀ i, i < (ex_halo_ranks R).ncg_home →
      (ex_halo_ranks R).cell_x0 XX ≤ (ex_halo_ranks R).cg_cm i XX ∧
        (ex_halo_ranks R).cg_cm i XX < (ex_halo_ranks R).cell_x1 XX) ∧
    (1 < 3) ∧ (0 < 3) ∧ (0 < (ex_halo_ranks 1).ncg_home) ∧ (0 < (ex_halo_ranks 0).ncg_home) ∧
    pbc_closer ex_box30 ((ex_halo_ranks 1).cg_cm 0) ((ex_halo_ranks 0).cg_cm 0) 10 ∧
    (in_home_or_zone
        (setup_dd_communication_1d 3 XX 10 ex_box30 (fun c => c) ex_halo_ranks ex_halo_bufs 1)
        ((ex_halo_ranks 0).index_gl 0) ∨
      in_home_or_zone
        (setup_dd_communication_1d 3 XX 10 ex_box30 (fun c => c) ex_halo_ranks ex_halo_bufs 0)
        ((ex_halo_ranks 1).index_gl 0)) := by
  have h1 : ∀ i j : Fin 3, i ≠ j → ex_box30 i j = 0 := by
    intro i j hij
    simp [ex_box30, hij]
  have h2 : (fun R : Nat => 10 * (R : real)) 3 = ex_box30 XX XX := by
    norm_num [ex_box30]
  have h3 : ∀ R, R < 3 → (10 : real) ≤ (fun R : Nat => 10 * (R : real)) (R + 1)
      - (fun R : Nat => 10 * (R : real)) R := by
    intro R _
    push_cast
    linarith
  have h4 : ∀ R, R < 3 → (ex_halo_ranks R).cell_x0 XX = (fun R : Nat => 10 * (R : real)) R ∧
      (ex_halo_ranks R).cell_x1 XX = (fun R : Nat => 10 * (R : real)) (R + 1) := by
    intro R _
    simp only [ex_halo_ranks, if_true]
    push_cast
    exact ⟨trivial, by ring⟩
  have h5 : ∀ R, R < 3 → ∀ i, i < (ex_halo_ranks R).ncg_home →
      (ex_halo_ranks R).cell_x0 XX ≤ (ex_halo_ranks R).cg_cm i XX ∧
        (ex_halo_ranks R).cg_cm i XX < (ex_halo_ranks R).cell_x1 XX := by
    intro R hR i hi
    interval_cases R <;> simp [ex_halo_ranks] at hi ⊢ <;> norm_num
  have h6 : pbc_closer ex_box30 ((ex_halo_ranks 1).cg_cm 0) ((ex_halo_ranks 0).cg_cm 0) 10 := by
    refine ⟨fun _ => 0, ?_⟩
    norm_num [ex_halo_ranks, ex_box30, fin3_one_eq_zero, fin3_two_eq_zero]
  exact ⟨le_refl _, by norm_num, h1, by norm_num, h2, h3, h4, h5, by decide, by decide,
    by simp [ex_halo_ranks], by simp [ex_halo_ranks],
    h6, halo_complete_for_one_owner 3 XX 10 ex_box30 (fun c => c) ex_halo_ranks ex_halo_bufs
      (fun R : Nat => 10 * (R : real)) 1 0 0 0 (le_refl _) (by norm_num) h1 (by norm_num) h2 h3
      h4 h5 (by decide) (by decide) (by simp [ex_halo_ranks]) (by simp [ex_halo_ranks]) h6⟩

/-! ## Coordinate communication between two ranks -/

theorem move_x_pack_spec (at_edge : Bool) (shift : rvec) (x : Nat → rvec) :
    ∀ (l : List Nat) (n : Nat) (buf : Nat → rvec),
      (move_x_pack at_edge shift x l (n, buf)).1 = n + l.length ∧
      (∀ a, ¬ (n ≤ a ∧ a < n + l.length) → (move_x_pack at_edge shift x l (n, buf)).2 a = buf a) ∧
      (∀ k (h : k < l.length), (move_x_pack at_edge shift x l (n, buf)).2 (n + k)
        = if at_edge then x (l.get ⟨k, h⟩) + shift else x (l.get ⟨k, h⟩)) := by
  intro l
  induction l with
  | nil =>
    intro n buf
    refine ⟨rfl, fun _ _ => rfl, fun k h => ?_⟩
    simp at h
  | cons j l ih =>
    intro n buf
    obtain ⟨i1, i2, i3⟩ := ih (n + 1)
      (Function.update buf n (if at_edge then x j + shift else x j))
    simp only [move_x_pack]
    refine ⟨?_, ?_, ?_⟩
    · rw [i1]; simp only [List.length_cons]; omega
    · intro a ha
      simp only [List.length_cons] at ha
      rw [i2 a (by omega), Function.update_noteq (by omega)]
    · intro k hk
      cases k with
      | zero =>
        simp only [List.get_eq_getElem, List.getElem_cons_zero, add_zero]
        rw [i2 n (by omega), Function.update_same]
      | succ k =>
        simp only [List.length_cons, Nat.add_lt_add_iff_right] at hk
        have := i3 k hk
        simp only [List.get_eq_getElem, List.getElem_cons_succ] at this ⊢
        rw [show n + (k + 1) = n + 1 + k by omega]
        exact this

theorem dd_move_x_first_message_eq (dd : gmx_domdec) (box : matrix) (x buf : Nat → rvec)
    (hsend : ((dd.cd 0).ind 0).nsend 2 = (ind_atoms dd.cgindex ((dd.cd 0).ind 0) 1).length) :
    dd_move_x_first_message dd box x buf
      = (ind_atoms dd.cgindex ((dd.cd 0).ind 0) 1).map
          (fun j => if decide (dd.ci (dd.dim 0) = 0) then x j + box (dd.dim 0) else x j) := by
  unfold dd_move_x_first_message mpi_send
  rw [hsend]
  simp only [Int.toNat_ofNat]
  obtain ⟨_, _, h3⟩ := move_x_pack_spec (decide (dd.ci (dd.dim 0) = 0)) (box (dd.dim 0)) x
    (ind_atoms dd.cgindex ((dd.cd 0).ind 0) 1) 0 buf
  apply List.ext_getElem
  · simp
  · intro k h1 h2
    simp only [List.length_map, List.length_range] at h1
    have := h3 k h1
    simp only [zero_add, List.get_eq_getElem] at this
    simp only [List.getElem_map, List.getElem_range]
    exact this

theorem dd_move_x_one_pulse (dd : gmx_domdec) (box : matrix) (recv : Nat → Nat → List rvec)
    (x buf buf_vr2 : Nat → rvec)
    (hndim : dd.ndim = 1) (hnp : (dd.cd 0).np = 1) (hin : (dd.cd 0).bInPlace = true)
    (hcount : ((recv 0 0).length : Int) ≤ (((dd.cd 0).ind 0).nrecv 2 : Nat)) :
    ∃ s, dd_move_x dd box recv x buf buf_vr2 = some s ∧
      s.sent = [dd_move_x_first_message dd box x buf] ∧
      s.nat_tot = dd.nat_home + ((dd.cd 0).ind 0).nrecv 2 ∧
      ∀ a, s.x a =
        if dd.nat_home ≤ a then (recv 0 0).getD (a - dd.nat_home) (x a) else x a := by
  unfold dd_move_x
  rw [hndim]
  have r1 : List.range 1 = [0] := by rfl
  simp only [r1, dd_move_x_dims, hnp, dd_move_x_pulses, dd_move_x_pulse, hin,
    if_true, mpi_recv_at, hcount]
  exact ⟨_, rfl, rfl, rfl, fun a => rfl⟩

theorem dd_move_x_two_ranks (L : real) (dd0 dd1 : gmx_domdec)
    (x0 x1 buf0 buf1 bv0 bv1 : Nat → rvec)
    (hndim0 : dd0.ndim = 1) (hndim1 : dd1.ndim = 1)
    (hdim0 : dd0.dim 0 = XX) (hdim1 : dd1.dim 0 = XX)
    (hnp0 : (dd0.cd 0).np = 1) (hnp1 : (dd1.cd 0).np = 1)
    (hin0 : (dd0.cd 0).bInPlace = true) (hin1 : (dd1.cd 0).bInPlace = true)
    (hci0 : dd0.ci XX = 0) (hci1 : dd1.ci XX = 1)
    (hsend0 : ((dd0.cd 0).ind 0).nsend 2 = (ind_atoms dd0.cgindex ((dd0.cd 0).ind 0) 1).length)
    (hsend1 : ((dd1.cd 0).ind 0).nsend 2 = (ind_atoms dd1.cgindex ((dd1.cd 0).ind 0) 1).length)
    (hrecv0 : ((dd0.cd 0).ind 0).nrecv 2 = ((dd1.cd 0).ind 0).nsend 2)
    (hrecv1 : ((dd1.cd 0).ind 0).nrecv 2 = ((dd0.cd 0).ind 0).nsend 2) :
    (∃ s0, dd_move_x dd0 (cubic_box L)
        (fun _ _ => dd_move_x_first_message dd1 (cubic_box L) x1 buf1) x0 buf0 bv0 = some s0 ∧
      s0.sent = [dd_move_x_first_message dd0 (cubic_box L) x0 buf0] ∧
      (∀ a, a < dd0.nat_home → s0.x a = x0 a) ∧
      ∀ n (h : n < (ind_atoms dd1.cgindex ((dd1.cd 0).ind 0) 1).length),
        s0.x (dd0.nat_home + n)
          = x1 ((ind_atoms dd1.cgindex ((dd1.cd 0).ind 0) 1).get ⟨n, h⟩)) ∧
    (∃ s1, dd_move_x dd1 (cubic_box L)
        (fun _ _ => dd_move_x_first_message dd0 (cubic_box L) x0 buf0) x1 buf1 bv1 = some s1 ∧
      s1.sent = [dd_move_x_first_message dd1 (cubic_box L) x1 buf1] ∧
      (∀ a, a < dd1.nat_home → s1.x a = x1 a) ∧
      ∀ n (h : n < (ind_atoms dd0.cgindex ((dd0.cd 0).ind 0) 1).length),
        s1.x (dd1.nat_home + n)
          = shift_x L (x0 ((ind_atoms dd0.cgindex ((dd0.cd 0).ind 0) 1).get ⟨n, h⟩))) := by
  have m0 := dd_move_x_first_message_eq dd0 (cubic_box L) x0 buf0 hsend0
  have m1 := dd_move_x_first_message_eq dd1 (cubic_box L) x1 buf1 hsend1
  rw [hdim0, hci0] at m0
  rw [hdim1, hci1] at m1
  simp only [decide_True, if_true] at m0
  simp only [one_ne_zero, decide_False, Bool.false_eq_true, if_false] at m1
  constructor
  · obtain ⟨s, e1, e2, _, e4⟩ := dd_move_x_one_pulse dd0 (cubic_box L)
      (fun _ _ => dd_move_x_first_message dd1 (cubic_box L) x1 buf1) x0 buf0 bv0 hndim0 hnp0 hin0
      (by rw [m1, hrecv0, hsend1]; simp)
    refine ⟨s, e1, e2, fun a ha => ?_, fun n h => ?_⟩
    · rw [e4, if_neg (by omega)]
    · rw [e4, if_pos (by omega), Nat.add_sub_cancel_left, m1,
        List.getD_eq_getElem _ _ (by simpa using h)]
      simp
  · obtain ⟨s, e1, e2, _, e4⟩ := dd_move_x_one_pulse dd1 (cubic_box L)
      (fun _ _ => dd_move_x_first_message dd0 (cubic_box L) x0 buf0) x1 buf1 bv1 hndim1 hnp1 hin1
      (by rw [m0, hrecv1, hsend0]; simp)
    refine ⟨s, e1, e2, fun a ha => ?_, fun n h => ?_⟩
    · rw [e4, if_neg (by omega)]
    · rw [e4, if_pos (by omega), Nat.add_sub_cancel_left, m0,
        List.getD_eq_getElem _ _ (by simpa using h)]
      simp only [List.getElem_map, List.get_eq_getElem]
      funext d
      by_cases hd : d = XX
      · subst hd
        simp [shift_x, cubic_box]
      · simp [shift_x, cubic_box, hd, Ne.symm hd]

theorem ex_dd_ind_atoms (cix : Nat) :
    ind_atoms (ex_dd cix).cgindex (((ex_dd cix).cd 0).ind 0) 1 = [0] := by
  rfl

/-- C5 (amended): in the two-rank decomposition `nc = (2,1,1)` of a cubic box
of length `L` (one pulse, in-place receive, counts as left by the setup),
`dd_move_x` succeeds on both ranks; the coordinates that rank 0 (`ci = 0`)
receives behind its home atoms are the coordinates of the selected atoms of
rank 1 unshifted; the shift by `+L` along x is applied by the sender at
`ci = 0`, so rank 1 receives the coordinates of the selected atoms of rank 0
shifted by `+L` along x. Home coordinates are unchanged on both ranks. -/
theorem dd_move_x_shift_is_applied_by_edge_sender (L : real) (dd0 dd1 : gmx_domdec)
    (x0 x1 buf0 buf1 bv0 bv1 : Nat → rvec)
    (hndim0 : dd0.ndim = 1) (hndim1 : dd1.ndim = 1)
    (hdim0 : dd0.dim 0 = XX) (hdim1 : dd1.dim 0 = XX)
    (hnp0 : (dd0.cd 0).np = 1) (hnp1 : (dd1.cd 0).np = 1)
    (hin0 : (dd0.cd 0).bInPlace = true) (hin1 : (dd1.cd 0).bInPlace = true)
    (hci0 : dd0.ci XX = 0) (hci1 : dd1.ci XX = 1)
    (hsend0 : ((dd0.cd 0).ind 0).nsend 2 = (ind_atoms dd0.cgindex ((dd0.cd 0).ind 0) 1).length)
    (hsend1 : ((dd1.cd 0).ind 0).nsend 2 = (ind_atoms dd1.cgindex ((dd1.cd 0).ind 0) 1).length)
    (hrecv0 : ((dd0.cd 0).ind 0).nrecv 2 = ((dd1.cd 0).ind 0).nsend 2)
    (hrecv1 : ((dd1.cd 0).ind 0).nrecv 2 = ((dd0.cd 0).ind 0).nsend 2) :
    (∃ s0, dd_move_x dd0 (cubic_box L)
        (fun _ _ => dd_move_x_first_message dd1 (cubic_box L) x1 buf1) x0 buf0 bv0 = some s0 ∧
      s0.sent = [dd_move_x_first_message dd0 (cubic_box L) x0 buf0] ∧
      (∀ a, a < dd0.nat_home → s0.x a = x0 a) ∧
      ∀ n (h : n < (ind_atoms dd1.cgindex ((dd1.cd 0).ind 0) 1).length),
        s0.x (dd0.nat_home + n)
          = x1 ((ind_atoms dd1.cgindex ((dd1.cd 0).ind 0) 1).get ⟨n, h⟩)) ∧
    (∃ s1, dd_move_x dd1 (cubic_box L)
        (fun _ _ => dd_move_x_first_message dd0 (cubic_box L) x0 buf0) x1 buf1 bv1 = some s1 ∧
      s1.sent = [dd_move_x_first_message dd1 (cubic_box L) x1 buf1] ∧
      (∀ a, a < dd1.nat_home → s1.x a = x1 a) ∧
      ∀ n (h : n < (ind_atoms dd0.cgindex ((dd0.cd 0).ind 0) 1).length),
        s1.x (dd1.nat_home + n)
          = shift_x L (x0 ((ind_atoms dd0.cgindex ((dd0.cd 0).ind 0) 1).get ⟨n, h⟩))) :=
  dd_move_x_two_ranks L dd0 dd1 x0 x1 buf0 buf1 bv0 bv1 hndim0 hndim1 hdim0 hdim1 hnp0 hnp1
    hin0 hin1 hci0 hci1 hsend0 hsend1 hrecv0 hrecv1

/-- Witness of C5 (amended): two ranks with one home atom each in a box of
length 10. -/
theorem dd_move_x_shift_is_applied_by_edge_sender_witness :
    ((ex_dd 0).ndim = 1 ∧ (ex_dd 1).ndim = 1 ∧ (ex_dd 0).dim 0 = XX ∧ (ex_dd 1).dim 0 = XX ∧
      ((ex_dd 0).cd 0).np = 1 ∧ ((ex_dd 1).cd 0).np = 1 ∧
      ((ex_dd 0).cd 0).bInPlace = true ∧ ((ex_dd 1).cd 0).bInPlace = true ∧
      (ex_dd 0).ci XX = 0 ∧ (ex_dd 1).ci XX = 1 ∧
      (((ex_dd 0).cd 0).ind 0).nsend 2
        = (ind_atoms (ex_dd 0).cgindex (((ex_dd 0).cd 0).ind 0) 1).length ∧
      (((ex_dd 1).cd 0).ind 0).nsend 2
        = (ind_atoms (ex_dd 1).cgindex (((ex_dd 1).cd 0).ind 0) 1).length ∧
      (((ex_dd 0).cd 0).ind 0).nrecv 2 = (((ex_dd 1).cd 0).ind 0).nsend 2 ∧
      (((ex_dd 1).cd 0).ind 0).nrecv 2 = (((ex_dd 0).cd 0).ind 0).nsend 2) ∧
    ((∃ s0, dd_move_x (ex_dd 0) (cubic_box 10)
        (fun _ _ => dd_move_x_first_message (ex_dd 1) (cubic_box 10) ex_x1 (fun _ _ => 0))
        ex_x0 (fun _ _ => 0) (fun _ _ => 0) = some s0 ∧
      s0.sent = [dd_move_x_first_message (ex_dd 0) (cubic_box 10) ex_x0 (fun _ _ => 0)] ∧
      (∀ a, a < (ex_dd 0).nat_home → s0.x a = ex_x0 a) ∧
      ∀ n (h : n < (ind_atoms (ex_dd 1).cgindex (((ex_dd 1).cd 0).ind 0) 1).length),
        s0.x ((ex_dd 0).nat_home + n)
          = ex_x1 ((ind_atoms (ex_dd 1).cgindex (((ex_dd 1).cd 0).ind 0) 1).get ⟨n, h⟩)) ∧
    (∃ s1, dd_move_x (ex_dd 1) (cubic_box 10)
        (fun _ _ => dd_move_x_first_message (ex_dd 0) (cubic_box 10) ex_x0 (fun _ _ => 0))
        ex_x1 (fun _ _ => 0) (fun _ _ => 0) = some s1 ∧
      s1.sent = [dd_move_x_first_message (ex_dd 1) (cubic_box 10) ex_x1 (fun _ _ => 0)] ∧
      (∀ a, a < (ex_dd 1).nat_home → s1.x a = ex_x1 a) ∧
      ∀ n (h : n < (ind_atoms (ex_dd 0).cgindex (((ex_dd 0).cd 0).ind 0) 1).length),
        s1.x ((ex_dd 1).nat_home + n)
          = shift_x 10
              (ex_x0 ((ind_atoms (ex_dd 0).cgindex (((ex_dd 0).cd 0).ind 0) 1).get ⟨n, h⟩)))) :=
  ⟨⟨rfl, rfl, rfl, rfl, rfl, rfl, rfl, rfl, rfl, rfl, rfl, rfl, rfl, rfl⟩,
    dd_move_x_shift_is_applied_by_edge_sender 10 (ex_dd 0) (ex_dd 1) ex_x0 ex_x1
      (fun _ _ => 0) (fun _ _ => 0) (fun _ _ => 0) (fun _ _ => 0)
      rfl rfl rfl rfl rfl rfl rfl rfl rfl rfl rfl rfl rfl rfl⟩

/-- C5, counterexample to the claim as stated: in a box of length 10, rank 1
(`ci = 1`) has its home atom at (6,6,6) and sends it to rank 0 (`ci = 0`);
after `dd_move_x` the atom that rank 0 has received is at (6,6,6), not at the
position shifted by `+L` along x. -/
theorem dd_move_x_rank0_receives_unshifted :
    ∃ s0, dd_move_x (ex_dd 0) (cubic_box 10)
        (fun _ _ => dd_move_x_first_message (ex_dd 1) (cubic_box 10) ex_x1 (fun _ _ => 0))
        ex_x0 (fun _ _ => 0) (fun _ _ => 0) = some s0 ∧
      s0.x (ex_dd 0).nat_home = ex_x1 0 ∧
      s0.x (ex_dd 0).nat_home ≠ shift_x 10 (ex_x1 0) := by
  obtain ⟨⟨s0, e, _, _, h⟩, _⟩ := dd_move_x_two_ranks 10 (ex_dd 0) (ex_dd 1) ex_x0 ex_x1
    (fun _ _ => 0) (fun _ _ => 0) (fun _ _ => 0) (fun _ _ => 0)
    rfl rfl rfl rfl rfl rfl rfl rfl rfl rfl rfl rfl rfl rfl
  have h0 := h 0 (by rw [ex_dd_ind_atoms]; simp)
  have e0 : s0.x (ex_dd 0).nat_home = ex_x1 0 := by
    simpa [ex_dd_ind_atoms] using h0
  refine ⟨s0, e, e0, ?_⟩
  rw [e0]
  intro hcon
  have := congrFun hcon XX
  norm_num [shift_x, ex_x1] at this

/-! ## Force communication -/

theorem move_f_gather_spec (f : Nat → rvec) :
    ∀ (l : List Nat) (n : Nat) (buf : Nat → rvec),
      (move_f_gather f l (n, buf)).1 = n + l.length ∧
      (∀ a, ¬ (n ≤ a ∧ a < n + l.length) → (move_f_gather f l (n, buf)).2 a = buf a) ∧
      (∀ k, k < l.length → (move_f_gather f l (n, buf)).2 (n + k) = f (l.getD k 0)) := by
  intro l
  induction l with
  | nil =>
    intro n buf
    refine ⟨rfl, fun _ _ => rfl, fun k h => ?_⟩
    simp at h
  | cons j l ih =>
    intro n buf
    obtain ⟨i1, i2, i3⟩ := ih (n + 1) (Function.update buf n (f j))
    simp only [move_f_gather]
    refine ⟨?_, ?_, ?_⟩
    · rw [i1]
      simp only [List.length_cons]
      omega
    · intro a ha
      simp only [List.length_cons] at ha
      rw [i2 a (by omega), Function.update_noteq (by omega)]
    · intro k hk
      cases k with
      | zero =>
        show (move_f_gather f l (n + 1, Function.update buf n (f j))).2 n = f j
        rw [i2 n (by omega), Function.update_same]
      | succ k =>
        simp only [List.length_cons, Nat.add_lt_add_iff_right] at hk
        have := i3 k hk
        rw [show n + (k + 1) = n + 1 + k by omega, this]
        rfl

/-- The message of the gathered buffer: the forces of the atoms of the list. -/
theorem move_f_gather_message (f : Nat → rvec) (l : List Nat) (buf : Nat → rvec) :
    mpi_send (move_f_gather f l (0, buf)).2 (l.length : Nat) = l.map f := by
  obtain ⟨_, _, h3⟩ := move_f_gather_spec f l 0 buf
  unfold mpi_send
  rw [Int.toNat_natCast]
  apply List.ext_getElem
  · simp
  · intro k h1 h2
    simp only [List.length_map, List.length_range] at h1
    have := h3 k h1
    rw [Nat.zero_add] at this
    simp only [List.getElem_map, List.getElem_range]
    rw [this, List.getD_eq_getElem _ _ h1]

/-- The message of a block of the force array. -/
theorem mpi_send_block (f : Nat → rvec) (off n : Nat) :
    mpi_send (fun j => f (off + j)) (n : Nat) = (List.range' off n).map f := by
  unfold mpi_send
  rw [Int.toNat_natCast, List.range'_eq_map_range, List.map_map]
  rfl

theorem mpi_recv_some (count : Nat) (msg : List rvec) (buf : Nat → rvec)
    (h : msg.length ≤ count) :
    mpi_recv (count : Nat) msg buf = some (fun a => msg.getD a (buf a)) := by
  unfold mpi_recv
  rw [if_pos (by exact_mod_cast h)]

theorem sum_map_update_add (f : Nat → rvec) (j : Nat) (b : rvec) :
    ∀ (A : List Nat), A.Nodup → j ∈ A →
      (A.map (Function.update f j (f j + b))).sum = (A.map f).sum + b := by
  intro A
  induction A with
  | nil =>
    intro _ h
    simp at h
  | cons a A ih =>
    intro hnd hj
    rw [List.nodup_cons] at hnd
    rw [List.map_cons, List.map_cons, List.sum_cons, List.sum_cons]
    by_cases e : a = j
    · subst e
      have hfix : A.map (Function.update f a (f a + b)) = A.map f := by
        apply List.map_congr_left
        intro x hx
        rw [Function.update_noteq]
        intro e2
        rw [e2] at hx
        exact hnd.1 hx
      rw [hfix, Function.update_same]
      abel
    · have hjA : j ∈ A := by
        rcases List.mem_cons.mp hj with h | h
        · exact absurd h.symm e
        · exact h
      rw [ih hnd.2 hjA, Function.update_noteq e]
      abel

/-- The add loop of `dd_move_f` raises the sum of the forces over a set of
atoms that holds all atoms of the loop by the sum of the buffer entries. -/
theorem move_f_add_sum (bShift : Bool) (is : Nat) (buf : Nat → rvec) (A : List Nat)
    (hA : A.Nodup) :
    ∀ (l : List Nat) (s : move_f_acc), (∀ j, j ∈ l → j ∈ A) →
      (A.map (move_f_add bShift is buf l s).f).sum =
        (A.map s.f).sum + ((List.range l.length).map (fun k => buf (s.n + k))).sum := by
  intro l
  induction l with
  | nil =>
    intro s _
    simp [move_f_add]
  | cons j l ih =>
    intro s hl
    simp only [move_f_add]
    rw [ih _ (fun x hx => hl x (List.mem_cons_of_mem j hx))]
    dsimp only
    have e : List.map ((fun k => buf (s.n + k)) ∘ Nat.succ) (List.range l.length) =
        List.map (fun k => buf (s.n + 1 + k)) (List.range l.length) := by
      apply List.map_congr_left
      intro k _
      simp only [Function.comp]
      rw [show s.n + 1 + k = s.n + k.succ by omega]
    rw [sum_map_update_add s.f j (buf s.n) A hA (hl j (List.mem_cons_self j l)),
      List.length_cons, List.range_succ_eq_map, List.map_cons, List.sum_cons, List.map_map,
      add_assoc, e]
    rfl

/-- The add loop of `dd_move_f` adds the buffer entry `k` to the atom `k` of
the list and to no other atom. -/
theorem move_f_add_spec (bShift : Bool) (is : Nat) (buf : Nat → rvec) (a : Nat) :
    ∀ (l : List Nat) (s : move_f_acc),
      (move_f_add bShift is buf l s).f a =
        s.f a + ((List.range l.length).map
          (fun k => if l.getD k 0 = a then buf (s.n + k) else 0)).sum := by
  intro l
  induction l with
  | nil =>
    intro s
    simp [move_f_add]
  | cons j l ih =>
    intro s
    simp only [move_f_add]
    rw [ih]
    dsimp only
    rw [List.length_cons, List.range_succ_eq_map, List.map_cons, List.sum_cons, List.map_map]
    have e : (List.map ((fun k => if (j :: l).getD k 0 = a then buf (s.n + k) else 0) ∘ Nat.succ)
        (List.range l.length)) =
        List.map (fun k => if l.getD k 0 = a then buf (s.n + 1 + k) else 0)
          (List.range l.length) := by
      apply List.map_congr_left
      intro k _
      simp only [Function.comp, List.getD_cons_succ]
      rw [show s.n + 1 + k = s.n + k.succ by omega]
    rw [e]
    by_cases h : j = a
    · subst h
      rw [Function.update_same, List.getD_cons_zero, if_pos rfl, add_assoc]
      rfl
    · rw [Function.update_noteq (fun e2 => h e2.symm), List.getD_cons_zero, if_neg h, zero_add]

theorem range_map_getD_sum (msg : List rvec) (buf : Nat → rvec) :
    ((List.range msg.length).map (fun k => (fun a => msg.getD a (buf a)) (0 + k))).sum =
      msg.sum := by
  have e : (List.range msg.length).map (fun k => (fun a => msg.getD a (buf a)) (0 + k)) = msg := by
    apply List.ext_getElem
    · simp
    · intro i h1 h2
      simp [List.getD_eq_getElem, h2]
  rw [e]

theorem nrecv_pulses_succ (dd : gmx_domdec) (d p : Nat) :
    nrecv_pulses dd d (p + 1) = nrecv_pulses dd d p + ((dd.cd d).ind p).nrecv (2 ^ d + 1) := by
  unfold nrecv_pulses
  rw [Finset.sum_range_succ]

theorem move_x_offset_succ (dd : gmx_domdec) (d p : Nat) :
    move_x_offset dd d (p + 1) = move_x_offset dd d p + ((dd.cd d).ind p).nrecv (2 ^ d + 1) := by
  unfold move_x_offset
  rw [nrecv_pulses_succ]
  omega

theorem move_x_offset_dim (dd : gmx_domdec) (d : Nat) :
    move_x_offset dd (d + 1) 0 = move_x_offset dd d (dd.cd d).np := by
  unfold move_x_offset
  rw [Finset.sum_range_succ]
  simp only [nrecv_pulses, Finset.range_zero, Finset.sum_empty]
  omega

theorem local_atoms_succ (dd : gmx_domdec) (d p : Nat) :
    local_atoms dd d (p + 1) = local_atoms dd d p ++ halo_atoms dd d p := by
  unfold local_atoms halo_pulses
  rw [List.range_succ, List.flatMap_append, List.flatMap_singleton]
  simp only [List.append_assoc]

theorem local_atoms_dim (dd : gmx_domdec) (d : Nat) :
    local_atoms dd (d + 1) 0 = local_atoms dd d (dd.cd d).np := by
  unfold local_atoms
  rw [List.range_succ, List.flatMap_append, List.flatMap_singleton]
  simp [halo_pulses]

theorem calls_before_succ (dd : gmx_domdec) (d p : Nat) :
    calls_before dd d (p + 1) = calls_before dd d p ++ [move_x_call dd d p] := by
  unfold calls_before
  rw [List.range_succ, List.map_append, List.map_cons, List.map_nil, List.append_assoc]

theorem calls_before_dim (dd : gmx_domdec) (d : Nat) :
    calls_before dd (d + 1) 0 = calls_before dd d (dd.cd d).np := by
  unfold calls_before
  rw [List.range_succ, List.flatMap_append, List.flatMap_singleton]
  simp

/-- The message of a rank in a pulse of `dd_move_f`: the forces of the halo
atoms of the pulse. -/
theorem dd_move_f_send_message (dd : gmx_domdec) (d p : Nat) (s : move_f_state)
    (hncell : s.ncell = 2 ^ d) (hnat : s.nat_tot = move_x_offset dd d (p + 1))
    (hH : (halo_atoms dd d p).length = ((dd.cd d).ind p).nrecv (2 ^ d + 1)) :
    (dd_move_f_send dd d p s).2 = (halo_atoms dd d p).map s.f := by
  unfold dd_move_f_send
  dsimp only
  unfold halo_atoms at hH ⊢
  rw [hncell, hnat, move_x_offset_succ, Nat.add_sub_cancel]
  by_cases hb : (dd.cd d).bInPlace = true
  · rw [if_pos hb, if_pos hb]
    exact mpi_send_block s.f _ _
  · rw [if_neg hb] at hH ⊢
    rw [if_neg hb]
    dsimp only
    rw [← hH]
    exact move_f_gather_message s.f _ _

theorem dd_move_f_send_state (dd : gmx_domdec) (d p : Nat) (s : move_f_state) :
    (dd_move_f_send dd d p s).1.f = s.f ∧
    (dd_move_f_send dd d p s).1.fshift = s.fshift ∧
    (dd_move_f_send dd d p s).1.buf = s.buf ∧
    (dd_move_f_send dd d p s).1.ncell = s.ncell ∧
    (dd_move_f_send dd d p s).1.nat_tot = s.nat_tot - ((dd.cd d).ind p).nrecv (s.ncell + 1) ∧
    (dd_move_f_send dd d p s).1.calls = s.calls := by
  unfold dd_move_f_send
  dsimp only
  by_cases hb : (dd.cd d).bInPlace = true
  · rw [if_pos hb]
    exact ⟨rfl, rfl, rfl, rfl, rfl, rfl⟩
  · rw [if_neg hb]
    exact ⟨rfl, rfl, rfl, rfl, rfl, rfl⟩

/-- One pulse of `dd_move_f` on one rank. -/
theorem dd_move_f_rank_pulse (dd : gmx_domdec) (bFshift : Bool) (IVEC2IS : ivec → Nat)
    (d p : Nat) (s : move_f_state) (msg : List rvec)
    (hncell : s.ncell = 2 ^ d) (hnat : s.nat_tot = move_x_offset dd d (p + 1))
    (hlen : msg.length = (ind_atoms dd.cgindex ((dd.cd d).ind p) (2 ^ d)).length)
    (hcnt : (ind_atoms dd.cgindex ((dd.cd d).ind p) (2 ^ d)).length =
      ((dd.cd d).ind p).nsend (2 ^ d + 1))
    (A : List Nat) (hnd : A.Nodup)
    (hin : ∀ a, a ∈ ind_atoms dd.cgindex ((dd.cd d).ind p) (2 ^ d) → a ∈ A) :
    ∃ s2, dd_move_f_recv dd bFshift IVEC2IS d p (dd_move_f_send dd d p s).1 msg = some s2 ∧
      s2.ncell = 2 ^ d ∧ s2.nat_tot = move_x_offset dd d p ∧
      s2.calls = s.calls ++ [move_x_call dd d p] ∧
      (A.map s2.f).sum = (A.map s.f).sum + msg.sum := by
  obtain ⟨e1, e2, e3, e4, e5, e6⟩ := dd_move_f_send_state dd d p s
  unfold dd_move_f_recv
  dsimp only
  rw [e1, e2, e3, e4, e5, e6, hncell, hnat, move_x_offset_succ, Nat.add_sub_cancel,
    mpi_recv_some _ msg s.buf (by rw [hlen, hcnt])]
  dsimp only
  refine ⟨_, rfl, rfl, rfl, rfl, ?_⟩
  dsimp only
  rw [move_f_add_sum _ _ _ A hnd _ _ hin, ← hlen]
  dsimp only
  rw [range_map_getD_sum]

/-- One pulse of `dd_move_f` on all ranks keeps the invariant. -/
theorem dd_move_f_pulse_inv (nnodes : Nat) (dd : Nat → gmx_domdec) (bFshift : Bool)
    (IVEC2IS : ivec → Nat) (f0 : Nat → Nat → rvec) (hs : move_f_setup nnodes dd)
    (d p : Nat) (hd : d < (dd 0).ndim) (hp : p < ((dd 0).cd d).np)
    (st : Nat → move_f_state) (hinv : move_f_inv nnodes dd f0 d (p + 1) st) :
    ∃ st2, dd_move_f_pulse nnodes dd bFshift IVEC2IS d st p = some st2 ∧
      move_f_inv nnodes dd f0 d p st2 := by
  obtain ⟨_, s2, s3, s4⟩ := hs
  obtain ⟨i1, i2⟩ := hinv
  obtain ⟨r, hrdef⟩ : ∃ r : Nat → Option move_f_state, r = fun R =>
      dd_move_f_recv (dd R) bFshift IVEC2IS d p (dd_move_f_send (dd R) d p (st R)).1
        (dd_move_f_send (dd ((dd R).neighbor d 1)) d p (st ((dd R).neighbor d 1))).2 :=
    ⟨_, rfl⟩
  have hr : ∀ R, R < nnodes → ∃ s2, r R = some s2 ∧
      s2.ncell = 2 ^ d ∧ s2.nat_tot = move_x_offset (dd R) d p ∧
      s2.calls = (st R).calls ++ [move_x_call (dd R) d p] ∧
      ((local_atoms (dd R) d p).map s2.f).sum = ((local_atoms (dd R) d p).map (st R).f).sum +
        ((halo_atoms (dd ((dd R).neighbor d 1)) d p).map (st ((dd R).neighbor d 1)).f).sum := by
    intro R hR
    obtain ⟨_, nb, _, _⟩ := s2 R hR d hd
    obtain ⟨c1, c2, _⟩ := s3 R hR d hd p hp
    obtain ⟨_, _, c3⟩ := s3 _ nb d hd p hp
    have hmsg := dd_move_f_send_message (dd ((dd R).neighbor d 1)) d p
      (st ((dd R).neighbor d 1)) (i1 _ nb).1 (i1 _ nb).2.1 c3
    obtain ⟨s2, e1, e2, e3, e4, e5⟩ := dd_move_f_rank_pulse (dd R) bFshift IVEC2IS d p (st R)
      ((halo_atoms (dd ((dd R).neighbor d 1)) d p).map (st ((dd R).neighbor d 1)).f)
      (i1 R hR).1 (i1 R hR).2.1 (by rw [List.length_map, c3, ← c1, c2]) c2
      (local_atoms (dd R) d p) ((s4 R hR).2 d hd p hp).1 ((s4 R hR).2 d hd p hp).2
    refine ⟨s2, ?_, e2, e3, e4, e5⟩
    rw [hrdef]
    dsimp only
    rw [hmsg]
    exact e1
  have hsome : ∀ R, R < nnodes → (r R).isSome = true := by
    intro R hR
    obtain ⟨s2, e, _⟩ := hr R hR
    rw [e]
    rfl
  refine ⟨fun R => (r R).getD (st R), ?_, ?_, ?_⟩
  · unfold dd_move_f_pulse
    subst hrdef
    exact if_pos hsome
  · intro R hR
    obtain ⟨s2, e, e2, e3, e4, _⟩ := hr R hR
    dsimp only
    rw [e, Option.getD_some, e4, List.reverse_append, List.reverse_singleton,
      List.singleton_append]
    refine ⟨e2, e3, ?_⟩
    have := (i1 R hR).2.2
    rw [calls_before_succ, List.append_assoc, List.singleton_append] at this
    exact this
  · rw [← i2]
    have e1 : ∀ R, R ∈ Finset.range nnodes →
        ((local_atoms (dd R) d p).map ((r R).getD (st R)).f).sum =
          ((local_atoms (dd R) d p).map (st R).f).sum +
          ((halo_atoms (dd ((dd R).neighbor d 1)) d p).map
            (st ((dd R).neighbor d 1)).f).sum := by
      intro R hR
      rw [Finset.mem_range] at hR
      obtain ⟨s2, e, _, _, _, e5⟩ := hr R hR
      rw [e, Option.getD_some]
      exact e5
    rw [Finset.sum_congr rfl e1, Finset.sum_add_distrib]
    have e2 : ∑ R ∈ Finset.range nnodes,
        ((halo_atoms (dd ((dd R).neighbor d 1)) d p).map (st ((dd R).neighbor d 1)).f).sum =
        ∑ R ∈ Finset.range nnodes, ((halo_atoms (dd R) d p).map (st R).f).sum := by
      apply Finset.sum_nbij' (fun R => (dd R).neighbor d 1) (fun R => (dd R).neighbor d 0)
      · intro R hR
        rw [Finset.mem_range] at hR ⊢
        exact (s2 R hR d hd).2.1
      · intro R hR
        rw [Finset.mem_range] at hR ⊢
        exact (s2 R hR d hd).1
      · intro R hR
        rw [Finset.mem_range] at hR
        exact (s2 R hR d hd).2.2.1
      · intro R hR
        rw [Finset.mem_range] at hR
        exact (s2 R hR d hd).2.2.2
      · intro R _
        rfl
    rw [e2, ← Finset.sum_add_distrib]
    apply Finset.sum_congr rfl
    intro R _
    rw [local_atoms_succ, List.map_append, List.sum_append]

theorem range_succ_reverse (n : Nat) :
    (List.range (n + 1)).reverse = n :: (List.range n).reverse := by
  rw [List.range_succ, List.reverse_append, List.reverse_singleton, List.singleton_append]

/-- The loop over the pulses of one dimension of `dd_move_f` on all ranks. -/
theorem dd_move_f_pulses_inv (nnodes : Nat) (dd : Nat → gmx_domdec) (bFshift : Bool)
    (IVEC2IS : ivec → Nat) (f0 : Nat → Nat → rvec) (hs : move_f_setup nnodes dd)
    (d : Nat) (hd : d < (dd 0).ndim) :
    ∀ n, n ≤ ((dd 0).cd d).np → ∀ st, move_f_inv nnodes dd f0 d n st →
      ∃ st2, dd_move_f_pulses nnodes dd bFshift IVEC2IS d (List.range n).reverse st = some st2 ∧
        move_f_inv nnodes dd f0 d 0 st2 := by
  intro n
  induction n with
  | zero =>
    intro _ st hinv
    exact ⟨st, rfl, hinv⟩
  | succ n ih =>
    intro hn st hinv
    obtain ⟨st1, e1, h1⟩ := dd_move_f_pulse_inv nnodes dd bFshift IVEC2IS f0 hs d n hd
      (by omega) st hinv
    obtain ⟨st2, e2, h2⟩ := ih (by omega) st1 h1
    refine ⟨st2, ?_, h2⟩
    rw [range_succ_reverse]
    simp only [dd_move_f_pulses, e1]
    exact e2

/-- The loop over the dimensions of `dd_move_f` on all ranks. -/
theorem dd_move_f_dims_inv (nnodes : Nat) (dd : Nat → gmx_domdec) (bFshift : Bool)
    (IVEC2IS : ivec → Nat) (f0 : Nat → Nat → rvec) (hs : move_f_setup nnodes dd) :
    ∀ m, m ≤ (dd 0).ndim → ∀ st, move_f_entry nnodes dd f0 m st →
      ∃ st2, dd_move_f_dims nnodes dd bFshift IVEC2IS (List.range m).reverse st = some st2 ∧
        move_f_entry nnodes dd f0 0 st2 := by
  intro m
  induction m with
  | zero =>
    intro _ st hinv
    exact ⟨st, rfl, hinv⟩
  | succ m ih =>
    intro hm st hinv
    obtain ⟨g1, g2⟩ := hinv
    have hnp : ∀ R, R < nnodes → ((dd R).cd m).np = ((dd 0).cd m).np :=
      fun R hR => (hs.1 R hR).2.1 m (by omega)
    have hstart : move_f_inv nnodes dd f0 m ((dd 0).cd m).np st := by
      refine ⟨?_, ?_⟩
      · intro R hR
        obtain ⟨a1, a2, a3⟩ := g1 R hR
        rw [← hnp R hR, ← move_x_offset_dim, ← calls_before_dim]
        exact ⟨a1 (by omega), a2, a3⟩
      · rw [← g2]
        apply Finset.sum_congr rfl
        intro R hR
        rw [Finset.mem_range] at hR
        rw [← hnp R hR, ← local_atoms_dim]
    obtain ⟨st1, e1, h1, h2⟩ := dd_move_f_pulses_inv nnodes dd bFshift IVEC2IS f0 hs m
      (by omega) ((dd 0).cd m).np (le_refl _) st hstart
    obtain ⟨st2, e2, h3⟩ := ih (by omega)
      (fun R => { st1 R with ncell := (st1 R).ncell / 2 })
      ⟨by
        intro R hR
        obtain ⟨a1, a2, a3⟩ := h1 R hR
        refine ⟨?_, a2, a3⟩
        intro h1m
        dsimp only
        rw [a1]
        obtain ⟨k, hk⟩ : ∃ k, m = k + 1 := ⟨m - 1, by omega⟩
        rw [hk, Nat.add_sub_cancel, Nat.pow_succ, Nat.mul_div_cancel _ (by norm_num)],
       h2⟩
    refine ⟨st2, ?_, h3⟩
    rw [range_succ_reverse]
    simp only [dd_move_f_dims, e1]
    exact e2

theorem dd_move_x_calls_pulses_spec (dd : gmx_domdec) (d : Nat) :
    ∀ (n p : Nat) (c : List (Nat × Nat × Nat × Nat)),
      dd_move_x_calls_pulses dd (2 ^ d) d (List.range' p n) (move_x_offset dd d p, c) =
        (move_x_offset dd d (p + n), c ++ (List.range' p n).map (move_x_call dd d)) := by
  intro n
  induction n with
  | zero =>
    intro p c
    simp [dd_move_x_calls_pulses]
  | succ n ih =>
    intro p c
    rw [List.range'_succ]
    simp only [dd_move_x_calls_pulses]
    rw [← move_x_offset_succ, ih (p + 1), List.map_cons, List.append_assoc,
      List.singleton_append, show p + 1 + n = p + (n + 1) by omega]
    rfl

theorem dd_move_x_calls_dims_spec (dd : gmx_domdec) :
    ∀ (n d : Nat) (c : List (Nat × Nat × Nat × Nat)),
      dd_move_x_calls_dims dd (List.range' d n) (2 ^ d) (move_x_offset dd d 0, c) =
        (move_x_offset dd (d + n) 0,
          c ++ (List.range' d n).flatMap
            (fun e => (List.range (dd.cd e).np).map (move_x_call dd e))) := by
  intro n
  induction n with
  | zero =>
    intro d c
    simp [dd_move_x_calls_dims]
  | succ n ih =>
    intro d c
    rw [List.range'_succ]
    simp only [dd_move_x_calls_dims]
    have hp := dd_move_x_calls_pulses_spec dd d (dd.cd d).np 0 c
    rw [← List.range_eq_range', Nat.zero_add, ← move_x_offset_dim] at hp
    rw [hp, show 2 ^ d + 2 ^ d = 2 ^ (d + 1) by rw [Nat.pow_succ]; omega, ih (d + 1),
      List.flatMap_cons, List.append_assoc, show d + 1 + n = d + (n + 1) by omega]

/-- The calls of `dd_sendrecv_rvec` in `dd_move_x`: the pulses of the
dimensions in order, dimension `d` with `ncell = 2^d`, every pulse with the
halo offset that the pulses before have left. -/
theorem dd_move_x_calls_eq (dd : gmx_domdec) :
    dd_move_x_calls dd = calls_before dd dd.ndim 0 := by
  unfold dd_move_x_calls calls_before
  have h := dd_move_x_calls_dims_spec dd dd.ndim 0 []
  rw [← List.range_eq_range', Nat.zero_add] at h
  have h0 : move_x_offset dd 0 0 = dd.nat_home := by
    simp [move_x_offset, nrecv_pulses]
  rw [h0, Nat.pow_zero] at h
  rw [h]
  simp

theorem dd_move_x_pulse_counters (dd : gmx_domdec) (box : matrix)
    (recv : Nat → Nat → List rvec) (ncell d p : Nat) (s s2 : move_x_state)
    (h : dd_move_x_pulse dd box recv ncell d s p = some s2) :
    s2.nat_tot = s.nat_tot + ((dd.cd d).ind p).nrecv (ncell + 1) ∧
    s2.sent.length = s.sent.length + 1 := by
  unfold dd_move_x_pulse at h
  dsimp only at h
  split at h
  · split at h
    · exact absurd h (by simp)
    · simp only [Option.some.injEq] at h
      rw [← h]
      simp
  · split at h
    · exact absurd h (by simp)
    · simp only [Option.some.injEq] at h
      rw [← h]
      simp

theorem dd_move_x_pulses_counters (dd : gmx_domdec) (box : matrix)
    (recv : Nat → Nat → List rvec) (ncell d : Nat) :
    ∀ (l : List Nat) (s s2 : move_x_state) (c : Nat × List (Nat × Nat × Nat × Nat)),
      dd_move_x_pulses dd box recv ncell d l s = some s2 →
      c.1 = s.nat_tot → c.2.length = s.sent.length →
      (dd_move_x_calls_pulses dd ncell d l c).1 = s2.nat_tot ∧
      (dd_move_x_calls_pulses dd ncell d l c).2.length = s2.sent.length := by
  intro l
  induction l with
  | nil =>
    intro s s2 c h h1 h2
    simp only [dd_move_x_pulses, Option.some.injEq] at h
    rw [← h]
    exact ⟨h1, h2⟩
  | cons p l ih =>
    intro s s2 c h h1 h2
    simp only [dd_move_x_pulses] at h
    split at h
    · exact absurd h (by simp)
    · rename_i s1 e1
      obtain ⟨q1, q2⟩ := dd_move_x_pulse_counters dd box recv ncell d p s s1 e1
      simp only [dd_move_x_calls_pulses]
      exact ih s1 s2 _ h (by dsimp only; rw [h1, q1])
        (by dsimp only; rw [List.length_append, List.length_singleton, h2, q2])

theorem dd_move_x_dims_counters (dd : gmx_domdec) (box : matrix)
    (recv : Nat → Nat → List rvec) :
    ∀ (l : List Nat) (ncell : Nat) (s s2 : move_x_state)
      (c : Nat × List (Nat × Nat × Nat × Nat)),
      dd_move_x_dims dd box recv l ncell s = some s2 →
      c.1 = s.nat_tot → c.2.length = s.sent.length →
      (dd_move_x_calls_dims dd l ncell c).1 = s2.nat_tot ∧
      (dd_move_x_calls_dims dd l ncell c).2.length = s2.sent.length := by
  intro l
  induction l with
  | nil =>
    intro ncell s s2 c h h1 h2
    simp only [dd_move_x_dims, Option.some.injEq] at h
    rw [← h]
    exact ⟨h1, h2⟩
  | cons d l ih =>
    intro ncell s s2 c h h1 h2
    simp only [dd_move_x_dims] at h
    split at h
    · exact absurd h (by simp)
    · rename_i s1 e1
      obtain ⟨q1, q2⟩ := dd_move_x_pulses_counters dd box recv ncell d _ s s1 c e1 h1 h2
      simp only [dd_move_x_calls_dims]
      exact ih (ncell + ncell) s1 s2 _ h q1 q2

/-- The counters of `dd_move_x`: when the function returns, it has sent one
message per call listed in `dd_move_x_calls`, and its variable `nat_tot` is
the halo offset behind the last pulse. -/
theorem dd_move_x_counters (dd : gmx_domdec) (box : matrix) (recv : Nat → Nat → List rvec)
    (x buf buf_vr2 : Nat → rvec) (s : move_x_state)
    (h : dd_move_x dd box recv x buf buf_vr2 = some s) :
    s.nat_tot = move_x_offset dd dd.ndim 0 ∧ s.sent.length = (dd_move_x_calls dd).length := by
  unfold dd_move_x at h
  obtain ⟨q1, q2⟩ := dd_move_x_dims_counters dd box recv (List.range dd.ndim) 1 _ s
    (dd.nat_home, []) h rfl rfl
  have hd := dd_move_x_calls_dims_spec dd dd.ndim 0 []
  have h0 : move_x_offset dd 0 0 = dd.nat_home := by
    simp [move_x_offset, nrecv_pulses]
  rw [← List.range_eq_range', Nat.zero_add, h0, Nat.pow_zero] at hd
  rw [hd] at q1
  exact ⟨q1.symm, q2.symm⟩

/-- C6: on `nnodes` ranks where every message of `dd_move_f` reaches the
neighbour it is sent to, with the index lists and counts that
`setup_dd_communication` leaves (the ranks agree on the dimensions and pulses,
`dd->ncell = 2^ndim`, `dd->nat_tot` counts the home and all received atoms; a
rank sends as many atoms as its backward neighbour expects; the home atoms and
the halo atoms of the pulses are the local atoms, each once; the atoms sent in
a pulse are home atoms or halo atoms of an earlier pulse): `dd_move_f` returns;
its calls of `dd_sendrecv_rvec` are those of `dd_move_x` in the exact reverse
order, with the same `ncell` and the same halo offset `nat_tot`; in every pulse
every received entry is added to the force of exactly one local atom, the
atom at its place in the list of the atoms sent; and the sum over all ranks of
the forces on the home atoms afterwards is the sum over all ranks of the
forces on the home and halo atoms before. -/
theorem dd_move_f_conserves (nnodes : Nat) (dd : Nat → gmx_domdec) (bFshift : Bool)
    (IVEC2IS : ivec → Nat) (f fshift buf buf_vr2 : Nat → Nat → rvec)
    (hagree : ∀ R, R < nnodes →
      (dd R).ndim = (dd 0).ndim ∧
      (∀ d, d < (dd 0).ndim → ((dd R).cd d).np = ((dd 0).cd d).np) ∧
      (dd R).ncell = 2 ^ (dd R).ndim ∧
      (dd R).nat_tot = move_x_offset (dd R) (dd R).ndim 0)
    (hnb : ∀ R, R < nnodes → ∀ d, d < (dd 0).ndim →
      (dd R).neighbor d 0 < nnodes ∧ (dd R).neighbor d 1 < nnodes ∧
      (dd ((dd R).neighbor d 1)).neighbor d 0 = R ∧
      (dd ((dd R).neighbor d 0)).neighbor d 1 = R)
    (hcount : ∀ R, R < nnodes → ∀ d, d < (dd 0).ndim → ∀ p, p < ((dd 0).cd d).np →
      (((dd R).cd d).ind p).nsend (2 ^ d + 1) =
        (((dd ((dd R).neighbor d 1)).cd d).ind p).nrecv (2 ^ d + 1) ∧
      (ind_atoms (dd R).cgindex (((dd R).cd d).ind p) (2 ^ d)).length =
        (((dd R).cd d).ind p).nsend (2 ^ d + 1) ∧
      (halo_atoms (dd R) d p).length = (((dd R).cd d).ind p).nrecv (2 ^ d + 1))
    (hlayer : ∀ R, R < nnodes →
      List.Perm (local_atoms (dd R) (dd R).ndim 0) (List.range (dd R).nat_tot) ∧
      ∀ d, d < (dd 0).ndim → ∀ p, p < ((dd 0).cd d).np →
        (local_atoms (dd R) d p).Nodup ∧
        ∀ a, a ∈ ind_atoms (dd R).cgindex (((dd R).cd d).ind p) (2 ^ d) →
          a ∈ local_atoms (dd R) d p) :
    ∃ st, dd_move_f nnodes dd bFshift IVEC2IS f fshift buf buf_vr2 = some st ∧
      (∀ R, R < nnodes → (st R).calls = (dd_move_x_calls (dd R)).reverse) ∧
      (∀ R d p (s : move_f_state) (msg : List rvec),
        msg.length = (ind_atoms (dd R).cgindex (((dd R).cd d).ind p) s.ncell).length →
        msg.length ≤ (((dd R).cd d).ind p).nsend (s.ncell + 1) →
        ∃ s2, dd_move_f_recv (dd R) bFshift IVEC2IS d p s msg = some s2 ∧
          ∀ a, s2.f a = s.f a + ((List.range msg.length).map (fun k =>
            if (ind_atoms (dd R).cgindex (((dd R).cd d).ind p) s.ncell).getD k 0 = a
            then msg.getD k 0 else 0)).sum) ∧
      ∑ R ∈ Finset.range nnodes, ∑ j ∈ Finset.range (dd R).nat_home, (st R).f j =
        ∑ R ∈ Finset.range nnodes, ∑ j ∈ Finset.range (dd R).nat_tot, f R j := by
  have hs : move_f_setup nnodes dd := ⟨hagree, hnb, hcount, hlayer⟩
  have hstart : move_f_entry nnodes dd f (dd 0).ndim
      (fun R =>
        { f := f R, fshift := fshift R, buf := buf R, buf_vr2 := buf_vr2 R
          ncell := (dd R).ncell / 2, nat_tot := (dd R).nat_tot, calls := [] }) := by
    refine ⟨?_, ?_⟩
    · intro R hR
      obtain ⟨a1, _, a3, a4⟩ := hagree R hR
      dsimp only
      refine ⟨?_, ?_, ?_⟩
      · intro h1
        obtain ⟨k, hk⟩ : ∃ k, (dd 0).ndim = k + 1 := ⟨(dd 0).ndim - 1, by omega⟩
        rw [a3, a1, hk, Nat.add_sub_cancel, Nat.pow_succ, Nat.mul_div_cancel _ (by norm_num)]
      · rw [a4, a1]
      · rw [List.reverse_nil, List.append_nil, dd_move_x_calls_eq, a1]
    · apply Finset.sum_congr rfl
      intro R hR
      rw [Finset.mem_range] at hR
      rw [(hagree R hR).1]
  obtain ⟨st, e, h1, h2⟩ := dd_move_f_dims_inv nnodes dd bFshift IVEC2IS f hs (dd 0).ndim
    (le_refl _) _ hstart
  refine ⟨st, e, ?_, ?_, ?_⟩
  · intro R hR
    have := (h1 R hR).2.2
    have e0 : calls_before (dd R) 0 0 = [] := by
      simp [calls_before]
    rw [e0, List.nil_append] at this
    rw [← this, List.reverse_reverse]
  · intro R d p s msg hlen hle
    unfold dd_move_f_recv
    dsimp only
    rw [mpi_recv_some _ msg s.buf hle]
    dsimp only
    refine ⟨_, rfl, ?_⟩
    intro a
    dsimp only
    rw [move_f_add_spec, ← hlen]
    dsimp only
    congr 2
    apply List.map_congr_left
    intro k hk
    rw [List.mem_range] at hk
    rw [Nat.zero_add, List.getD_eq_getElem _ _ hk, List.getD_eq_getElem _ _ hk]
  · have hl : ∀ (g : Nat → rvec) (n : Nat),
        ((List.range n).map g).sum = ∑ j ∈ Finset.range n, g j := by
      intro g n
      rw [← List.sum_toFinset g (List.nodup_range n)]
      congr 1
      ext x
      simp
    have e0 : ∀ R, local_atoms (dd R) 0 0 = List.range (dd R).nat_home := by
      intro R
      simp [local_atoms, halo_pulses]
    have lhs : ∑ R ∈ Finset.range nnodes, ((local_atoms (dd R) 0 0).map (st R).f).sum =
        ∑ R ∈ Finset.range nnodes, ∑ j ∈ Finset.range (dd R).nat_home, (st R).f j := by
      apply Finset.sum_congr rfl
      intro R _
      rw [e0, hl]
    have rhs : ∑ R ∈ Finset.range nnodes,
        ((local_atoms (dd R) (dd R).ndim 0).map (f R)).sum =
        ∑ R ∈ Finset.range nnodes, ∑ j ∈ Finset.range (dd R).nat_tot, f R j := by
      apply Finset.sum_congr rfl
      intro R hR
      rw [Finset.mem_range] at hR
      rw [((hlayer R hR).1.map (f R)).sum_eq, hl]
    rw [← lhs, ← rhs]
    exact h2

/-- Witness of C6: two ranks with two home atoms each and two pulses in one
dimension. -/
theorem dd_move_f_conserves_witness :
    ((∀ R, R < 2 →
      (ex_move_dd R).ndim = (ex_move_dd 0).ndim ∧
      (∀ d, d < (ex_move_dd 0).ndim → ((ex_move_dd R).cd d).np = ((ex_move_dd 0).cd d).np) ∧
      (ex_move_dd R).ncell = 2 ^ (ex_move_dd R).ndim ∧
      (ex_move_dd R).nat_tot = move_x_offset (ex_move_dd R) (ex_move_dd R).ndim 0) ∧
    (∀ R, R < 2 → ∀ d, d < (ex_move_dd 0).ndim →
      (ex_move_dd R).neighbor d 0 < 2 ∧ (ex_move_dd R).neighbor d 1 < 2 ∧
      (ex_move_dd ((ex_move_dd R).neighbor d 1)).neighbor d 0 = R ∧
      (ex_move_dd ((ex_move_dd R).neighbor d 0)).neighbor d 1 = R) ∧
    (∀ R, R < 2 → ∀ d, d < (ex_move_dd 0).ndim → ∀ p, p < ((ex_move_dd 0).cd d).np →
      (((ex_move_dd R).cd d).ind p).nsend (2 ^ d + 1) =
        (((ex_move_dd ((ex_move_dd R).neighbor d 1)).cd d).ind p).nrecv (2 ^ d + 1) ∧
      (ind_atoms (ex_move_dd R).cgindex (((ex_move_dd R).cd d).ind p) (2 ^ d)).length =
        (((ex_move_dd R).cd d).ind p).nsend (2 ^ d + 1) ∧
      (halo_atoms (ex_move_dd R) d p).length = (((ex_move_dd R).cd d).ind p).nrecv (2 ^ d + 1)) ∧
    (∀ R, R < 2 →
      List.Perm (local_atoms (ex_move_dd R) (ex_move_dd R).ndim 0) (List.range (ex_move_dd R).nat_tot) ∧
      ∀ d, d < (ex_move_dd 0).ndim → ∀ p, p < ((ex_move_dd 0).cd d).np →
        (local_atoms (ex_move_dd R) d p).Nodup ∧
        ∀ a, a ∈ ind_atoms (ex_move_dd R).cgindex (((ex_move_dd R).cd d).ind p) (2 ^ d) →
          a ∈ local_atoms (ex_move_dd R) d p)) ∧
    (∃ st, dd_move_f 2 ex_move_dd false (fun _ => 0) ex_move_f (fun _ _ _ => 0) (fun _ _ _ => 0) (fun _ _ _ => 0) = some st ∧
      (∀ R, R < 2 → (st R).calls = (dd_move_x_calls (ex_move_dd R)).reverse) ∧
      (∀ R d p (s : move_f_state) (msg : List rvec),
        msg.length = (ind_atoms (ex_move_dd R).cgindex (((ex_move_dd R).cd d).ind p) s.ncell).length →
        msg.length ≤ (((ex_move_dd R).cd d).ind p).nsend (s.ncell + 1) →
        ∃ s2, dd_move_f_recv (ex_move_dd R) false (fun _ => 0) d p s msg = some s2 ∧
          ∀ a, s2.f a = s.f a + ((List.range msg.length).map (fun k =>
            if (ind_atoms (ex_move_dd R).cgindex (((ex_move_dd R).cd d).ind p) s.ncell).getD k 0 = a
            then msg.getD k 0 else 0)).sum) ∧
      ∑ R ∈ Finset.range 2, ∑ j ∈ Finset.range (ex_move_dd R).nat_home, (st R).f j =
        ∑ R ∈ Finset.range 2, ∑ j ∈ Finset.range (ex_move_dd R).nat_tot, ex_move_f R j) :=
  ⟨⟨by decide, by decide, by decide, by decide⟩,
    dd_move_f_conserves 2 ex_move_dd false (fun _ => 0) ex_move_f (fun _ _ _ => 0)
      (fun _ _ _ => 0) (fun _ _ _ => 0) (by decide) (by decide) (by decide) (by decide)⟩

/-! ## The displacement check of `dd_redistribute_cg` -/

theorem dd_redistribute_cg_dim_none_iff (nc ci : ivec) (tric_dir : Fin 3 → Bool)
    (tcm box : matrix) (cell_x0 cell_x1 old_cell_x0 old_cell_x1 cellsize_min : rvec)
    (k0 k1 : Nat) (d : Fin 3) (s : cg_move) (hcell : cell_x0 d ≤ cell_x1 d) :
    dd_redistribute_cg_dim nc ci tric_dir tcm box cell_x0 cell_x1 old_cell_x0 old_cell_x1
        cellsize_min k0 k1 d s = none ↔
      (lattice_pos (tric_dir d && decide (nc d > 1)) tcm s.cm_new d ≥ cell_x1 d ∧
        lattice_pos (tric_dir d && decide (nc d > 1)) tcm s.cm_new d
          ≥ old_cell_x1 d + cellsize_min d) ∨
      (lattice_pos (tric_dir d && decide (nc d > 1)) tcm s.cm_new d < cell_x0 d ∧
        lattice_pos (tric_dir d && decide (nc d > 1)) tcm s.cm_new d
          < old_cell_x0 d - cellsize_min d) := by
  unfold dd_redistribute_cg_dim redistribute_limit0 redistribute_limit1
  generalize lattice_pos (tric_dir d && decide (nc d > 1)) tcm s.cm_new d = pos_d
  simp only
  by_cases h1 : pos_d ≥ cell_x1 d
  · rw [if_pos h1]
    by_cases h2 : pos_d ≥ old_cell_x1 d + cellsize_min d
    · rw [if_pos h2]
      exact ⟨fun _ => Or.inl ⟨h1, h2⟩, fun _ => rfl⟩
    · rw [if_neg h2]
      have hne : ¬ ((pos_d ≥ cell_x1 d ∧ pos_d ≥ old_cell_x1 d + cellsize_min d) ∨
          (pos_d < cell_x0 d ∧ pos_d < old_cell_x0 d - cellsize_min d)) := by
        rintro (hc | hc)
        · exact h2 hc.2
        · exact absurd (le_trans hcell h1) (not_le.mpr hc.1)
      by_cases h3 : ci d + 1 = nc d
      · rw [if_pos h3]
        exact ⟨fun h => by simp at h, fun h => absurd h hne⟩
      · rw [if_neg h3]
        exact ⟨fun h => by simp at h, fun h => absurd h hne⟩
  · rw [if_neg h1]
    by_cases h2 : pos_d < cell_x0 d
    · rw [if_pos h2]
      by_cases h4 : pos_d < old_cell_x0 d - cellsize_min d
      · rw [if_pos h4]
        exact ⟨fun _ => Or.inr ⟨h2, h4⟩, fun _ => rfl⟩
      · rw [if_neg h4]
        have hne : ¬ ((pos_d ≥ cell_x1 d ∧ pos_d ≥ old_cell_x1 d + cellsize_min d) ∨
            (pos_d < cell_x0 d ∧ pos_d < old_cell_x0 d - cellsize_min d)) := by
          rintro (hc | hc)
          · exact h1 hc.1
          · exact h4 hc.2
        by_cases h3 : ci d = 0
        · rw [if_pos h3]
          exact ⟨fun h => by simp at h, fun h => absurd h hne⟩
        · rw [if_neg h3]
          exact ⟨fun h => by simp at h, fun h => absurd h hne⟩
    · rw [if_neg h2]
      have hne : ¬ ((pos_d ≥ cell_x1 d ∧ pos_d ≥ old_cell_x1 d + cellsize_min d) ∨
          (pos_d < cell_x0 d ∧ pos_d < old_cell_x0 d - cellsize_min d)) := by
        rintro (hc | hc)
        · exact h1 hc.1
        · exact h2 hc.1
      exact ⟨fun h => by simp at h, fun h => absurd h hne⟩

theorem dd_redistribute_cg_dim_dev (nc ci : ivec) (tric_dir : Fin 3 → Bool)
    (tcm box : matrix) (cell_x0 cell_x1 old_cell_x0 old_cell_x1 cellsize_min : rvec)
    (k0 k1 : Nat) (d : Fin 3) (s s' : cg_move)
    (h : dd_redistribute_cg_dim nc ci tric_dir tcm box cell_x0 cell_x1 old_cell_x0 old_cell_x1
        cellsize_min k0 k1 d s = some s') :
    s'.dev d =
      if lattice_pos (tric_dir d && decide (nc d > 1)) tcm s.cm_new d ≥ cell_x1 d then 1
      else if lattice_pos (tric_dir d && decide (nc d > 1)) tcm s.cm_new d < cell_x0 d then -1
      else 0 := by
  unfold dd_redistribute_cg_dim at h
  generalize lattice_pos (tric_dir d && decide (nc d > 1)) tcm s.cm_new d = pos_d at h ⊢
  simp only at h
  by_cases h1 : pos_d ≥ cell_x1 d
  · rw [if_pos h1] at h ⊢
    by_cases h2 : pos_d ≥ redistribute_limit1 old_cell_x1 cellsize_min d
    · rw [if_pos h2] at h
      simp at h
    · rw [if_neg h2] at h
      by_cases h3 : ci d + 1 = nc d
      · rw [if_pos h3, Option.some.injEq] at h
        subst h
        simp
      · rw [if_neg h3, Option.some.injEq] at h
        subst h
        simp
  · rw [if_neg h1] at h ⊢
    by_cases h2 : pos_d < cell_x0 d
    · rw [if_pos h2] at h ⊢
      by_cases h4 : pos_d < redistribute_limit0 old_cell_x0 cellsize_min d
      · rw [if_pos h4] at h
        simp at h
      · rw [if_neg h4] at h
        by_cases h3 : ci d = 0
        · rw [if_pos h3, Option.some.injEq] at h
          subst h
          simp
        · rw [if_neg h3, Option.some.injEq] at h
          subst h
          simp
    · rw [if_neg h2, Option.some.injEq] at h
      rw [if_neg h2]
      subst h
      simp

/-- C7 (amended): for a home charge group and a decomposed dimension `d` with
`cell_x0[d] <= cell_x1[d]`, `dd_redistribute_cg` raises the fatal "moved too
far" error if and only if the lattice coordinate `pos_d` is at or above the
new upper cell boundary and at or above `old_cell_x1[d] + limitd[d]`, or below
the new lower cell boundary and below `old_cell_x0[d] - limitd[d]`, with
`limitd[d] = cellsize_min[d]`; otherwise it assigns `dev[d]`, which is `+1`
when `pos_d >= cell_x1[d]`, `-1` when `pos_d < cell_x0[d]` and `0` else. -/
theorem dd_redistribute_cg_move_error_iff (nc ci : ivec) (tric_dir : Fin 3 → Bool)
    (tcm box : matrix) (cell_x0 cell_x1 old_cell_x0 old_cell_x1 cellsize_min : rvec)
    (k0 k1 : Nat) (d : Fin 3) (s : cg_move) (hcell : cell_x0 d ≤ cell_x1 d) :
    (dd_redistribute_cg_dim nc ci tric_dir tcm box cell_x0 cell_x1 old_cell_x0 old_cell_x1
        cellsize_min k0 k1 d s = none ↔
      (lattice_pos (tric_dir d && decide (nc d > 1)) tcm s.cm_new d ≥ cell_x1 d ∧
        lattice_pos (tric_dir d && decide (nc d > 1)) tcm s.cm_new d
          ≥ old_cell_x1 d + cellsize_min d) ∨
      (lattice_pos (tric_dir d && decide (nc d > 1)) tcm s.cm_new d < cell_x0 d ∧
        lattice_pos (tric_dir d && decide (nc d > 1)) tcm s.cm_new d
          < old_cell_x0 d - cellsize_min d)) ∧
    ∀ s', dd_redistribute_cg_dim nc ci tric_dir tcm box cell_x0 cell_x1 old_cell_x0 old_cell_x1
        cellsize_min k0 k1 d s = some s' →
      (s'.dev d = 1 ∨ s'.dev d = 0 ∨ s'.dev d = -1) ∧
      (s'.dev d = 1 ↔ lattice_pos (tric_dir d && decide (nc d > 1)) tcm s.cm_new d ≥ cell_x1 d) ∧
      (s'.dev d = -1 ↔
        lattice_pos (tric_dir d && decide (nc d > 1)) tcm s.cm_new d < cell_x0 d) := by
  refine ⟨dd_redistribute_cg_dim_none_iff nc ci tric_dir tcm box cell_x0 cell_x1 old_cell_x0
    old_cell_x1 cellsize_min k0 k1 d s hcell, fun s' hs => ?_⟩
  have hd := dd_redistribute_cg_dim_dev nc ci tric_dir tcm box cell_x0 cell_x1 old_cell_x0
    old_cell_x1 cellsize_min k0 k1 d s s' hs
  generalize lattice_pos (tric_dir d && decide (nc d > 1)) tcm s.cm_new d = pos_d at hd ⊢
  by_cases h1 : pos_d ≥ cell_x1 d
  · rw [if_pos h1] at hd
    rw [hd]
    refine ⟨Or.inl rfl, ⟨fun _ => h1, fun _ => rfl⟩, ⟨fun h => by norm_num at h, fun h => ?_⟩⟩
    exact absurd (le_trans hcell h1) (not_le.mpr h)
  · by_cases h2 : pos_d < cell_x0 d
    · rw [if_neg h1, if_pos h2] at hd
      rw [hd]
      exact ⟨Or.inr (Or.inr rfl), ⟨fun h => by norm_num at h, fun h => absurd h h1⟩,
        ⟨fun _ => h2, fun _ => rfl⟩⟩
    · rw [if_neg h1, if_neg h2] at hd
      rw [hd]
      exact ⟨Or.inr (Or.inl rfl), ⟨fun h => by norm_num at h, fun h => absurd h h1⟩,
        ⟨fun h => by norm_num at h, fun h => absurd h h2⟩⟩

/-- Witness of C7 (amended): the cell `[0,1)` along x, unchanged since the last
step, with `cellsize_min = 1` and a centre at x = 2. -/
theorem dd_redistribute_cg_move_error_iff_witness :
    (along_x 0 XX ≤ along_x 1 XX) ∧
    ((dd_redistribute_cg_dim ex_nc (fun _ => 0) (fun _ => false) (fun _ _ => 0) ex_box
        (along_x 0) (along_x 1) (along_x 0) (along_x 1) (along_x 1) 0 1 XX ex_cg_move = none ↔
      (lattice_pos ((fun _ => false) XX && decide (ex_nc XX > 1)) (fun _ _ => 0)
          ex_cg_move.cm_new XX ≥ along_x 1 XX ∧
        lattice_pos ((fun _ => false) XX && decide (ex_nc XX > 1)) (fun _ _ => 0)
          ex_cg_move.cm_new XX ≥ along_x 1 XX + along_x 1 XX) ∨
      (lattice_pos ((fun _ => false) XX && decide (ex_nc XX > 1)) (fun _ _ => 0)
          ex_cg_move.cm_new XX < along_x 0 XX ∧
        lattice_pos ((fun _ => false) XX && decide (ex_nc XX > 1)) (fun _ _ => 0)
          ex_cg_move.cm_new XX < along_x 0 XX - along_x 1 XX)) ∧
    ∀ s', dd_redistribute_cg_dim ex_nc (fun _ => 0) (fun _ => false) (fun _ _ => 0) ex_box
        (along_x 0) (along_x 1) (along_x 0) (along_x 1) (along_x 1) 0 1 XX ex_cg_move
          = some s' →
      (s'.dev XX = 1 ∨ s'.dev XX = 0 ∨ s'.dev XX = -1) ∧
      (s'.dev XX = 1 ↔ lattice_pos ((fun _ => false) XX && decide (ex_nc XX > 1)) (fun _ _ => 0)
          ex_cg_move.cm_new XX ≥ along_x 1 XX) ∧
      (s'.dev XX = -1 ↔
        lattice_pos ((fun _ => false) XX && decide (ex_nc XX > 1)) (fun _ _ => 0)
          ex_cg_move.cm_new XX < along_x 0 XX)) :=
  ⟨by norm_num [along_x],
    dd_redistribute_cg_move_error_iff ex_nc (fun _ => 0) (fun _ => false) (fun _ _ => 0) ex_box
      (along_x 0) (along_x 1) (along_x 0) (along_x 1) (along_x 1) 0 1 XX ex_cg_move
      (by norm_num [along_x])⟩

/-- C7, counterexample to the claim as stated: the cell is `[0,1)` along x before
and after the step and `limitd = cellsize_min = 1`; a charge group with new
lattice coordinate `pos_d = 2` lies inside the closed interval
`[old_cell_x0 - limitd, old_cell_x1 + limitd] = [-1, 2]`, yet the fatal error
is raised. -/
theorem dd_redistribute_cg_error_at_upper_limit :
    lattice_pos ((fun _ => false) XX && decide (ex_nc XX > 1)) (fun _ _ => 0)
      ex_cg_move.cm_new XX = 2 ∧
    along_x 0 XX - along_x 1 XX ≤ (2 : real) ∧ (2 : real) ≤ along_x 1 XX + along_x 1 XX ∧
    dd_redistribute_cg_dim ex_nc (fun _ => 0) (fun _ => false) (fun _ _ => 0) ex_box
      (along_x 0) (along_x 1) (along_x 0) (along_x 1) (along_x 1) 0 1 XX ex_cg_move = none := by
  refine ⟨by simp [lattice_pos, ex_cg_move], by norm_num [along_x], by norm_num [along_x], ?_⟩
  norm_num [dd_redistribute_cg_dim, lattice_pos, ex_cg_move, along_x, redistribute_limit1]

/-! ## Compaction -/

theorem kept_cgs_succ (move : Nat → Int) (n : Nat) :
    kept_cgs move (n + 1) = kept_cgs move n ++ (if move n = -1 then [n] else []) := by
  unfold kept_cgs
  rw [List.range_succ, List.filter_append]
  by_cases h : move n = -1 <;> simp [h]

theorem kept_atoms_succ (move : Nat → Int) (cgindex : Nat → Nat) (n : Nat) :
    kept_atoms move cgindex (n + 1) = kept_atoms move cgindex n ++
      (if move n = -1 then List.range' (cgindex n) (cgindex (n + 1) - cgindex n) else []) := by
  unfold kept_atoms
  rw [kept_cgs_succ, List.flatMap_append]
  by_cases h : move n = -1 <;> simp [h]

theorem cgindex_mono_le (cgindex : Nat → Nat) (ncg : Nat)
    (hmono : ∀ c, c < ncg → cgindex c ≤ cgindex (c + 1)) :
    ∀ c d, c ≤ d → d ≤ ncg → cgindex c ≤ cgindex d := by
  intro c d hcd
  induction d with
  | zero =>
    intro _
    have : c = 0 := by omega
    subst this
    exact le_refl _
  | succ d ih =>
    intro hd
    rcases Nat.eq_or_lt_of_le hcd with e | l
    · subst e
      exact le_refl _
    · exact le_trans (ih (by omega) (by omega)) (hmono d (by omega))

theorem kept_atoms_length_le (move : Nat → Int) (cgindex : Nat → Nat) (ncg : Nat)
    (hmono : ∀ c, c < ncg → cgindex c ≤ cgindex (c + 1)) :
    ∀ n, n ≤ ncg → (kept_atoms move cgindex n).length + cgindex 0 ≤ cgindex n := by
  intro n
  induction n with
  | zero => intro _; simp [kept_atoms, kept_cgs]
  | succ n ih =>
    intro hn
    have h1 := ih (by omega)
    have h2 := hmono n (by omega)
    rw [kept_atoms_succ, List.length_append]
    by_cases h : move n = -1
    · simp only [h, if_true, List.length_range']
      omega
    · simp only [h, if_false, List.length_nil]
      omega

theorem kept_cgs_length_le (move : Nat → Int) (n : Nat) : (kept_cgs move n).length ≤ n := by
  unfold kept_cgs
  exact le_trans (List.length_filter_le _ _) (by simp)

/-- Reading the positions `hp ≤ j < hp + n` of `f` gives the list `l` read
through `g`, when `f (hp + k) = g (l[k])`. -/
theorem map_range_append {α : Type} (f f2 : Nat → α) (hp n : Nat)
    (hlow : ∀ j, j < hp → f2 j = f j) :
    (List.range (hp + n)).map f2 = (List.range hp).map f ++ (List.range' hp n).map f2 := by
  have e : List.range (hp + n) = List.range hp ++ List.range' hp n := by
    rw [List.range_eq_range', List.range_eq_range', Nat.add_comm, ← List.range'_append_1]
    simp
  rw [e, List.map_append]
  congr 1
  apply List.map_congr_left
  intro j hj
  exact hlow j (List.mem_range.mp hj)

theorem map_range'_shift {α : Type} (f g : Nat → α) (a b n : Nat)
    (h : ∀ k, k < n → f (a + k) = g (b + k)) :
    (List.range' a n).map f = (List.range' b n).map g := by
  induction n generalizing a b with
  | zero => rfl
  | succ n ih =>
    rw [List.range'_succ, List.range'_succ, List.map_cons, List.map_cons]
    have h0 := h 0 (by omega)
    simp only [Nat.add_zero] at h0
    rw [h0, ih (a + 1) (b + 1)]
    intro k hk
    have := h (k + 1) (by omega)
    rw [show a + 1 + k = a + (k + 1) by omega, show b + 1 + k = b + (k + 1) by omega]
    exact this

/-! ### `compact_and_copy_vec_at` -/

theorem compact_home_at_succ (n i0 : Nat) (s : compact_vec) :
    compact_home_at i0 (i0 + (n + 1)) s =
      compact_home_at (i0 + 1) (i0 + 1 + n)
        ⟨Function.update s.src s.home_pos (s.src i0), s.cgcm_state, s.pos_vec,
          s.home_pos + 1, s.i0⟩ := by
  unfold compact_home_at
  rw [Nat.add_sub_cancel_left, Nat.add_sub_cancel_left, List.range'_succ, List.foldl_cons]

theorem compact_home_at_spec (n : Nat) : ∀ (i0 : Nat) (s : compact_vec), s.home_pos ≤ i0 →
    (compact_home_at i0 (i0 + n) s).home_pos = s.home_pos + n ∧
    (compact_home_at i0 (i0 + n) s).i0 = s.i0 ∧
    (∀ k, k < n → (compact_home_at i0 (i0 + n) s).src (s.home_pos + k) = s.src (i0 + k)) ∧
    (∀ j, (j < s.home_pos ∨ s.home_pos + n ≤ j) →
      (compact_home_at i0 (i0 + n) s).src j = s.src j) := by
  induction n with
  | zero =>
    intro i0 s _
    simp [compact_home_at]
  | succ n ih =>
    intro i0 s h
    rw [compact_home_at_succ]
    obtain ⟨h1, h2, h3, h4⟩ := ih (i0 + 1)
      ⟨Function.update s.src s.home_pos (s.src i0), s.cgcm_state, s.pos_vec,
        s.home_pos + 1, s.i0⟩ (by simp; omega)
    simp only at h1 h2 h3 h4
    refine ⟨by rw [h1]; omega, h2, ?_, ?_⟩
    · intro k hk
      rcases Nat.eq_zero_or_pos k with e | pos
      · subst e
        have e4 := h4 s.home_pos (Or.inl (by omega))
        rw [Function.update_same] at e4
        simpa using e4
      · have := h3 (k - 1) (by omega)
        rw [show s.home_pos + 1 + (k - 1) = s.home_pos + k by omega,
          show i0 + 1 + (k - 1) = i0 + k by omega] at this
        rw [this, Function.update_noteq (by omega)]
    · intro j hj
      rw [h4 j (by omega), Function.update_noteq (by omega)]

theorem copy_comm_at_frame (m : Int) (n : Nat) : ∀ (i0 : Nat) (s : compact_vec),
    (copy_comm_at m i0 (i0 + n) s).src = s.src ∧
    (copy_comm_at m i0 (i0 + n) s).home_pos = s.home_pos := by
  induction n with
  | zero =>
    intro i0 s
    simp [copy_comm_at]
  | succ n ih =>
    intro i0 s
    have e : copy_comm_at m i0 (i0 + (n + 1)) s =
        copy_comm_at m (i0 + 1) (i0 + 1 + n)
          ⟨s.src,
            Function.update s.cgcm_state m
              (Function.update (s.cgcm_state m) (s.pos_vec m) (s.src i0)),
            Function.update s.pos_vec m (s.pos_vec m + 1), s.home_pos, s.i0⟩ := by
      unfold copy_comm_at
      rw [Nat.add_sub_cancel_left, Nat.add_sub_cancel_left, List.range'_succ, List.foldl_cons]
    rw [e]
    obtain ⟨h1, h2⟩ := ih (i0 + 1)
      ⟨s.src,
        Function.update s.cgcm_state m
          (Function.update (s.cgcm_state m) (s.pos_vec m) (s.src i0)),
        Function.update s.pos_vec m (s.pos_vec m + 1), s.home_pos, s.i0⟩
    exact ⟨h1, h2⟩

/-- Invariant of the loop of `compact_and_copy_vec_at` with `bCompact`. -/
theorem compact_and_copy_vec_at_inv (ncg : Nat) (move : Nat → Int) (cgindex : Nat → Nat)
    (nvec vec : Nat) (src : Nat → rvec) (cgcm_state : Int → Nat → rvec)
    (h0 : cgindex 0 = 0) (hmono : ∀ c, c < ncg → cgindex c ≤ cgindex (c + 1)) :
    ∀ n, n ≤ ncg →
      ((List.range n).foldl (compact_and_copy_vec_at_icg move cgindex nvec vec true)
        ⟨src, cgcm_state, fun _ => 0, 0, 0⟩).i0 = cgindex n ∧
      ((List.range n).foldl (compact_and_copy_vec_at_icg move cgindex nvec vec true)
        ⟨src, cgcm_state, fun _ => 0, 0, 0⟩).home_pos = (kept_atoms move cgindex n).length ∧
      (∀ j, cgindex n ≤ j →
        ((List.range n).foldl (compact_and_copy_vec_at_icg move cgindex nvec vec true)
          ⟨src, cgcm_state, fun _ => 0, 0, 0⟩).src j = src j) ∧
      (List.range (kept_atoms move cgindex n).length).map
        ((List.range n).foldl (compact_and_copy_vec_at_icg move cgindex nvec vec true)
          ⟨src, cgcm_state, fun _ => 0, 0, 0⟩).src = (kept_atoms move cgindex n).map src := by
  intro n
  induction n with
  | zero =>
    intro _
    simp [h0, kept_atoms, kept_cgs]
  | succ n ih =>
    intro hn
    obtain ⟨hi0, hhp, hhigh, hlist⟩ := ih (by omega)
    have hlen := kept_atoms_length_le move cgindex ncg hmono n (by omega)
    have hm := hmono n (by omega)
    rw [List.range_succ, List.foldl_append, List.foldl_cons, List.foldl_nil]
    generalize (List.range n).foldl (compact_and_copy_vec_at_icg move cgindex nvec vec true)
      ⟨src, cgcm_state, fun _ => 0, 0, 0⟩ = s at hi0 hhp hhigh hlist
    rw [kept_atoms_succ]
    have hsz : cgindex (n + 1) = s.i0 + (cgindex (n + 1) - cgindex n) := by omega
    by_cases h : move n = -1
    · have e : compact_and_copy_vec_at_icg move cgindex nvec vec true s n =
          ⟨(compact_home_at s.i0 (cgindex (n + 1)) s).src,
            (compact_home_at s.i0 (cgindex (n + 1)) s).cgcm_state,
            (compact_home_at s.i0 (cgindex (n + 1)) s).pos_vec,
            (compact_home_at s.i0 (cgindex (n + 1)) s).home_pos, cgindex (n + 1)⟩ := by
        simp [compact_and_copy_vec_at_icg, h]
      rw [e]
      simp only [h, if_true, List.length_append, List.length_range', List.map_append]
      obtain ⟨c1, _, c3, c4⟩ := compact_home_at_spec (cgindex (n + 1) - cgindex n) s.i0 s
        (by omega)
      rw [← hsz] at c1 c3 c4
      refine ⟨trivial, by rw [c1, hhp], ?_, ?_⟩
      · intro j hj
        rw [c4 j (Or.inr (by omega))]
        exact hhigh j (by omega)
      · rw [map_range_append s.src _ _ _ (fun j hj => c4 j (Or.inl (by omega))), hlist]
        congr 1
        apply map_range'_shift
        intro k hk
        rw [← hhp, c3 k hk, hi0]
        exact hhigh _ (by omega)
    · have e : (compact_and_copy_vec_at_icg move cgindex nvec vec true s n).src = s.src ∧
          (compact_and_copy_vec_at_icg move cgindex nvec vec true s n).home_pos = s.home_pos ∧
          (compact_and_copy_vec_at_icg move cgindex nvec vec true s n).i0 = cgindex (n + 1) := by
        have f := copy_comm_at_frame (move n) (cgindex (n + 1) - cgindex n) s.i0
          ⟨s.src, s.cgcm_state,
            Function.update s.pos_vec (move n)
              (s.pos_vec (move n) + (1 + vec * (cgindex (n + 1) - s.i0))), s.home_pos, s.i0⟩
        rw [← hsz] at f
        simp only [compact_and_copy_vec_at_icg, h, if_false, if_true]
        exact ⟨f.1, f.2, trivial⟩
      obtain ⟨e1, e2, e3⟩ := e
      simp only [h, if_false, List.append_nil]
      rw [e1, e2, e3]
      exact ⟨rfl, hhp, fun j hj => hhigh j (by omega), hlist⟩

/-! ### `compact_and_copy_vec_cg` -/

/-- Invariant of the loop of `compact_and_copy_vec_cg` with `bCompact`. -/
theorem compact_and_copy_vec_cg_inv (move : Nat → Int) (cgindex : Nat → Nat)
    (nvec : Nat) (src : Nat → rvec) (cgcm_state : Int → Nat → rvec) :
    ∀ n,
      ((List.range n).foldl (compact_and_copy_vec_cg_icg move cgindex nvec true)
        ⟨src, cgcm_state, fun _ => 0, 0, 0⟩).home_pos = (kept_cgs move n).length ∧
      (∀ j, n ≤ j →
        ((List.range n).foldl (compact_and_copy_vec_cg_icg move cgindex nvec true)
          ⟨src, cgcm_state, fun _ => 0, 0, 0⟩).src j = src j) ∧
      (List.range (kept_cgs move n).length).map
        ((List.range n).foldl (compact_and_copy_vec_cg_icg move cgindex nvec true)
          ⟨src, cgcm_state, fun _ => 0, 0, 0⟩).src = (kept_cgs move n).map src := by
  intro n
  induction n with
  | zero => simp [kept_cgs]
  | succ n ih =>
    obtain ⟨hhp, hhigh, hlist⟩ := ih
    have hlen := kept_cgs_length_le move n
    rw [List.range_succ, List.foldl_append, List.foldl_cons, List.foldl_nil]
    generalize (List.range n).foldl (compact_and_copy_vec_cg_icg move cgindex nvec true)
      ⟨src, cgcm_state, fun _ => 0, 0, 0⟩ = s at hhp hhigh hlist
    rw [kept_cgs_succ]
    by_cases h : move n = -1
    · have e : (compact_and_copy_vec_cg_icg move cgindex nvec true s n).src =
            Function.update s.src s.home_pos (s.src n) ∧
          (compact_and_copy_vec_cg_icg move cgindex nvec true s n).home_pos = s.home_pos + 1 := by
        simp [compact_and_copy_vec_cg_icg, h]
      obtain ⟨e1, e2⟩ := e
      simp only [h, if_true, List.length_append, List.length_singleton, List.map_append,
        List.map_cons, List.map_nil]
      rw [e1, e2]
      refine ⟨by rw [hhp], ?_, ?_⟩
      · intro j hj
        rw [Function.update_noteq (by omega)]
        exact hhigh j (by omega)
      · rw [map_range_append s.src _ _ _
          (fun j hj => Function.update_noteq (by omega) _ _), hlist]
        congr 1
        rw [List.range'_succ, List.range'_zero, List.map_cons, List.map_nil, ← hhp,
          Function.update_same, hhigh n (le_refl n)]
    · have e : (compact_and_copy_vec_cg_icg move cgindex nvec true s n).src = s.src ∧
          (compact_and_copy_vec_cg_icg move cgindex nvec true s n).home_pos = s.home_pos := by
        simp [compact_and_copy_vec_cg_icg, h]
      obtain ⟨e1, e2⟩ := e
      simp only [h, if_false, List.append_nil]
      rw [e1, e2]
      exact ⟨hhp, fun j hj => hhigh j (by omega), hlist⟩

/-! ### `compact_ind` -/

theorem kept_atoms_length_eq_sum (move : Nat → Int) (cgindex : Nat → Nat) (n : Nat) :
    (kept_atoms move cgindex n).length =
      ((kept_cgs move n).map (fun c => cgindex (c + 1) - cgindex c)).sum := by
  induction n with
  | zero => simp [kept_atoms, kept_cgs]
  | succ n ih =>
    rw [kept_atoms_succ, kept_cgs_succ, List.length_append, List.map_append, List.sum_append, ih]
    by_cases h : move n = -1 <;> simp [h]

theorem compact_ind_home_at_spec (n : Nat) : ∀ (a0 : Nat) (s : compact_ind_state), s.nat ≤ a0 →
    (∀ k k2, k < n → k2 < n → s.gatindex (a0 + k) = s.gatindex (a0 + k2) → k = k2) →
    (compact_ind_home_at a0 (a0 + n) s).nat = s.nat + n ∧
    (compact_ind_home_at a0 (a0 + n) s).home_pos = s.home_pos ∧
    (compact_ind_home_at a0 (a0 + n) s).index_gl = s.index_gl ∧
    (compact_ind_home_at a0 (a0 + n) s).cgindex = s.cgindex ∧
    (compact_ind_home_at a0 (a0 + n) s).cginfo = s.cginfo ∧
    (∀ k, k < n → (compact_ind_home_at a0 (a0 + n) s).gatindex (s.nat + k) =
      s.gatindex (a0 + k)) ∧
    (∀ j, (j < s.nat ∨ s.nat + n ≤ j) →
      (compact_ind_home_at a0 (a0 + n) s).gatindex j = s.gatindex j) ∧
    (∀ g, ((compact_ind_home_at a0 (a0 + n) s).ga2la g).cell = (s.ga2la g).cell) ∧
    (∀ g, (∀ k, k < n → s.gatindex (a0 + k) ≠ g) →
      ((compact_ind_home_at a0 (a0 + n) s).ga2la g).a = (s.ga2la g).a) ∧
    (∀ k, k < n → ((compact_ind_home_at a0 (a0 + n) s).ga2la (s.gatindex (a0 + k))).a =
      ((s.nat + k : Nat) : Int)) := by
  induction n with
  | zero =>
    intro a0 s _ _
    simp [compact_ind_home_at]
  | succ n ih =>
    intro a0 s h hinj
    have e : compact_ind_home_at a0 (a0 + (n + 1)) s =
        compact_ind_home_at (a0 + 1) (a0 + 1 + n)
          ⟨s.index_gl, s.cgindex, Function.update s.gatindex s.nat (s.gatindex a0),
            Function.update s.ga2la (s.gatindex a0)
              ⟨(s.ga2la (s.gatindex a0)).cell, (s.nat : Int)⟩,
            s.cginfo, s.home_pos, s.nat + 1⟩ := by
      unfold compact_ind_home_at
      rw [Nat.add_sub_cancel_left, Nat.add_sub_cancel_left, List.range'_succ, List.foldl_cons]
    rw [e]
    have hg : ∀ k, (Function.update s.gatindex s.nat (s.gatindex a0)) (a0 + 1 + k) =
        s.gatindex (a0 + (k + 1)) := by
      intro k
      rw [Function.update_noteq (by omega), show a0 + 1 + k = a0 + (k + 1) by omega]
    obtain ⟨h1, h2, h3, h4, h5, h6, h7, h8, h9, h10⟩ := ih (a0 + 1)
      ⟨s.index_gl, s.cgindex, Function.update s.gatindex s.nat (s.gatindex a0),
        Function.update s.ga2la (s.gatindex a0)
          ⟨(s.ga2la (s.gatindex a0)).cell, (s.nat : Int)⟩,
        s.cginfo, s.home_pos, s.nat + 1⟩ (by simp; omega)
      (by
        intro k k2 hk hk2 heq
        simp only at heq
        rw [hg, hg] at heq
        have := hinj (k + 1) (k2 + 1) (by omega) (by omega) heq
        omega)
    simp only at h1 h2 h3 h4 h5 h6 h7 h8 h9 h10
    refine ⟨by rw [h1]; omega, h2, h3, h4, h5, ?_, ?_, ?_, ?_, ?_⟩
    · intro k hk
      rcases Nat.eq_zero_or_pos k with e0 | pos
      · subst e0
        have e7 := h7 s.nat (Or.inl (by omega))
        rw [Function.update_same] at e7
        simpa using e7
      · have := h6 (k - 1) (by omega)
        rw [hg, show s.nat + 1 + (k - 1) = s.nat + k by omega,
          show a0 + (k - 1 + 1) = a0 + k by omega] at this
        exact this
    · intro j hj
      rw [h7 j (by omega), Function.update_noteq (by omega)]
    · intro g
      rw [h8 g]
      by_cases hgg : g = s.gatindex a0
      · subst hgg
        rw [Function.update_same]
      · rw [Function.update_noteq hgg]
    · intro g hne
      rw [h9 g (by
        intro k hk
        rw [hg]
        exact hne (k + 1) (by omega))]
      have := hne 0 (by omega)
      rw [Nat.add_zero] at this
      rw [Function.update_noteq (Ne.symm this)]
    · intro k hk
      rcases Nat.eq_zero_or_pos k with e0 | pos
      · subst e0
        have e9 := h9 (s.gatindex a0) (by
          intro k hk heq
          rw [hg] at heq
          have := hinj (k + 1) 0 (by omega) (by omega) heq
          omega)
        rw [Function.update_same] at e9
        simpa using e9
      · have := h10 (k - 1) (by omega)
        rw [hg, show a0 + (k - 1 + 1) = a0 + k by omega] at this
        rw [this]
        congr 1
        omega

theorem compact_ind_clear_at_spec (n : Nat) : ∀ (a0 : Nat) (s : compact_ind_state),
    (compact_ind_clear_at a0 (a0 + n) s).nat = s.nat ∧
    (compact_ind_clear_at a0 (a0 + n) s).home_pos = s.home_pos ∧
    (compact_ind_clear_at a0 (a0 + n) s).index_gl = s.index_gl ∧
    (compact_ind_clear_at a0 (a0 + n) s).cgindex = s.cgindex ∧
    (compact_ind_clear_at a0 (a0 + n) s).cginfo = s.cginfo ∧
    (compact_ind_clear_at a0 (a0 + n) s).gatindex = s.gatindex ∧
    (∀ g, ((compact_ind_clear_at a0 (a0 + n) s).ga2la g).a = (s.ga2la g).a) ∧
    (∀ k, k < n → ((compact_ind_clear_at a0 (a0 + n) s).ga2la (s.gatindex (a0 + k))).cell = -1) ∧
    (∀ g, (s.ga2la g).cell = -1 → ((compact_ind_clear_at a0 (a0 + n) s).ga2la g).cell = -1) ∧
    (∀ g, (∀ k, k < n → s.gatindex (a0 + k) ≠ g) →
      ((compact_ind_clear_at a0 (a0 + n) s).ga2la g).cell = (s.ga2la g).cell) := by
  induction n with
  | zero =>
    intro a0 s
    simp [compact_ind_clear_at]
  | succ n ih =>
    intro a0 s
    have e : compact_ind_clear_at a0 (a0 + (n + 1)) s =
        compact_ind_clear_at (a0 + 1) (a0 + 1 + n)
          ⟨s.index_gl, s.cgindex, s.gatindex,
            Function.update s.ga2la (s.gatindex a0) ⟨-1, (s.ga2la (s.gatindex a0)).a⟩,
            s.cginfo, s.home_pos, s.nat⟩ := by
      unfold compact_ind_clear_at
      rw [Nat.add_sub_cancel_left, Nat.add_sub_cancel_left, List.range'_succ, List.foldl_cons]
    rw [e]
    obtain ⟨h1, h2, h3, h4, h5, h6, h7, h8, h9, h10⟩ := ih (a0 + 1)
      ⟨s.index_gl, s.cgindex, s.gatindex,
        Function.update s.ga2la (s.gatindex a0) ⟨-1, (s.ga2la (s.gatindex a0)).a⟩,
        s.cginfo, s.home_pos, s.nat⟩
    simp only at h1 h2 h3 h4 h5 h6 h7 h8 h9 h10
    refine ⟨h1, h2, h3, h4, h5, h6, ?_, ?_, ?_, ?_⟩
    · intro g
      rw [h7 g]
      by_cases hgg : g = s.gatindex a0
      · subst hgg
        rw [Function.update_same]
      · rw [Function.update_noteq hgg]
    · intro k hk
      rcases Nat.eq_zero_or_pos k with e0 | pos
      · subst e0
        apply h9
        simp only [Nat.add_zero, Function.update_same]
      · have := h8 (k - 1) (by omega)
        rw [show a0 + 1 + (k - 1) = a0 + k by omega] at this
        exact this
    · intro g hgc
      apply h9
      by_cases hgg : g = s.gatindex a0
      · subst hgg
        rw [Function.update_same]
      · rw [Function.update_noteq hgg]
        exact hgc
    · intro g hne
      rw [h10 g (by
        intro k hk
        rw [show a0 + 1 + k = a0 + (k + 1) by omega]
        exact hne (k + 1) (by omega))]
      have := hne 0 (by omega)
      rw [Nat.add_zero] at this
      rw [Function.update_noteq (Ne.symm this)]

theorem compact_ind_inv_zero (ncg : Nat) (move : Nat → Int) (index_gl cgindex gatindex : Nat → Nat)
    (ga2la : Nat → gmx_ga2la) (cginfo : Nat → Int) :
    compact_ind_inv ncg move index_gl cgindex gatindex ga2la cginfo 0
      ⟨index_gl, cgindex, gatindex, ga2la, cginfo, 0, 0⟩ := by
  simp [compact_ind_inv, kept_cgs, kept_atoms]

theorem compact_ind_inv_keep (ncg : Nat) (move : Nat → Int) (index_gl cgindex gatindex : Nat → Nat)
    (ga2la : Nat → gmx_ga2la) (cginfo : Nat → Int)
    (hmono : ∀ c, c < ncg → cgindex c ≤ cgindex (c + 1))
    (hinj : ∀ a b, a < cgindex ncg → b < cgindex ncg → gatindex a = gatindex b → a = b)
    (n : Nat) (hn : n < ncg) (s : compact_ind_state) (h : move n = -1)
    (hinv : compact_ind_inv ncg move index_gl cgindex gatindex ga2la cginfo n s) :
    compact_ind_inv ncg move index_gl cgindex gatindex ga2la cginfo (n + 1)
      (compact_ind_cg move s n) := by
  obtain ⟨i1, i2, i3, i4, i5, i6, i7, i8, i9, i10, i11, i12⟩ := hinv
  have hlen := kept_atoms_length_le move cgindex ncg hmono n (by omega)
  have hclen := kept_cgs_length_le move n
  have hm := hmono n hn
  have hle := cgindex_mono_le cgindex ncg hmono (n + 1) ncg (by omega) (le_refl _)
  have hsz : cgindex (n + 1) = cgindex n + (cgindex (n + 1) - cgindex n) := by omega
  have e : compact_ind_cg move s n =
      ⟨Function.update
          (compact_ind_home_at (cgindex n) (cgindex (n + 1))
            ⟨s.index_gl, Function.update s.cgindex s.home_pos s.nat, s.gatindex, s.ga2la,
              s.cginfo, s.home_pos, s.nat⟩).index_gl
          (compact_ind_home_at (cgindex n) (cgindex (n + 1))
            ⟨s.index_gl, Function.update s.cgindex s.home_pos s.nat, s.gatindex, s.ga2la,
              s.cginfo, s.home_pos, s.nat⟩).home_pos
          ((compact_ind_home_at (cgindex n) (cgindex (n + 1))
            ⟨s.index_gl, Function.update s.cgindex s.home_pos s.nat, s.gatindex, s.ga2la,
              s.cginfo, s.home_pos, s.nat⟩).index_gl n),
        (compact_ind_home_at (cgindex n) (cgindex (n + 1))
            ⟨s.index_gl, Function.update s.cgindex s.home_pos s.nat, s.gatindex, s.ga2la,
              s.cginfo, s.home_pos, s.nat⟩).cgindex,
        (compact_ind_home_at (cgindex n) (cgindex (n + 1))
            ⟨s.index_gl, Function.update s.cgindex s.home_pos s.nat, s.gatindex, s.ga2la,
              s.cginfo, s.home_pos, s.nat⟩).gatindex,
        (compact_ind_home_at (cgindex n) (cgindex (n + 1))
            ⟨s.index_gl, Function.update s.cgindex s.home_pos s.nat, s.gatindex, s.ga2la,
              s.cginfo, s.home_pos, s.nat⟩).ga2la,
        Function.update
          (compact_ind_home_at (cgindex n) (cgindex (n + 1))
            ⟨s.index_gl, Function.update s.cgindex s.home_pos s.nat, s.gatindex, s.ga2la,
              s.cginfo, s.home_pos, s.nat⟩).cginfo
          (compact_ind_home_at (cgindex n) (cgindex (n + 1))
            ⟨s.index_gl, Function.update s.cgindex s.home_pos s.nat, s.gatindex, s.ga2la,
              s.cginfo, s.home_pos, s.nat⟩).home_pos
          ((compact_ind_home_at (cgindex n) (cgindex (n + 1))
            ⟨s.index_gl, Function.update s.cgindex s.home_pos s.nat, s.gatindex, s.ga2la,
              s.cginfo, s.home_pos, s.nat⟩).cginfo n),
        (compact_ind_home_at (cgindex n) (cgindex (n + 1))
            ⟨s.index_gl, Function.update s.cgindex s.home_pos s.nat, s.gatindex, s.ga2la,
              s.cginfo, s.home_pos, s.nat⟩).home_pos + 1,
        (compact_ind_home_at (cgindex n) (cgindex (n + 1))
            ⟨s.index_gl, Function.update s.cgindex s.home_pos s.nat, s.gatindex, s.ga2la,
              s.cginfo, s.home_pos, s.nat⟩).nat⟩ := by
    unfold compact_ind_cg
    rw [if_pos h, (i3 n (le_refl n)).1, (i3 (n + 1) (by omega)).1]
  rw [e]
  obtain ⟨c1, c2, c3, c4, c5, c6, c7, c8, c9, c10⟩ :=
    compact_ind_home_at_spec (cgindex (n + 1) - cgindex n) (cgindex n)
      ⟨s.index_gl, Function.update s.cgindex s.home_pos s.nat, s.gatindex, s.ga2la,
        s.cginfo, s.home_pos, s.nat⟩ (by simp only; omega)
      (by
        intro k k2 hk hk2 heq
        simp only at heq
        rw [i4 _ (by omega), i4 _ (by omega)] at heq
        have := hinj _ _ (by omega) (by omega) heq
        omega)
  rw [← hsz] at c1 c2 c3 c4 c5 c6 c7 c8 c9 c10
  simp only at c1 c2 c3 c4 c5 c6 c7 c8 c9 c10
  generalize compact_ind_home_at (cgindex n) (cgindex (n + 1))
      ⟨s.index_gl, Function.update s.cgindex s.home_pos s.nat, s.gatindex, s.ga2la,
        s.cginfo, s.home_pos, s.nat⟩ = s2 at c1 c2 c3 c4 c5 c6 c7 c8 c9 c10
  have hk1 : kept_cgs move (n + 1) = kept_cgs move n ++ [n] := by
    rw [kept_cgs_succ, if_pos h]
  have hk2 : kept_atoms move cgindex (n + 1) = kept_atoms move cgindex n ++
      List.range' (cgindex n) (cgindex (n + 1) - cgindex n) := by
    rw [kept_atoms_succ, if_pos h]
  have hnew : ∀ k, k < cgindex (n + 1) - cgindex n →
      s2.gatindex (s.nat + k) = gatindex (cgindex n + k) := by
    intro k hk
    rw [c6 k hk, i4 _ (by omega)]
  have hold : ∀ p, p < s.nat → ∀ k, k < cgindex (n + 1) - cgindex n →
      s.gatindex (cgindex n + k) ≠ s.gatindex p := by
    intro p hp k hk heq
    obtain ⟨a, ha, hpa⟩ := i9 p hp
    rw [i4 _ (by omega), hpa] at heq
    have := hinj _ _ (by omega) (by omega) heq
    omega
  unfold compact_ind_inv
  simp only
  rw [c1, c2, c3, c4, c5, hk1, hk2]
  refine ⟨?_, ?_, ?_, ?_, ?_, ?_, ?_, ?_, ?_, ?_, ?_, ?_⟩
  · rw [List.length_append, i1]
    rfl
  · rw [List.length_append, i2, List.length_range']
  · intro j hj
    rw [Function.update_noteq (by omega), Function.update_noteq (by omega),
      Function.update_noteq (by omega)]
    exact i3 j (by omega)
  · intro j hj
    rw [c7 j (Or.inr (by omega))]
    exact i4 j (by omega)
  · rw [map_range_append s.index_gl _ _ _
      (fun j hj => Function.update_noteq (by omega) _ _), i5, List.map_append]
    congr 1
    rw [List.range'_succ, List.range'_zero, List.map_cons, List.map_nil,
      Function.update_same, (i3 n (le_refl n)).2.1]
    rfl
  · rw [map_range_append s.cginfo _ _ _
      (fun j hj => Function.update_noteq (by omega) _ _), i6, List.map_append]
    congr 1
    rw [List.range'_succ, List.range'_zero, List.map_cons, List.map_nil,
      Function.update_same, (i3 n (le_refl n)).2.2]
    rfl
  · rw [map_range_append s.gatindex _ _ _ (fun j hj => c7 j (Or.inl hj)), i7, List.map_append]
    congr 1
    apply map_range'_shift
    intro k hk
    exact hnew k hk
  · intro k hk
    rcases Nat.lt_or_ge k s.home_pos with lt | ge
    · rw [Function.update_noteq (by omega), i8 k lt, List.take_append_of_le_length (by omega)]
    · have ek : k = s.home_pos := by omega
      subst ek
      rw [Function.update_same, i2, kept_atoms_length_eq_sum, i1, List.take_left]
  · intro p hp
    rcases Nat.lt_or_ge p s.nat with lt | ge
    · obtain ⟨a, ha, hpa⟩ := i9 p lt
      exact ⟨a, by omega, by rw [c7 p (Or.inl lt)]; exact hpa⟩
    · refine ⟨cgindex n + (p - s.nat), by omega, ?_⟩
      have := hnew (p - s.nat) (by omega)
      rw [show s.nat + (p - s.nat) = p by omega] at this
      exact this
  · intro p hp
    rcases Nat.lt_or_ge p s.nat with lt | ge
    · rw [c7 p (Or.inl lt), c8, c9 _ (hold p lt)]
      exact i10 p lt
    · have e1 := c6 (p - s.nat) (by omega)
      rw [show s.nat + (p - s.nat) = p by omega] at e1
      rw [e1, c8, c10 (p - s.nat) (by omega), i4 _ (by omega)]
      refine ⟨by congr 1; omega, ?_⟩
      exact i11 _ (by omega) (by omega)
  · intro a ha1 ha2
    rw [c8]
    exact i11 a (by omega) ha2
  · intro c hc hmc a ha1 ha2
    rw [c8]
    have hcn : c ≠ n := by
      intro ecn
      subst ecn
      exact hmc h
    exact i12 c (by omega) hmc a ha1 ha2

theorem compact_ind_inv_clear (ncg : Nat) (move : Nat → Int)
    (index_gl cgindex gatindex : Nat → Nat)
    (ga2la : Nat → gmx_ga2la) (cginfo : Nat → Int)
    (hmono : ∀ c, c < ncg → cgindex c ≤ cgindex (c + 1))
    (hinj : ∀ a b, a < cgindex ncg → b < cgindex ncg → gatindex a = gatindex b → a = b)
    (n : Nat) (hn : n < ncg) (s : compact_ind_state) (h : ¬ move n = -1)
    (hinv : compact_ind_inv ncg move index_gl cgindex gatindex ga2la cginfo n s) :
    compact_ind_inv ncg move index_gl cgindex gatindex ga2la cginfo (n + 1)
      (compact_ind_cg move s n) := by
  obtain ⟨i1, i2, i3, i4, i5, i6, i7, i8, i9, i10, i11, i12⟩ := hinv
  have hlen := kept_atoms_length_le move cgindex ncg hmono n (by omega)
  have hm := hmono n hn
  have hle := cgindex_mono_le cgindex ncg hmono (n + 1) ncg (by omega) (le_refl _)
  have hsz : cgindex (n + 1) = cgindex n + (cgindex (n + 1) - cgindex n) := by omega
  have e : compact_ind_cg move s n = compact_ind_clear_at (cgindex n) (cgindex (n + 1)) s := by
    unfold compact_ind_cg
    rw [if_neg h, (i3 n (le_refl n)).1, (i3 (n + 1) (by omega)).1]
  rw [e]
  obtain ⟨c1, c2, c3, c4, c5, c6, c7, c8, c9, c10⟩ :=
    compact_ind_clear_at_spec (cgindex (n + 1) - cgindex n) (cgindex n) s
  rw [← hsz] at c1 c2 c3 c4 c5 c6 c7 c8 c9 c10
  generalize compact_ind_clear_at (cgindex n) (cgindex (n + 1)) s = s2
    at c1 c2 c3 c4 c5 c6 c7 c8 c9 c10
  have hk1 : kept_cgs move (n + 1) = kept_cgs move n := by
    rw [kept_cgs_succ, if_neg h, List.append_nil]
  have hk2 : kept_atoms move cgindex (n + 1) = kept_atoms move cgindex n := by
    rw [kept_atoms_succ, if_neg h, List.append_nil]
  have hother : ∀ a, a < cgindex ncg → (a < cgindex n ∨ cgindex (n + 1) ≤ a) →
      ∀ k, k < cgindex (n + 1) - cgindex n → s.gatindex (cgindex n + k) ≠ gatindex a := by
    intro a ha hout k hk heq
    rw [i4 _ (by omega)] at heq
    have := hinj _ _ (by omega) ha heq
    omega
  unfold compact_ind_inv
  rw [c1, c2, c3, c4, c5, c6, hk1, hk2]
  refine ⟨i1, i2, fun j hj => i3 j (by omega), fun j hj => i4 j (by omega), i5, i6, i7, i8,
    ?_, ?_, ?_, ?_⟩
  · intro p hp
    obtain ⟨a, ha, hpa⟩ := i9 p hp
    exact ⟨a, by omega, hpa⟩
  · intro p hp
    obtain ⟨a, ha, hpa⟩ := i9 p hp
    rw [c7, c10 _ (by rw [hpa]; exact hother a (by omega) (Or.inl ha))]
    exact i10 p hp
  · intro a ha1 ha2
    rw [c10 _ (hother a ha2 (Or.inr ha1))]
    exact i11 a (by omega) ha2
  · intro c hc hmc a ha1 ha2
    rcases Nat.lt_or_ge c n with lt | ge
    · exact c9 _ (i12 c lt hmc a ha1 ha2)
    · have ecn : c = n := by omega
      subst ecn
      have := c8 (a - cgindex c) (by omega)
      rw [i4 _ (by omega), show cgindex c + (a - cgindex c) = a by omega] at this
      exact this

theorem compact_ind_loop_inv (ncg : Nat) (move : Nat → Int)
    (index_gl cgindex gatindex : Nat → Nat)
    (ga2la : Nat → gmx_ga2la) (cginfo : Nat → Int)
    (hmono : ∀ c, c < ncg → cgindex c ≤ cgindex (c + 1))
    (hinj : ∀ a b, a < cgindex ncg → b < cgindex ncg → gatindex a = gatindex b → a = b) :
    ∀ n, n ≤ ncg → compact_ind_inv ncg move index_gl cgindex gatindex ga2la cginfo n
      ((List.range n).foldl (compact_ind_cg move)
        ⟨index_gl, cgindex, gatindex, ga2la, cginfo, 0, 0⟩) := by
  intro n
  induction n with
  | zero =>
    intro _
    exact compact_ind_inv_zero ncg move index_gl cgindex gatindex ga2la cginfo
  | succ n ih =>
    intro hn
    rw [List.range_succ, List.foldl_append, List.foldl_cons, List.foldl_nil]
    by_cases h : move n = -1
    · exact compact_ind_inv_keep ncg move index_gl cgindex gatindex ga2la cginfo hmono hinj n
        (by omega) _ h (ih (by omega))
    · exact compact_ind_inv_clear ncg move index_gl cgindex gatindex ga2la cginfo hmono hinj n
        (by omega) _ h (ih (by omega))

/-- C8: for every move array, the compaction done for `dd_redistribute_cg`
leaves in the home arrays exactly the charge groups with `move = -1` in their
original order.  With `bCompact`, `compact_and_copy_vec_cg` returns the number
of kept groups and leaves their vectors at the front of the array in order;
`compact_and_copy_vec_at` returns the number of kept atoms and leaves their
vectors contiguously at the front in order; `compact_ind` returns the number of
kept groups, `index_gl`, `cginfo` and `gatindex` become the order-preserving
filter of the old arrays, `cgindex` becomes the prefix sum of the kept group
sizes, the `ga2la` entry of every kept atom holds its new local position with
its cell unchanged, and the `ga2la` cell of every departed atom is -1.  The
home arrays are assumed well formed: `cgindex` starts at 0 and does not
decrease, and the home atoms have distinct global indices. -/
theorem compaction_keeps_home_groups_in_order (ncg : Nat) (move : Nat → Int)
    (cgindex : Nat → Nat) (nvec vec : Nat) (cg_cm x : Nat → rvec)
    (cgcm_state : Int → Nat → rvec) (index_gl gatindex : Nat → Nat)
    (ga2la : Nat → gmx_ga2la) (cginfo : Nat → Int)
    (h0 : cgindex 0 = 0) (hmono : ∀ c, c < ncg → cgindex c ≤ cgindex (c + 1))
    (hinj : ∀ a b, a < cgindex ncg → b < cgindex ncg → gatindex a = gatindex b → a = b) :
    (compact_and_copy_vec_cg ncg move cgindex nvec cg_cm cgcm_state true).home_pos =
      (kept_cgs move ncg).length ∧
    (List.range (kept_cgs move ncg).length).map
      (compact_and_copy_vec_cg ncg move cgindex nvec cg_cm cgcm_state true).src =
      (kept_cgs move ncg).map cg_cm ∧
    (compact_and_copy_vec_at ncg move cgindex nvec vec x cgcm_state true).home_pos =
      (kept_atoms move cgindex ncg).length ∧
    (List.range (kept_atoms move cgindex ncg).length).map
      (compact_and_copy_vec_at ncg move cgindex nvec vec x cgcm_state true).src =
      (kept_atoms move cgindex ncg).map x ∧
    (compact_ind ncg move index_gl cgindex gatindex ga2la cginfo).home_pos =
      (kept_cgs move ncg).length ∧
    (compact_ind ncg move index_gl cgindex gatindex ga2la cginfo).nat =
      (kept_atoms move cgindex ncg).length ∧
    (List.range (kept_cgs move ncg).length).map
      (compact_ind ncg move index_gl cgindex gatindex ga2la cginfo).index_gl =
      (kept_cgs move ncg).map index_gl ∧
    (List.range (kept_cgs move ncg).length).map
      (compact_ind ncg move index_gl cgindex gatindex ga2la cginfo).cginfo =
      (kept_cgs move ncg).map cginfo ∧
    (List.range (kept_atoms move cgindex ncg).length).map
      (compact_ind ncg move index_gl cgindex gatindex ga2la cginfo).gatindex =
      (kept_atoms move cgindex ncg).map gatindex ∧
    (∀ k, k ≤ (kept_cgs move ncg).length →
      (compact_ind ncg move index_gl cgindex gatindex ga2la cginfo).cgindex k =
        (((kept_cgs move ncg).take k).map (fun c => cgindex (c + 1) - cgindex c)).sum) ∧
    (∀ p, p < (kept_atoms move cgindex ncg).length →
      ((compact_ind ncg move index_gl cgindex gatindex ga2la cginfo).ga2la
        ((compact_ind ncg move index_gl cgindex gatindex ga2la cginfo).gatindex p)).a = (p : Int) ∧
      ((compact_ind ncg move index_gl cgindex gatindex ga2la cginfo).ga2la
        ((compact_ind ncg move index_gl cgindex gatindex ga2la cginfo).gatindex p)).cell =
        (ga2la ((compact_ind ncg move index_gl cgindex gatindex ga2la cginfo).gatindex p)).cell) ∧
    (∀ c, c < ncg → move c ≠ -1 → ∀ a, cgindex c ≤ a → a < cgindex (c + 1) →
      ((compact_ind ncg move index_gl cgindex gatindex ga2la cginfo).ga2la (gatindex a)).cell
        = -1) := by
  obtain ⟨g1, _, g3⟩ := compact_and_copy_vec_cg_inv move cgindex nvec cg_cm cgcm_state ncg
  obtain ⟨_, a2, _, a4⟩ := compact_and_copy_vec_at_inv ncg move cgindex nvec vec x cgcm_state
    h0 hmono ncg (le_refl _)
  obtain ⟨i1, i2, i3, i4, i5, i6, i7, i8, i9, i10, i11, i12⟩ :=
    compact_ind_loop_inv ncg move index_gl cgindex gatindex ga2la cginfo hmono hinj ncg
      (le_refl _)
  have ec : compact_and_copy_vec_cg ncg move cgindex nvec cg_cm cgcm_state true =
      (List.range ncg).foldl (compact_and_copy_vec_cg_icg move cgindex nvec true)
        ⟨cg_cm, cgcm_state, fun _ => 0, 0, 0⟩ := by
    simp [compact_and_copy_vec_cg]
  rw [ec]
  unfold compact_and_copy_vec_at compact_ind
  simp only
  generalize (List.range ncg).foldl (compact_ind_cg move)
    ⟨index_gl, cgindex, gatindex, ga2la, cginfo, 0, 0⟩ = s at i1 i2 i3 i4 i5 i6 i7 i8 i9 i10 i11 i12
  rw [i1] at i5 i6 i8
  rw [i2] at i7 i10
  refine ⟨g1, g3, a2, a4, i1, i2, i5, i6, i7, ?_, i10, i12⟩
  intro k hk
  rcases Nat.lt_or_ge k (kept_cgs move ncg).length with lt | ge
  · rw [i1, Function.update_noteq (by omega)]
    exact i8 k lt
  · have ek : k = (kept_cgs move ncg).length := by omega
    subst ek
    rw [i1, Function.update_same, i2, kept_atoms_length_eq_sum, List.take_length]

/-- Witness of C8: three charge groups of sizes 2, 1 and 2, the middle one leaves. -/
theorem compaction_keeps_home_groups_in_order_witness :
    ex_compact_cgindex 0 = 0 ∧
    (∀ c, c < 3 → ex_compact_cgindex c ≤ ex_compact_cgindex (c + 1)) ∧
    (∀ a b, a < ex_compact_cgindex 3 → b < ex_compact_cgindex 3 →
      (fun i : Nat => i + 10) a = (fun i : Nat => i + 10) b → a = b) ∧
    ((compact_and_copy_vec_cg 3 ex_compact_move ex_compact_cgindex 1 (fun _ _ => 0)
        (fun _ _ _ => 0) true).home_pos = (kept_cgs ex_compact_move 3).length ∧
    (List.range (kept_cgs ex_compact_move 3).length).map
      (compact_and_copy_vec_cg 3 ex_compact_move ex_compact_cgindex 1 (fun _ _ => 0)
        (fun _ _ _ => 0) true).src = (kept_cgs ex_compact_move 3).map (fun _ _ => 0) ∧
    (compact_and_copy_vec_at 3 ex_compact_move ex_compact_cgindex 1 0 (fun _ _ => 0)
        (fun _ _ _ => 0) true).home_pos = (kept_atoms ex_compact_move ex_compact_cgindex 3).length ∧
    (List.range (kept_atoms ex_compact_move ex_compact_cgindex 3).length).map
      (compact_and_copy_vec_at 3 ex_compact_move ex_compact_cgindex 1 0 (fun _ _ => 0)
        (fun _ _ _ => 0) true).src =
      (kept_atoms ex_compact_move ex_compact_cgindex 3).map (fun _ _ => 0) ∧
    (compact_ind 3 ex_compact_move (fun c => c + 100) ex_compact_cgindex (fun i => i + 10)
        (fun _ => ⟨0, 0⟩) (fun _ => 0)).home_pos = (kept_cgs ex_compact_move 3).length ∧
    (compact_ind 3 ex_compact_move (fun c => c + 100) ex_compact_cgindex (fun i => i + 10)
        (fun _ => ⟨0, 0⟩) (fun _ => 0)).nat =
      (kept_atoms ex_compact_move ex_compact_cgindex 3).length ∧
    (List.range (kept_cgs ex_compact_move 3).length).map
      (compact_ind 3 ex_compact_move (fun c => c + 100) ex_compact_cgindex (fun i => i + 10)
        (fun _ => ⟨0, 0⟩) (fun _ => 0)).index_gl =
      (kept_cgs ex_compact_move 3).map (fun c => c + 100) ∧
    (List.range (kept_cgs ex_compact_move 3).length).map
      (compact_ind 3 ex_compact_move (fun c => c + 100) ex_compact_cgindex (fun i => i + 10)
        (fun _ => ⟨0, 0⟩) (fun _ => 0)).cginfo =
      (kept_cgs ex_compact_move 3).map (fun _ => 0) ∧
    (List.range (kept_atoms ex_compact_move ex_compact_cgindex 3).length).map
      (compact_ind 3 ex_compact_move (fun c => c + 100) ex_compact_cgindex (fun i => i + 10)
        (fun _ => ⟨0, 0⟩) (fun _ => 0)).gatindex =
      (kept_atoms ex_compact_move ex_compact_cgindex 3).map (fun i => i + 10) ∧
    (∀ k, k ≤ (kept_cgs ex_compact_move 3).length →
      (compact_ind 3 ex_compact_move (fun c => c + 100) ex_compact_cgindex (fun i => i + 10)
        (fun _ => ⟨0, 0⟩) (fun _ => 0)).cgindex k =
        (((kept_cgs ex_compact_move 3).take k).map
          (fun c => ex_compact_cgindex (c + 1) - ex_compact_cgindex c)).sum) ∧
    (∀ p, p < (kept_atoms ex_compact_move ex_compact_cgindex 3).length →
      ((compact_ind 3 ex_compact_move (fun c => c + 100) ex_compact_cgindex (fun i => i + 10)
          (fun _ => ⟨0, 0⟩) (fun _ => 0)).ga2la
        ((compact_ind 3 ex_compact_move (fun c => c + 100) ex_compact_cgindex (fun i => i + 10)
          (fun _ => ⟨0, 0⟩) (fun _ => 0)).gatindex p)).a = (p : Int) ∧
      ((compact_ind 3 ex_compact_move (fun c => c + 100) ex_compact_cgindex (fun i => i + 10)
          (fun _ => ⟨0, 0⟩) (fun _ => 0)).ga2la
        ((compact_ind 3 ex_compact_move (fun c => c + 100) ex_compact_cgindex (fun i => i + 10)
          (fun _ => ⟨0, 0⟩) (fun _ => 0)).gatindex p)).cell =
        ((fun _ => ⟨0, 0⟩ : Nat → gmx_ga2la)
          ((compact_ind 3 ex_compact_move (fun c => c + 100) ex_compact_cgindex
            (fun i => i + 10) (fun _ => ⟨0, 0⟩) (fun _ => 0)).gatindex p)).cell) ∧
    (∀ c, c < 3 → ex_compact_move c ≠ -1 → ∀ a, ex_compact_cgindex c ≤ a →
      a < ex_compact_cgindex (c + 1) →
      ((compact_ind 3 ex_compact_move (fun c => c + 100) ex_compact_cgindex (fun i => i + 10)
        (fun _ => ⟨0, 0⟩) (fun _ => 0)).ga2la ((fun i : Nat => i + 10) a)).cell = -1)) := by
  have h0 : ex_compact_cgindex 0 = 0 := by decide
  have h1 : ∀ c, c < 3 → ex_compact_cgindex c ≤ ex_compact_cgindex (c + 1) := by decide
  have h2 : ∀ a b, a < ex_compact_cgindex 3 → b < ex_compact_cgindex 3 →
      (fun i : Nat => i + 10) a = (fun i : Nat => i + 10) b → a = b := by
    intro a b _ _ h
    simp only at h
    omega
  exact ⟨h0, h1, h2, compaction_keeps_home_groups_in_order 3 ex_compact_move ex_compact_cgindex
    1 0 (fun _ _ => 0) (fun _ _ => 0) (fun _ _ _ => 0) (fun c => c + 100) (fun i => i + 10)
    (fun _ => ⟨0, 0⟩) (fun _ => 0) h0 h1 h2⟩

/-! ## Decoding the flag word -/

theorem dd_redistribute_cg_flag_succ (ndim : Nat) (nc : ivec) (dim : Nat → Fin 3)
    (dev : Fin 3 → Int) :
    dd_redistribute_cg_flag (ndim + 1) nc dim dev
      = dd_redistribute_cg_flag_dim nc dim dev (dd_redistribute_cg_flag ndim nc dim dev) ndim := by
  simp [dd_redistribute_cg_flag, List.range_succ, List.foldl_append]

theorem dd_redistribute_cg_flag_testBit (nc : ivec) (dim : Nat → Fin 3) (dev : Fin 3 → Int) :
    ∀ (ndim b : Nat), (dd_redistribute_cg_flag ndim nc dim dev).flag.testBit b = true ↔
      ∃ d, d < ndim ∧ ((b = 16 + d * 2 ∧ dev (dim d) = 1) ∨
        (b = 16 + d * 2 + 1 ∧ dev (dim d) = -1)) := by
  intro ndim
  induction ndim with
  | zero =>
    intro b
    simp [dd_redistribute_cg_flag]
  | succ n ih =>
    intro b
    rw [dd_redistribute_cg_flag_succ]
    unfold dd_redistribute_cg_flag_dim
    by_cases h1 : dev (dim n) = 1
    · rw [if_pos h1]
      simp only [Nat.testBit_or, Bool.or_eq_true, ih, DD_FLAG_FW,
        Nat.one_shiftLeft, Nat.testBit_two_pow, decide_eq_true_eq]
      constructor
      · rintro (⟨d, hd, h⟩ | h)
        · exact ⟨d, by omega, h⟩
        · exact ⟨n, by omega, Or.inl ⟨h.symm, h1⟩⟩
      · rintro ⟨d, hd, h⟩
        by_cases hdn : d = n
        · subst hdn
          rcases h with h | h
          · exact Or.inr h.1.symm
          · rw [h1] at h
            norm_num at h
        · exact Or.inl ⟨d, by omega, h⟩
    · by_cases h2 : dev (dim n) = -1
      · rw [if_neg h1, if_pos h2]
        simp only [Nat.testBit_or, Bool.or_eq_true, ih, DD_FLAG_BW,
          Nat.one_shiftLeft, Nat.testBit_two_pow, decide_eq_true_eq]
        constructor
        · rintro (⟨d, hd, h⟩ | h)
          · exact ⟨d, by omega, h⟩
          · exact ⟨n, by omega, Or.inr ⟨h.symm, h2⟩⟩
        · rintro ⟨d, hd, h⟩
          by_cases hdn : d = n
          · subst hdn
            rcases h with h | h
            · exact absurd h.2 h1
            · exact Or.inr h.1.symm
          · exact Or.inl ⟨d, by omega, h⟩
      · rw [if_neg h1, if_neg h2, ih]
        constructor
        · rintro ⟨d, hd, h⟩
          exact ⟨d, by omega, h⟩
        · rintro ⟨d, hd, h⟩
          by_cases hdn : d = n
          · subst hdn
            rcases h with h | h
            · exact absurd h.2 h1
            · exact absurd h.2 h2
          · exact ⟨d, by omega, h⟩

theorem and_two_pow_ne_zero_iff (x k : Nat) : x &&& 2 ^ k ≠ 0 ↔ x.testBit k = true := by
  rw [Nat.and_two_pow]
  cases h : x.testBit k
  · simp
  · simp

/-- C9: for every charge group size `1 <= nrcg <= 65535`, every displacement
vector and at most three decomposition dimensions, the word `nrcg | flag`
built by `dd_redistribute_cg` decodes back: `word & DD_FLAG_NRCG = nrcg`; the
bit `DD_FLAG_FW(d)` is set iff the group moves forward in decomposition
dimension `d` and the bit `DD_FLAG_BW(d)` iff it moves backward; the two bits
of one dimension are never both set; no flag bit overlaps the low 16 bits. -/
theorem cggl_flag_word_decodes (nrcg ndim : Nat) (nc : ivec) (dim : Nat → Fin 3)
    (dev : Fin 3 → Int) (h1 : 1 ≤ nrcg) (h2 : nrcg ≤ 65535) (hndim : ndim ≤ 3) :
    cggl_flag_word nrcg ndim nc dim dev &&& DD_FLAG_NRCG = nrcg ∧
    (∀ d, d < ndim →
      (cggl_flag_word nrcg ndim nc dim dev &&& DD_FLAG_FW d ≠ 0 ↔ dev (dim d) = 1) ∧
      (cggl_flag_word nrcg ndim nc dim dev &&& DD_FLAG_BW d ≠ 0 ↔ dev (dim d) = -1) ∧
      ¬ (cggl_flag_word nrcg ndim nc dim dev &&& DD_FLAG_FW d ≠ 0 ∧
        cggl_flag_word nrcg ndim nc dim dev &&& DD_FLAG_BW d ≠ 0)) ∧
    (dd_redistribute_cg_flag ndim nc dim dev).flag &&& DD_FLAG_NRCG = 0 ∧
    (∀ d, DD_FLAG_FW d &&& DD_FLAG_NRCG = 0 ∧ DD_FLAG_BW d &&& DD_FLAG_NRCG = 0) ∧
    cggl_flag_word nrcg ndim nc dim dev < 2 ^ 22 := by
  have _ := h1
  have hbit := dd_redistribute_cg_flag_testBit nc dim dev ndim
  have hmask : DD_FLAG_NRCG = 2 ^ 16 - 1 := by norm_num [DD_FLAG_NRCG]
  have hlow : ∀ i, i < 16 → (dd_redistribute_cg_flag ndim nc dim dev).flag.testBit i = false := by
    intro i hi
    by_contra hc
    rw [Bool.not_eq_false] at hc
    obtain ⟨d, _, h | h⟩ := (hbit i).mp hc <;> omega
  have hn : ∀ i, 16 ≤ i → nrcg.testBit i = false := by
    intro i hi
    apply Nat.testBit_lt_two_pow
    calc nrcg < 2 ^ 16 := by omega
      _ ≤ 2 ^ i := Nat.pow_le_pow_right (by norm_num) hi
  have hfw : ∀ d, d < ndim →
      (cggl_flag_word nrcg ndim nc dim dev &&& DD_FLAG_FW d ≠ 0 ↔ dev (dim d) = 1) := by
    intro d hd
    rw [DD_FLAG_FW, Nat.one_shiftLeft, and_two_pow_ne_zero_iff, cggl_flag_word, Nat.testBit_or,
      hn _ (by omega), Bool.false_or, hbit]
    constructor
    · rintro ⟨d', _, h | h⟩
      · have : d' = d := by omega
        rw [← this]
        exact h.2
      · omega
    · intro h
      exact ⟨d, hd, Or.inl ⟨rfl, h⟩⟩
  have hbw : ∀ d, d < ndim →
      (cggl_flag_word nrcg ndim nc dim dev &&& DD_FLAG_BW d ≠ 0 ↔ dev (dim d) = -1) := by
    intro d hd
    rw [DD_FLAG_BW, Nat.one_shiftLeft, and_two_pow_ne_zero_iff, cggl_flag_word, Nat.testBit_or,
      hn _ (by omega), Bool.false_or, hbit]
    constructor
    · rintro ⟨d', _, h | h⟩
      · omega
      · have : d' = d := by omega
        rw [← this]
        exact h.2
    · intro h
      exact ⟨d, hd, Or.inr ⟨rfl, h⟩⟩
  refine ⟨?_, ?_, ?_, ?_, ?_⟩
  · apply Nat.eq_of_testBit_eq
    intro i
    rw [hmask, Nat.testBit_and, Nat.testBit_two_pow_sub_one, cggl_flag_word, Nat.testBit_or]
    by_cases hi : i < 16
    · simp [hi, hlow i hi]
    · simp [hi, hn i (by omega)]
  · intro d hd
    refine ⟨hfw d hd, hbw d hd, ?_⟩
    rintro ⟨a, b⟩
    have ha := (hfw d hd).mp a
    have hb := (hbw d hd).mp b
    rw [ha] at hb
    norm_num at hb
  · apply Nat.eq_of_testBit_eq
    intro i
    rw [hmask, Nat.testBit_and, Nat.testBit_two_pow_sub_one]
    by_cases hi : i < 16
    · simp [hi, hlow i hi]
    · simp [hi]
  · intro d
    constructor
    · apply Nat.eq_of_testBit_eq
      intro i
      rw [hmask, Nat.testBit_and, Nat.testBit_two_pow_sub_one, DD_FLAG_FW, Nat.one_shiftLeft,
        Nat.testBit_two_pow]
      by_cases hi : i < 16
      · have : ¬ (16 + d * 2 = i) := by omega
        simp [hi, this]
      · simp [hi]
    · apply Nat.eq_of_testBit_eq
      intro i
      rw [hmask, Nat.testBit_and, Nat.testBit_two_pow_sub_one, DD_FLAG_BW, Nat.one_shiftLeft,
        Nat.testBit_two_pow]
      by_cases hi : i < 16
      · have : ¬ (16 + d * 2 + 1 = i) := by omega
        simp [hi, this]
      · simp [hi]
  · apply Nat.lt_pow_two_of_testBit
    intro i hi
    rw [cggl_flag_word, Nat.testBit_or, hn i (by omega), Bool.false_or]
    by_contra hc
    rw [Bool.not_eq_false] at hc
    obtain ⟨d, hd, h | h⟩ := (hbit i).mp hc <;> omega

/-- Witness of C9: a group of three atoms that moves forward in the first and
backward in the second of two decomposition dimensions. -/
theorem cggl_flag_word_decodes_witness :
    (1 ≤ 3 ∧ 3 ≤ 65535 ∧ 2 ≤ 3) ∧
    (cggl_flag_word 3 2 ex_nc (fun d => if d = 0 then XX else YY)
        (fun d => if d = XX then 1 else -1) &&& DD_FLAG_NRCG = 3 ∧
    (∀ d, d < 2 →
      (cggl_flag_word 3 2 ex_nc (fun d => if d = 0 then XX else YY)
          (fun d => if d = XX then 1 else -1) &&& DD_FLAG_FW d ≠ 0 ↔
        (fun d => if d = XX then (1 : Int) else -1) ((fun d => if d = 0 then XX else YY) d) = 1) ∧
      (cggl_flag_word 3 2 ex_nc (fun d => if d = 0 then XX else YY)
          (fun d => if d = XX then 1 else -1) &&& DD_FLAG_BW d ≠ 0 ↔
        (fun d => if d = XX then (1 : Int) else -1) ((fun d => if d = 0 then XX else YY) d) = -1) ∧
      ¬ (cggl_flag_word 3 2 ex_nc (fun d => if d = 0 then XX else YY)
            (fun d => if d = XX then 1 else -1) &&& DD_FLAG_FW d ≠ 0 ∧
          cggl_flag_word 3 2 ex_nc (fun d => if d = 0 then XX else YY)
            (fun d => if d = XX then 1 else -1) &&& DD_FLAG_BW d ≠ 0)) ∧
    (dd_redistribute_cg_flag 2 ex_nc (fun d => if d = 0 then XX else YY)
        (fun d => if d = XX then 1 else -1)).flag &&& DD_FLAG_NRCG = 0 ∧
    (∀ d, DD_FLAG_FW d &&& DD_FLAG_NRCG = 0 ∧ DD_FLAG_BW d &&& DD_FLAG_NRCG = 0) ∧
    cggl_flag_word 3 2 ex_nc (fun d => if d = 0 then XX else YY)
        (fun d => if d = XX then 1 else -1) < 2 ^ 22) :=
  ⟨⟨by decide, by decide, by decide⟩,
    cggl_flag_word_decodes 3 2 ex_nc (fun d => if d = 0 then XX else YY)
      (fun d => if d = XX then 1 else -1) (by decide) (by decide) (by decide)⟩

/-! ## The boundaries of a row after `set_dd_cell_sizes_dlb` -/

/-- A property kept by every step of a loop holds after the loop. -/
theorem foldl_inv {σ α : Type} (P : σ → Prop) (f : σ → α → σ) (l : List α) :
    ∀ s, (∀ t a, a ∈ l → P t → P (f t a)) → P s → P (l.foldl f s) := by
  induction l with
  | nil => intro s _ h; exact h
  | cons a l ih =>
    intro s hstep h
    rw [List.foldl_cons]
    apply ih
    · intro t b hb ht
      exact hstep t b (List.mem_cons_of_mem _ hb) ht
    · exact hstep s a (List.mem_cons_self _ _) h

theorem dlb_rescale_cell_spec (fac L : real) (s : gmx_domdec_root × Nat) (i : Nat) :
    (∀ j, j ≠ i → (dlb_rescale_cell fac L s i).1.cell_size j = s.1.cell_size j ∧
      (dlb_rescale_cell fac L s i).1.bCellMin j = s.1.bCellMin j) ∧
    (∀ j, j ≠ i + 1 → (dlb_rescale_cell fac L s i).1.cell_f j = s.1.cell_f j) ∧
    (dlb_rescale_cell fac L s i).1.cell_f (i + 1) =
      s.1.cell_f i + (dlb_rescale_cell fac L s i).1.cell_size i ∧
    (s.1.bCellMin i = true → (dlb_rescale_cell fac L s i).1.cell_size i = s.1.cell_size i ∧
      (dlb_rescale_cell fac L s i).2 = s.2 ∧ (dlb_rescale_cell fac L s i).1.bCellMin i = true) ∧
    (s.1.bCellMin i = false → L ≤ (dlb_rescale_cell fac L s i).1.cell_size i ∧
      (((dlb_rescale_cell fac L s i).1.bCellMin i = true ∧
          (dlb_rescale_cell fac L s i).2 = s.2 + 1) ∨
        ((dlb_rescale_cell fac L s i).1.bCellMin i = false ∧
          (dlb_rescale_cell fac L s i).2 = s.2))) := by
  obtain ⟨r, n⟩ := s
  have hne : i ≠ i + 1 := by omega
  by_cases hb : r.bCellMin i = false
  · by_cases hc : r.cell_size i * fac < L
    · have e : dlb_rescale_cell fac L (r, n) i =
          (⟨Function.update r.cell_f (i + 1) (r.cell_f i + L), r.old_cell_f,
            Function.update r.cell_size i L, Function.update r.bCellMin i true, r.cell_f_max0,
            r.cell_f_min1, r.bound_min, r.bound_max, r.bLimited⟩, n + 1) := by
        simp [dlb_rescale_cell, hb, hc, Function.update_noteq hne]
      rw [e]
      refine ⟨?_, ?_, ?_, ?_, ?_⟩
      · intro j hj
        simp [Function.update_noteq hj]
      · intro j hj
        simp [Function.update_noteq hj]
      · simp
      · intro h
        simp only at h
        rw [h] at hb
        exact absurd hb (by decide)
      · intro _
        simp
    · have e : dlb_rescale_cell fac L (r, n) i =
          (⟨Function.update r.cell_f (i + 1) (r.cell_f i + r.cell_size i * fac), r.old_cell_f,
            Function.update r.cell_size i (r.cell_size i * fac), r.bCellMin, r.cell_f_max0,
            r.cell_f_min1, r.bound_min, r.bound_max, r.bLimited⟩, n) := by
        simp [dlb_rescale_cell, hb, hc, Function.update_noteq hne]
      rw [e]
      refine ⟨?_, ?_, ?_, ?_, ?_⟩
      · intro j hj
        simp [Function.update_noteq hj]
      · intro j hj
        simp [Function.update_noteq hj]
      · simp
      · intro h
        simp only at h
        rw [h] at hb
        exact absurd hb (by decide)
      · intro _
        simp only [Function.update_same]
        exact ⟨not_lt.mp hc, Or.inr ⟨hb, trivial⟩⟩
  · have hb2 : r.bCellMin i = true := by
      cases h : r.bCellMin i
      · exact absurd h hb
      · rfl
    have e : dlb_rescale_cell fac L (r, n) i =
        (⟨Function.update r.cell_f (i + 1) (r.cell_f i + r.cell_size i), r.old_cell_f,
          r.cell_size, r.bCellMin, r.cell_f_max0, r.cell_f_min1, r.bound_min, r.bound_max,
          r.bLimited⟩, n) := by
      simp [dlb_rescale_cell, hb2]
    rw [e]
    refine ⟨?_, ?_, ?_, ?_, ?_⟩
    · intro j _
      simp
    · intro j hj
      simp [Function.update_noteq hj]
    · simp
    · intro _
      exact ⟨rfl, rfl, hb2⟩
    · intro h
      exact absurd h hb

theorem dlb_free_count_succ (k : Nat) (r : gmx_domdec_root) :
    dlb_free_count (k + 1) r = dlb_free_count k r + (if r.bCellMin k = false then 1 else 0) := by
  unfold dlb_free_count
  rw [List.range_succ, List.countP_append]
  cases h : r.bCellMin k <;> simp [h]

theorem dlb_free_count_congr (r t : gmx_domdec_root) :
    ∀ k, (∀ j, j < k → r.bCellMin j = t.bCellMin j) → dlb_free_count k r = dlb_free_count k t := by
  intro k
  induction k with
  | zero => intro _; rfl
  | succ k ih =>
    intro h
    rw [dlb_free_count_succ, dlb_free_count_succ, ih (fun j hj => h j (by omega)),
      h k (by omega)]

theorem dlb_free_count_le (k : Nat) (r : gmx_domdec_root) : dlb_free_count k r ≤ k := by
  unfold dlb_free_count
  exact le_trans (List.countP_le_length _) (by simp)

/-- The loop over the cells in one pass of the `do ... while` loop: the
boundaries are the running sums of the cell sizes, no cell is smaller than
the limit, and every increment of `nmin` takes one cell out of the free ones. -/
theorem dlb_rescale_cells_spec (fac L : real) (nc : Nat) (s0 : gmx_domdec_root × Nat)
    (hinv : ∀ j, j < nc → s0.1.bCellMin j = true → L ≤ s0.1.cell_size j) :
    ∀ k, k ≤ nc →
      ((List.range k).foldl (dlb_rescale_cell fac L) s0).1.cell_f 0 = s0.1.cell_f 0 ∧
      (∀ j, j < k →
        ((List.range k).foldl (dlb_rescale_cell fac L) s0).1.cell_f (j + 1) =
          ((List.range k).foldl (dlb_rescale_cell fac L) s0).1.cell_f j +
            ((List.range k).foldl (dlb_rescale_cell fac L) s0).1.cell_size j ∧
        L ≤ ((List.range k).foldl (dlb_rescale_cell fac L) s0).1.cell_size j) ∧
      (∀ j, k ≤ j →
        ((List.range k).foldl (dlb_rescale_cell fac L) s0).1.cell_size j = s0.1.cell_size j ∧
        ((List.range k).foldl (dlb_rescale_cell fac L) s0).1.bCellMin j = s0.1.bCellMin j) ∧
      ((List.range k).foldl (dlb_rescale_cell fac L) s0).2 +
          dlb_free_count k ((List.range k).foldl (dlb_rescale_cell fac L) s0).1 =
        s0.2 + dlb_free_count k s0.1 := by
  intro k
  induction k with
  | zero =>
    intro _
    simp [dlb_free_count]
  | succ k ih =>
    intro hk
    obtain ⟨h1, h2, h3, h4⟩ := ih (by omega)
    rw [List.range_succ, List.foldl_append, List.foldl_cons, List.foldl_nil]
    generalize (List.range k).foldl (dlb_rescale_cell fac L) s0 = s at h1 h2 h3 h4
    obtain ⟨c1, c2, c3, c4, c5⟩ := dlb_rescale_cell_spec fac L s k
    generalize dlb_rescale_cell fac L s k = t at c1 c2 c3 c4 c5
    have hcnt : dlb_free_count k t.1 = dlb_free_count k s.1 :=
      dlb_free_count_congr t.1 s.1 k (fun j hj => (c1 j (by omega)).2)
    have hbk := (h3 k (le_refl k)).2
    have hsk := (h3 k (le_refl k)).1
    refine ⟨?_, ?_, ?_, ?_⟩
    · rw [c2 0 (by omega)]
      exact h1
    · intro j hj
      rcases Nat.lt_or_ge j k with lt | ge
      · rw [c2 (j + 1) (by omega), c2 j (by omega), (c1 j (by omega)).1]
        exact h2 j lt
      · have ej : j = k := by omega
        subst ej
        rw [c2 j (by omega)]
        refine ⟨c3, ?_⟩
        cases hb : s.1.bCellMin j
        · exact (c5 hb).1
        · rw [(c4 hb).1, hsk]
          exact hinv j (by omega) (by rw [← hbk]; exact hb)
    · intro j hj
      rw [(c1 j (by omega)).1, (c1 j (by omega)).2]
      exact h3 j (by omega)
    · rw [dlb_free_count_succ, dlb_free_count_succ, hcnt, ← hbk]
      cases hb : s.1.bCellMin k
      · rcases (c5 hb).2 with ⟨e1, e2⟩ | ⟨e1, e2⟩
        · rw [e1, e2]
          simp only [if_true]
          have : (if true = false then 1 else 0 : Nat) = 0 := by decide
          rw [this]
          omega
        · rw [e1, e2]
          omega
      · obtain ⟨_, e2, e3⟩ := c4 hb
        rw [e2, e3]
        omega

/-- One pass of the `do ... while` loop. -/
theorem dlb_rescale_pass_spec (nc : Nat) (dist_min_f L : real) (s : gmx_domdec_root × Nat)
    (hinv : ∀ j, j < nc → s.1.bCellMin j = true → L ≤ s.1.cell_size j) :
    (dlb_rescale_pass nc dist_min_f L s).1.cell_f 0 = 0 ∧
    (∀ j, j < nc →
      (dlb_rescale_pass nc dist_min_f L s).1.cell_f (j + 1) =
        (dlb_rescale_pass nc dist_min_f L s).1.cell_f j +
          (dlb_rescale_pass nc dist_min_f L s).1.cell_size j ∧
      L ≤ (dlb_rescale_pass nc dist_min_f L s).1.cell_size j) ∧
    (dlb_rescale_pass nc dist_min_f L s).2 +
        dlb_free_count nc (dlb_rescale_pass nc dist_min_f L s).1 =
      s.2 + dlb_free_count nc s.1 := by
  obtain ⟨r, n⟩ := s
  obtain ⟨h1, h2, _, h4⟩ := dlb_rescale_cells_spec
    ((1 - (n : real) * dist_min_f) / dlb_free_total nc r) L nc
    (⟨Function.update r.cell_f 0 0, r.old_cell_f, r.cell_size, r.bCellMin, r.cell_f_max0,
      r.cell_f_min1, r.bound_min, r.bound_max, r.bLimited⟩, n) hinv nc (le_refl nc)
  have e : dlb_rescale_pass nc dist_min_f L (r, n) =
      (List.range nc).foldl
        (dlb_rescale_cell ((1 - (n : real) * dist_min_f) / dlb_free_total nc r) L)
        (⟨Function.update r.cell_f 0 0, r.old_cell_f, r.cell_size, r.bCellMin, r.cell_f_max0,
          r.cell_f_min1, r.bound_min, r.bound_max, r.bLimited⟩, n) := rfl
  rw [e]
  refine ⟨?_, h2, ?_⟩
  · rw [h1]
    simp
  · rw [h4]
    rfl

/-- The `do ... while` loop ends: fuel equal to the number of free cells is enough. -/
theorem dlb_rescale_terminates (nc : Nat) (dist_min_f L : real) :
    ∀ fuel (s : gmx_domdec_root × Nat),
      (∀ j, j < nc → s.1.bCellMin j = true → L ≤ s.1.cell_size j) →
      dlb_free_count nc s.1 ≤ fuel →
      ∃ r, dlb_rescale nc dist_min_f L fuel s = some r := by
  intro fuel
  induction fuel with
  | zero =>
    intro s hinv hc
    obtain ⟨_, _, h3⟩ := dlb_rescale_pass_spec nc dist_min_f L s hinv
    unfold dlb_rescale
    rw [if_neg (by omega)]
    exact ⟨_, rfl⟩
  | succ fuel ih =>
    intro s hinv hc
    obtain ⟨_, h2, h3⟩ := dlb_rescale_pass_spec nc dist_min_f L s hinv
    unfold dlb_rescale
    by_cases hgt : (dlb_rescale_pass nc dist_min_f L s).2 > s.2
    · rw [if_pos hgt]
      exact ih _ (fun j hj _ => (h2 j hj).2) (by omega)
    · rw [if_neg hgt]
      exact ⟨_, rfl⟩

/-- After the `do ... while` loop the boundaries start at 0, are the running
sums of the cell sizes, and no cell is smaller than the limit. -/
theorem dlb_rescale_spec (nc : Nat) (dist_min_f L : real) :
    ∀ fuel (s r : gmx_domdec_root × Nat),
      (∀ j, j < nc → s.1.bCellMin j = true → L ≤ s.1.cell_size j) →
      dlb_rescale nc dist_min_f L fuel s = some r →
      r.1.cell_f 0 = 0 ∧
      ∀ j, j < nc → r.1.cell_f (j + 1) = r.1.cell_f j + r.1.cell_size j ∧ L ≤ r.1.cell_size j := by
  intro fuel
  induction fuel with
  | zero =>
    intro s r hinv h
    obtain ⟨h1, h2, _⟩ := dlb_rescale_pass_spec nc dist_min_f L s hinv
    unfold dlb_rescale at h
    by_cases hgt : (dlb_rescale_pass nc dist_min_f L s).2 > s.2
    · rw [if_pos hgt] at h
      exact absurd h (by simp)
    · rw [if_neg hgt] at h
      cases h
      exact ⟨h1, h2⟩
  | succ fuel ih =>
    intro s r hinv h
    obtain ⟨h1, h2, _⟩ := dlb_rescale_pass_spec nc dist_min_f L s hinv
    unfold dlb_rescale at h
    by_cases hgt : (dlb_rescale_pass nc dist_min_f L s).2 > s.2
    · rw [if_pos hgt] at h
      exact ih _ r (fun j hj _ => (h2 j hj).2) h
    · rw [if_neg hgt] at h
      cases h
      exact ⟨h1, h2⟩

theorem dlb_clear_min_spec (nc : Nat) (root : gmx_domdec_root) :
    ∀ j, j < nc → (dlb_clear_min nc root).bCellMin j = false := by
  unfold dlb_clear_min
  induction nc with
  | zero => intro j hj; omega
  | succ n ih =>
    intro j hj
    rw [List.range_succ, List.foldl_append, List.foldl_cons, List.foldl_nil]
    simp only
    rcases Nat.lt_or_ge j n with lt | ge
    · rw [Function.update_noteq (by omega)]
      exact ih j lt
    · have e : j = n := by omega
      subst e
      rw [Function.update_same]

theorem dlb_last_boundary_spec (nc : Nat) (L : real) (s : gmx_domdec_root × Nat)
    (r4 : gmx_domdec_root) (hnc : 1 ≤ nc) (h : dlb_last_boundary nc L s = some r4) :
    r4.cell_f = Function.update s.1.cell_f nc 1 ∧
    L * DD_CELL_MARGIN2 / DD_CELL_MARGIN ≤ 1 - s.1.cell_f (nc - 1) := by
  obtain ⟨r, n⟩ := s
  have e : nc - 1 + 1 = nc := by omega
  have hne : nc - 1 ≠ nc - 1 + 1 := by omega
  unfold dlb_last_boundary at h
  simp only [Function.update_same, Function.update_noteq hne] at h
  rw [e] at h
  by_cases hc : 1 - r.cell_f (nc - 1) < L * DD_CELL_MARGIN2 / DD_CELL_MARGIN
  · rw [if_pos hc] at h
    exact absurd h (by simp)
  · rw [if_neg hc] at h
    cases h
    exact ⟨rfl, not_lt.mp hc⟩

theorem dlb_stagger_uniform_cell_f (nc : Nat) (root : gmx_domdec_root) :
    (dlb_stagger_uniform nc root).cell_f = root.cell_f := by
  unfold dlb_stagger_uniform
  apply foldl_inv (fun r => r.cell_f = root.cell_f) _ _ root _ rfl
  intro t a _ ht
  exact ht

theorem dlb_push_up_ends (nc : Nat) (L : real) (i : Nat) (root : gmx_domdec_root) (a b : real)
    (h : root.cell_f 0 = a ∧ root.cell_f nc = b) :
    (dlb_push_up nc L i root).cell_f 0 = a ∧ (dlb_push_up nc L i root).cell_f nc = b := by
  unfold dlb_push_up
  apply foldl_inv (fun r => r.cell_f 0 = a ∧ r.cell_f nc = b) _ _ root _ h
  intro t j hj ht
  rw [List.mem_range'_1] at hj
  by_cases hc : t.cell_f j < t.cell_f (j - 1) + L
  · rw [if_pos hc]
    simp only
    rw [Function.update_noteq (by omega), Function.update_noteq (by omega)]
    exact ht
  · rw [if_neg hc]
    exact ht

theorem dlb_push_down_ends (nc : Nat) (L : real) (i : Nat) (hi : i < nc)
    (root : gmx_domdec_root) (a b : real) (h : root.cell_f 0 = a ∧ root.cell_f nc = b) :
    (dlb_push_down L i root).cell_f 0 = a ∧ (dlb_push_down L i root).cell_f nc = b := by
  unfold dlb_push_down
  apply foldl_inv (fun r => r.cell_f 0 = a ∧ r.cell_f nc = b) _ _ root _ h
  intro t j hj ht
  rw [List.mem_reverse, List.mem_range'_1] at hj
  by_cases hc : t.cell_f j > t.cell_f (j + 1) - L
  · rw [if_pos hc]
    simp only
    rw [Function.update_noteq (by omega), Function.update_noteq (by omega)]
    exact ht
  · rw [if_neg hc]
    exact ht

theorem dlb_halfway_ends (nc : Nat) (L : real) (root : gmx_domdec_root) (a b : real)
    (h : root.cell_f 0 = a ∧ root.cell_f nc = b) :
    (dlb_halfway nc L root).cell_f 0 = a ∧ (dlb_halfway nc L root).cell_f nc = b := by
  unfold dlb_halfway
  apply foldl_inv (fun r => r.cell_f 0 = a ∧ r.cell_f nc = b) _ _ root _ h
  intro t i hi ht
  rw [List.mem_range'_1] at hi
  have h1 : (if t.cell_f i < 1 / 2 * (t.old_cell_f i + t.old_cell_f (i - 1)) then
        dlb_push_up nc L i
          ⟨Function.update t.cell_f i (1 / 2 * (t.old_cell_f i + t.old_cell_f (i - 1))),
            t.old_cell_f, t.cell_size, t.bCellMin, t.cell_f_max0, t.cell_f_min1, t.bound_min,
            t.bound_max, t.bLimited⟩
      else t).cell_f 0 = a ∧
      (if t.cell_f i < 1 / 2 * (t.old_cell_f i + t.old_cell_f (i - 1)) then
        dlb_push_up nc L i
          ⟨Function.update t.cell_f i (1 / 2 * (t.old_cell_f i + t.old_cell_f (i - 1))),
            t.old_cell_f, t.cell_size, t.bCellMin, t.cell_f_max0, t.cell_f_min1, t.bound_min,
            t.bound_max, t.bLimited⟩
      else t).cell_f nc = b := by
    by_cases hc : t.cell_f i < 1 / 2 * (t.old_cell_f i + t.old_cell_f (i - 1))
    · rw [if_pos hc]
      apply dlb_push_up_ends
      simp only
      rw [Function.update_noteq (by omega), Function.update_noteq (by omega)]
      exact ht
    · rw [if_neg hc]
      exact ht
  unfold dlb_halfway_cell
  simp only
  generalize (if t.cell_f i < 1 / 2 * (t.old_cell_f i + t.old_cell_f (i - 1)) then
        dlb_push_up nc L i
          ⟨Function.update t.cell_f i (1 / 2 * (t.old_cell_f i + t.old_cell_f (i - 1))),
            t.old_cell_f, t.cell_size, t.bCellMin, t.cell_f_max0, t.cell_f_min1, t.bound_min,
            t.bound_max, t.bLimited⟩
      else t) = r1 at h1
  by_cases hc : r1.cell_f i > 1 / 2 * (r1.old_cell_f i + r1.old_cell_f (i + 1))
  · rw [if_pos hc]
    apply dlb_push_down_ends nc L i (by omega)
    simp only
    rw [Function.update_noteq (by omega), Function.update_noteq (by omega)]
    exact h1
  · rw [if_neg hc]
    exact h1

theorem dlb_stagger_ends (nc : Nat) (root : gmx_domdec_root) (a b : real)
    (h : root.cell_f 0 = a ∧ root.cell_f nc = b) :
    (dlb_stagger nc root).cell_f 0 = a ∧ (dlb_stagger nc root).cell_f nc = b := by
  unfold dlb_stagger
  apply foldl_inv (fun r => r.cell_f 0 = a ∧ r.cell_f nc = b) _ _ root _ h
  intro t i hi ht
  rw [List.mem_range'_1] at hi
  have h0 : i ≠ 0 := by omega
  have hn : i ≠ nc := by omega
  unfold dlb_stagger_cell
  simp only
  split_ifs <;>
    (try simp only [Function.update_noteq (Ne.symm h0), Function.update_noteq (Ne.symm hn)]) <;>
    exact ht

theorem dlb_margin_le (L : real) (hL : 0 < L) :
    0 < L / DD_CELL_MARGIN ∧ L / DD_CELL_MARGIN ≤ L ∧
    L / DD_CELL_MARGIN ≤ L * DD_CELL_MARGIN2 / DD_CELL_MARGIN := by
  unfold DD_CELL_MARGIN DD_CELL_MARGIN2
  refine ⟨by positivity, ?_, ?_⟩
  · rw [div_le_iff₀ (by norm_num)]
    nlinarith
  · rw [div_le_div_iff_of_pos_right (by norm_num)]
    nlinarith

/-- The steps of the update after the clearing of `bCellMin`, for any row data
`r2` reached before it. -/
theorem dlb_boundaries_from_clear (nc : Nat) (dist_min_f L : real)
    (r2 : gmx_domdec_root) (hnc : 1 ≤ nc) :
    (∃ s, dlb_rescale nc dist_min_f L nc (dlb_clear_min nc r2, 0) = some s) ∧
    ∀ fuel s r4, dlb_rescale nc dist_min_f L fuel (dlb_clear_min nc r2, 0) = some s →
      dlb_last_boundary nc L s = some r4 →
      r4.cell_f 0 = 0 ∧ r4.cell_f nc = 1 ∧
      (0 < L → ∀ i, i < nc → r4.cell_f i < r4.cell_f (i + 1) ∧
        L / DD_CELL_MARGIN ≤ r4.cell_f (i + 1) - r4.cell_f i) := by
  have hinv : ∀ j, j < nc → (dlb_clear_min nc r2, 0).1.bCellMin j = true →
      L ≤ (dlb_clear_min nc r2, 0).1.cell_size j := by
    intro j hj hb
    rw [dlb_clear_min_spec nc r2 j hj] at hb
    exact absurd hb (by decide)
  refine ⟨dlb_rescale_terminates nc dist_min_f L nc _ hinv (dlb_free_count_le _ _), ?_⟩
  intro fuel s r4 hs h4
  obtain ⟨p1, p2⟩ := dlb_rescale_spec nc dist_min_f L fuel _ s hinv hs
  obtain ⟨q1, q2⟩ := dlb_last_boundary_spec nc L s r4 hnc h4
  rw [q1]
  refine ⟨?_, ?_, ?_⟩
  · rw [Function.update_noteq (by omega)]
    exact p1
  · rw [Function.update_same]
  · intro hL i hi
    obtain ⟨m1, m2, m3⟩ := dlb_margin_le L hL
    rw [Function.update_noteq (show i ≠ nc by omega)]
    rcases Nat.lt_or_ge (i + 1) nc with lt | ge
    · rw [Function.update_noteq (show i + 1 ≠ nc by omega), (p2 i hi).1]
      have := (p2 i hi).2
      constructor
      · linarith
      · linarith
    · have e : i + 1 = nc := by omega
      have e2 : i = nc - 1 := by omega
      rw [e, Function.update_same]
      rw [← e2] at q2
      constructor
      · linarith
      · linarith

/-- For a row of at least one cell, the update of the row by its root in
`set_dd_cell_sizes_dlb` always ends (with fuel `nc` for the `do ... while`
loop), and when it does not end in the fatal error the new boundaries have the
exact end points `cell_f[0] = 0` and `cell_f[nc] = 1`.  In a uniform update
(`bUniform`) with a positive fractional limit `cellsize_limit_f` the
boundaries are strictly increasing and every interval is at least
`cellsize_limit_f / DD_CELL_MARGIN`. -/
theorem set_dd_cell_sizes_dlb_ends_uniform (nc d : Nat) (bUniform bDynamicBox : Bool)
    (load_count : Nat) (sum_m : real) (load : Nat → real) (nload : Nat)
    (cellsize_min box_dd grid_jump : real) (tric_dir : Bool) (skew_fac : real)
    (root : gmx_domdec_root) (hnc : 1 ≤ nc) :
    (∃ r, set_dd_cell_sizes_dlb_root nc nc d bUniform bDynamicBox load_count sum_m load nload
      cellsize_min box_dd grid_jump tric_dir skew_fac root = some r) ∧
    ∀ fuel root2, set_dd_cell_sizes_dlb_root fuel nc d bUniform bDynamicBox load_count sum_m
        load nload cellsize_min box_dd grid_jump tric_dir skew_fac root = some (some root2) →
      root2.cell_f 0 = 0 ∧ root2.cell_f nc = 1 ∧
      (0 < dlb_cellsize_limit_f cellsize_min box_dd tric_dir skew_fac →
        bUniform = true →
        ∀ i, i < nc → root2.cell_f i < root2.cell_f (i + 1) ∧
          dlb_cellsize_limit_f cellsize_min box_dd tric_dir skew_fac / DD_CELL_MARGIN ≤
            root2.cell_f (i + 1) - root2.cell_f i) := by
  unfold set_dd_cell_sizes_dlb_root
  simp only []
  generalize dlb_cellsize_limit_f cellsize_min box_dd tric_dir skew_fac = L
  generalize dlb_dist_min_f grid_jump box_dd tric_dir skew_fac bDynamicBox d = dist_min_f
  generalize (if d > 0 ∧ bUniform = false then
      dlb_bounds nc dist_min_f
        (if bUniform = true then dlb_uniform_sizes nc (dlb_store_old nc root)
        else if load_count ≠ 0 then dlb_load_sizes nc nload sum_m load (dlb_store_old nc root)
        else dlb_store_old nc root)
    else
      if bUniform = true then dlb_uniform_sizes nc (dlb_store_old nc root)
      else if load_count ≠ 0 then dlb_load_sizes nc nload sum_m load (dlb_store_old nc root)
      else dlb_store_old nc root) = r2
  obtain ⟨⟨s0, hs0⟩, hpost⟩ := dlb_boundaries_from_clear nc dist_min_f L r2 hnc
  constructor
  · rw [hs0]
    simp only []
    cases dlb_last_boundary nc L s0 with
    | none => exact ⟨_, rfl⟩
    | some r4 => exact ⟨_, rfl⟩
  · intro fuel root2 h
    cases hs : dlb_rescale nc dist_min_f L fuel (dlb_clear_min nc r2, 0) with
    | none =>
      rw [hs] at h
      exact absurd h (by simp)
    | some s =>
      rw [hs] at h
      simp only [] at h
      cases h4 : dlb_last_boundary nc L s with
      | none =>
        rw [h4] at h
        exact absurd h (by simp)
      | some r4 =>
        rw [h4] at h
        simp only [Option.some.injEq] at h
        obtain ⟨e0, e1, e2⟩ := hpost fuel s r4 hs h4
        have h5 : (if bUniform = true then r4 else dlb_halfway nc L r4).cell_f 0 = 0 ∧
            (if bUniform = true then r4 else dlb_halfway nc L r4).cell_f nc = 1 := by
          by_cases hu : bUniform = true
          · rw [if_pos hu]
            exact ⟨e0, e1⟩
          · rw [if_neg hu]
            exact dlb_halfway_ends nc L r4 0 1 ⟨e0, e1⟩
        have hends : root2.cell_f 0 = 0 ∧ root2.cell_f nc = 1 := by
          rw [← h]
          by_cases hd : d > 0
          · rw [if_pos hd]
            by_cases hu : bUniform = true
            · rw [if_pos hu, dlb_stagger_uniform_cell_f]
              exact h5
            · rw [if_neg hu]
              exact dlb_stagger_ends nc _ 0 1 h5
          · rw [if_neg hd]
            exact h5
        refine ⟨hends.1, hends.2, ?_⟩
        intro hL hu i hi
        have er : root2.cell_f = r4.cell_f := by
          rw [← h]
          by_cases hd : d > 0
          · rw [if_pos hd, if_pos hu, if_pos hu, dlb_stagger_uniform_cell_f]
          · rw [if_neg hd, if_pos hu]
        rw [er]
        exact e2 hL i hi

/-- A non-uniform update with a static box that leaves a cell below the limit:
a row of four cells in the second decomposition dimension, old boundaries 0,
0.3, 0.5, 0.7, 1, limits
`cellsize_limit_f = 0.2` and `dist_min_f = 0.1`, loads 110, 100, 100, 90, and a
neighbouring row whose boundary 1 lies at 0.4.  Every old cell is at least
`cellsize_limit_f` wide.  The update does not end in the fatal error, the
staggering limit moves boundary 2 up to 0.5 while boundary 3 is 0.685, so cell
2 is 0.185 wide, less than `cellsize_limit_f / DD_CELL_MARGIN`; the final check
only prints a warning for cell 2. -/
theorem set_dd_cell_sizes_dlb_staggering_shrinks_cell :
    ∃ r, set_dd_cell_sizes_dlb_root 4 4 1 false false 1 400 ex_dlb_load 6
        2 (100001 / 10000) 1 false 1 ex_dlb_root = some (some r) ∧
      dlb_cellsize_limit_f 2 (100001 / 10000) false 1 = 2 / 10 ∧
      dlb_dist_min_f 1 (100001 / 10000) false 1 false 1 = 1 / 10 ∧
      (∀ i, i < 4 → dlb_cellsize_limit_f 2 (100001 / 10000) false 1 ≤
        ex_dlb_root.cell_f (i + 1) - ex_dlb_root.cell_f i) ∧
      r.cell_f 2 = 1 / 2 ∧ r.cell_f 3 = 137 / 200 ∧
      ¬ (dlb_cellsize_limit_f 2 (100001 / 10000) false 1 / DD_CELL_MARGIN ≤
        r.cell_f 3 - r.cell_f 2) ∧
      dlb_too_small 4 (dlb_cellsize_limit_f 2 (100001 / 10000) false 1) r = [2] := by
  have hdec : ((set_dd_cell_sizes_dlb_root 4 4 1 false false 1 400 ex_dlb_load 6
      2 (100001 / 10000) 1 false 1 ex_dlb_root).bind id).map
      (fun r => decide (
        dlb_cellsize_limit_f 2 (100001 / 10000) false 1 = 2 / 10 ∧
        dlb_dist_min_f 1 (100001 / 10000) false 1 false 1 = 1 / 10 ∧
        (∀ i, i < 4 → dlb_cellsize_limit_f 2 (100001 / 10000) false 1 ≤
          ex_dlb_root.cell_f (i + 1) - ex_dlb_root.cell_f i) ∧
        r.cell_f 2 = 1 / 2 ∧ r.cell_f 3 = 137 / 200 ∧
        ¬ (dlb_cellsize_limit_f 2 (100001 / 10000) false 1 / DD_CELL_MARGIN ≤
          r.cell_f 3 - r.cell_f 2) ∧
        dlb_too_small 4 (dlb_cellsize_limit_f 2 (100001 / 10000) false 1) r = [2]))
      = some true := by
    decide!
  cases hX : set_dd_cell_sizes_dlb_root 4 4 1 false false 1 400 ex_dlb_load 6
      2 (100001 / 10000) 1 false 1 ex_dlb_root with
  | none =>
    rw [hX] at hdec
    exact absurd hdec (by simp)
  | some o =>
    cases o with
    | none =>
      rw [hX] at hdec
      exact absurd hdec (by simp)
    | some r =>
      rw [hX] at hdec
      simp only [Option.bind, id, Option.map, Option.some.injEq, decide_eq_true_eq] at hdec
      exact ⟨r, rfl, hdec⟩

/-- C10 does not hold for the code: a non-uniform update of a row in the second
decomposition dimension (`d = 1`) with a dynamic box leaves a cell narrower
than `cellsize_limit_f / DD_CELL_MARGIN` and does not end in the fatal error.
All rows of the grid have the boundaries 0, 0.201, 0.402, 0.652, 1, so every
old cell is at least 0.201 wide; the limits for the current box are
`cellsize_limit_f = 0.2` and, with the factor `DD_PRES_SCALE_MARGIN` of a
dynamic box, `dist_min_f = 0.204`.  The old state obeys the cell-size limit
and the distance `grid_jump/box*DD_CELL_MARGIN = 0.2` between the boundaries of
neighbouring rows; only the extra 2 % of `DD_PRES_SCALE_MARGIN` is not met.
The loads 94, 100, 109, 97 scale the sizes to 0.20703, 0.201, 0.23875,
0.35322, which sum to 1, so the rescaling loop changes nothing and no cell is
at the minimum; the boundaries are 0, 0.20703, 0.40803, 0.64678, 1 and the
halfway corrections do not apply.  For boundary 1 lines 1826-1833 give
`bound_min = 0 + 0.204 = 0.204` and `bound_max = 0.402 - 0.204 = 0.198`;
boundary 1 is not below `bound_min` but above `bound_max`, so line 1934 sets it
to 0.198.  Cell 0 is then 0.198 wide, less than `0.2/1.00001`, and the final
check only prints a warning for cell 0, although the comment of lines
1941-1943 expects the cells to obey the restriction at that point. -/
theorem set_dd_cell_sizes_dlb_clamp_below_limit :
    ∃ r, set_dd_cell_sizes_dlb_root 4 4 1 false true 1 400 ex_dlb_load3 6
        2 (100001 / 10000) 2 false 1 ex_dlb_rows = some (some r) ∧
      dlb_cellsize_limit_f 2 (100001 / 10000) false 1 = 2 / 10 ∧
      dlb_dist_min_f 2 (100001 / 10000) false 1 true 1 = 204 / 1000 ∧
      dlb_dist_min_f 2 (100001 / 10000) false 1 false 1 = 2 / 10 ∧
      (ex_dlb_load3 2 + ex_dlb_load3 8 + ex_dlb_load3 14 + ex_dlb_load3 20 = 400) ∧
      (∀ i, i < 4 → ex_dlb_rows.cell_f_max0 i = ex_dlb_rows.cell_f i ∧
        ex_dlb_rows.cell_f_min1 i = ex_dlb_rows.cell_f (i + 1) ∧
        ex_dlb_rows.cell_size i = ex_dlb_rows.cell_f (i + 1) - ex_dlb_rows.cell_f i ∧
        201 / 1000 ≤ ex_dlb_rows.cell_f (i + 1) - ex_dlb_rows.cell_f i) ∧
      r.bound_min 1 = 204 / 1000 ∧ r.bound_max 1 = 198 / 1000 ∧
      r.cell_f 0 = 0 ∧ r.cell_f 1 = 198 / 1000 ∧ r.cell_f 2 = 40803 / 100000 ∧
      r.cell_f 3 = 64678 / 100000 ∧ r.cell_f 4 = 1 ∧
      ¬ (dlb_cellsize_limit_f 2 (100001 / 10000) false 1 / DD_CELL_MARGIN ≤
        r.cell_f 1 - r.cell_f 0) ∧
      dlb_too_small 4 (dlb_cellsize_limit_f 2 (100001 / 10000) false 1) r = [0] := by
  have hdec : ((set_dd_cell_sizes_dlb_root 4 4 1 false true 1 400 ex_dlb_load3 6
      2 (100001 / 10000) 2 false 1 ex_dlb_rows).bind id).map
      (fun r => decide (
        dlb_cellsize_limit_f 2 (100001 / 10000) false 1 = 2 / 10 ∧
        dlb_dist_min_f 2 (100001 / 10000) false 1 true 1 = 204 / 1000 ∧
        dlb_dist_min_f 2 (100001 / 10000) false 1 false 1 = 2 / 10 ∧
        (ex_dlb_load3 2 + ex_dlb_load3 8 + ex_dlb_load3 14 + ex_dlb_load3 20 = 400) ∧
        (∀ i, i < 4 → ex_dlb_rows.cell_f_max0 i = ex_dlb_rows.cell_f i ∧
          ex_dlb_rows.cell_f_min1 i = ex_dlb_rows.cell_f (i + 1) ∧
          ex_dlb_rows.cell_size i = ex_dlb_rows.cell_f (i + 1) - ex_dlb_rows.cell_f i ∧
          201 / 1000 ≤ ex_dlb_rows.cell_f (i + 1) - ex_dlb_rows.cell_f i) ∧
        r.bound_min 1 = 204 / 1000 ∧ r.bound_max 1 = 198 / 1000 ∧
        r.cell_f 0 = 0 ∧ r.cell_f 1 = 198 / 1000 ∧ r.cell_f 2 = 40803 / 100000 ∧
        r.cell_f 3 = 64678 / 100000 ∧ r.cell_f 4 = 1 ∧
        ¬ (dlb_cellsize_limit_f 2 (100001 / 10000) false 1 / DD_CELL_MARGIN ≤
          r.cell_f 1 - r.cell_f 0) ∧
        dlb_too_small 4 (dlb_cellsize_limit_f 2 (100001 / 10000) false 1) r = [0]))
      = some true := by
    decide!
  cases hX : set_dd_cell_sizes_dlb_root 4 4 1 false true 1 400 ex_dlb_load3 6
      2 (100001 / 10000) 2 false 1 ex_dlb_rows with
  | none =>
    rw [hX] at hdec
    exact absurd hdec (by simp)
  | some o =>
    cases o with
    | none =>
      rw [hX] at hdec
      exact absurd hdec (by simp)
    | some r =>
      rw [hX] at hdec
      simp only [Option.bind, id, Option.map, Option.some.injEq, decide_eq_true_eq] at hdec
      exact ⟨r, rfl, hdec⟩

/-! ## One step of dynamic load balancing on a uniform row -/

/-- A loop whose iteration `a` establishes `Q a` and keeps every `Q b` leaves
`Q b` for every `b` it visited. -/
theorem foldl_mem_inv {σ α : Type} (P : σ → Prop) (Q : α → σ → Prop) (f : σ → α → σ)
    (hP : ∀ t a, P t → P (f t a)) (hset : ∀ t a, P t → Q a (f t a))
    (hkeep : ∀ t a b, P t → Q b t → Q b (f t a)) (l : List α) :
    ∀ s, P s → ∀ b, b ∈ l → Q b (l.foldl f s) := by
  induction l with
  | nil => intro s _ b hb; simp at hb
  | cons a l ih =>
    intro s hs b hb
    rw [List.foldl_cons]
    rcases List.mem_cons.mp hb with e | hb2
    · subst e
      have := foldl_inv (fun t => P t ∧ Q b t) f l (f s b)
        (fun t a _ ht => ⟨hP t a ht.1, hkeep t a b ht.1 ht.2⟩) ⟨hP s b hs, hset s b hs⟩
      exact this.2
    · exact ih (f s a) (hP s a hs) b hb2

/-- The sizes that `dlb_load_sizes` computes from the loads. -/
theorem dlb_load_sizes_spec (nc nload : Nat) (sum_m : real) (load : Nat → real)
    (root : gmx_domdec_root) :
    ∀ k,
      (∀ j, j < k →
        ((List.range k).foldl
          (fun r i =>
            { r with cell_size := (Function.update r.cell_size i
              (r.cell_size i * (1 + dlb_change (sum_m / (nc : real)) (load (i * nload + 2))))) })
          root).cell_size j =
          root.cell_size j * (1 + dlb_change (sum_m / (nc : real)) (load (j * nload + 2)))) ∧
      (∀ j, k ≤ j →
        ((List.range k).foldl
          (fun r i =>
            { r with cell_size := (Function.update r.cell_size i
              (r.cell_size i * (1 + dlb_change (sum_m / (nc : real)) (load (i * nload + 2))))) })
          root).cell_size j = root.cell_size j) := by
  intro k
  induction k with
  | zero =>
    constructor
    · intro j hj
      omega
    · intro j _
      rfl
  | succ k ih =>
    obtain ⟨h1, h2⟩ := ih
    rw [List.range_succ, List.foldl_append, List.foldl_cons, List.foldl_nil]
    generalize (List.range k).foldl
      (fun r i =>
        { r with cell_size := (Function.update r.cell_size i
          (r.cell_size i * (1 + dlb_change (sum_m / (nc : real)) (load (i * nload + 2))))) })
      root = t at h1 h2
    simp only
    constructor
    · intro j hj
      by_cases e : j = k
      · subst e
        rw [Function.update_same, h2 j (le_refl _)]
      · rw [Function.update_noteq e]
        exact h1 j (by omega)
    · intro j hj
      rw [Function.update_noteq (by omega)]
      exact h2 j (by omega)

theorem dlb_store_old_sizes (nc : Nat) (root : gmx_domdec_root) :
    (dlb_store_old nc root).cell_size = root.cell_size := by
  unfold dlb_store_old
  apply foldl_inv (fun r => r.cell_size = root.cell_size) _ _ root _ rfl
  intro t a _ ht
  exact ht

theorem dlb_bounds_sizes (nc : Nat) (dist_min_f : real) (root : gmx_domdec_root) :
    (dlb_bounds nc dist_min_f root).cell_size = root.cell_size := by
  unfold dlb_bounds
  apply foldl_inv (fun r => r.cell_size = root.cell_size) _ _ root _ rfl
  intro t a _ ht
  exact ht

theorem dlb_clear_min_sizes (nc : Nat) (root : gmx_domdec_root) :
    (dlb_clear_min nc root).cell_size = root.cell_size := by
  unfold dlb_clear_min
  apply foldl_inv (fun r => r.cell_size = root.cell_size) _ _ root _ rfl
  intro t a _ ht
  exact ht

theorem dlb_push_up_sizes (nc : Nat) (L : real) (i : Nat) (root : gmx_domdec_root) :
    (dlb_push_up nc L i root).cell_size = root.cell_size := by
  unfold dlb_push_up
  apply foldl_inv (fun r => r.cell_size = root.cell_size) _ _ root _ rfl
  intro t a _ ht
  split_ifs <;> exact ht

theorem dlb_push_down_sizes (L : real) (i : Nat) (root : gmx_domdec_root) :
    (dlb_push_down L i root).cell_size = root.cell_size := by
  unfold dlb_push_down
  apply foldl_inv (fun r => r.cell_size = root.cell_size) _ _ root _ rfl
  intro t a _ ht
  split_ifs <;> exact ht

theorem dlb_halfway_cell_sizes (nc : Nat) (L : real) (r : gmx_domdec_root) (i : Nat) :
    (dlb_halfway_cell nc L r i).cell_size = r.cell_size := by
  unfold dlb_halfway_cell
  simp only
  split_ifs
  · exact (dlb_push_down_sizes L i _).trans (dlb_push_up_sizes nc L i _)
  · exact dlb_push_up_sizes nc L i _
  · exact dlb_push_down_sizes L i _
  · rfl

theorem dlb_halfway_sizes (nc : Nat) (L : real) (root : gmx_domdec_root) :
    (dlb_halfway nc L root).cell_size = root.cell_size := by
  unfold dlb_halfway
  apply foldl_inv (fun r => r.cell_size = root.cell_size) _ _ root _ rfl
  intro t a _ ht
  exact (dlb_halfway_cell_sizes nc L t a).trans ht

theorem dlb_stagger_sizes (nc : Nat) (root : gmx_domdec_root) :
    (dlb_stagger nc root).cell_size = root.cell_size := by
  unfold dlb_stagger
  apply foldl_inv (fun r => r.cell_size = root.cell_size) _ _ root _ rfl
  intro t a _ ht
  unfold dlb_stagger_cell
  simp only
  split_ifs <;> exact ht

/-- A cell that is not at the minimum and stays above it is scaled by `fac`. -/
theorem dlb_rescale_cell_free (fac L : real) (s : gmx_domdec_root × Nat) (i : Nat)
    (hb : s.1.bCellMin i = false) (hs : ¬ s.1.cell_size i * fac < L) :
    (dlb_rescale_cell fac L s i).2 = s.2 ∧
    (dlb_rescale_cell fac L s i).1.bCellMin = s.1.bCellMin ∧
    (dlb_rescale_cell fac L s i).1.old_cell_f = s.1.old_cell_f ∧
    (dlb_rescale_cell fac L s i).1.cell_size =
      Function.update s.1.cell_size i (s.1.cell_size i * fac) ∧
    (dlb_rescale_cell fac L s i).1.cell_f =
      Function.update s.1.cell_f (i + 1) (s.1.cell_f i + s.1.cell_size i * fac) := by
  unfold dlb_rescale_cell
  simp only [hb, hs, if_true, if_false, Function.update_same]
  exact ⟨trivial, trivial, trivial, trivial, trivial⟩

/-- A pass of the loop in which no cell is or becomes pinned scales every
cell by `fac` and sums the boundaries up. -/
theorem dlb_rescale_cells_free (fac L : real) (nc : Nat) (s0 : gmx_domdec_root × Nat)
    (hfree : ∀ j, j < nc → s0.1.bCellMin j = false ∧ ¬ s0.1.cell_size j * fac < L) :
    ∀ k, k ≤ nc →
      ((List.range k).foldl (dlb_rescale_cell fac L) s0).2 = s0.2 ∧
      ((List.range k).foldl (dlb_rescale_cell fac L) s0).1.bCellMin = s0.1.bCellMin ∧
      ((List.range k).foldl (dlb_rescale_cell fac L) s0).1.old_cell_f = s0.1.old_cell_f ∧
      (∀ j, j < k → ((List.range k).foldl (dlb_rescale_cell fac L) s0).1.cell_size j =
        s0.1.cell_size j * fac) ∧
      (∀ j, k ≤ j → ((List.range k).foldl (dlb_rescale_cell fac L) s0).1.cell_size j =
        s0.1.cell_size j) ∧
      ((List.range k).foldl (dlb_rescale_cell fac L) s0).1.cell_f 0 = s0.1.cell_f 0 ∧
      (∀ j, j < k → ((List.range k).foldl (dlb_rescale_cell fac L) s0).1.cell_f (j + 1) =
        ((List.range k).foldl (dlb_rescale_cell fac L) s0).1.cell_f j +
          s0.1.cell_size j * fac) := by
  intro k
  induction k with
  | zero =>
    intro _
    refine ⟨rfl, rfl, rfl, ?_, ?_, rfl, ?_⟩
    · intro j hj; omega
    · intro j _; rfl
    · intro j hj; omega
  | succ k ih =>
    intro hk
    obtain ⟨h1, h2, h3, h4, h5, h6, h7⟩ := ih (by omega)
    rw [List.range_succ, List.foldl_append, List.foldl_cons, List.foldl_nil]
    generalize (List.range k).foldl (dlb_rescale_cell fac L) s0 = t at h1 h2 h3 h4 h5 h6 h7
    obtain ⟨f1, f2⟩ := hfree k (by omega)
    have hb : t.1.bCellMin k = false := by rw [h2]; exact f1
    have hs : ¬ t.1.cell_size k * fac < L := by rw [h5 k (le_refl _)]; exact f2
    obtain ⟨g1, g2, g3, g4, g5⟩ := dlb_rescale_cell_free fac L t k hb hs
    refine ⟨g1.trans h1, g2.trans h2, g3.trans h3, ?_, ?_, ?_, ?_⟩
    · intro j hj
      rw [g4]
      by_cases e : j = k
      · subst e
        rw [Function.update_same, h5 j (le_refl _)]
      · rw [Function.update_noteq e]
        exact h4 j (by omega)
    · intro j hj
      rw [g4, Function.update_noteq (by omega)]
      exact h5 j (by omega)
    · rw [g5, Function.update_noteq (by omega)]
      exact h6
    · intro j hj
      rw [g5]
      by_cases e : j = k
      · subst e
        rw [Function.update_same, Function.update_noteq (by omega), h5 j (le_refl _)]
      · rw [Function.update_noteq (by omega), Function.update_noteq (by omega)]
        exact h7 j (by omega)

/-- When a pass pins no cell the `do ... while` loop ends after it, whatever
the fuel is. -/
theorem dlb_rescale_one_pass (nc : Nat) (dist_min_f L : real) (fuel : Nat)
    (s : gmx_domdec_root × Nat) (h : (dlb_rescale_pass nc dist_min_f L s).2 = s.2) :
    dlb_rescale nc dist_min_f L fuel s = some (dlb_rescale_pass nc dist_min_f L s) := by
  cases fuel with
  | zero =>
    unfold dlb_rescale
    rw [if_neg (by rw [h]; exact lt_irrefl _)]
  | succ n =>
    unfold dlb_rescale
    rw [if_neg (by rw [h]; exact lt_irrefl _)]

theorem dlb_change_double (l : real) (hl : 0 < l) :
    dlb_change (5 * l / ((4 : Nat) : real)) (2 * l) = -(1 / 20) ∧
    dlb_change (5 * l / ((4 : Nat) : real)) l = 1 / 20 := by
  have hne : l ≠ 0 := ne_of_gt hl
  have e1 : (2 * l - 5 * l / ((4 : Nat) : real)) / (5 * l / ((4 : Nat) : real)) = 3 / 5 := by
    push_cast
    field_simp
    ring
  have e2 : (l - 5 * l / ((4 : Nat) : real)) / (5 * l / ((4 : Nat) : real)) = -(1 / 5) := by
    push_cast
    field_simp
    ring
  constructor
  · unfold dlb_change
    simp only [e1]
    norm_num
  · unfold dlb_change
    simp only [e2]
    norm_num

theorem dlb_free_total_four (r : gmx_domdec_root)
    (hb : ∀ j, j < 4 → r.bCellMin j = false) :
    dlb_free_total 4 r = r.cell_size 0 + r.cell_size 1 + r.cell_size 2 + r.cell_size 3 := by
  unfold dlb_free_total
  simp [List.range_succ, hb 0 (by decide), hb 1 (by decide), hb 2 (by decide),
    hb 3 (by decide)]

theorem dlb_last_margin (L : real) (hL : L ≤ 19 / 82) :
    ¬ ((21 : real) / 82 < L * DD_CELL_MARGIN2 / DD_CELL_MARGIN) := by
  unfold DD_CELL_MARGIN2 DD_CELL_MARGIN
  rw [not_lt, div_le_iff₀ (by norm_num)]
  nlinarith

/-- The loop and the last boundary for a row of four cells with the sizes
19/80, 21/80, 21/80, 21/80 and a limit of at most 19/82: one pass without
pinned cells. -/
theorem dlb_double_load_from_clear (dist_min_f L : real) (r2 : gmx_domdec_root) (fuel : Nat)
    (h0 : r2.cell_size 0 = 19 / 80)
    (h1 : ∀ j, 1 ≤ j → j < 4 → r2.cell_size j = 21 / 80) (hL : L ≤ 19 / 82) :
    ∃ s r4, dlb_rescale 4 dist_min_f L fuel (dlb_clear_min 4 r2, 0) = some s ∧
      dlb_last_boundary 4 L s = some r4 ∧
      r4.cell_size 0 = 19 / 82 ∧ (∀ j, 1 ≤ j → j < 4 → r4.cell_size j = 21 / 82) ∧
      r4.cell_f 0 = 0 ∧ r4.cell_f 1 = 19 / 82 ∧ r4.cell_f 2 = 40 / 82 ∧ r4.cell_f 3 = 61 / 82 ∧
      r4.cell_f 4 = 1 ∧ r4.old_cell_f = r2.old_cell_f := by
  have hb := dlb_clear_min_spec 4 r2
  have hsz := dlb_clear_min_sizes 4 r2
  have hold : (dlb_clear_min 4 r2).old_cell_f = r2.old_cell_f := by
    unfold dlb_clear_min
    apply foldl_inv (fun r => r.old_cell_f = r2.old_cell_f) _ _ r2 _ rfl
    intro t a _ ht
    exact ht
  generalize dlb_clear_min 4 r2 = r3 at hb hsz hold
  have c0 : r3.cell_size 0 = 19 / 80 := by rw [hsz]; exact h0
  have c1 : r3.cell_size 1 = 21 / 80 := by rw [hsz]; exact h1 1 (by decide) (by decide)
  have c2 : r3.cell_size 2 = 21 / 80 := by rw [hsz]; exact h1 2 (by decide) (by decide)
  have c3 : r3.cell_size 3 = 21 / 80 := by rw [hsz]; exact h1 3 (by decide) (by decide)
  have hc : ∀ j, j < 4 → 19 / 80 ≤ r3.cell_size j := by
    intro j hj
    interval_cases j
    · rw [c0]
    · rw [c1]; norm_num
    · rw [c2]; norm_num
    · rw [c3]; norm_num
  have hfac : (1 - ((0 : Nat) : real) * dist_min_f) / dlb_free_total 4 r3 = 40 / 41 := by
    rw [dlb_free_total_four r3 hb, c0, c1, c2, c3]
    norm_num
  have hpass := dlb_rescale_cells_free (40 / 41) L 4
    (⟨Function.update r3.cell_f 0 0, r3.old_cell_f, r3.cell_size, r3.bCellMin, r3.cell_f_max0,
      r3.cell_f_min1, r3.bound_min, r3.bound_max, r3.bLimited⟩, 0)
    (by
      intro j hj
      refine ⟨hb j hj, ?_⟩
      have := hc j hj
      simp only
      rw [not_lt]
      linarith) 4 (le_refl _)
  have hpe : dlb_rescale_pass 4 dist_min_f L (r3, 0) =
      (List.range 4).foldl (dlb_rescale_cell (40 / 41) L)
        (⟨Function.update r3.cell_f 0 0, r3.old_cell_f, r3.cell_size, r3.bCellMin,
          r3.cell_f_max0, r3.cell_f_min1, r3.bound_min, r3.bound_max, r3.bLimited⟩, 0) := by
    unfold dlb_rescale_pass
    simp only
    rw [hfac]
  rw [← hpe] at hpass
  obtain ⟨p1, _, p3, p4, _, p6, p7⟩ := hpass
  simp only [Function.update_same] at p1 p3 p4 p6 p7
  have hres := dlb_rescale_one_pass 4 dist_min_f L fuel (r3, 0) p1
  generalize dlb_rescale_pass 4 dist_min_f L (r3, 0) = s at hres p1 p3 p4 p6 p7
  have f1 : s.1.cell_f 1 = 19 / 82 := by
    have := p7 0 (by decide)
    rw [p6, c0] at this
    rw [this]
    norm_num
  have f2 : s.1.cell_f 2 = 40 / 82 := by
    have := p7 1 (by decide)
    rw [f1, c1] at this
    rw [this]
    norm_num
  have f3 : s.1.cell_f 3 = 61 / 82 := by
    have := p7 2 (by decide)
    rw [f2, c2] at this
    rw [this]
    norm_num
  have hlast : dlb_last_boundary 4 L s =
      some ⟨Function.update s.1.cell_f 4 1, s.1.old_cell_f,
        Function.update s.1.cell_size 3 (1 - s.1.cell_f 3), s.1.bCellMin, s.1.cell_f_max0,
        s.1.cell_f_min1, s.1.bound_min, s.1.bound_max, decide (s.2 > 0)⟩ := by
    unfold dlb_last_boundary
    simp only [Nat.add_one_sub_one, Nat.reduceSub, Nat.reduceAdd, Function.update_same,
      Function.update_noteq (by decide : (3 : Nat) ≠ 4)]
    rw [if_neg]
    rw [f3]
    have := dlb_last_margin L hL
    norm_num at this ⊢
    exact this
  refine ⟨s, _, hres, hlast, ?_, ?_, ?_, ?_, ?_, ?_, ?_, ?_⟩
  · simp only
    rw [Function.update_noteq (by decide), p4 0 (by decide), c0]
    norm_num
  · intro j hj1 hj2
    simp only
    by_cases e : j = 3
    · subst e
      rw [Function.update_same, f3]
      norm_num
    · rw [Function.update_noteq e, p4 j hj2]
      have : j = 1 ∨ j = 2 := by omega
      rcases this with e1 | e1 <;> subst e1
      · rw [c1]; norm_num
      · rw [c2]; norm_num
  · simp only
    rw [Function.update_noteq (by decide)]
    exact p6
  · simp only
    rw [Function.update_noteq (by decide)]
    exact f1
  · simp only
    rw [Function.update_noteq (by decide)]
    exact f2
  · simp only
    rw [Function.update_noteq (by decide)]
    exact f3
  · simp only
    rw [Function.update_same]
  · simp only
    rw [p3, hold]

theorem dlb_load_sizes_cell_size (nc nload : Nat) (sum_m : real) (load : Nat → real)
    (root : gmx_domdec_root) (j : Nat) (hj : j < nc) :
    (dlb_load_sizes nc nload sum_m load root).cell_size j =
      root.cell_size j * (1 + dlb_change (sum_m / (nc : real)) (load (j * nload + 2))) :=
  (dlb_load_sizes_spec nc nload sum_m load root nc).1 j hj

theorem dlb_load_sizes_old (nc nload : Nat) (sum_m : real) (load : Nat → real)
    (root : gmx_domdec_root) :
    (dlb_load_sizes nc nload sum_m load root).old_cell_f = root.old_cell_f := by
  unfold dlb_load_sizes
  apply foldl_inv (fun r => r.old_cell_f = root.old_cell_f) _ _ root _ rfl
  intro t a _ ht
  exact ht

theorem dlb_store_old_spec (nc : Nat) (root : gmx_domdec_root) :
    ∀ i, i ≤ nc → (dlb_store_old nc root).old_cell_f i = root.cell_f i := by
  intro i hi
  exact foldl_mem_inv (fun r => r.cell_f = root.cell_f)
    (fun i r => r.old_cell_f i = root.cell_f i)
    (fun r i => { r with old_cell_f := Function.update r.old_cell_f i (r.cell_f i) })
    (fun t a ht => ht)
    (by
      intro t a ht
      simp only [Function.update_same]
      rw [ht])
    (by
      intro t a b ht hq
      by_cases e : b = a
      · subst e
        simp only [Function.update_same]
        rw [ht]
      · simp only [Function.update_noteq e]
        exact hq)
    (List.range (nc + 1)) root rfl i (List.mem_range.mpr (by omega))

/-- The halfway check changes nothing in a row whose boundaries stay within
halfway of the old cells. -/
theorem dlb_halfway_noop (nc : Nat) (L : real) (r : gmx_domdec_root)
    (h : ∀ i, 1 ≤ i → i < nc →
      ¬ r.cell_f i < 1 / 2 * (r.old_cell_f i + r.old_cell_f (i - 1)) ∧
      ¬ r.cell_f i > 1 / 2 * (r.old_cell_f i + r.old_cell_f (i + 1))) :
    dlb_halfway nc L r = r := by
  unfold dlb_halfway
  apply foldl_inv (fun t => t = r) _ _ r _ rfl
  intro t a ha ht
  rw [List.mem_range'_1] at ha
  subst ht
  obtain ⟨h1, h2⟩ := h a ha.1 (by omega)
  unfold dlb_halfway_cell
  simp only [h1, h2, if_false]

/-- C11: for a row of four cells that starts from the uniform sizes
`cell_size[i] = 1/4`, where cell 0 reports the load `2*l` and the cells 1, 2, 3
the load `l > 0` each (`sum_m` is their sum `5*l`), and a fractional minimum
`cellsize_limit_f` of at most 19/82, so that no cell is pinned, one call of
`set_dd_cell_sizes_dlb` in non-uniform mode returns for every fuel without a
fatal error, with `cell_size[0] = 19/82 < 1/4 < 21/82 = cell_size[i]` for
`i = 1, 2, 3`, and no entry of `cell_size` is below the fractional minimum.
For the first decomposition dimension and old boundaries `i/4` the new
boundaries are the sums of these sizes. -/
theorem set_dd_cell_sizes_dlb_double_load (d nload : Nat) (bDynamicBox : Bool)
    (load_count : Nat) (l : real) (load : Nat → real)
    (cellsize_min box_dd grid_jump : real) (tric_dir : Bool) (skew_fac : real)
    (root : gmx_domdec_root)
    (hcount : load_count ≠ 0) (hl : 0 < l)
    (hsize : ∀ i, i < 4 → root.cell_size i = 1 / 4)
    (hload0 : load (0 * nload + 2) = 2 * l)
    (hload : ∀ i, 1 ≤ i → i < 4 → load (i * nload + 2) = l)
    (hlim : dlb_cellsize_limit_f cellsize_min box_dd tric_dir skew_fac ≤ 19 / 82) :
    ∀ fuel, ∃ r,
      set_dd_cell_sizes_dlb_root fuel 4 d false bDynamicBox load_count (5 * l) load nload
        cellsize_min box_dd grid_jump tric_dir skew_fac root = some (some r) ∧
      r.cell_size 0 = 19 / 82 ∧ (∀ i, 1 ≤ i → i < 4 → r.cell_size i = 21 / 82) ∧
      r.cell_size 0 < 1 / 4 ∧ (∀ i, 1 ≤ i → i < 4 → 1 / 4 < r.cell_size i) ∧
      (∀ i, i < 4 →
        dlb_cellsize_limit_f cellsize_min box_dd tric_dir skew_fac ≤ r.cell_size i) ∧
      (d = 0 → (∀ i, i ≤ 4 → root.cell_f i = (i : real) / 4) →
        ∀ i, i < 4 → r.cell_f (i + 1) - r.cell_f i = r.cell_size i) := by
  intro fuel
  obtain ⟨ch0, ch1⟩ := dlb_change_double l hl
  have hr1 : (dlb_load_sizes 4 nload (5 * l) load (dlb_store_old 4 root)).cell_size 0 = 19 / 80 ∧
      ∀ j, 1 ≤ j → j < 4 →
        (dlb_load_sizes 4 nload (5 * l) load (dlb_store_old 4 root)).cell_size j = 21 / 80 := by
    constructor
    · rw [dlb_load_sizes_cell_size 4 nload (5 * l) load _ 0 (by decide), dlb_store_old_sizes,
        hsize 0 (by decide), hload0, ch0]
      norm_num
    · intro j hj1 hj2
      rw [dlb_load_sizes_cell_size 4 nload (5 * l) load _ j hj2, dlb_store_old_sizes,
        hsize j hj2, hload j hj1 hj2, ch1]
      norm_num
  have hfin : ∀ r : gmx_domdec_root, r.cell_size 0 = 19 / 82 →
      (∀ i, 1 ≤ i → i < 4 → r.cell_size i = 21 / 82) →
      r.cell_size 0 < 1 / 4 ∧ (∀ i, 1 ≤ i → i < 4 → 1 / 4 < r.cell_size i) ∧
      (∀ i, i < 4 →
        dlb_cellsize_limit_f cellsize_min box_dd tric_dir skew_fac ≤ r.cell_size i) := by
    intro r a0 a1
    refine ⟨by rw [a0]; norm_num, ?_, ?_⟩
    · intro i hi1 hi2
      rw [a1 i hi1 hi2]
      norm_num
    · intro i hi
      by_cases e : i = 0
      · subst e
        rw [a0]
        exact hlim
      · rw [a1 i (by omega) hi]
        linarith
  by_cases hd : 0 < d
  · obtain ⟨s, r4, hres, hlast, a0, a1, _⟩ := dlb_double_load_from_clear
      (dlb_dist_min_f grid_jump box_dd tric_dir skew_fac bDynamicBox d)
      (dlb_cellsize_limit_f cellsize_min box_dd tric_dir skew_fac)
      (dlb_bounds 4 (dlb_dist_min_f grid_jump box_dd tric_dir skew_fac bDynamicBox d)
        (dlb_load_sizes 4 nload (5 * l) load (dlb_store_old 4 root))) fuel
      (by rw [dlb_bounds_sizes]; exact hr1.1)
      (by intro j hj1 hj2; rw [dlb_bounds_sizes]; exact hr1.2 j hj1 hj2) hlim
    unfold set_dd_cell_sizes_dlb_root
    simp only [Bool.false_eq_true, if_false, hcount, ne_eq, not_false_eq_true, if_true, hd,
      gt_iff_lt, and_self]
    rw [hres]
    simp only []
    rw [hlast]
    simp only []
    have b0 : (dlb_stagger 4 (dlb_halfway 4
        (dlb_cellsize_limit_f cellsize_min box_dd tric_dir skew_fac) r4)).cell_size =
        r4.cell_size := by
      rw [dlb_stagger_sizes, dlb_halfway_sizes]
    refine ⟨_, rfl, ?_, ?_, ?_⟩
    · rw [b0]; exact a0
    · rw [b0]; exact a1
    · obtain ⟨x1, x2, x3⟩ := hfin _ (by rw [b0]; exact a0) (by rw [b0]; exact a1)
      refine ⟨x1, x2, x3, ?_⟩
      intro h0
      omega
  · obtain ⟨s, r4, hres, hlast, a0, a1, g0, g1, g2, g3, g4, gold⟩ := dlb_double_load_from_clear
      (dlb_dist_min_f grid_jump box_dd tric_dir skew_fac bDynamicBox d)
      (dlb_cellsize_limit_f cellsize_min box_dd tric_dir skew_fac)
      (dlb_load_sizes 4 nload (5 * l) load (dlb_store_old 4 root)) fuel
      hr1.1 hr1.2 hlim
    unfold set_dd_cell_sizes_dlb_root
    simp only [Bool.false_eq_true, if_false, hcount, ne_eq, not_false_eq_true, if_true, hd,
      gt_iff_lt, false_and]
    rw [hres]
    simp only []
    rw [hlast]
    simp only []
    have b0 : (dlb_halfway 4
        (dlb_cellsize_limit_f cellsize_min box_dd tric_dir skew_fac) r4).cell_size =
        r4.cell_size := dlb_halfway_sizes _ _ _
    refine ⟨_, rfl, ?_, ?_, ?_⟩
    · rw [b0]; exact a0
    · rw [b0]; exact a1
    · obtain ⟨x1, x2, x3⟩ := hfin _ (by rw [b0]; exact a0) (by rw [b0]; exact a1)
      refine ⟨x1, x2, x3, ?_⟩
      intro _ hcf i hi
      have hold : ∀ j, j ≤ 4 → r4.old_cell_f j = (j : real) / 4 := by
        intro j hj
        rw [gold, dlb_load_sizes_old, dlb_store_old_spec 4 root j hj]
        exact hcf j hj
      have o0 := hold 0 (by decide)
      have o1 := hold 1 (by decide)
      have o2 := hold 2 (by decide)
      have o3 := hold 3 (by decide)
      have o4 := hold 4 (by decide)
      have hno : dlb_halfway 4 (dlb_cellsize_limit_f cellsize_min box_dd tric_dir skew_fac) r4
          = r4 := by
        apply dlb_halfway_noop
        intro j hj1 hj2
        have : j = 1 ∨ j = 2 ∨ j = 3 := by omega
        rcases this with e | e | e <;> subst e
        · rw [g1, o0, o1, o2]
          norm_num
        · rw [g2, o1, o2, o3]
          norm_num
        · rw [g3, o2, o3, o4]
          norm_num
      rw [hno]
      have : i = 0 ∨ i = 1 ∨ i = 2 ∨ i = 3 := by omega
      rcases this with e | e | e | e <;> subst e
      · rw [g0, g1, a0]
        norm_num
      · rw [g1, g2, a1 1 (by decide) (by decide)]
        norm_num
      · rw [g2, g3, a1 2 (by decide) (by decide)]
        norm_num
      · rw [g3, g4, a1 3 (by decide) (by decide)]
        norm_num

/-- Witness of C11: the uniform row with the loads 2, 1, 1, 1 in the first
decomposition dimension. -/
theorem set_dd_cell_sizes_dlb_double_load_witness :
    ((1 : Nat) ≠ 0 ∧ (0 : real) < 1 ∧
      (∀ i, i < 4 → ex_dlb_uniform_root.cell_size i = 1 / 4) ∧
      ex_dlb_load_double (0 * 6 + 2) = 2 * 1 ∧
      (∀ i, 1 ≤ i → i < 4 → ex_dlb_load_double (i * 6 + 2) = 1) ∧
      dlb_cellsize_limit_f 2 (100001 / 10000) false 1 ≤ 19 / 82) ∧
    ∀ fuel, ∃ r,
      set_dd_cell_sizes_dlb_root fuel 4 0 false false 1 (5 * 1) ex_dlb_load_double 6
        2 (100001 / 10000) 1 false 1 ex_dlb_uniform_root = some (some r) ∧
      r.cell_size 0 = 19 / 82 ∧ (∀ i, 1 ≤ i → i < 4 → r.cell_size i = 21 / 82) ∧
      r.cell_size 0 < 1 / 4 ∧ (∀ i, 1 ≤ i → i < 4 → 1 / 4 < r.cell_size i) ∧
      (∀ i, i < 4 → dlb_cellsize_limit_f 2 (100001 / 10000) false 1 ≤ r.cell_size i) ∧
      (0 = 0 → (∀ i, i ≤ 4 → ex_dlb_uniform_root.cell_f i = (i : real) / 4) →
        ∀ i, i < 4 → r.cell_f (i + 1) - r.cell_f i = r.cell_size i) :=
  ⟨⟨by decide, by norm_num, fun _ _ => rfl, by norm_num [ex_dlb_load_double],
      by
        intro i h1 h2
        have : i * 6 + 2 ≠ 2 := by omega
        simp [ex_dlb_load_double, this],
      by norm_num [dlb_cellsize_limit_f, DD_CELL_MARGIN]⟩,
    set_dd_cell_sizes_dlb_double_load 0 6 false 1 1 ex_dlb_load_double 2 (100001 / 10000) 1
      false 1 ex_dlb_uniform_root (by decide) (by norm_num) (fun _ _ => rfl)
      (by norm_num [ex_dlb_load_double])
      (by
        intro i h1 h2
        have : i * 6 + 2 ≠ 2 := by omega
        simp [ex_dlb_load_double, this])
      (by norm_num [dlb_cellsize_limit_f, DD_CELL_MARGIN])⟩

/-! ## `check_grid_jump` and `set_dd_ns_cell_sizes` -/

theorem except_ite_ok {ε : Type} (P : Prop) [Decidable P] (e : ε) :
    (if P then Except.error e else Except.ok ()) = (Except.ok () : Except ε Unit) ↔ ¬ P := by
  by_cases h : P
  · rw [if_pos h]
    simp [h]
  · rw [if_neg h]
    simp [h]

theorem except_ite_error {ε : Type} (P : Prop) [Decidable P] (e e1 : ε) :
    (if P then Except.error e else Except.ok ()) = (Except.error e1 : Except ε Unit) ↔
      P ∧ e1 = e := by
  by_cases h : P
  · rw [if_pos h]
    simp only [Except.error.injEq, h, true_and]
    exact eq_comm
  · rw [if_neg h]
    simp [h]

theorem check_grid_jump_d_ok (dd : dd_cells) (box : matrix) (d : Nat) :
    check_grid_jump_d dd box d = Except.ok () ↔ ¬ grid_jump_test dd box d := by
  unfold check_grid_jump_d grid_jump_test grid_jump_limit
  exact except_ite_ok _ _

theorem check_grid_jump_d_error (dd : dd_cells) (box : matrix) (d : Nat) (e : dd_fatal) :
    check_grid_jump_d dd box d = Except.error e ↔
      grid_jump_test dd box d ∧ e = dd_fatal.grid_shifted (dd.dim d) dd.ci := by
  unfold check_grid_jump_d grid_jump_test grid_jump_limit
  exact except_ite_error _ _ _

theorem check_grid_jump_loop_error (dd : dd_cells) (box : matrix) (ds : List Nat)
    (e : dd_fatal) : check_grid_jump_loop dd box ds (Except.error e) = Except.error e := by
  induction ds with
  | nil => rfl
  | cons d ds ih =>
    unfold check_grid_jump_loop at ih ⊢
    rw [List.foldl_cons]
    exact ih

theorem check_grid_jump_loop_cons (dd : dd_cells) (box : matrix) (d : Nat) (ds : List Nat) :
    check_grid_jump_loop dd box (d :: ds) (Except.ok ()) =
      check_grid_jump_loop dd box ds (check_grid_jump_d dd box d) := by
  unfold check_grid_jump_loop
  rw [List.foldl_cons]
  rfl

theorem check_grid_jump_loop_spec (dd : dd_cells) (box : matrix) (ds : List Nat) :
    (check_grid_jump_loop dd box ds (Except.ok ()) = Except.ok () ↔
      ∀ d, d ∈ ds → ¬ grid_jump_test dd box d) ∧
    (∀ e, check_grid_jump_loop dd box ds (Except.ok ()) = Except.error e →
      ∃ d, d ∈ ds ∧ grid_jump_test dd box d ∧ e = dd_fatal.grid_shifted (dd.dim d) dd.ci) := by
  induction ds with
  | nil =>
    constructor
    · simp [check_grid_jump_loop]
    · intro e h
      simp [check_grid_jump_loop] at h
  | cons d ds ih =>
    rw [check_grid_jump_loop_cons]
    cases hd : check_grid_jump_d dd box d with
    | error e1 =>
      rw [check_grid_jump_loop_error]
      obtain ⟨ht, he⟩ := (check_grid_jump_d_error dd box d e1).mp hd
      constructor
      · constructor
        · intro h
          exact absurd h (by simp)
        · intro h
          exact absurd ht (h d (List.mem_cons_self _ _))
      · intro e h
        simp only [Except.error.injEq] at h
        subst h
        exact ⟨d, List.mem_cons_self _ _, ht, he⟩
    | ok u =>
      have hn := (check_grid_jump_d_ok dd box d).mp hd
      constructor
      · rw [ih.1]
        constructor
        · intro h d1 hd1
          rcases List.mem_cons.mp hd1 with e1 | h1
          · subst e1
            exact hn
          · exact h d1 h1
        · intro h d1 hd1
          exact h d1 (List.mem_cons_of_mem _ hd1)
      · intro e h
        obtain ⟨d1, hd1, h1, h2⟩ := ih.2 e h
        exact ⟨d1, List.mem_cons_of_mem _ hd1, h1, h2⟩

theorem mem_range'_one (n d : Nat) : d ∈ List.range' 1 (n - 1) ↔ 1 ≤ d ∧ d < n := by
  rw [List.mem_range'_1]
  omega

/-- C12 (amended): `check_grid_jump` tests the decomposition dimension indices
`1 <= d < ndim` only, and for each of them the fractional boundaries
`cell_f0[d]`, `cell_f1[d]` of the cell against the extremes `cell_f_max0[d]`,
`cell_f_min1[d]` of the neighbouring rows with the limit
`max(cutoff_mbody, cutoff/np[d])`.  It returns normally exactly when no such
`d` fails the test, and otherwise the fatal error names the axis `dim[d]` of a
failing `d` and the cell coordinates.  `set_dd_ns_cell_sizes` raises this error
only when `bGridJump` is set and `ndim > 1`; without dynamic load balancing it
then returns the state that `dd_move_cellx` left exactly when the test passes. -/
theorem check_grid_jump_spec (dd : dd_cells) (box : matrix) :
    (check_grid_jump dd box = Except.ok () ↔
      ∀ d, 1 ≤ d → d < dd.ndim → ¬ grid_jump_test dd box d) ∧
    (∀ e, check_grid_jump dd box = Except.error e →
      ∃ d, 1 ≤ d ∧ d < dd.ndim ∧ grid_jump_test dd box d ∧
        e = dd_fatal.grid_shifted (dd.dim d) dd.ci) ∧
    (∀ (dd_move_cellx : dd_cells → dd_cells) (dim : Fin 3) (c : ivec),
      (dd.bGridJump = false ∨ dd.ndim ≤ 1) →
        set_dd_ns_cell_sizes dd box dd_move_cellx ≠
          Except.error (dd_fatal.grid_shifted dim c)) ∧
    (∀ (dd_move_cellx : dd_cells → dd_cells),
      dd.bDynLoadBal = false → dd.bGridJump = true → 1 < dd.ndim →
        (set_dd_ns_cell_sizes dd box dd_move_cellx =
            Except.ok (dd_move_cellx
              { dd with cell_ns_x0 := dd.cell_x0, cell_ns_x1 := dd.cell_x1 }) ↔
          check_grid_jump (dd_move_cellx
              { dd with cell_ns_x0 := dd.cell_x0, cell_ns_x1 := dd.cell_x1 }) box =
            Except.ok ())) := by
  have hs := check_grid_jump_loop_spec dd box (List.range' 1 (dd.ndim - 1))
  refine ⟨?_, ?_, ?_, ?_⟩
  · unfold check_grid_jump
    rw [hs.1]
    constructor
    · intro h d h1 h2
      exact h d ((mem_range'_one _ _).mpr ⟨h1, h2⟩)
    · intro h d hd
      obtain ⟨h1, h2⟩ := (mem_range'_one _ _).mp hd
      exact h d h1 h2
  · intro e h
    obtain ⟨d, hd, h1, h2⟩ := hs.2 e h
    obtain ⟨h3, h4⟩ := (mem_range'_one _ _).mp hd
    exact ⟨d, h3, h4, h1, h2⟩
  · intro mv dim c hcond
    unfold set_dd_ns_cell_sizes
    have hloop : ∀ (l : List Nat) (r : Except dd_fatal Unit),
        (∀ dim c, r ≠ Except.error (dd_fatal.grid_shifted dim c)) →
        ∀ dim c, l.foldl (fun r dim_ind => r.bind (fun _ => set_dd_ns_cell_sizes_dim dd dim_ind)) r
          ≠ Except.error (dd_fatal.grid_shifted dim c) := by
      intro l
      induction l with
      | nil => intro r hr; exact hr
      | cons a l ih =>
        intro r hr
        rw [List.foldl_cons]
        apply ih
        intro dim c
        cases r with
        | error e =>
          exact hr dim c
        | ok u =>
          show set_dd_ns_cell_sizes_dim dd a ≠ _
          unfold set_dd_ns_cell_sizes_dim
          simp only
          split_ifs <;> simp
    have h0 := hloop (List.range dd.ndim) (Except.ok ()) (by intro _ _; simp) dim c
    cases hl : (List.range dd.ndim).foldl
        (fun r dim_ind => r.bind (fun _ => set_dd_ns_cell_sizes_dim dd dim_ind)) (Except.ok ()) with
    | error e =>
      rw [hl] at h0
      intro heq
      have he : e = dd_fatal.grid_shifted dim c := by simpa [Except.bind] using heq
      exact h0 (by rw [he])
    | ok u =>
      have hn : ¬ (dd.bGridJump = true ∧ dd.ndim > 1) := by
        rintro ⟨a, b⟩
        rcases hcond with h | h
        · rw [h] at a
          exact absurd a (by decide)
        · omega
      show (if _ then _ else _) ≠ _
      rw [if_neg hn]
      simp
  · intro mv hdlb hgj hnd
    unfold set_dd_ns_cell_sizes
    have hloop : ∀ (l : List Nat),
        l.foldl (fun r dim_ind => r.bind (fun _ => set_dd_ns_cell_sizes_dim dd dim_ind))
          (Except.ok ()) = Except.ok () := by
      intro l
      induction l with
      | nil => rfl
      | cons a l ih =>
        rw [List.foldl_cons]
        have : (Except.ok () : Except dd_fatal Unit).bind
            (fun _ => set_dd_ns_cell_sizes_dim dd a) = Except.ok () := by
          show set_dd_ns_cell_sizes_dim dd a = _
          unfold set_dd_ns_cell_sizes_dim
          simp [hdlb]
        rw [this]
        exact ih
    rw [hloop]
    show (if _ then _ else _) = _ ↔ _
    rw [if_pos ⟨hgj, hnd⟩]
    cases hc : check_grid_jump (mv { dd with cell_ns_x0 := dd.cell_x0, cell_ns_x1 := dd.cell_x1 })
        box with
    | error e => simp [Except.bind]
    | ok u => simp [Except.bind]

/-- Witness of C12 (amended): the example rank of a two-dimensional
decomposition. -/
theorem check_grid_jump_spec_witness :
    (check_grid_jump ex_dd_cells_2d ex_box2 = Except.ok () ↔
      ∀ d, 1 ≤ d → d < ex_dd_cells_2d.ndim → ¬ grid_jump_test ex_dd_cells_2d ex_box2 d) ∧
    (∀ e, check_grid_jump ex_dd_cells_2d ex_box2 = Except.error e →
      ∃ d, 1 ≤ d ∧ d < ex_dd_cells_2d.ndim ∧ grid_jump_test ex_dd_cells_2d ex_box2 d ∧
        e = dd_fatal.grid_shifted (ex_dd_cells_2d.dim d) ex_dd_cells_2d.ci) :=
  ⟨(check_grid_jump_spec ex_dd_cells_2d ex_box2).1, (check_grid_jump_spec ex_dd_cells_2d ex_box2).2.1⟩

/-- Counterexample to C12 as stated.  In a one-dimensional decomposition the
cell of a rank moved by 3/5 of its size, and `set_dd_ns_cell_sizes` returns
normally whatever `dd_move_cellx` does.  In a two-dimensional decomposition
the cell moved by 3/5 of its size along both the first and the second
dimension, together with the rows next to it, and `check_grid_jump` returns
normally. -/
theorem check_grid_jump_misses_shifted_boundaries :
    ((1 / 2) * (ex_dd_cells_1d.old_cell_x1 XX - ex_dd_cells_1d.old_cell_x0 XX) <
        ex_dd_cells_1d.cell_x0 XX - ex_dd_cells_1d.old_cell_x0 XX ∧
      ∀ dd_move_cellx, (set_dd_ns_cell_sizes ex_dd_cells_1d ex_box2 dd_move_cellx).toBool = true) ∧
    ((∀ d : Fin 2, (1 / 2) * (ex_dd_cells_2d.old_cell_x1 (ex_dd_cells_2d.dim d) -
          ex_dd_cells_2d.old_cell_x0 (ex_dd_cells_2d.dim d)) <
        ex_dd_cells_2d.cell_x0 (ex_dd_cells_2d.dim d) -
          ex_dd_cells_2d.old_cell_x0 (ex_dd_cells_2d.dim d)) ∧
      check_grid_jump ex_dd_cells_2d ex_box2 = Except.ok ()) := by
  refine ⟨⟨by decide!, ?_⟩, by decide!, ?_⟩
  · intro mv
    have h : ∀ d1 : dd_cells, (if ex_dd_cells_1d.bGridJump = true ∧ ex_dd_cells_1d.ndim > 1 then
        (check_grid_jump (mv d1) ex_box2).bind (fun _ => Except.ok (mv d1))
        else Except.ok d1).toBool = true := by
      intro d1
      rw [if_neg (by decide)]
      rfl
    have hl : (List.range ex_dd_cells_1d.ndim).foldl
        (fun r dim_ind => r.bind (fun _ => set_dd_ns_cell_sizes_dim ex_dd_cells_1d dim_ind))
        (Except.ok ()) = Except.ok () := by
      have : (set_dd_ns_cell_sizes_dim ex_dd_cells_1d 0).toBool = true := by decide!
      show (Except.ok ()).bind (fun _ => set_dd_ns_cell_sizes_dim ex_dd_cells_1d 0) = _
      show set_dd_ns_cell_sizes_dim ex_dd_cells_1d 0 = _
      cases hx : set_dd_ns_cell_sizes_dim ex_dd_cells_1d 0 with
      | error e => rw [hx] at this; exact absurd this (by simp [Except.toBool])
      | ok u => rfl
    unfold set_dd_ns_cell_sizes
    rw [hl]
    exact h _
  · have : (check_grid_jump ex_dd_cells_2d ex_box2).toBool = true := by decide!
    cases hx : check_grid_jump ex_dd_cells_2d ex_box2 with
    | error e => rw [hx] at this; exact absurd this (by simp [Except.toBool])
    | ok u => rfl

/-! ## `set_dd_cell_sizes_slb` -/

theorem slb_np_loop_terminates (cellsize cutoff : real) (h : 0 < cellsize) :
    ∃ F, ∀ fuel, F ≤ fuel → ∀ np, ∃ r, slb_np_loop fuel cellsize cutoff np = some r := by
  refine ⟨(⌈cutoff / cellsize⌉).toNat, ?_⟩
  intro fuel hF np
  unfold slb_np_loop
  apply while_loop_terminates _ _ (fun np => (⌈cutoff / cellsize⌉).toNat - np)
  · intro s hs
    simp only [decide_eq_true_eq] at hs
    have h1 : (s : ℚ) < cutoff / cellsize := by
      rw [lt_div_iff₀ h]
      linarith
    have h2 : (s : ℤ) < ⌈cutoff / cellsize⌉ := by
      have := Int.le_ceil (cutoff / cellsize)
      have h3 : ((s : ℤ) : ℚ) < ((⌈cutoff / cellsize⌉ : ℤ) : ℚ) := by
        push_cast
        linarith
      exact_mod_cast h3
    show (⌈cutoff / cellsize⌉).toNat - (s + 1) < (⌈cutoff / cellsize⌉).toNat - s
    omega
  · show (⌈cutoff / cellsize⌉).toNat - np ≤ fuel
    omega

theorem slb_frac_cells_succ (fuel : Nat) (b k c : real) (f : Nat → real) (n : Nat)
    (r : slb_row) :
    slb_frac_cells fuel b k c f (n + 1) r =
      (slb_frac_cells fuel b k c f n r).bind (fun r => slb_frac_cell fuel b k c f r n) := by
  unfold slb_frac_cells
  rw [List.range_succ, List.foldl_append, List.foldl_cons, List.foldl_nil]

theorem slb_frac_cells_terminates (b k c : real) (f : Nat → real) (hb : 0 < b) (hk : 0 < k)
    (n : Nat) (hf : ∀ j, j < n → 0 < f j) :
    ∃ F, ∀ fuel, F ≤ fuel → ∀ r, ∃ r1, slb_frac_cells fuel b k c f n r = some r1 := by
  induction n with
  | zero => exact ⟨0, fun fuel _ r => ⟨r, rfl⟩⟩
  | succ n ih =>
    obtain ⟨F1, h1⟩ := ih (fun j hj => hf j (by omega))
    obtain ⟨F2, h2⟩ := slb_np_loop_terminates (b * f n * k) c
      (mul_pos (mul_pos hb (hf n (by omega))) hk)
    refine ⟨max F1 F2, ?_⟩
    intro fuel hF r
    obtain ⟨r1, e1⟩ := h1 fuel (le_trans (le_max_left _ _) hF) r
    obtain ⟨np, e2⟩ := h2 fuel (le_trans (le_max_right _ _) hF) r1.np
    rw [slb_frac_cells_succ, e1]
    simp only [Option.bind, slb_frac_cell, e2, Option.map]
    exact ⟨_, rfl⟩

/-- The pulse count that the loop over the cells computes does not depend on
the boundaries it starts from. -/
theorem slb_frac_cells_np (fuel : Nat) (b k c : real) (f : Nat → real) (n : Nat) :
    ∀ r r2 : slb_row, r.np = r2.np →
      (slb_frac_cells fuel b k c f n r).map (fun r => r.np) =
        (slb_frac_cells fuel b k c f n r2).map (fun r => r.np) := by
  induction n with
  | zero =>
    intro r r2 h
    simp [slb_frac_cells, h]
  | succ n ih =>
    intro r r2 h
    have := ih r r2 h
    rw [slb_frac_cells_succ, slb_frac_cells_succ]
    cases e1 : slb_frac_cells fuel b k c f n r with
    | none =>
      rw [e1] at this
      cases e2 : slb_frac_cells fuel b k c f n r2 with
      | none => rfl
      | some b2 => rw [e2] at this; simp at this
    | some b1 =>
      rw [e1] at this
      cases e2 : slb_frac_cells fuel b k c f n r2 with
      | none => rw [e2] at this; simp at this
      | some b2 =>
        rw [e2] at this
        simp only [Option.map, Option.some.injEq] at this
        simp only [Option.bind, slb_frac_cell, this]
        cases slb_np_loop fuel (b * f n * k) c b2.np <;> rfl

/-- The pulse count of iteration `d` does not depend on the state at the start
of the iteration. -/
theorem slb_dim_cells_np (fuel : Nat) (nc ci : ivec) (box : matrix) (skew_fac : rvec)
    (slb_frac : Fin 3 → Option (Nat → real)) (cutoff : real) (bMaster : Bool) (d : Fin 3)
    (s : slb_state) :
    (slb_dim_cells fuel nc ci box skew_fac slb_frac cutoff bMaster d s).map (fun s => s.np d) =
      slb_np fuel nc ci box skew_fac slb_frac cutoff bMaster d := by
  unfold slb_np slb_dim_cells
  cases e : (if nc d = 1 then none else slb_frac d) with
  | none =>
    simp only [Option.map_map]
    cases slb_np_loop fuel (box d d / (nc d : real) * skew_fac d) cutoff 1 <;>
      simp [Function.comp]
  | some fr =>
    simp only [Option.map_map]
    have := slb_frac_cells_np fuel (box d d) (skew_fac d) cutoff fr (nc d)
      ⟨Function.update (if bMaster then s.ma_cell_x d else fun _ => 0) 0 0, 1,
        box d d * skew_fac d⟩
      ⟨Function.update (if bMaster then slb_state_zero.ma_cell_x d else fun _ => 0) 0 0, 1,
        box d d * skew_fac d⟩ rfl
    cases e1 : slb_frac_cells fuel (box d d) (skew_fac d) cutoff fr (nc d)
        ⟨Function.update (if bMaster then s.ma_cell_x d else fun _ => 0) 0 0, 1,
          box d d * skew_fac d⟩ with
    | none =>
      rw [e1] at this
      cases e2 : slb_frac_cells fuel (box d d) (skew_fac d) cutoff fr (nc d)
          ⟨Function.update (if bMaster then slb_state_zero.ma_cell_x d else fun _ => 0) 0 0, 1,
            box d d * skew_fac d⟩ with
      | none => rfl
      | some b2 => rw [e2] at this; simp at this
    | some b1 =>
      rw [e1] at this
      cases e2 : slb_frac_cells fuel (box d d) (skew_fac d) cutoff fr (nc d)
          ⟨Function.update (if bMaster then slb_state_zero.ma_cell_x d else fun _ => 0) 0 0, 1,
            box d d * skew_fac d⟩ with
      | none => rw [e2] at this; simp at this
      | some b2 =>
        rw [e2] at this
        simp only [Option.map, Option.some.injEq] at this
        simp [Function.comp, this]

theorem slb_dim_cells_terminates (nc ci : ivec) (box : matrix) (skew_fac : rvec)
    (slb_frac : Fin 3 → Option (Nat → real)) (cutoff : real) (bMaster : Bool) (d : Fin 3)
    (hbox : 0 < box d d) (hskew : 0 < skew_fac d) (hnc : 1 ≤ nc d)
    (hfrac : ∀ fr, slb_frac d = some fr → ∀ j, j < nc d → 0 < fr j) :
    ∃ F, ∀ fuel, F ≤ fuel → ∀ s, ∃ s1,
      slb_dim_cells fuel nc ci box skew_fac slb_frac cutoff bMaster d s = some s1 := by
  unfold slb_dim_cells
  cases e : (if nc d = 1 then none else slb_frac d) with
  | none =>
    have hpos : 0 < box d d / (nc d : real) * skew_fac d := by
      apply mul_pos _ hskew
      apply div_pos hbox
      exact_mod_cast hnc
    obtain ⟨F, hF⟩ := slb_np_loop_terminates _ cutoff hpos
    refine ⟨F, fun fuel hfu s => ?_⟩
    obtain ⟨np, e1⟩ := hF fuel hfu 1
    simp only [e1, Option.map]
    exact ⟨_, rfl⟩
  | some fr =>
    have hfr : slb_frac d = some fr := by
      by_cases h1 : nc d = 1
      · simp [h1] at e
      · simpa [h1] using e
    obtain ⟨F, hF⟩ := slb_frac_cells_terminates (box d d) (skew_fac d) cutoff fr hbox hskew
      (nc d) (hfrac fr hfr)
    refine ⟨F, fun fuel hfu s => ?_⟩
    obtain ⟨r1, e1⟩ := hF fuel hfu
      ⟨Function.update (if bMaster then s.ma_cell_x d else fun _ => 0) 0 0, 1,
        box d d * skew_fac d⟩
    simp only [e1, Option.map]
    exact ⟨_, rfl⟩

theorem set_dd_cell_sizes_slb_dims_fatal (fuel : Nat) (nc ci : ivec) (box : matrix)
    (skew_fac : rvec) (slb_frac : Fin 3 → Option (Nat → real)) (cutoff : real)
    (bMaster ddmaster : Bool) (ds : List (Fin 3)) :
    set_dd_cell_sizes_slb_dims fuel nc ci box skew_fac slb_frac cutoff bMaster ddmaster ds
      (some none) = some none := by
  induction ds with
  | nil => rfl
  | cons d ds ih =>
    unfold set_dd_cell_sizes_slb_dims at ih ⊢
    rw [List.foldl_cons]
    exact ih

theorem set_dd_cell_sizes_slb_dims_none (fuel : Nat) (nc ci : ivec) (box : matrix)
    (skew_fac : rvec) (slb_frac : Fin 3 → Option (Nat → real)) (cutoff : real)
    (bMaster ddmaster : Bool) (ds : List (Fin 3)) :
    set_dd_cell_sizes_slb_dims fuel nc ci box skew_fac slb_frac cutoff bMaster ddmaster ds
      none = none := by
  induction ds with
  | nil => rfl
  | cons d ds ih =>
    unfold set_dd_cell_sizes_slb_dims at ih ⊢
    rw [List.foldl_cons]
    exact ih

theorem set_dd_cell_sizes_slb_dims_cons (fuel : Nat) (nc ci : ivec) (box : matrix)
    (skew_fac : rvec) (slb_frac : Fin 3 → Option (Nat → real)) (cutoff : real)
    (bMaster ddmaster : Bool) (d : Fin 3) (ds : List (Fin 3)) (s : slb_state) :
    set_dd_cell_sizes_slb_dims fuel nc ci box skew_fac slb_frac cutoff bMaster ddmaster
      (d :: ds) (some (some s)) =
    set_dd_cell_sizes_slb_dims fuel nc ci box skew_fac slb_frac cutoff bMaster ddmaster ds
      ((slb_dim_cells fuel nc ci box skew_fac slb_frac cutoff bMaster d s).map
        (fun s1 => if 1 < nc d ∧ nc d ≤ s1.np d ∧ ddmaster = true then none else some s1)) := by
  unfold set_dd_cell_sizes_slb_dims
  rw [List.foldl_cons]
  rfl

/-- The loop over the dimensions ends in the fatal error exactly when this is
the DD master and one of the dimensions has more than one cell and a computed
pulse count that is not below the number of cells. -/
theorem set_dd_cell_sizes_slb_dims_spec (fuel : Nat) (nc ci : ivec) (box : matrix)
    (skew_fac : rvec) (slb_frac : Fin 3 → Option (Nat → real)) (cutoff : real)
    (bMaster ddmaster : Bool) (ds : List (Fin 3)) :
    ∀ (s : slb_state) (r : Option slb_state),
      set_dd_cell_sizes_slb_dims fuel nc ci box skew_fac slb_frac cutoff bMaster ddmaster ds
        (some (some s)) = some r →
      (r = none ↔ ddmaster = true ∧ ∃ d, d ∈ ds ∧ ∃ n, 1 < nc d ∧
        slb_np fuel nc ci box skew_fac slb_frac cutoff bMaster d = some n ∧ nc d ≤ n) := by
  induction ds with
  | nil =>
    intro s r h
    simp only [set_dd_cell_sizes_slb_dims, List.foldl_nil, Option.some.injEq] at h
    subst h
    simp
  | cons d ds ih =>
    intro s r h
    rw [set_dd_cell_sizes_slb_dims_cons] at h
    have hnp := slb_dim_cells_np fuel nc ci box skew_fac slb_frac cutoff bMaster d s
    cases e : slb_dim_cells fuel nc ci box skew_fac slb_frac cutoff bMaster d s with
    | none =>
      rw [e] at h
      simp only [Option.map] at h
      rw [set_dd_cell_sizes_slb_dims_none] at h
      exact absurd h (by simp)
    | some s1 =>
      rw [e] at h hnp
      simp only [Option.map] at h hnp
      by_cases hc : 1 < nc d ∧ nc d ≤ s1.np d ∧ ddmaster = true
      · rw [if_pos hc, set_dd_cell_sizes_slb_dims_fatal] at h
        simp only [Option.some.injEq] at h
        subst h
        simp only [true_iff]
        exact ⟨hc.2.2, d, List.mem_cons_self _ _, s1.np d, hc.1, hnp.symm, hc.2.1⟩
      · rw [if_neg hc] at h
        rw [ih s1 r h]
        constructor
        · rintro ⟨hm, d2, hd2, n, h1, h2, h3⟩
          exact ⟨hm, d2, List.mem_cons_of_mem _ hd2, n, h1, h2, h3⟩
        · rintro ⟨hm, d2, hd2, n, h1, h2, h3⟩
          rcases List.mem_cons.mp hd2 with e2 | hd3
          · subst e2
            rw [← hnp] at h2
            simp only [Option.some.injEq] at h2
            subst h2
            exact absurd ⟨h1, h3, hm⟩ hc
          · exact ⟨hm, d2, hd3, n, h1, h2, h3⟩

theorem set_dd_cell_sizes_slb_dims_terminates (nc ci : ivec) (box : matrix)
    (skew_fac : rvec) (slb_frac : Fin 3 → Option (Nat → real)) (cutoff : real)
    (bMaster ddmaster : Bool)
    (hbox : ∀ d, 0 < box d d) (hskew : ∀ d, 0 < skew_fac d) (hnc : ∀ d, 1 ≤ nc d)
    (hfrac : ∀ d fr, slb_frac d = some fr → ∀ j, j < nc d → 0 < fr j) (ds : List (Fin 3)) :
    ∃ F, ∀ fuel, F ≤ fuel → ∀ s, ∃ r,
      set_dd_cell_sizes_slb_dims fuel nc ci box skew_fac slb_frac cutoff bMaster ddmaster ds
        (some (some s)) = some r := by
  induction ds with
  | nil => exact ⟨0, fun fuel _ s => ⟨some s, rfl⟩⟩
  | cons d ds ih =>
    obtain ⟨F1, h1⟩ := ih
    obtain ⟨F2, h2⟩ := slb_dim_cells_terminates nc ci box skew_fac slb_frac cutoff bMaster d
      (hbox d) (hskew d) (hnc d) (hfrac d)
    refine ⟨max F1 F2, fun fuel hF s => ?_⟩
    obtain ⟨s1, e1⟩ := h2 fuel (le_trans (le_max_right _ _) hF) s
    rw [set_dd_cell_sizes_slb_dims_cons, e1]
    simp only [Option.map]
    by_cases hc : 1 < nc d ∧ nc d ≤ s1.np d ∧ ddmaster = true
    · rw [if_pos hc, set_dd_cell_sizes_slb_dims_fatal]
      exact ⟨none, rfl⟩
    · rw [if_neg hc]
      exact h1 fuel (le_trans (le_max_left _ _) hF) s1

/-- C13 (amended): for a box with positive diagonal, positive skew factors, a
grid with all extents at least 1 and positive static load balancing fractions,
`set_dd_cell_sizes_slb` returns, and it ends in the fatal error exactly when
the rank is the DD master (`DDMASTER(dd)`) and some dimension `d` with more
than one cell has a computed pulse count `np[d] >= nc[d]`.  On a rank that is
not the DD master the function never ends in the fatal error, whatever the
pulse counts are. -/
theorem set_dd_cell_sizes_slb_fatal_iff (nc ci : ivec) (box : matrix) (skew_fac : rvec)
    (slb_frac : Fin 3 → Option (Nat → real)) (cutoff : real)
    (bMaster ddmaster bDynLoadBal : Bool) (s : slb_state)
    (hbox : ∀ d, 0 < box d d) (hskew : ∀ d, 0 < skew_fac d) (hnc : ∀ d, 1 ≤ nc d)
    (hfrac : ∀ d fr, slb_frac d = some fr → ∀ j, j < nc d → 0 < fr j) :
    (∃ fuel r, set_dd_cell_sizes_slb fuel nc ci box skew_fac slb_frac cutoff bMaster ddmaster
      bDynLoadBal s = some r) ∧
    (∀ fuel r, set_dd_cell_sizes_slb fuel nc ci box skew_fac slb_frac cutoff bMaster ddmaster
        bDynLoadBal s = some r →
      (r = none ↔ ddmaster = true ∧ ∃ d n, 1 < nc d ∧
        slb_np fuel nc ci box skew_fac slb_frac cutoff bMaster d = some n ∧ nc d ≤ n) ∧
      (ddmaster = false → r ≠ none)) := by
  have key : ∀ fuel r, set_dd_cell_sizes_slb fuel nc ci box skew_fac slb_frac cutoff bMaster
      ddmaster bDynLoadBal s = some r →
      (r = none ↔ ddmaster = true ∧ ∃ d n, 1 < nc d ∧
        slb_np fuel nc ci box skew_fac slb_frac cutoff bMaster d = some n ∧ nc d ≤ n) := by
    intro fuel r h
    unfold set_dd_cell_sizes_slb at h
    cases e : set_dd_cell_sizes_slb_dims fuel nc ci box skew_fac slb_frac cutoff bMaster
        ddmaster [XX, YY, ZZ] (some (some s)) with
    | none => rw [e] at h; simp at h
    | some r1 =>
      rw [e] at h
      simp only [Option.map, Option.some.injEq] at h
      have hs := set_dd_cell_sizes_slb_dims_spec fuel nc ci box skew_fac slb_frac cutoff
        bMaster ddmaster [XX, YY, ZZ] s r1 e
      have hr : r = none ↔ r1 = none := by
        subst h
        cases r1 <;> simp
      rw [hr, hs]
      constructor
      · rintro ⟨hm, d, _, n, h1, h2, h3⟩
        exact ⟨hm, d, n, h1, h2, h3⟩
      · rintro ⟨hm, d, n, h1, h2, h3⟩
        refine ⟨hm, d, ?_, n, h1, h2, h3⟩
        fin_cases d <;> simp [XX, YY, ZZ]
  refine ⟨?_, fun fuel r h => ⟨key fuel r h, ?_⟩⟩
  · obtain ⟨F, hF⟩ := set_dd_cell_sizes_slb_dims_terminates nc ci box skew_fac slb_frac cutoff
      bMaster ddmaster hbox hskew hnc hfrac [XX, YY, ZZ]
    obtain ⟨r, hr⟩ := hF F (le_refl _) s
    refine ⟨F, r.map (fun s1 =>
      if bDynLoadBal then s1
      else ⟨s1.ma_cell_x, s1.cell_x0, s1.cell_x1, s1.np, s1.cellsize_min, s1.cellsize_min⟩), ?_⟩
    unfold set_dd_cell_sizes_slb
    rw [hr]
    rfl
  · intro hm hr
    have := (key fuel r h).mp hr
    rw [hm] at this
    exact absurd this.1 (by decide)

/-- Witness of C13 (amended): two cells along x in a unit box, cut-off 1. -/
theorem set_dd_cell_sizes_slb_fatal_iff_witness :
    ((∀ d, 0 < ex_unit_box d d) ∧ (∀ d : Fin 3, 0 < (fun _ => (1 : real)) d) ∧
      (∀ d, 1 ≤ (![2, 1, 1] : ivec) d) ∧
      (∀ (d : Fin 3) fr, (fun _ => (none : Option (Nat → real))) d = some fr →
        ∀ j, j < (![2, 1, 1] : ivec) d → 0 < fr j)) ∧
    ((∃ fuel r, set_dd_cell_sizes_slb fuel ![2, 1, 1] ![0, 0, 0] ex_unit_box (fun _ => 1)
      (fun _ => none) 1 true true false slb_state_zero = some r) ∧
    (∀ fuel r, set_dd_cell_sizes_slb fuel ![2, 1, 1] ![0, 0, 0] ex_unit_box (fun _ => 1)
        (fun _ => none) 1 true true false slb_state_zero = some r →
      (r = none ↔ true = true ∧ ∃ d n, 1 < (![2, 1, 1] : ivec) d ∧
        slb_np fuel ![2, 1, 1] ![0, 0, 0] ex_unit_box (fun _ => 1) (fun _ => none) 1 true d
          = some n ∧ (![2, 1, 1] : ivec) d ≤ n) ∧
      (true = false → r ≠ none))) :=
  ⟨⟨by intro d; simp [ex_unit_box], by intro d; norm_num, by decide, by intro d fr h; simp at h⟩,
    set_dd_cell_sizes_slb_fatal_iff ![2, 1, 1] ![0, 0, 0] ex_unit_box (fun _ => 1)
      (fun _ => none) 1 true true false slb_state_zero
      (by intro d; simp [ex_unit_box]) (by intro d; norm_num) (by decide)
      (by intro d fr h; simp at h)⟩

/-- Counterexample to C13 as stated: a rank that is not the DD master, with two
cells along x in a unit box and cut-off 1, computes `np[XX] = 2 >= nc[XX]` and
`set_dd_cell_sizes_slb` returns without the fatal error. -/
theorem set_dd_cell_sizes_slb_no_fatal_off_master :
    ∃ s1, set_dd_cell_sizes_slb 2 ![2, 1, 1] ![1, 0, 0] ex_unit_box (fun _ => 1)
        (fun _ => none) 1 false false false slb_state_zero = some (some s1) ∧
      1 < (![2, 1, 1] : ivec) XX ∧ (![2, 1, 1] : ivec) XX ≤ s1.np XX := by
  have hdec : ((set_dd_cell_sizes_slb 2 ![2, 1, 1] ![1, 0, 0] ex_unit_box (fun _ => 1)
      (fun _ => none) 1 false false false slb_state_zero).bind id).map
        (fun s1 => decide (1 < (![2, 1, 1] : ivec) XX ∧ (![2, 1, 1] : ivec) XX ≤ s1.np XX))
      = some true := by decide!
  cases hX : set_dd_cell_sizes_slb 2 ![2, 1, 1] ![1, 0, 0] ex_unit_box (fun _ => 1)
      (fun _ => none) 1 false false false slb_state_zero with
  | none => rw [hX] at hdec; simp at hdec
  | some o =>
    cases o with
    | none => rw [hX] at hdec; simp at hdec
    | some s1 =>
      rw [hX] at hdec
      simp only [Option.bind, id, Option.map, Option.some.injEq, decide_eq_true_eq] at hdec
      exact ⟨s1, rfl, hdec⟩

/-! ## Sorting the home charge groups -/

theorem foldl_update_range {α : Type} (g : Nat → α) (f : Nat → α) :
    ∀ n i, (List.range n).foldl (fun a i => Function.update a i (g i)) f i =
      if i < n then g i else f i := by
  intro n
  induction n with
  | zero => intro i; simp
  | succ n ih =>
    intro i
    rw [List.range_succ, List.foldl_append, List.foldl_cons, List.foldl_nil]
    by_cases h : i = n
    · rw [h, Function.update_same, if_pos (by omega)]
    · rw [Function.update_noteq h, ih]
      by_cases h2 : i < n
      · rw [if_pos h2, if_pos (by omega)]
      · rw [if_neg h2, if_neg (by omega)]

theorem pairwise_map_range_iff {α : Type} (R : α → α → Prop) (f : Nat → α) :
    ∀ n, List.Pairwise R ((List.range n).map f) ↔ ∀ p q, p < q → q < n → R (f p) (f q) := by
  intro n
  induction n with
  | zero => simp
  | succ n ih =>
    rw [List.range_succ, List.map_append, List.pairwise_append, ih]
    simp only [List.map_cons, List.map_nil, List.pairwise_singleton, true_and, List.mem_map,
      List.mem_range, List.mem_singleton, forall_eq, forall_exists_index, and_imp,
      forall_apply_eq_imp_iff₂]
    constructor
    · rintro ⟨h1, h2⟩ p q hpq hq
      rcases Nat.eq_or_lt_of_le (Nat.le_of_lt_succ hq) with e | lt
      · rw [e]
        exact h2 p (by omega)
      · exact h1 p q hpq lt
    · intro h
      exact ⟨fun p q hpq hq => h p q hpq (by omega), fun p hp => h p n hp (by omega)⟩

theorem map_range_getD {α : Type} (l : List α) (d : Nat → α) :
    (List.range l.length).map (fun i => l.getD i (d i)) = l := by
  apply List.ext_getElem
  · simp
  · intro i h1 h2
    simp [List.getD_eq_getElem, h2]

theorem map_range_take {α : Type} (f : Nat → α) (k n : Nat) (h : k ≤ n) :
    (List.range k).map f = ((List.range n).map f).take k := by
  rw [← List.map_take, List.take_range, Nat.min_eq_left h]

/-- A list in which the entries with `p` never come after one without `p` is
the entries with `p` followed by the others. -/
theorem sorted_filter_split {α : Type} (R : α → α → Prop) (p : α → Bool) :
    ∀ (l : List α), l.Pairwise R →
      (∀ a, a ∈ l → ∀ b, b ∈ l → p a = false → p b = true → ¬ R a b) →
      l = l.filter p ++ l.filter (fun a => !p a) := by
  intro l
  induction l with
  | nil => intro _ _; rfl
  | cons a l ih =>
    intro hs hsep
    rw [List.pairwise_cons] at hs
    have ih2 := ih hs.2 (fun x hx y hy => hsep x (List.mem_cons_of_mem a hx) y
      (List.mem_cons_of_mem a hy))
    by_cases hp : p a = true
    · rw [List.filter_cons_of_pos hp, List.filter_cons_of_neg (by simp [hp]), List.cons_append,
        ← ih2]
    · have hpf : p a = false := by simpa using hp
      have hall : ∀ b, b ∈ l → p b = false := by
        intro b hb
        by_contra hc
        have hpb : p b = true := by simpa using hc
        exact hsep a (List.mem_cons_self a l) b (List.mem_cons_of_mem a hb) hpf hpb (hs.1 b hb)
      have e1 : l.filter p = [] := by
        rw [List.filter_eq_nil_iff]
        intro b hb
        rw [hall b hb]
        simp
      have e2 : l.filter (fun a => !p a) = l := by
        rw [List.filter_eq_self]
        intro b hb
        rw [hall b hb]
        rfl
      rw [List.filter_cons_of_neg hp, List.filter_cons_of_pos (by simp [hpf]), e1, e2,
        List.nil_append]

/-! ### The order of `comp_cgsort` and `qsort` -/

theorem cgsort_le_iff (a b : gmx_cgsort) :
    cgsort_le a b ↔ a.nsc < b.nsc ∨ (a.nsc = b.nsc ∧ a.ind_gl ≤ b.ind_gl) := by
  unfold cgsort_le comp_cgsort
  dsimp only
  split_ifs with h <;> omega

theorem cgsort_le_total (a b : gmx_cgsort) : cgsort_le a b ∨ cgsort_le b a := by
  rw [cgsort_le_iff, cgsort_le_iff]
  omega

theorem cgsort_le_trans (a b c : gmx_cgsort) (h1 : cgsort_le a b) (h2 : cgsort_le b c) :
    cgsort_le a c := by
  rw [cgsort_le_iff] at h1 h2 ⊢
  omega

theorem cgsort_le_refl (a : gmx_cgsort) : cgsort_le a a := by
  rw [cgsort_le_iff]
  omega

/-- The array after `qsort` with `comp_cgsort`: its first `n` entries are the
old ones in another order, sorted. -/
theorem qsort_spec (base : Nat → gmx_cgsort) (n : Nat) :
    List.Perm ((List.range n).map (qsort base n comp_cgsort)) ((List.range n).map base) ∧
    List.Pairwise cgsort_le ((List.range n).map (qsort base n comp_cgsort)) := by
  have hlen : (((List.range n).map base).insertionSort
      (fun a b => comp_cgsort a b ≤ 0)).length = n := by
    rw [List.length_insertionSort, List.length_map, List.length_range]
  have e : (List.range n).map (qsort base n comp_cgsort) =
      ((List.range n).map base).insertionSort (fun a b => comp_cgsort a b ≤ 0) := by
    have := map_range_getD (((List.range n).map base).insertionSort
      (fun a b => comp_cgsort a b ≤ 0)) base
    rw [hlen] at this
    exact this
  rw [e]
  refine ⟨List.perm_insertionSort _ _, ?_⟩
  have : IsTotal gmx_cgsort (fun a b => comp_cgsort a b ≤ 0) := ⟨cgsort_le_total⟩
  have : IsTrans gmx_cgsort (fun a b => comp_cgsort a b ≤ 0) := ⟨cgsort_le_trans⟩
  exact List.sorted_insertionSort (fun a b => comp_cgsort a b ≤ 0) _

/-! ### The functions that reorder the arrays -/

theorem order_int_cg_spec (n : Nat) (sort : Nat → gmx_cgsort) (a buf : Nat → Nat) (i : Nat) :
    (order_int_cg n sort a buf).1 i = if i < n then a (sort i).ind else a i := by
  unfold order_int_cg
  dsimp only
  rw [foldl_update_range
    ((List.range n).foldl (fun buf i => Function.update buf i (a (sort i).ind)) buf) a n i]
  by_cases h : i < n
  · rw [if_pos h, if_pos h, foldl_update_range (fun i => a (sort i).ind) buf n i, if_pos h]
  · rw [if_neg h, if_neg h]

theorem order_vec_cg_spec (n : Nat) (sort : Nat → gmx_cgsort) (v buf : Nat → rvec) (i : Nat) :
    (order_vec_cg n sort v buf).1 i = if i < n then v (sort i).ind else v i := by
  unfold order_vec_cg
  dsimp only
  rw [foldl_update_range
    ((List.range n).foldl (fun buf i => Function.update buf i (v (sort i).ind)) buf) v n i]
  by_cases h : i < n
  · rw [if_pos h, if_pos h, foldl_update_range (fun i => v (sort i).ind) buf n i, if_pos h]
  · rw [if_neg h, if_neg h]

theorem order_vec_atom_cg_spec (v : Nat → rvec) : ∀ (n cg0 : Nat) (s : (Nat → rvec) × Nat),
    (order_vec_atom_cg v cg0 (cg0 + n) s).2 = s.2 + n ∧
    ∀ p, (order_vec_atom_cg v cg0 (cg0 + n) s).1 p =
      if s.2 ≤ p ∧ p < s.2 + n then v (cg0 + (p - s.2)) else s.1 p := by
  intro n
  induction n with
  | zero =>
    intro cg0 s
    refine ⟨by simp [order_vec_atom_cg], fun p => ?_⟩
    rw [if_neg (by omega)]
    simp [order_vec_atom_cg]
  | succ n ih =>
    intro cg0 s
    have e : order_vec_atom_cg v cg0 (cg0 + (n + 1)) s =
        order_vec_atom_cg v (cg0 + 1) (cg0 + 1 + n) (Function.update s.1 s.2 (v cg0), s.2 + 1) := by
      unfold order_vec_atom_cg
      rw [Nat.add_sub_cancel_left, Nat.add_sub_cancel_left, List.range'_succ, List.foldl_cons]
    rw [e]
    obtain ⟨h1, h2⟩ := ih (cg0 + 1) (Function.update s.1 s.2 (v cg0), s.2 + 1)
    dsimp only at h1 h2
    refine ⟨by rw [h1]; omega, fun p => ?_⟩
    rw [h2 p]
    by_cases hp : p = s.2
    · rw [if_neg (by omega), if_pos (by omega), hp, Function.update_same, Nat.sub_self,
        Nat.add_zero]
    · rw [Function.update_noteq hp]
      by_cases h3 : s.2 + 1 ≤ p ∧ p < s.2 + 1 + n
      · rw [if_pos h3, if_pos (by omega),
          show cg0 + 1 + (p - (s.2 + 1)) = cg0 + (p - s.2) by omega]
      · rw [if_neg h3, if_neg (by omega)]

theorem order_vec_atom_cg_range (v : Nat → rvec) (cg0 cg1 : Nat) (s : (Nat → rvec) × Nat) :
    (order_vec_atom_cg v cg0 cg1 s).2 = s.2 + (cg1 - cg0) ∧
    ∀ p, (order_vec_atom_cg v cg0 cg1 s).1 p =
      if s.2 ≤ p ∧ p < s.2 + (cg1 - cg0) then v (cg0 + (p - s.2)) else s.1 p := by
  have e : order_vec_atom_cg v cg0 cg1 s = order_vec_atom_cg v cg0 (cg0 + (cg1 - cg0)) s := by
    unfold order_vec_atom_cg
    rw [Nat.add_sub_cancel_left]
  rw [e]
  exact order_vec_atom_cg_spec v _ cg0 s

/-- The number of atoms of the first `k` charge groups in the order `sort`. -/
theorem sort_off_succ (cgindex : Nat → Nat) (sort : Nat → gmx_cgsort) (k : Nat) :
    (∑ j ∈ Finset.range (k + 1), (cgindex ((sort j).ind + 1) - cgindex (sort j).ind)) =
      (∑ j ∈ Finset.range k, (cgindex ((sort j).ind + 1) - cgindex (sort j).ind)) +
        (cgindex ((sort k).ind + 1) - cgindex (sort k).ind) :=
  Finset.sum_range_succ _ _

theorem sort_off_mono (cgindex : Nat → Nat) (sort : Nat → gmx_cgsort) (j k : Nat) (h : j ≤ k) :
    (∑ i ∈ Finset.range j, (cgindex ((sort i).ind + 1) - cgindex (sort i).ind)) ≤
      ∑ i ∈ Finset.range k, (cgindex ((sort i).ind + 1) - cgindex (sort i).ind) :=
  Finset.sum_le_sum_of_subset (Finset.range_subset.mpr h)

/-- The buffer of `order_vec_atom` after the first `k` charge groups. -/
theorem order_vec_atom_gather (cgindex : Nat → Nat) (sort : Nat → gmx_cgsort)
    (v buf : Nat → rvec) :
    ∀ k,
      ((List.range k).foldl
        (fun s cg => order_vec_atom_cg v (cgindex (sort cg).ind) (cgindex ((sort cg).ind + 1)) s)
        (buf, 0)).2 =
        ∑ j ∈ Finset.range k, (cgindex ((sort j).ind + 1) - cgindex (sort j).ind) ∧
      ∀ j, j < k → ∀ t, t < cgindex ((sort j).ind + 1) - cgindex (sort j).ind →
        ((List.range k).foldl
          (fun s cg => order_vec_atom_cg v (cgindex (sort cg).ind) (cgindex ((sort cg).ind + 1)) s)
          (buf, 0)).1
          ((∑ i ∈ Finset.range j, (cgindex ((sort i).ind + 1) - cgindex (sort i).ind)) + t) =
        v (cgindex (sort j).ind + t) := by
  intro k
  induction k with
  | zero => exact ⟨by simp, fun j hj => absurd hj (Nat.not_lt_zero j)⟩
  | succ k ih =>
    obtain ⟨i1, i2⟩ := ih
    rw [List.range_succ, List.foldl_append, List.foldl_cons, List.foldl_nil]
    generalize (List.range k).foldl
      (fun s cg => order_vec_atom_cg v (cgindex (sort cg).ind) (cgindex ((sort cg).ind + 1)) s)
      (buf, 0) = s at i1 i2
    obtain ⟨h1, h2⟩ := order_vec_atom_cg_range v (cgindex (sort k).ind)
      (cgindex ((sort k).ind + 1)) s
    rw [sort_off_succ]
    refine ⟨by rw [h1, i1], ?_⟩
    intro j hj t ht
    rw [h2]
    rcases Nat.eq_or_lt_of_le (Nat.le_of_lt_succ hj) with e | lt
    · subst e
      rw [if_pos ⟨by omega, by omega⟩, i1, Nat.add_sub_cancel_left]
    · have m1 := sort_off_mono cgindex sort (j + 1) k (by omega)
      rw [sort_off_succ] at m1
      rw [if_neg (by omega)]
      exact i2 j lt t ht

/-- The array after `order_vec_atom`: the atoms of the `j`-th charge group of
the order `sort` follow those of the charge groups before it. -/
theorem order_vec_atom_spec (ncg : Nat) (cgindex : Nat → Nat) (sort : Nat → gmx_cgsort)
    (v buf : Nat → rvec) :
    ∀ j, j < ncg → ∀ t, t < cgindex ((sort j).ind + 1) - cgindex (sort j).ind →
      (order_vec_atom ncg cgindex sort v buf).1
        ((∑ i ∈ Finset.range j, (cgindex ((sort i).ind + 1) - cgindex (sort i).ind)) + t) =
      v (cgindex (sort j).ind + t) := by
  intro j hj t ht
  obtain ⟨g1, g2⟩ := order_vec_atom_gather cgindex sort v buf ncg
  unfold order_vec_atom
  dsimp only
  rw [foldl_update_range, g1]
  have m1 := sort_off_mono cgindex sort (j + 1) ncg (by omega)
  rw [sort_off_succ] at m1
  rw [if_pos (by omega)]
  exact g2 j hj t ht

/-- The buffer `ibuf` after the loop that rebuilds the local index. -/
theorem rebuild_cgindex_spec (cgindex : Nat → Nat) (sort : Nat → gmx_cgsort) (ibuf : Nat → Nat) :
    ∀ n i, i ≤ n →
      (List.range n).foldl
        (fun ibuf i =>
          Function.update ibuf (i + 1)
            (ibuf i + (cgindex ((sort i).ind + 1) - cgindex (sort i).ind)))
        (Function.update ibuf 0 0) i =
      ∑ j ∈ Finset.range i, (cgindex ((sort j).ind + 1) - cgindex (sort j).ind) := by
  intro n
  induction n with
  | zero =>
    intro i hi
    have : i = 0 := by omega
    rw [this]
    simp
  | succ n ih =>
    intro i hi
    rw [List.range_succ, List.foldl_append, List.foldl_cons, List.foldl_nil]
    rcases Nat.eq_or_lt_of_le hi with e | lt
    · rw [e, Function.update_same, ih n (le_refl n), sort_off_succ]
    · rw [Function.update_noteq (by omega)]
      exact ih i (by omega)

/-! ### The merge loop of `ordered_sort` -/

theorem while_loop_terminates_inv {σ : Type} (cond : σ → Bool) (body : σ → σ) (P : σ → Prop)
    (μ : σ → Nat) (hstep : ∀ s, P s → cond s = true → P (body s))
    (hμ : ∀ s, P s → cond s = true → μ (body s) < μ s) :
    ∀ (fuel : Nat) (s : σ), P s → μ s ≤ fuel → ∃ r, while_loop cond body fuel s = some r := by
  intro fuel
  induction fuel with
  | zero =>
    intro s hP hs
    by_cases hc : cond s = true
    · have := hμ s hP hc
      omega
    · exact ⟨s, by simp [while_loop, hc]⟩
  | succ n ih =>
    intro s hP hs
    by_cases hc : cond s = true
    · obtain ⟨r, hr⟩ := ih (body s) (hstep s hP hc) (by have := hμ s hP hc; omega)
      exact ⟨r, by simp [while_loop, hc, hr]⟩
    · exact ⟨s, by simp [while_loop, hc]⟩

theorem map_range_update_succ {α : Type} (f : Nat → α) (n : Nat) (e : α) :
    (List.range (n + 1)).map (Function.update f n e) = (List.range n).map f ++ [e] := by
  rw [List.range_succ, List.map_append, List.map_cons, List.map_nil, Function.update_same]
  congr 1
  apply List.map_congr_left
  intro i hi
  rw [List.mem_range] at hi
  rw [Function.update_noteq (by omega)]

theorem ordered_sort_take2 (nsort2 : Nat) (sort2 : Nat → gmx_cgsort) (nsort_new : Nat)
    (sort_new : Nat → gmx_cgsort) (s : ordered_sort_state)
    (h2 : ∀ p q, p < q → q < nsort2 → cgsort_le (sort2 p) (sort2 q))
    (hn : ∀ p q, p < q → q < nsort_new → cgsort_le (sort_new p) (sort_new q))
    (hinv : ordered_sort_inv nsort2 sort2 nsort_new sort_new s) (hi : s.i2 < nsort2)
    (hle : s.i_new = nsort_new ∨ cgsort_le (sort2 s.i2) (sort_new s.i_new)) :
    ordered_sort_inv nsort2 sort2 nsort_new sort_new
      ⟨Function.update s.sort1 s.i1 (sort2 s.i2), s.i1 + 1, s.i2 + 1, s.i_new⟩ := by
  obtain ⟨v1, v2, v3, v4, v5, v6, v7⟩ := hinv
  refine ⟨?_, ?_, v3, ?_, ?_, ?_, ?_⟩
  · dsimp only
    omega
  · exact hi
  · intro p q hpq hq
    dsimp only at hq ⊢
    rw [Function.update_noteq (by omega)]
    rcases Nat.eq_or_lt_of_le (Nat.le_of_lt_succ hq) with e | lt
    · rw [e, Function.update_same]
      exact v5 p (by omega) s.i2 (le_refl _) hi
    · rw [Function.update_noteq (by omega)]
      exact v4 p q hpq lt
  · intro p hp q hq1 hq2
    dsimp only at hp hq1 ⊢
    rcases Nat.eq_or_lt_of_le (Nat.le_of_lt_succ hp) with e | lt
    · rw [e, Function.update_same]
      exact h2 s.i2 q (by omega) hq2
    · rw [Function.update_noteq (by omega)]
      exact v5 p lt q (by omega) hq2
  · intro p hp q hq1 hq2
    dsimp only at hp hq1 ⊢
    rcases Nat.eq_or_lt_of_le (Nat.le_of_lt_succ hp) with e | lt
    · rw [e, Function.update_same]
      rcases hle with e2 | le
      · omega
      · rcases Nat.eq_or_lt_of_le hq1 with e3 | lt3
        · rw [← e3]
          exact le
        · exact cgsort_le_trans _ _ _ le (hn s.i_new q lt3 hq2)
    · rw [Function.update_noteq (by omega)]
      exact v6 p lt q hq1 hq2
  · dsimp only
    rw [map_range_update_succ, List.range_succ, List.map_append, List.map_cons, List.map_nil]
    refine (v7.append_right [sort2 s.i2]).trans ?_
    rw [List.append_assoc, List.append_assoc]
    exact List.Perm.append_left _ List.perm_append_comm

theorem ordered_sort_take_new (nsort2 : Nat) (sort2 : Nat → gmx_cgsort) (nsort_new : Nat)
    (sort_new : Nat → gmx_cgsort) (s : ordered_sort_state)
    (h2 : ∀ p q, p < q → q < nsort2 → cgsort_le (sort2 p) (sort2 q))
    (hn : ∀ p q, p < q → q < nsort_new → cgsort_le (sort_new p) (sort_new q))
    (hinv : ordered_sort_inv nsort2 sort2 nsort_new sort_new s) (hi : s.i_new < nsort_new)
    (hle : s.i2 = nsort2 ∨ cgsort_le (sort_new s.i_new) (sort2 s.i2)) :
    ordered_sort_inv nsort2 sort2 nsort_new sort_new
      ⟨Function.update s.sort1 s.i1 (sort_new s.i_new), s.i1 + 1, s.i2, s.i_new + 1⟩ := by
  obtain ⟨v1, v2, v3, v4, v5, v6, v7⟩ := hinv
  refine ⟨?_, v2, ?_, ?_, ?_, ?_, ?_⟩
  · dsimp only
    omega
  · exact hi
  · intro p q hpq hq
    dsimp only at hq ⊢
    rw [Function.update_noteq (by omega)]
    rcases Nat.eq_or_lt_of_le (Nat.le_of_lt_succ hq) with e | lt
    · rw [e, Function.update_same]
      exact v6 p (by omega) s.i_new (le_refl _) hi
    · rw [Function.update_noteq (by omega)]
      exact v4 p q hpq lt
  · intro p hp q hq1 hq2
    dsimp only at hp hq1 ⊢
    rcases Nat.eq_or_lt_of_le (Nat.le_of_lt_succ hp) with e | lt
    · rw [e, Function.update_same]
      rcases hle with e2 | le
      · omega
      · rcases Nat.eq_or_lt_of_le hq1 with e3 | lt3
        · rw [← e3]
          exact le
        · exact cgsort_le_trans _ _ _ le (h2 s.i2 q lt3 hq2)
    · rw [Function.update_noteq (by omega)]
      exact v5 p lt q hq1 hq2
  · intro p hp q hq1 hq2
    dsimp only at hp hq1 ⊢
    rcases Nat.eq_or_lt_of_le (Nat.le_of_lt_succ hp) with e | lt
    · rw [e, Function.update_same]
      exact hn s.i_new q (by omega) hq2
    · rw [Function.update_noteq (by omega)]
      exact v6 p lt q (by omega) hq2
  · dsimp only
    rw [map_range_update_succ, List.range_succ, List.map_append, List.map_cons, List.map_nil]
    refine (v7.append_right [sort_new s.i_new]).trans ?_
    rw [List.append_assoc]

theorem ordered_sort_body_inv (nsort2 : Nat) (sort2 : Nat → gmx_cgsort) (nsort_new : Nat)
    (sort_new : Nat → gmx_cgsort)
    (h2 : ∀ p q, p < q → q < nsort2 → cgsort_le (sort2 p) (sort2 q))
    (hn : ∀ p q, p < q → q < nsort_new → cgsort_le (sort_new p) (sort_new q))
    (s : ordered_sort_state) (hinv : ordered_sort_inv nsort2 sort2 nsort_new sort_new s)
    (hc : (decide (s.i2 < nsort2) || decide (s.i_new < nsort_new)) = true) :
    ordered_sort_inv nsort2 sort2 nsort_new sort_new
      (ordered_sort_body nsort2 sort2 nsort_new sort_new s) ∧
    (ordered_sort_body nsort2 sort2 nsort_new sort_new s).i1 = s.i1 + 1 := by
  have hb2 := hinv.2.1
  have hbn := hinv.2.2.1
  simp only [Bool.or_eq_true, decide_eq_true_eq] at hc
  unfold ordered_sort_body
  by_cases c1 : s.i2 = nsort2
  · rw [if_pos c1]
    exact ⟨ordered_sort_take_new nsort2 sort2 nsort_new sort_new s h2 hn hinv (by omega)
      (Or.inl c1), rfl⟩
  · rw [if_neg c1]
    by_cases c2 : s.i_new = nsort_new
    · rw [if_pos c2]
      exact ⟨ordered_sort_take2 nsort2 sort2 nsort_new sort_new s h2 hn hinv (by omega)
        (Or.inl c2), rfl⟩
    · rw [if_neg c2]
      by_cases c3 : (sort2 s.i2).nsc < (sort_new s.i_new).nsc ∨
          ((sort2 s.i2).nsc = (sort_new s.i_new).nsc ∧
            (sort2 s.i2).ind_gl < (sort_new s.i_new).ind_gl)
      · rw [if_pos c3]
        exact ⟨ordered_sort_take2 nsort2 sort2 nsort_new sort_new s h2 hn hinv (by omega)
          (Or.inr (by rw [cgsort_le_iff]; omega)), rfl⟩
      · rw [if_neg c3]
        exact ⟨ordered_sort_take_new nsort2 sort2 nsort_new sort_new s h2 hn hinv (by omega)
          (Or.inr (by rw [cgsort_le_iff]; omega)), rfl⟩

/-- The function `ordered_sort` returns with fuel for every entry, and the
array `sort1` then holds the entries of `sort2` and `sort_new` in the order of
`comp_cgsort`. -/
theorem ordered_sort_spec (fuel nsort2 : Nat) (sort2 : Nat → gmx_cgsort) (nsort_new : Nat)
    (sort_new sort1 : Nat → gmx_cgsort) (hfuel : nsort2 + nsort_new ≤ fuel)
    (h2 : List.Pairwise cgsort_le ((List.range nsort2).map sort2)) :
    ∃ r, ordered_sort fuel nsort2 sort2 nsort_new sort_new sort1 = some r ∧
      List.Perm ((List.range (nsort2 + nsort_new)).map r)
        ((List.range nsort2).map sort2 ++ (List.range nsort_new).map sort_new) ∧
      List.Pairwise cgsort_le ((List.range (nsort2 + nsort_new)).map r) := by
  obtain ⟨qp, qs⟩ := qsort_spec sort_new nsort_new
  rw [pairwise_map_range_iff] at h2 qs
  unfold ordered_sort
  dsimp only
  generalize qsort sort_new nsort_new comp_cgsort = SN at qp qs
  have hinit : ordered_sort_inv nsort2 sort2 nsort_new SN ⟨sort1, 0, 0, 0⟩ := by
    refine ⟨rfl, Nat.zero_le _, Nat.zero_le _, ?_, ?_, ?_, ?_⟩
    · intro p q _ hq
      exact absurd hq (Nat.not_lt_zero q)
    · intro p hp
      exact absurd hp (Nat.not_lt_zero p)
    · intro p hp
      exact absurd hp (Nat.not_lt_zero p)
    · simp
  obtain ⟨r, hr⟩ := while_loop_terminates_inv
    (fun s : ordered_sort_state => decide (s.i2 < nsort2) || decide (s.i_new < nsort_new))
    (ordered_sort_body nsort2 sort2 nsort_new SN)
    (ordered_sort_inv nsort2 sort2 nsort_new SN)
    (fun s => nsort2 + nsort_new - s.i1)
    (fun s hP hc => (ordered_sort_body_inv nsort2 sort2 nsort_new SN h2 qs s hP hc).1)
    (by
      intro s hP hc
      have h1 := (ordered_sort_body_inv nsort2 sort2 nsort_new SN h2 qs s hP hc).2
      obtain ⟨v1, v2, v3, _⟩ := hP
      simp only [Bool.or_eq_true, decide_eq_true_eq] at hc
      dsimp only
      omega)
    fuel ⟨sort1, 0, 0, 0⟩ hinit (by dsimp only; omega)
  have hP := while_loop_inv
    (fun s : ordered_sort_state => decide (s.i2 < nsort2) || decide (s.i_new < nsort_new))
    (ordered_sort_body nsort2 sort2 nsort_new SN)
    (ordered_sort_inv nsort2 sort2 nsort_new SN)
    (fun s hP hc => (ordered_sort_body_inv nsort2 sort2 nsort_new SN h2 qs s hP hc).1)
    fuel _ r hinit hr
  have hc := while_loop_cond_false
    (fun s : ordered_sort_state => decide (s.i2 < nsort2) || decide (s.i_new < nsort_new))
    (ordered_sort_body nsort2 sort2 nsort_new SN) fuel _ r hr
  simp only [Bool.or_eq_false_iff, decide_eq_false_iff_not] at hc
  obtain ⟨v1, v2, v3, v4, _, _, v7⟩ := hP
  have e2 : r.i2 = nsort2 := by omega
  have en : r.i_new = nsort_new := by omega
  rw [e2, en] at v1 v7
  rw [v1] at v4 v7
  refine ⟨r.sort1, by rw [hr]; rfl, v7.trans (List.Perm.append_left _ qp), ?_⟩
  rw [pairwise_map_range_iff]
  exact v4

/-! ### The order of the charge groups -/

theorem filter_range_succ (p : Nat → Bool) (n : Nat) :
    (List.range (n + 1)).filter p =
      (List.range n).filter p ++ (if p n = true then [n] else []) := by
  rw [List.range_succ, List.filter_append]
  congr 1
  by_cases h : p n = true
  · rw [if_pos h, List.filter_cons_of_pos h, List.filter_nil]
  · rw [if_neg h, List.filter_cons_of_neg h, List.filter_nil]

/-- The two lists that the loop of lines 5064-5085 makes: the charge groups
that stayed in their NS cell and the other charge groups that have not moved
away, both in the order of the local index. -/
theorem dd_sort_state_classify_spec (ncells : Nat) (cell_index index_gl : Nat → Nat)
    (ncg_home_old : Int) (sort1 sort2 sort_new : Nat → gmx_cgsort) :
    ∀ n,
      (List.range ((List.range n).foldl
          (dd_sort_state_classify ncells cell_index index_gl ncg_home_old sort1)
          ⟨sort2, sort_new, 0, 0, 0⟩).nsort2).map
        ((List.range n).foldl
          (dd_sort_state_classify ncells cell_index index_gl ncg_home_old sort1)
          ⟨sort2, sort_new, 0, 0, 0⟩).sort2 =
        ((List.range n).filter (cg_stationary ncells cell_index ncg_home_old sort1)).map
          (cgsort_entry cell_index index_gl) ∧
      (List.range ((List.range n).foldl
          (dd_sort_state_classify ncells cell_index index_gl ncg_home_old sort1)
          ⟨sort2, sort_new, 0, 0, 0⟩).nsort_new).map
        ((List.range n).foldl
          (dd_sort_state_classify ncells cell_index index_gl ncg_home_old sort1)
          ⟨sort2, sort_new, 0, 0, 0⟩).sort_new =
        ((List.range n).filter (fun i => cg_stays ncells cell_index i &&
          !cg_stationary ncells cell_index ncg_home_old sort1 i)).map
          (cgsort_entry cell_index index_gl) ∧
      ((List.range n).foldl
          (dd_sort_state_classify ncells cell_index index_gl ncg_home_old sort1)
          ⟨sort2, sort_new, 0, 0, 0⟩).ncg_new =
        ((List.range n).foldl
          (dd_sort_state_classify ncells cell_index index_gl ncg_home_old sort1)
          ⟨sort2, sort_new, 0, 0, 0⟩).nsort2 +
        ((List.range n).foldl
          (dd_sort_state_classify ncells cell_index index_gl ncg_home_old sort1)
          ⟨sort2, sort_new, 0, 0, 0⟩).nsort_new := by
  intro n
  induction n with
  | zero => simp
  | succ n ih =>
    obtain ⟨i1, i2, i3⟩ := ih
    rw [List.range_succ, List.foldl_append, List.foldl_cons, List.foldl_nil, ← List.range_succ,
      filter_range_succ, filter_range_succ]
    generalize (List.range n).foldl
      (dd_sort_state_classify ncells cell_index index_gl ncg_home_old sort1)
      ⟨sort2, sort_new, 0, 0, 0⟩ = c at i1 i2 i3
    unfold dd_sort_state_classify
    dsimp only
    by_cases h1 : cell_index n ≠ 4 * ncells
    · rw [if_pos h1]
      by_cases h2 : (n : Int) ≥ ncg_home_old ∨ cell_index n ≠ (sort1 n).nsc
      · rw [if_pos h2]
        dsimp only
        have e1 : cg_stationary ncells cell_index ncg_home_old sort1 n = false := by
          unfold cg_stationary
          rcases h2 with h | h
          · simp [h]
          · simp [h]
        have e2 : cg_stays ncells cell_index n = true := by
          unfold cg_stays
          simpa using h1
        rw [e1, e2, map_range_update_succ, i1, i2]
        simp only [Bool.false_eq_true, if_false, List.append_nil, Bool.not_false, Bool.and_self,
          if_true, List.map_append, List.map_cons, List.map_nil]
        exact ⟨trivial, rfl, by omega⟩
      · rw [if_neg h2]
        dsimp only
        have e1 : cg_stationary ncells cell_index ncg_home_old sort1 n = true := by
          push_neg at h2
          simp only [cg_stationary, Bool.and_eq_true, decide_eq_true_eq, Bool.not_eq_true',
            Bool.or_eq_false_iff, decide_eq_false_iff_not]
          exact ⟨h1, not_le.mpr h2.1, not_not.mpr h2.2⟩
        rw [e1, map_range_update_succ, i1, i2]
        simp only [if_true, List.map_append, List.map_cons, List.map_nil, Bool.not_true,
          Bool.and_false, Bool.false_eq_true, if_false, List.append_nil]
        exact ⟨rfl, trivial, by omega⟩
    · rw [if_neg h1]
      have e1 : cg_stationary ncells cell_index ncg_home_old sort1 n = false := by
        unfold cg_stationary
        simp only [ne_eq, Decidable.not_not] at h1
        simp [h1]
      have e2 : cg_stays ncells cell_index n = false := by
        unfold cg_stays
        simpa using h1
      rw [e1, e2]
      simp only [Bool.false_eq_true, if_false, List.append_nil, Bool.false_and]
      exact ⟨i1, i2, i3⟩

/-- The array and the count that the loop of lines 5094-5101 makes. -/
theorem dd_sort_state_fill_spec (ncells : Nat) (cell_index index_gl : Nat → Nat)
    (sort1 : Nat → gmx_cgsort) :
    ∀ n,
      (List.range n).map ((List.range n).foldl
          (dd_sort_state_fill ncells cell_index index_gl) (sort1, 0)).1 =
        (List.range n).map (cgsort_entry cell_index index_gl) ∧
      ((List.range n).foldl (dd_sort_state_fill ncells cell_index index_gl) (sort1, 0)).2 =
        ((List.range n).filter (cg_stays ncells cell_index)).length := by
  intro n
  induction n with
  | zero => simp
  | succ n ih =>
    obtain ⟨i1, i2⟩ := ih
    rw [List.range_succ, List.foldl_append, List.foldl_cons, List.foldl_nil, ← List.range_succ,
      filter_range_succ]
    generalize (List.range n).foldl (dd_sort_state_fill ncells cell_index index_gl) (sort1, 0)
      = c at i1 i2
    unfold dd_sort_state_fill
    dsimp only
    rw [Function.update_same, map_range_update_succ, i1, List.length_append, ← i2]
    refine ⟨?_, ?_⟩
    · rw [List.range_succ, List.map_append, List.map_cons, List.map_nil]
      rfl
    · by_cases h : cell_index n ≠ 4 * ncells
      · have e2 : cg_stays ncells cell_index n = true := by
          unfold cg_stays
          simpa using h
        rw [if_pos h, e2, if_pos rfl, List.length_singleton]
      · have e2 : cg_stays ncells cell_index n = false := by
          unfold cg_stays
          simpa using h
        rw [if_neg h, e2, if_neg (by simp), List.length_nil, Nat.add_zero]

theorem filter_stationary_perm (ncells : Nat) (cell_index : Nat → Nat) (ncg_home_old : Int)
    (sort1 : Nat → gmx_cgsort) (l : List Nat) :
    List.Perm
      (l.filter (cg_stationary ncells cell_index ncg_home_old sort1) ++
        l.filter (fun i => cg_stays ncells cell_index i &&
          !cg_stationary ncells cell_index ncg_home_old sort1 i))
      (l.filter (cg_stays ncells cell_index)) := by
  have h := List.filter_append_perm (cg_stationary ncells cell_index ncg_home_old sort1)
    (l.filter (cg_stays ncells cell_index))
  rw [List.filter_filter, List.filter_filter] at h
  have e1 : (fun a => cg_stationary ncells cell_index ncg_home_old sort1 a &&
      cg_stays ncells cell_index a) = cg_stationary ncells cell_index ncg_home_old sort1 := by
    funext a
    unfold cg_stationary cg_stays
    cases decide (cell_index a ≠ 4 * ncells) <;> simp
  have e2 : (fun a => (!cg_stationary ncells cell_index ncg_home_old sort1 a) &&
      cg_stays ncells cell_index a) = (fun i => cg_stays ncells cell_index i &&
        !cg_stationary ncells cell_index ncg_home_old sort1 i) := by
    funext a
    cases cg_stationary ncells cell_index ncg_home_old sort1 a <;>
      cases cg_stays ncells cell_index a <;> rfl
  rw [e1, e2] at h
  exact h

/-- The first part of `dd_sort_state` returns with fuel for every home charge
group, and the first `ncg_new` entries of `sort1` are then the entries of the
charge groups that have not moved away, in the order of `comp_cgsort`. On the
way without `ncg_home_old` no NS cell index is above the mark; on the way with
it the charge groups that stayed in their NS cell are in order. -/
theorem dd_sort_state_order_spec (fuel ncells : Nat) (ncg_home_old : Int)
    (sort2 sort_new : Nat → gmx_cgsort) (s : dd_sort) (hfuel : s.ncg_home ≤ fuel)
    (hcell : ncg_home_old < 0 → ∀ i, i < s.ncg_home → s.cell_index i ≤ 4 * ncells)
    (hstat : 0 ≤ ncg_home_old → ∀ i j, i < j → j < s.ncg_home →
      cg_stationary ncells s.cell_index ncg_home_old s.sort1 i = true →
      cg_stationary ncells s.cell_index ncg_home_old s.sort1 j = true →
      cgsort_le (cgsort_entry s.cell_index s.index_gl i) (cgsort_entry s.cell_index s.index_gl j)) :
    ∃ r, dd_sort_state_order fuel ncells ncg_home_old sort2 sort_new s = some r ∧
      List.Perm ((List.range r.2).map r.1)
        (((List.range s.ncg_home).filter (cg_stays ncells s.cell_index)).map
          (cgsort_entry s.cell_index s.index_gl)) ∧
      List.Pairwise cgsort_le ((List.range r.2).map r.1) := by
  unfold dd_sort_state_order
  by_cases hold : ncg_home_old ≥ 0
  · rw [if_pos hold]
    dsimp only
    obtain ⟨c1, c2, c3⟩ := dd_sort_state_classify_spec ncells s.cell_index s.index_gl
      ncg_home_old s.sort1 sort2 sort_new s.ncg_home
    generalize (List.range s.ncg_home).foldl
      (dd_sort_state_classify ncells s.cell_index s.index_gl ncg_home_old s.sort1)
      ⟨sort2, sort_new, 0, 0, 0⟩ = c at c1 c2 c3
    have hperm := (filter_stationary_perm ncells s.cell_index ncg_home_old s.sort1
      (List.range s.ncg_home)).map (cgsort_entry s.cell_index s.index_gl)
    rw [List.map_append, ← c1, ← c2] at hperm
    have hlen : c.nsort2 + c.nsort_new ≤ s.ncg_home := by
      have := hperm.length_eq
      rw [List.length_append, List.length_map, List.length_map, List.length_map,
        List.length_range, List.length_range] at this
      have h2 := List.length_filter_le (cg_stays ncells s.cell_index) (List.range s.ncg_home)
      rw [List.length_range] at h2
      omega
    have hs2 : List.Pairwise cgsort_le ((List.range c.nsort2).map c.sort2) := by
      rw [c1, List.pairwise_map]
      have hlt : List.Pairwise (fun a b : Nat => a < b)
          ((List.range s.ncg_home).filter
            (cg_stationary ncells s.cell_index ncg_home_old s.sort1)) :=
        List.Pairwise.filter _ (List.pairwise_lt_range s.ncg_home)
      refine List.Pairwise.imp_of_mem ?_ hlt
      intro a b ha hb hab
      rw [List.mem_filter, List.mem_range] at ha hb
      exact hstat hold a b hab hb.1 ha.2 hb.2
    obtain ⟨r, hr, p1, p2⟩ := ordered_sort_spec fuel c.nsort2 c.sort2 c.nsort_new c.sort_new
      s.sort1 (by omega) hs2
    refine ⟨(r, c.ncg_new), by rw [hr]; rfl, ?_, ?_⟩
    · dsimp only
      rw [c3]
      exact p1.trans hperm
    · dsimp only
      rw [c3]
      exact p2
  · rw [if_neg hold]
    dsimp only
    have hneg : ncg_home_old < 0 := by omega
    obtain ⟨f1, f2⟩ := dd_sort_state_fill_spec ncells s.cell_index s.index_gl s.sort1 s.ncg_home
    generalize (List.range s.ncg_home).foldl
      (dd_sort_state_fill ncells s.cell_index s.index_gl) (s.sort1, 0) = c at f1 f2
    obtain ⟨qp, qs⟩ := qsort_spec c.1 s.ncg_home
    rw [f1] at qp
    generalize hL : (List.range s.ncg_home).map (qsort c.1 s.ncg_home comp_cgsort) = L at qp qs
    have hmem : ∀ b, b ∈ L → b.nsc ≤ 4 * ncells := by
      intro b hb
      rw [qp.mem_iff, List.mem_map] at hb
      obtain ⟨i, hi, e⟩ := hb
      rw [List.mem_range] at hi
      rw [← e]
      exact hcell hneg i hi
    have hsplit := sorted_filter_split cgsort_le (fun e => decide (e.nsc ≠ 4 * ncells)) L qs
      (by
        intro a _ b hb ha2 hb2
        have := hmem b hb
        simp only [ne_eq, decide_not, Bool.not_eq_false', decide_eq_true_eq,
          Bool.not_eq_true', decide_eq_false_iff_not] at ha2 hb2
        rw [cgsort_le_iff]
        omega)
    have hfp := qp.filter (fun e => decide (e.nsc ≠ 4 * ncells))
    rw [List.filter_map] at hfp
    have hfun : ((fun e : gmx_cgsort => decide (e.nsc ≠ 4 * ncells)) ∘
        cgsort_entry s.cell_index s.index_gl) = cg_stays ncells s.cell_index := by
      funext i
      rfl
    rw [hfun] at hfp
    have hlen : (L.filter (fun e => decide (e.nsc ≠ 4 * ncells))).length = c.2 := by
      rw [hfp.length_eq, List.length_map, f2]
    have hle : c.2 ≤ s.ncg_home := by
      rw [f2]
      have h2 := List.length_filter_le (cg_stays ncells s.cell_index) (List.range s.ncg_home)
      rw [List.length_range] at h2
      exact h2
    have htake : (List.range c.2).map (qsort c.1 s.ncg_home comp_cgsort) =
        L.filter (fun e => decide (e.nsc ≠ 4 * ncells)) := by
      rw [map_range_take _ c.2 s.ncg_home hle, hL]
      conv_lhs => rw [hsplit]
      rw [← hlen, List.take_left']
      rfl
    refine ⟨(qsort c.1 s.ncg_home comp_cgsort, c.2), rfl, ?_, ?_⟩
    · dsimp only
      rw [htake]
      exact hfp
    · dsimp only
      rw [htake]
      exact List.Pairwise.sublist (List.filter_sublist _) qs

/-! ### The reordered state -/

/-- The second part of `dd_sort_state`: every array is in the order `cgsort`,
the atoms of a charge group follow those of the charge groups before it. -/
theorem dd_sort_state_apply_spec (bV bSDX bCGP : Bool) (cgsort : Nat → gmx_cgsort)
    (ncg_new : Nat) (s : dd_sort) :
    (dd_sort_state_apply bV bSDX bCGP cgsort ncg_new s).ncg_home = ncg_new ∧
    (dd_sort_state_apply bV bSDX bCGP cgsort ncg_new s).sort1 = cgsort ∧
    (dd_sort_state_apply bV bSDX bCGP cgsort ncg_new s).nat_home =
      (dd_sort_state_apply bV bSDX bCGP cgsort ncg_new s).cgindex ncg_new ∧
    (∀ i, i ≤ ncg_new → (dd_sort_state_apply bV bSDX bCGP cgsort ncg_new s).cgindex i =
      ∑ j ∈ Finset.range i, (s.cgindex ((cgsort j).ind + 1) - s.cgindex (cgsort j).ind)) ∧
    (∀ i, i < ncg_new →
      (dd_sort_state_apply bV bSDX bCGP cgsort ncg_new s).cell_index i = (cgsort i).nsc ∧
      (dd_sort_state_apply bV bSDX bCGP cgsort ncg_new s).index_gl i =
        s.index_gl (cgsort i).ind ∧
      (dd_sort_state_apply bV bSDX bCGP cgsort ncg_new s).cgcm i = s.cgcm (cgsort i).ind ∧
      ∀ t, t < s.cgindex ((cgsort i).ind + 1) - s.cgindex (cgsort i).ind →
        (dd_sort_state_apply bV bSDX bCGP cgsort ncg_new s).x
          ((∑ j ∈ Finset.range i, (s.cgindex ((cgsort j).ind + 1) - s.cgindex (cgsort j).ind))
            + t) = s.x (s.cgindex (cgsort i).ind + t) ∧
        (bV = true → (dd_sort_state_apply bV bSDX bCGP cgsort ncg_new s).v
          ((∑ j ∈ Finset.range i, (s.cgindex ((cgsort j).ind + 1) - s.cgindex (cgsort j).ind))
            + t) = s.v (s.cgindex (cgsort i).ind + t)) ∧
        (bSDX = true → (dd_sort_state_apply bV bSDX bCGP cgsort ncg_new s).sd_X
          ((∑ j ∈ Finset.range i, (s.cgindex ((cgsort j).ind + 1) - s.cgindex (cgsort j).ind))
            + t) = s.sd_X (s.cgindex (cgsort i).ind + t)) ∧
        (bCGP = true → (dd_sort_state_apply bV bSDX bCGP cgsort ncg_new s).cg_p
          ((∑ j ∈ Finset.range i, (s.cgindex ((cgsort j).ind + 1) - s.cgindex (cgsort j).ind))
            + t) = s.cg_p (s.cgindex (cgsort i).ind + t))) := by
  refine ⟨rfl, rfl, rfl, ?_, ?_⟩
  · intro i hi
    unfold dd_sort_state_apply
    dsimp only
    rw [foldl_update_range, if_pos (by omega)]
    exact rebuild_cgindex_spec s.cgindex cgsort _ ncg_new i hi
  · intro i hi
    refine ⟨?_, ?_, ?_, ?_⟩
    · unfold dd_sort_state_apply
      dsimp only
      rw [foldl_update_range (fun i => (cgsort i).nsc), if_pos hi]
    · unfold dd_sort_state_apply
      dsimp only
      rw [order_int_cg_spec, if_pos hi]
    · unfold dd_sort_state_apply
      dsimp only
      rw [order_vec_cg_spec, if_pos hi]
    · intro t ht
      refine ⟨?_, ?_, ?_, ?_⟩
      · unfold dd_sort_state_apply
        dsimp only
        exact order_vec_atom_spec ncg_new s.cgindex cgsort s.x _ i hi t ht
      · intro h
        unfold dd_sort_state_apply
        dsimp only
        rw [if_pos h]
        exact order_vec_atom_spec ncg_new s.cgindex cgsort s.v _ i hi t ht
      · intro h
        unfold dd_sort_state_apply
        dsimp only
        rw [if_pos h]
        exact order_vec_atom_spec ncg_new s.cgindex cgsort s.sd_X _ i hi t ht
      · intro h
        unfold dd_sort_state_apply
        dsimp only
        rw [if_pos h]
        exact order_vec_atom_spec ncg_new s.cgindex cgsort s.cg_p _ i hi t ht

/-- C14: `dd_sort_state` returns, on the way with `qsort` of all home charge
groups (`ncg_home_old < 0`, no NS cell index above the mark `4*ncells`) and on
the incremental way (`ncg_home_old >= 0`, the charge groups found in their old
NS cell being in order) alike, and then the home charge groups are exactly the
old ones whose NS cell index is not the mark `4*ncells`, each once, in
strictly increasing order of the NS cell index and, for equal NS cell indices,
the global index; the NS cell indices, `index_gl`, the centres and the state
vectors are put in this one order with the atoms of a charge group kept
together, and `cgindex` is the running sum of the sizes of the charge groups
in the new order. The global indices of the home charge groups are different
and the old `cgindex` increases. -/
theorem dd_sort_state_sorts (fuel ncells : Nat) (bV bSDX bCGP : Bool) (ncg_home_old : Int)
    (sort2 sort_new : Nat → gmx_cgsort) (s : dd_sort)
    (hfuel : s.ncg_home ≤ fuel)
    (hmono : ∀ c, c < s.ncg_home → s.cgindex c ≤ s.cgindex (c + 1))
    (hinj : ∀ i, i < s.ncg_home → ∀ j, j < s.ncg_home → s.index_gl i = s.index_gl j → i = j)
    (hcell : ncg_home_old < 0 → ∀ i, i < s.ncg_home → s.cell_index i ≤ 4 * ncells)
    (hstat : 0 ≤ ncg_home_old → ∀ j, j < s.ncg_home → ∀ i, i < j →
      cg_stationary ncells s.cell_index ncg_home_old s.sort1 i = true →
      cg_stationary ncells s.cell_index ncg_home_old s.sort1 j = true →
      cgsort_le (cgsort_entry s.cell_index s.index_gl i)
        (cgsort_entry s.cell_index s.index_gl j)) :
    ∃ r, dd_sort_state fuel ncells bV bSDX bCGP ncg_home_old sort2 sort_new s = some r ∧
      List.Perm ((List.range r.ncg_home).map (fun i => (r.sort1 i).ind))
        ((List.range s.ncg_home).filter (cg_stays ncells s.cell_index)) ∧
      (∀ j, j < r.ncg_home → ∀ i, i < j →
        r.cell_index i < r.cell_index j ∨
          (r.cell_index i = r.cell_index j ∧ r.index_gl i < r.index_gl j)) ∧
      r.cgindex 0 = 0 ∧ r.nat_home = r.cgindex r.ncg_home ∧
      ∀ i, i < r.ncg_home →
        r.cell_index i = s.cell_index (r.sort1 i).ind ∧
        r.index_gl i = s.index_gl (r.sort1 i).ind ∧
        r.cgcm i = s.cgcm (r.sort1 i).ind ∧
        r.cgindex (i + 1) = r.cgindex i + (s.cgindex ((r.sort1 i).ind + 1) - s.cgindex (r.sort1 i).ind) ∧
        ∀ t, t < (s.cgindex ((r.sort1 i).ind + 1) - s.cgindex (r.sort1 i).ind) →
          r.x (r.cgindex i + t) = s.x (s.cgindex (r.sort1 i).ind + t) ∧
          (bV = true → r.v (r.cgindex i + t) = s.v (s.cgindex (r.sort1 i).ind + t)) ∧
          (bSDX = true → r.sd_X (r.cgindex i + t) = s.sd_X (s.cgindex (r.sort1 i).ind + t)) ∧
          (bCGP = true → r.cg_p (r.cgindex i + t) = s.cg_p (s.cgindex (r.sort1 i).ind + t)) := by
  have _ := hmono
  obtain ⟨ro, hro, op, os⟩ := dd_sort_state_order_spec fuel ncells ncg_home_old sort2 sort_new s
    hfuel hcell
    (fun h0 i j hij hj h1 h2 => hstat h0 j hj i hij h1 h2)
  obtain ⟨a1, a2, a3, a4, a5⟩ := dd_sort_state_apply_spec bV bSDX bCGP ro.1 ro.2 s
  refine ⟨dd_sort_state_apply bV bSDX bCGP ro.1 ro.2 s, ?_, ?_⟩
  · unfold dd_sort_state
    rw [hro]
    rfl
  generalize dd_sort_state_apply bV bSDX bCGP ro.1 ro.2 s = r at a1 a2 a3 a4 a5
  rw [a1, a2]
  have hent : ∀ i, i < ro.2 → ∃ k, k < s.ncg_home ∧
      ro.1 i = cgsort_entry s.cell_index s.index_gl k := by
    intro i hi
    have hm : ro.1 i ∈ (List.range ro.2).map ro.1 :=
      List.mem_map.mpr ⟨i, List.mem_range.mpr hi, rfl⟩
    rw [op.mem_iff, List.mem_map] at hm
    obtain ⟨k, hk, e⟩ := hm
    rw [List.mem_filter, List.mem_range] at hk
    exact ⟨k, hk.1, e.symm⟩
  have hperm : List.Perm ((List.range ro.2).map (fun i => (ro.1 i).ind))
      ((List.range s.ncg_home).filter (cg_stays ncells s.cell_index)) := by
    have := op.map (fun e : gmx_cgsort => e.ind)
    rw [List.map_map, List.map_map] at this
    have e : ((fun e : gmx_cgsort => e.ind) ∘ cgsort_entry s.cell_index s.index_gl) = id := by
      funext k
      rfl
    rw [e, List.map_id] at this
    exact this
  have hnd : ∀ p q, p < q → q < ro.2 → (ro.1 p).ind ≠ (ro.1 q).ind := by
    have nd : ((List.range ro.2).map (fun i => (ro.1 i).ind)).Nodup :=
      hperm.nodup_iff.mpr (List.Nodup.filter _ (List.nodup_range s.ncg_home))
    exact (pairwise_map_range_iff (fun a b : Nat => a ≠ b) (fun i => (ro.1 i).ind) ro.2).mp nd
  rw [pairwise_map_range_iff] at os
  have hcg0 := a4 0 (Nat.zero_le _)
  rw [Finset.sum_range_zero] at hcg0
  refine ⟨hperm, ?_, hcg0, a3, ?_⟩
  · intro j hj i hij
    obtain ⟨ki, hki, ei⟩ := hent i (by omega)
    obtain ⟨kj, hkj, ej⟩ := hent j hj
    have hle := os i j hij hj
    have hne := hnd i j hij hj
    rw [(a5 i (by omega)).1, (a5 j hj).1, (a5 i (by omega)).2.1, (a5 j hj).2.1]
    rw [cgsort_le_iff] at hle
    rw [ei, ej] at hle hne ⊢
    have hgl : s.index_gl ki ≠ s.index_gl kj := fun h => hne (hinj ki hki kj hkj h)
    unfold cgsort_entry at hle ⊢
    dsimp only at hle ⊢
    omega
  · intro i hi
    obtain ⟨ki, hki, ei⟩ := hent i hi
    obtain ⟨b1, b2, b3, b4⟩ := a5 i hi
    refine ⟨?_, b2, b3, ?_, ?_⟩
    · rw [b1, ei]
      rfl
    · rw [a4 (i + 1) (by omega), a4 i (by omega), sort_off_succ]
    · intro t ht
      rw [a4 i (by omega)]
      exact b4 t ht

/-- Witness of C14: five home charge groups on the incremental way; one has
moved away, two are in their old NS cells. -/
theorem dd_sort_state_sorts_witness :
    ((ex_dd_sort.ncg_home ≤ 5) ∧
    (∀ c, c < ex_dd_sort.ncg_home → ex_dd_sort.cgindex c ≤ ex_dd_sort.cgindex (c + 1)) ∧
    (∀ i, i < ex_dd_sort.ncg_home → ∀ j, j < ex_dd_sort.ncg_home → ex_dd_sort.index_gl i = ex_dd_sort.index_gl j → i = j) ∧
    ((5 : Int) < 0 → ∀ i, i < ex_dd_sort.ncg_home → ex_dd_sort.cell_index i ≤ 4 * 2) ∧
    ((0 : Int) ≤ 5 → ∀ j, j < ex_dd_sort.ncg_home → ∀ i, i < j →
      cg_stationary 2 ex_dd_sort.cell_index 5 ex_dd_sort.sort1 i = true →
      cg_stationary 2 ex_dd_sort.cell_index 5 ex_dd_sort.sort1 j = true →
      cgsort_le (cgsort_entry ex_dd_sort.cell_index ex_dd_sort.index_gl i)
        (cgsort_entry ex_dd_sort.cell_index ex_dd_sort.index_gl j))) ∧
    (∃ r, dd_sort_state 5 2 true false true 5 (fun _ => ⟨0, 0, 0⟩) (fun _ => ⟨0, 0, 0⟩) ex_dd_sort = some r ∧
      List.Perm ((List.range r.ncg_home).map (fun i => (r.sort1 i).ind))
        ((List.range ex_dd_sort.ncg_home).filter (cg_stays 2 ex_dd_sort.cell_index)) ∧
      (∀ j, j < r.ncg_home → ∀ i, i < j →
        r.cell_index i < r.cell_index j ∨
          (r.cell_index i = r.cell_index j ∧ r.index_gl i < r.index_gl j)) ∧
      r.cgindex 0 = 0 ∧ r.nat_home = r.cgindex r.ncg_home ∧
      ∀ i, i < r.ncg_home →
        r.cell_index i = ex_dd_sort.cell_index (r.sort1 i).ind ∧
        r.index_gl i = ex_dd_sort.index_gl (r.sort1 i).ind ∧
        r.cgcm i = ex_dd_sort.cgcm (r.sort1 i).ind ∧
        r.cgindex (i + 1) = r.cgindex i + (ex_dd_sort.cgindex ((r.sort1 i).ind + 1) - ex_dd_sort.cgindex (r.sort1 i).ind) ∧
        ∀ t, t < (ex_dd_sort.cgindex ((r.sort1 i).ind + 1) - ex_dd_sort.cgindex (r.sort1 i).ind) →
          r.x (r.cgindex i + t) = ex_dd_sort.x (ex_dd_sort.cgindex (r.sort1 i).ind + t) ∧
          (true = true → r.v (r.cgindex i + t) = ex_dd_sort.v (ex_dd_sort.cgindex (r.sort1 i).ind + t)) ∧
          (false = true → r.sd_X (r.cgindex i + t) = ex_dd_sort.sd_X (ex_dd_sort.cgindex (r.sort1 i).ind + t)) ∧
          (true = true → r.cg_p (r.cgindex i + t) = ex_dd_sort.cg_p (ex_dd_sort.cgindex (r.sort1 i).ind + t))) :=
  ⟨⟨by decide, by decide, by decide, by decide, by decide⟩,
    dd_sort_state_sorts 5 2 true false true 5 (fun _ => ⟨0, 0, 0⟩) (fun _ => ⟨0, 0, 0⟩) ex_dd_sort
      (by decide) (by decide) (by decide) (by decide) (by decide)⟩

/-! ## Grid coordinates and DD indices -/

theorem ivec_ext (a b : ivec) (h0 : a 0 = b 0) (h1 : a 1 = b 1) (h2 : a 2 = b 2) : a = b := by
  funext d
  fin_cases d
  · exact h0
  · exact h1
  · exact h2

theorem ddindex2xyz_XX (nc : ivec) (ind : Nat) : ddindex2xyz nc ind 0 = ind / (nc 1 * nc 2) := by
  simp [ddindex2xyz, XX, YY, ZZ]

theorem ddindex2xyz_YY (nc : ivec) (ind : Nat) : ddindex2xyz nc ind 1 = (ind / nc 2) % nc 1 := by
  simp [ddindex2xyz, XX, YY, ZZ]

theorem ddindex2xyz_ZZ (nc : ivec) (ind : Nat) : ddindex2xyz nc ind 2 = ind % nc 2 := by
  simp [ddindex2xyz, XX, YY, ZZ]

theorem dd_index_eq (nc ci : ivec) : dd_index nc ci = (ci 0 * nc 1 + ci 1) * nc 2 + ci 2 := rfl

theorem ddindex2xyz_dd_index (nc ci : ivec) (hci : ∀ d, ci d < nc d) :
    ddindex2xyz nc (dd_index nc ci) = ci := by
  have h1 := hci 1
  have h2 := hci 2
  have p2 : 0 < nc 2 := by omega
  have p1 : 0 < nc 1 := by omega
  have e2 : ((ci 0 * nc 1 + ci 1) * nc 2 + ci 2) / nc 2 = ci 0 * nc 1 + ci 1 := by
    rw [Nat.add_comm, Nat.add_mul_div_right _ _ p2, Nat.div_eq_of_lt h2, Nat.zero_add]
  apply ivec_ext
  · rw [ddindex2xyz_XX, dd_index_eq, Nat.mul_comm (nc 1) (nc 2), ← Nat.div_div_eq_div_mul, e2,
      Nat.add_comm, Nat.add_mul_div_right _ _ p1, Nat.div_eq_of_lt h1, Nat.zero_add]
  · rw [ddindex2xyz_YY, dd_index_eq, e2, Nat.add_comm, Nat.add_mul_mod_self_right,
      Nat.mod_eq_of_lt h1]
  · rw [ddindex2xyz_ZZ, dd_index_eq, Nat.add_comm, Nat.add_mul_mod_self_right,
      Nat.mod_eq_of_lt h2]

theorem ddindex2xyz_lt (nc : ivec) (hnc : ∀ d, 1 ≤ nc d) (ind : Nat)
    (hind : ind < nc 0 * nc 1 * nc 2) : ∀ d, ddindex2xyz nc ind d < nc d := by
  have p1 := hnc 1
  have p2 := hnc 2
  intro d
  fin_cases d
  · show ddindex2xyz nc ind 0 < nc 0
    rw [ddindex2xyz_XX, Nat.div_lt_iff_lt_mul (Nat.mul_pos p1 p2)]
    rw [← Nat.mul_assoc]
    exact hind
  · show ddindex2xyz nc ind 1 < nc 1
    rw [ddindex2xyz_YY]
    exact Nat.mod_lt _ p1
  · show ddindex2xyz nc ind 2 < nc 2
    rw [ddindex2xyz_ZZ]
    exact Nat.mod_lt _ p2

theorem dd_index_ddindex2xyz (nc : ivec) (ind : Nat) :
    dd_index nc (ddindex2xyz nc ind) = ind := by
  rw [dd_index_eq, ddindex2xyz_XX, ddindex2xyz_YY, ddindex2xyz_ZZ]
  have a : ind / (nc 1 * nc 2) * nc 1 + ind / nc 2 % nc 1 = ind / nc 2 := by
    rw [Nat.mul_comm (nc 1) (nc 2), ← Nat.div_div_eq_div_mul, Nat.mul_comm]
    exact Nat.div_add_mod _ _
  rw [a, Nat.mul_comm]
  exact Nat.div_add_mod _ _

/-- C15: for a grid `nc` with all extents at least 1, `dd_index` maps every
coordinate `ci` with `ci[d] < nc[d]` to `(ci.x*ny + ci.y)*nz + ci.z`, which lies
below `nx*ny*nz` and is mapped back to `ci` by `ddindex2xyz`; and every index
below `nx*ny*nz` is mapped by `ddindex2xyz` to a coordinate inside the grid
whose `dd_index` is the index again: the two maps are inverse bijections. -/
theorem dd_index_ddindex2xyz_bijection (nc : ivec) (hnc : ∀ d, 1 ≤ nc d) :
    (∀ ci : ivec, (∀ d, ci d < nc d) →
      dd_index nc ci = (ci XX * nc YY + ci YY) * nc ZZ + ci ZZ ∧
      dd_index nc ci < nc XX * nc YY * nc ZZ ∧
      ddindex2xyz nc (dd_index nc ci) = ci) ∧
    (∀ ind, ind < nc XX * nc YY * nc ZZ →
      (∀ d, ddindex2xyz nc ind d < nc d) ∧
      dd_index nc (ddindex2xyz nc ind) = ind) ∧
    (∀ ci cj : ivec, (∀ d, ci d < nc d) → (∀ d, cj d < nc d) →
      dd_index nc ci = dd_index nc cj → ci = cj) := by
  refine ⟨fun ci hci => ⟨rfl, dd_index_lt nc ci hci, ddindex2xyz_dd_index nc ci hci⟩,
    fun ind hind => ⟨ddindex2xyz_lt nc hnc ind hind, dd_index_ddindex2xyz nc ind⟩, ?_⟩
  intro ci cj hci hcj h
  rw [← ddindex2xyz_dd_index nc ci hci, ← ddindex2xyz_dd_index nc cj hcj, h]

/-- Witness of C15 on the grid 2 x 3 x 4. -/
theorem dd_index_ddindex2xyz_bijection_witness :
    (∀ d, 1 ≤ (![2, 3, 4] : ivec) d) ∧
    ((∀ ci : ivec, (∀ d, ci d < (![2, 3, 4] : ivec) d) →
      dd_index ![2, 3, 4] ci =
        (ci XX * (![2, 3, 4] : ivec) YY + ci YY) * (![2, 3, 4] : ivec) ZZ + ci ZZ ∧
      dd_index ![2, 3, 4] ci <
        (![2, 3, 4] : ivec) XX * (![2, 3, 4] : ivec) YY * (![2, 3, 4] : ivec) ZZ ∧
      ddindex2xyz ![2, 3, 4] (dd_index ![2, 3, 4] ci) = ci) ∧
    (∀ ind, ind < (![2, 3, 4] : ivec) XX * (![2, 3, 4] : ivec) YY * (![2, 3, 4] : ivec) ZZ →
      (∀ d, ddindex2xyz ![2, 3, 4] ind d < (![2, 3, 4] : ivec) d) ∧
      dd_index ![2, 3, 4] (ddindex2xyz ![2, 3, 4] ind) = ind) ∧
    (∀ ci cj : ivec, (∀ d, ci d < (![2, 3, 4] : ivec) d) →
      (∀ d, cj d < (![2, 3, 4] : ivec) d) →
      dd_index ![2, 3, 4] ci = dd_index ![2, 3, 4] cj → ci = cj)) :=
  ⟨by decide, dd_index_ddindex2xyz_bijection ![2, 3, 4] (by decide)⟩

/-! ## The neighbour table of `setup_dd_grid` -/

theorem neighbor_fw_eq (nc ci : Nat) (h : ci < nc) :
    neighbor_fw nc ci = if ci + 1 = nc then 0 else ci + 1 := by
  unfold neighbor_fw
  split_ifs with e
  · rw [e, Nat.mod_self]
  · exact Nat.mod_eq_of_lt (by omega)

theorem neighbor_bw_eq (nc ci : Nat) (h : ci < nc) :
    neighbor_bw nc ci = if ci = 0 then nc - 1 else ci - 1 := by
  unfold neighbor_bw
  rw [Int.tmod_eq_emod (by omega) (by omega)]
  split_ifs with e
  · subst e
    rw [Int.emod_eq_of_lt (by omega) (by omega)]
    omega
  · rw [Int.add_emod_self, Int.emod_eq_of_lt (by omega) (by omega)]
    omega

theorem neighbor_bw_eq_emod (nc ci : Nat) (h : ci < nc) :
    neighbor_bw nc ci = (((ci : Int) - 1) % (nc : Int)).toNat := by
  unfold neighbor_bw
  rw [Int.tmod_eq_emod (by omega) (by omega), Int.add_emod_self]

theorem neighbor_fw_lt (nc ci : Nat) (h : ci < nc) : neighbor_fw nc ci < nc := by
  rw [neighbor_fw_eq nc ci h]
  split_ifs <;> omega

theorem neighbor_bw_fw (nc ci : Nat) (h : ci < nc) :
    neighbor_bw nc (neighbor_fw nc ci) = ci := by
  rw [neighbor_bw_eq nc _ (neighbor_fw_lt nc ci h), neighbor_fw_eq nc ci h]
  by_cases e : ci + 1 = nc
  · rw [if_pos e, if_pos rfl]
    omega
  · rw [if_neg e, if_neg (by omega)]
    omega

theorem neighbor_fw_eq_bw_iff (nc ci : Nat) (h : ci < nc) (hnc : 2 ≤ nc) :
    neighbor_fw nc ci = neighbor_bw nc ci ↔ nc = 2 := by
  rw [neighbor_bw_eq nc ci h, neighbor_fw_eq nc ci h]
  split_ifs <;> omega

theorem update_lt (nc ci : ivec) (dim : Fin 3) (v : Nat) (hci : ∀ k, ci k < nc k)
    (hv : v < nc dim) : ∀ k, Function.update ci dim v k < nc k := by
  intro k
  by_cases e : k = dim
  · subst e
    rw [Function.update_same]
    exact hv
  · rw [Function.update_noteq e]
    exact hci k

theorem setup_dd_grid_neighbor_succ (nc ci : ivec) (n : Nat) (dim : Nat → Fin 3)
    (b1 b2 : Bool) (t : Nat → Nat) (m : ivec → Nat) (neighbor : Nat → Nat → Nat) :
    setup_dd_grid_neighbor nc ci (n + 1) dim b1 b2 t m neighbor =
      setup_dd_grid_d nc ci dim b1 b2 t m
        (setup_dd_grid_neighbor nc ci n dim b1 b2 t m neighbor) n := by
  unfold setup_dd_grid_neighbor
  rw [List.range_succ, List.foldl_append, List.foldl_cons, List.foldl_nil]

theorem setup_dd_grid_d_same (nc ci : ivec) (dim : Nat → Fin 3)
    (b1 b2 : Bool) (t : Nat → Nat) (m : ivec → Nat) (neighbor : Nat → Nat → Nat) (d : Nat) :
    setup_dd_grid_d nc ci dim b1 b2 t m neighbor d d 0 =
      ddcoord2ddnodeid nc b1 b2 t m
        (Function.update ci (dim d) (neighbor_fw (nc (dim d)) (ci (dim d)))) ∧
    setup_dd_grid_d nc ci dim b1 b2 t m neighbor d d 1 =
      ddcoord2ddnodeid nc b1 b2 t m
        (Function.update ci (dim d) (neighbor_bw (nc (dim d)) (ci (dim d)))) := by
  unfold setup_dd_grid_d
  simp only [Function.update_same]
  constructor
  · rw [Function.update_noteq (by decide : (0 : Nat) ≠ 1), Function.update_same]
  · trivial

theorem setup_dd_grid_d_other (nc ci : ivec) (dim : Nat → Fin 3)
    (b1 b2 : Bool) (t : Nat → Nat) (m : ivec → Nat) (neighbor : Nat → Nat → Nat) (d e : Nat)
    (h : e ≠ d) :
    setup_dd_grid_d nc ci dim b1 b2 t m neighbor d e = neighbor e := by
  unfold setup_dd_grid_d
  simp only [Function.update_noteq h]

/-- Every entry `d < ndim` of the table is the one written in iteration `d`. -/
theorem setup_dd_grid_neighbor_spec (nc ci : ivec) (dim : Nat → Fin 3)
    (b1 b2 : Bool) (t : Nat → Nat) (m : ivec → Nat) (neighbor : Nat → Nat → Nat) (ndim : Nat) :
    ∀ d, d < ndim →
      setup_dd_grid_neighbor nc ci ndim dim b1 b2 t m neighbor d 0 =
        ddcoord2ddnodeid nc b1 b2 t m
          (Function.update ci (dim d) (neighbor_fw (nc (dim d)) (ci (dim d)))) ∧
      setup_dd_grid_neighbor nc ci ndim dim b1 b2 t m neighbor d 1 =
        ddcoord2ddnodeid nc b1 b2 t m
          (Function.update ci (dim d) (neighbor_bw (nc (dim d)) (ci (dim d)))) := by
  induction ndim with
  | zero => intro d hd; omega
  | succ n ih =>
    intro d hd
    rw [setup_dd_grid_neighbor_succ]
    by_cases e : d = n
    · subst e
      exact setup_dd_grid_d_same _ _ _ _ _ _ _ _ _
    · rw [setup_dd_grid_d_other _ _ _ _ _ _ _ _ _ _ e]
      exact ih d (by omega)

/-- C16: in the rank mapping without Cartesian communicators (rank = DD
index), for every rank coordinate `ci` inside the grid and every decomposition
dimension index `d < ndim` whose dimension has at least two cells,
`setup_dd_grid` sets `neighbor[d][0]` to the DD index of `ci` with
`ci[dim[d]]` replaced by `(ci[dim[d]]+1) mod nc[dim[d]]` and `neighbor[d][1]`
to the one with `(ci[dim[d]]-1) mod nc[dim[d]]`.  The backward neighbour that
the forward neighbour computes from its own coordinate is the rank itself, and
the two neighbours coincide exactly when `nc[dim[d]] = 2`. -/
theorem setup_dd_grid_neighbor_table (nc ci : ivec) (ndim : Nat) (dim : Nat → Fin 3)
    (ddindex2ddnodeid : Nat → Nat) (MPI_Cart_rank : ivec → Nat)
    (neighbor neighbor2 : Nat → Nat → Nat) (d : Nat)
    (hci : ∀ k, ci k < nc k) (hd : d < ndim) (hact : 2 ≤ nc (dim d)) :
    setup_dd_grid_neighbor nc ci ndim dim false false ddindex2ddnodeid MPI_Cart_rank
        neighbor d 0 =
      dd_index nc (Function.update ci (dim d) ((ci (dim d) + 1) % nc (dim d))) ∧
    setup_dd_grid_neighbor nc ci ndim dim false false ddindex2ddnodeid MPI_Cart_rank
        neighbor d 1 =
      dd_index nc (Function.update ci (dim d)
        (((ci (dim d) : Int) - 1) % (nc (dim d) : Int)).toNat) ∧
    setup_dd_grid_neighbor nc
        (ddindex2xyz nc
          (setup_dd_grid_neighbor nc ci ndim dim false false ddindex2ddnodeid MPI_Cart_rank
            neighbor d 0))
        ndim dim false false ddindex2ddnodeid MPI_Cart_rank neighbor2 d 1 =
      dd_index nc ci ∧
    (setup_dd_grid_neighbor nc ci ndim dim false false ddindex2ddnodeid MPI_Cart_rank
        neighbor d 0 =
      setup_dd_grid_neighbor nc ci ndim dim false false ddindex2ddnodeid MPI_Cart_rank
        neighbor d 1 ↔ nc (dim d) = 2) := by
  obtain ⟨h0, h1⟩ := setup_dd_grid_neighbor_spec nc ci dim false false ddindex2ddnodeid
    MPI_Cart_rank neighbor ndim d hd
  have hfw : ∀ k, Function.update ci (dim d) (neighbor_fw (nc (dim d)) (ci (dim d))) k < nc k :=
    update_lt nc ci (dim d) _ hci (neighbor_fw_lt _ _ (hci (dim d)))
  have hbwlt : neighbor_bw (nc (dim d)) (ci (dim d)) < nc (dim d) := by
    rw [neighbor_bw_eq _ _ (hci (dim d))]
    have := hci (dim d)
    split_ifs <;> omega
  have hbw : ∀ k, Function.update ci (dim d) (neighbor_bw (nc (dim d)) (ci (dim d))) k < nc k :=
    update_lt nc ci (dim d) _ hci hbwlt
  simp only [ddcoord2ddnodeid, Bool.false_eq_true, if_false] at h0 h1
  refine ⟨?_, ?_, ?_, ?_⟩
  · rw [h0]
    rfl
  · rw [h1, neighbor_bw_eq_emod _ _ (hci (dim d))]
  · obtain ⟨_, g1⟩ := setup_dd_grid_neighbor_spec nc
      (ddindex2xyz nc
        (setup_dd_grid_neighbor nc ci ndim dim false false ddindex2ddnodeid MPI_Cart_rank
          neighbor d 0)) dim false false ddindex2ddnodeid MPI_Cart_rank neighbor2 ndim d hd
    simp only [ddcoord2ddnodeid, Bool.false_eq_true, if_false] at g1
    rw [g1, h0, ddindex2xyz_dd_index nc _ hfw, Function.update_same, Function.update_idem,
      neighbor_bw_fw _ _ (hci (dim d)), Function.update_eq_self]
  · rw [h0, h1]
    constructor
    · intro h
      have h2 := congrArg (ddindex2xyz nc) h
      rw [ddindex2xyz_dd_index nc _ hfw, ddindex2xyz_dd_index nc _ hbw] at h2
      have h3 := congrFun h2 (dim d)
      rw [Function.update_same, Function.update_same] at h3
      exact (neighbor_fw_eq_bw_iff _ _ (hci (dim d)) hact).mp h3
    · intro h
      rw [(neighbor_fw_eq_bw_iff _ _ (hci (dim d)) hact).mpr h]

/-- Witness of C16: the cell (0,1,0) of a 3 x 2 x 1 grid, decomposed along x
and y, second decomposition dimension. -/
theorem setup_dd_grid_neighbor_table_witness :
    ((∀ k, (![0, 1, 0] : ivec) k < (![3, 2, 1] : ivec) k) ∧ 1 < 2 ∧
      2 ≤ (![3, 2, 1] : ivec) ((fun d => if d = 0 then XX else YY) 1)) ∧
    (setup_dd_grid_neighbor ![3, 2, 1] ![0, 1, 0] 2 (fun d => if d = 0 then XX else YY)
        false false (fun i => i) (fun _ => 0) (fun _ _ => 0) 1 0 =
      dd_index ![3, 2, 1] (Function.update ![0, 1, 0] ((fun d => if d = 0 then XX else YY) 1)
        (((![0, 1, 0] : ivec) ((fun d => if d = 0 then XX else YY) 1) + 1) %
          (![3, 2, 1] : ivec) ((fun d => if d = 0 then XX else YY) 1))) ∧
    setup_dd_grid_neighbor ![3, 2, 1] ![0, 1, 0] 2 (fun d => if d = 0 then XX else YY)
        false false (fun i => i) (fun _ => 0) (fun _ _ => 0) 1 1 =
      dd_index ![3, 2, 1] (Function.update ![0, 1, 0] ((fun d => if d = 0 then XX else YY) 1)
        ((((![0, 1, 0] : ivec) ((fun d => if d = 0 then XX else YY) 1) : Int) - 1) %
          ((![3, 2, 1] : ivec) ((fun d => if d = 0 then XX else YY) 1) : Int)).toNat) ∧
    setup_dd_grid_neighbor ![3, 2, 1]
        (ddindex2xyz ![3, 2, 1]
          (setup_dd_grid_neighbor ![3, 2, 1] ![0, 1, 0] 2 (fun d => if d = 0 then XX else YY)
            false false (fun i => i) (fun _ => 0) (fun _ _ => 0) 1 0))
        2 (fun d => if d = 0 then XX else YY) false false (fun i => i) (fun _ => 0)
        (fun _ _ => 0) 1 1 =
      dd_index ![3, 2, 1] ![0, 1, 0] ∧
    (setup_dd_grid_neighbor ![3, 2, 1] ![0, 1, 0] 2 (fun d => if d = 0 then XX else YY)
        false false (fun i => i) (fun _ => 0) (fun _ _ => 0) 1 0 =
      setup_dd_grid_neighbor ![3, 2, 1] ![0, 1, 0] 2 (fun d => if d = 0 then XX else YY)
        false false (fun i => i) (fun _ => 0) (fun _ _ => 0) 1 1 ↔
      (![3, 2, 1] : ivec) ((fun d => if d = 0 then XX else YY) 1) = 2)) :=
  ⟨⟨by decide, by decide, by decide⟩,
    setup_dd_grid_neighbor_table ![3, 2, 1] ![0, 1, 0] 2 (fun d => if d = 0 then XX else YY)
      (fun i => i) (fun _ => 0) (fun _ _ => 0) (fun _ _ => 0) 1 (by decide) (by decide)
      (by decide)⟩

/-! ## The search for the grid -/

theorem try_mul_eq (d : Fin 3) (n div : Nat) (t : ivec) :
    try_mul d n div t = Function.update t d (t d * div ^ n) := by
  unfold try_mul
  induction n with
  | zero => simp
  | succ n ih =>
    rw [List.range_succ, List.foldl_append, ih]
    simp only [List.foldl_cons, List.foldl_nil, Function.update_same, Function.update_idem]
    rw [pow_succ, Nat.mul_assoc]

theorem try_div_eq (d : Fin 3) (n div : Nat) (t : ivec) :
    try_div d n div t = Function.update t d (t d / div ^ n) := by
  unfold try_div
  induction n with
  | zero => simp
  | succ n ih =>
    rw [List.range_succ, List.foldl_append, ih]
    simp only [List.foldl_cons, List.foldl_nil, Function.update_same, Function.update_idem]
    rw [pow_succ, Nat.div_div_eq_div_mul]

theorem try_div_mul (d : Fin 3) (n div : Nat) (t : ivec) (h : 0 < div) :
    try_div d n div (try_mul d n div t) = t := by
  rw [try_mul_eq, try_div_eq, Function.update_same, Function.update_idem,
    Nat.mul_div_cancel _ (Nat.pos_pow_of_pos n h), Function.update_eq_self]

theorem try_mul_three (x y z p : Nat) (t : ivec) :
    try_mul ZZ z p (try_mul YY y p (try_mul XX x p t)) =
      (fun d =>
        if d = XX then t XX * p ^ x
        else if d = YY then t YY * p ^ y
        else t ZZ * p ^ z) := by
  rw [try_mul_eq, try_mul_eq, try_mul_eq]
  funext d
  have hd : d = XX ∨ d = YY ∨ d = ZZ := by fin_cases d <;> simp
  rcases hd with rfl | rfl | rfl
  · simp [Function.update, XX, YY, ZZ]
  · simp [Function.update, XX, YY, ZZ]
  · simp [Function.update, XX, YY, ZZ]

/-- A loop whose iterations restore `try` and examine the grids `g try a` one
after the other examines the grids of all iterations. -/
theorem foldl_assign {α : Type} (sel : ivec → ivec → ivec) (f : assign_state → α → assign_state)
    (g : ivec → α → List ivec)
    (h : ∀ s a, f s a = ⟨s.try_, (g s.try_ a).foldl sel s.opt⟩) (l : List α) :
    ∀ s, l.foldl f s = ⟨s.try_, (l.flatMap (g s.try_)).foldl sel s.opt⟩ := by
  induction l with
  | nil => intro s; rfl
  | cons a l ih =>
    intro s
    rw [List.foldl_cons, h, ih, List.flatMap_cons, List.foldl_append]

/-- Without the restriction to x and y, `assign_factors` restores `try` and
selects among the grids of `factor_grids`, when the factors used are
positive. -/
theorem assign_factors_eq (cost : ivec → real) (div mdiv : Nat → Nat) :
    ∀ ndiv k s, (∀ i, i < ndiv → 0 < div (k + i)) →
      assign_factors cost false div mdiv ndiv k s =
        ⟨s.try_, (factor_grids div mdiv ndiv k s.try_).foldl (assign_select cost) s.opt⟩ := by
  intro ndiv
  induction ndiv with
  | zero =>
    intro k s _
    unfold assign_factors factor_grids assign_select
    simp only [List.foldl_cons, List.foldl_nil]
    split_ifs <;> rfl
  | succ ndiv ih =>
    intro k s hpos
    have hdiv : ∀ j : Nat, j = k → 0 < div j := by
      intro j e
      subst e
      exact hpos 0 (Nat.succ_pos _)
    have hrest : ∀ i, i < ndiv → 0 < div (k + 1 + i) := by
      intro i hi
      have := hpos (i + 1) (by omega)
      rw [show k + 1 + i = k + (i + 1) by omega]
      exact this
    unfold assign_factors factor_grids factor_splits
    rw [List.flatMap_assoc]
    apply foldl_assign (assign_select cost) _
      (fun t x => ((List.range (mdiv k - x + 1)).reverse.map (fun y => (x, y))).flatMap
        (fun xy => factor_grids div mdiv ndiv (k + 1)
          (fun d =>
            if d = XX then t XX * div k ^ xy.1
            else if d = YY then t YY * div k ^ xy.2
            else t ZZ * div k ^ (mdiv k - xy.1 - xy.2))))
    intro s x
    simp only
    rw [List.flatMap_map]
    have hin := foldl_assign (assign_select cost)
      (fun (s : assign_state) (y : Nat) =>
        if false = true ∧ x + y ≠ mdiv k then s
        else
          (⟨try_div YY y (div k) (try_div ZZ (mdiv k - x - y) (div k)
              (assign_factors cost false div mdiv ndiv (k + 1)
                ⟨try_mul ZZ (mdiv k - x - y) (div k) (try_mul YY y (div k) s.try_),
                  s.opt⟩).try_),
            (assign_factors cost false div mdiv ndiv (k + 1)
              ⟨try_mul ZZ (mdiv k - x - y) (div k) (try_mul YY y (div k) s.try_),
                s.opt⟩).opt⟩ : assign_state))
      (fun t y => factor_grids div mdiv ndiv (k + 1)
        (try_mul ZZ (mdiv k - x - y) (div k) (try_mul YY y (div k) t)))
      (by
        intro s y
        beta_reduce
        rw [if_neg (by simp), ih _ _ hrest]
        simp only
        rw [try_div_mul _ _ _ _ (hdiv k rfl), try_div_mul _ _ _ _ (hdiv k rfl)])
      ((List.range (mdiv k - x + 1)).reverse) ⟨try_mul XX x (div k) s.try_, s.opt⟩
    rw [hin]
    simp only
    rw [try_div_mul _ _ _ _ (hdiv k rfl)]
    congr 2
    apply List.flatMap_congr
    intro y _
    rw [try_mul_three]

/-- The selection keeps the cheapest accepted grid among those examined. -/
theorem assign_select_foldl (cost : ivec → real) (l : List ivec) :
    ∀ (seen : List ivec) (o : ivec), (∀ t, t ∈ l → t XX ≠ 0) →
      ((o XX = 0 ∧ ∀ t, t ∈ seen → cost t < 0) ∨
        (o XX ≠ 0 ∧ o ∈ seen ∧ 0 ≤ cost o ∧ ∀ t, t ∈ seen → 0 ≤ cost t → cost o ≤ cost t)) →
      ((l.foldl (assign_select cost) o) XX = 0 ∧ ∀ t, t ∈ seen ++ l → cost t < 0) ∨
        ((l.foldl (assign_select cost) o) XX ≠ 0 ∧ l.foldl (assign_select cost) o ∈ seen ++ l ∧
          0 ≤ cost (l.foldl (assign_select cost) o) ∧
          ∀ t, t ∈ seen ++ l → 0 ≤ cost t → cost (l.foldl (assign_select cost) o) ≤ cost t) := by
  induction l with
  | nil =>
    intro seen o _ h
    simpa using h
  | cons a l ih =>
    intro seen o hpos h
    rw [List.foldl_cons]
    have e : seen ++ a :: l = (seen ++ [a]) ++ l := by simp
    rw [e]
    apply ih (seen ++ [a]) _ (fun t ht => hpos t (List.mem_cons_of_mem _ ht))
    have ha := hpos a (List.mem_cons_self _ _)
    unfold assign_select
    by_cases hc : cost a ≥ 0 ∧ (o XX = 0 ∨ cost a < cost o)
    · rw [if_pos hc]
      right
      refine ⟨ha, by simp, hc.1, ?_⟩
      intro t ht hct
      rcases List.mem_append.mp ht with h1 | h1
      · rcases h with ⟨_, h2⟩ | ⟨h0, _, _, h3⟩
        · have := h2 t h1
          linarith
        · rcases hc.2 with h4 | h4
          · exact absurd h4 h0
          · have := h3 t h1 hct
            linarith
      · simp only [List.mem_singleton] at h1
        rw [h1]
    · rw [if_neg hc]
      rcases h with ⟨h1, h2⟩ | ⟨h0, h1, h2, h3⟩
      · left
        refine ⟨h1, ?_⟩
        intro t ht
        rcases List.mem_append.mp ht with h4 | h4
        · exact h2 t h4
        · simp only [List.mem_singleton] at h4
          rw [h4]
          by_contra hn
          exact hc ⟨not_lt.mp hn, Or.inl h1⟩
      · right
        refine ⟨h0, List.mem_append_left _ h1, h2, ?_⟩
        intro t ht hct
        rcases List.mem_append.mp ht with h4 | h4
        · exact h3 t h4 hct
        · simp only [List.mem_singleton] at h4
          rw [h4] at hct ⊢
          by_contra hn
          exact hc ⟨hct, Or.inr (not_le.mp hn)⟩

theorem mem_factor_splits (m x y : Nat) : (x, y) ∈ factor_splits m ↔ x + y ≤ m := by
  unfold factor_splits
  simp only [List.mem_flatMap, List.mem_reverse, List.mem_range, List.mem_map, Prod.mk.injEq]
  constructor
  · rintro ⟨a, ha, b, hb, e1, e2⟩
    omega
  · intro h
    exact ⟨x, by omega, y, by omega, rfl, rfl⟩

theorem factor_prod_pos (div mdiv : Nat → Nat) (hdiv : ∀ i, 0 < div i) :
    ∀ ndiv k, 0 < factor_prod div mdiv ndiv k := by
  intro ndiv
  induction ndiv with
  | zero => intro k; exact Nat.one_pos
  | succ n ih =>
    intro k
    unfold factor_prod
    exact Nat.mul_pos (Nat.pos_pow_of_pos _ (hdiv k)) (ih (k + 1))

/-- Every grid that is examined is the start grid times three factors whose
product is the product of the prime powers. -/
theorem factor_grids_sound (div mdiv : Nat → Nat) :
    ∀ ndiv k (t u : ivec), u ∈ factor_grids div mdiv ndiv k t →
      ∃ a b c, a * b * c = factor_prod div mdiv ndiv k ∧
        u XX = t XX * a ∧ u YY = t YY * b ∧ u ZZ = t ZZ * c := by
  intro ndiv
  induction ndiv with
  | zero =>
    intro k t u hu
    unfold factor_grids at hu
    simp only [List.mem_singleton] at hu
    subst hu
    exact ⟨1, 1, 1, rfl, by simp, by simp, by simp⟩
  | succ n ih =>
    intro k t u hu
    unfold factor_grids at hu
    rw [List.mem_flatMap] at hu
    obtain ⟨⟨x, y⟩, hxy, hu2⟩ := hu
    rw [mem_factor_splits] at hxy
    obtain ⟨a, b, c, h1, h2, h3, h4⟩ := ih (k + 1) _ u hu2
    simp only [XX, YY, ZZ, if_true, fin3_one_eq_zero, fin3_two_eq_zero, fin3_two_eq_one,
      if_false] at h2 h3 h4
    refine ⟨div k ^ x * a, div k ^ y * b, div k ^ (mdiv k - x - y) * c, ?_, ?_, ?_, ?_⟩
    · unfold factor_prod
      rw [← h1]
      have e : mdiv k = x + y + (mdiv k - x - y) := by omega
      conv_rhs => rw [e, pow_add, pow_add]
      ring
    · rw [h2, Nat.mul_assoc]
    · rw [h3, Nat.mul_assoc]
    · rw [h4, Nat.mul_assoc]

theorem prime_pow_cancel (p e f u v : Nat) (hp : Nat.Prime p) (hu : ¬ p ∣ u) (hv : ¬ p ∣ v)
    (h : p ^ e * u = p ^ f * v) : e = f ∧ u = v := by
  have hpos : 0 < p := hp.pos
  have key : ∀ e f u v, ¬ p ∣ u → e < f → p ^ e * u ≠ p ^ f * v := by
    intro e f u v hu hlt heq
    have e1 : f = e + (f - e - 1 + 1) := by omega
    rw [e1, pow_add, Nat.mul_assoc] at heq
    have := Nat.eq_of_mul_eq_mul_left (Nat.pos_pow_of_pos e hpos) heq
    apply hu
    rw [this, pow_succ]
    exact ⟨p ^ (f - e - 1) * v, by ring⟩
  rcases Nat.lt_trichotomy e f with c | c | c
  · exact absurd h (key e f u v hu c)
  · subst c
    exact ⟨rfl, Nat.eq_of_mul_eq_mul_left (Nat.pos_pow_of_pos e hpos) h⟩
  · exact absurd h.symm (key f e v u hv c)

theorem prime_not_dvd_factor_prod (div mdiv : Nat → Nat) (p : Nat) (hp : Nat.Prime p) :
    ∀ ndiv k, (∀ i, i < ndiv → Nat.Prime (div (k + i)) ∧ div (k + i) ≠ p) →
      ¬ p ∣ factor_prod div mdiv ndiv k := by
  intro ndiv
  induction ndiv with
  | zero =>
    intro k _ h
    unfold factor_prod at h
    exact hp.one_lt.ne' (Nat.dvd_one.mp h)
  | succ n ih =>
    intro k hk h
    unfold factor_prod at h
    rcases (Nat.Prime.dvd_mul hp).mp h with h1 | h1
    · have h2 := hp.dvd_of_dvd_pow h1
      have h3 := hk 0 (by omega)
      rw [Nat.add_zero] at h3
      exact h3.2 ((Nat.prime_dvd_prime_iff_eq hp h3.1).mp h2).symm
    · apply ih (k + 1) _ h1
      intro i hi
      have := hk (i + 1) (by omega)
      rw [show k + (i + 1) = k + 1 + i by omega] at this
      exact this

/-- Every grid of three positive factors of the product of distinct prime
powers is examined. -/
theorem factor_grids_complete (div mdiv : Nat → Nat) :
    ∀ ndiv k (t : ivec) (a b c : Nat),
      (∀ i, i < ndiv → Nat.Prime (div (k + i))) →
      (∀ i j, i < j → j < ndiv → div (k + i) ≠ div (k + j)) →
      a * b * c = factor_prod div mdiv ndiv k →
      (fun d => if d = XX then t XX * a else if d = YY then t YY * b else t ZZ * c) ∈
        factor_grids div mdiv ndiv k t := by
  intro ndiv
  induction ndiv with
  | zero =>
    intro k t a b c _ _ h
    unfold factor_prod at h
    have ha : a = 1 := by
      have : a ∣ 1 := ⟨b * c, by rw [← h]; ring⟩
      exact Nat.dvd_one.mp this
    have hb : b = 1 := by
      have : b ∣ 1 := ⟨a * c, by rw [← h]; ring⟩
      exact Nat.dvd_one.mp this
    have hc : c = 1 := by
      have : c ∣ 1 := ⟨a * b, by rw [← h]; ring⟩
      exact Nat.dvd_one.mp this
    subst ha hb hc
    unfold factor_grids
    rw [List.mem_singleton]
    funext d
    have hd : d = XX ∨ d = YY ∨ d = ZZ := by fin_cases d <;> simp
    rcases hd with rfl | rfl | rfl <;> simp [XX, YY, ZZ]
  | succ n ih =>
    intro k t a b c hprime hdist h
    have hp : Nat.Prime (div k) := by
      have := hprime 0 (by omega)
      rwa [Nat.add_zero] at this
    have hrest : ¬ div k ∣ factor_prod div mdiv n (k + 1) := by
      apply prime_not_dvd_factor_prod div mdiv (div k) hp n (k + 1)
      intro i hi
      have h1 := hprime (i + 1) (by omega)
      have h2 := hdist 0 (i + 1) (by omega) (by omega)
      rw [show k + (i + 1) = k + 1 + i by omega] at h1 h2
      rw [Nat.add_zero] at h2
      exact ⟨h1, fun e => h2 e.symm⟩
    unfold factor_prod at h
    have hne : a * b * c ≠ 0 := by
      rw [h]
      intro h0
      rcases Nat.mul_eq_zero.mp h0 with h1 | h1
      · exact (Nat.pos_pow_of_pos _ hp.pos).ne' h1
      · rw [h1] at hrest
        exact hrest (Nat.dvd_zero _)
    have ha : a ≠ 0 := fun e => hne (by rw [e]; simp)
    have hb : b ≠ 0 := fun e => hne (by rw [e]; simp)
    have hc : c ≠ 0 := fun e => hne (by rw [e]; simp)
    obtain ⟨x, a1, hxa, ea⟩ := Nat.exists_eq_pow_mul_and_not_dvd ha (div k) hp.ne_one
    obtain ⟨y, b1, hyb, eb⟩ := Nat.exists_eq_pow_mul_and_not_dvd hb (div k) hp.ne_one
    obtain ⟨z, c1, hzc, ec⟩ := Nat.exists_eq_pow_mul_and_not_dvd hc (div k) hp.ne_one
    have hprod : div k ^ (x + y + z) * (a1 * b1 * c1) =
        div k ^ mdiv k * factor_prod div mdiv n (k + 1) := by
      rw [← h, ea, eb, ec, pow_add, pow_add]
      ring
    have hnd : ¬ div k ∣ a1 * b1 * c1 := by
      intro hd
      rcases (Nat.Prime.dvd_mul hp).mp hd with h1 | h1
      · rcases (Nat.Prime.dvd_mul hp).mp h1 with h2 | h2
        · exact hxa h2
        · exact hyb h2
      · exact hzc h1
    obtain ⟨e1, e2⟩ := prime_pow_cancel (div k) _ _ _ _ hp hnd hrest hprod
    unfold factor_grids
    rw [List.mem_flatMap]
    refine ⟨(x, y), (mem_factor_splits _ _ _).mpr (by omega), ?_⟩
    have hz : mdiv k - x - y = z := by omega
    simp only
    rw [hz]
    have := ih (k + 1)
      (fun d =>
        if d = XX then t XX * div k ^ x
        else if d = YY then t YY * div k ^ y
        else t ZZ * div k ^ z) a1 b1 c1
      (by
        intro i hi
        have := hprime (i + 1) (by omega)
        rwa [show k + (i + 1) = k + 1 + i by omega] at this)
      (by
        intro i j hij hj
        have := hdist (i + 1) (j + 1) (by omega) (by omega)
        rwa [show k + (i + 1) = k + 1 + i by omega,
          show k + (j + 1) = k + 1 + j by omega] at this)
      e2
    have eq : (fun d => if d = XX then t XX * a else if d = YY then t YY * b else t ZZ * c) =
        (fun d =>
          if d = XX then
            (fun d =>
              if d = XX then t XX * div k ^ x
              else if d = YY then t YY * div k ^ y
              else t ZZ * div k ^ z) XX * a1
          else if d = YY then
            (fun d =>
              if d = XX then t XX * div k ^ x
              else if d = YY then t YY * div k ^ y
              else t ZZ * div k ^ z) YY * b1
          else
            (fun d =>
              if d = XX then t XX * div k ^ x
              else if d = YY then t YY * div k ^ y
              else t ZZ * div k ^ z) ZZ * c1) := by
      funext d
      have hd : d = XX ∨ d = YY ∨ d = ZZ := by fin_cases d <;> simp
      rcases hd with rfl | rfl | rfl
      · simp only [XX, if_true]
        rw [ea, Nat.mul_assoc]
      · simp only [XX, YY, fin3_one_eq_zero, if_false, if_true]
        rw [eb, Nat.mul_assoc]
      · simp only [XX, YY, ZZ, fin3_two_eq_zero, fin3_two_eq_one, if_false]
        rw [ec, Nat.mul_assoc]
    rw [eq]
    exact this

/-! ### `factorize` -/

/-- A divisor of the rest that no smaller number from 2 on divides is prime. -/
theorem prime_of_least_divisor (n d : Nat) (hd : 2 ≤ d) (hdvd : d ∣ n)
    (hmin : ∀ k, 2 ≤ k → k < d → ¬ k ∣ n) : Nat.Prime d := by
  have hn1 : n ≠ 1 := by
    intro e
    rw [e] at hdvd
    have := Nat.dvd_one.mp hdvd
    omega
  have hp := Nat.minFac_prime hn1
  have h1 := Nat.minFac_le_of_dvd hd hdvd
  have h2 : ¬ n.minFac < d := fun h => hmin _ hp.two_le h (Nat.minFac_dvd n)
  have : d = n.minFac := by omega
  rw [this]
  exact hp

theorem factorize_step_inv (n0 : Nat) (s : factorize_state) (h : factorize_inv n0 s)
    (hdvd : s.n % s.d = 0) :
    factorize_inv n0 (factorize_step s) ∧ (factorize_step s).d = s.d ∧
    (factorize_step s).n * s.d = s.n ∧ 1 ≤ (factorize_step s).ndiv ∧
    s.ndiv ≤ (factorize_step s).ndiv := by
  obtain ⟨h1, h2, h3, h4, h5, h6, h7⟩ := h
  have hd : s.d ∣ s.n := Nat.dvd_of_mod_eq_zero hdvd
  have hp : Nat.Prime s.d := prime_of_least_divisor s.n s.d h1 hd h4
  have hdiv : s.n / s.d * s.d = s.n := Nat.div_mul_cancel hd
  have hn1 : 1 ≤ s.n / s.d := by
    rcases Nat.eq_zero_or_pos (s.n / s.d) with e | e
    · rw [e] at hdiv
      omega
    · exact e
  have hsmall : ∀ k, 2 ≤ k → k < s.d → ¬ k ∣ s.n / s.d := by
    intro k hk1 hk2 hk
    exact h4 k hk1 hk2 (Dvd.dvd.trans hk (Nat.div_dvd_of_dvd hd))
  by_cases hc : s.ndiv = 0 ∨ s.fac (s.ndiv - 1) ≠ s.d
  · have e : factorize_step s = ⟨s.n / s.d, s.d, s.ndiv + 1, Function.update s.fac s.ndiv s.d,
        Function.update s.mfac s.ndiv (s.mfac s.ndiv + 1)⟩ := by
      unfold factorize_step
      rw [if_pos hc]
      simp only [Nat.add_sub_cancel]
    rw [e]
    have hlt : ∀ i, i < s.ndiv → s.fac i < s.d := by
      intro i hi
      have hlast : s.fac (s.ndiv - 1) < s.d := by
        rcases hc with e | e
        · omega
        · have := (h5 (s.ndiv - 1) (by omega)).2.2
          omega
      by_cases e : i = s.ndiv - 1
      · rw [e]
        exact hlast
      · have := h6 i (s.ndiv - 1) (by omega) (by omega)
        omega
    refine ⟨⟨h1, hn1, ?_, hsmall, ?_, ?_, ?_⟩, rfl, hdiv, by dsimp only; omega,
      by dsimp only; omega⟩
    · dsimp only
      rw [Finset.prod_range_succ, Function.update_same, Function.update_same,
        h7 s.ndiv (le_refl _)]
      have e : ∏ i ∈ Finset.range s.ndiv,
          Function.update s.fac s.ndiv s.d i ^ Function.update s.mfac s.ndiv (0 + 1) i =
          ∏ i ∈ Finset.range s.ndiv, s.fac i ^ s.mfac i := by
        apply Finset.prod_congr rfl
        intro i hi
        have := Finset.mem_range.mp hi
        rw [Function.update_noteq (by omega), Function.update_noteq (by omega)]
      rw [e, ← h3, ← hdiv]
      simp only [Nat.zero_add, pow_one]
      rw [Nat.mul_div_cancel _ (by omega : 0 < s.d)]
      ring
    · intro i hi
      dsimp only at hi ⊢
      by_cases e : i = s.ndiv
      · subst e
        rw [Function.update_same, Function.update_same]
        exact ⟨hp, by omega, le_refl _⟩
      · rw [Function.update_noteq e, Function.update_noteq e]
        exact h5 i (by omega)
    · intro i j hij hj
      dsimp only at hj ⊢
      by_cases e : j = s.ndiv
      · subst e
        rw [Function.update_same, Function.update_noteq (by omega)]
        exact hlt i hij
      · rw [Function.update_noteq e, Function.update_noteq (by omega)]
        exact h6 i j hij (by omega)
    · intro i hi
      dsimp only at hi ⊢
      rw [Function.update_noteq (by omega)]
      exact h7 i (by omega)
  · have e : factorize_step s = ⟨s.n / s.d, s.d, s.ndiv, s.fac,
        Function.update s.mfac (s.ndiv - 1) (s.mfac (s.ndiv - 1) + 1)⟩ := by
      unfold factorize_step
      rw [if_neg hc]
    rw [e]
    have hnd : s.ndiv ≠ 0 := fun e => hc (Or.inl e)
    have hlast : s.fac (s.ndiv - 1) = s.d := by
      by_contra e
      exact hc (Or.inr e)
    obtain ⟨m, hm⟩ : ∃ m, s.ndiv = m + 1 := ⟨s.ndiv - 1, by omega⟩
    rw [hm] at hlast h3 h5 h7 ⊢
    rw [Nat.add_sub_cancel] at hlast ⊢
    refine ⟨⟨h1, hn1, ?_, hsmall, ?_, ?_, ?_⟩, rfl, hdiv, Nat.le_add_left 1 m, le_refl _⟩
    · dsimp only
      rw [Finset.prod_range_succ, Function.update_same]
      have e1 : ∏ i ∈ Finset.range m, s.fac i ^ Function.update s.mfac m (s.mfac m + 1) i =
          ∏ i ∈ Finset.range m, s.fac i ^ s.mfac i := by
        apply Finset.prod_congr rfl
        intro i hi
        have := Finset.mem_range.mp hi
        rw [Function.update_noteq (by omega)]
      rw [e1, ← h3, Finset.prod_range_succ, pow_succ, hlast]
      conv_rhs => rw [← hdiv]
      ring
    · intro i hi
      dsimp only at hi ⊢
      by_cases e : i = m
      · subst e
        rw [Function.update_same]
        have := h5 i hi
        exact ⟨this.1, by omega, this.2.2⟩
      · rw [Function.update_noteq e]
        exact h5 i hi
    · intro i j hij hj
      dsimp only at hj ⊢
      exact h6 i j hij (by omega)
    · intro i hi
      dsimp only at hi ⊢
      rw [Function.update_noteq (by omega)]
      exact h7 i hi

theorem factorize_inner_spec (n0 : Nat) :
    ∀ fuel (s r : factorize_state), factorize_inv n0 s → factorize_inner fuel s = some r →
      factorize_inv n0 r ∧ r.d = s.d ∧ r.n ≤ s.n ∧ ¬ r.d ∣ r.n ∧ s.ndiv ≤ r.ndiv := by
  intro fuel
  induction fuel with
  | zero =>
    intro s r h hr
    unfold factorize_inner at hr
    split_ifs at hr with hc
    simp only [Option.some.injEq] at hr
    subst hr
    exact ⟨h, rfl, le_refl _, fun hd => hc (Nat.mod_eq_zero_of_dvd hd), le_refl _⟩
  | succ n ih =>
    intro s r h hr
    unfold factorize_inner at hr
    split_ifs at hr with hc
    · obtain ⟨g1, g2, g3, _, g5⟩ := factorize_step_inv n0 s h hc
      obtain ⟨k1, k2, k3, k4, k5⟩ := ih _ r g1 hr
      refine ⟨k1, k2.trans g2, ?_, k4, by omega⟩
      have : (factorize_step s).n ≤ s.n := by
        rw [← g3]
        exact Nat.le_mul_of_pos_right _ (by have := h.1; omega)
      omega
    · simp only [Option.some.injEq] at hr
      subst hr
      exact ⟨h, rfl, le_refl _, fun hd => hc (Nat.mod_eq_zero_of_dvd hd), le_refl _⟩

theorem factorize_inner_terminates (n0 : Nat) :
    ∀ fuel (s : factorize_state), factorize_inv n0 s → s.n < s.d + fuel →
      ∃ r, factorize_inner fuel s = some r := by
  intro fuel
  induction fuel with
  | zero =>
    intro s h hlt
    unfold factorize_inner
    by_cases hc : s.n % s.d = 0
    · have := Nat.le_of_dvd (by have := h.2.1; omega) (Nat.dvd_of_mod_eq_zero hc)
      omega
    · rw [if_neg hc]
      exact ⟨s, rfl⟩
  | succ n ih =>
    intro s h hlt
    unfold factorize_inner
    by_cases hc : s.n % s.d = 0
    · rw [if_pos hc]
      obtain ⟨g1, g2, g3, _, _⟩ := factorize_step_inv n0 s h hc
      apply ih _ g1
      rw [g2]
      have h2 := h.1
      have h3 := g1.2.1
      have : (factorize_step s).n * 2 ≤ s.n := by
        rw [← g3]
        exact Nat.mul_le_mul_left _ h2
      omega
    · rw [if_neg hc]
      exact ⟨s, rfl⟩

theorem factorize_next_inv (n0 : Nat) (s : factorize_state) (h : factorize_inv n0 s)
    (hnd : ¬ s.d ∣ s.n) : factorize_inv n0 ⟨s.n, s.d + 1, s.ndiv, s.fac, s.mfac⟩ := by
  obtain ⟨h1, h2, h3, h4, h5, h6, h7⟩ := h
  refine ⟨by simp only; omega, h2, h3, ?_, ?_, h6, h7⟩
  · intro k hk1 hk2
    simp only at hk2
    by_cases e : k = s.d
    · subst e
      exact hnd
    · exact h4 k hk1 (by omega)
  · intro i hi
    have := h5 i hi
    exact ⟨this.1, this.2.1, by simp only; omega⟩

theorem factorize_outer_spec (n0 : Nat) :
    ∀ fuel (s r : factorize_state), factorize_inv n0 s → factorize_outer fuel s = some r →
      factorize_inv n0 r ∧ r.n = 1 ∧ s.ndiv ≤ r.ndiv ∧ (1 < s.n → 1 ≤ r.ndiv) := by
  intro fuel
  induction fuel with
  | zero =>
    intro s r h hr
    unfold factorize_outer at hr
    split_ifs at hr with hc
    simp only [Option.some.injEq] at hr
    subst hr
    have := h.2.1
    exact ⟨h, by omega, le_refl _, fun h1 => absurd h1 hc⟩
  | succ n ih =>
    intro s r h hr
    unfold factorize_outer at hr
    split_ifs at hr with hc
    · simp only [Option.bind_eq_some] at hr
      obtain ⟨s1, hs1, hr2⟩ := hr
      obtain ⟨g1, g2, g3, g4, g5⟩ := factorize_inner_spec n0 _ s s1 h hs1
      obtain ⟨k1, k2, k3, _⟩ := ih _ r (factorize_next_inv n0 s1 g1 g4) hr2
      simp only at k3
      refine ⟨k1, k2, by omega, ?_⟩
      intro _
      by_contra hz
      have hz0 : r.ndiv = 0 := by omega
      have hp := k1.2.2.1
      rw [hz0, k2] at hp
      simp only [Finset.range_zero, Finset.prod_empty] at hp
      have hs := h.2.2.1
      have hs0 : s.ndiv = 0 := by omega
      rw [hs0] at hs
      simp only [Finset.range_zero, Finset.prod_empty] at hs
      omega
    · simp only [Option.some.injEq] at hr
      subst hr
      have := h.2.1
      exact ⟨h, by omega, le_refl _, fun h1 => absurd h1 hc⟩

theorem factorize_outer_terminates (n0 : Nat) :
    ∀ fuel (s : factorize_state), factorize_inv n0 s → (1 < s.n → s.n < s.d + fuel) →
      ∃ r, factorize_outer fuel s = some r := by
  intro fuel
  induction fuel with
  | zero =>
    intro s h hlt
    unfold factorize_outer
    by_cases hc : s.n > 1
    · have h1 := hlt hc
      have hn1 : s.n ≠ 1 := by omega
      have hp := Nat.minFac_prime hn1
      have h2 : ¬ s.n.minFac < s.d := fun hh => h.2.2.2.1 _ hp.two_le hh (Nat.minFac_dvd _)
      have h3 := Nat.minFac_le (by omega : 0 < s.n)
      omega
    · rw [if_neg hc]
      exact ⟨s, rfl⟩
  | succ n ih =>
    intro s h hlt
    unfold factorize_outer
    by_cases hc : s.n > 1
    · rw [if_pos hc]
      obtain ⟨s1, hs1⟩ := factorize_inner_terminates n0 (n + 1) s h (hlt hc)
      obtain ⟨g1, g2, g3, g4, _⟩ := factorize_inner_spec n0 _ s s1 h hs1
      rw [hs1]
      simp only [Option.bind]
      apply ih _ (factorize_next_inv n0 s1 g1 g4)
      intro _
      simp only
      have := hlt hc
      omega
    · rw [if_neg hc]
      exact ⟨s, rfl⟩

theorem factorize_inv_init (n : Nat) (hn : 1 ≤ n) :
    factorize_inv n ⟨n, 2, 0, fun _ => 0, fun _ => 0⟩ := by
  refine ⟨le_refl _, hn, by simp, ?_, ?_, ?_, ?_⟩
  · intro k h1 h2
    simp only at h2
    omega
  · intro i hi
    simp only at hi
    omega
  · intro i j _ hj
    simp only at hj
    omega
  · intro i _
    rfl

theorem factor_prod_eq_prod (div mdiv : Nat → Nat) :
    ∀ ndiv k, factor_prod div mdiv ndiv k =
      ∏ i ∈ Finset.range ndiv, div (k + i) ^ mdiv (k + i) := by
  intro ndiv
  induction ndiv with
  | zero => intro k; rfl
  | succ n ih =>
    intro k
    unfold factor_prod
    rw [ih, Finset.prod_range_succ', Nat.add_zero, Nat.mul_comm]
    congr 1
    apply Finset.prod_congr rfl
    intro i _
    rw [show k + 1 + i = k + (i + 1) by omega]

/-- The result of `factorize` for `n >= 1`: it is reached with fuel `n`, and
for every fuel that suffices the factors are increasing primes with positive
multiplicities whose powers multiply to `n`. -/
theorem factorize_spec (n : Nat) (hn : 1 ≤ n) :
    (∃ r, factorize n n = some r) ∧
    ∀ fuel r, factorize fuel n = some r →
      factor_prod r.fac r.mfac r.ndiv 0 = n ∧
      (∀ i, i < r.ndiv → Nat.Prime (r.fac i) ∧ 1 ≤ r.mfac i) ∧
      (∀ i j, i < j → j < r.ndiv → r.fac i < r.fac j) ∧
      (2 ≤ n → 1 ≤ r.ndiv) ∧ (n = 1 → r.ndiv = 0) := by
  have hinit := factorize_inv_init n hn
  constructor
  · unfold factorize
    apply factorize_outer_terminates n n _ hinit
    intro _
    simp only
    omega
  · intro fuel r hr
    unfold factorize at hr
    obtain ⟨h1, h2, _, h4⟩ := factorize_outer_spec n fuel _ r hinit hr
    obtain ⟨_, _, g3, _, g5, g6, _⟩ := h1
    refine ⟨?_, fun i hi => ⟨(g5 i hi).1, (g5 i hi).2.1⟩, g6, ?_, ?_⟩
    · rw [factor_prod_eq_prod]
      simp only [Nat.zero_add]
      rw [h2, Nat.one_mul] at g3
      exact g3
    · intro h2n
      exact h4 (by simp only; omega)
    · intro e
      subst e
      by_contra hne
      have hp := (g5 0 (by omega)).1
      rw [h2, Nat.one_mul] at g3
      have hdvd : r.fac 0 ∣ 1 := by
        rw [← g3]
        have e0 : r.ndiv = r.ndiv - 1 + 1 := by omega
        rw [e0, Finset.prod_range_succ']
        have hm := (g5 0 (by omega)).2.1
        exact Dvd.dvd.mul_left (dvd_pow_self _ (by omega)) _
      have := Nat.dvd_one.mp hdvd
      exact hp.ne_one this

/-- The selection returns the start value or one of the grids examined. -/
theorem assign_select_foldl_mem (cost : ivec → real) (l : List ivec) :
    ∀ o, l.foldl (assign_select cost) o = o ∨ l.foldl (assign_select cost) o ∈ l := by
  induction l with
  | nil => intro o; left; rfl
  | cons a l ih =>
    intro o
    rw [List.foldl_cons]
    rcases ih (assign_select cost o a) with h | h
    · rw [h]
      unfold assign_select
      split_ifs
      · right; exact List.mem_cons_self _ _
      · left; rfl
    · right; exact List.mem_cons_of_mem _ h

/-- The grids examined from `(1,1,1)` with the factors of `npp` are exactly
the triples with product `npp`. -/
theorem factor_grids_factorize (npp : Nat) (hnpp : 1 ≤ npp) (fuel : Nat) (f : factorize_state)
    (hf : factorize fuel npp = some f) (t : ivec) :
    t ∈ factor_grids f.fac f.mfac f.ndiv 0 (fun _ => 1) ↔ t XX * t YY * t ZZ = npp := by
  obtain ⟨h1, h2, h3, _, _⟩ := (factorize_spec npp hnpp).2 fuel f hf
  constructor
  · intro ht
    obtain ⟨a, b, c, e, ex, ey, ez⟩ := factor_grids_sound _ _ _ _ _ _ ht
    rw [ex, ey, ez, Nat.one_mul, Nat.one_mul, Nat.one_mul, e, h1]
  · intro ht
    have hc := factor_grids_complete f.fac f.mfac f.ndiv 0 (fun _ => 1) (t XX) (t YY) (t ZZ)
      (fun i hi => by rw [Nat.zero_add]; exact (h2 i hi).1)
      (fun i j hij hj => by
        rw [Nat.zero_add, Nat.zero_add]
        exact Nat.ne_of_lt (h3 i j hij hj))
      (by rw [ht, h1])
    have e : (fun d : Fin 3 => if d = XX then (fun _ => 1 : ivec) XX * t XX
        else if d = YY then (fun _ => 1 : ivec) YY * t YY else (fun _ => 1 : ivec) ZZ * t ZZ) = t := by
      funext d
      fin_cases d <;> simp [XX, YY, ZZ]
    rw [e] at hc
    exact hc

/-- C17: for every `npp = N-P >= 1` and every cost function, without the
restriction to x and y: `optimize_ncells` returns; for the factors found by
`factorize`, the grids examined by `assign_factors` are exactly the triples
with product `npp` (whose entries are then positive), the trial vector is
`(1,1,1)` again afterwards, and either a grid is returned that is accepted
(cost `>= 0`), has product `npp` and costs no more than any accepted triple,
or no triple is accepted, the grid is still `(0,0,0)` and the result is the
fatal error. -/
theorem optimize_ncells_optimal (npp : Nat) (hnpp : 1 ≤ npp) (cost : ivec → real) :
    (∃ r, optimize_ncells npp npp cost false = some r) ∧
    ∀ fuel f, factorize fuel npp = some f →
      (∀ t : ivec, t XX * t YY * t ZZ = npp →
        t ∈ factor_grids f.fac f.mfac f.ndiv 0 (fun _ => 1)) ∧
      (assign_factors cost false f.fac f.mfac f.ndiv 0 ⟨fun _ => 1, fun _ => 0⟩).try_ =
        (fun _ => 1) ∧
      (assign_factors cost false f.fac f.mfac f.ndiv 0 ⟨fun _ => 1, fun _ => 0⟩).opt =
        (factor_grids f.fac f.mfac f.ndiv 0 (fun _ => 1)).foldl (assign_select cost)
          (fun _ => 0) ∧
      ((∃ nc, optimize_ncells fuel npp cost false = some (some nc) ∧
          nc XX * nc YY * nc ZZ = npp ∧ 0 ≤ cost nc ∧
          ∀ t : ivec, t XX * t YY * t ZZ = npp → 0 ≤ cost t → cost nc ≤ cost t) ∨
        (optimize_ncells fuel npp cost false = some none ∧
          (assign_factors cost false f.fac f.mfac f.ndiv 0 ⟨fun _ => 1, fun _ => 0⟩).opt =
            (fun _ => 0) ∧
          ∀ t : ivec, t XX * t YY * t ZZ = npp → cost t < 0)) := by
  constructor
  · obtain ⟨r, hr⟩ := (factorize_spec npp hnpp).1
    unfold optimize_ncells
    rw [hr]
    exact ⟨_, rfl⟩
  · intro fuel f hf
    have hmem := factor_grids_factorize npp hnpp fuel f hf
    obtain ⟨_, h2, _, _, _⟩ := (factorize_spec npp hnpp).2 fuel f hf
    have heq := assign_factors_eq cost f.fac f.mfac f.ndiv 0 ⟨fun _ => 1, fun _ => 0⟩
      (fun i hi => by rw [Nat.zero_add]; exact (h2 i hi).1.pos)
    have hX : ∀ t, t ∈ factor_grids f.fac f.mfac f.ndiv 0 (fun _ => 1) → t XX ≠ 0 := by
      intro t ht hz
      have := (hmem t).mp ht
      rw [hz] at this
      omega
    have hsel := assign_select_foldl cost (factor_grids f.fac f.mfac f.ndiv 0 (fun _ => 1))
      [] (fun _ => 0) hX (Or.inl ⟨rfl, by simp⟩)
    rw [List.nil_append] at hsel
    have hopt : (assign_factors cost false f.fac f.mfac f.ndiv 0 ⟨fun _ => 1, fun _ => 0⟩).opt =
        (factor_grids f.fac f.mfac f.ndiv 0 (fun _ => 1)).foldl (assign_select cost)
          (fun _ => 0) := by
      rw [heq]
    refine ⟨fun t ht => (hmem t).mpr ht, by rw [heq], hopt, ?_⟩
    unfold optimize_ncells
    rw [hf]
    simp only [Option.map_some']
    rw [hopt]
    rcases hsel with ⟨h0, hall⟩ | ⟨h0, hin, hc, hmin⟩
    · right
      refine ⟨by rw [if_pos h0], ?_, fun t ht => hall t ((hmem t).mpr ht)⟩
      rcases assign_select_foldl_mem cost (factor_grids f.fac f.mfac f.ndiv 0 (fun _ => 1))
        (fun _ => 0) with h | h
      · exact h
      · exact absurd h0 (hX _ h)
    · left
      exact ⟨_, by rw [if_neg h0], (hmem _).mp hin, hc,
        fun t ht hct => hmin t ((hmem t).mpr ht) hct⟩

/-- Witness of C17: six ranks with the example cost. -/
theorem optimize_ncells_optimal_witness :
    (1 ≤ 6) ∧
    ((∃ r, optimize_ncells 6 6 ex_cost false = some r) ∧
    ∀ fuel f, factorize fuel 6 = some f →
      (∀ t : ivec, t XX * t YY * t ZZ = 6 →
        t ∈ factor_grids f.fac f.mfac f.ndiv 0 (fun _ => 1)) ∧
      (assign_factors ex_cost false f.fac f.mfac f.ndiv 0 ⟨fun _ => 1, fun _ => 0⟩).try_ =
        (fun _ => 1) ∧
      (assign_factors ex_cost false f.fac f.mfac f.ndiv 0 ⟨fun _ => 1, fun _ => 0⟩).opt =
        (factor_grids f.fac f.mfac f.ndiv 0 (fun _ => 1)).foldl (assign_select ex_cost)
          (fun _ => 0) ∧
      ((∃ nc, optimize_ncells fuel 6 ex_cost false = some (some nc) ∧
          nc XX * nc YY * nc ZZ = 6 ∧ 0 ≤ ex_cost nc ∧
          ∀ t : ivec, t XX * t YY * t ZZ = 6 → 0 ≤ ex_cost t → ex_cost nc ≤ ex_cost t) ∨
        (optimize_ncells fuel 6 ex_cost false = some none ∧
          (assign_factors ex_cost false f.fac f.mfac f.ndiv 0 ⟨fun _ => 1, fun _ => 0⟩).opt =
            (fun _ => 0) ∧
          ∀ t : ivec, t XX * t YY * t ZZ = 6 → ex_cost t < 0))) :=
  ⟨by decide, optimize_ncells_optimal 6 (by decide) ex_cost⟩

/-! ## PME ranks interleaved with the PP ranks -/

theorem pmeslab_mono (npp P : Nat) (i j : Nat) (h : i ≤ j) :
    low_ddindex2pmeslab npp P i ≤ low_ddindex2pmeslab npp P j := by
  unfold low_ddindex2pmeslab
  exact Nat.div_le_div_right (Nat.add_le_add_right (Nat.mul_le_mul_right P h) _)

theorem pmeslab_step (npp P : Nat) (hle : P ≤ npp) (hpos : 0 < npp) (i : Nat) :
    low_ddindex2pmeslab npp P (i + 1) ≤ low_ddindex2pmeslab npp P i + 1 := by
  unfold low_ddindex2pmeslab
  have e : (i + 1) * P + P / 2 ≤ (i * P + P / 2) + npp := by
    have : (i + 1) * P = i * P + P := by ring
    omega
  calc ((i + 1) * P + P / 2) / npp ≤ ((i * P + P / 2) + npp) / npp :=
        Nat.div_le_div_right e
    _ = (i * P + P / 2) / npp + 1 := Nat.add_div_right _ hpos

theorem pmeslab_zero (npp P : Nat) (hP : 1 ≤ P) (hle : P ≤ npp) :
    low_ddindex2pmeslab npp P 0 = 0 := by
  unfold low_ddindex2pmeslab
  rw [Nat.zero_mul, Nat.zero_add]
  exact Nat.div_eq_of_lt (by omega)

theorem pmeslab_lt (npp P : Nat) (hP : 1 ≤ P) (i : Nat) (hi : i < npp) :
    low_ddindex2pmeslab npp P i < P := by
  unfold low_ddindex2pmeslab
  rw [Nat.div_lt_iff_lt_mul (by omega)]
  have h1 : (i + 1) * P ≤ npp * P := Nat.mul_le_mul_right P hi
  have h2 : (i + 1) * P = i * P + P := by ring
  have h3 : P * npp = npp * P := Nat.mul_comm _ _
  omega

theorem pmeslab_last (npp P : Nat) (hP : 1 ≤ P) (hle : P ≤ npp) :
    low_ddindex2pmeslab npp P npp = P := by
  unfold low_ddindex2pmeslab
  apply Nat.div_eq_of_lt_le
  · have : P * npp = npp * P := Nat.mul_comm _ _
    omega
  · have h1 : (P + 1) * npp = npp * P + npp := by ring
    show npp * P + P / 2 < (P + 1) * npp
    omega

/-- The index `i` at which the slab number steps from `j` to `j+1` is unique. -/
theorem pmeslab_step_unique (npp P : Nat) (i k j : Nat)
    (hi : low_ddindex2pmeslab npp P i = j) (hi1 : low_ddindex2pmeslab npp P (i + 1) = j + 1)
    (hk : low_ddindex2pmeslab npp P k = j) (hk1 : low_ddindex2pmeslab npp P (k + 1) = j + 1) :
    i = k := by
  by_contra hne
  rcases Nat.lt_or_gt_of_ne hne with h | h
  · have := pmeslab_mono npp P (i + 1) k h
    omega
  · have := pmeslab_mono npp P (k + 1) i h
    omega

theorem dd_pmenodes_loop_succ (npp P k : Nat) :
    (List.range (k + 1)).foldl (dd_pmenodes_i npp P) ⟨fun _ => 0, 0⟩ =
      dd_pmenodes_i npp P ((List.range k).foldl (dd_pmenodes_i npp P) ⟨fun _ => 0, 0⟩) k := by
  rw [List.range_succ, List.foldl_append, List.foldl_cons, List.foldl_nil]

/-- Invariant of the loop of `dd_pmenodes`: after `k` iterations the counter
is the slab number of `k`, and entry `j` was written at the index `i` where
the slab number steps from `j` to `j+1`. -/
theorem dd_pmenodes_loop_inv (npp P : Nat) (hP : 1 ≤ P) (hle : P ≤ npp) :
    ∀ k, k ≤ npp →
      ((List.range k).foldl (dd_pmenodes_i npp P) ⟨fun _ => 0, 0⟩).n =
        low_ddindex2pmeslab npp P k ∧
      ∀ j, j < ((List.range k).foldl (dd_pmenodes_i npp P) ⟨fun _ => 0, 0⟩).n →
        ∃ i, i < k ∧ low_ddindex2pmeslab npp P i = j ∧
          low_ddindex2pmeslab npp P (i + 1) = j + 1 ∧
          ((List.range k).foldl (dd_pmenodes_i npp P) ⟨fun _ => 0, 0⟩).pmenodes j = i + 1 + j := by
  intro k
  induction k with
  | zero =>
    intro _
    constructor
    · rw [pmeslab_zero npp P hP hle]
      rfl
    · intro j hj
      simp at hj
  | succ k ih =>
    intro hk
    obtain ⟨h1, h2⟩ := ih (by omega)
    rw [dd_pmenodes_loop_succ]
    generalize (List.range k).foldl (dd_pmenodes_i npp P) ⟨fun _ => 0, 0⟩ = t at h1 h2
    have hm := pmeslab_mono npp P k (k + 1) (by omega)
    have hs := pmeslab_step npp P hle (by omega) k
    unfold dd_pmenodes_i
    simp only
    by_cases hc : k + 1 = npp ∨ low_ddindex2pmeslab npp P (k + 1) > low_ddindex2pmeslab npp P k
    · rw [if_pos hc]
      have hgt : low_ddindex2pmeslab npp P (k + 1) > low_ddindex2pmeslab npp P k := by
        rcases hc with e | g
        · have hl := pmeslab_lt npp P hP k (by omega)
          rw [e, pmeslab_last npp P hP hle]
          exact hl
        · exact g
      simp only
      constructor
      · omega
      · intro j hj
        by_cases e : j = t.n
        · subst e
          refine ⟨k, by omega, h1.symm, by omega, ?_⟩
          rw [Function.update_same]
        · obtain ⟨i, a1, a2, a3, a4⟩ := h2 j (by omega)
          refine ⟨i, by omega, a2, a3, ?_⟩
          rw [Function.update_noteq e]
          exact a4
    · rw [if_neg hc]
      have hng : ¬ low_ddindex2pmeslab npp P (k + 1) > low_ddindex2pmeslab npp P k :=
        fun g => hc (Or.inr g)
      constructor
      · omega
      · intro j hj
        obtain ⟨i, a1, a2, a3, a4⟩ := h2 j hj
        exact ⟨i, by omega, a2, a3, a4⟩

/-- The entries of the array that `dd_pmenodes` returns. -/
theorem dd_pmenodes_spec (npp P : Nat) (hP : 1 ≤ P) (hle : P ≤ npp) :
    (dd_pmenodes_loop npp P).n = P ∧
    ∀ j, j < P → ∃ i, i < npp ∧ low_ddindex2pmeslab npp P i = j ∧
      low_ddindex2pmeslab npp P (i + 1) = j + 1 ∧ dd_pmenodes npp P j = i + 1 + j := by
  obtain ⟨h1, h2⟩ := dd_pmenodes_loop_inv npp P hP hle npp (le_refl _)
  rw [pmeslab_last npp P hP hle] at h1
  unfold dd_pmenodes dd_pmenodes_loop
  refine ⟨h1, ?_⟩
  intro j hj
  exact h2 j (by rw [h1]; exact hj)

theorem dd_pmenodes_strict (npp P : Nat) (hP : 1 ≤ P) (hle : P ≤ npp) (j k : Nat)
    (hjk : j < k) (hk : k < P) : dd_pmenodes npp P j < dd_pmenodes npp P k := by
  obtain ⟨_, h⟩ := dd_pmenodes_spec npp P hP hle
  obtain ⟨i1, _, a2, _, a4⟩ := h j (by omega)
  obtain ⟨i2, _, b2, _, b4⟩ := h k hk
  have : i1 ≤ i2 := by
    by_contra hc
    have := pmeslab_mono npp P i2 i1 (by omega)
    omega
  omega

/-- A PP rank `i` lies below the PME rank of its slab and above the PME ranks
of the lower slabs. -/
theorem dd_pmenodes_around (npp P : Nat) (hP : 1 ≤ P) (hle : P ≤ npp) (i : Nat)
    (hi : i < npp) :
    i + low_ddindex2pmeslab npp P i < dd_pmenodes npp P (low_ddindex2pmeslab npp P i) ∧
    ∀ j, j < low_ddindex2pmeslab npp P i →
      dd_pmenodes npp P j < i + low_ddindex2pmeslab npp P i := by
  obtain ⟨_, h⟩ := dd_pmenodes_spec npp P hP hle
  have hlt := pmeslab_lt npp P hP i hi
  constructor
  · obtain ⟨i1, _, a2, a3, a4⟩ := h _ hlt
    have : i ≤ i1 := by
      by_contra hc
      have := pmeslab_mono npp P (i1 + 1) i (by omega)
      omega
    omega
  · intro j hj
    obtain ⟨i1, _, a2, a3, a4⟩ := h j (by omega)
    have : i1 < i := by
      by_contra hc
      have := pmeslab_mono npp P i i1 (by omega)
      omega
    omega

theorem dd_pmenodes_lt (npp P : Nat) (hP : 1 ≤ P) (hle : P ≤ npp) (j : Nat) (hj : j < P) :
    dd_pmenodes npp P j < npp + P := by
  obtain ⟨_, h⟩ := dd_pmenodes_spec npp P hP hle
  obtain ⟨i1, a1, _, _, a4⟩ := h j hj
  omega

/-- Every simulation rank below `npp + P` is a PP rank or a PME rank. -/
theorem dd_pmenodes_cover (npp P : Nat) (hP : 1 ≤ P) (hle : P ≤ npp) :
    ∀ x, x < npp + P →
      (∃ i, i < npp ∧ x = i + low_ddindex2pmeslab npp P i) ∨
      (∃ j, j < P ∧ x = dd_pmenodes npp P j) := by
  obtain ⟨_, h⟩ := dd_pmenodes_spec npp P hP hle
  have key : ∀ k, k ≤ npp → ∀ x, x < k + low_ddindex2pmeslab npp P k →
      (∃ i, i < npp ∧ x = i + low_ddindex2pmeslab npp P i) ∨
      (∃ j, j < P ∧ x = dd_pmenodes npp P j) := by
    intro k
    induction k with
    | zero =>
      intro _ x hx
      rw [pmeslab_zero npp P hP hle] at hx
      omega
    | succ k ih =>
      intro hk x hx
      by_cases hlow : x < k + low_ddindex2pmeslab npp P k
      · exact ih (by omega) x hlow
      · have hs := pmeslab_step npp P hle (by omega) k
        have hm := pmeslab_mono npp P k (k + 1) (by omega)
        by_cases e : x = k + low_ddindex2pmeslab npp P k
        · exact Or.inl ⟨k, by omega, e⟩
        · have e1 : low_ddindex2pmeslab npp P (k + 1) = low_ddindex2pmeslab npp P k + 1 := by
            omega
          have hlt := pmeslab_lt npp P hP k (by omega)
          obtain ⟨i1, _, a2, a3, a4⟩ := h _ hlt
          have := pmeslab_step_unique npp P i1 k _ a2 a3 rfl e1
          subst this
          exact Or.inr ⟨_, hlt, by omega⟩
  intro x hx
  apply key npp (le_refl _) x
  rw [pmeslab_last npp P hP hle]
  exact hx

/-- The search loop of `dd_simnode2pmenode` stops inside the array at the
first entry that is not below `x`, when there is one. -/
theorem pmenodes_search_spec (A : Nat → Nat) (x P : Nat) :
    ∀ rem i, i + rem = P → (∀ j, j < i → A j < x) → (∃ j, i ≤ j ∧ j < P ∧ x ≤ A j) →
      ∃ j0, pmenodes_search A x rem i = some j0 ∧ j0 < P ∧ x ≤ A j0 ∧ ∀ j, j < j0 → A j < x := by
  intro rem
  induction rem with
  | zero =>
    intro i hi _ hex
    obtain ⟨j, h1, h2, _⟩ := hex
    omega
  | succ rem ih =>
    intro i hi hlow hex
    unfold pmenodes_search
    by_cases hc : x > A i
    · rw [if_pos hc]
      apply ih (i + 1) (by omega)
      · intro j hj
        by_cases e : j = i
        · subst e
          exact hc
        · exact hlow j (by omega)
      · obtain ⟨j, h1, h2, h3⟩ := hex
        refine ⟨j, ?_, h2, h3⟩
        by_contra hn
        have : j = i := by omega
        subst this
        omega
    · rw [if_neg hc]
      exact ⟨i, rfl, by omega, by omega, hlow⟩

/-- C18: for `npp` PP ranks and `P` PME ranks with `1 <= P <= npp` in the
interleaved layout, the slab number `pmeslab(i) = (i*P + P/2)/npp` is
non-decreasing and below `P` for `i < npp`; `dd_pmenodes` writes exactly `P`
entries, which are strictly increasing; the PP ranks `i + pmeslab(i)` (strictly
increasing in `i`) and the PME ranks are all below `npp + P`, distinct from
each other, and every rank below `npp + P` is one of them; and
`dd_simnode2pmenode` reads no entry past the end of `pmenodes` for a rank
below `npp + P`, returns -1 exactly on the PME ranks and
`pmenodes[pmeslab(i)]` on the PP rank `i + pmeslab(i)`. -/
theorem dd_pmenodes_interleaved (npp P : Nat) (cart_pmenode : Nat → Int)
    (hP : 1 ≤ P) (hle : P ≤ npp) :
    (∀ i j, i ≤ j → low_ddindex2pmeslab npp P i ≤ low_ddindex2pmeslab npp P j) ∧
    (∀ i, i < npp → low_ddindex2pmeslab npp P i < P) ∧
    (dd_pmenodes_loop npp P).n = P ∧
    (∀ j k, j < k → k < P → dd_pmenodes npp P j < dd_pmenodes npp P k) ∧
    (∀ i k, i < k → ddindex2simnodeid_interleaved npp P i <
      ddindex2simnodeid_interleaved npp P k) ∧
    (∀ i, i < npp → ddindex2simnodeid_interleaved npp P i < npp + P) ∧
    (∀ j, j < P → dd_pmenodes npp P j < npp + P) ∧
    (∀ i j, i < npp → j < P → ddindex2simnodeid_interleaved npp P i ≠ dd_pmenodes npp P j) ∧
    (∀ x, x < npp + P →
      (∃ i, i < npp ∧ x = ddindex2simnodeid_interleaved npp P i) ∨
      (∃ j, j < P ∧ x = dd_pmenodes npp P j)) ∧
    (∀ x, x < npp + P → ∃ v,
      dd_simnode2pmenode npp P false false cart_pmenode (some (dd_pmenodes npp P)) x = some v ∧
      (v = -1 ↔ ∃ j, j < P ∧ x = dd_pmenodes npp P j)) ∧
    (∀ i, i < npp →
      dd_simnode2pmenode npp P false false cart_pmenode (some (dd_pmenodes npp P))
        (ddindex2simnodeid_interleaved npp P i) =
      some ((dd_pmenodes npp P (low_ddindex2pmeslab npp P i) : Nat) : Int)) := by
  have hstrict := dd_pmenodes_strict npp P hP hle
  have hsearch : ∀ x, x < npp + P → ∃ j0,
      pmenodes_search (dd_pmenodes npp P) x P 0 = some j0 ∧ j0 < P ∧
      x ≤ dd_pmenodes npp P j0 ∧ ∀ j, j < j0 → dd_pmenodes npp P j < x := by
    intro x hx
    apply pmenodes_search_spec (dd_pmenodes npp P) x P P 0 (by omega)
    · intro j hj
      omega
    · obtain ⟨_, h⟩ := dd_pmenodes_spec npp P hP hle
      obtain ⟨i1, a1, a2, a3, a4⟩ := h (P - 1) (by omega)
      have : i1 = npp - 1 := by
        by_contra hne
        have hl := pmeslab_lt npp P hP (i1 + 1) (by omega)
        omega
      exact ⟨P - 1, by omega, by omega, by omega⟩
  have hdisj : ∀ i j, i < npp → j < P →
      ddindex2simnodeid_interleaved npp P i ≠ dd_pmenodes npp P j := by
    intro i j hi hj heq
    unfold ddindex2simnodeid_interleaved at heq
    obtain ⟨h1, h2⟩ := dd_pmenodes_around npp P hP hle i hi
    have hlt := pmeslab_lt npp P hP i hi
    rcases Nat.lt_trichotomy j (low_ddindex2pmeslab npp P i) with c | c | c
    · have := h2 j c
      omega
    · rw [c] at heq
      omega
    · have := hstrict _ j c hj
      omega
  refine ⟨pmeslab_mono npp P, pmeslab_lt npp P hP, (dd_pmenodes_spec npp P hP hle).1, hstrict,
    ?_, ?_, dd_pmenodes_lt npp P hP hle, hdisj, dd_pmenodes_cover npp P hP hle, ?_, ?_⟩
  · intro i k hik
    unfold ddindex2simnodeid_interleaved
    have := pmeslab_mono npp P i k (by omega)
    omega
  · intro i hi
    unfold ddindex2simnodeid_interleaved
    have := pmeslab_lt npp P hP i hi
    omega
  · intro x hx
    obtain ⟨j0, e, hj0, hge, hbelow⟩ := hsearch x hx
    unfold dd_simnode2pmenode
    simp only [Bool.false_eq_true, if_false, e, Option.map]
    by_cases hc : x < dd_pmenodes npp P j0
    · rw [if_pos hc]
      refine ⟨_, rfl, ?_⟩
      constructor
      · intro h
        omega
      · rintro ⟨j, hj, hxj⟩
        exfalso
        rcases Nat.lt_trichotomy j j0 with c | c | c
        · have := hbelow j c
          omega
        · subst c
          omega
        · have := hstrict j0 j c hj
          omega
    · rw [if_neg hc]
      refine ⟨_, rfl, ?_⟩
      constructor
      · intro _
        exact ⟨j0, hj0, by omega⟩
      · intro _
        rfl
  · intro i hi
    obtain ⟨h1, h2⟩ := dd_pmenodes_around npp P hP hle i hi
    have hlt := pmeslab_lt npp P hP i hi
    have hx : ddindex2simnodeid_interleaved npp P i < npp + P := by
      unfold ddindex2simnodeid_interleaved
      omega
    obtain ⟨j0, e, hj0, hge, hbelow⟩ := hsearch _ hx
    have hj : j0 = low_ddindex2pmeslab npp P i := by
      unfold ddindex2simnodeid_interleaved at hge hbelow
      rcases Nat.lt_trichotomy j0 (low_ddindex2pmeslab npp P i) with c | c | c
      · have := h2 j0 c
        omega
      · exact c
      · have := hbelow _ c
        omega
    subst hj
    unfold dd_simnode2pmenode
    simp only [Bool.false_eq_true, if_false, e, Option.map]
    rw [if_pos (by unfold ddindex2simnodeid_interleaved; exact h1)]

/-- Witness of C18: five PP ranks and two PME ranks. -/
theorem dd_pmenodes_interleaved_witness :
    (1 ≤ 2 ∧ 2 ≤ 5) ∧
    ((∀ i j, i ≤ j → low_ddindex2pmeslab 5 2 i ≤ low_ddindex2pmeslab 5 2 j) ∧
    (∀ i, i < 5 → low_ddindex2pmeslab 5 2 i < 2) ∧
    (dd_pmenodes_loop 5 2).n = 2 ∧
    (∀ j k, j < k → k < 2 → dd_pmenodes 5 2 j < dd_pmenodes 5 2 k) ∧
    (∀ i k, i < k → ddindex2simnodeid_interleaved 5 2 i <
      ddindex2simnodeid_interleaved 5 2 k) ∧
    (∀ i, i < 5 → ddindex2simnodeid_interleaved 5 2 i < 5 + 2) ∧
    (∀ j, j < 2 → dd_pmenodes 5 2 j < 5 + 2) ∧
    (∀ i j, i < 5 → j < 2 → ddindex2simnodeid_interleaved 5 2 i ≠ dd_pmenodes 5 2 j) ∧
    (∀ x, x < 5 + 2 →
      (∃ i, i < 5 ∧ x = ddindex2simnodeid_interleaved 5 2 i) ∨
      (∃ j, j < 2 ∧ x = dd_pmenodes 5 2 j)) ∧
    (∀ x, x < 5 + 2 → ∃ v,
      dd_simnode2pmenode 5 2 false false (fun _ => -1) (some (dd_pmenodes 5 2)) x = some v ∧
      (v = -1 ↔ ∃ j, j < 2 ∧ x = dd_pmenodes 5 2 j)) ∧
    (∀ i, i < 5 →
      dd_simnode2pmenode 5 2 false false (fun _ => -1) (some (dd_pmenodes 5 2))
        (ddindex2simnodeid_interleaved 5 2 i) =
      some ((dd_pmenodes 5 2 (low_ddindex2pmeslab 5 2 i) : Nat) : Int))) :=
  ⟨⟨by decide, by decide⟩, dd_pmenodes_interleaved 5 2 (fun _ => -1) (by decide) (by decide)⟩

/-! ## The sum of the cell sizes after the minimum-size loop -/

/-- C19 (the code at a failing input): the row `ex_dlb_root` with the sizes
3/10, 2/10, 2/10, 3/10 and the loads 90, 110, 100, 100 in the first
decomposition dimension, with `cellsize_limit_f = 2/10` and
`dist_min_f = 1/10`.  The `do ... while` loop ends with the two cells 1 and 2
pinned at exactly `cellsize_limit_f`, but the free cells 0 and 3 are scaled to
sum to `1 - nmin*dist_min_f = 8/10` instead of `1 - nmin*cellsize_limit_f`, so
that the sizes sum to 6/5 and the last boundary is at 6/5 instead of 1.  The
last cell then gets the size 39/205, which is below the limit, and the call
ends in the fatal error. -/
theorem dlb_rescale_pinned_sum_not_one :
    dlb_cellsize_limit_f 2 (100001 / 10000) false 1 = 2 / 10 ∧
    dlb_dist_min_f 1 (100001 / 10000) false 1 false 0 = 1 / 10 ∧
    (∃ s, dlb_rescale 4 (dlb_dist_min_f 1 (100001 / 10000) false 1 false 0)
        (dlb_cellsize_limit_f 2 (100001 / 10000) false 1) 4
        (dlb_clear_min 4 (dlb_load_sizes 4 6 400 ex_dlb_load2 (dlb_store_old 4 ex_dlb_root)), 0)
        = some s ∧
      s.2 = 2 ∧
      (s.1.bCellMin 0 = false ∧ s.1.bCellMin 1 = true ∧ s.1.bCellMin 2 = true ∧
        s.1.bCellMin 3 = false) ∧
      (s.1.cell_size 1 = 2 / 10 ∧ s.1.cell_size 2 = 2 / 10) ∧
      s.1.cell_size 0 + s.1.cell_size 3 = 8 / 10 ∧
      s.1.cell_size 0 + s.1.cell_size 1 + s.1.cell_size 2 + s.1.cell_size 3 = 6 / 5 ∧
      s.1.cell_f 4 = 6 / 5 ∧ 1 - s.1.cell_f 3 = 39 / 205) ∧
    set_dd_cell_sizes_dlb_root 4 4 0 false false 1 400 ex_dlb_load2 6
      2 (100001 / 10000) 1 false 1 ex_dlb_root = some none := by
  refine ⟨by decide!, by decide!, ?_, ?_⟩
  swap
  · have hdec : (set_dd_cell_sizes_dlb_root 4 4 0 false false 1 400 ex_dlb_load2 6
        2 (100001 / 10000) 1 false 1 ex_dlb_root).map (fun o => o.isNone) = some true := by
      decide!
    cases hX : set_dd_cell_sizes_dlb_root 4 4 0 false false 1 400 ex_dlb_load2 6
        2 (100001 / 10000) 1 false 1 ex_dlb_root with
    | none => rw [hX] at hdec; simp at hdec
    | some o =>
      cases o with
      | none => rfl
      | some r => rw [hX] at hdec; simp at hdec
  have hdec : (dlb_rescale 4 (dlb_dist_min_f 1 (100001 / 10000) false 1 false 0)
      (dlb_cellsize_limit_f 2 (100001 / 10000) false 1) 4
      (dlb_clear_min 4 (dlb_load_sizes 4 6 400 ex_dlb_load2 (dlb_store_old 4 ex_dlb_root)), 0)).map
      (fun s => decide (s.2 = 2 ∧
        (s.1.bCellMin 0 = false ∧ s.1.bCellMin 1 = true ∧ s.1.bCellMin 2 = true ∧
          s.1.bCellMin 3 = false) ∧
        (s.1.cell_size 1 = 2 / 10 ∧ s.1.cell_size 2 = 2 / 10) ∧
        s.1.cell_size 0 + s.1.cell_size 3 = 8 / 10 ∧
        s.1.cell_size 0 + s.1.cell_size 1 + s.1.cell_size 2 + s.1.cell_size 3 = 6 / 5 ∧
        s.1.cell_f 4 = 6 / 5 ∧ 1 - s.1.cell_f 3 = 39 / 205)) = some true := by decide!
  cases hX : dlb_rescale 4 (dlb_dist_min_f 1 (100001 / 10000) false 1 false 0)
      (dlb_cellsize_limit_f 2 (100001 / 10000) false 1) 4
      (dlb_clear_min 4 (dlb_load_sizes 4 6 400 ex_dlb_load2 (dlb_store_old 4 ex_dlb_root)), 0) with
  | none => rw [hX] at hdec; simp at hdec
  | some s =>
    rw [hX] at hdec
    simp only [Option.map, Option.some.injEq, decide_eq_true_eq] at hdec
    exact ⟨s, rfl, hdec⟩

/-! ## The limits between the rows of `set_dd_cell_sizes_dlb` -/

theorem dlb_store_old_frame (nc : Nat) (root : gmx_domdec_root) :
    (dlb_store_old nc root).cell_f = root.cell_f ∧
    (dlb_store_old nc root).cell_f_max0 = root.cell_f_max0 ∧
    (dlb_store_old nc root).cell_f_min1 = root.cell_f_min1 := by
  unfold dlb_store_old
  apply foldl_inv (fun r => r.cell_f = root.cell_f ∧ r.cell_f_max0 = root.cell_f_max0 ∧
    r.cell_f_min1 = root.cell_f_min1) _ _ root _ ⟨rfl, rfl, rfl⟩
  intro t a _ ht
  exact ht

theorem dlb_load_sizes_frame (nc nload : Nat) (sum_m : real) (load : Nat → real)
    (root : gmx_domdec_root) :
    (dlb_load_sizes nc nload sum_m load root).cell_f = root.cell_f ∧
    (dlb_load_sizes nc nload sum_m load root).cell_f_max0 = root.cell_f_max0 ∧
    (dlb_load_sizes nc nload sum_m load root).cell_f_min1 = root.cell_f_min1 := by
  unfold dlb_load_sizes
  apply foldl_inv (fun r => r.cell_f = root.cell_f ∧ r.cell_f_max0 = root.cell_f_max0 ∧
    r.cell_f_min1 = root.cell_f_min1) _ _ root _ ⟨rfl, rfl, rfl⟩
  intro t a _ ht
  exact ht

/-- The limits that `dlb_bounds` computes for the boundary `i`. -/
theorem dlb_bounds_spec (nc : Nat) (dist_min_f : real) (root : gmx_domdec_root) :
    (dlb_bounds nc dist_min_f root).cell_f_max0 = root.cell_f_max0 ∧
    (dlb_bounds nc dist_min_f root).cell_f_min1 = root.cell_f_min1 ∧
    ∀ i, 1 ≤ i → i < nc →
      (dlb_bounds nc dist_min_f root).bound_min i =
        (if root.cell_f i - (root.cell_f_max0 (i - 1) + dist_min_f) > 0 then
          root.cell_f_max0 (i - 1) + dist_min_f +
            1 / 2 * (root.cell_f i - (root.cell_f_max0 (i - 1) + dist_min_f))
        else root.cell_f_max0 (i - 1) + dist_min_f) ∧
      (dlb_bounds nc dist_min_f root).bound_max i =
        (if root.cell_f i - (root.cell_f_min1 i - dist_min_f) < 0 then
          root.cell_f_min1 i - dist_min_f +
            1 / 2 * (root.cell_f i - (root.cell_f_min1 i - dist_min_f))
        else root.cell_f_min1 i - dist_min_f) := by
  have hP : ∀ (t : gmx_domdec_root) (a : Nat),
      (t.cell_f = root.cell_f ∧ t.cell_f_max0 = root.cell_f_max0 ∧
        t.cell_f_min1 = root.cell_f_min1) →
      ((dlb_bounds_cell dist_min_f t a).cell_f = root.cell_f ∧
        (dlb_bounds_cell dist_min_f t a).cell_f_max0 = root.cell_f_max0 ∧
        (dlb_bounds_cell dist_min_f t a).cell_f_min1 = root.cell_f_min1) := by
    intro t a ht
    exact ht
  have h1 := foldl_inv (fun r => r.cell_f = root.cell_f ∧ r.cell_f_max0 = root.cell_f_max0 ∧
    r.cell_f_min1 = root.cell_f_min1) (dlb_bounds_cell dist_min_f) (List.range' 1 (nc - 1)) root
    (fun t a _ ht => hP t a ht) ⟨rfl, rfl, rfl⟩
  refine ⟨h1.2.1, h1.2.2, ?_⟩
  intro i hi1 hi2
  have h2 := foldl_mem_inv
    (fun r => r.cell_f = root.cell_f ∧ r.cell_f_max0 = root.cell_f_max0 ∧
      r.cell_f_min1 = root.cell_f_min1)
    (fun i r =>
      r.bound_min i =
        (if root.cell_f i - (root.cell_f_max0 (i - 1) + dist_min_f) > 0 then
          root.cell_f_max0 (i - 1) + dist_min_f +
            1 / 2 * (root.cell_f i - (root.cell_f_max0 (i - 1) + dist_min_f))
        else root.cell_f_max0 (i - 1) + dist_min_f) ∧
      r.bound_max i =
        (if root.cell_f i - (root.cell_f_min1 i - dist_min_f) < 0 then
          root.cell_f_min1 i - dist_min_f +
            1 / 2 * (root.cell_f i - (root.cell_f_min1 i - dist_min_f))
        else root.cell_f_min1 i - dist_min_f))
    (dlb_bounds_cell dist_min_f) hP
    (by
      intro t a ht
      obtain ⟨e1, e2, e3⟩ := ht
      unfold dlb_bounds_cell
      simp only [Function.update_same, e1, e2, e3]
      exact ⟨trivial, trivial⟩)
    (by
      intro t a b ht hq
      obtain ⟨e1, e2, e3⟩ := ht
      unfold dlb_bounds_cell
      by_cases hab : b = a
      · subst hab
        simp only [Function.update_same, e1, e2, e3]
        exact ⟨trivial, trivial⟩
      · simp only [Function.update_noteq hab]
        exact hq)
    (List.range' 1 (nc - 1)) root ⟨rfl, rfl, rfl⟩ i
    (by rw [List.mem_range'_1]; omega)
  exact h2

/-- The extremes of the neighbouring rows and the limits derived from them
are the same in `r` and `t`. -/
theorem dlb_clear_min_frame (nc : Nat) (root : gmx_domdec_root) :
    (dlb_clear_min nc root).cell_f_max0 = root.cell_f_max0 ∧
    (dlb_clear_min nc root).cell_f_min1 = root.cell_f_min1 ∧
    (dlb_clear_min nc root).bound_min = root.bound_min ∧
    (dlb_clear_min nc root).bound_max = root.bound_max := by
  unfold dlb_clear_min
  apply foldl_inv (fun r => r.cell_f_max0 = root.cell_f_max0 ∧
    r.cell_f_min1 = root.cell_f_min1 ∧ r.bound_min = root.bound_min ∧
    r.bound_max = root.bound_max) _ _ root _ ⟨rfl, rfl, rfl, rfl⟩
  intro t a _ ht
  exact ht

theorem dlb_rescale_cell_frame (fac L : real) (s : gmx_domdec_root × Nat) (i : Nat) :
    (dlb_rescale_cell fac L s i).1.cell_f_max0 = s.1.cell_f_max0 ∧
    (dlb_rescale_cell fac L s i).1.cell_f_min1 = s.1.cell_f_min1 ∧
    (dlb_rescale_cell fac L s i).1.bound_min = s.1.bound_min ∧
    (dlb_rescale_cell fac L s i).1.bound_max = s.1.bound_max := by
  unfold dlb_rescale_cell
  simp only
  split_ifs <;> exact ⟨rfl, rfl, rfl, rfl⟩

theorem dlb_rescale_pass_frame (nc : Nat) (dist_min_f L : real) (s : gmx_domdec_root × Nat) :
    (dlb_rescale_pass nc dist_min_f L s).1.cell_f_max0 = s.1.cell_f_max0 ∧
    (dlb_rescale_pass nc dist_min_f L s).1.cell_f_min1 = s.1.cell_f_min1 ∧
    (dlb_rescale_pass nc dist_min_f L s).1.bound_min = s.1.bound_min ∧
    (dlb_rescale_pass nc dist_min_f L s).1.bound_max = s.1.bound_max := by
  unfold dlb_rescale_pass
  simp only
  exact foldl_inv (fun r : gmx_domdec_root × Nat => r.1.cell_f_max0 = s.1.cell_f_max0 ∧
    r.1.cell_f_min1 = s.1.cell_f_min1 ∧ r.1.bound_min = s.1.bound_min ∧
    r.1.bound_max = s.1.bound_max)
    (dlb_rescale_cell ((1 - (s.2 : real) * dist_min_f) / dlb_free_total nc s.1) L)
    (List.range nc) _
    (by
      intro t a _ ht
      obtain ⟨h1, h2, h3, h4⟩ := dlb_rescale_cell_frame
        ((1 - (s.2 : real) * dist_min_f) / dlb_free_total nc s.1) L t a
      exact ⟨h1.trans ht.1, h2.trans ht.2.1, h3.trans ht.2.2.1, h4.trans ht.2.2.2⟩)
    ⟨rfl, rfl, rfl, rfl⟩

theorem dlb_rescale_frame (nc : Nat) (dist_min_f L : real) :
    ∀ fuel (s r : gmx_domdec_root × Nat), dlb_rescale nc dist_min_f L fuel s = some r →
      r.1.cell_f_max0 = s.1.cell_f_max0 ∧ r.1.cell_f_min1 = s.1.cell_f_min1 ∧
      r.1.bound_min = s.1.bound_min ∧ r.1.bound_max = s.1.bound_max := by
  intro fuel
  induction fuel with
  | zero =>
    intro s r h
    unfold dlb_rescale at h
    split_ifs at h
    simp only [Option.some.injEq] at h
    subst h
    exact dlb_rescale_pass_frame nc dist_min_f L s
  | succ n ih =>
    intro s r h
    unfold dlb_rescale at h
    obtain ⟨h1, h2, h3, h4⟩ := dlb_rescale_pass_frame nc dist_min_f L s
    split_ifs at h
    · obtain ⟨g1, g2, g3, g4⟩ := ih _ r h
      exact ⟨g1.trans h1, g2.trans h2, g3.trans h3, g4.trans h4⟩
    · simp only [Option.some.injEq] at h
      subst h
      exact ⟨h1, h2, h3, h4⟩

theorem dlb_last_boundary_frame (nc : Nat) (L : real) (s : gmx_domdec_root × Nat)
    (r4 : gmx_domdec_root) (h : dlb_last_boundary nc L s = some r4) :
    r4.cell_f_max0 = s.1.cell_f_max0 ∧ r4.cell_f_min1 = s.1.cell_f_min1 ∧
    r4.bound_min = s.1.bound_min ∧ r4.bound_max = s.1.bound_max := by
  unfold dlb_last_boundary at h
  simp only at h
  split_ifs at h
  simp only [Option.some.injEq] at h
  subst h
  exact ⟨rfl, rfl, rfl, rfl⟩

theorem dlb_push_up_frame (nc : Nat) (L : real) (i : Nat) (root : gmx_domdec_root) :
    (dlb_push_up nc L i root).cell_f_max0 = root.cell_f_max0 ∧
    (dlb_push_up nc L i root).cell_f_min1 = root.cell_f_min1 ∧
    (dlb_push_up nc L i root).bound_min = root.bound_min ∧
    (dlb_push_up nc L i root).bound_max = root.bound_max ∧
    (dlb_push_up nc L i root).old_cell_f = root.old_cell_f := by
  unfold dlb_push_up
  apply foldl_inv (fun r => r.cell_f_max0 = root.cell_f_max0 ∧
    r.cell_f_min1 = root.cell_f_min1 ∧ r.bound_min = root.bound_min ∧
    r.bound_max = root.bound_max ∧ r.old_cell_f = root.old_cell_f) _ _ root _
    ⟨rfl, rfl, rfl, rfl, rfl⟩
  intro t a _ ht
  split_ifs <;> exact ht

theorem dlb_push_down_frame (L : real) (i : Nat) (root : gmx_domdec_root) :
    (dlb_push_down L i root).cell_f_max0 = root.cell_f_max0 ∧
    (dlb_push_down L i root).cell_f_min1 = root.cell_f_min1 ∧
    (dlb_push_down L i root).bound_min = root.bound_min ∧
    (dlb_push_down L i root).bound_max = root.bound_max ∧
    (dlb_push_down L i root).old_cell_f = root.old_cell_f := by
  unfold dlb_push_down
  apply foldl_inv (fun r => r.cell_f_max0 = root.cell_f_max0 ∧
    r.cell_f_min1 = root.cell_f_min1 ∧ r.bound_min = root.bound_min ∧
    r.bound_max = root.bound_max ∧ r.old_cell_f = root.old_cell_f) _ _ root _
    ⟨rfl, rfl, rfl, rfl, rfl⟩
  intro t a _ ht
  split_ifs <;> exact ht

theorem dlb_halfway_cell_frame (nc : Nat) (L : real) (r : gmx_domdec_root) (i : Nat) :
    (dlb_halfway_cell nc L r i).cell_f_max0 = r.cell_f_max0 ∧
    (dlb_halfway_cell nc L r i).cell_f_min1 = r.cell_f_min1 ∧
    (dlb_halfway_cell nc L r i).bound_min = r.bound_min ∧
    (dlb_halfway_cell nc L r i).bound_max = r.bound_max := by
  unfold dlb_halfway_cell
  simp only
  split_ifs
  · refine ⟨(dlb_push_down_frame L i _).1.trans ?_, (dlb_push_down_frame L i _).2.1.trans ?_,
      (dlb_push_down_frame L i _).2.2.1.trans ?_, (dlb_push_down_frame L i _).2.2.2.1.trans ?_⟩
    · exact (dlb_push_up_frame nc L i _).1
    · exact (dlb_push_up_frame nc L i _).2.1
    · exact (dlb_push_up_frame nc L i _).2.2.1
    · exact (dlb_push_up_frame nc L i _).2.2.2.1
  · exact ⟨(dlb_push_up_frame nc L i _).1, (dlb_push_up_frame nc L i _).2.1,
      (dlb_push_up_frame nc L i _).2.2.1, (dlb_push_up_frame nc L i _).2.2.2.1⟩
  · exact ⟨(dlb_push_down_frame L i _).1, (dlb_push_down_frame L i _).2.1,
      (dlb_push_down_frame L i _).2.2.1, (dlb_push_down_frame L i _).2.2.2.1⟩
  · exact ⟨rfl, rfl, rfl, rfl⟩

theorem dlb_halfway_frame (nc : Nat) (L : real) (root : gmx_domdec_root) :
    (dlb_halfway nc L root).cell_f_max0 = root.cell_f_max0 ∧
    (dlb_halfway nc L root).cell_f_min1 = root.cell_f_min1 ∧
    (dlb_halfway nc L root).bound_min = root.bound_min ∧
    (dlb_halfway nc L root).bound_max = root.bound_max := by
  unfold dlb_halfway
  apply foldl_inv (fun r => r.cell_f_max0 = root.cell_f_max0 ∧
    r.cell_f_min1 = root.cell_f_min1 ∧ r.bound_min = root.bound_min ∧
    r.bound_max = root.bound_max) _ _ root _ ⟨rfl, rfl, rfl, rfl⟩
  intro t a _ ht
  obtain ⟨h1, h2, h3, h4⟩ := dlb_halfway_cell_frame nc L t a
  exact ⟨h1.trans ht.1, h2.trans ht.2.1, h3.trans ht.2.2.1, h4.trans ht.2.2.2⟩

theorem dlb_stagger_cell_frame (r : gmx_domdec_root) (i : Nat) :
    (dlb_stagger_cell r i).cell_f_max0 = r.cell_f_max0 ∧
    (dlb_stagger_cell r i).cell_f_min1 = r.cell_f_min1 ∧
    (dlb_stagger_cell r i).bound_min = r.bound_min ∧
    (dlb_stagger_cell r i).bound_max = r.bound_max := by
  unfold dlb_stagger_cell
  simp only
  split_ifs <;> exact ⟨rfl, rfl, rfl, rfl⟩

/-- The staggering step puts the boundary `i` between its limits when the
lower limit is not above the upper one. -/
theorem dlb_stagger_cell_clamp (r : gmx_domdec_root) (i : Nat)
    (h : r.bound_min i ≤ r.bound_max i) :
    r.bound_min i ≤ (dlb_stagger_cell r i).cell_f i ∧
    (dlb_stagger_cell r i).cell_f i ≤ r.bound_max i := by
  unfold dlb_stagger_cell
  simp only [Bool.and_eq_true, Bool.or_eq_true, decide_eq_true_eq]
  by_cases hlo : r.cell_f i < r.bound_min i
  · have hhi : ¬ r.cell_f i > r.bound_max i := by
      intro hh
      linarith
    simp only [hlo, hhi, and_false, if_false, if_true, true_or, Function.update_same]
    exact ⟨le_refl _, h⟩
  · by_cases hhi : r.cell_f i > r.bound_max i
    · simp only [hlo, hhi, false_and, if_false, if_true, or_true, Function.update_same]
      exact ⟨h, le_refl _⟩
    · simp only [hlo, hhi, false_and, if_false, or_self]
      exact ⟨not_lt.mp hlo, not_lt.mp hhi⟩

theorem dlb_stagger_cell_other (r : gmx_domdec_root) (i j : Nat) (h : j ≠ i) :
    (dlb_stagger_cell r i).cell_f j = r.cell_f j := by
  unfold dlb_stagger_cell
  simp only
  split_ifs <;> (try simp only [Function.update_noteq h])

theorem dlb_stagger_spec (nc : Nat) (root : gmx_domdec_root) :
    (dlb_stagger nc root).cell_f_max0 = root.cell_f_max0 ∧
    (dlb_stagger nc root).cell_f_min1 = root.cell_f_min1 ∧
    ∀ i, 1 ≤ i → i < nc → root.bound_min i ≤ root.bound_max i →
      root.bound_min i ≤ (dlb_stagger nc root).cell_f i ∧
      (dlb_stagger nc root).cell_f i ≤ root.bound_max i := by
  have hP : ∀ (t : gmx_domdec_root) (a : Nat),
      (t.cell_f_max0 = root.cell_f_max0 ∧ t.cell_f_min1 = root.cell_f_min1 ∧
        t.bound_min = root.bound_min ∧ t.bound_max = root.bound_max) →
      ((dlb_stagger_cell t a).cell_f_max0 = root.cell_f_max0 ∧
        (dlb_stagger_cell t a).cell_f_min1 = root.cell_f_min1 ∧
        (dlb_stagger_cell t a).bound_min = root.bound_min ∧
        (dlb_stagger_cell t a).bound_max = root.bound_max) := by
    intro t a ht
    obtain ⟨h1, h2, h3, h4⟩ := dlb_stagger_cell_frame t a
    exact ⟨h1.trans ht.1, h2.trans ht.2.1, h3.trans ht.2.2.1, h4.trans ht.2.2.2⟩
  have h1 := foldl_inv (fun r => r.cell_f_max0 = root.cell_f_max0 ∧
    r.cell_f_min1 = root.cell_f_min1 ∧ r.bound_min = root.bound_min ∧
    r.bound_max = root.bound_max) dlb_stagger_cell (List.range' 1 (nc - 1)) root
    (fun t a _ ht => hP t a ht) ⟨rfl, rfl, rfl, rfl⟩
  refine ⟨h1.1, h1.2.1, ?_⟩
  intro i hi1 hi2 hle
  have hset : ∀ (t : gmx_domdec_root) (a : Nat),
      (t.cell_f_max0 = root.cell_f_max0 ∧ t.cell_f_min1 = root.cell_f_min1 ∧
        t.bound_min = root.bound_min ∧ t.bound_max = root.bound_max) →
      (root.bound_min a ≤ root.bound_max a →
        root.bound_min a ≤ (dlb_stagger_cell t a).cell_f a ∧
        (dlb_stagger_cell t a).cell_f a ≤ root.bound_max a) := by
    intro t a ht hl
    have := dlb_stagger_cell_clamp t a (by rw [ht.2.2.1, ht.2.2.2]; exact hl)
    rw [ht.2.2.1, ht.2.2.2] at this
    exact this
  exact foldl_mem_inv
    (fun r => r.cell_f_max0 = root.cell_f_max0 ∧ r.cell_f_min1 = root.cell_f_min1 ∧
      r.bound_min = root.bound_min ∧ r.bound_max = root.bound_max)
    (fun i r => root.bound_min i ≤ root.bound_max i →
      root.bound_min i ≤ r.cell_f i ∧ r.cell_f i ≤ root.bound_max i)
    dlb_stagger_cell hP hset
    (by
      intro t a b ht hq
      by_cases hab : b = a
      · subst hab
        exact hset t b ht
      · intro hl
        rw [dlb_stagger_cell_other t a b hab]
        exact hq hl)
    (List.range' 1 (nc - 1)) root ⟨rfl, rfl, rfl, rfl⟩ i
    (by rw [List.mem_range'_1]; omega) hle

/-- C20 (amended): for a decomposition dimension index `d > 0` in non-uniform
mode the update of a row by `set_dd_cell_sizes_dlb` ends, leaves the extremes
`cell_f_max0` and `cell_f_min1` of the neighbouring rows as they were, and
every interior boundary `1 <= i < nc` whose value at the start of the update
satisfied `cell_f_max0[i-1] + dist_min_f <= cell_f[i] <= cell_f_min1[i] -
dist_min_f` satisfies these inequalities again after the staggering step. -/
theorem set_dd_cell_sizes_dlb_stagger_limits (nc d : Nat) (bDynamicBox : Bool)
    (load_count : Nat) (sum_m : real) (load : Nat → real) (nload : Nat)
    (cellsize_min box_dd grid_jump : real) (tric_dir : Bool) (skew_fac : real)
    (root : gmx_domdec_root) (hnc : 1 ≤ nc) (hd : 0 < d) :
    (∃ r, set_dd_cell_sizes_dlb_root nc nc d false bDynamicBox load_count sum_m load nload
      cellsize_min box_dd grid_jump tric_dir skew_fac root = some r) ∧
    ∀ fuel r, set_dd_cell_sizes_dlb_root fuel nc d false bDynamicBox load_count sum_m
        load nload cellsize_min box_dd grid_jump tric_dir skew_fac root = some (some r) →
      r.cell_f_max0 = root.cell_f_max0 ∧ r.cell_f_min1 = root.cell_f_min1 ∧
      ∀ i, 1 ≤ i → i < nc →
        root.cell_f_max0 (i - 1) +
            dlb_dist_min_f grid_jump box_dd tric_dir skew_fac bDynamicBox d ≤ root.cell_f i →
        root.cell_f i ≤ root.cell_f_min1 i -
            dlb_dist_min_f grid_jump box_dd tric_dir skew_fac bDynamicBox d →
        root.cell_f_max0 (i - 1) +
            dlb_dist_min_f grid_jump box_dd tric_dir skew_fac bDynamicBox d ≤ r.cell_f i ∧
        r.cell_f i ≤ root.cell_f_min1 i -
            dlb_dist_min_f grid_jump box_dd tric_dir skew_fac bDynamicBox d := by
  unfold set_dd_cell_sizes_dlb_root
  simp only [Bool.false_eq_true, if_false, hd, gt_iff_lt, and_self, if_true]
  generalize dlb_cellsize_limit_f cellsize_min box_dd tric_dir skew_fac = L
  generalize dlb_dist_min_f grid_jump box_dd tric_dir skew_fac bDynamicBox d = dmf
  have hr1 : (if load_count ≠ 0 then dlb_load_sizes nc nload sum_m load (dlb_store_old nc root)
      else dlb_store_old nc root).cell_f = root.cell_f ∧
      (if load_count ≠ 0 then dlb_load_sizes nc nload sum_m load (dlb_store_old nc root)
      else dlb_store_old nc root).cell_f_max0 = root.cell_f_max0 ∧
      (if load_count ≠ 0 then dlb_load_sizes nc nload sum_m load (dlb_store_old nc root)
      else dlb_store_old nc root).cell_f_min1 = root.cell_f_min1 := by
    obtain ⟨a1, a2, a3⟩ := dlb_store_old_frame nc root
    by_cases hl : load_count ≠ 0
    · rw [if_pos hl]
      obtain ⟨b1, b2, b3⟩ := dlb_load_sizes_frame nc nload sum_m load (dlb_store_old nc root)
      exact ⟨b1.trans a1, b2.trans a2, b3.trans a3⟩
    · rw [if_neg hl]
      exact ⟨a1, a2, a3⟩
  generalize (if load_count ≠ 0 then dlb_load_sizes nc nload sum_m load (dlb_store_old nc root)
      else dlb_store_old nc root) = r1 at hr1 ⊢
  obtain ⟨e1, e2, e3⟩ := hr1
  obtain ⟨b1, b2, b3⟩ := dlb_bounds_spec nc dmf r1
  obtain ⟨c1, c2, c3, c4⟩ := dlb_clear_min_frame nc (dlb_bounds nc dmf r1)
  obtain ⟨⟨s0, hs0⟩, _⟩ := dlb_boundaries_from_clear nc dmf L (dlb_bounds nc dmf r1) hnc
  constructor
  · rw [hs0]
    simp only []
    cases dlb_last_boundary nc L s0 with
    | none => exact ⟨_, rfl⟩
    | some r4 => exact ⟨_, rfl⟩
  · intro fuel r h
    cases hs : dlb_rescale nc dmf L fuel (dlb_clear_min nc (dlb_bounds nc dmf r1), 0) with
    | none =>
      rw [hs] at h
      exact absurd h (by simp)
    | some s =>
      rw [hs] at h
      simp only [] at h
      cases h4 : dlb_last_boundary nc L s with
      | none =>
        rw [h4] at h
        exact absurd h (by simp)
      | some r4 =>
        rw [h4] at h
        simp only [Option.some.injEq] at h
        obtain ⟨f1, f2, f3, f4⟩ := dlb_rescale_frame nc dmf L fuel _ s hs
        obtain ⟨g1, g2, g3, g4⟩ := dlb_last_boundary_frame nc L s r4 h4
        obtain ⟨k1, k2, k3, k4⟩ := dlb_halfway_frame nc L r4
        obtain ⟨m1, m2, m3⟩ := dlb_stagger_spec nc (dlb_halfway nc L r4)
        simp only at f1 f2 f3 f4
        have q1 : (dlb_halfway nc L r4).cell_f_max0 = root.cell_f_max0 := by
          rw [k1, g1, f1, c1, b1, e2]
        have q2 : (dlb_halfway nc L r4).cell_f_min1 = root.cell_f_min1 := by
          rw [k2, g2, f2, c2, b2, e3]
        have q3 : (dlb_halfway nc L r4).bound_min = (dlb_bounds nc dmf r1).bound_min := by
          rw [k3, g3, f3, c3]
        have q4 : (dlb_halfway nc L r4).bound_max = (dlb_bounds nc dmf r1).bound_max := by
          rw [k4, g4, f4, c4]
        subst h
        refine ⟨m1.trans q1, m2.trans q2, ?_⟩
        intro i hi1 hi2 hA hB
        obtain ⟨bm, bM⟩ := b3 i hi1 hi2
        rw [e1, e2] at bm
        rw [e1, e3] at bM
        have hmin : root.cell_f_max0 (i - 1) + dmf ≤ (dlb_bounds nc dmf r1).bound_min i ∧
            (dlb_bounds nc dmf r1).bound_min i ≤ root.cell_f i := by
          rw [bm]
          split_ifs with hc
          · constructor <;> linarith
          · constructor <;> linarith
        have hmax : root.cell_f i ≤ (dlb_bounds nc dmf r1).bound_max i ∧
            (dlb_bounds nc dmf r1).bound_max i ≤ root.cell_f_min1 i - dmf := by
          rw [bM]
          split_ifs with hc
          · constructor <;> linarith
          · constructor <;> linarith
        have := m3 i hi1 hi2 (by rw [q3, q4]; linarith)
        rw [q3, q4] at this
        constructor <;> linarith

/-- Witness of C20 (amended): the row of four cells `ex_dlb_root` as second
decomposition dimension. -/
theorem set_dd_cell_sizes_dlb_stagger_limits_witness :
    (1 ≤ 4 ∧ 0 < 1) ∧
    ((∃ r, set_dd_cell_sizes_dlb_root 4 4 1 false false 1 400 ex_dlb_load 6
      2 (100001 / 10000) 1 false 1 ex_dlb_root = some r) ∧
    ∀ fuel r, set_dd_cell_sizes_dlb_root fuel 4 1 false false 1 400 ex_dlb_load 6
        2 (100001 / 10000) 1 false 1 ex_dlb_root = some (some r) →
      r.cell_f_max0 = ex_dlb_root.cell_f_max0 ∧ r.cell_f_min1 = ex_dlb_root.cell_f_min1 ∧
      ∀ i, 1 ≤ i → i < 4 →
        ex_dlb_root.cell_f_max0 (i - 1) +
            dlb_dist_min_f 1 (100001 / 10000) false 1 false 1 ≤ ex_dlb_root.cell_f i →
        ex_dlb_root.cell_f i ≤ ex_dlb_root.cell_f_min1 i -
            dlb_dist_min_f 1 (100001 / 10000) false 1 false 1 →
        ex_dlb_root.cell_f_max0 (i - 1) +
            dlb_dist_min_f 1 (100001 / 10000) false 1 false 1 ≤ r.cell_f i ∧
        r.cell_f i ≤ ex_dlb_root.cell_f_min1 i -
            dlb_dist_min_f 1 (100001 / 10000) false 1 false 1) :=
  ⟨⟨by decide, by decide⟩,
    set_dd_cell_sizes_dlb_stagger_limits 4 1 false 1 400 ex_dlb_load 6 2 (100001 / 10000) 1
      false 1 ex_dlb_root (by decide) (by decide)⟩

/-- Counterexample to C20 as stated: in the row `ex_dlb_root2`, second
decomposition dimension, the interval
`[cell_f_max0[0] + dist_min_f, cell_f_min1[1] - dist_min_f] = [3/10, 7/20]` is
not empty and the boundary 1 was at 1/10 below it; both limits of the
staggering step are violated and the boundary ends at 21/80, below the
interval. -/
theorem set_dd_cell_sizes_dlb_stagger_leaves_interval :
    ∃ r, set_dd_cell_sizes_dlb_root 2 2 1 false false 0 0 (fun _ => 0) 0
        1 (100001 / 10000) (1 / 2) false 1 ex_dlb_root2 = some (some r) ∧
      dlb_dist_min_f (1 / 2) (100001 / 10000) false 1 false 1 = 1 / 20 ∧
      ex_dlb_root2.cell_f_max0 0 + dlb_dist_min_f (1 / 2) (100001 / 10000) false 1 false 1 ≤
        ex_dlb_root2.cell_f_min1 1 - dlb_dist_min_f (1 / 2) (100001 / 10000) false 1 false 1 ∧
      r.cell_f 1 = 21 / 80 ∧
      ¬ (ex_dlb_root2.cell_f_max0 0 + dlb_dist_min_f (1 / 2) (100001 / 10000) false 1 false 1 ≤
        r.cell_f 1) := by
  have hdec : ((set_dd_cell_sizes_dlb_root 2 2 1 false false 0 0 (fun _ => 0) 0
      1 (100001 / 10000) (1 / 2) false 1 ex_dlb_root2).bind id).map
        (fun r => decide (
          dlb_dist_min_f (1 / 2) (100001 / 10000) false 1 false 1 = 1 / 20 ∧
          ex_dlb_root2.cell_f_max0 0 +
              dlb_dist_min_f (1 / 2) (100001 / 10000) false 1 false 1 ≤
            ex_dlb_root2.cell_f_min1 1 -
              dlb_dist_min_f (1 / 2) (100001 / 10000) false 1 false 1 ∧
          r.cell_f 1 = 21 / 80 ∧
          ¬ (ex_dlb_root2.cell_f_max0 0 +
              dlb_dist_min_f (1 / 2) (100001 / 10000) false 1 false 1 ≤ r.cell_f 1)))
      = some true := by decide!
  cases hX : set_dd_cell_sizes_dlb_root 2 2 1 false false 0 0 (fun _ => 0) 0
      1 (100001 / 10000) (1 / 2) false 1 ex_dlb_root2 with
  | none => rw [hX] at hdec; simp at hdec
  | some o =>
    cases o with
    | none => rw [hX] at hdec; simp at hdec
    | some r =>
      rw [hX] at hdec
      simp only [Option.bind, id, Option.map, Option.some.injEq, decide_eq_true_eq] at hdec
      exact ⟨r, rfl, hdec⟩

/-! ## The halfway pass of `set_dd_cell_sizes_dlb` -/

/-- A loop over `start, ..., start+n-1` with an invariant that depends on the
index. -/
theorem foldl_range'_inv {σ : Type} (P : Nat → σ → Prop) (f : σ → Nat → σ) :
    ∀ (n start : Nat) (r : σ), P start r →
      (∀ i t, start ≤ i → i < start + n → P i t → P (i + 1) (f t i)) →
      P (start + n) ((List.range' start n).foldl f r) := by
  intro n
  induction n with
  | zero => intro start r h _; exact h
  | succ n ih =>
    intro start r h hstep
    rw [List.range'_succ, List.foldl_cons]
    have := ih (start + 1) (f r start) (hstep start r (le_refl _) (by omega) h)
      (fun i t h1 h2 ht => hstep i t (by omega) (by omega) ht)
    rw [show start + (n + 1) = start + 1 + n by omega]
    exact this

/-- The loop that pushes the next boundaries up leaves the boundaries up to
`i` and the old boundaries as they are. -/
theorem dlb_push_up_below (nc : Nat) (L : real) (i : Nat) (root : gmx_domdec_root) :
    (dlb_push_up nc L i root).old_cell_f = root.old_cell_f ∧
      ∀ k, k ≤ i → (dlb_push_up nc L i root).cell_f k = root.cell_f k := by
  unfold dlb_push_up
  apply foldl_inv (fun r => r.old_cell_f = root.old_cell_f ∧
    ∀ k, k ≤ i → r.cell_f k = root.cell_f k) _ _ root _ ⟨rfl, fun _ _ => rfl⟩
  intro t a ha ht
  have ha1 : i + 1 ≤ a := (List.mem_range'_1.mp ha).1
  split_ifs
  · refine ⟨ht.1, ?_⟩
    intro k hk
    dsimp only
    rw [Function.update_noteq (by omega)]
    exact ht.2 k hk
  · exact ht

/-- The loop that pushes the previous boundaries down keeps them between the
halfway points of the old cells, when the old cells are at least `L` wide. -/
theorem dlb_push_down_bounds (nc : Nat) (L : real) (i : Nat) (root : gmx_domdec_root)
    (hi : i < nc)
    (hold : ∀ j, j < nc → root.old_cell_f j + L ≤ root.old_cell_f (j + 1))
    (hlo : 1 / 2 * (root.old_cell_f i + root.old_cell_f (i - 1)) ≤ root.cell_f i)
    (hprev : ∀ k, 1 ≤ k → k < i →
      1 / 2 * (root.old_cell_f k + root.old_cell_f (k - 1)) ≤ root.cell_f k ∧
      root.cell_f k ≤ 1 / 2 * (root.old_cell_f k + root.old_cell_f (k + 1))) :
    (dlb_push_down L i root).old_cell_f = root.old_cell_f ∧
    (∀ k, i ≤ k → (dlb_push_down L i root).cell_f k = root.cell_f k) ∧
    ∀ k, 1 ≤ k → k < i →
      1 / 2 * (root.old_cell_f k + root.old_cell_f (k - 1)) ≤ (dlb_push_down L i root).cell_f k ∧
      (dlb_push_down L i root).cell_f k ≤
        1 / 2 * (root.old_cell_f k + root.old_cell_f (k + 1)) := by
  unfold dlb_push_down
  apply foldl_inv (fun r => r.old_cell_f = root.old_cell_f ∧
    (∀ k, i ≤ k → r.cell_f k = root.cell_f k) ∧
    ∀ k, 1 ≤ k → k < i →
      1 / 2 * (root.old_cell_f k + root.old_cell_f (k - 1)) ≤ r.cell_f k ∧
      r.cell_f k ≤ 1 / 2 * (root.old_cell_f k + root.old_cell_f (k + 1))) _ _ root _
    ⟨rfl, fun _ _ => rfl, hprev⟩
  intro t a ha ht
  rw [List.mem_reverse, List.mem_range'_1] at ha
  obtain ⟨ha1, ha2⟩ := ha
  obtain ⟨t1, t2, t3⟩ := ht
  split_ifs with hc
  · refine ⟨t1, ?_, ?_⟩
    · intro k hk
      dsimp only
      rw [Function.update_noteq (by omega)]
      exact t2 k hk
    · intro k hk1 hk2
      dsimp only
      by_cases e : k = a
      · subst e
        rw [Function.update_same]
        have hnext : 1 / 2 * (root.old_cell_f (k + 1) + root.old_cell_f k) ≤ t.cell_f (k + 1) := by
          rcases Nat.lt_or_ge (k + 1) i with c | c
          · have := (t3 (k + 1) (by omega) c).1
            rw [Nat.add_sub_cancel] at this
            exact this
          · have e2 : k + 1 = i := by omega
            rw [t2 (k + 1) (by omega)]
            have := hlo
            rw [← e2, Nat.add_sub_cancel] at this
            exact this
        have w1 := hold (k - 1) (by omega)
        have w2 := hold k (by omega)
        rw [show k - 1 + 1 = k by omega] at w1
        have hk := (t3 k hk1 hk2).2
        constructor
        · linarith
        · linarith
      · rw [Function.update_noteq e]
        exact t3 k hk1 hk2
  · exact ⟨t1, t2, t3⟩

/-- One boundary of the halfway pass: the boundaries up to `i` are between
the halfway points afterwards, when those before `i` were. -/
theorem dlb_halfway_cell_bounds (nc : Nat) (L : real) (old : Nat → real) (hL : 0 ≤ L)
    (hold : ∀ j, j < nc → old j + L ≤ old (j + 1)) (i : Nat) (r : gmx_domdec_root)
    (hi1 : 1 ≤ i) (hi : i < nc) (ho : r.old_cell_f = old)
    (hprev : ∀ k, 1 ≤ k → k < i →
      1 / 2 * (old k + old (k - 1)) ≤ r.cell_f k ∧ r.cell_f k ≤ 1 / 2 * (old k + old (k + 1))) :
    (dlb_halfway_cell nc L r i).old_cell_f = old ∧
    ∀ k, 1 ≤ k → k < i + 1 →
      1 / 2 * (old k + old (k - 1)) ≤ (dlb_halfway_cell nc L r i).cell_f k ∧
      (dlb_halfway_cell nc L r i).cell_f k ≤ 1 / 2 * (old k + old (k + 1)) := by
  subst ho
  -- the state after the first test
  obtain ⟨r1, hr1, h1o, h1k, h1i⟩ : ∃ r1 : gmx_domdec_root,
      r1 = (if r.cell_f i < 1 / 2 * (r.old_cell_f i + r.old_cell_f (i - 1)) then
        dlb_push_up nc L i
          { r with cell_f := (Function.update r.cell_f i
            (1 / 2 * (r.old_cell_f i + r.old_cell_f (i - 1)))) }
        else r) ∧
      r1.old_cell_f = r.old_cell_f ∧ (∀ k, k < i → r1.cell_f k = r.cell_f k) ∧
      1 / 2 * (r.old_cell_f i + r.old_cell_f (i - 1)) ≤ r1.cell_f i := by
    refine ⟨_, rfl, ?_⟩
    split_ifs with hc
    · obtain ⟨p1, p2⟩ := dlb_push_up_below nc L i
        { r with cell_f := (Function.update r.cell_f i
          (1 / 2 * (r.old_cell_f i + r.old_cell_f (i - 1)))) }
      refine ⟨p1, ?_, ?_⟩
      · intro k hk
        rw [p2 k (by omega)]
        dsimp only
        rw [Function.update_noteq (by omega)]
      · rw [p2 i (le_refl _)]
        dsimp only
        rw [Function.update_same]
    · exact ⟨rfl, fun _ _ => rfl, not_lt.mp hc⟩
  have hdef : dlb_halfway_cell nc L r i =
      if r1.cell_f i > 1 / 2 * (r1.old_cell_f i + r1.old_cell_f (i + 1)) then
        dlb_push_down L i
          { r1 with cell_f := (Function.update r1.cell_f i
            (1 / 2 * (r1.old_cell_f i + r1.old_cell_f (i + 1)))) }
      else r1 := by
    rw [hr1]
    rfl
  rw [hdef]
  have w1 := hold (i - 1) (by omega)
  have w2 := hold i hi
  rw [show i - 1 + 1 = i by omega] at w1
  split_ifs with hc
  · obtain ⟨q1, q2, q3⟩ := dlb_push_down_bounds nc L i
      { r1 with cell_f := (Function.update r1.cell_f i
        (1 / 2 * (r1.old_cell_f i + r1.old_cell_f (i + 1)))) } hi
      (by dsimp only; rw [h1o]; exact hold)
      (by
        dsimp only
        rw [Function.update_same, h1o]
        linarith)
      (by
        intro k hk1 hk2
        dsimp only
        rw [Function.update_noteq (by omega), h1o, h1k k hk2]
        exact hprev k hk1 hk2)
    dsimp only at q1 q2 q3
    rw [h1o] at q1 q2 q3 ⊢
    refine ⟨q1, ?_⟩
    intro k hk1 hk2
    rcases Nat.lt_or_ge k i with c | c
    · exact q3 k hk1 c
    · have e : k = i := by omega
      subst e
      rw [q2 k (le_refl _), Function.update_same]
      constructor
      · linarith
      · exact le_refl _
  · refine ⟨h1o, ?_⟩
    intro k hk1 hk2
    rcases Nat.lt_or_ge k i with c | c
    · rw [h1k k c]
      exact hprev k hk1 c
    · have e : k = i := by omega
      subst e
      rw [h1o] at hc
      exact ⟨h1i, not_lt.mp hc⟩

/-- C21: in non-uniform mode, if every old cell of the snapshot `old_cell_f`
is at least the fractional minimum `cellsize_limit_f >= 0` wide, then after
the halfway pass of `set_dd_cell_sizes_dlb`, with its forward and backward
propagation, every interior boundary `i` lies between the halfway points
`(old_cell_f[i-1] + old_cell_f[i])/2` and `(old_cell_f[i] + old_cell_f[i+1])/2`,
and the snapshot is unchanged. -/
theorem dlb_halfway_within_halfway (nc : Nat) (cellsize_limit_f : real)
    (root : gmx_domdec_root) (hL : 0 ≤ cellsize_limit_f)
    (hold : ∀ j, j < nc → root.old_cell_f j + cellsize_limit_f ≤ root.old_cell_f (j + 1)) :
    (dlb_halfway nc cellsize_limit_f root).old_cell_f = root.old_cell_f ∧
    ∀ i, 1 ≤ i → i < nc →
      (root.old_cell_f (i - 1) + root.old_cell_f i) / 2 ≤
        (dlb_halfway nc cellsize_limit_f root).cell_f i ∧
      (dlb_halfway nc cellsize_limit_f root).cell_f i ≤
        (root.old_cell_f i + root.old_cell_f (i + 1)) / 2 := by
  have key := foldl_range'_inv
    (fun (i : Nat) (r : gmx_domdec_root) => r.old_cell_f = root.old_cell_f ∧
      ∀ k, 1 ≤ k → k < i →
        1 / 2 * (root.old_cell_f k + root.old_cell_f (k - 1)) ≤ r.cell_f k ∧
        r.cell_f k ≤ 1 / 2 * (root.old_cell_f k + root.old_cell_f (k + 1)))
    (dlb_halfway_cell nc cellsize_limit_f) (nc - 1) 1 root
    ⟨rfl, fun k h1 h2 => by omega⟩
    (fun i t h1 h2 ht =>
      dlb_halfway_cell_bounds nc cellsize_limit_f root.old_cell_f hL hold i t h1 (by omega)
        ht.1 ht.2)
  unfold dlb_halfway
  refine ⟨key.1, ?_⟩
  intro i h1 h2
  have := key.2 i h1 (by omega)
  constructor
  · linarith [this.1]
  · linarith [this.2]

theorem ex_dlb_root_shift_old (j : Nat) (hj : j < 4) :
    ex_dlb_root_shift.old_cell_f j + 1 / 10 ≤ ex_dlb_root_shift.old_cell_f (j + 1) := by
  interval_cases j <;> simp [ex_dlb_root_shift] <;> norm_num

/-- Witness of C21: a row of four cells whose boundaries 1 and 2 lie far below
and whose boundary 3 lies far above the old ones. -/
theorem dlb_halfway_within_halfway_witness :
    ((0 : real) ≤ 1 / 10 ∧
      ∀ j, j < 4 →
        ex_dlb_root_shift.old_cell_f j + 1 / 10 ≤ ex_dlb_root_shift.old_cell_f (j + 1)) ∧
    ((dlb_halfway 4 (1 / 10) ex_dlb_root_shift).old_cell_f = ex_dlb_root_shift.old_cell_f ∧
    ∀ i, 1 ≤ i → i < 4 →
      (ex_dlb_root_shift.old_cell_f (i - 1) + ex_dlb_root_shift.old_cell_f i) / 2 ≤
        (dlb_halfway 4 (1 / 10) ex_dlb_root_shift).cell_f i ∧
      (dlb_halfway 4 (1 / 10) ex_dlb_root_shift).cell_f i ≤
        (ex_dlb_root_shift.old_cell_f i + ex_dlb_root_shift.old_cell_f (i + 1)) / 2) :=
  ⟨⟨by norm_num, ex_dlb_root_shift_old⟩,
    dlb_halfway_within_halfway 4 (1 / 10) ex_dlb_root_shift (by norm_num) ex_dlb_root_shift_old⟩

/-! ## The charge groups selected by `setup_dd_communication` -/

theorem add_if_pos_zero (r f : real) : add_if_pos 0 r (r * r * f) = pos_sq r * f := by
  unfold add_if_pos pos_sq
  split_ifs <;> simp

/-- The example evaluated: of the two charge groups of zone 1 the code sends
the group 1, with `r2 = (1/4)^2 + (1/4)^2 = 1/8`, and not the group 2, with
`r2 = (9/10)^2 + (1/2)^2 = 53/50`, which the term for the rounding of the first
dimension lifts above the squared cut-off 1. -/
theorem comm_select_zone_example :
    (comm_select ex_comm_env 0 1 1 ex_box ex_comm_zone_dd 1 3 ex_comm_buf).nsend = 1 ∧
    (comm_select ex_comm_env 0 1 1 ex_box ex_comm_zone_dd 1 3 ex_comm_buf).index 0 = 1 ∧
    (comm_dist2 ex_comm_env 0 1 (ex_comm_zone_dd.cg_cm 1)).1 = 1 / 8 ∧
    (comm_dist2 ex_comm_env 0 1 (ex_comm_zone_dd.cg_cm 2)).1 = 53 / 50 := by
  decide!

/-! ## The buffers of `dd_redistribute_cg` -/

theorem block_off_succ (move : Nat → Int) (cgindex : Nat → Nat) (nvec : Nat) (m : Int) (n : Nat) :
    block_off move cgindex nvec m (n + 1) = block_off move cgindex nvec m n +
      (if move n = m then 1 + nvec * (cgindex (n + 1) - cgindex n) else 0) := by
  unfold block_off
  rw [Finset.sum_range_succ]

theorem block_off_mono (move : Nat → Int) (cgindex : Nat → Nat) (nvec : Nat) (m : Int)
    (n n2 : Nat) (h : n ≤ n2) :
    block_off move cgindex nvec m n ≤ block_off move cgindex nvec m n2 := by
  induction n2 with
  | zero =>
    have : n = 0 := by omega
    rw [this]
  | succ k ih =>
    rcases Nat.eq_or_lt_of_le h with e | lt
    · rw [e]
    · have := ih (by omega)
      rw [block_off_succ]
      omega

theorem mul_slot_lt (vec nvec nr a : Nat) (hv : vec < nvec) (ha : a < nr) :
    vec * nr + a < nvec * nr := by
  have h1 : (vec + 1) * nr ≤ nvec * nr := Nat.mul_le_mul_right nr hv
  rw [Nat.add_mul, Nat.one_mul] at h1
  omega

/-- The entries of a vector of a charge group lie inside the block of the
group. -/
theorem block_slot_lt (move : Nat → Int) (cgindex : Nat → Nat) (nvec vec : Nat) (m : Int)
    (c a : Nat) (hm : move c = m) (hv : vec < nvec) (ha : a < cgindex (c + 1) - cgindex c) :
    block_off move cgindex nvec m c + 1 + vec * (cgindex (c + 1) - cgindex c) + a <
      block_off move cgindex nvec m (c + 1) := by
  rw [block_off_succ, if_pos hm]
  have h1 := mul_slot_lt vec nvec _ a hv ha
  rw [Nat.mul_comm nvec]
  rw [Nat.mul_comm nvec] at h1
  omega

/-- The entries of different vectors and of different charge groups of one
bucket are at different positions. -/
theorem block_slot_ne (move : Nat → Int) (cgindex : Nat → Nat) (nvec : Nat) (m : Int)
    (c c2 vec vec2 a a2 : Nat) (hm : move c = m) (hm2 : move c2 = m)
    (hv : vec < nvec) (hv2 : vec2 < nvec) (hne : vec ≠ vec2)
    (ha : a < cgindex (c + 1) - cgindex c) (ha2 : a2 < cgindex (c2 + 1) - cgindex c2) :
    block_off move cgindex nvec m c + 1 + vec * (cgindex (c + 1) - cgindex c) + a ≠
      block_off move cgindex nvec m c2 + 1 + vec2 * (cgindex (c2 + 1) - cgindex c2) + a2 := by
  have s1 := block_slot_lt move cgindex nvec vec m c a hm hv ha
  have s2 := block_slot_lt move cgindex nvec vec2 m c2 a2 hm2 hv2 ha2
  rcases Nat.lt_trichotomy c c2 with lt | e | gt
  · have := block_off_mono move cgindex nvec m (c + 1) c2 (by omega)
    omega
  · subst e
    rcases Nat.lt_or_gt_of_ne hne with l | g
    · have := mul_slot_lt vec vec2 _ a l ha
      omega
    · have := mul_slot_lt vec2 vec _ a2 g ha2
      omega
  · have := block_off_mono move cgindex nvec m (c2 + 1) c (by omega)
    omega

/-- The first entry of a block is no entry of a vector of a charge group. -/
theorem block_centre_ne (move : Nat → Int) (cgindex : Nat → Nat) (nvec : Nat) (m : Int)
    (c c2 vec2 a2 : Nat) (hm : move c = m) (hm2 : move c2 = m) (hv2 : vec2 < nvec)
    (ha2 : a2 < cgindex (c2 + 1) - cgindex c2) :
    block_off move cgindex nvec m c ≠
      block_off move cgindex nvec m c2 + 1 + vec2 * (cgindex (c2 + 1) - cgindex c2) + a2 := by
  have s2 := block_slot_lt move cgindex nvec vec2 m c2 a2 hm2 hv2 ha2
  rcases Nat.lt_trichotomy c c2 with lt | e | gt
  · have := block_off_mono move cgindex nvec m (c + 1) c2 (by omega)
    have := block_off_succ move cgindex nvec m c
    rw [if_pos hm] at this
    omega
  · subst e
    omega
  · have := block_off_mono move cgindex nvec m (c2 + 1) c (by omega)
    omega

/-- The first entries of the blocks of two charge groups of one bucket are at
different positions. -/
theorem block_centre_lt (move : Nat → Int) (cgindex : Nat → Nat) (nvec : Nat) (m : Int)
    (c c2 : Nat) (hm : move c = m) (h : c < c2) :
    block_off move cgindex nvec m c + (1 + nvec * (cgindex (c + 1) - cgindex c)) ≤
      block_off move cgindex nvec m c2 := by
  have := block_off_mono move cgindex nvec m (c + 1) c2 (by omega)
  rw [block_off_succ, if_pos hm] at this
  exact this

theorem copy_comm_at_spec (m : Int) (n : Nat) : ∀ (i0 : Nat) (s : compact_vec),
    (copy_comm_at m i0 (i0 + n) s).src = s.src ∧
    (copy_comm_at m i0 (i0 + n) s).home_pos = s.home_pos ∧
    (copy_comm_at m i0 (i0 + n) s).i0 = s.i0 ∧
    (copy_comm_at m i0 (i0 + n) s).pos_vec m = s.pos_vec m + n ∧
    (∀ m2, m2 ≠ m → (copy_comm_at m i0 (i0 + n) s).pos_vec m2 = s.pos_vec m2 ∧
      (copy_comm_at m i0 (i0 + n) s).cgcm_state m2 = s.cgcm_state m2) ∧
    (∀ a, a < n → (copy_comm_at m i0 (i0 + n) s).cgcm_state m (s.pos_vec m + a) = s.src (i0 + a)) ∧
    (∀ p, (p < s.pos_vec m ∨ s.pos_vec m + n ≤ p) →
      (copy_comm_at m i0 (i0 + n) s).cgcm_state m p = s.cgcm_state m p) := by
  induction n with
  | zero =>
    intro i0 s
    simp [copy_comm_at]
  | succ n ih =>
    intro i0 s
    have e : copy_comm_at m i0 (i0 + (n + 1)) s =
        copy_comm_at m (i0 + 1) (i0 + 1 + n)
          ⟨s.src,
            Function.update s.cgcm_state m
              (Function.update (s.cgcm_state m) (s.pos_vec m) (s.src i0)),
            Function.update s.pos_vec m (s.pos_vec m + 1), s.home_pos, s.i0⟩ := by
      unfold copy_comm_at
      rw [Nat.add_sub_cancel_left, Nat.add_sub_cancel_left, List.range'_succ, List.foldl_cons]
    rw [e]
    obtain ⟨h1, h2, h3, h4, h5, h6, h7⟩ := ih (i0 + 1)
      ⟨s.src,
        Function.update s.cgcm_state m
          (Function.update (s.cgcm_state m) (s.pos_vec m) (s.src i0)),
        Function.update s.pos_vec m (s.pos_vec m + 1), s.home_pos, s.i0⟩
    simp only [Function.update_same] at h1 h2 h3 h4 h5 h6 h7
    refine ⟨h1, h2, h3, by rw [h4]; omega, ?_, ?_, ?_⟩
    · intro m2 hm2
      obtain ⟨a1, a2⟩ := h5 m2 hm2
      rw [a1, a2, Function.update_noteq hm2, Function.update_noteq hm2]
      exact ⟨rfl, rfl⟩
    · intro a ha
      rcases Nat.eq_zero_or_pos a with e0 | pos
      · subst e0
        rw [h7 _ (Or.inl (by omega)), Nat.add_zero, Function.update_same, Nat.add_zero]
      · have := h6 (a - 1) (by omega)
        rw [show s.pos_vec m + 1 + (a - 1) = s.pos_vec m + a by omega,
          show i0 + 1 + (a - 1) = i0 + a by omega] at this
        exact this
    · intro p hp
      rw [h7 p (by omega), Function.update_noteq (by omega)]

theorem compact_home_at_frame (i0 i1 : Nat) (s : compact_vec) :
    (compact_home_at i0 i1 s).cgcm_state = s.cgcm_state ∧
    (compact_home_at i0 i1 s).pos_vec = s.pos_vec := by
  unfold compact_home_at
  generalize List.range' i0 (i1 - i0) = l
  induction l generalizing s with
  | nil => exact ⟨rfl, rfl⟩
  | cons x l ihl =>
    rw [List.foldl_cons]
    exact ihl _

/-- The buffers after `compact_and_copy_vec_at` for the first `n` charge
groups: the atoms of every charge group that moves are in its block at the
offset of the vector `vec`, nothing else was written to the buffers. -/
theorem compact_and_copy_vec_at_buffer (ncg : Nat) (move : Nat → Int) (cgindex : Nat → Nat)
    (nvec vec : Nat) (src : Nat → rvec) (cgcm_state : Int → Nat → rvec) (b : Bool)
    (h0 : cgindex 0 = 0) (hmono : ∀ c, c < ncg → cgindex c ≤ cgindex (c + 1))
    (hv : vec < nvec) :
    ∀ n, n ≤ ncg →
      ((List.range n).foldl (compact_and_copy_vec_at_icg move cgindex nvec vec b)
        ⟨src, cgcm_state, fun _ => 0, 0, 0⟩).i0 = cgindex n ∧
      (b = true → ((List.range n).foldl (compact_and_copy_vec_at_icg move cgindex nvec vec b)
        ⟨src, cgcm_state, fun _ => 0, 0, 0⟩).home_pos ≤ cgindex n) ∧
      (∀ j, cgindex n ≤ j →
        ((List.range n).foldl (compact_and_copy_vec_at_icg move cgindex nvec vec b)
          ⟨src, cgcm_state, fun _ => 0, 0, 0⟩).src j = src j) ∧
      (∀ m, m ≠ -1 →
        ((List.range n).foldl (compact_and_copy_vec_at_icg move cgindex nvec vec b)
          ⟨src, cgcm_state, fun _ => 0, 0, 0⟩).pos_vec m = block_off move cgindex nvec m n) ∧
      (∀ c, c < n → move c ≠ -1 → ∀ a, a < cgindex (c + 1) - cgindex c →
        ((List.range n).foldl (compact_and_copy_vec_at_icg move cgindex nvec vec b)
          ⟨src, cgcm_state, fun _ => 0, 0, 0⟩).cgcm_state (move c)
            (block_off move cgindex nvec (move c) c + 1 + vec * (cgindex (c + 1) - cgindex c) + a)
          = src (cgindex c + a)) ∧
      (∀ m p, (∀ c, c < n → move c = m → m ≠ -1 → ∀ a, a < cgindex (c + 1) - cgindex c →
          p ≠ block_off move cgindex nvec m c + 1 + vec * (cgindex (c + 1) - cgindex c) + a) →
        ((List.range n).foldl (compact_and_copy_vec_at_icg move cgindex nvec vec b)
          ⟨src, cgcm_state, fun _ => 0, 0, 0⟩).cgcm_state m p = cgcm_state m p) := by
  intro n
  induction n with
  | zero =>
    intro _
    simp [h0, block_off]
  | succ n ih =>
    intro hn
    obtain ⟨hi0, hhp, hhigh, hpos, hbuf, hframe⟩ := ih (by omega)
    have hm := hmono n (by omega)
    rw [List.range_succ, List.foldl_append, List.foldl_cons, List.foldl_nil]
    generalize (List.range n).foldl (compact_and_copy_vec_at_icg move cgindex nvec vec b)
      ⟨src, cgcm_state, fun _ => 0, 0, 0⟩ = s at hi0 hhp hhigh hpos hbuf hframe
    have hsz : cgindex (n + 1) = s.i0 + (cgindex (n + 1) - cgindex n) := by omega
    by_cases h : move n = -1
    · -- the charge group stays
      have hbo : ∀ m, m ≠ -1 → block_off move cgindex nvec m (n + 1) =
          block_off move cgindex nvec m n := by
        intro m hm1
        rw [block_off_succ, if_neg (by rw [h]; exact fun e => hm1 e.symm), Nat.add_zero]
      cases b with
      | true =>
        have e : compact_and_copy_vec_at_icg move cgindex nvec vec true s n =
            ⟨(compact_home_at s.i0 (cgindex (n + 1)) s).src,
              (compact_home_at s.i0 (cgindex (n + 1)) s).cgcm_state,
              (compact_home_at s.i0 (cgindex (n + 1)) s).pos_vec,
              (compact_home_at s.i0 (cgindex (n + 1)) s).home_pos, cgindex (n + 1)⟩ := by
          simp [compact_and_copy_vec_at_icg, h]
        have ecs := compact_home_at_frame s.i0 (cgindex (n + 1)) s
        rw [e]
        dsimp only
        rw [ecs.1, ecs.2]
        obtain ⟨c1, _, _, c4⟩ := compact_home_at_spec (cgindex (n + 1) - cgindex n) s.i0 s
          (by have := hhp rfl; omega)
        rw [← hsz] at c1 c4
        refine ⟨rfl, fun _ => by rw [c1]; have := hhp rfl; omega, ?_, ?_, ?_, ?_⟩
        · intro j hj
          rw [c4 j (Or.inr (by have := hhp rfl; omega))]
          exact hhigh j (by omega)
        · intro m hm1
          rw [hbo m hm1]
          exact hpos m hm1
        · intro c hc hmc a ha
          rcases Nat.eq_or_lt_of_le (Nat.le_of_lt_succ hc) with e1 | lt
          · rw [e1] at hmc
            exact absurd h hmc
          · exact hbuf c lt hmc a ha
        · intro m p hp
          exact hframe m p (fun c hc => hp c (by omega))
      | false =>
        have e : compact_and_copy_vec_at_icg move cgindex nvec vec false s n =
            ⟨s.src, s.cgcm_state, s.pos_vec, s.home_pos + (cgindex (n + 1) - s.i0),
              cgindex (n + 1)⟩ := by
          simp [compact_and_copy_vec_at_icg, h]
        rw [e]
        dsimp only
        refine ⟨rfl, fun hf => Bool.noConfusion hf, ?_, ?_, ?_, ?_⟩
        · intro j hj
          exact hhigh j (by omega)
        · intro m hm1
          rw [hbo m hm1]
          exact hpos m hm1
        · intro c hc hmc a ha
          rcases Nat.eq_or_lt_of_le (Nat.le_of_lt_succ hc) with e1 | lt
          · rw [e1] at hmc
            exact absurd h hmc
          · exact hbuf c lt hmc a ha
        · intro m p hp
          exact hframe m p (fun c hc => hp c (by omega))
    · -- the charge group moves to the bucket `move n`
      obtain ⟨S2, hS2⟩ : ∃ S2 : compact_vec, S2 = ⟨s.src, s.cgcm_state,
          Function.update s.pos_vec (move n)
            (s.pos_vec (move n) + (1 + vec * (cgindex (n + 1) - cgindex n))),
          s.home_pos, s.i0⟩ := ⟨_, rfl⟩
      obtain ⟨f1, f2, f3, f4, f5, f6, f7⟩ :=
        copy_comm_at_spec (move n) (cgindex (n + 1) - cgindex n) s.i0 S2
      rw [← hsz] at f1 f2 f3 f4 f5 f6 f7
      have q1 : S2.src = s.src := by rw [hS2]
      have q2 : S2.cgcm_state = s.cgcm_state := by rw [hS2]
      have q3 : S2.pos_vec (move n) =
          block_off move cgindex nvec (move n) n + (1 + vec * (cgindex (n + 1) - cgindex n)) := by
        rw [hS2]
        dsimp only
        rw [Function.update_same, hpos _ h]
      have q4 : ∀ m2, m2 ≠ move n → S2.pos_vec m2 = s.pos_vec m2 := by
        intro m2 hm2
        rw [hS2]
        dsimp only
        rw [Function.update_noteq hm2]
      have q5 : S2.home_pos = s.home_pos := by rw [hS2]
      have e : compact_and_copy_vec_at_icg move cgindex nvec vec b s n =
          ⟨(copy_comm_at (move n) s.i0 (cgindex (n + 1)) S2).src,
            (copy_comm_at (move n) s.i0 (cgindex (n + 1)) S2).cgcm_state,
            Function.update (copy_comm_at (move n) s.i0 (cgindex (n + 1)) S2).pos_vec (move n)
              ((copy_comm_at (move n) s.i0 (cgindex (n + 1)) S2).pos_vec (move n) +
                (nvec - vec - 1) * (cgindex (n + 1) - cgindex n)),
            (if b = true then (copy_comm_at (move n) s.i0 (cgindex (n + 1)) S2).home_pos
              else (copy_comm_at (move n) s.i0 (cgindex (n + 1)) S2).home_pos +
                (cgindex (n + 1) - cgindex n)),
            cgindex (n + 1)⟩ := by
        rw [hS2, ← hi0]
        cases b <;> simp [compact_and_copy_vec_at_icg, h]
      rw [e]
      dsimp only
      generalize copy_comm_at (move n) s.i0 (cgindex (n + 1)) S2 = r at f1 f2 f3 f4 f5 f6 f7
      have hlen : 1 + vec * (cgindex (n + 1) - cgindex n) + (cgindex (n + 1) - cgindex n) +
          (nvec - vec - 1) * (cgindex (n + 1) - cgindex n) =
          1 + nvec * (cgindex (n + 1) - cgindex n) := by
        obtain ⟨t, ht⟩ : ∃ t, nvec = vec + 1 + t := ⟨nvec - vec - 1, by omega⟩
        rw [ht, show vec + 1 + t - vec - 1 = t by omega]
        ring
      refine ⟨rfl, ?_, ?_, ?_, ?_, ?_⟩
      · intro hb
        rw [if_pos hb, f2, q5]
        have := hhp hb
        omega
      · intro j hj
        rw [f1, q1]
        exact hhigh j (by omega)
      · intro m hm1
        rw [block_off_succ]
        by_cases hmm : move n = m
        · rw [if_pos hmm, ← hmm, Function.update_same, f4, q3]
          omega
        · rw [if_neg hmm, Function.update_noteq (fun e => hmm e.symm),
            (f5 m (fun e => hmm e.symm)).1, q4 m (fun e => hmm e.symm), Nat.add_zero]
          exact hpos m hm1
      · intro c hc hmc a ha
        rcases Nat.eq_or_lt_of_le (Nat.le_of_lt_succ hc) with e1 | lt
        · subst e1
          have := f6 a ha
          rw [q3, q1, hi0, hhigh _ (by omega),
            show ∀ x y z : Nat, x + (1 + y) + z = x + 1 + y + z from fun x y z => by omega]
            at this
          exact this
        · by_cases hmm : move c = move n
          · have sl := block_slot_lt move cgindex nvec vec (move c) c a rfl hv ha
            have mo := block_off_mono move cgindex nvec (move c) (c + 1) n (by omega)
            rw [hmm] at sl mo ⊢
            rw [f7 _ (Or.inl (by rw [q3]; omega)), q2, ← hmm]
            exact hbuf c lt hmc a ha
          · rw [(f5 (move c) hmm).2, q2]
            exact hbuf c lt hmc a ha
      · intro m p hp
        have hold := hframe m p (fun c hc => hp c (by omega))
        by_cases hmm : move n = m
        · subst hmm
          have hn1 := hp n (by omega) rfl h
          rw [f7 p ?_, q2]
          · exact hold
          · rw [q3]
            by_contra hc
            push_neg at hc
            exact hn1 (p - (block_off move cgindex nvec (move n) n +
              (1 + vec * (cgindex (n + 1) - cgindex n)))) (by omega) (by omega)
        · rw [(f5 m (fun e => hmm e.symm)).2, q2]
          exact hold

/-- The buffers after the loop of `compact_and_copy_vec_cg` for the first `n`
charge groups: the centre of every charge group that moves is the first entry
of its block, nothing else was written to the buffers. -/
theorem compact_and_copy_vec_cg_buffer (move : Nat → Int) (cgindex : Nat → Nat)
    (nvec : Nat) (src : Nat → rvec) (cgcm_state : Int → Nat → rvec) (b : Bool)
    (h0 : cgindex 0 = 0) :
    ∀ n,
      ((List.range n).foldl (compact_and_copy_vec_cg_icg move cgindex nvec b)
        ⟨src, cgcm_state, fun _ => 0, 0, 0⟩).i0 = cgindex n ∧
      ((List.range n).foldl (compact_and_copy_vec_cg_icg move cgindex nvec b)
        ⟨src, cgcm_state, fun _ => 0, 0, 0⟩).home_pos ≤ n ∧
      (∀ j, n ≤ j →
        ((List.range n).foldl (compact_and_copy_vec_cg_icg move cgindex nvec b)
          ⟨src, cgcm_state, fun _ => 0, 0, 0⟩).src j = src j) ∧
      (∀ m, m ≠ -1 →
        ((List.range n).foldl (compact_and_copy_vec_cg_icg move cgindex nvec b)
          ⟨src, cgcm_state, fun _ => 0, 0, 0⟩).pos_vec m = block_off move cgindex nvec m n) ∧
      (∀ c, c < n → move c ≠ -1 →
        ((List.range n).foldl (compact_and_copy_vec_cg_icg move cgindex nvec b)
          ⟨src, cgcm_state, fun _ => 0, 0, 0⟩).cgcm_state (move c)
            (block_off move cgindex nvec (move c) c) = src c) ∧
      (∀ m p, (∀ c, c < n → move c = m → m ≠ -1 → p ≠ block_off move cgindex nvec m c) →
        ((List.range n).foldl (compact_and_copy_vec_cg_icg move cgindex nvec b)
          ⟨src, cgcm_state, fun _ => 0, 0, 0⟩).cgcm_state m p = cgcm_state m p) := by
  intro n
  induction n with
  | zero => simp [h0, block_off]
  | succ n ih =>
    obtain ⟨hi0, hhp, hhigh, hpos, hbuf, hframe⟩ := ih
    rw [List.range_succ, List.foldl_append, List.foldl_cons, List.foldl_nil]
    generalize (List.range n).foldl (compact_and_copy_vec_cg_icg move cgindex nvec b)
      ⟨src, cgcm_state, fun _ => 0, 0, 0⟩ = s at hi0 hhp hhigh hpos hbuf hframe
    by_cases h : move n = -1
    · have hbo : ∀ m, m ≠ -1 → block_off move cgindex nvec m (n + 1) =
          block_off move cgindex nvec m n := by
        intro m hm1
        rw [block_off_succ, if_neg (by rw [h]; exact fun e => hm1 e.symm), Nat.add_zero]
      have e : compact_and_copy_vec_cg_icg move cgindex nvec b s n =
          ⟨(if b = true then Function.update s.src s.home_pos (s.src n) else s.src),
            s.cgcm_state, s.pos_vec, (if b = true then s.home_pos + 1 else s.home_pos),
            cgindex (n + 1)⟩ := by
        cases b <;> simp [compact_and_copy_vec_cg_icg, h]
      rw [e]
      dsimp only
      refine ⟨rfl, by split_ifs <;> omega, ?_, ?_, ?_, ?_⟩
      · intro j hj
        split_ifs
        · rw [Function.update_noteq (by omega)]
          exact hhigh j (by omega)
        · exact hhigh j (by omega)
      · intro m hm1
        rw [hbo m hm1]
        exact hpos m hm1
      · intro c hc hmc
        rcases Nat.eq_or_lt_of_le (Nat.le_of_lt_succ hc) with e1 | lt
        · rw [e1] at hmc
          exact absurd h hmc
        · exact hbuf c lt hmc
      · intro m p hp
        exact hframe m p (fun c hc => hp c (by omega))
    · have e : compact_and_copy_vec_cg_icg move cgindex nvec b s n =
          ⟨s.src,
            Function.update s.cgcm_state (move n)
              (Function.update (s.cgcm_state (move n)) (s.pos_vec (move n)) (s.src n)),
            Function.update s.pos_vec (move n)
              (s.pos_vec (move n) + (1 + (cgindex (n + 1) - cgindex n) * nvec)),
            s.home_pos, cgindex (n + 1)⟩ := by
        rw [← hi0]
        simp [compact_and_copy_vec_cg_icg, h]
      rw [e]
      dsimp only
      refine ⟨rfl, by omega, fun j hj => hhigh j (by omega), ?_, ?_, ?_⟩
      · intro m hm1
        rw [block_off_succ]
        by_cases hmm : move n = m
        · rw [if_pos hmm, ← hmm, Function.update_same, hpos _ h, Nat.mul_comm]
        · rw [if_neg hmm, Function.update_noteq (fun e => hmm e.symm), Nat.add_zero]
          exact hpos m hm1
      · intro c hc hmc
        rcases Nat.eq_or_lt_of_le (Nat.le_of_lt_succ hc) with e1 | lt
        · subst e1
          rw [Function.update_same, hpos _ h, Function.update_same]
          exact hhigh c (le_refl c)
        · by_cases hmm : move c = move n
          · have mo := block_centre_lt move cgindex nvec (move c) c n rfl lt
            rw [hmm] at mo ⊢
            rw [Function.update_same, hpos _ h, Function.update_noteq (by omega), ← hmm]
            exact hbuf c lt hmc
          · rw [Function.update_noteq hmm]
            exact hbuf c lt hmc
      · intro m p hp
        have hold := hframe m p (fun c hc => hp c (by omega))
        by_cases hmm : move n = m
        · subst hmm
          have hn1 := hp n (by omega) rfl h
          rw [Function.update_same, hpos _ h, Function.update_noteq hn1]
          exact hold
        · rw [Function.update_noteq (fun e => hmm e.symm)]
          exact hold

theorem compact_and_copy_vec_at_if_buffer (flag : Bool) (ncg : Nat) (move : Nat → Int)
    (cgindex : Nat → Nat) (nvec vec : Nat) (src : Nat → rvec) (cgcm_state : Int → Nat → rvec)
    (b : Bool) (h0 : cgindex 0 = 0) (hmono : ∀ c, c < ncg → cgindex c ≤ cgindex (c + 1))
    (hv : flag = true → vec < nvec) :
    (flag = true → ∀ c, c < ncg → move c ≠ -1 → ∀ a, a < cgindex (c + 1) - cgindex c →
      (compact_and_copy_vec_at_if flag ncg move cgindex nvec vec src cgcm_state b).cgcm_state
          (move c)
          (block_off move cgindex nvec (move c) c + 1 + vec * (cgindex (c + 1) - cgindex c) + a)
        = src (cgindex c + a)) ∧
    (∀ m p, (flag = true → ∀ c, c < ncg → move c = m → m ≠ -1 →
        ∀ a, a < cgindex (c + 1) - cgindex c →
          p ≠ block_off move cgindex nvec m c + 1 + vec * (cgindex (c + 1) - cgindex c) + a) →
      (compact_and_copy_vec_at_if flag ncg move cgindex nvec vec src cgcm_state b).cgcm_state m p
        = cgcm_state m p) := by
  cases flag with
  | false =>
    refine ⟨fun hf => Bool.noConfusion hf, fun m p _ => rfl⟩
  | true =>
    obtain ⟨_, _, _, _, h5, h6⟩ := compact_and_copy_vec_at_buffer ncg move cgindex nvec vec src
      cgcm_state b h0 hmono (hv rfl) ncg (le_refl ncg)
    exact ⟨fun _ => h5, fun m p hp => h6 m p (hp rfl)⟩

theorem dd_redistribute_cg_pack_cgcm_state (ncg_home : Nat) (move : Nat → Int)
    (cgindex : Nat → Nat) (bV bSDX bCGP b : Bool) (vecs : redist_vecs)
    (cgcm_state : Int → Nat → rvec) :
    (dd_redistribute_cg_pack ncg_home move cgindex bV bSDX bCGP b vecs cgcm_state).cgcm_state =
      (compact_and_copy_vec_at_if bCGP ncg_home move cgindex
        (dd_redistribute_cg_nvec bV bSDX bCGP)
        (if bSDX = true then (if bV = true then 2 else 1) + 1 else (if bV = true then 2 else 1))
        vecs.cg_p
        (compact_and_copy_vec_at_if bSDX ncg_home move cgindex
          (dd_redistribute_cg_nvec bV bSDX bCGP) (if bV = true then 2 else 1) vecs.sd_X
          (compact_and_copy_vec_at_if bV ncg_home move cgindex
            (dd_redistribute_cg_nvec bV bSDX bCGP) 1 vecs.v
            (compact_and_copy_vec_at_if true ncg_home move cgindex
              (dd_redistribute_cg_nvec bV bSDX bCGP) 0 vecs.x
              ((List.range ncg_home).foldl
                (compact_and_copy_vec_cg_icg move cgindex (dd_redistribute_cg_nvec bV bSDX bCGP) b)
                ⟨vecs.cg_cm, cgcm_state, fun _ => 0, 0, 0⟩).cgcm_state
              b).cgcm_state b).cgcm_state b).cgcm_state b).cgcm_state := by
  cases b <;> rfl

/-- The buffers after lines 2663-2682 of `dd_redistribute_cg`: the block of
every charge group that moves holds its centre, then its positions, then the
vectors `v`, `sd_X` and `cg_p` that are present. -/
theorem dd_redistribute_cg_pack_buffer (ncg_home : Nat) (move : Nat → Int)
    (cgindex : Nat → Nat) (bV bSDX bCGP b : Bool) (vecs : redist_vecs)
    (cgcm_state : Int → Nat → rvec)
    (h0 : cgindex 0 = 0) (hmono : ∀ c, c < ncg_home → cgindex c ≤ cgindex (c + 1)) :
    ∀ c, c < ncg_home → move c ≠ -1 →
      (dd_redistribute_cg_pack ncg_home move cgindex bV bSDX bCGP b vecs cgcm_state).cgcm_state
        (move c) (block_off move cgindex (dd_redistribute_cg_nvec bV bSDX bCGP) (move c) c)
        = vecs.cg_cm c ∧
      ∀ a, a < cgindex (c + 1) - cgindex c →
        (dd_redistribute_cg_pack ncg_home move cgindex bV bSDX bCGP b vecs cgcm_state).cgcm_state
          (move c) (block_off move cgindex (dd_redistribute_cg_nvec bV bSDX bCGP) (move c) c
            + 1 + 0 * (cgindex (c + 1) - cgindex c) + a) = vecs.x (cgindex c + a) ∧
        (bV = true →
          (dd_redistribute_cg_pack ncg_home move cgindex bV bSDX bCGP b vecs
            cgcm_state).cgcm_state
            (move c) (block_off move cgindex (dd_redistribute_cg_nvec bV bSDX bCGP) (move c) c
              + 1 + 1 * (cgindex (c + 1) - cgindex c) + a) = vecs.v (cgindex c + a)) ∧
        (bSDX = true →
          (dd_redistribute_cg_pack ncg_home move cgindex bV bSDX bCGP b vecs
            cgcm_state).cgcm_state
            (move c) (block_off move cgindex (dd_redistribute_cg_nvec bV bSDX bCGP) (move c) c
              + 1 + (if bV = true then 2 else 1) * (cgindex (c + 1) - cgindex c) + a)
            = vecs.sd_X (cgindex c + a)) ∧
        (bCGP = true →
          (dd_redistribute_cg_pack ncg_home move cgindex bV bSDX bCGP b vecs
            cgcm_state).cgcm_state
            (move c) (block_off move cgindex (dd_redistribute_cg_nvec bV bSDX bCGP) (move c) c
              + 1 + (if bSDX = true then (if bV = true then 2 else 1) + 1
                else (if bV = true then 2 else 1)) * (cgindex (c + 1) - cgindex c) + a)
            = vecs.cg_p (cgindex c + a)) := by
  intro c hc hmc
  rw [dd_redistribute_cg_pack_cgcm_state]
  have hN0 : 0 < dd_redistribute_cg_nvec bV bSDX bCGP := by
    cases bV <;> cases bSDX <;> cases bCGP <;> decide
  have hN1 : bV = true → 1 < dd_redistribute_cg_nvec bV bSDX bCGP := by
    cases bV <;> cases bSDX <;> cases bCGP <;> decide
  have hN2 : bSDX = true →
      (if bV = true then 2 else 1) < dd_redistribute_cg_nvec bV bSDX bCGP := by
    cases bV <;> cases bSDX <;> cases bCGP <;> decide
  have hN3 : bCGP = true →
      (if bSDX = true then (if bV = true then 2 else 1) + 1 else (if bV = true then 2 else 1))
        < dd_redistribute_cg_nvec bV bSDX bCGP := by
    cases bV <;> cases bSDX <;> cases bCGP <;> decide
  generalize dd_redistribute_cg_nvec bV bSDX bCGP = N at hN0 hN1 hN2 hN3
  obtain ⟨_, _, _, _, g5, g6⟩ :=
    compact_and_copy_vec_cg_buffer move cgindex N vecs.cg_cm cgcm_state b h0 ncg_home
  generalize ((List.range ncg_home).foldl (compact_and_copy_vec_cg_icg move cgindex N b)
    ⟨vecs.cg_cm, cgcm_state, fun _ => 0, 0, 0⟩).cgcm_state = CS1 at g5 g6
  obtain ⟨x5, x6⟩ := compact_and_copy_vec_at_if_buffer true ncg_home move cgindex N 0 vecs.x
    CS1 b h0 hmono (fun _ => hN0)
  generalize (compact_and_copy_vec_at_if true ncg_home move cgindex N 0 vecs.x CS1
    b).cgcm_state = CS2 at x5 x6
  obtain ⟨v5, v6⟩ := compact_and_copy_vec_at_if_buffer bV ncg_home move cgindex N 1 vecs.v
    CS2 b h0 hmono hN1
  generalize (compact_and_copy_vec_at_if bV ncg_home move cgindex N 1 vecs.v CS2
    b).cgcm_state = CS3 at v5 v6
  obtain ⟨s5, s6⟩ := compact_and_copy_vec_at_if_buffer bSDX ncg_home move cgindex N
    (if bV = true then 2 else 1) vecs.sd_X CS3 b h0 hmono hN2
  generalize (compact_and_copy_vec_at_if bSDX ncg_home move cgindex N
    (if bV = true then 2 else 1) vecs.sd_X CS3 b).cgcm_state = CS4 at s5 s6
  obtain ⟨p5, p6⟩ := compact_and_copy_vec_at_if_buffer bCGP ncg_home move cgindex N
    (if bSDX = true then (if bV = true then 2 else 1) + 1 else (if bV = true then 2 else 1))
    vecs.cg_p CS4 b h0 hmono hN3
  generalize (compact_and_copy_vec_at_if bCGP ncg_home move cgindex N
    (if bSDX = true then (if bV = true then 2 else 1) + 1 else (if bV = true then 2 else 1))
    vecs.cg_p CS4 b).cgcm_state = CS5 at p5 p6
  have hvsd : 1 ≤ (if bV = true then 2 else 1) := by split_ifs <;> omega
  have hvsd2 : bV = true → (if bV = true then 2 else 1) = 2 := fun h => by rw [if_pos h]
  generalize (if bV = true then 2 else 1) = vsd at *
  have hvcgp : vsd ≤ (if bSDX = true then vsd + 1 else vsd) := by split_ifs <;> omega
  have hvcgp2 : bSDX = true → (if bSDX = true then vsd + 1 else vsd) = vsd + 1 :=
    fun h => by rw [if_pos h]
  generalize (if bSDX = true then vsd + 1 else vsd) = vcgp at *
  refine ⟨?_, ?_⟩
  · rw [p6, s6, v6, x6]
    · exact g5 c hc hmc
    · intro _ c2 _ hm2 _ a2 ha2
      exact block_centre_ne move cgindex N (move c) c c2 0 a2 rfl hm2 hN0 ha2
    · intro hf c2 _ hm2 _ a2 ha2
      exact block_centre_ne move cgindex N (move c) c c2 1 a2 rfl hm2 (hN1 hf) ha2
    · intro hf c2 _ hm2 _ a2 ha2
      exact block_centre_ne move cgindex N (move c) c c2 vsd a2 rfl hm2 (hN2 hf) ha2
    · intro hf c2 _ hm2 _ a2 ha2
      exact block_centre_ne move cgindex N (move c) c c2 vcgp a2 rfl hm2 (hN3 hf) ha2
  · intro a ha
    refine ⟨?_, ?_, ?_, ?_⟩
    · rw [p6, s6, v6]
      · exact x5 rfl c hc hmc a ha
      · intro hf c2 _ hm2 _ a2 ha2
        exact block_slot_ne move cgindex N (move c) c c2 0 1 a a2 rfl hm2 hN0 (hN1 hf)
          (by omega) ha ha2
      · intro hf c2 _ hm2 _ a2 ha2
        exact block_slot_ne move cgindex N (move c) c c2 0 vsd a a2 rfl hm2 hN0 (hN2 hf)
          (by omega) ha ha2
      · intro hf c2 _ hm2 _ a2 ha2
        exact block_slot_ne move cgindex N (move c) c c2 0 vcgp a a2 rfl hm2 hN0 (hN3 hf)
          (by omega) ha ha2
    · intro hV
      rw [p6, s6]
      · exact v5 hV c hc hmc a ha
      · intro hf c2 _ hm2 _ a2 ha2
        exact block_slot_ne move cgindex N (move c) c c2 1 vsd a a2 rfl hm2 (hN1 hV) (hN2 hf)
          (by have := hvsd2 hV; omega) ha ha2
      · intro hf c2 _ hm2 _ a2 ha2
        exact block_slot_ne move cgindex N (move c) c c2 1 vcgp a a2 rfl hm2 (hN1 hV) (hN3 hf)
          (by have := hvsd2 hV; omega) ha ha2
    · intro hS
      rw [p6]
      · exact s5 hS c hc hmc a ha
      · intro hf c2 _ hm2 _ a2 ha2
        exact block_slot_ne move cgindex N (move c) c c2 vsd vcgp a a2 rfl hm2 (hN2 hS) (hN3 hf)
          (by have := hvcgp2 hS; omega) ha ha2
    · intro hP
      exact p5 hP c hc hmc a ha

/-! ### The loop over the received charge groups -/

theorem copy_from_buf_spec (buf : Nat → rvec) (bp : Nat) (dst : Nat → rvec) (off : Nat) :
    ∀ n j, copy_from_buf buf n bp dst off j =
      if off ≤ j ∧ j < off + n then buf (bp + (j - off)) else dst j := by
  intro n
  induction n with
  | zero =>
    intro j
    rw [if_neg (by omega)]
    rfl
  | succ n ih =>
    intro j
    have e : copy_from_buf buf (n + 1) bp dst off =
        Function.update (copy_from_buf buf n bp dst off) (off + n) (buf (bp + n)) := by
      unfold copy_from_buf
      rw [List.range_succ, List.foldl_append, List.foldl_cons, List.foldl_nil]
    rw [e]
    by_cases hj : j = off + n
    · rw [hj, Function.update_same, if_pos (by omega), Nat.add_sub_cancel_left]
    · rw [Function.update_noteq hj, ih j]
      by_cases h2 : off ≤ j ∧ j < off + n
      · rw [if_pos h2, if_pos (by omega)]
      · rw [if_neg h2, if_neg (by omega)]

theorem nrcg_or_two_pow (x k : Nat) (hk : 16 ≤ k) :
    (x ||| 2 ^ k) &&& DD_FLAG_NRCG = x &&& DD_FLAG_NRCG := by
  have hmask : DD_FLAG_NRCG = 2 ^ 16 - 1 := by norm_num [DD_FLAG_NRCG]
  apply Nat.eq_of_testBit_eq
  intro i
  rw [hmask, Nat.testBit_and, Nat.testBit_and, Nat.testBit_two_pow_sub_one, Nat.testBit_or,
    Nat.testBit_two_pow]
  by_cases hi : i < 16
  · have : ¬ (k = i) := by omega
    simp [hi, this]
  · simp [hi]

theorem nrcg_ldiff_flags (x d2 : Nat) :
    Nat.ldiff x (DD_FLAG_FW d2 ||| DD_FLAG_BW d2) &&& DD_FLAG_NRCG = x &&& DD_FLAG_NRCG := by
  have hmask : DD_FLAG_NRCG = 2 ^ 16 - 1 := by norm_num [DD_FLAG_NRCG]
  apply Nat.eq_of_testBit_eq
  intro i
  rw [hmask, Nat.testBit_and, Nat.testBit_and, Nat.testBit_two_pow_sub_one, Nat.testBit_ldiff,
    Nat.testBit_or, DD_FLAG_FW, DD_FLAG_BW, Nat.one_shiftLeft, Nat.one_shiftLeft,
    Nat.testBit_two_pow, Nat.testBit_two_pow]
  by_cases hi : i < 16
  · have h1 : ¬ (16 + d2 * 2 = i) := by omega
    have h2 : ¬ (16 + d2 * 2 + 1 = i) := by omega
    simp [hi, h1, h2]
  · simp [hi]

/-- The loop over `d2` leaves the size of the charge group in the flag word
as it is. -/
theorem redist_recv_dir_nrcg (e : redist_recv_env) (centre : rvec) (s : move_code) (d2 : Nat) :
    (redist_recv_dir e centre s d2).flag &&& DD_FLAG_NRCG = s.flag &&& DD_FLAG_NRCG := by
  have fw : ∀ x, (x ||| DD_FLAG_FW d2) &&& DD_FLAG_NRCG = x &&& DD_FLAG_NRCG := by
    intro x
    rw [DD_FLAG_FW, Nat.one_shiftLeft]
    exact nrcg_or_two_pow x _ (by omega)
  have bw : ∀ x, (x ||| DD_FLAG_BW d2) &&& DD_FLAG_NRCG = x &&& DD_FLAG_NRCG := by
    intro x
    rw [DD_FLAG_BW, Nat.one_shiftLeft]
    exact nrcg_or_two_pow x _ (by omega)
  unfold redist_recv_dir
  by_cases h : s.mc = -1
  · rw [if_pos h]
    dsimp only
    split_ifs
    · rw [fw, nrcg_ldiff_flags]
    · rw [bw, nrcg_ldiff_flags]
    · rw [nrcg_ldiff_flags]
    · rfl
  · rw [if_neg h]

theorem redist_recv_code_nrcg (e : redist_recv_env) (d flag : Nat) (centre : rvec) :
    (redist_recv_code e d flag centre).flag &&& DD_FLAG_NRCG = flag &&& DD_FLAG_NRCG := by
  unfold redist_recv_code
  generalize List.range' (d + 1) (e.ndim - (d + 1)) = l
  have : ∀ (l : List Nat) (s : move_code),
      (l.foldl (redist_recv_dir e centre) s).flag &&& DD_FLAG_NRCG = s.flag &&& DD_FLAG_NRCG := by
    intro l
    induction l with
    | nil => intro s; rfl
    | cons x l ih =>
      intro s
      rw [List.foldl_cons, ih, redist_recv_dir_nrcg]
  exact this l ⟨flag, -1⟩

/-- What one pass of the loop over the received charge groups does to the
home arrays, the counts and the position in the receive buffer. -/
theorem redist_recv_cg_spec (e : redist_recv_env) (d : Nat) (buf_vr : Nat → rvec)
    (st : redist_recv) (cg : Nat) :
    (∀ j, j ≠ cg * DD_CGIBS + 1 →
      (redist_recv_cg e d (dd_redistribute_cg_nvec e.bV e.bSDX e.bCGP) buf_vr st cg).buf_int j
        = st.buf_int j) ∧
    (redist_recv_cg e d (dd_redistribute_cg_nvec e.bV e.bSDX e.bCGP) buf_vr st cg).buf_pos =
      st.buf_pos + (1 + dd_redistribute_cg_nvec e.bV e.bSDX e.bCGP *
        (st.buf_int (cg * DD_CGIBS + 1) &&& DD_FLAG_NRCG)) ∧
    ((redist_recv_code e d (st.buf_int (cg * DD_CGIBS + 1)) (buf_vr st.buf_pos)).mc = -1 →
      (redist_recv_cg e d (dd_redistribute_cg_nvec e.bV e.bSDX e.bCGP) buf_vr st cg).home_pos_cg
        = st.home_pos_cg + 1 ∧
      (redist_recv_cg e d (dd_redistribute_cg_nvec e.bV e.bSDX e.bCGP) buf_vr st cg).home_pos_at
        = st.home_pos_at + (st.buf_int (cg * DD_CGIBS + 1) &&& DD_FLAG_NRCG) ∧
      (redist_recv_cg e d (dd_redistribute_cg_nvec e.bV e.bSDX e.bCGP) buf_vr st cg).vecs.cg_cm
        = Function.update st.vecs.cg_cm st.home_pos_cg (buf_vr st.buf_pos) ∧
      (redist_recv_cg e d (dd_redistribute_cg_nvec e.bV e.bSDX e.bCGP) buf_vr st cg).vecs.x
        = copy_from_buf buf_vr (st.buf_int (cg * DD_CGIBS + 1) &&& DD_FLAG_NRCG)
            (st.buf_pos + 1 + 0 * (st.buf_int (cg * DD_CGIBS + 1) &&& DD_FLAG_NRCG))
            st.vecs.x st.home_pos_at ∧
      (redist_recv_cg e d (dd_redistribute_cg_nvec e.bV e.bSDX e.bCGP) buf_vr st cg).vecs.v
        = (if e.bV = true then
            copy_from_buf buf_vr (st.buf_int (cg * DD_CGIBS + 1) &&& DD_FLAG_NRCG)
              (st.buf_pos + 1 + 1 * (st.buf_int (cg * DD_CGIBS + 1) &&& DD_FLAG_NRCG))
              st.vecs.v st.home_pos_at
          else st.vecs.v) ∧
      (redist_recv_cg e d (dd_redistribute_cg_nvec e.bV e.bSDX e.bCGP) buf_vr st cg).vecs.sd_X
        = (if e.bSDX = true then
            copy_from_buf buf_vr (st.buf_int (cg * DD_CGIBS + 1) &&& DD_FLAG_NRCG)
              (st.buf_pos + 1 + (if e.bV = true then 2 else 1) *
                (st.buf_int (cg * DD_CGIBS + 1) &&& DD_FLAG_NRCG))
              st.vecs.sd_X st.home_pos_at
          else st.vecs.sd_X) ∧
      (redist_recv_cg e d (dd_redistribute_cg_nvec e.bV e.bSDX e.bCGP) buf_vr st cg).vecs.cg_p
        = (if e.bCGP = true then
            copy_from_buf buf_vr (st.buf_int (cg * DD_CGIBS + 1) &&& DD_FLAG_NRCG)
              (st.buf_pos + 1 + (if e.bSDX = true then (if e.bV = true then 2 else 1) + 1
                  else (if e.bV = true then 2 else 1)) *
                (st.buf_int (cg * DD_CGIBS + 1) &&& DD_FLAG_NRCG))
              st.vecs.cg_p st.home_pos_at
          else st.vecs.cg_p)) ∧
    ((redist_recv_code e d (st.buf_int (cg * DD_CGIBS + 1)) (buf_vr st.buf_pos)).mc ≠ -1 →
      (redist_recv_cg e d (dd_redistribute_cg_nvec e.bV e.bSDX e.bCGP) buf_vr st cg).home_pos_cg
        = st.home_pos_cg ∧
      (redist_recv_cg e d (dd_redistribute_cg_nvec e.bV e.bSDX e.bCGP) buf_vr st cg).home_pos_at
        = st.home_pos_at ∧
      (redist_recv_cg e d (dd_redistribute_cg_nvec e.bV e.bSDX e.bCGP) buf_vr st cg).vecs
        = st.vecs) := by
  have hnr := redist_recv_code_nrcg e d (st.buf_int (cg * DD_CGIBS + 1)) (buf_vr st.buf_pos)
  unfold redist_recv_cg
  dsimp only
  rw [hnr]
  generalize st.buf_int (cg * DD_CGIBS + 1) &&& DD_FLAG_NRCG = nr
  generalize redist_recv_code e d (st.buf_int (cg * DD_CGIBS + 1)) (buf_vr st.buf_pos) = code
  by_cases h : code.mc = -1
  · rw [if_pos h]
    dsimp only
    refine ⟨fun j hj => Function.update_noteq hj _ _, ?_, fun _ => ?_, fun hc => absurd h hc⟩
    · rcases hV : e.bV <;> rcases hS : e.bSDX <;> rcases hP : e.bCGP <;>
        simp [dd_redistribute_cg_nvec] <;> ring
    · refine ⟨rfl, rfl, rfl, ?_, ?_, ?_, ?_⟩
      · rw [Nat.zero_mul, Nat.add_zero]
      · rw [Nat.one_mul]
      · rcases hV : e.bV <;> simp
        rw [Nat.two_mul]
        simp only [Nat.add_assoc]
      · rcases hV : e.bV <;> rcases hS : e.bSDX <;> simp <;> ring_nf
  · rw [if_neg h]
    dsimp only
    refine ⟨fun j hj => Function.update_noteq hj _ _, ?_, fun hc => absurd hc h,
      fun _ => ⟨rfl, rfl, rfl⟩⟩
    rw [Nat.mul_comm]

theorem recv_home_cg_mono (e : redist_recv_env) (d : Nat) (buf_int : Nat → Nat)
    (buf_vr : Nat → rvec) (j k : Nat) (h : j ≤ k) :
    recv_home_cg e d buf_int buf_vr j ≤ recv_home_cg e d buf_int buf_vr k := by
  unfold recv_home_cg
  exact Finset.sum_le_sum_of_subset (Finset.range_subset.mpr h)

theorem recv_home_at_mono (e : redist_recv_env) (d : Nat) (buf_int : Nat → Nat)
    (buf_vr : Nat → rvec) (j k : Nat) (h : j ≤ k) :
    recv_home_at e d buf_int buf_vr j ≤ recv_home_at e d buf_int buf_vr k := by
  unfold recv_home_at
  exact Finset.sum_le_sum_of_subset (Finset.range_subset.mpr h)

theorem recv_home_cg_succ (e : redist_recv_env) (d : Nat) (buf_int : Nat → Nat)
    (buf_vr : Nat → rvec) (k : Nat) :
    recv_home_cg e d buf_int buf_vr (k + 1) = recv_home_cg e d buf_int buf_vr k +
      (if recv_stays e d buf_int buf_vr k then 1 else 0) := by
  unfold recv_home_cg
  rw [Finset.sum_range_succ]

theorem recv_home_at_succ (e : redist_recv_env) (d : Nat) (buf_int : Nat → Nat)
    (buf_vr : Nat → rvec) (k : Nat) :
    recv_home_at e d buf_int buf_vr (k + 1) = recv_home_at e d buf_int buf_vr k +
      (if recv_stays e d buf_int buf_vr k then recv_nrcg buf_int k else 0) := by
  unfold recv_home_at
  rw [Finset.sum_range_succ]

theorem recv_off_succ (buf_int : Nat → Nat) (nvec k : Nat) :
    recv_off buf_int nvec (k + 1) = recv_off buf_int nvec k + (1 + nvec * recv_nrcg buf_int k) := by
  unfold recv_off
  rw [Finset.sum_range_succ]

/-- Invariant of the loop over the received charge groups: after `k` of them
the position in the buffer is behind the `k` blocks, the counts of the home
charge groups and atoms have advanced by those that stay, and the centre and
the vectors of every charge group that stays are stored at its home
position. -/
theorem dd_redistribute_cg_recv_inv (e : redist_recv_env) (d : Nat) (buf_vr : Nat → rvec)
    (st : redist_recv) (hpos : st.buf_pos = 0) :
    ∀ k,
      (dd_redistribute_cg_recv e d k buf_vr st).buf_pos =
        recv_off st.buf_int (dd_redistribute_cg_nvec e.bV e.bSDX e.bCGP) k ∧
      (dd_redistribute_cg_recv e d k buf_vr st).home_pos_cg =
        st.home_pos_cg + recv_home_cg e d st.buf_int buf_vr k ∧
      (dd_redistribute_cg_recv e d k buf_vr st).home_pos_at =
        st.home_pos_at + recv_home_at e d st.buf_int buf_vr k ∧
      (∀ j, k ≤ j → (dd_redistribute_cg_recv e d k buf_vr st).buf_int (j * DD_CGIBS + 1) =
        st.buf_int (j * DD_CGIBS + 1)) ∧
      (∀ j, j < k → recv_stays e d st.buf_int buf_vr j →
        (dd_redistribute_cg_recv e d k buf_vr st).vecs.cg_cm
            (st.home_pos_cg + recv_home_cg e d st.buf_int buf_vr j) =
          buf_vr (recv_off st.buf_int (dd_redistribute_cg_nvec e.bV e.bSDX e.bCGP) j) ∧
        ∀ a, a < recv_nrcg st.buf_int j →
          (dd_redistribute_cg_recv e d k buf_vr st).vecs.x
              (st.home_pos_at + recv_home_at e d st.buf_int buf_vr j + a) =
            buf_vr (recv_off st.buf_int (dd_redistribute_cg_nvec e.bV e.bSDX e.bCGP) j + 1 +
              0 * recv_nrcg st.buf_int j + a) ∧
          (e.bV = true →
            (dd_redistribute_cg_recv e d k buf_vr st).vecs.v
                (st.home_pos_at + recv_home_at e d st.buf_int buf_vr j + a) =
              buf_vr (recv_off st.buf_int (dd_redistribute_cg_nvec e.bV e.bSDX e.bCGP) j + 1 +
                1 * recv_nrcg st.buf_int j + a)) ∧
          (e.bSDX = true →
            (dd_redistribute_cg_recv e d k buf_vr st).vecs.sd_X
                (st.home_pos_at + recv_home_at e d st.buf_int buf_vr j + a) =
              buf_vr (recv_off st.buf_int (dd_redistribute_cg_nvec e.bV e.bSDX e.bCGP) j + 1 +
                (if e.bV = true then 2 else 1) * recv_nrcg st.buf_int j + a)) ∧
          (e.bCGP = true →
            (dd_redistribute_cg_recv e d k buf_vr st).vecs.cg_p
                (st.home_pos_at + recv_home_at e d st.buf_int buf_vr j + a) =
              buf_vr (recv_off st.buf_int (dd_redistribute_cg_nvec e.bV e.bSDX e.bCGP) j + 1 +
                (if e.bSDX = true then (if e.bV = true then 2 else 1) + 1
                  else (if e.bV = true then 2 else 1)) * recv_nrcg st.buf_int j + a))) := by
  intro k
  induction k with
  | zero =>
    refine ⟨?_, ?_, ?_, fun j _ => rfl, fun j hj => absurd hj (Nat.not_lt_zero j)⟩
    · simp [dd_redistribute_cg_recv, recv_off, hpos]
    · simp [dd_redistribute_cg_recv, recv_home_cg]
    · simp [dd_redistribute_cg_recv, recv_home_at]
  | succ k ih =>
    obtain ⟨i1, i2, i3, i4, i5⟩ := ih
    have estep : dd_redistribute_cg_recv e d (k + 1) buf_vr st =
        redist_recv_cg e d (dd_redistribute_cg_nvec e.bV e.bSDX e.bCGP) buf_vr
          (dd_redistribute_cg_recv e d k buf_vr st) k := by
      unfold dd_redistribute_cg_recv
      rw [List.range_succ, List.foldl_append, List.foldl_cons, List.foldl_nil]
    rw [estep]
    obtain ⟨s1, s2, s3, s4⟩ := redist_recv_cg_spec e d buf_vr
      (dd_redistribute_cg_recv e d k buf_vr st) k
    generalize dd_redistribute_cg_recv e d k buf_vr st = sk at i1 i2 i3 i4 i5 s1 s2 s3 s4
    have hflag := i4 k (le_refl k)
    rw [hflag, i1] at s2 s3 s4
    have hnr : st.buf_int (k * DD_CGIBS + 1) &&& DD_FLAG_NRCG = recv_nrcg st.buf_int k := rfl
    rw [hnr] at s2 s3
    generalize redist_recv_cg e d (dd_redistribute_cg_nvec e.bV e.bSDX e.bCGP) buf_vr sk k = r
      at s1 s2 s3 s4
    have hstay : recv_stays e d st.buf_int buf_vr k ↔
        (redist_recv_code e d (st.buf_int (k * DD_CGIBS + 1))
          (buf_vr (recv_off st.buf_int (dd_redistribute_cg_nvec e.bV e.bSDX e.bCGP) k))).mc
          = -1 := Iff.rfl
    have hint : ∀ j, k + 1 ≤ j → r.buf_int (j * DD_CGIBS + 1) = st.buf_int (j * DD_CGIBS + 1) := by
      intro j hj
      rw [s1 _ (by unfold DD_CGIBS; omega)]
      exact i4 j (by omega)
    rw [recv_off_succ, recv_home_cg_succ, recv_home_at_succ]
    by_cases hs : recv_stays e d st.buf_int buf_vr k
    · obtain ⟨t1, t2, t3, t4, t5, t6, t7⟩ := s3 (hstay.mp hs)
      rw [if_pos hs, if_pos hs]
      refine ⟨by rw [s2], by rw [t1, i2]; omega, by rw [t2, i3]; omega, hint, ?_⟩
      intro j hj hsj
      rcases Nat.eq_or_lt_of_le (Nat.le_of_lt_succ hj) with e1 | lt
      · subst e1
        rw [t3, t4, t5, t6, t7, i2, i3]
        refine ⟨Function.update_same _ _ _, ?_⟩
        intro a ha
        refine ⟨?_, fun hV => ?_, fun hS => ?_, fun hP => ?_⟩
        · rw [copy_from_buf_spec, if_pos ⟨by omega, by omega⟩]
          rw [show st.home_pos_at + recv_home_at e d st.buf_int buf_vr j + a -
            (st.home_pos_at + recv_home_at e d st.buf_int buf_vr j) = a by omega]
        · rw [if_pos hV, copy_from_buf_spec, if_pos ⟨by omega, by omega⟩]
          rw [show st.home_pos_at + recv_home_at e d st.buf_int buf_vr j + a -
            (st.home_pos_at + recv_home_at e d st.buf_int buf_vr j) = a by omega]
        · rw [if_pos hS, copy_from_buf_spec, if_pos ⟨by omega, by omega⟩]
          rw [show st.home_pos_at + recv_home_at e d st.buf_int buf_vr j + a -
            (st.home_pos_at + recv_home_at e d st.buf_int buf_vr j) = a by omega]
        · rw [if_pos hP, copy_from_buf_spec, if_pos ⟨by omega, by omega⟩]
          rw [show st.home_pos_at + recv_home_at e d st.buf_int buf_vr j + a -
            (st.home_pos_at + recv_home_at e d st.buf_int buf_vr j) = a by omega]
      · obtain ⟨o1, o2⟩ := i5 j lt hsj
        have m1 := recv_home_cg_mono e d st.buf_int buf_vr (j + 1) k (by omega)
        have m2 := recv_home_at_mono e d st.buf_int buf_vr (j + 1) k (by omega)
        rw [recv_home_cg_succ, if_pos hsj] at m1
        rw [recv_home_at_succ, if_pos hsj] at m2
        rw [t3, t4, t5, t6, t7, i2, i3]
        refine ⟨?_, ?_⟩
        · rw [Function.update_noteq (by omega)]
          exact o1
        · intro a ha
          obtain ⟨p1, p2, p3, p4⟩ := o2 a ha
          refine ⟨?_, fun hV => ?_, fun hS => ?_, fun hP => ?_⟩
          · rw [copy_from_buf_spec, if_neg (by omega)]
            exact p1
          · rw [if_pos hV, copy_from_buf_spec, if_neg (by omega)]
            exact p2 hV
          · rw [if_pos hS, copy_from_buf_spec, if_neg (by omega)]
            exact p3 hS
          · rw [if_pos hP, copy_from_buf_spec, if_neg (by omega)]
            exact p4 hP
    · obtain ⟨t1, t2, t3⟩ := s4 (fun hc => hs (hstay.mpr hc))
      rw [if_neg hs, if_neg hs]
      refine ⟨by rw [s2], by rw [t1, i2]; rfl, by rw [t2, i3]; rfl, hint, ?_⟩
      intro j hj hsj
      rcases Nat.eq_or_lt_of_le (Nat.le_of_lt_succ hj) with e1 | lt
      · rw [e1] at hsj
        exact absurd hsj hs
      · rw [t3]
        exact i5 j lt hsj

theorem sent_count_succ (move : Nat → Int) (m : Int) (n : Nat) :
    sent_count move m (n + 1) = sent_count move m n + (if move n = m then 1 else 0) := by
  unfold sent_count
  rw [Finset.sum_range_succ]

theorem sent_count_mono (move : Nat → Int) (m : Int) (j k : Nat) (h : j ≤ k) :
    sent_count move m j ≤ sent_count move m k := by
  unfold sent_count
  exact Finset.sum_le_sum_of_subset (Finset.range_subset.mpr h)

/-- With the matching flag words the receiver finds the block of a charge
group where the sender has put it. -/
theorem recv_off_sent_count (move : Nat → Int) (cgindex : Nat → Nat) (nvec : Nat) (m : Int)
    (buf_int : Nat → Nat) (ncg_home : Nat)
    (hflag : ∀ c, c < ncg_home → move c = m →
      recv_nrcg buf_int (sent_count move m c) = cgindex (c + 1) - cgindex c) :
    ∀ c, c ≤ ncg_home →
      recv_off buf_int nvec (sent_count move m c) = block_off move cgindex nvec m c := by
  intro c
  induction c with
  | zero =>
    intro _
    simp [recv_off, sent_count, block_off]
  | succ c ih =>
    intro hc
    rw [sent_count_succ, block_off_succ]
    by_cases h : move c = m
    · rw [if_pos h, if_pos h, recv_off_succ, ih (by omega), hflag c (by omega) h]
    · rw [if_neg h, if_neg h, Nat.add_zero, Nat.add_zero]
      exact ih (by omega)

/-- C23: for every destination bucket `m` and every combination of the state
vectors `v`, `sd_X` and `cg_p` (`nvec` from 1 to 4), the buffer written by
`compact_and_copy_vec_cg` and `compact_and_copy_vec_at` holds for every charge
group sent to `m` one block of `1 + nvec*nrcg` entries: the centre, then the
`nrcg` positions, then the entries of `v`, `sd_X` and `cg_p` that are present,
in this order. The block of a charge group starts where the blocks of the
charge groups sent to `m` before it end, so the blocks are adjacent and do not
overlap. The receive loop of `dd_redistribute_cg`, reading this buffer with
flag words that carry the sizes of the charge groups, stores for every charge
group that stays the centre and the vectors that were packed at the home
positions it has reached, and advances the counts of home charge groups and
home atoms by 1 and `nrcg`; for a charge group that is passed on the counts
stay. -/
theorem redistribute_buffers_round_trip (ncg_home : Nat) (move : Nat → Int)
    (cgindex : Nat → Nat) (bCompact : Bool) (vecs : redist_vecs) (cgcm_state : Int → Nat → rvec)
    (e : redist_recv_env) (d : Nat) (st : redist_recv) (m : Int)
    (h0 : cgindex 0 = 0)
    (hmono : ∀ c, c < ncg_home → cgindex c ≤ cgindex (c + 1))
    (hm : m ≠ -1)
    (hpos : st.buf_pos = 0)
    (hflag : ∀ c, c < ncg_home → move c = m →
      recv_nrcg st.buf_int (sent_count move m c) = cgindex (c + 1) - cgindex c) :
    (∀ c, c < ncg_home → move c = m →
      block_off move cgindex (dd_redistribute_cg_nvec e.bV e.bSDX e.bCGP) m (c + 1) =
        block_off move cgindex (dd_redistribute_cg_nvec e.bV e.bSDX e.bCGP) m c + (1 +
            dd_redistribute_cg_nvec e.bV e.bSDX e.bCGP * (cgindex (c + 1) - cgindex c)) ∧
      (dd_redistribute_cg_pack ncg_home move cgindex e.bV e.bSDX e.bCGP bCompact vecs
          cgcm_state).cgcm_state m
        (block_off move cgindex (dd_redistribute_cg_nvec e.bV e.bSDX e.bCGP) m c) = vecs.cg_cm c ∧
      ∀ a, a < (cgindex (c + 1) - cgindex c) →
        (dd_redistribute_cg_pack ncg_home move cgindex e.bV e.bSDX e.bCGP bCompact vecs
            cgcm_state).cgcm_state m
          (block_off move cgindex (dd_redistribute_cg_nvec e.bV e.bSDX e.bCGP) m c + 1 + a) =
              vecs.x (cgindex c + a) ∧
        (e.bV = true →
          (dd_redistribute_cg_pack ncg_home move cgindex e.bV e.bSDX e.bCGP bCompact vecs
              cgcm_state).cgcm_state m
            (block_off move cgindex (dd_redistribute_cg_nvec e.bV e.bSDX e.bCGP) m c + 1 + (cgindex
                (c + 1) - cgindex c) + a) = vecs.v (cgindex c + a)) ∧
        (e.bSDX = true →
          (dd_redistribute_cg_pack ncg_home move cgindex e.bV e.bSDX e.bCGP bCompact vecs
              cgcm_state).cgcm_state m
            (block_off move cgindex (dd_redistribute_cg_nvec e.bV e.bSDX e.bCGP) m c + 1 + (if e.bV
                = true then 2 else 1) * (cgindex (c + 1) - cgindex c) + a) = vecs.sd_X (cgindex c +
                a)) ∧
        (e.bCGP = true →
          (dd_redistribute_cg_pack ncg_home move cgindex e.bV e.bSDX e.bCGP bCompact vecs
              cgcm_state).cgcm_state m
            (block_off move cgindex (dd_redistribute_cg_nvec e.bV e.bSDX e.bCGP) m c + 1 + (if
                e.bSDX = true then (if e.bV = true then 2 else 1) + 1 else (if e.bV = true then 2
                else 1)) * (cgindex (c + 1) - cgindex c) + a) = vecs.cg_p (cgindex c + a))) ∧
    (∀ c, c < ncg_home → move c ≠ m →
      block_off move cgindex (dd_redistribute_cg_nvec e.bV e.bSDX e.bCGP) m (c + 1) = block_off
          move cgindex (dd_redistribute_cg_nvec e.bV e.bSDX e.bCGP) m c) ∧
    (∀ c, c < ncg_home → move c = m →
      ((redist_recv_code e d (st.buf_int (sent_count move m c * DD_CGIBS + 1)) (vecs.cg_cm c)).mc =
          -1 →
        (dd_redistribute_cg_recv e d (sent_count move m c + 1) ((dd_redistribute_cg_pack ncg_home
            move cgindex e.bV e.bSDX e.bCGP bCompact vecs cgcm_state).cgcm_state m) st).home_pos_cg
            =
          (dd_redistribute_cg_recv e d (sent_count move m c) ((dd_redistribute_cg_pack ncg_home
              move cgindex e.bV e.bSDX e.bCGP bCompact vecs cgcm_state).cgcm_state m)
              st).home_pos_cg + 1 ∧
        (dd_redistribute_cg_recv e d (sent_count move m c + 1) ((dd_redistribute_cg_pack ncg_home
            move cgindex e.bV e.bSDX e.bCGP bCompact vecs cgcm_state).cgcm_state m) st).home_pos_at
            =
          (dd_redistribute_cg_recv e d (sent_count move m c) ((dd_redistribute_cg_pack ncg_home
              move cgindex e.bV e.bSDX e.bCGP bCompact vecs cgcm_state).cgcm_state m)
              st).home_pos_at + (cgindex (c + 1) - cgindex c) ∧
        (dd_redistribute_cg_recv e d (sent_count move m ncg_home) ((dd_redistribute_cg_pack
            ncg_home move cgindex e.bV e.bSDX e.bCGP bCompact vecs cgcm_state).cgcm_state m)
            st).vecs.cg_cm
          (dd_redistribute_cg_recv e d (sent_count move m c) ((dd_redistribute_cg_pack ncg_home
              move cgindex e.bV e.bSDX e.bCGP bCompact vecs cgcm_state).cgcm_state m)
              st).home_pos_cg = vecs.cg_cm c ∧
        ∀ a, a < (cgindex (c + 1) - cgindex c) →
          (dd_redistribute_cg_recv e d (sent_count move m ncg_home) ((dd_redistribute_cg_pack
              ncg_home move cgindex e.bV e.bSDX e.bCGP bCompact vecs cgcm_state).cgcm_state m)
              st).vecs.x
            ((dd_redistribute_cg_recv e d (sent_count move m c) ((dd_redistribute_cg_pack ncg_home
                move cgindex e.bV e.bSDX e.bCGP bCompact vecs cgcm_state).cgcm_state m)
                st).home_pos_at + a) = vecs.x (cgindex c + a) ∧
          (e.bV = true →
            (dd_redistribute_cg_recv e d (sent_count move m ncg_home) ((dd_redistribute_cg_pack
                ncg_home move cgindex e.bV e.bSDX e.bCGP bCompact vecs cgcm_state).cgcm_state m)
                st).vecs.v
              ((dd_redistribute_cg_recv e d (sent_count move m c) ((dd_redistribute_cg_pack
                  ncg_home move cgindex e.bV e.bSDX e.bCGP bCompact vecs cgcm_state).cgcm_state m)
                  st).home_pos_at + a) = vecs.v (cgindex c + a)) ∧
          (e.bSDX = true →
            (dd_redistribute_cg_recv e d (sent_count move m ncg_home) ((dd_redistribute_cg_pack
                ncg_home move cgindex e.bV e.bSDX e.bCGP bCompact vecs cgcm_state).cgcm_state m)
                st).vecs.sd_X
              ((dd_redistribute_cg_recv e d (sent_count move m c) ((dd_redistribute_cg_pack
                  ncg_home move cgindex e.bV e.bSDX e.bCGP bCompact vecs cgcm_state).cgcm_state m)
                  st).home_pos_at + a) = vecs.sd_X (cgindex c + a)) ∧
          (e.bCGP = true →
            (dd_redistribute_cg_recv e d (sent_count move m ncg_home) ((dd_redistribute_cg_pack
                ncg_home move cgindex e.bV e.bSDX e.bCGP bCompact vecs cgcm_state).cgcm_state m)
                st).vecs.cg_p
              ((dd_redistribute_cg_recv e d (sent_count move m c) ((dd_redistribute_cg_pack
                  ncg_home move cgindex e.bV e.bSDX e.bCGP bCompact vecs cgcm_state).cgcm_state m)
                  st).home_pos_at + a) = vecs.cg_p (cgindex c + a))) ∧
      ((redist_recv_code e d (st.buf_int (sent_count move m c * DD_CGIBS + 1)) (vecs.cg_cm c)).mc ≠
          -1 →
        (dd_redistribute_cg_recv e d (sent_count move m c + 1) ((dd_redistribute_cg_pack ncg_home
            move cgindex e.bV e.bSDX e.bCGP bCompact vecs cgcm_state).cgcm_state m) st).home_pos_cg
            =
          (dd_redistribute_cg_recv e d (sent_count move m c) ((dd_redistribute_cg_pack ncg_home
              move cgindex e.bV e.bSDX e.bCGP bCompact vecs cgcm_state).cgcm_state m)
              st).home_pos_cg ∧
        (dd_redistribute_cg_recv e d (sent_count move m c + 1) ((dd_redistribute_cg_pack ncg_home
            move cgindex e.bV e.bSDX e.bCGP bCompact vecs cgcm_state).cgcm_state m) st).home_pos_at
            =
          (dd_redistribute_cg_recv e d (sent_count move m c) ((dd_redistribute_cg_pack ncg_home
              move cgindex e.bV e.bSDX e.bCGP bCompact vecs cgcm_state).cgcm_state m)
              st).home_pos_at)) := by
  have PB := dd_redistribute_cg_pack_buffer ncg_home move cgindex e.bV e.bSDX e.bCGP bCompact
    vecs cgcm_state h0 hmono
  have off := recv_off_sent_count move cgindex (dd_redistribute_cg_nvec e.bV e.bSDX e.bCGP) m
    st.buf_int ncg_home hflag
  generalize (dd_redistribute_cg_pack ncg_home move cgindex e.bV e.bSDX e.bCGP bCompact vecs
    cgcm_state).cgcm_state = CS at PB
  have RI := dd_redistribute_cg_recv_inv e d (CS m) st hpos
  have hpack : ∀ c, c < ncg_home → move c = m →
      CS m (block_off move cgindex (dd_redistribute_cg_nvec e.bV e.bSDX e.bCGP) m c)
        = vecs.cg_cm c ∧
      ∀ a, a < cgindex (c + 1) - cgindex c →
        CS m (block_off move cgindex (dd_redistribute_cg_nvec e.bV e.bSDX e.bCGP) m c
            + 1 + 0 * (cgindex (c + 1) - cgindex c) + a) = vecs.x (cgindex c + a) ∧
        (e.bV = true →
          CS m (block_off move cgindex (dd_redistribute_cg_nvec e.bV e.bSDX e.bCGP) m c
              + 1 + 1 * (cgindex (c + 1) - cgindex c) + a) = vecs.v (cgindex c + a)) ∧
        (e.bSDX = true →
          CS m (block_off move cgindex (dd_redistribute_cg_nvec e.bV e.bSDX e.bCGP) m c
              + 1 + (if e.bV = true then 2 else 1) * (cgindex (c + 1) - cgindex c) + a)
            = vecs.sd_X (cgindex c + a)) ∧
        (e.bCGP = true →
          CS m (block_off move cgindex (dd_redistribute_cg_nvec e.bV e.bSDX e.bCGP) m c
              + 1 + (if e.bSDX = true then (if e.bV = true then 2 else 1) + 1
                else (if e.bV = true then 2 else 1)) * (cgindex (c + 1) - cgindex c) + a)
            = vecs.cg_p (cgindex c + a)) := by
    intro c hc hmc
    have := PB c hc (by rw [hmc]; exact hm)
    rw [hmc] at this
    exact this
  refine ⟨?_, ?_, ?_⟩
  · intro c hc hmc
    obtain ⟨a1, a2⟩ := hpack c hc hmc
    refine ⟨by rw [block_off_succ, if_pos hmc], a1, ?_⟩
    intro a ha
    obtain ⟨b1, b2, b3, b4⟩ := a2 a ha
    rw [Nat.zero_mul, Nat.add_zero] at b1
    rw [Nat.one_mul] at b2
    exact ⟨b1, b2, b3, b4⟩
  · intro c _ hmc
    rw [block_off_succ, if_neg hmc, Nat.add_zero]
  · intro c hc hmc
    obtain ⟨a1, a2⟩ := hpack c hc hmc
    have hk : sent_count move m c < sent_count move m ncg_home := by
      have := sent_count_mono move m (c + 1) ncg_home (by omega)
      rw [sent_count_succ, if_pos hmc] at this
      omega
    have hoff := off c (by omega)
    have hnr := hflag c hc hmc
    obtain ⟨_, k2, k3, _, _⟩ := RI (sent_count move m c)
    obtain ⟨_, n2, n3, _, _⟩ := RI (sent_count move m c + 1)
    obtain ⟨_, _, _, _, f5⟩ := RI (sent_count move m ncg_home)
    have hst : recv_stays e d st.buf_int (CS m) (sent_count move m c) ↔
        (redist_recv_code e d (st.buf_int (sent_count move m c * DD_CGIBS + 1))
          (vecs.cg_cm c)).mc = -1 := by
      unfold recv_stays
      rw [hoff, a1]
    rw [k2, k3, n2, n3, recv_home_cg_succ, recv_home_at_succ]
    constructor
    · intro hs
      have hs2 := hst.mpr hs
      obtain ⟨g1, g2⟩ := f5 (sent_count move m c) hk hs2
      rw [if_pos hs2, if_pos hs2, hnr]
      refine ⟨by omega, by omega, ?_, ?_⟩
      · rw [g1, hoff]
        exact a1
      · intro a ha
        obtain ⟨x1, x2, x3, x4⟩ := g2 a (by rw [hnr]; exact ha)
        obtain ⟨b1, b2, b3, b4⟩ := a2 a ha
        rw [hoff, hnr] at x1 x2 x3 x4
        exact ⟨x1.trans b1, fun h => (x2 h).trans (b2 h), fun h => (x3 h).trans (b3 h),
          fun h => (x4 h).trans (b4 h)⟩
    · intro hs
      have hs2 : ¬ recv_stays e d st.buf_int (CS m) (sent_count move m c) :=
        fun h => hs (hst.mp h)
      rw [if_neg hs2, if_neg hs2]
      exact ⟨rfl, rfl⟩

/-- Witness of C23: three home charge groups of which the first and the last
are sent to the bucket 0; the receiver keeps the first and passes the second
on. -/
theorem redistribute_buffers_round_trip_witness :
    ((ex_compact_cgindex 0 = 0) ∧
    (∀ c, c < 3 → ex_compact_cgindex c ≤ ex_compact_cgindex (c + 1)) ∧
    (0 ≠ -1) ∧
    (ex_redist_recv.buf_pos = 0) ∧
    (∀ c, c < 3 → ex_redist_move c = 0 →
      recv_nrcg ex_redist_recv.buf_int (sent_count ex_redist_move 0 c) = ex_compact_cgindex (c + 1) - ex_compact_cgindex c)) ∧
    ((∀ c, c < 3 → ex_redist_move c = 0 →
      block_off ex_redist_move ex_compact_cgindex (dd_redistribute_cg_nvec ex_redist_env.bV
          ex_redist_env.bSDX ex_redist_env.bCGP) 0 (c + 1) =
        block_off ex_redist_move ex_compact_cgindex (dd_redistribute_cg_nvec ex_redist_env.bV
            ex_redist_env.bSDX ex_redist_env.bCGP) 0 c + (1 + dd_redistribute_cg_nvec
            ex_redist_env.bV ex_redist_env.bSDX ex_redist_env.bCGP * (ex_compact_cgindex (c + 1) -
            ex_compact_cgindex c)) ∧
      (dd_redistribute_cg_pack 3 ex_redist_move ex_compact_cgindex ex_redist_env.bV
          ex_redist_env.bSDX ex_redist_env.bCGP true ex_redist_vecs (fun _ _ _ => 0)).cgcm_state 0
        (block_off ex_redist_move ex_compact_cgindex (dd_redistribute_cg_nvec ex_redist_env.bV
            ex_redist_env.bSDX ex_redist_env.bCGP) 0 c) = ex_redist_vecs.cg_cm c ∧
      ∀ a, a < (ex_compact_cgindex (c + 1) - ex_compact_cgindex c) →
        (dd_redistribute_cg_pack 3 ex_redist_move ex_compact_cgindex ex_redist_env.bV
            ex_redist_env.bSDX ex_redist_env.bCGP true ex_redist_vecs (fun _ _ _ => 0)).cgcm_state 0
          (block_off ex_redist_move ex_compact_cgindex (dd_redistribute_cg_nvec ex_redist_env.bV
              ex_redist_env.bSDX ex_redist_env.bCGP) 0 c + 1 + a) = ex_redist_vecs.x
              (ex_compact_cgindex c + a) ∧
        (ex_redist_env.bV = true →
          (dd_redistribute_cg_pack 3 ex_redist_move ex_compact_cgindex ex_redist_env.bV
              ex_redist_env.bSDX ex_redist_env.bCGP true ex_redist_vecs (fun _ _ _ =>
              0)).cgcm_state 0
            (block_off ex_redist_move ex_compact_cgindex (dd_redistribute_cg_nvec ex_redist_env.bV
                ex_redist_env.bSDX ex_redist_env.bCGP) 0 c + 1 + (ex_compact_cgindex (c + 1) -
                ex_compact_cgindex c) + a) = ex_redist_vecs.v (ex_compact_cgindex c + a)) ∧
        (ex_redist_env.bSDX = true →
          (dd_redistribute_cg_pack 3 ex_redist_move ex_compact_cgindex ex_redist_env.bV
              ex_redist_env.bSDX ex_redist_env.bCGP true ex_redist_vecs (fun _ _ _ =>
              0)).cgcm_state 0
            (block_off ex_redist_move ex_compact_cgindex (dd_redistribute_cg_nvec ex_redist_env.bV
                ex_redist_env.bSDX ex_redist_env.bCGP) 0 c + 1 + (if ex_redist_env.bV = true then 2
                else 1) * (ex_compact_cgindex (c + 1) - ex_compact_cgindex c) + a) =
                ex_redist_vecs.sd_X (ex_compact_cgindex c + a)) ∧
        (ex_redist_env.bCGP = true →
          (dd_redistribute_cg_pack 3 ex_redist_move ex_compact_cgindex ex_redist_env.bV
              ex_redist_env.bSDX ex_redist_env.bCGP true ex_redist_vecs (fun _ _ _ =>
              0)).cgcm_state 0
            (block_off ex_redist_move ex_compact_cgindex (dd_redistribute_cg_nvec ex_redist_env.bV
                ex_redist_env.bSDX ex_redist_env.bCGP) 0 c + 1 + (if ex_redist_env.bSDX = true then
                (if ex_redist_env.bV = true then 2 else 1) + 1 else (if ex_redist_env.bV = true
                then 2 else 1)) * (ex_compact_cgindex (c + 1) - ex_compact_cgindex c) + a) =
                ex_redist_vecs.cg_p (ex_compact_cgindex c + a))) ∧
    (∀ c, c < 3 → ex_redist_move c ≠ 0 →
      block_off ex_redist_move ex_compact_cgindex (dd_redistribute_cg_nvec ex_redist_env.bV
          ex_redist_env.bSDX ex_redist_env.bCGP) 0 (c + 1) = block_off ex_redist_move
          ex_compact_cgindex (dd_redistribute_cg_nvec ex_redist_env.bV ex_redist_env.bSDX
          ex_redist_env.bCGP) 0 c) ∧
    (∀ c, c < 3 → ex_redist_move c = 0 →
      ((redist_recv_code ex_redist_env 0 (ex_redist_recv.buf_int (sent_count ex_redist_move 0 c *
          DD_CGIBS + 1)) (ex_redist_vecs.cg_cm c)).mc = -1 →
        (dd_redistribute_cg_recv ex_redist_env 0 (sent_count ex_redist_move 0 c + 1)
            ((dd_redistribute_cg_pack 3 ex_redist_move ex_compact_cgindex ex_redist_env.bV
            ex_redist_env.bSDX ex_redist_env.bCGP true ex_redist_vecs (fun _ _ _ => 0)).cgcm_state
            0) ex_redist_recv).home_pos_cg =
          (dd_redistribute_cg_recv ex_redist_env 0 (sent_count ex_redist_move 0 c)
              ((dd_redistribute_cg_pack 3 ex_redist_move ex_compact_cgindex ex_redist_env.bV
              ex_redist_env.bSDX ex_redist_env.bCGP true ex_redist_vecs (fun _ _ _ =>
              0)).cgcm_state 0) ex_redist_recv).home_pos_cg + 1 ∧
        (dd_redistribute_cg_recv ex_redist_env 0 (sent_count ex_redist_move 0 c + 1)
            ((dd_redistribute_cg_pack 3 ex_redist_move ex_compact_cgindex ex_redist_env.bV
            ex_redist_env.bSDX ex_redist_env.bCGP true ex_redist_vecs (fun _ _ _ => 0)).cgcm_state
            0) ex_redist_recv).home_pos_at =
          (dd_redistribute_cg_recv ex_redist_env 0 (sent_count ex_redist_move 0 c)
              ((dd_redistribute_cg_pack 3 ex_redist_move ex_compact_cgindex ex_redist_env.bV
              ex_redist_env.bSDX ex_redist_env.bCGP true ex_redist_vecs (fun _ _ _ =>
              0)).cgcm_state 0) ex_redist_recv).home_pos_at + (ex_compact_cgindex (c + 1) -
              ex_compact_cgindex c) ∧
        (dd_redistribute_cg_recv ex_redist_env 0 (sent_count ex_redist_move 0 3)
            ((dd_redistribute_cg_pack 3 ex_redist_move ex_compact_cgindex ex_redist_env.bV
            ex_redist_env.bSDX ex_redist_env.bCGP true ex_redist_vecs (fun _ _ _ => 0)).cgcm_state
            0) ex_redist_recv).vecs.cg_cm
          (dd_redistribute_cg_recv ex_redist_env 0 (sent_count ex_redist_move 0 c)
              ((dd_redistribute_cg_pack 3 ex_redist_move ex_compact_cgindex ex_redist_env.bV
              ex_redist_env.bSDX ex_redist_env.bCGP true ex_redist_vecs (fun _ _ _ =>
              0)).cgcm_state 0) ex_redist_recv).home_pos_cg = ex_redist_vecs.cg_cm c ∧
        ∀ a, a < (ex_compact_cgindex (c + 1) - ex_compact_cgindex c) →
          (dd_redistribute_cg_recv ex_redist_env 0 (sent_count ex_redist_move 0 3)
              ((dd_redistribute_cg_pack 3 ex_redist_move ex_compact_cgindex ex_redist_env.bV
              ex_redist_env.bSDX ex_redist_env.bCGP true ex_redist_vecs (fun _ _ _ =>
              0)).cgcm_state 0) ex_redist_recv).vecs.x
            ((dd_redistribute_cg_recv ex_redist_env 0 (sent_count ex_redist_move 0 c)
                ((dd_redistribute_cg_pack 3 ex_redist_move ex_compact_cgindex ex_redist_env.bV
                ex_redist_env.bSDX ex_redist_env.bCGP true ex_redist_vecs (fun _ _ _ =>
                0)).cgcm_state 0) ex_redist_recv).home_pos_at + a) = ex_redist_vecs.x
                (ex_compact_cgindex c + a) ∧
          (ex_redist_env.bV = true →
            (dd_redistribute_cg_recv ex_redist_env 0 (sent_count ex_redist_move 0 3)
                ((dd_redistribute_cg_pack 3 ex_redist_move ex_compact_cgindex ex_redist_env.bV
                ex_redist_env.bSDX ex_redist_env.bCGP true ex_redist_vecs (fun _ _ _ =>
                0)).cgcm_state 0) ex_redist_recv).vecs.v
              ((dd_redistribute_cg_recv ex_redist_env 0 (sent_count ex_redist_move 0 c)
                  ((dd_redistribute_cg_pack 3 ex_redist_move ex_compact_cgindex ex_redist_env.bV
                  ex_redist_env.bSDX ex_redist_env.bCGP true ex_redist_vecs (fun _ _ _ =>
                  0)).cgcm_state 0) ex_redist_recv).home_pos_at + a) = ex_redist_vecs.v
                  (ex_compact_cgindex c + a)) ∧
          (ex_redist_env.bSDX = true →
            (dd_redistribute_cg_recv ex_redist_env 0 (sent_count ex_redist_move 0 3)
                ((dd_redistribute_cg_pack 3 ex_redist_move ex_compact_cgindex ex_redist_env.bV
                ex_redist_env.bSDX ex_redist_env.bCGP true ex_redist_vecs (fun _ _ _ =>
                0)).cgcm_state 0) ex_redist_recv).vecs.sd_X
              ((dd_redistribute_cg_recv ex_redist_env 0 (sent_count ex_redist_move 0 c)
                  ((dd_redistribute_cg_pack 3 ex_redist_move ex_compact_cgindex ex_redist_env.bV
                  ex_redist_env.bSDX ex_redist_env.bCGP true ex_redist_vecs (fun _ _ _ =>
                  0)).cgcm_state 0) ex_redist_recv).home_pos_at + a) = ex_redist_vecs.sd_X
                  (ex_compact_cgindex c + a)) ∧
          (ex_redist_env.bCGP = true →
            (dd_redistribute_cg_recv ex_redist_env 0 (sent_count ex_redist_move 0 3)
                ((dd_redistribute_cg_pack 3 ex_redist_move ex_compact_cgindex ex_redist_env.bV
                ex_redist_env.bSDX ex_redist_env.bCGP true ex_redist_vecs (fun _ _ _ =>
                0)).cgcm_state 0) ex_redist_recv).vecs.cg_p
              ((dd_redistribute_cg_recv ex_redist_env 0 (sent_count ex_redist_move 0 c)
                  ((dd_redistribute_cg_pack 3 ex_redist_move ex_compact_cgindex ex_redist_env.bV
                  ex_redist_env.bSDX ex_redist_env.bCGP true ex_redist_vecs (fun _ _ _ =>
                  0)).cgcm_state 0) ex_redist_recv).home_pos_at + a) = ex_redist_vecs.cg_p
                  (ex_compact_cgindex c + a))) ∧
      ((redist_recv_code ex_redist_env 0 (ex_redist_recv.buf_int (sent_count ex_redist_move 0 c *
          DD_CGIBS + 1)) (ex_redist_vecs.cg_cm c)).mc ≠ -1 →
        (dd_redistribute_cg_recv ex_redist_env 0 (sent_count ex_redist_move 0 c + 1)
            ((dd_redistribute_cg_pack 3 ex_redist_move ex_compact_cgindex ex_redist_env.bV
            ex_redist_env.bSDX ex_redist_env.bCGP true ex_redist_vecs (fun _ _ _ => 0)).cgcm_state
            0) ex_redist_recv).home_pos_cg =
          (dd_redistribute_cg_recv ex_redist_env 0 (sent_count ex_redist_move 0 c)
              ((dd_redistribute_cg_pack 3 ex_redist_move ex_compact_cgindex ex_redist_env.bV
              ex_redist_env.bSDX ex_redist_env.bCGP true ex_redist_vecs (fun _ _ _ =>
              0)).cgcm_state 0) ex_redist_recv).home_pos_cg ∧
        (dd_redistribute_cg_recv ex_redist_env 0 (sent_count ex_redist_move 0 c + 1)
            ((dd_redistribute_cg_pack 3 ex_redist_move ex_compact_cgindex ex_redist_env.bV
            ex_redist_env.bSDX ex_redist_env.bCGP true ex_redist_vecs (fun _ _ _ => 0)).cgcm_state
            0) ex_redist_recv).home_pos_at =
          (dd_redistribute_cg_recv ex_redist_env 0 (sent_count ex_redist_move 0 c)
              ((dd_redistribute_cg_pack 3 ex_redist_move ex_compact_cgindex ex_redist_env.bV
              ex_redist_env.bSDX ex_redist_env.bCGP true ex_redist_vecs (fun _ _ _ =>
              0)).cgcm_state 0) ex_redist_recv).home_pos_at))) :=
  ⟨⟨by decide, by decide, by decide, rfl, by decide⟩,
    redistribute_buffers_round_trip 3 ex_redist_move ex_compact_cgindex true ex_redist_vecs
      (fun _ _ _ => 0) ex_redist_env 0 ex_redist_recv 0 (by decide) (by decide) (by decide) rfl
      (by decide)⟩

/-! ## `merge_cg_buffers` -/

/-- The loop that moves the charge groups `a <= cg < a+n` up by `sh > 0`,
from the last one down: the window `a+sh <= j < a+n+sh` holds the old entries
`j - sh`, all other entries stay. -/
theorem merge_move_fold (sh a : Nat) (hsh : 0 < sh) :
    ∀ (n : Nat) (s r : merge_state),
      r = ((List.range' a n).reverse).foldl (merge_move_cg sh) s →
      r.ncg_cell = s.ncg_cell ∧ r.ind_index = s.ind_index ∧
      (∀ j, r.index_gl j =
        if a + sh ≤ j ∧ j < a + n + sh then s.index_gl (j - sh) else s.index_gl j) ∧
      (∀ j, r.cg_cm j =
        if a + sh ≤ j ∧ j < a + n + sh then s.cg_cm (j - sh) else s.cg_cm j) ∧
      (∀ j, r.cgindex j =
        if a + sh ≤ j ∧ j < a + n + sh then s.cgindex (j - sh) else s.cgindex j) := by
  intro n
  induction n with
  | zero =>
    intro s r hr
    simp only [List.range'_zero, List.reverse_nil, List.foldl_nil] at hr
    subst hr
    refine ⟨rfl, rfl, ?_, ?_, ?_⟩ <;>
    · intro j
      rw [if_neg (by omega)]
  | succ n ih =>
    intro s r hr
    rw [List.range'_1_concat, List.reverse_append, List.reverse_singleton,
      List.singleton_append, List.foldl_cons] at hr
    obtain ⟨h1, h2, h3, h4, h5⟩ := ih (merge_move_cg sh s (a + n)) r hr
    have key : ∀ {α : Type} (f g : Nat → α) (j : Nat),
        (∀ i, g i = if a + sh ≤ i ∧ i < a + n + sh then
          (Function.update f (a + n + sh) (f (a + n))) (i - sh)
          else (Function.update f (a + n + sh) (f (a + n))) i) →
        g j = if a + sh ≤ j ∧ j < a + (n + 1) + sh then f (j - sh) else f j := by
      intro α f g j hg
      rw [hg j]
      by_cases c1 : a + sh ≤ j ∧ j < a + n + sh
      · rw [if_pos c1, if_pos (by omega), Function.update_noteq (by omega)]
      · rw [if_neg c1]
        by_cases c2 : j = a + n + sh
        · rw [c2, Function.update_same, if_pos (by omega)]
          congr 1
          omega
        · rw [Function.update_noteq c2, if_neg (by omega)]
    exact ⟨h1, h2, fun j => key s.index_gl r.index_gl j h3,
      fun j => key s.cg_cm r.cg_cm j h4, fun j => key s.cgindex r.cgindex j h5⟩

/-- The sum of the send counts before a cell grows with the cell. -/
theorem nsend_before_succ (nsend : Nat → Nat) (c : Nat) :
    nsend_before nsend (c + 1) = nsend_before nsend c + nsend c := by
  unfold nsend_before
  rw [List.range_succ, List.foldl_append, List.foldl_cons, List.foldl_nil]

theorem nsend_before_mono (nsend : Nat → Nat) (c d : Nat) (h : c ≤ d) :
    nsend_before nsend c ≤ nsend_before nsend d := by
  induction d with
  | zero =>
    have : c = 0 := by omega
    rw [this]
  | succ d ih =>
    rcases Nat.lt_or_ge c (d + 1) with h1 | h1
    · have := ih (by omega)
      rw [nsend_before_succ]
      omega
    · have : c = d + 1 := by omega
      rw [this]

/-- The loop that shifts the send indices of one pulse for one cell: the
indices of the cell grow by the shift, everything else stays. -/
theorem merge_shift_index_spec (nsend : Nat → Nat → Nat) (cell sh : Nat) (s : merge_state)
    (p : Nat) :
    (merge_shift_index nsend cell sh s p).ncg_cell = s.ncg_cell ∧
    (merge_shift_index nsend cell sh s p).index_gl = s.index_gl ∧
    (merge_shift_index nsend cell sh s p).cg_cm = s.cg_cm ∧
    (merge_shift_index nsend cell sh s p).cgindex = s.cgindex ∧
    (∀ q j, (merge_shift_index nsend cell sh s p).ind_index q j =
      if q = p ∧ nsend_before (nsend p) cell ≤ j ∧
          j < nsend_before (nsend p) cell + nsend p cell then s.ind_index q j + sh
      else s.ind_index q j) := by
  unfold merge_shift_index
  simp only
  rw [Nat.add_sub_cancel_left]
  generalize nsend_before (nsend p) cell = a
  generalize nsend p cell = n
  induction n generalizing s with
  | zero =>
    simp only [List.range'_zero, List.foldl_nil]
    refine ⟨trivial, trivial, trivial, trivial, ?_⟩
    intro q j
    rw [if_neg (by omega)]
  | succ n ih =>
    rw [List.range'_1_concat, List.foldl_append, List.foldl_cons, List.foldl_nil]
    obtain ⟨h1, h2, h3, h4, h5⟩ := ih s
    generalize (List.range' a n).foldl
      (fun (s : merge_state) cg =>
        ({ s with
          ind_index := Function.update s.ind_index p
            (Function.update (s.ind_index p) cg (s.ind_index p cg + sh)) } : merge_state)) s = t
      at h1 h2 h3 h4 h5
    refine ⟨h1, h2, h3, h4, ?_⟩
    intro q j
    dsimp only
    by_cases hq : q = p
    · subst hq
      rw [Function.update_same]
      by_cases hj : j = a + n
      · subst hj
        rw [Function.update_same, h5, if_neg (by omega), if_pos ⟨rfl, by omega, by omega⟩]
      · rw [Function.update_noteq hj, h5]
        by_cases c : a ≤ j ∧ j < a + n
        · rw [if_pos ⟨rfl, c⟩, if_pos ⟨rfl, by omega, by omega⟩]
        · rw [if_neg (by tauto), if_neg (by omega)]
    · rw [Function.update_noteq hq, h5, if_neg (by tauto), if_neg (by tauto)]

/-- The loop over the pulses `1, ..., pulse` that shifts the send indices of
one cell. -/
theorem merge_shift_index_fold (nsend : Nat → Nat → Nat) (cell sh : Nat) :
    ∀ (pulse : Nat) (s : merge_state),
      ((List.range' 1 pulse).foldl (merge_shift_index nsend cell sh) s).ncg_cell = s.ncg_cell ∧
      ((List.range' 1 pulse).foldl (merge_shift_index nsend cell sh) s).index_gl = s.index_gl ∧
      ((List.range' 1 pulse).foldl (merge_shift_index nsend cell sh) s).cg_cm = s.cg_cm ∧
      ((List.range' 1 pulse).foldl (merge_shift_index nsend cell sh) s).cgindex = s.cgindex ∧
      (∀ q j, ((List.range' 1 pulse).foldl (merge_shift_index nsend cell sh) s).ind_index q j =
        if (1 ≤ q ∧ q ≤ pulse) ∧ nsend_before (nsend q) cell ≤ j ∧
            j < nsend_before (nsend q) cell + nsend q cell then s.ind_index q j + sh
        else s.ind_index q j) := by
  intro pulse
  induction pulse with
  | zero =>
    intro s
    simp only [List.range'_zero, List.foldl_nil]
    refine ⟨trivial, trivial, trivial, trivial, ?_⟩
    intro q j
    rw [if_neg (by omega)]
  | succ n ih =>
    intro s
    rw [List.range'_1_concat, List.foldl_append, List.foldl_cons, List.foldl_nil]
    obtain ⟨h1, h2, h3, h4, h5⟩ := ih s
    generalize (List.range' 1 n).foldl (merge_shift_index nsend cell sh) s = t
      at h1 h2 h3 h4 h5
    obtain ⟨g1, g2, g3, g4, g5⟩ := merge_shift_index_spec nsend cell sh t (1 + n)
    refine ⟨g1.trans h1, g2.trans h2, g3.trans h3, g4.trans h4, ?_⟩
    intro q j
    rw [g5, h5]
    by_cases hq : q = 1 + n
    · subst hq
      by_cases c : nsend_before (nsend (1 + n)) cell ≤ j ∧
          j < nsend_before (nsend (1 + n)) cell + nsend (1 + n) cell
      · rw [if_pos ⟨rfl, c⟩, if_neg (by omega), if_pos ⟨by omega, c⟩]
      · rw [if_neg (by tauto), if_neg (by tauto), if_neg (by tauto)]
    · rw [if_neg (by tauto)]
      by_cases c : (1 ≤ q ∧ q ≤ n) ∧ nsend_before (nsend q) cell ≤ j ∧
          j < nsend_before (nsend q) cell + nsend q cell
      · rw [if_pos c, if_pos ⟨by omega, c.2⟩]
      · rw [if_neg c, if_neg (by
          rintro ⟨⟨a1, a2⟩, a3⟩
          exact c ⟨⟨a1, by omega⟩, a3⟩)]

/-- One cell of the first loop with a positive shift `sh`: the stored charge
groups `a <= cg < b` of the cell and the entries `a, ..., b` of `cgindex` are
moved up by `sh`, and the send indices of the cell grow by `sh`. -/
theorem merge_shift_cell_pos (ncell pulse : Nat) (nrecv : Nat → Nat) (nsend : Nat → Nat → Nat)
    (st : Int × merge_state) (cell sh : Nat) (hsh : 0 < sh)
    (hst : st.1 - (nrecv cell : Int) = (sh : Int))
    (hab : st.2.ncg_cell (ncell + cell) ≤ st.2.ncg_cell (ncell + cell + 1)) :
    (merge_shift_cell ncell pulse nrecv nsend st cell).1 = (sh : Int) ∧
    (merge_shift_cell ncell pulse nrecv nsend st cell).2.ncg_cell = st.2.ncg_cell ∧
    (∀ j, (merge_shift_cell ncell pulse nrecv nsend st cell).2.index_gl j =
      if st.2.ncg_cell (ncell + cell) + sh ≤ j ∧ j < st.2.ncg_cell (ncell + cell + 1) + sh then
        st.2.index_gl (j - sh) else st.2.index_gl j) ∧
    (∀ j, (merge_shift_cell ncell pulse nrecv nsend st cell).2.cg_cm j =
      if st.2.ncg_cell (ncell + cell) + sh ≤ j ∧ j < st.2.ncg_cell (ncell + cell + 1) + sh then
        st.2.cg_cm (j - sh) else st.2.cg_cm j) ∧
    (∀ j, (merge_shift_cell ncell pulse nrecv nsend st cell).2.cgindex j =
      if st.2.ncg_cell (ncell + cell) + sh ≤ j ∧ j ≤ st.2.ncg_cell (ncell + cell + 1) + sh then
        st.2.cgindex (j - sh) else st.2.cgindex j) ∧
    (∀ q j, (merge_shift_cell ncell pulse nrecv nsend st cell).2.ind_index q j =
      if (1 ≤ q ∧ q ≤ pulse) ∧ nsend_before (nsend q) cell ≤ j ∧
          j < nsend_before (nsend q) cell + nsend q cell then st.2.ind_index q j + sh
      else st.2.ind_index q j) := by
  have hpos : st.1 - (nrecv cell : Int) > 0 := by
    rw [hst]
    exact_mod_cast hsh
  have htn : (st.1 - (nrecv cell : Int)).toNat = sh := by
    rw [hst, Int.toNat_natCast]
  unfold merge_shift_cell
  simp only [if_pos hpos, htn]
  obtain ⟨p1, p2, p3, p4, p5⟩ := merge_shift_index_fold nsend cell sh pulse
    (((List.range' (st.2.ncg_cell (ncell + cell))
        (st.2.ncg_cell (ncell + cell + 1) - st.2.ncg_cell (ncell + cell))).reverse).foldl
      (merge_move_cg sh)
      { st.2 with
        cgindex := Function.update st.2.cgindex (st.2.ncg_cell (ncell + cell + 1) + sh)
          (st.2.cgindex (st.2.ncg_cell (ncell + cell + 1))) })
  obtain ⟨m1, m2, m3, m4, m5⟩ := merge_move_fold sh (st.2.ncg_cell (ncell + cell)) hsh
    (st.2.ncg_cell (ncell + cell + 1) - st.2.ncg_cell (ncell + cell))
    { st.2 with
      cgindex := Function.update st.2.cgindex (st.2.ncg_cell (ncell + cell + 1) + sh)
        (st.2.cgindex (st.2.ncg_cell (ncell + cell + 1))) } _ rfl
  have hb : st.2.ncg_cell (ncell + cell) +
      (st.2.ncg_cell (ncell + cell + 1) - st.2.ncg_cell (ncell + cell)) =
      st.2.ncg_cell (ncell + cell + 1) := by omega
  rw [hb] at m3 m4 m5
  refine ⟨hst, p1.trans m1, ?_, ?_, ?_, ?_⟩
  · intro j
    rw [p2, m3]
  · intro j
    rw [p3, m4]
  · intro j
    rw [p4, m5]
    dsimp only
    by_cases c1 : st.2.ncg_cell (ncell + cell) + sh ≤ j ∧
        j < st.2.ncg_cell (ncell + cell + 1) + sh
    · rw [if_pos c1, if_pos ⟨c1.1, by omega⟩, Function.update_noteq (by omega)]
    · rw [if_neg c1]
      by_cases c2 : j = st.2.ncg_cell (ncell + cell + 1) + sh
      · rw [c2, Function.update_same, if_pos ⟨by omega, le_refl _⟩, Nat.add_sub_cancel]
      · rw [Function.update_noteq c2, if_neg (by omega)]
  · intro q j
    rw [p5, m2]

/-- One cell of the first loop when the shift is not positive: nothing
changes. -/
theorem merge_shift_cell_zero (ncell pulse : Nat) (nrecv : Nat → Nat)
    (nsend : Nat → Nat → Nat) (st : Int × merge_state) (cell : Nat)
    (hst : st.1 - (nrecv cell : Int) = 0) :
    merge_shift_cell ncell pulse nrecv nsend st cell = (0, st.2) := by
  unfold merge_shift_cell
  simp only [hst, gt_iff_lt, lt_self_iff_false, if_false]

theorem recv_before_succ (nrecv : Nat → Nat) (c : Nat) :
    recv_before nrecv (c + 1) = recv_before nrecv c + nrecv c := by
  unfold recv_before
  rw [Finset.sum_range_succ]

theorem recv_before_mono (nrecv : Nat → Nat) (c d : Nat) (h : c ≤ d) :
    recv_before nrecv c ≤ recv_before nrecv d := by
  induction d with
  | zero =>
    have : c = 0 := by omega
    rw [this]
  | succ d ih =>
    rcases Nat.lt_or_ge c (d + 1) with h1 | h1
    · have := ih (by omega)
      rw [recv_before_succ]
      omega
    · have : c = d + 1 := by omega
      rw [this]

/-- The starts of the cells do not decrease. -/
theorem ncg_cell_mono (ncell : Nat) (ncg_cell : Nat → Nat)
    (hS : ∀ c, c < ncell → ncg_cell (ncell + c) ≤ ncg_cell (ncell + c + 1)) (c d : Nat)
    (h : c ≤ d) (hd : d ≤ ncell) : ncg_cell (ncell + c) ≤ ncg_cell (ncell + d) := by
  induction d with
  | zero =>
    have : c = 0 := by omega
    rw [this]
  | succ d ih =>
    rcases Nat.lt_or_ge c (d + 1) with h1 | h1
    · have h2 := ih (by omega) (by omega)
      have h3 := hS d (by omega)
      exact le_trans h2 h3
    · have : c = d + 1 := by omega
      rw [this]

/-- One cell of the first loop keeps the description of the shifted
arrays. -/
theorem merge_shift_cell_step (ncell pulse : Nat) (nrecv : Nat → Nat)
    (nsend : Nat → Nat → Nat) (s0 : merge_state)
    (hS : ∀ c, c < ncell → s0.ncg_cell (ncell + c) ≤ s0.ncg_cell (ncell + c + 1))
    (st : Int × merge_state) (c : Nat) (hc : c < ncell)
    (hsh : st.1 = (recv_before nrecv (c + 1) : Int))
    (h : merge_shifted ncell pulse nrecv nsend s0 st.2 (c + 1)) :
    (merge_shift_cell ncell pulse nrecv nsend st c).1 = (recv_before nrecv c : Int) ∧
    merge_shifted ncell pulse nrecv nsend s0 (merge_shift_cell ncell pulse nrecv nsend st c).2
      c := by
  obtain ⟨i1, i2, i3, i4, i5⟩ := h
  have hT : st.1 - (nrecv c : Int) = (recv_before nrecv c : Int) := by
    rw [hsh, recv_before_succ]
    push_cast
    ring
  have Smono := ncg_cell_mono ncell s0.ncg_cell hS
  have Tmono := recv_before_mono nrecv
  have hSc := hS c hc
  -- the entries of the cell `c` are untouched so far
  have hlow : ∀ j, j ≤ s0.ncg_cell (ncell + c + 1) →
      st.2.index_gl j = s0.index_gl j ∧ st.2.cg_cm j = s0.cg_cm j ∧
        st.2.cgindex j = s0.cgindex j := by
    intro j hj
    apply i4
    intro c' h1 h2 h3
    have := Smono (c + 1) c' h1 (by omega)
    have e : ncell + (c + 1) = ncell + c + 1 := by omega
    rw [e] at this
    omega
  have hseg : ∀ q c' j, c' < ncell → c' ≠ c → nsend_before (nsend q) c' ≤ j →
      j < nsend_before (nsend q) c' + nsend q c' →
      ¬ (nsend_before (nsend q) c ≤ j ∧ j < nsend_before (nsend q) c + nsend q c) := by
    intro q c' j _ hne h1 h2
    rcases Nat.lt_or_ge c' c with h3 | h3
    · have := nsend_before_mono (nsend q) (c' + 1) c (by omega)
      rw [nsend_before_succ] at this
      omega
    · have := nsend_before_mono (nsend q) (c + 1) c' (by omega)
      rw [nsend_before_succ] at this
      omega
  rcases Nat.eq_zero_or_pos (recv_before nrecv c) with hz | hp
  · -- no shift for this cell
    rw [hz] at hT
    have e := merge_shift_cell_zero ncell pulse nrecv nsend st c (by exact_mod_cast hT)
    rw [e]
    refine ⟨by rw [hz]; rfl, i1, ?_, ?_, ?_, ?_⟩
    · intro c' h1 h2 cg g1 g2
      rcases Nat.eq_or_lt_of_le h1 with h3 | h3
      · subst h3
        rw [hz, Nat.add_zero]
        have := hlow cg (by omega)
        exact ⟨this.1, this.2.1⟩
      · exact i2 c' h3 h2 cg g1 g2
    · intro c' h1 h2 cg g1 g2
      rcases Nat.eq_or_lt_of_le h1 with h3 | h3
      · subst h3
        rw [hz, Nat.add_zero]
        exact (hlow cg g2).2.2
      · exact i3 c' h3 h2 cg g1 g2
    · intro j hj
      exact i4 j (fun c' h1 h2 h3 => hj c' (by omega) h2 h3)
    · intro q q1 q2 c' j h1 h2 h3
      rw [i5 q q1 q2 c' j h1 h2 h3]
      congr 1
      rcases Nat.lt_trichotomy c' c with h4 | h4 | h4
      · rw [if_neg (by omega), if_neg (by omega)]
      · subst h4
        rw [if_neg (by omega), if_pos (le_refl _), hz]
      · rw [if_pos (by omega), if_pos (by omega)]
  · -- the cell is moved up by `recv_before nrecv c`
    have hab : st.2.ncg_cell (ncell + c) ≤ st.2.ncg_cell (ncell + c + 1) := by
      rw [i1]
      exact hS c hc
    obtain ⟨r1, r2, r3, r4, r5, r6⟩ := merge_shift_cell_pos ncell pulse nrecv nsend st c
      (recv_before nrecv c) hp hT hab
    rw [i1] at r3 r4 r5
    refine ⟨r1, r2.trans i1, ?_, ?_, ?_, ?_⟩
    · intro c' h1 h2 cg g1 g2
      rw [r3, r4]
      rcases Nat.eq_or_lt_of_le h1 with h3 | h3
      · subst h3
        rw [if_pos ⟨by omega, by omega⟩, if_pos ⟨by omega, by omega⟩, Nat.add_sub_cancel]
        have := hlow cg (by omega)
        exact ⟨this.1, this.2.1⟩
      · have t1 := Tmono c c' (by omega)
        have s1 := Smono (c + 1) c' h3 (by omega)
        have e : ncell + (c + 1) = ncell + c + 1 := by omega
        rw [e] at s1
        rw [if_neg (by omega), if_neg (by omega)]
        exact i2 c' h3 h2 cg g1 g2
    · intro c' h1 h2 cg g1 g2
      rw [r5]
      rcases Nat.eq_or_lt_of_le h1 with h3 | h3
      · subst h3
        rw [if_pos ⟨by omega, by omega⟩, Nat.add_sub_cancel]
        exact (hlow cg g2).2.2
      · have t1 := Tmono c c' (by omega)
        have s1 := Smono (c + 1) c' h3 (by omega)
        have e : ncell + (c + 1) = ncell + c + 1 := by omega
        rw [e] at s1
        by_cases hw : cg + recv_before nrecv c' ≤
            s0.ncg_cell (ncell + c + 1) + recv_before nrecv c
        · have e1 : cg = s0.ncg_cell (ncell + c + 1) := by omega
          have e2 : recv_before nrecv c' = recv_before nrecv c := by omega
          rw [if_pos ⟨by omega, hw⟩, e2, Nat.add_sub_cancel, e1]
          exact (hlow _ (le_refl _)).2.2
        · rw [if_neg (by omega)]
          exact i3 c' h3 h2 cg g1 g2
    · intro j hj
      have hjc := hj c (le_refl _) hc hp
      rw [r3, r4, r5, if_neg (by omega), if_neg (by omega), if_neg (by omega)]
      exact i4 j (fun c' h1 h2 h3 => hj c' (by omega) h2 h3)
    · intro q q1 q2 c' j h1 h2 h3
      rw [r6]
      rcases Nat.lt_trichotomy c' c with h4 | h4 | h4
      · rw [if_neg (fun hh => hseg q c' j h1 (by omega) h2 h3 hh.2),
          i5 q q1 q2 c' j h1 h2 h3, if_neg (by omega), if_neg (by omega)]
      · subst h4
        rw [if_pos ⟨⟨q1, q2⟩, h2, h3⟩, i5 q q1 q2 c' j h1 h2 h3, if_neg (by omega),
          if_pos (le_refl _), Nat.add_zero]
      · rw [if_neg (fun hh => hseg q c' j h1 (by omega) h2 h3 hh.2),
          i5 q q1 q2 c' j h1 h2 h3, if_pos (by omega), if_pos (by omega)]

/-- The first loop of `merge_cg_buffers`: from the cell `m - 1` down to the
cell 0. -/
theorem merge_shift_loop (ncell pulse : Nat) (nrecv : Nat → Nat) (nsend : Nat → Nat → Nat)
    (s0 : merge_state)
    (hS : ∀ c, c < ncell → s0.ncg_cell (ncell + c) ≤ s0.ncg_cell (ncell + c + 1)) :
    ∀ (m : Nat) (st : Int × merge_state), m ≤ ncell →
      st.1 = (recv_before nrecv m : Int) →
      merge_shifted ncell pulse nrecv nsend s0 st.2 m →
      merge_shifted ncell pulse nrecv nsend s0
        (((List.range m).reverse).foldl (merge_shift_cell ncell pulse nrecv nsend) st).2 0 := by
  intro m
  induction m with
  | zero =>
    intro st _ _ h
    exact h
  | succ m ih =>
    intro st hm hsh h
    rw [List.range_succ, List.reverse_append, List.reverse_singleton, List.singleton_append,
      List.foldl_cons]
    obtain ⟨g1, g2⟩ := merge_shift_cell_step ncell pulse nrecv nsend s0 hS st m (by omega) hsh h
    exact ih _ (by omega) g1 g2

/-- The loop that corrects the old entries of `cgindex` of a cell: the
entries `a+1, ..., a+n` grow by `shift_at`. -/
theorem merge_correct_fold (shift_at a : Nat) :
    ∀ (n : Nat) (s : merge_state),
      ((List.range' a n).foldl
        (fun (s : merge_state) cg =>
          ({ s with
            cgindex := Function.update s.cgindex (cg + 1)
              (s.cgindex (cg + 1) + shift_at) } : merge_state)) s).ncg_cell = s.ncg_cell ∧
      ((List.range' a n).foldl
        (fun (s : merge_state) cg =>
          ({ s with
            cgindex := Function.update s.cgindex (cg + 1)
              (s.cgindex (cg + 1) + shift_at) } : merge_state)) s).index_gl = s.index_gl ∧
      ((List.range' a n).foldl
        (fun (s : merge_state) cg =>
          ({ s with
            cgindex := Function.update s.cgindex (cg + 1)
              (s.cgindex (cg + 1) + shift_at) } : merge_state)) s).cg_cm = s.cg_cm ∧
      ((List.range' a n).foldl
        (fun (s : merge_state) cg =>
          ({ s with
            cgindex := Function.update s.cgindex (cg + 1)
              (s.cgindex (cg + 1) + shift_at) } : merge_state)) s).ind_index = s.ind_index ∧
      ∀ j, ((List.range' a n).foldl
        (fun (s : merge_state) cg =>
          ({ s with
            cgindex := Function.update s.cgindex (cg + 1)
              (s.cgindex (cg + 1) + shift_at) } : merge_state)) s).cgindex j =
        if a + 1 ≤ j ∧ j ≤ a + n then s.cgindex j + shift_at else s.cgindex j := by
  intro n
  induction n with
  | zero =>
    intro s
    simp only [List.range'_zero, List.foldl_nil]
    refine ⟨trivial, trivial, trivial, trivial, ?_⟩
    intro j
    rw [if_neg (by omega)]
  | succ n ih =>
    intro s
    rw [List.range'_1_concat, List.foldl_append, List.foldl_cons, List.foldl_nil]
    obtain ⟨h1, h2, h3, h4, h5⟩ := ih s
    generalize (List.range' a n).foldl
        (fun (s : merge_state) cg =>
          ({ s with
            cgindex := Function.update s.cgindex (cg + 1)
              (s.cgindex (cg + 1) + shift_at) } : merge_state)) s = t at h1 h2 h3 h4 h5
    refine ⟨h1, h2, h3, h4, ?_⟩
    intro j
    dsimp only
    by_cases hj : j = a + n + 1
    · subst hj
      rw [Function.update_same, h5, if_neg (by omega), if_pos (by omega)]
    · rw [Function.update_noteq hj, h5]
      by_cases c : a + 1 ≤ j ∧ j ≤ a + n
      · rw [if_pos c, if_pos (by omega)]
      · rw [if_neg c, if_neg (by omega)]

/-- The loop that copies the received charge groups of a cell from the
buffers: after `n` charge groups the entries `B, ..., B+n-1` hold the buffer
entries from `pos.cg0` on, `cgindex` continues the running sum from the entry
`B`, and `shift_at` has grown by the atoms copied. -/
theorem merge_recv_fold (recv_i : Nat → Nat) (recv_vr : Nat → rvec) (gcgs_index : Nat → Nat)
    (pos : merge_pos) (s : merge_state) :
    ∀ (n : Nat) (r : merge_pos × merge_state),
      r = (List.range n).foldl (fun st _ => merge_recv_cg recv_i recv_vr gcgs_index st)
        (pos, s) →
      r.1.shift = pos.shift ∧ r.1.cg0 = pos.cg0 + n ∧ r.1.cg1 = pos.cg1 + n ∧
      r.2.ncg_cell = s.ncg_cell ∧ r.2.ind_index = s.ind_index ∧
      (∀ j, r.2.index_gl j =
        if pos.cg1 ≤ j ∧ j < pos.cg1 + n then recv_i (j - pos.cg1 + pos.cg0)
        else s.index_gl j) ∧
      (∀ j, r.2.cg_cm j =
        if pos.cg1 ≤ j ∧ j < pos.cg1 + n then recv_vr (j - pos.cg1 + pos.cg0)
        else s.cg_cm j) ∧
      (∀ j, j ≤ pos.cg1 ∨ pos.cg1 + n < j → r.2.cgindex j = s.cgindex j) ∧
      (∀ j, pos.cg1 ≤ j → j < pos.cg1 + n →
        r.2.cgindex (j + 1) = r.2.cgindex j + gcgs_size gcgs_index (r.2.index_gl j)) ∧
      r.2.cgindex (pos.cg1 + n) + pos.shift_at = s.cgindex pos.cg1 + r.1.shift_at := by
  intro n
  induction n with
  | zero =>
    intro r hr
    simp only [List.range_zero, List.foldl_nil] at hr
    subst hr
    refine ⟨rfl, rfl, rfl, rfl, rfl, ?_, ?_, fun _ _ => rfl, ?_, rfl⟩
    · intro j
      rw [if_neg (by omega)]
    · intro j
      rw [if_neg (by omega)]
    · intro j h1 h2
      omega
  | succ n ih =>
    intro r hr
    rw [List.range_succ, List.foldl_append, List.foldl_cons, List.foldl_nil] at hr
    obtain ⟨h1, h2, h3, h4, h5, h6, h7, h8, h9, h10⟩ := ih _ rfl
    generalize (List.range n).foldl (fun st _ => merge_recv_cg recv_i recv_vr gcgs_index st)
        (pos, s) = t at hr h1 h2 h3 h4 h5 h6 h7 h8 h9 h10
    subst hr
    unfold merge_recv_cg
    dsimp only
    rw [h2, h3, Function.update_same]
    have hidx : ∀ j, Function.update t.2.index_gl (pos.cg1 + n) (recv_i (pos.cg0 + n)) j =
        if pos.cg1 ≤ j ∧ j < pos.cg1 + (n + 1) then recv_i (j - pos.cg1 + pos.cg0)
        else s.index_gl j := by
      intro j
      by_cases hj : j = pos.cg1 + n
      · subst hj
        rw [Function.update_same, if_pos (by omega)]
        congr 1
        omega
      · rw [Function.update_noteq hj, h6]
        by_cases c : pos.cg1 ≤ j ∧ j < pos.cg1 + n
        · rw [if_pos c, if_pos (by omega)]
        · rw [if_neg c, if_neg (by omega)]
    refine ⟨h1, by omega, by omega, h4, h5, hidx, ?_, ?_, ?_, ?_⟩
    · intro j
      by_cases hj : j = pos.cg1 + n
      · subst hj
        rw [Function.update_same, if_pos (by omega),
          show pos.cg1 + n - pos.cg1 + pos.cg0 = pos.cg0 + n by omega]
      · rw [Function.update_noteq hj, h7]
        by_cases c : pos.cg1 ≤ j ∧ j < pos.cg1 + n
        · rw [if_pos c, if_pos (by omega)]
        · rw [if_neg c, if_neg (by omega)]
    · intro j hj
      rw [Function.update_noteq (by omega)]
      exact h8 j (by omega)
    · intro j j1 j2
      by_cases hj : j = pos.cg1 + n
      · subst hj
        rw [Function.update_same, Function.update_noteq (by omega), Function.update_same]
        rfl
      · rw [Function.update_noteq (by omega), Function.update_noteq (by omega),
          Function.update_noteq hj]
        exact h9 j j1 (by omega)
    · rw [show pos.cg1 + (n + 1) = pos.cg1 + n + 1 by omega, Function.update_same]
      generalize gcgs_index (recv_i (pos.cg0 + n) + 1) - gcgs_index (recv_i (pos.cg0 + n)) = x
      omega

/-- One cell of the second loop, for the start `a` of the cell and the end
`B` of its stored charge groups: the old entries `a+1, ..., B` of `cgindex`
grow by `shift_at`, the received charge groups are copied to the entries
`B, ..., B+nrecv-1`, and the end of the cell becomes `B + nrecv`. -/
theorem merge_recv_cell_spec (ncell : Nat) (nrecv : Nat → Nat) (recv_i : Nat → Nat)
    (recv_vr : Nat → rvec) (gcgs_index : Nat → Nat) (st : merge_pos × merge_state)
    (cell a B : Nat) (ha : st.2.ncg_cell (ncell + cell) = a)
    (hB : st.2.ncg_cell (ncell + cell + 1) + st.1.shift = B) (hab : a ≤ B) :
    (merge_recv_cell ncell nrecv recv_i recv_vr gcgs_index st cell).1.shift =
      st.1.shift + nrecv cell ∧
    (merge_recv_cell ncell nrecv recv_i recv_vr gcgs_index st cell).1.cg0 =
      st.1.cg0 + nrecv cell ∧
    (∀ i, (merge_recv_cell ncell nrecv recv_i recv_vr gcgs_index st cell).2.ncg_cell i =
      if i = ncell + cell + 1 then B + nrecv cell else st.2.ncg_cell i) ∧
    (merge_recv_cell ncell nrecv recv_i recv_vr gcgs_index st cell).2.ind_index =
      st.2.ind_index ∧
    (∀ j, (merge_recv_cell ncell nrecv recv_i recv_vr gcgs_index st cell).2.index_gl j =
      if B ≤ j ∧ j < B + nrecv cell then recv_i (j - B + st.1.cg0) else st.2.index_gl j) ∧
    (∀ j, (merge_recv_cell ncell nrecv recv_i recv_vr gcgs_index st cell).2.cg_cm j =
      if B ≤ j ∧ j < B + nrecv cell then recv_vr (j - B + st.1.cg0) else st.2.cg_cm j) ∧
    (∀ j, j ≤ B →
      (merge_recv_cell ncell nrecv recv_i recv_vr gcgs_index st cell).2.cgindex j =
        if a + 1 ≤ j then st.2.cgindex j + st.1.shift_at else st.2.cgindex j) ∧
    (∀ j, B + nrecv cell < j →
      (merge_recv_cell ncell nrecv recv_i recv_vr gcgs_index st cell).2.cgindex j =
        st.2.cgindex j) ∧
    (∀ j, B ≤ j → j < B + nrecv cell →
      (merge_recv_cell ncell nrecv recv_i recv_vr gcgs_index st cell).2.cgindex (j + 1) =
        (merge_recv_cell ncell nrecv recv_i recv_vr gcgs_index st cell).2.cgindex j +
          gcgs_size gcgs_index
            ((merge_recv_cell ncell nrecv recv_i recv_vr gcgs_index st cell).2.index_gl j)) ∧
    (merge_recv_cell ncell nrecv recv_i recv_vr gcgs_index st cell).2.cgindex
        (B + nrecv cell) + st.1.shift_at =
      (if a + 1 ≤ B then st.2.cgindex B + st.1.shift_at else st.2.cgindex B) +
        (merge_recv_cell ncell nrecv recv_i recv_vr gcgs_index st cell).1.shift_at := by
  obtain ⟨S1, hS1⟩ : ∃ S1 : merge_state, S1 =
      (if st.1.shift_at > 0 then
        (List.range' (st.2.ncg_cell (ncell + cell))
            (st.2.ncg_cell (ncell + cell + 1) + st.1.shift -
              st.2.ncg_cell (ncell + cell))).foldl
          (fun (s : merge_state) cg =>
            ({ s with
              cgindex := Function.update s.cgindex (cg + 1)
                (s.cgindex (cg + 1) + st.1.shift_at) } : merge_state))
          st.2
      else st.2) := ⟨_, rfl⟩
  obtain ⟨R, hR⟩ : ∃ R : merge_pos × merge_state, R =
      (List.range (nrecv cell)).foldl
        (fun st _ => merge_recv_cg recv_i recv_vr gcgs_index st)
        (⟨st.1.shift, st.1.shift_at, st.1.cg0,
          st.2.ncg_cell (ncell + cell + 1) + st.1.shift⟩, S1) := ⟨_, rfl⟩
  have hdef : merge_recv_cell ncell nrecv recv_i recv_vr gcgs_index st cell =
      (⟨R.1.shift + nrecv cell, R.1.shift_at, R.1.cg0, R.1.cg1⟩,
        { R.2 with ncg_cell := Function.update R.2.ncg_cell (ncell + cell + 1) R.1.cg1 }) := by
    rw [hR, hS1]
    rfl
  rw [hdef]
  dsimp only
  -- the state after the correction of the old entries
  have hc : S1.ncg_cell = st.2.ncg_cell ∧ S1.index_gl = st.2.index_gl ∧
      S1.cg_cm = st.2.cg_cm ∧ S1.ind_index = st.2.ind_index ∧
      ∀ j, S1.cgindex j =
        if a + 1 ≤ j ∧ j ≤ B then st.2.cgindex j + st.1.shift_at else st.2.cgindex j := by
    rw [hS1]
    by_cases hp : st.1.shift_at > 0
    · rw [if_pos hp, ha, hB]
      obtain ⟨c1, c2, c3, c4, c5⟩ := merge_correct_fold st.1.shift_at a (B - a) st.2
      rw [show a + (B - a) = B by omega] at c5
      exact ⟨c1, c2, c3, c4, c5⟩
    · rw [if_neg hp]
      refine ⟨rfl, rfl, rfl, rfl, ?_⟩
      intro j
      have : st.1.shift_at = 0 := by omega
      rw [this]
      split_ifs <;> rfl
  obtain ⟨c1, c2, c3, c4, c5⟩ := hc
  rw [hB] at hR
  obtain ⟨r1, r2, r3, r4, r5, r6, r7, r8, r9, r10⟩ := merge_recv_fold recv_i recv_vr gcgs_index
    ⟨st.1.shift, st.1.shift_at, st.1.cg0, B⟩ S1 (nrecv cell) R hR
  dsimp only at r1 r2 r3 r6 r7 r8 r9 r10
  refine ⟨by rw [r1], r2, ?_, by rw [r5, c4], ?_, ?_, ?_, ?_, r9, ?_⟩
  · intro i
    by_cases hi : i = ncell + cell + 1
    · rw [hi, Function.update_same, if_pos rfl, r3]
    · rw [Function.update_noteq hi, if_neg hi, r4, c1]
  · intro j
    rw [r6, c2]
  · intro j
    rw [r7, c3]
  · intro j hj
    rw [r8 j (Or.inl hj), c5]
    by_cases h1 : a + 1 ≤ j
    · rw [if_pos ⟨h1, hj⟩, if_pos h1]
    · rw [if_neg (by tauto), if_neg h1]
  · intro j hj
    rw [r8 j (Or.inr hj), c5, if_neg (by omega)]
  · rw [r10, c5]
    by_cases h1 : a + 1 ≤ B
    · rw [if_pos ⟨h1, le_refl _⟩, if_pos h1]
    · rw [if_neg (by tauto), if_neg h1]

/-- One cell of the second loop keeps the description of the merged
arrays. -/
theorem merge_recv_cell_step (ncell pulse : Nat) (nrecv : Nat → Nat)
    (nsend : Nat → Nat → Nat) (recv_i : Nat → Nat) (recv_vr : Nat → rvec)
    (gcgs_index : Nat → Nat) (s0 : merge_state)
    (hS : ∀ c, c < ncell → s0.ncg_cell (ncell + c) ≤ s0.ncg_cell (ncell + c + 1))
    (hcg : ∀ cg, s0.ncg_cell (ncell + 0) ≤ cg → cg < s0.ncg_cell (ncell + ncell) →
      s0.cgindex (cg + 1) = s0.cgindex cg + gcgs_size gcgs_index (s0.index_gl cg))
    (st : merge_pos × merge_state) (c : Nat) (hc : c < ncell)
    (h : merge_merged ncell pulse nrecv nsend recv_i recv_vr gcgs_index s0 st c) :
    merge_merged ncell pulse nrecv nsend recv_i recv_vr gcgs_index s0
      (merge_recv_cell ncell nrecv recv_i recv_vr gcgs_index st c) (c + 1) := by
  obtain ⟨⟨p1, p2⟩, n1, g1, g2, g0, c0, c2, c3, c4, e1⟩ := h
  have Smono := ncg_cell_mono ncell s0.ncg_cell hS
  have Tmono := recv_before_mono nrecv
  have hSc := hS c hc
  have hT := recv_before_succ nrecv c
  have hS0 := Smono 0 c (Nat.zero_le _) (by omega)
  have hSn := Smono (c + 1) ncell (by omega) (le_refl _)
  have e : ncell + (c + 1) = ncell + c + 1 := by omega
  rw [e] at hSn
  have ha : st.2.ncg_cell (ncell + c) =
      s0.ncg_cell (ncell + c) + recv_before nrecv c := by
    rw [n1 c (by omega), if_pos (le_refl _)]
  have hB : st.2.ncg_cell (ncell + c + 1) + st.1.shift =
      s0.ncg_cell (ncell + c + 1) + recv_before nrecv c := by
    have := n1 (c + 1) (by omega)
    rw [e, if_neg (by omega)] at this
    omega
  obtain ⟨r1, r2, r3, r4, r5, r6, r7, r8, r9, r10⟩ := merge_recv_cell_spec ncell nrecv recv_i
    recv_vr gcgs_index st c _ _ ha hB (by omega)
  generalize merge_recv_cell ncell nrecv recv_i recv_vr gcgs_index st c = r
    at r1 r2 r3 r4 r5 r6 r7 r8 r9 r10 ⊢
  refine ⟨⟨by rw [r1, p1, hT], by rw [r2, p2, hT]⟩, ?_, ?_, ?_, ?_, ?_, ?_, ?_, ?_, ?_⟩
  · -- the ends of the cells
    intro c' hc'
    rw [r3]
    by_cases h1 : c' = c + 1
    · subst h1
      rw [if_pos (by omega), if_pos (le_refl _), e, hT]
      omega
    · rw [if_neg (by omega), n1 c' hc']
      by_cases h2 : c' ≤ c
      · rw [if_pos h2, if_pos (by omega)]
      · rw [if_neg h2, if_neg (by omega)]
  · -- the stored charge groups
    intro c' hc' cg k1 k2
    have hout : ¬ (s0.ncg_cell (ncell + c + 1) + recv_before nrecv c ≤
          cg + recv_before nrecv c' ∧
        cg + recv_before nrecv c' <
          s0.ncg_cell (ncell + c + 1) + recv_before nrecv c + nrecv c) := by
      rcases Nat.lt_or_ge c c' with h1 | h1
      · have s1 := Smono (c + 1) c' h1 (by omega)
        have t1 := Tmono (c + 1) c' h1
        rw [e] at s1
        omega
      · have s1 := Smono (c' + 1) (c + 1) (by omega) (by omega)
        have t1 := Tmono c' c h1
        have e' : ncell + (c' + 1) = ncell + c' + 1 := by omega
        rw [e, e'] at s1
        omega
    rw [r5, r6, if_neg hout, if_neg hout]
    exact g1 c' hc' cg k1 k2
  · -- the received charge groups
    intro c' hc' k hk
    rcases Nat.eq_or_lt_of_le (Nat.le_of_lt_succ hc') with h1 | h1
    · subst h1
      rw [r5, r6, if_pos ⟨by omega, by omega⟩, if_pos ⟨by omega, by omega⟩, p2]
      have e2 : s0.ncg_cell (ncell + c' + 1) + recv_before nrecv c' + k -
          (s0.ncg_cell (ncell + c' + 1) + recv_before nrecv c') + recv_before nrecv c' =
          recv_before nrecv c' + k := by omega
      rw [e2]
      exact ⟨rfl, rfl⟩
    · have s1 := Smono (c' + 1) c (by omega) (by omega)
      have t1 := Tmono (c' + 1) c (by omega)
      have e' : ncell + (c' + 1) = ncell + c' + 1 := by omega
      rw [e'] at s1
      rw [recv_before_succ] at t1
      rw [r5, r6, if_neg (by omega), if_neg (by omega)]
      exact g2 c' h1 k hk
  · intro j hj
    rw [r5, r6, if_neg (by omega), if_neg (by omega)]
    exact g0 j hj
  · intro j hj
    rw [r7 j (by omega), if_neg (by omega)]
    exact c0 j hj
  · -- the running sum
    intro j j1 j2
    rw [e, hT] at j2
    rcases Nat.lt_or_ge j (s0.ncg_cell (ncell + c) + recv_before nrecv c) with k1 | k1
    · rw [r7 (j + 1) (by omega), if_neg (by omega), r7 j (by omega), if_neg (by omega), r5,
        if_neg (by omega)]
      exact c2 j j1 k1
    · rcases Nat.lt_or_ge j (s0.ncg_cell (ncell + c + 1) + recv_before nrecv c) with k2 | k2
      · have hnext := c4 c (le_refl _) hc (j + 1 - recv_before nrecv c) (by omega) (by omega)
        rw [show j + 1 - recv_before nrecv c + recv_before nrecv c = j + 1 by omega] at hnext
        have hidx := (g1 c hc (j - recv_before nrecv c) (by omega) (by omega)).1
        rw [show j - recv_before nrecv c + recv_before nrecv c = j by omega] at hidx
        have hsum := hcg (j - recv_before nrecv c) (by omega) (by omega)
        rw [show j - recv_before nrecv c + 1 = j + 1 - recv_before nrecv c by omega] at hsum
        have hthis : r.2.cgindex j = s0.cgindex (j - recv_before nrecv c) + st.1.shift_at := by
          rw [r7 j (by omega)]
          rcases Nat.eq_or_lt_of_le k1 with k3 | k3
          · rw [if_neg (by omega), ← k3, c3, Nat.add_sub_cancel]
          · rw [if_pos (by omega)]
            have := c4 c (le_refl _) hc (j - recv_before nrecv c) (by omega) (by omega)
            rw [show j - recv_before nrecv c + recv_before nrecv c = j by omega] at this
            rw [this]
        rw [r7 (j + 1) (by omega), if_pos (by omega), hnext, hthis, r5, if_neg (by omega), hidx,
          hsum]
        omega
      · exact r9 j k2 (by omega)
  · -- the entry at the start of the next cell
    rw [e, hT, ← Nat.add_assoc]
    by_cases k1 : s0.ncg_cell (ncell + c) + recv_before nrecv c + 1 ≤
        s0.ncg_cell (ncell + c + 1) + recv_before nrecv c
    · rw [if_pos k1] at r10
      have := c4 c (le_refl _) hc (s0.ncg_cell (ncell + c + 1)) (by omega) (le_refl _)
      rw [this] at r10
      omega
    · rw [if_neg k1] at r10
      have k2 : s0.ncg_cell (ncell + c + 1) = s0.ncg_cell (ncell + c) := by omega
      rw [k2] at r10 ⊢
      rw [c3] at r10
      omega
  · -- the later entries of cgindex
    intro c' h1 h2 cg k1 k2
    have s1 := Smono (c + 1) c' h1 (by omega)
    have t1 := Tmono (c + 1) c' h1
    rw [e] at s1
    rw [r8 _ (by omega)]
    exact c4 c' (by omega) h2 cg k1 k2
  · intro q q1 q2 c' j k1 k2 k3
    rw [r4]
    exact e1 q q1 q2 c' j k1 k2 k3

/-- The second loop of `merge_cg_buffers` over the cells before `m`. -/
theorem merge_recv_loop (ncell pulse : Nat) (nrecv : Nat → Nat)
    (nsend : Nat → Nat → Nat) (recv_i : Nat → Nat) (recv_vr : Nat → rvec)
    (gcgs_index : Nat → Nat) (s0 : merge_state)
    (hS : ∀ c, c < ncell → s0.ncg_cell (ncell + c) ≤ s0.ncg_cell (ncell + c + 1))
    (hcg : ∀ cg, s0.ncg_cell (ncell + 0) ≤ cg → cg < s0.ncg_cell (ncell + ncell) →
      s0.cgindex (cg + 1) = s0.cgindex cg + gcgs_size gcgs_index (s0.index_gl cg))
    (st : merge_pos × merge_state)
    (h : merge_merged ncell pulse nrecv nsend recv_i recv_vr gcgs_index s0 st 0) :
    ∀ m, m ≤ ncell →
      merge_merged ncell pulse nrecv nsend recv_i recv_vr gcgs_index s0
        ((List.range m).foldl (merge_recv_cell ncell nrecv recv_i recv_vr gcgs_index) st) m := by
  intro m
  induction m with
  | zero => intro _; exact h
  | succ m ih =>
    intro hm
    rw [List.range_succ, List.foldl_append, List.foldl_cons, List.foldl_nil]
    exact merge_recv_cell_step ncell pulse nrecv nsend recv_i recv_vr gcgs_index s0 hS hcg _ m
      (by omega) (ih (by omega))

/-- The arrays after the first loop are those from which the second loop
starts. -/
theorem merge_merged_init (ncell pulse : Nat) (nrecv : Nat → Nat)
    (nsend : Nat → Nat → Nat) (recv_i : Nat → Nat) (recv_vr : Nat → rvec)
    (gcgs_index : Nat → Nat) (s0 s1 : merge_state)
    (hS : ∀ c, c < ncell → s0.ncg_cell (ncell + c) ≤ s0.ncg_cell (ncell + c + 1))
    (h : merge_shifted ncell pulse nrecv nsend s0 s1 0) :
    merge_merged ncell pulse nrecv nsend recv_i recv_vr gcgs_index s0 (⟨0, 0, 0, 0⟩, s1) 0 := by
  obtain ⟨i1, i2, i3, i4, i5⟩ := h
  have Smono := ncg_cell_mono ncell s0.ncg_cell hS
  have hT0 : recv_before nrecv 0 = 0 := by simp [recv_before]
  have hlow : ∀ j, j ≤ s0.ncg_cell (ncell + 0) →
      s1.index_gl j = s0.index_gl j ∧ s1.cg_cm j = s0.cg_cm j ∧ s1.cgindex j = s0.cgindex j := by
    intro j hj
    apply i4
    intro c' _ h2 h3
    have := Smono 0 c' (Nat.zero_le _) (by omega)
    omega
  refine ⟨⟨hT0.symm, hT0.symm⟩, ?_, ?_, ?_, ?_, ?_, ?_, ?_, ?_, ?_⟩
  · intro c' _
    rw [i1]
    by_cases h1 : c' ≤ 0
    · have : c' = 0 := by omega
      subst this
      rw [if_pos h1, hT0]
      rfl
    · rw [if_neg h1]
      rfl
  · intro c' hc' cg k1 k2
    exact i2 c' (Nat.zero_le _) hc' cg k1 k2
  · intro c' hc'
    omega
  · intro j hj
    have := hlow j (by omega)
    exact ⟨this.1, this.2.1⟩
  · intro j hj
    exact (hlow j hj).2.2
  · intro j j1 j2
    rw [hT0] at j2
    omega
  · dsimp only
    rw [hT0, Nat.add_zero, Nat.add_zero]
    exact (hlow _ (le_refl _)).2.2
  · intro c' _ h2 cg k1 k2
    exact i3 c' (Nat.zero_le _) h2 cg (by omega) k2
  · intro q q1 q2 c' j k1 k2 k3
    rw [i5 q q1 q2 c' j k1 k2 k3, if_pos (Nat.zero_le _)]

/-- C24: given zone arrays in which the stored charge groups of the source
cell `c` occupy the range `ncg_cell[ncell+c] .. ncg_cell[ncell+c+1]`, with
`cgindex` the running sum of the sizes over these ranges and `nrecv[ncell]`
the total of the receive counts, `merge_cg_buffers` produces arrays in which
`ncg_cell[ncell+c]` has grown by the number of charge groups received for the
cells before `c`, every stored charge group lies in its old order shifted by
that number, followed by the `nrecv[c]` received charge groups of the cell in
buffer order, everything before the zone is untouched, `cgindex` is again the
running sum of the sizes, and each send index of the pulses `1..pulse` has
grown by the shift of its cell, so that it names the same charge group when
it pointed into the range of its cell. -/
theorem merge_cg_buffers_merges (ncell pulse : Nat) (nrecv : Nat → Nat)
    (nsend : Nat → Nat → Nat) (recv_i : Nat → Nat) (recv_vr : Nat → rvec)
    (gcgs_index : Nat → Nat) (s0 : merge_state)
    (hS : ∀ c, c < ncell → s0.ncg_cell (ncell + c) ≤ s0.ncg_cell (ncell + c + 1))
    (htot : nrecv ncell = recv_before nrecv ncell)
    (hcg : ∀ cg, s0.ncg_cell ncell ≤ cg → cg < s0.ncg_cell (ncell + ncell) →
      s0.cgindex (cg + 1) = s0.cgindex cg + gcgs_size gcgs_index (s0.index_gl cg)) :
    (∀ c, c ≤ ncell →
      (merge_cg_buffers ncell pulse nrecv nsend recv_i recv_vr gcgs_index s0).ncg_cell
          (ncell + c) = s0.ncg_cell (ncell + c) + recv_before nrecv c) ∧
    (∀ c, c < ncell →
      ∀ cg, s0.ncg_cell (ncell + c) ≤ cg → cg < s0.ncg_cell (ncell + c + 1) →
        (merge_cg_buffers ncell pulse nrecv nsend recv_i recv_vr gcgs_index s0).index_gl
            (cg + recv_before nrecv c) = s0.index_gl cg ∧
        (merge_cg_buffers ncell pulse nrecv nsend recv_i recv_vr gcgs_index s0).cg_cm
            (cg + recv_before nrecv c) = s0.cg_cm cg) ∧
    (∀ c, c < ncell → ∀ k, k < nrecv c →
      (merge_cg_buffers ncell pulse nrecv nsend recv_i recv_vr gcgs_index s0).index_gl
          (s0.ncg_cell (ncell + c + 1) + recv_before nrecv c + k) =
        recv_i (recv_before nrecv c + k) ∧
      (merge_cg_buffers ncell pulse nrecv nsend recv_i recv_vr gcgs_index s0).cg_cm
          (s0.ncg_cell (ncell + c + 1) + recv_before nrecv c + k) =
        recv_vr (recv_before nrecv c + k)) ∧
    (∀ j, j < s0.ncg_cell ncell →
      (merge_cg_buffers ncell pulse nrecv nsend recv_i recv_vr gcgs_index s0).index_gl j =
        s0.index_gl j ∧
      (merge_cg_buffers ncell pulse nrecv nsend recv_i recv_vr gcgs_index s0).cg_cm j =
        s0.cg_cm j) ∧
    (∀ j, j ≤ s0.ncg_cell ncell →
      (merge_cg_buffers ncell pulse nrecv nsend recv_i recv_vr gcgs_index s0).cgindex j =
        s0.cgindex j) ∧
    (∀ j, s0.ncg_cell ncell ≤ j →
      j < s0.ncg_cell (ncell + ncell) + recv_before nrecv ncell →
      (merge_cg_buffers ncell pulse nrecv nsend recv_i recv_vr gcgs_index s0).cgindex (j + 1) =
        (merge_cg_buffers ncell pulse nrecv nsend recv_i recv_vr gcgs_index s0).cgindex j +
          gcgs_size gcgs_index
            ((merge_cg_buffers ncell pulse nrecv nsend recv_i recv_vr gcgs_index s0).index_gl
              j)) ∧
    (∀ q, 1 ≤ q → q ≤ pulse → ∀ c j, c < ncell →
      nsend_before (nsend q) c ≤ j → j < nsend_before (nsend q) c + nsend q c →
      (merge_cg_buffers ncell pulse nrecv nsend recv_i recv_vr gcgs_index s0).ind_index q j =
        s0.ind_index q j + recv_before nrecv c ∧
      (s0.ncg_cell (ncell + c) ≤ s0.ind_index q j →
        s0.ind_index q j < s0.ncg_cell (ncell + c + 1) →
        (merge_cg_buffers ncell pulse nrecv nsend recv_i recv_vr gcgs_index s0).index_gl
            ((merge_cg_buffers ncell pulse nrecv nsend recv_i recv_vr gcgs_index
              s0).ind_index q j) = s0.index_gl (s0.ind_index q j) ∧
        (merge_cg_buffers ncell pulse nrecv nsend recv_i recv_vr gcgs_index s0).cg_cm
            ((merge_cg_buffers ncell pulse nrecv nsend recv_i recv_vr gcgs_index
              s0).ind_index q j) = s0.cg_cm (s0.ind_index q j))) := by
  have h1 := merge_shift_loop ncell pulse nrecv nsend s0 hS ncell ((nrecv ncell : Int), s0)
    (le_refl _) (by rw [htot])
    ⟨rfl, fun c' a b => by omega, fun c' a b => by omega, fun _ _ => ⟨rfl, rfl, rfl⟩,
      fun q _ _ c' j hc' _ _ => by rw [if_neg (by omega), Nat.add_zero]⟩
  have h2 := merge_recv_loop ncell pulse nrecv nsend recv_i recv_vr gcgs_index s0 hS
    (by rw [Nat.add_zero]; exact hcg) _
    (merge_merged_init ncell pulse nrecv nsend recv_i recv_vr gcgs_index s0 _ hS h1)
    ncell (le_refl _)
  obtain ⟨_, n1, g1, g2, g0, c0, c2, _, _, e1⟩ := h2
  rw [Nat.add_zero] at g0 c0 c2
  refine ⟨?_, g1, g2, g0, c0, c2, ?_⟩
  · intro c hc
    have := n1 c hc
    rw [if_pos hc] at this
    exact this
  · intro q q1 q2 c j hc k1 k2
    have he := e1 q q1 q2 c j hc k1 k2
    refine ⟨he, ?_⟩
    intro k3 k4
    unfold merge_cg_buffers
    rw [he]
    exact g1 c hc _ k3 k4

theorem ex_merge_state_ranges (c : Nat) (hc : c < 2) :
    ex_merge_state.ncg_cell (2 + c) ≤ ex_merge_state.ncg_cell (2 + c + 1) := by
  interval_cases c <;> decide

theorem ex_merge_nrecv_total : ex_merge_nrecv 2 = recv_before ex_merge_nrecv 2 := by
  simp [recv_before, Finset.sum_range_succ, ex_merge_nrecv]

theorem ex_merge_state_cgindex (cg : Nat) (_h1 : ex_merge_state.ncg_cell 2 ≤ cg)
    (_h2 : cg < ex_merge_state.ncg_cell (2 + 2)) :
    ex_merge_state.cgindex (cg + 1) =
      ex_merge_state.cgindex cg + gcgs_size (fun c => 2 * c) (ex_merge_state.index_gl cg) := by
  simp only [ex_merge_state, gcgs_size]
  omega

/-- Witness of C24: two source cells that hold two and one charge groups and
receive one and two. -/
theorem merge_cg_buffers_merges_witness :
    ((∀ c, c < 2 → ex_merge_state.ncg_cell (2 + c) ≤ ex_merge_state.ncg_cell (2 + c + 1)) ∧
      ex_merge_nrecv 2 = recv_before ex_merge_nrecv 2 ∧
      (∀ cg, ex_merge_state.ncg_cell 2 ≤ cg → cg < ex_merge_state.ncg_cell (2 + 2) →
        ex_merge_state.cgindex (cg + 1) =
          ex_merge_state.cgindex cg +
            gcgs_size (fun c => 2 * c) (ex_merge_state.index_gl cg))) ∧
    ((∀ c, c ≤ 2 →
      (merge_cg_buffers 2 1 ex_merge_nrecv ex_merge_nsend (fun k => 20 + k)
          (fun k _ => ((100 + k : Nat) : real)) (fun c => 2 * c) ex_merge_state).ncg_cell
          (2 + c) = ex_merge_state.ncg_cell (2 + c) + recv_before ex_merge_nrecv c) ∧
    (∀ c, c < 2 →
      ∀ cg, ex_merge_state.ncg_cell (2 + c) ≤ cg → cg < ex_merge_state.ncg_cell (2 + c + 1) →
        (merge_cg_buffers 2 1 ex_merge_nrecv ex_merge_nsend (fun k => 20 + k)
          (fun k _ => ((100 + k : Nat) : real)) (fun c => 2 * c) ex_merge_state).index_gl
            (cg + recv_before ex_merge_nrecv c) = ex_merge_state.index_gl cg ∧
        (merge_cg_buffers 2 1 ex_merge_nrecv ex_merge_nsend (fun k => 20 + k)
          (fun k _ => ((100 + k : Nat) : real)) (fun c => 2 * c) ex_merge_state).cg_cm
            (cg + recv_before ex_merge_nrecv c) = ex_merge_state.cg_cm cg) ∧
    (∀ c, c < 2 → ∀ k, k < ex_merge_nrecv c →
      (merge_cg_buffers 2 1 ex_merge_nrecv ex_merge_nsend (fun k => 20 + k)
          (fun k _ => ((100 + k : Nat) : real)) (fun c => 2 * c) ex_merge_state).index_gl
          (ex_merge_state.ncg_cell (2 + c + 1) + recv_before ex_merge_nrecv c + k) =
        (fun k => 20 + k) (recv_before ex_merge_nrecv c + k) ∧
      (merge_cg_buffers 2 1 ex_merge_nrecv ex_merge_nsend (fun k => 20 + k)
          (fun k _ => ((100 + k : Nat) : real)) (fun c => 2 * c) ex_merge_state).cg_cm
          (ex_merge_state.ncg_cell (2 + c + 1) + recv_before ex_merge_nrecv c + k) =
        (fun k _ => ((100 + k : Nat) : real)) (recv_before ex_merge_nrecv c + k)) ∧
    (∀ j, j < ex_merge_state.ncg_cell 2 →
      (merge_cg_buffers 2 1 ex_merge_nrecv ex_merge_nsend (fun k => 20 + k)
          (fun k _ => ((100 + k : Nat) : real)) (fun c => 2 * c) ex_merge_state).index_gl j =
        ex_merge_state.index_gl j ∧
      (merge_cg_buffers 2 1 ex_merge_nrecv ex_merge_nsend (fun k => 20 + k)
          (fun k _ => ((100 + k : Nat) : real)) (fun c => 2 * c) ex_merge_state).cg_cm j =
        ex_merge_state.cg_cm j) ∧
    (∀ j, j ≤ ex_merge_state.ncg_cell 2 →
      (merge_cg_buffers 2 1 ex_merge_nrecv ex_merge_nsend (fun k => 20 + k)
          (fun k _ => ((100 + k : Nat) : real)) (fun c => 2 * c) ex_merge_state).cgindex j =
        ex_merge_state.cgindex j) ∧
    (∀ j, ex_merge_state.ncg_cell 2 ≤ j →
      j < ex_merge_state.ncg_cell (2 + 2) + recv_before ex_merge_nrecv 2 →
      (merge_cg_buffers 2 1 ex_merge_nrecv ex_merge_nsend (fun k => 20 + k)
          (fun k _ => ((100 + k : Nat) : real)) (fun c => 2 * c) ex_merge_state).cgindex (j + 1) =
        (merge_cg_buffers 2 1 ex_merge_nrecv ex_merge_nsend (fun k => 20 + k)
          (fun k _ => ((100 + k : Nat) : real)) (fun c => 2 * c) ex_merge_state).cgindex j +
          gcgs_size (fun c => 2 * c)
            ((merge_cg_buffers 2 1 ex_merge_nrecv ex_merge_nsend (fun k => 20 + k)
          (fun k _ => ((100 + k : Nat) : real)) (fun c => 2 * c) ex_merge_state).index_gl
              j)) ∧
    (∀ q, 1 ≤ q → q ≤ 1 → ∀ c j, c < 2 →
      nsend_before (ex_merge_nsend q) c ≤ j → j < nsend_before (ex_merge_nsend q) c + ex_merge_nsend q c →
      (merge_cg_buffers 2 1 ex_merge_nrecv ex_merge_nsend (fun k => 20 + k)
          (fun k _ => ((100 + k : Nat) : real)) (fun c => 2 * c) ex_merge_state).ind_index q j =
        ex_merge_state.ind_index q j + recv_before ex_merge_nrecv c ∧
      (ex_merge_state.ncg_cell (2 + c) ≤ ex_merge_state.ind_index q j →
        ex_merge_state.ind_index q j < ex_merge_state.ncg_cell (2 + c + 1) →
        (merge_cg_buffers 2 1 ex_merge_nrecv ex_merge_nsend (fun k => 20 + k)
          (fun k _ => ((100 + k : Nat) : real)) (fun c => 2 * c) ex_merge_state).index_gl
            ((merge_cg_buffers 2 1 ex_merge_nrecv ex_merge_nsend (fun k => 20 + k)
          (fun k _ => ((100 + k : Nat) : real)) (fun c => 2 * c) ex_merge_state).ind_index q j) = ex_merge_state.index_gl (ex_merge_state.ind_index q j) ∧
        (merge_cg_buffers 2 1 ex_merge_nrecv ex_merge_nsend (fun k => 20 + k)
          (fun k _ => ((100 + k : Nat) : real)) (fun c => 2 * c) ex_merge_state).cg_cm
            ((merge_cg_buffers 2 1 ex_merge_nrecv ex_merge_nsend (fun k => 20 + k)
          (fun k _ => ((100 + k : Nat) : real)) (fun c => 2 * c) ex_merge_state).ind_index q j) = ex_merge_state.cg_cm (ex_merge_state.ind_index q j)))) :=
  ⟨⟨ex_merge_state_ranges, ex_merge_nrecv_total, ex_merge_state_cgindex⟩,
    merge_cg_buffers_merges 2 1 ex_merge_nrecv ex_merge_nsend (fun k => 20 + k)
      (fun k _ => ((100 + k : Nat) : real)) (fun c => 2 * c) ex_merge_state
      ex_merge_state_ranges ex_merge_nrecv_total ex_merge_state_cgindex⟩

/-! ## The triclinic correction matrix and shifts by box vectors -/

/-- The lattice coordinate with triclinic correction, written as a sum:
`p[d]` plus `p[k]*tcm[k][d]` over the dimensions `k > d`. -/
theorem lattice_pos_sum (tcm : matrix) (p : rvec) (d : Fin 3) :
    lattice_pos true tcm p d =
      p d + ∑ k ∈ Finset.univ.filter (fun k : Fin 3 => d < k), p k * tcm k d := by
  fin_cases d
  · have e : Finset.univ.filter (fun k : Fin 3 => (0 : Fin 3) < k) = {1, 2} := by decide
    simp only [lattice_pos, finRange_three, List.filter, Fin.zero_eta]
    rw [e]
    simp
    ring
  · have e : Finset.univ.filter (fun k : Fin 3 => (1 : Fin 3) < k) = {2} := by decide
    simp only [lattice_pos, finRange_three, List.filter, Fin.mk_one]
    rw [e]
    simp
  · have e : Finset.univ.filter (fun k : Fin 3 => (2 : Fin 3) < k) = ∅ := by decide
    simp only [lattice_pos, finRange_three, List.filter, Fin.reduceFinMk]
    rw [e]
    simp

/-- A shift by a box vector of a higher dimension leaves the lattice
coordinate unchanged, by the choice of the correction matrix. -/
theorem lattice_pos_shift_upper (box : matrix) (p : rvec) (j d : Fin 3) (hd : d < j)
    (hlow : ∀ i j : Fin 3, i < j → box i j = 0) (hpos : ∀ d, 0 < box d d) :
    lattice_pos true (make_tric_corr_matrix box) (p + box j) d =
      lattice_pos true (make_tric_corr_matrix box) p d := by
  have h01 := hlow 0 1 (by decide)
  have h02 := hlow 0 2 (by decide)
  have h12 := hlow 1 2 (by decide)
  have p0 := (hpos 0).ne'
  have p1 := (hpos 1).ne'
  have p2 := hpos 2
  have p2' := p2.ne'
  fin_cases d <;> fin_cases j <;>
    simp [lattice_pos, finRange_three, List.filter, make_tric_corr_matrix, XX, YY, ZZ,
      h01, h02, h12, p2] at hd ⊢ <;> field_simp <;> ring

/-- C25: for every lower-triangular box with positive diagonal, with `tcm`
from `make_tric_corr_matrix` and the lattice coordinate
`lat_d(p) = p[d] + sum over k > d of p[k]*tcm[k][d]`: for every point `p` and
all dimensions `j`, `d`, the shift by the box vector `j` changes `lat_d` by
`box[d][d]` if `j = d` and not at all otherwise. -/
theorem make_tric_corr_matrix_shift (box : matrix) (p : rvec) (j d : Fin 3)
    (hlow : ∀ i j : Fin 3, i < j → box i j = 0) (hpos : ∀ d, 0 < box d d) :
    lattice_pos true (make_tric_corr_matrix box) p d =
      p d + ∑ k ∈ Finset.univ.filter (fun k : Fin 3 => d < k),
        p k * make_tric_corr_matrix box k d ∧
    lattice_pos true (make_tric_corr_matrix box) (p + box j) d =
      lattice_pos true (make_tric_corr_matrix box) p d + (if j = d then box d d else 0) := by
  refine ⟨lattice_pos_sum _ p d, ?_⟩
  rcases lt_trichotomy j d with h | h | h
  · rw [if_neg (ne_of_lt h), add_zero]
    have := lattice_pos_shift_lower true box (make_tric_corr_matrix box) p 1 d j h hlow
    rw [one_smul] at this
    exact this
  · subst h
    rw [if_pos rfl]
    have := lattice_pos_shift_self true box (make_tric_corr_matrix box) p 1 j hlow
    rw [one_smul, one_mul] at this
    exact this
  · rw [if_neg (ne_of_gt h), add_zero]
    exact lattice_pos_shift_upper box p j d h hlow hpos

/-- Witness of C25: the shift of the point (1,2,3) by the third vector of a
triclinic box, seen along x. -/
theorem make_tric_corr_matrix_shift_witness :
    ((∀ i j : Fin 3, i < j → ex_tric_box i j = 0) ∧ (∀ d, 0 < ex_tric_box d d)) ∧
    (lattice_pos true (make_tric_corr_matrix ex_tric_box) ex_point XX =
      ex_point XX + ∑ k ∈ Finset.univ.filter (fun k : Fin 3 => XX < k),
        ex_point k * make_tric_corr_matrix ex_tric_box k XX ∧
    lattice_pos true (make_tric_corr_matrix ex_tric_box) (ex_point + ex_tric_box ZZ) XX =
      lattice_pos true (make_tric_corr_matrix ex_tric_box) ex_point XX +
        (if ZZ = XX then ex_tric_box XX XX else 0)) :=
  ⟨⟨by decide, by decide⟩,
    make_tric_corr_matrix_shift ex_tric_box ex_point ZZ XX (by decide) (by decide)⟩

/-! ## The pulse count of `set_dd_cell_sizes_slb` -/

/-- The loop `while (cellsize*np < cutoff) np++` ends with the smallest count
from the start value on for which `cellsize*np >= cutoff`. -/
theorem slb_np_loop_spec (fuel : Nat) (cellsize cutoff : real) (np0 r : Nat)
    (h : slb_np_loop fuel cellsize cutoff np0 = some r) :
    np0 ≤ r ∧ cutoff ≤ cellsize * (r : real) ∧
      (r = np0 ∨ cellsize * ((r : real) - 1) < cutoff) := by
  unfold slb_np_loop at h
  have h1 := while_loop_cond_false _ _ fuel np0 r h
  have h2 := while_loop_inv (fun np : Nat => decide (cellsize * (np : real) < cutoff))
    (fun np => np + 1)
    (fun np : Nat => np0 ≤ np ∧ (np = np0 ∨ cellsize * ((np : real) - 1) < cutoff))
    (by
      intro s hs hc
      simp only [decide_eq_true_eq] at hc
      refine ⟨Nat.le_succ_of_le hs.1, Or.inr ?_⟩
      beta_reduce
      push_cast
      rw [add_sub_cancel_right]
      exact hc)
    fuel np0 r ⟨le_refl _, Or.inl rfl⟩ h
  simp only [decide_eq_false_iff_not, not_lt] at h1
  exact ⟨h2.1, h1, h2.2⟩

/-- After the cells `j < n` of a statically load balanced dimension, `np` is
at least 1, suffices for every cell and is 1 or needed by one of them, and
`cellsize_min` is the smaller of its start value and the widths of the
cells. -/
theorem slb_frac_cells_spec (fuel : Nat) (b k c : real) (f : Nat → real) (r0 : slb_row)
    (h0 : r0.np = 1) :
    ∀ n r, slb_frac_cells fuel b k c f n r0 = some r →
      1 ≤ r.np ∧ (∀ j, j < n → c ≤ b * f j * k * (r.np : real)) ∧
      (r.np = 1 ∨ ∃ j, j < n ∧ b * f j * k * ((r.np : real) - 1) < c) ∧
      (∀ j, j < n → r.cellsize_min ≤ b * f j * k) ∧ r.cellsize_min ≤ r0.cellsize_min ∧
      (r.cellsize_min = r0.cellsize_min ∨ ∃ j, j < n ∧ r.cellsize_min = b * f j * k) := by
  intro n
  induction n with
  | zero =>
    intro r h
    simp only [slb_frac_cells, List.range_zero, List.foldl_nil, Option.some.injEq] at h
    subst h
    exact ⟨by omega, fun j hj => absurd hj (Nat.not_lt_zero j), Or.inl h0,
      fun j hj => absurd hj (Nat.not_lt_zero j), le_refl _, Or.inl rfl⟩
  | succ n ih =>
    intro r h
    rw [slb_frac_cells_succ] at h
    cases e : slb_frac_cells fuel b k c f n r0 with
    | none => rw [e] at h; simp at h
    | some r1 =>
      rw [e] at h
      simp only [Option.bind, slb_frac_cell] at h
      cases e2 : slb_np_loop fuel (b * f n * k) c r1.np with
      | none => rw [e2] at h; simp at h
      | some np =>
        rw [e2] at h
        simp only [Option.map_some', Option.some.injEq] at h
        subst h
        obtain ⟨g1, g2, g3, g4, g5, g6⟩ := ih r1 e
        obtain ⟨s1, s2, s3⟩ := slb_np_loop_spec fuel _ c r1.np np e2
        dsimp only
        refine ⟨by omega, ?_, ?_, ?_, le_trans (min_le_left _ _) g5, ?_⟩
        · intro j hj
          rcases Nat.lt_succ_iff_lt_or_eq.mp hj with hj1 | hj1
          · have hle : (r1.np : real) ≤ (np : real) := by exact_mod_cast s1
            have hc := g2 j hj1
            by_cases hw : 0 ≤ b * f j * k
            · exact le_trans hc (mul_le_mul_of_nonneg_left hle hw)
            · rcases s3 with s3 | s3
              · rw [s3]; exact hc
              · rcases Nat.eq_or_lt_of_le s1 with s4 | s4
                · rw [← s4]; exact hc
                · exfalso
                  have h5 : (r1.np : real) ≤ (np : real) - 1 := by
                    have : r1.np + 1 ≤ np := s4
                    have : ((r1.np + 1 : Nat) : real) ≤ (np : real) := by exact_mod_cast this
                    push_cast at this
                    linarith
                  have h6 : (1 : real) ≤ (r1.np : real) := by exact_mod_cast g1
                  have hwn : b * f j * k < 0 := not_le.mp hw
                  nlinarith
          · rw [hj1]; exact s2
        · rcases s3 with s3 | s3
          · rw [s3]
            rcases g3 with g3 | ⟨j, hj, g3⟩
            · exact Or.inl g3
            · exact Or.inr ⟨j, by omega, g3⟩
          · exact Or.inr ⟨n, by omega, s3⟩
        · intro j hj
          rcases Nat.lt_succ_iff_lt_or_eq.mp hj with hj1 | hj1
          · exact le_trans (min_le_left _ _) (g4 j hj1)
          · rw [hj1]; exact min_le_right _ _
        · rcases min_choice r1.cellsize_min (b * f n * k) with hm | hm
          · rw [hm]
            rcases g6 with g6 | ⟨j, hj, g6⟩
            · exact Or.inl g6
            · exact Or.inr ⟨j, by omega, g6⟩
          · rw [hm]
            exact Or.inr ⟨n, by omega, rfl⟩

/-- The smallest count: `np >= 1` suffices for the width `w > 0`, and is 1 or
one more than a count that does not suffice for a width that is not
smaller. -/
theorem smallest_pulse_count (w w2 c : real) (np : Nat) (hw : 0 < w) (hle : w ≤ w2)
    (h3 : np = 1 ∨ w2 * ((np : real) - 1) < c) (n : Nat) (hn : 1 ≤ n)
    (hc : c ≤ (n : real) * w) : np ≤ n := by
  rcases h3 with h3 | h3
  · omega
  · by_contra hlt
    have h4 : n + 1 ≤ np := by omega
    have h5 : ((n + 1 : Nat) : real) ≤ (np : real) := by exact_mod_cast h4
    push_cast at h5
    have h6 : (n : real) ≤ (np : real) - 1 := by linarith
    have h7 : (n : real) * w ≤ ((np : real) - 1) * w := mul_le_mul_of_nonneg_right h6 hw.le
    have h8 : (0 : real) ≤ (np : real) - 1 := by
      have : (0 : real) ≤ (n : real) := Nat.cast_nonneg n
      linarith
    have h9 : ((np : real) - 1) * w ≤ w2 * ((np : real) - 1) := by
      rw [mul_comm]
      exact mul_le_mul_of_nonneg_right hle h8
    linarith

/-- C26: for every dimension with positive box length and skew factor, at
least one cell and, with user fractions, positive fractions that add up to 1:
the loops that increase `np[d]` in `set_dd_cell_sizes_slb` end, and `np[d]` is
the smallest `n >= 1` with `n*cellsize >= cutoff`, where `cellsize` is the
skew-corrected width of the uniform cell or, with user fractions, of the
narrowest cell of the dimension; `cellsize_min[d]` is that width. -/
theorem set_dd_cell_sizes_slb_pulses (nc ci : ivec) (box : matrix) (skew_fac : rvec)
    (slb_frac : Fin 3 → Option (Nat → real)) (cutoff : real) (bMaster : Bool) (d : Fin 3)
    (s : slb_state) (cellsize : real)
    (hbox : 0 < box d d) (hskew : 0 < skew_fac d) (hnc : 1 ≤ nc d)
    (hfrac : ∀ fr, slb_frac d = some fr →
      (∀ j, j < nc d → 0 < fr j) ∧ ∑ j ∈ Finset.range (nc d), fr j = 1)
    (huni : nc d = 1 ∨ slb_frac d = none → cellsize = box d d / (nc d : real) * skew_fac d)
    (hslb : ∀ fr, nc d ≠ 1 → slb_frac d = some fr →
      (∃ j, j < nc d ∧ cellsize = box d d * fr j * skew_fac d) ∧
        ∀ j, j < nc d → cellsize ≤ box d d * fr j * skew_fac d) :
    (∃ fuel s1, slb_dim_cells fuel nc ci box skew_fac slb_frac cutoff bMaster d s = some s1) ∧
    ∀ fuel s1, slb_dim_cells fuel nc ci box skew_fac slb_frac cutoff bMaster d s = some s1 →
      1 ≤ s1.np d ∧ cutoff ≤ (s1.np d : real) * cellsize ∧
      (∀ n : Nat, 1 ≤ n → cutoff ≤ (n : real) * cellsize → s1.np d ≤ n) ∧
      s1.cellsize_min d = cellsize := by
  constructor
  · obtain ⟨F, hF⟩ := slb_dim_cells_terminates nc ci box skew_fac slb_frac cutoff bMaster d
      hbox hskew hnc (fun fr h => (hfrac fr h).1)
    exact ⟨F, hF F (le_refl _) s⟩
  · intro fuel s1 h
    unfold slb_dim_cells at h
    cases e : (if nc d = 1 then none else slb_frac d) with
    | none =>
      have hu : nc d = 1 ∨ slb_frac d = none := by
        by_cases h1 : nc d = 1
        · exact Or.inl h1
        · right; simpa [h1] using e
      have hcs := huni hu
      have hpos : 0 < box d d / (nc d : real) * skew_fac d := by
        apply mul_pos _ hskew
        apply div_pos hbox
        exact_mod_cast hnc
      simp only [e] at h
      cases e1 : slb_np_loop fuel (box d d / (nc d : real) * skew_fac d) cutoff 1 with
      | none => rw [e1] at h; simp at h
      | some np =>
        rw [e1] at h
        simp only [Option.map_some', Option.some.injEq] at h
        subst h
        obtain ⟨s1, s2, s3⟩ := slb_np_loop_spec fuel _ cutoff 1 np e1
        dsimp only
        rw [Function.update_same, Function.update_same, hcs]
        refine ⟨s1, by rw [mul_comm]; exact s2, ?_, rfl⟩
        intro n hn hc
        exact smallest_pulse_count _ _ cutoff np hpos (le_refl _) s3 n hn hc
    | some fr =>
      have h1 : nc d ≠ 1 := by
        intro h1
        simp [h1] at e
      have hfr : slb_frac d = some fr := by simpa [h1] using e
      obtain ⟨hfpos, hsum⟩ := hfrac fr hfr
      obtain ⟨⟨j0, hj0, hcs⟩, hmin⟩ := hslb fr h1 hfr
      simp only [e] at h
      cases e1 : slb_frac_cells fuel (box d d) (skew_fac d) cutoff fr (nc d)
          ⟨Function.update (if bMaster then s.ma_cell_x d else fun _ => 0) 0 0, 1,
            box d d * skew_fac d⟩ with
      | none => rw [e1] at h; simp at h
      | some r =>
        rw [e1] at h
        simp only [Option.map_some', Option.some.injEq] at h
        subst h
        obtain ⟨g1, g2, g3, g4, g5, g6⟩ := slb_frac_cells_spec fuel (box d d) (skew_fac d)
          cutoff fr _ rfl (nc d) r e1
        dsimp only at g5 g6
        dsimp only
        rw [Function.update_same, Function.update_same]
        have hwpos : 0 < cellsize := by
          rw [hcs]
          exact mul_pos (mul_pos hbox (hfpos j0 hj0)) hskew
        have hle1 : ∀ j, j < nc d → fr j ≤ 1 := by
          intro j hj
          rw [← hsum]
          exact Finset.single_le_sum (f := fr)
            (fun i hi => (hfpos i (Finset.mem_range.mp hi)).le) (Finset.mem_range.mpr hj)
        have hinit : ∀ j, j < nc d → box d d * fr j * skew_fac d ≤ box d d * skew_fac d := by
          intro j hj
          have := mul_le_mul_of_nonneg_left (hle1 j hj) hbox.le
          rw [mul_one] at this
          exact mul_le_mul_of_nonneg_right this hskew.le
        have hcm : r.cellsize_min = cellsize := by
          apply le_antisymm
          · rw [hcs]; exact g4 j0 hj0
          · rcases g6 with g6 | ⟨j, hj, g6⟩
            · rw [g6]
              exact le_trans (hmin j0 hj0) (hinit j0 hj0)
            · rw [g6]
              exact hmin j hj
        refine ⟨g1, ?_, ?_, hcm⟩
        · have := g2 j0 hj0
          rw [← hcs] at this
          rw [mul_comm]
          exact this
        · intro n hn hc
          rcases g3 with g3 | ⟨j, hj, g3⟩
          · omega
          · exact smallest_pulse_count cellsize _ cutoff r.np hwpos (hmin j hj) (Or.inr g3)
              n hn hc

theorem ex_slb_frac_sum (fr : Nat → real) (h : ex_slb_frac XX = some fr) :
    (∀ j, j < ex_nc211 XX → 0 < fr j) ∧ ∑ j ∈ Finset.range (ex_nc211 XX), fr j = 1 := by
  simp only [ex_slb_frac, if_true, Option.some.injEq] at h
  subst h
  constructor
  · intro j _
    beta_reduce
    split_ifs <;> norm_num
  · have e : ex_nc211 XX = 2 := by decide
    rw [e, Finset.sum_range_succ, Finset.sum_range_one]
    norm_num

theorem ex_slb_frac_narrowest (fr : Nat → real) (h : ex_slb_frac XX = some fr) :
    (∃ j, j < ex_nc211 XX ∧ (1 / 4 : real) = ex_unit_box XX XX * fr j * (fun _ => 1 : rvec) XX) ∧
      ∀ j, j < ex_nc211 XX →
        (1 / 4 : real) ≤ ex_unit_box XX XX * fr j * (fun _ => 1 : rvec) XX := by
  simp only [ex_slb_frac, if_true, Option.some.injEq] at h
  subst h
  have e : ex_unit_box XX XX = 1 := by decide
  rw [e]
  constructor
  · exact ⟨0, by decide, by norm_num⟩
  · intro j _
    beta_reduce
    split_ifs <;> norm_num

/-- Witness of C26: two cells with the fractions 1/4 and 3/4 of a unit box and
a cut-off of 3/10, for which two pulses are needed. -/
theorem set_dd_cell_sizes_slb_pulses_witness :
    (0 < ex_unit_box XX XX ∧ 0 < (fun _ => 1 : rvec) XX ∧ 1 ≤ ex_nc211 XX ∧
      (∀ fr, ex_slb_frac XX = some fr →
        (∀ j, j < ex_nc211 XX → 0 < fr j) ∧ ∑ j ∈ Finset.range (ex_nc211 XX), fr j = 1) ∧
      (ex_nc211 XX = 1 ∨ ex_slb_frac XX = none →
        (1 / 4 : real) = ex_unit_box XX XX / (ex_nc211 XX : real) * (fun _ => 1 : rvec) XX) ∧
      (∀ fr, ex_nc211 XX ≠ 1 → ex_slb_frac XX = some fr →
        (∃ j, j < ex_nc211 XX ∧
          (1 / 4 : real) = ex_unit_box XX XX * fr j * (fun _ => 1 : rvec) XX) ∧
        ∀ j, j < ex_nc211 XX →
          (1 / 4 : real) ≤ ex_unit_box XX XX * fr j * (fun _ => 1 : rvec) XX)) ∧
    ((∃ fuel s1, slb_dim_cells fuel ex_nc211 (fun _ => 0) ex_unit_box (fun _ => 1) ex_slb_frac
        (3 / 10) true XX slb_state_zero = some s1) ∧
    ∀ fuel s1, slb_dim_cells fuel ex_nc211 (fun _ => 0) ex_unit_box (fun _ => 1) ex_slb_frac
        (3 / 10) true XX slb_state_zero = some s1 →
      1 ≤ s1.np XX ∧ (3 / 10 : real) ≤ (s1.np XX : real) * (1 / 4) ∧
      (∀ n : Nat, 1 ≤ n → (3 / 10 : real) ≤ (n : real) * (1 / 4) → s1.np XX ≤ n) ∧
      s1.cellsize_min XX = 1 / 4) :=
  ⟨⟨by decide, by norm_num, by decide, ex_slb_frac_sum,
      fun h => by
        rcases h with h | h
        · exact absurd h (by decide)
        · simp [ex_slb_frac] at h,
      fun fr _ h => ex_slb_frac_narrowest fr h⟩,
    set_dd_cell_sizes_slb_pulses ex_nc211 (fun _ => 0) ex_unit_box (fun _ => 1) ex_slb_frac
      (3 / 10) true XX slb_state_zero (1 / 4) (by decide) (by norm_num) (by decide)
      ex_slb_frac_sum
      (fun h => by
        rcases h with h | h
        · exact absurd h (by decide)
        · simp [ex_slb_frac] at h)
      (fun fr _ h => ex_slb_frac_narrowest fr h)⟩

/-! ## The result of `factorize` -/

theorem two_mul_le_two_pow (k : Nat) (hk : 1 ≤ k) : 2 * k ≤ 2 ^ k := by
  obtain ⟨m, rfl⟩ : ∃ m, k = m + 1 := ⟨k - 1, by omega⟩
  have := Nat.lt_two_pow m
  rw [pow_succ]
  omega

/-- The product of `ndiv` powers of primes with positive exponents is at least
`2^ndiv`. -/
theorem two_pow_le_factor_prod (div mdiv : Nat → Nat) :
    ∀ ndiv k, (∀ i, i < ndiv → Nat.Prime (div (k + i)) ∧ 1 ≤ mdiv (k + i)) →
      2 ^ ndiv ≤ factor_prod div mdiv ndiv k := by
  intro ndiv
  induction ndiv with
  | zero => intro k _; exact Nat.le_refl _
  | succ n ih =>
    intro k h
    unfold factor_prod
    have h0 := h 0 (Nat.succ_pos _)
    rw [Nat.add_zero] at h0
    have h1 : 2 ≤ div k ^ mdiv k :=
      le_trans h0.1.two_le (Nat.le_self_pow (by omega) _)
    have h2 := ih (k + 1) (fun i hi => by
      have := h (i + 1) (by omega)
      rw [show k + 1 + i = k + (i + 1) by omega]
      exact this)
    rw [pow_succ, Nat.mul_comm]
    exact Nat.mul_le_mul h1 h2

/-- C27: for every `n >= 1`, `factorize(n)` returns (fuel `n` suffices) and,
whenever it returns, `ndiv >= 1` if `n >= 2`, the factors `fac[0] < ... <
fac[ndiv-1]` are primes, every `mfac[i] >= 1`, the product of the powers
`fac[i]^mfac[i]` is `n`, and `ndiv <= n/2`, the length of the arrays; for
`n = 1` it returns 0. -/
theorem factorize_prime_powers (n : Nat) (hn : 1 ≤ n) :
    (∃ r, factorize n n = some r) ∧
    ∀ fuel r, factorize fuel n = some r →
      (2 ≤ n → 1 ≤ r.ndiv) ∧
      (∀ i j, i < j → j < r.ndiv → r.fac i < r.fac j) ∧
      (∀ i, i < r.ndiv → Nat.Prime (r.fac i) ∧ 1 ≤ r.mfac i) ∧
      (∏ i ∈ Finset.range r.ndiv, r.fac i ^ r.mfac i) = n ∧
      r.ndiv ≤ n / 2 ∧ (n = 1 → r.ndiv = 0) := by
  refine ⟨(factorize_spec n hn).1, ?_⟩
  intro fuel r hr
  obtain ⟨h1, h2, h3, h4, h5⟩ := (factorize_spec n hn).2 fuel r hr
  refine ⟨h4, h3, h2, ?_, ?_, h5⟩
  · have := factor_prod_eq_prod r.fac r.mfac r.ndiv 0
    simp only [Nat.zero_add] at this
    rw [← this, h1]
  · have hp := two_pow_le_factor_prod r.fac r.mfac r.ndiv 0
      (fun i hi => by rw [Nat.zero_add]; exact h2 i hi)
    rw [h1] at hp
    by_cases h0 : r.ndiv = 0
    · rw [h0]; exact Nat.zero_le _
    · have := two_mul_le_two_pow r.ndiv (by omega)
      omega

/-- Witness of C27: the factors of 12. -/
theorem factorize_prime_powers_witness :
    (1 ≤ 12) ∧
    ((∃ r, factorize 12 12 = some r) ∧
    ∀ fuel r, factorize fuel 12 = some r →
      (2 ≤ 12 → 1 ≤ r.ndiv) ∧
      (∀ i j, i < j → j < r.ndiv → r.fac i < r.fac j) ∧
      (∀ i, i < r.ndiv → Nat.Prime (r.fac i) ∧ 1 ≤ r.mfac i) ∧
      (∏ i ∈ Finset.range r.ndiv, r.fac i ^ r.mfac i) = 12 ∧
      r.ndiv ≤ 12 / 2 ∧ (12 = 1 → r.ndiv = 0)) :=
  ⟨by decide, factorize_prime_powers 12 (by decide)⟩

/-! ## The relaxed search of `guess_npme` -/

/-- The value `nint_cbrt m` is the integer `r` with
`(r - 1/2)^3 <= m < (r + 1/2)^3`. -/
theorem nint_cbrt_spec (m : Nat) :
    (2 * nint_cbrt m - 1) ^ 3 ≤ 8 * m ∧ 8 * m < (2 * nint_cbrt m + 1) ^ 3 := by
  unfold nint_cbrt
  constructor
  · exact Nat.findGreatest_spec (P := fun r => (2 * r - 1) ^ 3 ≤ 8 * m) (Nat.zero_le m)
      (by simp)
  · have hle := Nat.findGreatest_le (P := fun r => (2 * r - 1) ^ 3 ≤ 8 * m) m
    rcases Nat.lt_or_ge (Nat.findGreatest (fun r => (2 * r - 1) ^ 3 ≤ 8 * m) m) m with h | h
    · have := Nat.findGreatest_is_greatest (P := fun r => (2 * r - 1) ^ 3 ≤ 8 * m)
        (Nat.lt_succ_self _) h
      simp only [not_le] at this
      have e : 2 * (Nat.findGreatest (fun r => (2 * r - 1) ^ 3 ≤ 8 * m) m + 1) - 1 =
          2 * Nat.findGreatest (fun r => (2 * r - 1) ^ 3 ≤ 8 * m) m + 1 := by omega
      rw [e] at this
      exact this
    · have e : Nat.findGreatest (fun r => (2 * r - 1) ^ 3 ≤ 8 * m) m = m := by omega
      rw [e]
      have e1 : (2 * m + 1) ^ 3 = 8 * m ^ 3 + 12 * m ^ 2 + 6 * m + 1 := by ring
      rw [e1]
      rcases Nat.eq_zero_or_pos m with h0 | h0
      · subst h0; simp
      · have := Nat.le_self_pow (show 3 ≠ 0 by decide) m
        omega

/-- The value `spec_floor_cbrt m` is the integer `r` with
`r^3 <= m < (r+1)^3`. -/
theorem spec_floor_cbrt_spec (m : Nat) :
    spec_floor_cbrt m ^ 3 ≤ m ∧ m < (spec_floor_cbrt m + 1) ^ 3 := by
  unfold spec_floor_cbrt
  constructor
  · exact Nat.findGreatest_spec (P := fun r => r ^ 3 ≤ m) (Nat.zero_le m) (by simp)
  · have hle := Nat.findGreatest_le (P := fun r => r ^ 3 ≤ m) m
    rcases Nat.lt_or_ge (Nat.findGreatest (fun r => r ^ 3 ≤ m) m) m with h | h
    · have := Nat.findGreatest_is_greatest (P := fun r => r ^ 3 ≤ m) (Nat.lt_succ_self _) h
      simp only [not_le] at this
      exact this
    · have e : Nat.findGreatest (fun r => r ^ 3 ≤ m) m = m := by omega
      rw [e]
      have e1 : (m + 1) ^ 3 = m ^ 3 + 3 * m ^ 2 + 3 * m + 1 := by ring
      rw [e1]
      omega

/-- With fuel at least `n - 1`, `factorize(n)` returns. -/
theorem factorize_terminates (n fuel : Nat) (hn : 1 ≤ n) (hf : n ≤ fuel + 1) :
    ∃ r, factorize fuel n = some r := by
  unfold factorize
  apply factorize_outer_terminates n fuel _ (factorize_inv_init n hn)
  intro _
  simp only
  omega

/-- A prime that divides the product of the prime powers is one of the
primes. -/
theorem prime_dvd_factor_prod (div mdiv : Nat → Nat) (p : Nat) (hp : Nat.Prime p)
    (ndiv k : Nat) (hprime : ∀ i, i < ndiv → Nat.Prime (div (k + i)))
    (h : p ∣ factor_prod div mdiv ndiv k) : ∃ i, i < ndiv ∧ div (k + i) = p := by
  by_contra hne
  push_neg at hne
  exact prime_not_dvd_factor_prod div mdiv p hp ndiv k
    (fun i hi => ⟨hprime i hi, hne i hi⟩) h

/-- The last factor found by `factorize(m)` for `m >= 2` lies inside the array
and is the largest prime factor of `m`. -/
theorem factorize_last (m : Nat) (hm : 2 ≤ m) (fuel : Nat) (f : factorize_state)
    (hf : factorize fuel m = some f) :
    1 ≤ f.ndiv ∧ f.ndiv - 1 < m / 2 ∧ Nat.Prime (f.fac (f.ndiv - 1)) ∧
      f.fac (f.ndiv - 1) ∣ m ∧ ∀ q, Nat.Prime q → q ∣ m → q ≤ f.fac (f.ndiv - 1) := by
  obtain ⟨h1, h2, h3, h4, _⟩ := (factorize_spec m (by omega)).2 fuel f hf
  have hnd := h4 hm
  have hp := two_pow_le_factor_prod f.fac f.mfac f.ndiv 0
    (fun i hi => by rw [Nat.zero_add]; exact h2 i hi)
  rw [h1] at hp
  have h2k := two_mul_le_two_pow f.ndiv hnd
  have hmono : ∀ i, i < f.ndiv → f.fac i ≤ f.fac (f.ndiv - 1) := by
    intro i hi
    rcases Nat.lt_or_ge i (f.ndiv - 1) with c | c
    · exact Nat.le_of_lt (h3 i (f.ndiv - 1) c (by omega))
    · have e : i = f.ndiv - 1 := by omega
      rw [e]
  refine ⟨hnd, by omega, (h2 _ (by omega)).1, ?_, ?_⟩
  · rw [← h1, factor_prod_eq_prod]
    simp only [Nat.zero_add]
    exact Dvd.dvd.trans (dvd_pow_self _ (by have := (h2 (f.ndiv - 1) (by omega)).2; omega))
      (Finset.dvd_prod_of_mem (fun i => f.fac i ^ f.mfac i)
        (Finset.mem_range.mpr (by omega)))
  · intro q hq hdvd
    rw [← h1] at hdvd
    obtain ⟨i, hi, e⟩ := prime_dvd_factor_prod f.fac f.mfac q hq f.ndiv 0
      (fun i hi => by rw [Nat.zero_add]; exact (h2 i hi).1) hdvd
    rw [Nat.zero_add] at e
    rw [← e]
    exact hmono i hi

/-- C28, as amended: in the relaxed search of `guess_npme`, for a candidate
`P = npme` with `N - P >= 2` the factorisation returns (fuel `N - P - 1` or
more suffices), the value read from `div` is the largest prime factor of
`N - P`, and the test accepts the candidate if and only if that factor is at
most `3 + r`, where `r` is the cube root of `N - P` rounded to the nearest
integer, `(r - 1/2)^3 <= N - P < (r + 1/2)^3`; so a candidate that satisfies
the conditions on the grid and the load ends the loop exactly when every
prime factor of `N - P` is at most `3 + r`. -/
theorem guess_npme_test_nearest (nnodes npme fuel : Nat) (h2 : 2 ≤ nnodes - npme)
    (hfuel : nnodes - npme ≤ fuel + 1) :
    (2 * nint_cbrt (nnodes - npme) - 1) ^ 3 ≤ 8 * (nnodes - npme) ∧
    8 * (nnodes - npme) < (2 * nint_cbrt (nnodes - npme) + 1) ^ 3 ∧
    ∃ ldiv, guess_npme_ldiv fuel nnodes npme = some (some ldiv) ∧
      Nat.Prime ldiv ∧ ldiv ∣ nnodes - npme ∧
      (∀ q, Nat.Prime q → q ∣ nnodes - npme → q ≤ ldiv) ∧
      guess_npme_test fuel nnodes npme =
        some (some (decide (ldiv ≤ 3 + nint_cbrt (nnodes - npme)))) ∧
      (guess_npme_test fuel nnodes npme = some (some true) ↔
        ∀ q, Nat.Prime q → q ∣ nnodes - npme → q ≤ 3 + nint_cbrt (nnodes - npme)) ∧
      ∀ (nkx nky : Nat) (ratio : real) (k : Nat), npme ≤ nnodes / 2 →
        guess_npme_cond nkx nky nnodes npme ratio = true →
        ((∀ q, Nat.Prime q → q ∣ nnodes - npme → q ≤ 3 + nint_cbrt (nnodes - npme)) →
          guess_npme_relaxed fuel nkx nky nnodes ratio (k + 1) npme = some (some npme)) ∧
        (¬ (∀ q, Nat.Prime q → q ∣ nnodes - npme → q ≤ 3 + nint_cbrt (nnodes - npme)) →
          guess_npme_relaxed fuel nkx nky nnodes ratio (k + 1) npme =
            guess_npme_relaxed fuel nkx nky nnodes ratio k (npme + 1)) := by
  obtain ⟨f, hf⟩ := factorize_terminates (nnodes - npme) fuel (by omega) hfuel
  obtain ⟨g1, g2, g3, g4, g5⟩ := factorize_last (nnodes - npme) h2 fuel f hf
  have hl : guess_npme_ldiv fuel nnodes npme = some (some (f.fac (f.ndiv - 1))) := by
    unfold guess_npme_ldiv
    rw [hf]
    simp only [Option.map_some']
    rw [if_pos ⟨g1, g2⟩]
  have ht : guess_npme_test fuel nnodes npme =
      some (some (decide (f.fac (f.ndiv - 1) ≤ 3 + nint_cbrt (nnodes - npme)))) := by
    unfold guess_npme_test
    rw [hl]
    rfl
  have hiff : f.fac (f.ndiv - 1) ≤ 3 + nint_cbrt (nnodes - npme) ↔
      ∀ q, Nat.Prime q → q ∣ nnodes - npme → q ≤ 3 + nint_cbrt (nnodes - npme) :=
    ⟨fun h q hq hd => le_trans (g5 q hq hd) h, fun h => h _ g3 g4⟩
  refine ⟨(nint_cbrt_spec _).1, (nint_cbrt_spec _).2, f.fac (f.ndiv - 1), hl, g3, g4, g5, ht,
    ?_, ?_⟩
  · rw [ht]
    simp only [Option.some.injEq, decide_eq_true_eq]
    exact hiff
  · intro nkx nky ratio k hle hc
    rw [guess_npme_relaxed, if_pos hle, if_pos hc, ht]
    constructor
    · intro h
      simp only [decide_eq_true (hiff.mpr h)]
    · intro h
      simp only [decide_eq_false (fun hb => h (hiff.mp hb))]

/-- Witness of C28: fifteen ranks and one PME rank, `N - P = 14`. -/
theorem guess_npme_test_nearest_witness :
    (2 ≤ 15 - 1 ∧ 15 - 1 ≤ 13 + 1) ∧
    ((2 * nint_cbrt (15 - 1) - 1) ^ 3 ≤ 8 * (15 - 1) ∧
    8 * (15 - 1) < (2 * nint_cbrt (15 - 1) + 1) ^ 3 ∧
    ∃ ldiv, guess_npme_ldiv 13 15 1 = some (some ldiv) ∧
      Nat.Prime ldiv ∧ ldiv ∣ 15 - 1 ∧
      (∀ q, Nat.Prime q → q ∣ 15 - 1 → q ≤ ldiv) ∧
      guess_npme_test 13 15 1 =
        some (some (decide (ldiv ≤ 3 + nint_cbrt (15 - 1)))) ∧
      (guess_npme_test 13 15 1 = some (some true) ↔
        ∀ q, Nat.Prime q → q ∣ 15 - 1 → q ≤ 3 + nint_cbrt (15 - 1)) ∧
      ∀ (nkx nky : Nat) (ratio : real) (k : Nat), 1 ≤ 15 / 2 →
        guess_npme_cond nkx nky 15 1 ratio = true →
        ((∀ q, Nat.Prime q → q ∣ 15 - 1 → q ≤ 3 + nint_cbrt (15 - 1)) →
          guess_npme_relaxed 13 nkx nky 15 ratio (k + 1) 1 = some (some 1)) ∧
        (¬ (∀ q, Nat.Prime q → q ∣ 15 - 1 → q ≤ 3 + nint_cbrt (15 - 1)) →
          guess_npme_relaxed 13 nkx nky 15 ratio (k + 1) 1 =
            guess_npme_relaxed 13 nkx nky 15 ratio k (1 + 1))) :=
  ⟨⟨by decide, by decide⟩, guess_npme_test_nearest 15 1 13 (by decide) (by decide)⟩

/-- Counterexample to C28 as stated: seven ranks, a PME grid of 24 by 24 and
the load estimate `ratio = 1/5`.  The first loop (lines 3781-3787) finds no
candidate: for `npme = 1` the share `1/7` does not exceed `0.95*ratio`, and 2
does not divide 7; it ends with `npme = 3 > 7/3`, so the relaxed search runs.
There the candidate `P = 1` fails the load condition and the candidate `P = 2`
satisfies the conditions on the grid and the load, reaches the test and is
accepted, so that `guess_npme` returns 2, although the largest prime factor 5
of `N - P = 5` exceeds `3 + floor(5^(1/3)) = 4`. -/
theorem guess_npme_accepts_above_floor :
    guess_npme_first 24 24 7 (1 / 5) 5 1 = some 3 ∧ 3 > 7 / 3 ∧
    guess_npme_cond 24 24 7 1 (1 / 5) = false ∧
    guess_npme_cond 24 24 7 2 (1 / 5) = true ∧
    guess_npme_test 5 7 2 = some (some true) ∧
    guess_npme_relaxed 5 24 24 7 (1 / 5) 5 1 = some (some 2) ∧
    guess_npme 5 24 24 7 (1 / 5) = some (guess_npme_result.npme 2) ∧
    Nat.Prime 5 ∧ 5 ∣ 7 - 2 ∧ (∀ q, Nat.Prime q → q ∣ 7 - 2 → q ≤ 5) ∧
    spec_floor_cbrt (7 - 2) = 1 ∧ ¬ (5 ≤ 3 + spec_floor_cbrt (7 - 2)) := by
  refine ⟨by decide!, by decide, by decide!, by decide!, by decide!, by decide!, by decide!,
    by norm_num, by decide, ?_, by decide!, by decide!⟩
  intro q _ hd
  exact Nat.le_of_dvd (by decide) hd

/-! ## The Cartesian layout chosen by `split_communicator` -/

theorem split_bDiv_iff (npmenodes nnodes : Nat) (nc : ivec) (i : Fin 3) :
    split_bDiv npmenodes nnodes nc i = true ↔ (npmenodes * nc i) % nnodes = 0 := by
  unfold split_bDiv
  simp only [decide_eq_true_eq]

/-- Extending a dimension of the grid by `P*nc/nnodes` cells adds `P` cells
when `nnodes`, the size of the grid, divides `P*nc`. -/
theorem extended_grid_cells (P a b c : Nat) (hb : 0 < b) (hdiv : (P * b) % (a * b * c) = 0) :
    a * (b + (P * b) / (a * b * c)) * c = a * b * c + P := by
  obtain ⟨q, hq⟩ := Nat.dvd_of_mod_eq_zero hdiv
  have hP : P = a * c * q := by
    have : b * P = b * (a * c * q) := by
      rw [Nat.mul_comm b P, hq]
      ring
    exact Nat.eq_of_mul_eq_mul_left hb this
  rcases Nat.eq_zero_or_pos (a * b * c) with h0 | h0
  · have hac : a * c = 0 := by
      rcases Nat.mul_eq_zero.mp h0 with h1 | h1
      · rcases Nat.mul_eq_zero.mp h1 with h2 | h2
        · rw [h2, Nat.zero_mul]
        · omega
      · rw [h1, Nat.mul_zero]
    rw [h0, Nat.div_zero, hP, hac, Nat.zero_mul, Nat.add_zero, Nat.add_zero, h0]
  · rw [hq, Nat.mul_div_cancel_left _ h0, hP]
    ring

/-- The layout when `y` qualifies and `z` does not qualify or is not
narrower. -/
theorem layout_extends_y (P : Nat) (nc : ivec) (c0 : Fin 3) (hP : 0 < P)
    (hy : (P * nc YY) % (nc XX * nc YY * nc ZZ) = 0 ∧
      (¬ (P * nc ZZ) % (nc XX * nc YY * nc ZZ) = 0 ∨ nc YY ≤ nc ZZ)) :
    make_dd_communicators_layout true P nc c0 =
      ⟨true, YY, Function.update nc YY (nc YY + (P * nc YY) / (nc XX * nc YY * nc ZZ))⟩ := by
  have hY := split_bDiv_iff P (nc XX * nc YY * nc ZZ) nc YY
  have hZ := split_bDiv_iff P (nc XX * nc YY * nc ZZ) nc ZZ
  unfold make_dd_communicators_layout split_communicator
  rw [if_pos hP, if_pos rfl, if_pos (Or.inl (hY.mpr hy.1))]
  have hc : split_bDiv P (nc XX * nc YY * nc ZZ) nc YY = true ∧
      (¬ split_bDiv P (nc XX * nc YY * nc ZZ) nc ZZ = true ∨ nc YY ≤ nc ZZ) :=
    ⟨hY.mpr hy.1, hy.2.imp (fun h h1 => h (hZ.mp h1)) id⟩
  simp only [if_pos hc]

/-- The layout when `z` qualifies and `y` does not qualify or is wider. -/
theorem layout_extends_z (P : Nat) (nc : ivec) (c0 : Fin 3) (hP : 0 < P)
    (hz : (P * nc ZZ) % (nc XX * nc YY * nc ZZ) = 0)
    (hy : ¬ ((P * nc YY) % (nc XX * nc YY * nc ZZ) = 0 ∧
      (¬ (P * nc ZZ) % (nc XX * nc YY * nc ZZ) = 0 ∨ nc YY ≤ nc ZZ))) :
    make_dd_communicators_layout true P nc c0 =
      ⟨true, ZZ, Function.update nc ZZ (nc ZZ + (P * nc ZZ) / (nc XX * nc YY * nc ZZ))⟩ := by
  have hY := split_bDiv_iff P (nc XX * nc YY * nc ZZ) nc YY
  have hZ := split_bDiv_iff P (nc XX * nc YY * nc ZZ) nc ZZ
  unfold make_dd_communicators_layout split_communicator
  rw [if_pos hP, if_pos rfl, if_pos (Or.inr (hZ.mpr hz))]
  have hc : ¬ (split_bDiv P (nc XX * nc YY * nc ZZ) nc YY = true ∧
      (¬ split_bDiv P (nc XX * nc YY * nc ZZ) nc ZZ = true ∨ nc YY ≤ nc ZZ)) :=
    fun h => hy ⟨hY.mp h.1, h.2.imp (fun h1 h2 => h1 (hZ.mpr h2)) id⟩
  simp only [if_neg hc]

/-- The layout when neither `y` nor `z` qualifies. -/
theorem layout_not_cartesian (P : Nat) (nc : ivec) (c0 : Fin 3) (hP : 0 < P)
    (hn : ¬ ((P * nc YY) % (nc XX * nc YY * nc ZZ) = 0 ∨
      (P * nc ZZ) % (nc XX * nc YY * nc ZZ) = 0)) :
    make_dd_communicators_layout true P nc c0 = ⟨false, c0, nc⟩ := by
  have hY := split_bDiv_iff P (nc XX * nc YY * nc ZZ) nc YY
  have hZ := split_bDiv_iff P (nc XX * nc YY * nc ZZ) nc ZZ
  unfold make_dd_communicators_layout split_communicator
  rw [if_pos hP, if_pos rfl, if_neg (fun h => hn (h.imp hY.mp hZ.mp))]

/-- C29, as amended: when Cartesian PP ordering is requested and `P > 0`, the
Cartesian PP+PME layout is selected if and only if `P*nc[j] mod (N-P) = 0` for
`j = y` or `j = z`, where `N - P = nx*ny*nz` is the number of PP ranks; the
dimension extended is one that qualifies, with the smallest `nc[j]` among
those that qualify, `y` on a tie, and the extended grid `ntot` has `N` cells;
otherwise `ntot` stays `nc`. -/
theorem split_communicator_cartesian_pme (npmenodes : Nat) (nc : ivec) (cartpmedim0 : Fin 3)
    (hP : 0 < npmenodes) (hnc : ∀ d, 0 < nc d) :
    ((make_dd_communicators_layout true npmenodes nc cartpmedim0).bCartesianPP_PME = true ↔
      (npmenodes * nc YY) % (nc XX * nc YY * nc ZZ) = 0 ∨
        (npmenodes * nc ZZ) % (nc XX * nc YY * nc ZZ) = 0) ∧
    ((make_dd_communicators_layout true npmenodes nc cartpmedim0).bCartesianPP_PME = true →
      ((make_dd_communicators_layout true npmenodes nc cartpmedim0).cartpmedim = YY ∨
        (make_dd_communicators_layout true npmenodes nc cartpmedim0).cartpmedim = ZZ) ∧
      (npmenodes * nc (make_dd_communicators_layout true npmenodes nc cartpmedim0).cartpmedim) %
        (nc XX * nc YY * nc ZZ) = 0 ∧
      (∀ j, j = YY ∨ j = ZZ → (npmenodes * nc j) % (nc XX * nc YY * nc ZZ) = 0 →
        nc (make_dd_communicators_layout true npmenodes nc cartpmedim0).cartpmedim ≤ nc j) ∧
      ((npmenodes * nc YY) % (nc XX * nc YY * nc ZZ) = 0 → nc YY ≤ nc ZZ →
        (make_dd_communicators_layout true npmenodes nc cartpmedim0).cartpmedim = YY) ∧
      (make_dd_communicators_layout true npmenodes nc cartpmedim0).ntot XX *
          (make_dd_communicators_layout true npmenodes nc cartpmedim0).ntot YY *
          (make_dd_communicators_layout true npmenodes nc cartpmedim0).ntot ZZ =
        nc XX * nc YY * nc ZZ + npmenodes) ∧
    ((make_dd_communicators_layout true npmenodes nc cartpmedim0).bCartesianPP_PME = false →
      (make_dd_communicators_layout true npmenodes nc cartpmedim0).ntot = nc) := by
  by_cases hsel : (npmenodes * nc YY) % (nc XX * nc YY * nc ZZ) = 0 ∨
      (npmenodes * nc ZZ) % (nc XX * nc YY * nc ZZ) = 0
  · by_cases hy : (npmenodes * nc YY) % (nc XX * nc YY * nc ZZ) = 0 ∧
        (¬ (npmenodes * nc ZZ) % (nc XX * nc YY * nc ZZ) = 0 ∨ nc YY ≤ nc ZZ)
    · rw [layout_extends_y npmenodes nc cartpmedim0 hP hy]
      dsimp only
      refine ⟨⟨fun _ => hsel, fun _ => rfl⟩,
        fun _ => ⟨Or.inl rfl, hy.1, ?_, fun _ _ => rfl, ?_⟩, fun h => by simp at h⟩
      · intro j hj hdj
        rcases hj with e | e
        · rw [e]
        · rw [e]
          rw [e] at hdj
          rcases hy.2 with h | h
          · exact absurd hdj h
          · exact h
      · have e0 : Function.update nc YY (nc YY + (npmenodes * nc YY) / (nc XX * nc YY * nc ZZ)) XX =
            nc XX := Function.update_noteq (by decide) _ _
        have e2 : Function.update nc YY (nc YY + (npmenodes * nc YY) / (nc XX * nc YY * nc ZZ)) ZZ =
            nc ZZ := Function.update_noteq (by decide) _ _
        rw [e0, e2, Function.update_same]
        exact extended_grid_cells npmenodes (nc XX) (nc YY) (nc ZZ) (hnc YY) hy.1
    · have hz : (npmenodes * nc ZZ) % (nc XX * nc YY * nc ZZ) = 0 := by
        rcases hsel with h | h
        · by_contra hn
          exact hy ⟨h, Or.inl hn⟩
        · exact h
      rw [layout_extends_z npmenodes nc cartpmedim0 hP hz hy]
      dsimp only
      refine ⟨⟨fun _ => hsel, fun _ => rfl⟩, fun _ => ⟨Or.inr rfl, hz, ?_, ?_, ?_⟩,
        fun h => by simp at h⟩
      · intro j hj hdj
        rcases hj with e | e
        · rw [e]
          rw [e] at hdj
          by_contra hn
          exact hy ⟨hdj, Or.inr (by omega)⟩
        · rw [e]
      · intro h1 h2
        exact absurd ⟨h1, Or.inr h2⟩ hy
      · have e0 : Function.update nc ZZ (nc ZZ + (npmenodes * nc ZZ) / (nc XX * nc YY * nc ZZ)) XX =
            nc XX := Function.update_noteq (by decide) _ _
        have e1 : Function.update nc ZZ (nc ZZ + (npmenodes * nc ZZ) / (nc XX * nc YY * nc ZZ)) YY =
            nc YY := Function.update_noteq (by decide) _ _
        rw [e0, e1, Function.update_same]
        have := extended_grid_cells npmenodes (nc XX * nc YY) (nc ZZ) 1 (hnc ZZ)
          (by rw [Nat.mul_one]; exact hz)
        rw [Nat.mul_one, Nat.mul_one] at this
        exact this
  · rw [layout_not_cartesian npmenodes nc cartpmedim0 hP hsel]
    dsimp only
    exact ⟨⟨fun h => by simp at h, fun h => absurd h hsel⟩, fun h => by simp at h, fun _ => rfl⟩

/-- Witness of C29: a grid of 2 x 2 x 1 cells and two PME ranks. -/
theorem split_communicator_cartesian_pme_witness :
    (0 < 2 ∧ ∀ d, 0 < ex_nc221 d) ∧
    (((make_dd_communicators_layout true 2 ex_nc221 XX).bCartesianPP_PME = true ↔
      (2 * ex_nc221 YY) % (ex_nc221 XX * ex_nc221 YY * ex_nc221 ZZ) = 0 ∨
        (2 * ex_nc221 ZZ) % (ex_nc221 XX * ex_nc221 YY * ex_nc221 ZZ) = 0) ∧
    ((make_dd_communicators_layout true 2 ex_nc221 XX).bCartesianPP_PME = true →
      ((make_dd_communicators_layout true 2 ex_nc221 XX).cartpmedim = YY ∨
        (make_dd_communicators_layout true 2 ex_nc221 XX).cartpmedim = ZZ) ∧
      (2 * ex_nc221 (make_dd_communicators_layout true 2 ex_nc221 XX).cartpmedim) %
        (ex_nc221 XX * ex_nc221 YY * ex_nc221 ZZ) = 0 ∧
      (∀ j, j = YY ∨ j = ZZ → (2 * ex_nc221 j) % (ex_nc221 XX * ex_nc221 YY * ex_nc221 ZZ) = 0 →
        ex_nc221 (make_dd_communicators_layout true 2 ex_nc221 XX).cartpmedim ≤ ex_nc221 j) ∧
      ((2 * ex_nc221 YY) % (ex_nc221 XX * ex_nc221 YY * ex_nc221 ZZ) = 0 →
        ex_nc221 YY ≤ ex_nc221 ZZ →
        (make_dd_communicators_layout true 2 ex_nc221 XX).cartpmedim = YY) ∧
      (make_dd_communicators_layout true 2 ex_nc221 XX).ntot XX *
          (make_dd_communicators_layout true 2 ex_nc221 XX).ntot YY *
          (make_dd_communicators_layout true 2 ex_nc221 XX).ntot ZZ =
        ex_nc221 XX * ex_nc221 YY * ex_nc221 ZZ + 2) ∧
    ((make_dd_communicators_layout true 2 ex_nc221 XX).bCartesianPP_PME = false →
      (make_dd_communicators_layout true 2 ex_nc221 XX).ntot = ex_nc221)) :=
  ⟨⟨by decide, by decide⟩, split_communicator_cartesian_pme 2 ex_nc221 XX (by decide) (by decide)⟩

/-- Counterexample to C29 as stated: with a grid of 2 x 2 x 1 PP ranks and
`P = 2` PME ranks, `N = 6` ranks in total, the Cartesian PP+PME layout is
selected and `y` is extended to a grid of 6 cells, although neither `P*nc[y]`
nor `P*nc[z]` is a multiple of `N`. -/
theorem split_communicator_selects_without_total_multiple :
    ex_nc221 XX * ex_nc221 YY * ex_nc221 ZZ + 2 = 6 ∧
    (make_dd_communicators_layout true 2 ex_nc221 XX).bCartesianPP_PME = true ∧
    (make_dd_communicators_layout true 2 ex_nc221 XX).cartpmedim = YY ∧
    (make_dd_communicators_layout true 2 ex_nc221 XX).ntot YY = 3 ∧
    ¬ ((2 * ex_nc221 YY) % 6 = 0 ∨ (2 * ex_nc221 ZZ) % 6 = 0) := by
  decide

/-! ## The read of `div[ndiv-1]` in `guess_npme` -/

/-- C30, the code at `N = 2`: the candidate `P = 1` satisfies `1 <= P <= N/2`
and, for a PME grid of 25 x 25 points and a load estimate of 1/4, the
conditions on the grid and the load, so it reaches the test of the relaxed
search; there `factorize(1)` returns `ndiv = 0` for arrays of length 0, the
read `div[ndiv-1]` lies outside the array, and `guess_npme` ends in this
read. -/
theorem guess_npme_read_outside_two_ranks :
    (1 ≤ 1 ∧ 1 ≤ 2 / 2) ∧
    guess_npme_cond 25 25 2 1 (1 / 4) = true ∧
    (∀ fuel, (factorize fuel (2 - 1)).map (fun f => f.ndiv) = some 0) ∧
    (∀ fuel, guess_npme_ldiv fuel 2 1 = some none) ∧
    guess_npme 2 25 25 2 (1 / 4) = some guess_npme_result.read_outside := by
  refine ⟨⟨by decide, by decide⟩, by decide!, ?_, ?_, by decide!⟩
  · intro fuel
    cases fuel <;> rfl
  · intro fuel
    cases fuel <;> rfl

end Domdec
